import Mathlib

/-!
# minjsoncpp: a shallow embedding of `include/minjsoncpp.h`

The definitions below follow the C++ source function by function.  Conventions:

* a `char` is a byte `Fin 256`; `std::string` and `std::string_view` are lists of bytes;
* a `const char *` into a buffer is a `Ptr`: its offset from the start of the buffer together
  with the bytes from it to the end of the buffer, so `*p` is the head of `p.rest`, `p == end`
  is `p.rest = []` and `end - data` is `p.pos + p.rest.length`;
* a function that dereferences a pointer returns `none` when that pointer is at the end of the
  buffer (the read would be outside the input); recursive functions that are not structurally
  recursive take a recursion budget and return `none` when it is used up;
* out-parameters (`Value &`, `String &`) are threaded through: the function takes the current
  content and returns the new one, on failure as well.
-/

set_option autoImplicit false

namespace minjson

/-- One `char`, as its unsigned byte value. -/
abbrev Byte := Fin 256

/-- The content of a `std::string` or `std::string_view`. -/
abbrev Bytes := List Byte

/-- The bytes of an ASCII string literal. -/
def bytes (s : String) : Bytes := s.toList.map fun c => Fin.ofNat c.toNat

/-- Pointer into a buffer: the offset `pos` from the start of the buffer and the bytes `rest`
from the pointer to the end of the buffer. -/
structure Ptr where
  pos : Nat
  rest : Bytes
  deriving DecidableEq, Repr

/-- Pointer increment `++p`. -/
def Ptr.next (p : Ptr) : Ptr := ⟨p.pos + 1, p.rest.tail⟩

/-- The bytes of the range `[b, e)` of two pointers into the same buffer. -/
def Ptr.range (b e : Ptr) : Bytes := b.rest.take (e.pos - b.pos)

/-- The type `int64_t`. -/
abbrev Int64 := { i : Int // -9223372036854775808 ≤ i ∧ i ≤ 9223372036854775807 }

/-- An IEEE-754 binary64 `double` by its bit fields: sign, biased exponent (11 bits) and
fraction (52 bits). -/
structure Double where
  sign : Bool
  exponent : Nat
  fraction : Nat
  deriving DecidableEq, Repr

/-- Is the double a NaN. -/
def Double.isNaN (d : Double) : Bool := d.exponent == 2047 && d.fraction != 0

/-- Is the double `+0.0` or `-0.0`. -/
def Double.isZero (d : Double) : Bool := d.exponent == 0 && d.fraction == 0

/-- Comparison `a == b` of two doubles: a NaN differs from everything, the two zeros are
equal. -/
def Double.eq (a b : Double) : Bool :=
  !a.isNaN && !b.isNaN && ((a.isZero && b.isZero) || a == b)

/-- The tree `BasicValue`: `std::variant<Null, Boolean, int64_t, double, String, Array, Object>`.
An `Object` (`std::unordered_map`) is the list of its entries in iteration order; its keys are
pairwise different. -/
inductive Value where
  | null
  | boolean (b : Bool)
  | int64 (i : Int64)
  | double (d : Double)
  | string (s : Bytes)
  | array (a : List Value)
  | object (o : List (Bytes × Value))
  deriving Repr

instance : Inhabited Value := ⟨.null⟩

/-- Lookup `object->find(key)`. -/
def Object.find (key : Bytes) : List (Bytes × Value) → Option Value
  | [] => none
  | (k, v) :: rest => if k = key then some v else Object.find key rest

/-- Assignment to `it->second` for the entry with the given key. -/
def Object.assign (key : Bytes) (v : Value) : List (Bytes × Value) → List (Bytes × Value)
  | [] => []
  | (k, w) :: rest => if k = key then (k, v) :: rest else (k, w) :: Object.assign key v rest

mutual
/-- Comparison `operator==` of two values (comparison of the variants). -/
def Value.eq : Value → Value → Bool
  | .null, .null => true
  | .boolean a, .boolean b => a == b
  | .int64 a, .int64 b => a.val == b.val
  | .double a, .double b => Double.eq a b
  | .string a, .string b => a == b
  | .array a, .array b => Value.eqArray a b
  | .object a, .object b => a.length == b.length && Value.eqObject a b
  | _, _ => false
/-- Comparison of two `std::vector<Value>`. -/
def Value.eqArray : List Value → List Value → Bool
  | [], [] => true
  | x :: xs, y :: ys => Value.eq x y && Value.eqArray xs ys
  | _, _ => false
/-- Every entry of the first map has an equal entry in the second map. -/
def Value.eqObject : List (Bytes × Value) → List (Bytes × Value) → Bool
  | [], _ => true
  | (k, v) :: rest, b =>
    (match Object.find k b with
     | some w => Value.eq v w
     | none => false) && Value.eqObject rest b
end

mutual
/-- Structural equality of values is decidable. -/
def Value.decEq : (a b : Value) → Decidable (a = b)
  | .null, .null => isTrue rfl
  | .boolean a, .boolean b =>
    if h : a = b then isTrue (by rw [h]) else isFalse (fun e => h (by cases e; rfl))
  | .int64 a, .int64 b =>
    if h : a = b then isTrue (by rw [h]) else isFalse (fun e => h (by cases e; rfl))
  | .double a, .double b =>
    if h : a = b then isTrue (by rw [h]) else isFalse (fun e => h (by cases e; rfl))
  | .string a, .string b =>
    if h : a = b then isTrue (by rw [h]) else isFalse (fun e => h (by cases e; rfl))
  | .array a, .array b =>
    match Value.decEqArray a b with
    | isTrue h => isTrue (by rw [h])
    | isFalse h => isFalse (fun e => h (by cases e; rfl))
  | .object a, .object b =>
    match Value.decEqObject a b with
    | isTrue h => isTrue (by rw [h])
    | isFalse h => isFalse (fun e => h (by cases e; rfl))
  | .null, .boolean _ | .null, .int64 _ | .null, .double _ | .null, .string _
  | .null, .array _ | .null, .object _ => isFalse (fun e => by cases e)
  | .boolean _, .null | .boolean _, .int64 _ | .boolean _, .double _ | .boolean _, .string _
  | .boolean _, .array _ | .boolean _, .object _ => isFalse (fun e => by cases e)
  | .int64 _, .null | .int64 _, .boolean _ | .int64 _, .double _ | .int64 _, .string _
  | .int64 _, .array _ | .int64 _, .object _ => isFalse (fun e => by cases e)
  | .double _, .null | .double _, .boolean _ | .double _, .int64 _ | .double _, .string _
  | .double _, .array _ | .double _, .object _ => isFalse (fun e => by cases e)
  | .string _, .null | .string _, .boolean _ | .string _, .int64 _ | .string _, .double _
  | .string _, .array _ | .string _, .object _ => isFalse (fun e => by cases e)
  | .array _, .null | .array _, .boolean _ | .array _, .int64 _ | .array _, .double _
  | .array _, .string _ | .array _, .object _ => isFalse (fun e => by cases e)
  | .object _, .null | .object _, .boolean _ | .object _, .int64 _ | .object _, .double _
  | .object _, .string _ | .object _, .array _ => isFalse (fun e => by cases e)
/-- Structural equality of arrays is decidable. -/
def Value.decEqArray : (a b : List Value) → Decidable (a = b)
  | [], [] => isTrue rfl
  | [], _ :: _ => isFalse (fun e => by cases e)
  | _ :: _, [] => isFalse (fun e => by cases e)
  | x :: xs, y :: ys =>
    match Value.decEq x y, Value.decEqArray xs ys with
    | isTrue h, isTrue t => isTrue (by rw [h, t])
    | isFalse h, _ => isFalse (fun e => h (by cases e; rfl))
    | _, isFalse t => isFalse (fun e => t (by cases e; rfl))
/-- Structural equality of entry lists is decidable. -/
def Value.decEqObject : (a b : List (Bytes × Value)) → Decidable (a = b)
  | [], [] => isTrue rfl
  | [], _ :: _ => isFalse (fun e => by cases e)
  | _ :: _, [] => isFalse (fun e => by cases e)
  | (k, x) :: xs, (l, y) :: ys =>
    if hk : k = l then
      match Value.decEq x y, Value.decEqObject xs ys with
      | isTrue h, isTrue t => isTrue (by rw [hk, h, t])
      | isFalse h, _ => isFalse (fun e => h (by cases e; rfl))
      | _, isFalse t => isFalse (fun e => t (by cases e; rfl))
    else isFalse (fun e => hk (by cases e; rfl))
end

instance : DecidableEq Value := Value.decEq

/-! ## Options, issues and results -/

/-- The enumeration `ParsingOptions::Option`. -/
inductive ParsingOptions.Option where
  | Ignore
  | Report
  | Fail
  deriving DecidableEq, Repr

/-- The struct `ParsingOptions` with its default member initialisers. -/
structure ParsingOptions where
  duplicateObjectKeys : ParsingOptions.Option := .Fail
  unpairedUtf16Surrogates : ParsingOptions.Option := .Ignore
  replaceInvalidUtf16Surrogates : Bool := false
  replacement : Nat := 0xfffd
  deriving DecidableEq, Repr

/-- The enumeration `ParsingIssue::Code`. -/
inductive ParsingIssue.Code where
  | Other
  | InvalidCharacter
  | UnexpectedEndOfInput
  | FailedToParseNumber
  | ParsedNumberOutOfRange
  | DuplicateKeys
  | StringContainsUnpairedUtf16HighSurrogate
  | StringContainsUnpairedUtf16LowSurrogate
  deriving DecidableEq, Repr

/-- The struct `ParsingIssue`. -/
structure ParsingIssue where
  offset : Nat
  description : String
  code : ParsingIssue.Code := .Other
  deriving DecidableEq, Repr

/-- The enumeration `ParsingResultStatus`. -/
inductive ParsingResultStatus where
  | Failure
  | Success
  | PartialSuccess
  deriving DecidableEq, Repr

/-- The struct `BasicParsingResult`. -/
structure ParsingResult where
  value : Value
  status : ParsingResultStatus
  parsedSize : Nat
  issues : List ParsingIssue
  deriving DecidableEq

/-- The enumeration `ParsingMode`. -/
inductive ParsingMode where
  | VerifyTrailingWhitespace
  | StopAfterValueEnds
  deriving DecidableEq, Repr

/-- The enumeration `UnescapeMode`; `Relaxed` is its first enumerator, so `UnescapeMode{}` is
`Relaxed`. -/
inductive UnescapeMode where
  | Relaxed
  | Strict
  deriving DecidableEq, Repr

/-- The literal `NullLiteral`. -/
def NullLiteral : Bytes := bytes "null"
/-- The literal `FalseLiteral`. -/
def FalseLiteral : Bytes := bytes "false"
/-- The literal `TrueLiteral`. -/
def TrueLiteral : Bytes := bytes "true"

namespace detail

/-- The test `(c & 0xe0) == 0`. -/
def isControlCharacter (c : Byte) : Bool := c.val &&& 0xe0 == 0

/-- The test `'0' <= c && c <= '9'`. -/
def isDecimalDigit (c : Byte) : Bool := 48 ≤ c.val && c.val ≤ 57

/-- The constant `LowerBitsMask<Size>`, `(1u << Size) - 1u`. -/
def LowerBitsMask (size : Nat) : Nat := (1 <<< size) % 2 ^ 32 - 1

/-- The function template `gatherBits<Int_t, Size0, Size1...>(c0, c1...)`, on the list of the
pairs `(Size, c)`: the low `Size` bits of each `c`, concatenated.  The static assertions of
the template bound the total size by the width of `Int_t`. -/
def gatherBits : List (Nat × Nat) → Nat
  | [] => 0
  | [(size0, c0)] => c0 &&& LowerBitsMask size0
  | (size0, c0) :: (s1 :: rest) =>
    ((c0 &&& LowerBitsMask size0) <<< ((s1 :: rest).map Prod.fst).sum) ||| gatherBits (s1 :: rest)

/-! ### `Utf8Encoder` -/

/-- The function template `Utf8Encoder::encodeCodePoint<Size0, Size1...>`: one byte per size,
the mark `0xfffffffe << Size` above the payload bits, cut to a `char`. -/
def Utf8Encoder.encodeCodePoint : List Nat → Nat → Bytes
  | [], _ => []
  | size0 :: size1, codePoint =>
    let mark := (0xfffffffe <<< size0) % 2 ^ 32
    Fin.ofNat ((((codePoint >>> size1.sum) &&& LowerBitsMask size0) ||| mark) % 256)
      :: Utf8Encoder.encodeCodePoint size1 codePoint

/-- The member `Utf8Encoder::encode123`. -/
def Utf8Encoder.encode123 (codePoint : Nat) : Bytes :=
  if codePoint < 0x80 then [Fin.ofNat (codePoint % 256)]
  else if codePoint < 0x800 then Utf8Encoder.encodeCodePoint [5, 6] codePoint
  else Utf8Encoder.encodeCodePoint [4, 6, 6] codePoint

/-- The member `Utf8Encoder::encode4`. -/
def Utf8Encoder.encode4 (codePoint : Nat) : Bytes :=
  Utf8Encoder.encodeCodePoint [3, 6, 6, 6] codePoint

/-- The member `Utf8Encoder::encode(highSurrogate, lowSurrogate)`. -/
def Utf8Encoder.encode (highSurrogate lowSurrogate : Nat) : Bytes :=
  Utf8Encoder.encode4
    ((gatherBits [(10, highSurrogate), (10, lowSurrogate)] + 0x10000) % 2 ^ 32)

/-- The value `~char32_t{ 0 }`, which stands for "do not replace". -/
def DoNotReplaceSurrogates : Nat := 0xffffffff

/-- The member `Utf8Encoder::encodeSurrogateCodeUnitAsCodePoint`. -/
def Utf8Encoder.encodeSurrogateCodeUnitAsCodePoint (codeUnit surrogateReplacement : Nat) : Bytes :=
  if surrogateReplacement = DoNotReplaceSurrogates then Utf8Encoder.encode123 codeUnit
  else if surrogateReplacement ≥ 0x10000 then Utf8Encoder.encode4 surrogateReplacement
  else Utf8Encoder.encode123 surrogateReplacement

/-! ### `EscapedStringParser` -/

/-- The enumeration `EscapedStringParsingResult`. -/
inductive EscapedStringParsingResult where
  | Skip
  | Unescaped
  | HighSurrogate
  | LowSurrogate
  | JsonStringEnd
  | InvalidCharacter
  | UnexpectedEndOfInput
  deriving DecidableEq, Repr

/-- The struct `EscapedStringParser::Result`. -/
structure EscapedStringParser.Result where
  result : EscapedStringParsingResult
  unescaped : Bytes := []
  surrogate : Nat := 0
  deriving DecidableEq, Repr

/-- The loop over the four hex digits of a `\uXXXX` escape in
`EscapedStringParser::parseEscape`, with `n` digits still to read (`expectedEnd - begin`) and
the code unit `c` read so far, followed by the classification of the code unit. -/
def EscapedStringParser.parseEscapeHex : Nat → Nat → Ptr → EscapedStringParser.Result × Ptr
  | 0, c, begin =>
    if c &&& 0xfc00 = 0xd800 then ({ result := .HighSurrogate, surrogate := c }, begin)
    else if c &&& 0xfc00 = 0xdc00 then ({ result := .LowSurrogate, surrogate := c }, begin)
    else ({ result := .Unescaped, unescaped := Utf8Encoder.encode123 c }, begin)
  | n + 1, c, begin =>
    match begin.rest with
    | [] => ({ result := .UnexpectedEndOfInput }, begin)
    | b :: _ =>
      let c := (c <<< 4) % 2 ^ 32
      if isDecimalDigit b then
        EscapedStringParser.parseEscapeHex n (c ||| (b.val - 48)) begin.next
      else
        let x := b.val ||| 0x20
        if 97 ≤ x ∧ x ≤ 102 then
          EscapedStringParser.parseEscapeHex n (c ||| (x - 87)) begin.next
        else ({ result := .InvalidCharacter }, begin)

/-- The member `EscapedStringParser::parseEscape`; `begin` is at the byte after the
backslash. -/
def EscapedStringParser.parseEscape (begin : Ptr) : Option (EscapedStringParser.Result × Ptr) :=
  match begin.rest with
  | [] => none
  | b :: _ =>
    if b.val = 34 then some ({ result := .Unescaped, unescaped := [34] }, begin.next)
    else if b.val = 92 then some ({ result := .Unescaped, unescaped := [92] }, begin.next)
    else if b.val = 47 then some ({ result := .Unescaped, unescaped := [47] }, begin.next)
    else if b.val = 98 then some ({ result := .Unescaped, unescaped := [8] }, begin.next)
    else if b.val = 102 then some ({ result := .Unescaped, unescaped := [12] }, begin.next)
    else if b.val = 110 then some ({ result := .Unescaped, unescaped := [10] }, begin.next)
    else if b.val = 114 then some ({ result := .Unescaped, unescaped := [13] }, begin.next)
    else if b.val = 116 then some ({ result := .Unescaped, unescaped := [9] }, begin.next)
    else if b.val = 117 then some (EscapedStringParser.parseEscapeHex 4 0 begin.next)
    else some ({ result := .InvalidCharacter }, begin)

/-- The member template `EscapedStringParser::parseMore<mode>`. -/
def EscapedStringParser.parseMore (mode : UnescapeMode) (begin : Ptr) :
    Option (EscapedStringParser.Result × Ptr) :=
  match begin.rest with
  | [] => none
  | b :: _ =>
    if b.val = 92 then
      if begin.next.rest = [] then some ({ result := .UnexpectedEndOfInput }, begin.next)
      else EscapedStringParser.parseEscape begin.next
    else if b.val = 34 then some ({ result := .JsonStringEnd }, begin)
    else if mode = .Strict ∧ isControlCharacter b then some ({ result := .InvalidCharacter }, begin)
    else some ({ result := .Skip }, begin.next)

/-- The function `skipWhitespaces(begin, end)` on the offset and the bytes of `begin`: whether
the end was reached, and the new `begin`. -/
def skipWhitespacesFrom : Nat → Bytes → Bool × Ptr
  | pos, [] => (true, ⟨pos, []⟩)
  | pos, b :: rest =>
    if b.val = 9 ∨ b.val = 10 ∨ b.val = 13 ∨ b.val = 32 then skipWhitespacesFrom (pos + 1) rest
    else (false, ⟨pos, b :: rest⟩)

/-- The function `skipWhitespaces`. -/
def skipWhitespaces (begin : Ptr) : Bool × Ptr := skipWhitespacesFrom begin.pos begin.rest

/-! ### The standard library conversions used by the parser

`std::from_chars` is not part of the repository; the three definitions below state what the
C++ standard requires of it for decimal text ([charconv.from.chars]): the longest prefix that
matches the pattern is converted, `ptr` is the end of that prefix, a prefix that matches nothing
is `invalid_argument`, and a value that the type cannot represent is `result_out_of_range`. -/

/-- The result of `std::from_chars`: the error code `ec`, the offset of `ptr` from `first`, and
the converted value when there is one. -/
inductive FromChars (α : Type) where
  | ok (ptr : Nat) (value : α)
  | invalid_argument (ptr : Nat)
  | result_out_of_range (ptr : Nat)
  deriving DecidableEq, Repr

/-- The number written by a run of decimal digits. -/
def digitsValue (ds : Bytes) : Nat := ds.foldl (fun n d => 10 * n + (d.val - 48)) 0

/-- The call `std::from_chars(first, last, integer)` for `int64_t` on the text
`[first, last)`. -/
def from_chars_int64 (text : Bytes) : FromChars Int64 :=
  let neg : Bool := text.head? = some 45
  let body := if neg then text.tail else text
  let ds := body.takeWhile isDecimalDigit
  if ds = [] then .invalid_argument 0
  else
    let ptr := (if neg then 1 else 0) + ds.length
    let n : Int := if neg then -(digitsValue ds : Int) else (digitsValue ds : Int)
    if h : -9223372036854775808 ≤ n ∧ n ≤ 9223372036854775807 then .ok ptr ⟨n, h⟩
    else .result_out_of_range ptr

/-- The least `q` from `q0` on with `t < 2 ^ (53 + q)`, searched through at most `n` values. -/
def Double.roundShift (t : Nat) : Nat → Nat → Nat
  | 0, q => q
  | n + 1, q => if t < 2 ^ (53 + q) then q else Double.roundShift t n (q + 1)

/-- The double nearest to the positive rational `num / den`, ties going to the even fraction,
or `none` when that is beyond the largest finite double.  With `t` the value in units of
`2 ^ -1074`, the unit of the result is `2 ^ (q - 1074)` for the least `q` that leaves at most 53
significant bits (`q = 0` for the subnormals and the smallest normal numbers). -/
def Double.round (sign : Bool) (num den : Nat) : Option Double :=
  let n := num * 2 ^ 1074
  let t := n / den
  let q := Double.roundShift t 2048 0
  let d := den * 2 ^ q
  let m0 := n / d
  let r := n % d
  let m1 := if 2 * r > d ∨ (2 * r = d ∧ m0 % 2 = 1) then m0 + 1 else m0
  let m := if m1 = 2 ^ 53 then 2 ^ 52 else m1
  let q := if m1 = 2 ^ 53 then q + 1 else q
  if m < 2 ^ 52 then some ⟨sign, 0, m⟩
  else if q + 1 ≥ 2047 then none
  else some ⟨sign, q + 1, m - 2 ^ 52⟩

/-- The double for the decimal `m * 10 ^ e` with the sign `neg`, as the result of a conversion
that ends at `ptr`: a value beyond the finite doubles, or one that is not zero and rounds to
zero, is `result_out_of_range`. -/
def decimalToDouble (neg : Bool) (ptr m : Nat) (e : Int) : FromChars Double :=
  if m = 0 then .ok ptr ⟨neg, 0, 0⟩
  else
    match (if 0 ≤ e then Double.round neg (m * 10 ^ e.toNat) 1
           else Double.round neg m (10 ^ (-e).toNat)) with
    | none => .result_out_of_range ptr
    | some d => if d.isZero then .result_out_of_range ptr else .ok ptr d

/-- The exponent part at the start of `r`: the number of bytes it takes and its value; an `e`
that no digit follows (after an optional sign) is not an exponent part. -/
def scanExponent (r : Bytes) : Nat × Int :=
  let hasE : Bool := r.head? = some 101 ∨ r.head? = some 69
  let expNeg : Bool := r.tail.head? = some 45
  let expSigned : Bool := r.tail.head? = some 45 ∨ r.tail.head? = some 43
  let ep := (if expSigned then r.tail.tail else r.tail).takeWhile isDecimalDigit
  if hasE ∧ ep ≠ [] then
    (1 + (if expSigned then 1 else 0) + ep.length,
      if expNeg then -(digitsValue ep : Int) else (digitsValue ep : Int))
  else (0, 0)

/-- The call `std::from_chars(first, last, decimal)` for `double` on decimal text (the only
text the parser passes on): sign, integer digits, fraction, exponent; the value is the nearest
double.  (The source has a second branch for libc++, which calls `std::strtod`; the embedding
follows the branch that calls `std::from_chars`.) -/
def from_chars_double (text : Bytes) : FromChars Double :=
  let neg : Bool := text.head? = some 45
  let body := if neg then text.tail else text
  let ip := body.takeWhile isDecimalDigit
  let r1 := body.drop ip.length
  let hasPoint : Bool := r1.head? = some 46
  let fp := if hasPoint then r1.tail.takeWhile isDecimalDigit else []
  let r2 := if hasPoint then r1.tail.drop fp.length else r1
  if ip = [] ∧ fp = [] then .invalid_argument 0
  else
    decimalToDouble neg
      ((if neg then 1 else 0) + ip.length + (if hasPoint then 1 + fp.length else 0)
        + (scanExponent r2).1)
      (digitsValue (ip ++ fp)) ((scanExponent r2).2 - (fp.length : Int))

end detail

namespace detail

/-! ### `ParserImplBase` and `ParserImpl` -/

/-- The mutable state of `ParserImpl`: the cursor `i` (with `end`) and the vector `issues`.
The members `input`, `options` and `surrogateReplacement` never change; `input.size()` is
`i.pos + i.rest.length` and the options are passed to the functions that read them. -/
structure ParserImpl where
  i : Ptr
  issues : List ParsingIssue
  deriving DecidableEq, Repr

namespace ParserImpl

/-- The member `surrogateReplacement`, set by the constructor of `ParserImplBase`. -/
def surrogateReplacement (options : ParsingOptions) : Nat :=
  if options.replaceInvalidUtf16Surrogates then options.replacement else DoNotReplaceSurrogates

/-- The member `parsedSize()`. -/
def parsedSize (st : ParserImpl) : Nat := st.i.pos

/-- The member `isEmpty()`. -/
def isEmpty (st : ParserImpl) : Bool := st.i.rest.isEmpty

/-- The statement `++i`. -/
def advance (st : ParserImpl) : ParserImpl := { st with i := st.i.next }

/-- The loop of `skipDigits()` on the offset and the bytes of `i`. -/
def skipDigitsFrom : Nat → Bytes → Ptr
  | pos, [] => ⟨pos, []⟩
  | pos, b :: rest => if isDecimalDigit b then skipDigitsFrom (pos + 1) rest else ⟨pos, b :: rest⟩

/-- The member `skipDigits()`. -/
def skipDigits (st : ParserImpl) : ParserImpl :=
  { st with i := skipDigitsFrom st.i.pos st.i.rest }

/-- The member `addIssue(p, description, code)`, with `p` given by its offset. -/
def addIssueAt (st : ParserImpl) (p : Nat) (description : String) (code : ParsingIssue.Code) :
    ParserImpl :=
  { st with issues := st.issues ++ [{ offset := p, description := description, code := code }] }

/-- The member `addIssue(description, code)`. -/
def addIssue (st : ParserImpl) (description : String) (code : ParsingIssue.Code) : ParserImpl :=
  st.addIssueAt st.i.pos description code

/-- The member `addUnexpectedEndOfInputIssue()`. -/
def addUnexpectedEndOfInputIssue (st : ParserImpl) : ParserImpl :=
  st.addIssueAt (st.i.pos + st.i.rest.length) "unexpected end of input" .UnexpectedEndOfInput

/-- The member `addInvalidCharacterIssue(msg)`. -/
def addInvalidCharacterIssue (st : ParserImpl) (msg : String := "invalid character") : ParserImpl :=
  st.addIssue msg .InvalidCharacter

/-- The member `detectEndOfInputAfterSkippingWhitespaces()`. -/
def detectEndOfInputAfterSkippingWhitespaces (st : ParserImpl) : Bool × ParserImpl :=
  let r := skipWhitespaces st.i
  let st := { st with i := r.2 }
  if r.1 then (true, st.addUnexpectedEndOfInputIssue) else (false, st)

/-- The member `detectEndOfInput()`. -/
def detectEndOfInput (st : ParserImpl) : Bool × ParserImpl :=
  if st.isEmpty then (true, st.addUnexpectedEndOfInputIssue) else (false, st)

/-- The member `advanceAndDetectEndOfInput()`. -/
def advanceAndDetectEndOfInput (st : ParserImpl) : Bool × ParserImpl :=
  st.advance.detectEndOfInput

/-- The loop of `match(pattern)` with `*p` the pattern byte to compare and `ps` the pattern
bytes after it; the first case is `detectEndOfInput()` finding `i == end`. -/
def matchLoop : Byte → Bytes → ParserImpl → Bool × ParserImpl
  | p, [], st =>
    match st.i.rest with
    | [] => (false, st.addUnexpectedEndOfInputIssue)
    | b :: _ => if b ≠ p then (false, st.addInvalidCharacterIssue) else (true, st.advance)
  | p, q :: qs, st =>
    match st.i.rest with
    | [] => (false, st.addUnexpectedEndOfInputIssue)
    | b :: _ => if b ≠ p then (false, st.addInvalidCharacterIssue) else matchLoop q qs st.advance

/-- The member `match(pattern)`; the first byte of the pattern is matched already.  The
patterns are the three literals, each longer than one byte. -/
def matchPattern (pattern : Bytes) (st : ParserImpl) : Bool × ParserImpl :=
  match pattern with
  | _ :: p :: ps => matchLoop p ps st.advance
  | _ => (false, st.advance)

/-- The member template `parseLiteral<T, value...>(v, pattern)`, with `lit` the value that
`v.emplace<T>(value...)` stores. -/
def parseLiteral (lit : Value) (pattern : Bytes) (v : Value) (st : ParserImpl) :
    Bool × Value × ParserImpl :=
  let r := matchPattern pattern st
  if r.1 then (true, lit, r.2) else (false, v, r.2)

/-- The member `checkInvalidUtf16SurrogateOptionAndEncode`. -/
def checkInvalidUtf16SurrogateOptionAndEncode (options : ParsingOptions) (s : Bytes)
    (surrogate : Nat) (p : Nat) (description : String) (code : ParsingIssue.Code)
    (st : ParserImpl) : Bool × Bytes × ParserImpl :=
  if options.unpairedUtf16Surrogates ≠ .Ignore then
    let st := st.addIssueAt p description code
    if options.unpairedUtf16Surrogates = .Fail then (false, s, st)
    else (true, s ++ Utf8Encoder.encodeSurrogateCodeUnitAsCodePoint surrogate
      (surrogateReplacement options), st)
  else (true, s ++ Utf8Encoder.encodeSurrogateCodeUnitAsCodePoint surrogate
    (surrogateReplacement options), st)

/-- The member `checkInvalidUtf16HighSurrogateOptionAndEncode`. -/
def checkInvalidUtf16HighSurrogateOptionAndEncode (options : ParsingOptions) (s : Bytes)
    (surrogate : Nat) (p : Nat) (st : ParserImpl) : Bool × Bytes × ParserImpl :=
  checkInvalidUtf16SurrogateOptionAndEncode options s surrogate p
    "string contains unpaired UTF-16 high surrogate" .StringContainsUnpairedUtf16HighSurrogate st

/-- The member `checkInvalidUtf16LowSurrogateOptionAndEncode`. -/
def checkInvalidUtf16LowSurrogateOptionAndEncode (options : ParsingOptions) (s : Bytes)
    (surrogate : Nat) (p : Nat) (st : ParserImpl) : Bool × Bytes × ParserImpl :=
  checkInvalidUtf16SurrogateOptionAndEncode options s surrogate p
    "string contains unpaired UTF-16 low surrogate" .StringContainsUnpairedUtf16LowSurrogate st

/-- How the inner `for (;;)` of `parseString` (after a high surrogate) ends: `parseString`
returns, or the loop is left through `BreakForLoop` with a new `pendingBegin`. -/
inductive SurrogateLoopExit where
  | returned (result : Bool) (s : Bytes) (st : ParserImpl)
  | broke (s : Bytes) (pendingBegin : Ptr) (st : ParserImpl)
  deriving DecidableEq, Repr

/-- The inner `for (;;)` of `parseString(String &)`, entered after a high surrogate escape. -/
def parseStringSurrogates (options : ParsingOptions) :
    Nat → Bytes → Nat → ParserImpl → Option SurrogateLoopExit
  | 0, _, _, _ => none
  | fuel + 1, s, surrogate, st =>
    if st.i.rest = [] then some (.returned false s st.addUnexpectedEndOfInputIssue)
    else
      let pendingBegin := st.i
      match EscapedStringParser.parseMore .Strict st.i with
      | none => none
      | some (r2, i2) =>
        let st := { st with i := i2 }
        match r2.result with
        | .Skip =>
          let c := checkInvalidUtf16HighSurrogateOptionAndEncode options s surrogate
            (pendingBegin.pos - 6) st
          if c.1 then some (.broke c.2.1 pendingBegin c.2.2)
          else some (.returned false c.2.1 c.2.2)
        | .JsonStringEnd =>
          let c := checkInvalidUtf16HighSurrogateOptionAndEncode options s surrogate
            (pendingBegin.pos - 6) st.advance
          some (.returned c.1 c.2.1 c.2.2)
        | .Unescaped =>
          let c := checkInvalidUtf16HighSurrogateOptionAndEncode options s surrogate
            (pendingBegin.pos - 6) st
          if c.1 then some (.broke (c.2.1 ++ r2.unescaped) c.2.2.i c.2.2)
          else some (.returned false c.2.1 c.2.2)
        | .HighSurrogate =>
          let c := checkInvalidUtf16HighSurrogateOptionAndEncode options s surrogate
            (pendingBegin.pos - 6) st
          if c.1 then parseStringSurrogates options fuel c.2.1 r2.surrogate c.2.2
          else some (.returned false c.2.1 c.2.2)
        | .LowSurrogate =>
          some (.broke (s ++ Utf8Encoder.encode surrogate r2.surrogate) st.i st)
        | .InvalidCharacter =>
          some (.returned false s (st.addInvalidCharacterIssue "invalid character while parsing string"))
        | .UnexpectedEndOfInput =>
          some (.returned false s st.addUnexpectedEndOfInputIssue)

/-- The loop `while (!detectEndOfInput())` of `parseString(String &)`. -/
def parseStringLoop (options : ParsingOptions) :
    Nat → Bytes → Ptr → ParserImpl → Option (Bool × Bytes × ParserImpl)
  | 0, _, _, _ => none
  | fuel + 1, s, pendingBegin, st =>
    let e := st.detectEndOfInput
    if e.1 then some (false, s, e.2)
    else
      let st := e.2
      let pendingEnd := st.i
      match EscapedStringParser.parseMore .Strict st.i with
      | none => none
      | some (r, i1) =>
        let st := { st with i := i1 }
        match r.result with
        | .Skip => parseStringLoop options fuel s pendingBegin st
        | .JsonStringEnd => some (true, s ++ pendingBegin.range st.i, st.advance)
        | .Unescaped =>
          parseStringLoop options fuel (s ++ pendingBegin.range pendingEnd ++ r.unescaped) st.i st
        | .HighSurrogate =>
          match parseStringSurrogates options fuel (s ++ pendingBegin.range pendingEnd)
              r.surrogate st with
          | none => none
          | some (.returned b s st) => some (b, s, st)
          | some (.broke s pendingBegin st) => parseStringLoop options fuel s pendingBegin st
        | .LowSurrogate =>
          let c := checkInvalidUtf16LowSurrogateOptionAndEncode options
            (s ++ pendingBegin.range pendingEnd) r.surrogate pendingEnd.pos st
          if c.1 then parseStringLoop options fuel c.2.1 c.2.2.i c.2.2
          else some (false, c.2.1, c.2.2)
        | .InvalidCharacter =>
          some (false, s, st.addInvalidCharacterIssue "invalid character while parsing string")
        | .UnexpectedEndOfInput => some (false, s, st.addUnexpectedEndOfInputIssue)

/-- The member `parseString(String &s)`; the opening quotation mark is matched already.  Every
turn of its loops moves the cursor, so a budget of one more than the bytes left is enough. -/
def parseString (options : ParsingOptions) (s : Bytes) (st : ParserImpl) :
    Option (Bool × Bytes × ParserImpl) :=
  parseStringLoop options (st.advance.i.rest.length + 1) s st.advance.i st.advance

/-- The member `detectDigits()`. -/
def detectDigits (st : ParserImpl) : Option (Bool × ParserImpl) :=
  match st.i.rest with
  | [] => none
  | b :: _ =>
    if !isDecimalDigit b then
      some (false, st.addInvalidCharacterIssue "invalid character, decimal digit expected")
    else some (true, st.advance.skipDigits)

/-- Comparison `a <= b` of two `std::string_view`: the first differing byte decides, then the
length. -/
def stringViewLe : Bytes → Bytes → Bool
  | [], _ => true
  | _ :: _, [] => false
  | a :: as, b :: bs => if a.val < b.val then true else if b.val < a.val then false
    else stringViewLe as bs

/-- The array `maxValue` of `parseNumber`. -/
def maxValue (isNegative : Nat) : Bytes :=
  if isNegative = 0 then bytes "9223372036854775807" else bytes "9223372036854775808"

/-- First part of `parseNumber` ("detecting integer part"), after the optional minus sign. -/
def parseNumberInteger (st : ParserImpl) : Option (Bool × ParserImpl) :=
  match st.i.rest with
  | [] => none
  | b :: _ =>
    if b.val = 48 then some (true, st.advance)
    else if 49 ≤ b.val ∧ b.val ≤ 57 then some (true, st.advance.skipDigits)
    else some (false, st.addInvalidCharacterIssue)

/-- Second part of `parseNumber` ("detecting fraction part"): whether to go on, whether a
fraction was read, the state. -/
def parseNumberFraction (st : ParserImpl) : Option (Bool × Bool × ParserImpl) :=
  match st.i.rest with
  | [] => some (true, false, st)
  | b :: _ =>
    if b.val = 46 then
      let e := st.advanceAndDetectEndOfInput
      if e.1 then some (false, false, e.2)
      else
        match detectDigits e.2 with
        | none => none
        | some (false, st) => some (false, false, st)
        | some (true, st) => some (true, true, st)
    else some (true, false, st)

/-- Third part of `parseNumber` ("detecting exponent part"): whether to go on, whether an
exponent was read, the state. -/
def parseNumberExponent (st : ParserImpl) : Option (Bool × Bool × ParserImpl) :=
  match st.i.rest with
  | [] => some (true, false, st)
  | b :: _ =>
    if b.val ||| 0x20 = 101 then
      let e := st.advanceAndDetectEndOfInput
      if e.1 then some (false, false, e.2)
      else
        match e.2.i.rest with
        | [] => none
        | c :: _ =>
          let e2 := if c.val = 43 ∨ c.val = 45 then e.2.advanceAndDetectEndOfInput
            else (false, e.2)
          if e2.1 then some (false, false, e2.2)
          else
            match detectDigits e2.2 with
            | none => none
            | some (false, st) => some (false, false, st)
            | some (true, st) => some (true, true, st)
    else some (true, false, st)

/-- Last part of `parseNumber`: the conversion of the text `[begin, i)`, as `int64_t` when
there was neither fraction nor exponent and the digits are at most those of the largest
magnitude, as `double` otherwise. -/
def parseNumberConvert (begin : Ptr) (isNegative : Nat) (isDecimal : Bool) (v : Value)
    (st : ParserImpl) : Bool × Value × ParserImpl :=
  let length := st.i.pos - begin.pos - isNegative
  if !isDecimal ∧ (length < 19 ∨
      (length = 19 ∧ stringViewLe ((begin.rest.drop isNegative).take 19) (maxValue isNegative)))
  then
    match from_chars_int64 (begin.range st.i) with
    | .ok _ integer => (true, .int64 integer, st)
    | .invalid_argument ptr =>
      (false, v, st.addIssueAt (begin.pos + ptr) "failed to parse number value" .FailedToParseNumber)
    | .result_out_of_range ptr =>
      (false, v, st.addIssueAt (begin.pos + ptr) "failed to parse number value" .FailedToParseNumber)
  else
    match from_chars_double (begin.range st.i) with
    | .ok _ decimal => (true, .double decimal, st)
    | .result_out_of_range _ =>
      (false, v, st.addIssueAt begin.pos "parsed number value is out of range" .ParsedNumberOutOfRange)
    | .invalid_argument ptr =>
      (false, v, st.addIssueAt (begin.pos + ptr) "failed to parse number value" .FailedToParseNumber)

/-- The member `parseNumber(Variant &v)` after the optional minus sign: the three parts of the
number and its conversion. -/
def parseNumberBody (begin : Ptr) (isNegative : Nat) (v : Value) (st : ParserImpl) :
    Option (Bool × Value × ParserImpl) :=
  match parseNumberInteger st with
  | none => none
  | some (false, st) => some (false, v, st)
  | some (true, st) =>
    match parseNumberFraction st with
    | none => none
    | some (false, _, st) => some (false, v, st)
    | some (true, isDecimal1, st) =>
      match parseNumberExponent st with
      | none => none
      | some (false, _, st) => some (false, v, st)
      | some (true, isDecimal2, st) =>
        some (parseNumberConvert begin isNegative (isDecimal1 || isDecimal2) v st)

/-- The member `parseNumber(Variant &v)`. -/
def parseNumber (v : Value) (st : ParserImpl) : Option (Bool × Value × ParserImpl) :=
  match st.i.rest with
  | [] => none
  | b :: _ =>
    let begin := st.i
    let isNegative : Nat := if b.val = 45 then 1 else 0
    let e := if isNegative ≠ 0 then st.advanceAndDetectEndOfInput else (false, st)
    if e.1 then some (false, v, e.2)
    else parseNumberBody begin isNegative v e.2

/-- The call `a.resize(n)` of a `std::vector<Value>`. -/
def resize (a : List Value) (n : Nat) : List Value :=
  a.take n ++ List.replicate (n - a.length) Value.null

/-- The call `o.try_emplace(std::move(key))`: the map after it and the flag `isInserted`. -/
def tryEmplace (o : List (Bytes × Value)) (key : Bytes) : List (Bytes × Value) × Bool :=
  match Object.find key o with
  | some _ => (o, false)
  | none => (o ++ [(key, Value.null)], true)

mutual
/-- The member `parseImpl(Variant &v)`. -/
def parseImpl (options : ParsingOptions) :
    Nat → Value → ParserImpl → Option (Bool × Value × ParserImpl)
  | 0, _, _ => none
  | fuel + 1, v, st =>
    match st.i.rest with
    | [] => none
    | b :: _ =>
      if b.val = 110 then some (parseLiteral .null NullLiteral v st)
      else if b.val = 102 then some (parseLiteral (.boolean false) FalseLiteral v st)
      else if b.val = 116 then some (parseLiteral (.boolean true) TrueLiteral v st)
      else if b.val = 34 then
        match parseString options [] st with
        | none => none
        | some (r, s, st) => some (r, .string s, st)
      else if b.val = 91 then parseArray options fuel v st
      else if b.val = 123 then parseObject options fuel v st
      else parseNumber v st
/-- The member `parseArray(Variant &v)`. -/
def parseArray (options : ParsingOptions) :
    Nat → Value → ParserImpl → Option (Bool × Value × ParserImpl)
  | 0, _, _ => none
  | fuel + 1, v, st =>
    let e := st.advance.detectEndOfInputAfterSkippingWhitespaces
    if e.1 then some (false, v, e.2)
    else
      match e.2.i.rest with
      | [] => none
      | b :: _ =>
        if b.val = 93 then some (true, .array [], e.2.advance)
        else
          match parseArrayMembersRecursion options fuel [] .null 1 e.2 with
          | none => none
          | some (true, a, u, st) => some (true, .array (a.set 0 u), st)
          | some (false, a, _, st) => some (false, .array a, st)
/-- The member template `parseArrayMembers<IterationMode::Recursion>(a, v, size)`: the result,
the array `a`, the value `*v` and the state. -/
def parseArrayMembersRecursion (options : ParsingOptions) :
    Nat → List Value → Value → Nat → ParserImpl →
      Option (Bool × List Value × Value × ParserImpl)
  | 0, _, _, _, _ => none
  | fuel + 1, a, v, size, st =>
    match parseImpl options fuel v st with
    | none => none
    | some (false, v, st) => some (false, a, v, st)
    | some (true, v, st) =>
      let e := st.detectEndOfInputAfterSkippingWhitespaces
      if e.1 then some (false, a, v, e.2)
      else
        match e.2.i.rest with
        | [] => none
        | b :: _ =>
          if b.val = 93 then some (true, resize a size, v, e.2.advance)
          else if b.val = 44 then
            let e := e.2.advance.detectEndOfInputAfterSkippingWhitespaces
            if e.1 then some (false, a, v, e.2)
            else if size > 42 then
              match parseArrayMembersLoop options fuel (resize a (size + 1)) e.2 with
              | none => none
              | some (r, a, st) => some (r, a, v, st)
            else
              match parseArrayMembersRecursion options fuel a .null (size + 1) e.2 with
              | none => none
              | some (true, a, u, st) => some (true, a.set size u, v, st)
              | some (false, a, _, st) => some (false, a, v, st)
          else some (false, a, v,
            e.2.addInvalidCharacterIssue "invalid character, ',' or ']' expected")
/-- The member template `parseArrayMembers<IterationMode::Loop>(a, v)`, where `v` always points
to the last element of `a`. -/
def parseArrayMembersLoop (options : ParsingOptions) :
    Nat → List Value → ParserImpl → Option (Bool × List Value × ParserImpl)
  | 0, _, _ => none
  | fuel + 1, a, st =>
    match parseImpl options fuel (a.getLastD .null) st with
    | none => none
    | some (false, v, st) => some (false, a.dropLast ++ [v], st)
    | some (true, v, st) =>
      let a := a.dropLast ++ [v]
      let e := st.detectEndOfInputAfterSkippingWhitespaces
      if e.1 then some (false, a, e.2)
      else
        match e.2.i.rest with
        | [] => none
        | b :: _ =>
          if b.val = 93 then some (true, a, e.2.advance)
          else if b.val = 44 then
            let e := e.2.advance.detectEndOfInputAfterSkippingWhitespaces
            if e.1 then some (false, a, e.2)
            else parseArrayMembersLoop options fuel (a ++ [.null]) e.2
          else some (false, a,
            e.2.addInvalidCharacterIssue "invalid character, ',' or ']' expected")
/-- The member `parseObject(Variant &v)`. -/
def parseObject (options : ParsingOptions) :
    Nat → Value → ParserImpl → Option (Bool × Value × ParserImpl)
  | 0, _, _ => none
  | fuel + 1, v, st =>
    let e := st.advance.detectEndOfInputAfterSkippingWhitespaces
    if e.1 then some (false, v, e.2)
    else
      match e.2.i.rest with
      | [] => none
      | b :: _ =>
        if b.val = 125 then some (true, .object [], e.2.advance)
        else
          match parseObjectMembers options fuel [] e.2 with
          | none => none
          | some (r, o, st) => some (r, .object o, st)
/-- The loop `for (;;)` of `parseObject` over the members, on the map `o`. -/
def parseObjectMembers (options : ParsingOptions) :
    Nat → List (Bytes × Value) → ParserImpl → Option (Bool × List (Bytes × Value) × ParserImpl)
  | 0, _, _ => none
  | fuel + 1, o, st =>
    match st.i.rest with
    | [] => none
    | b :: _ =>
      if b.val ≠ 34 then
        some (false, o, st.addInvalidCharacterIssue "invalid character, JSON string expected")
      else
        let keyBegin := st.i
        match parseString options [] st with
        | none => none
        | some (false, _, st) => some (false, o, st)
        | some (true, key, st) =>
          let e := st.detectEndOfInputAfterSkippingWhitespaces
          if e.1 then some (false, o, e.2)
          else
            match e.2.i.rest with
            | [] => none
            | c :: _ =>
              if c.val ≠ 58 then
                some (false, o, e.2.addInvalidCharacterIssue "invalid character, ':' expected")
              else
                let e := e.2.advance.detectEndOfInputAfterSkippingWhitespaces
                if e.1 then some (false, o, e.2)
                else
                  let t := tryEmplace o key
                  let o := t.1
                  let isInserted := t.2
                  let st := if !isInserted ∧ options.duplicateObjectKeys ≠ .Ignore then
                      e.2.addIssueAt keyBegin.pos "JSON object contains duplicate keys" .DuplicateKeys
                    else e.2
                  if !isInserted ∧ options.duplicateObjectKeys = .Fail then some (false, o, st)
                  else
                    match parseImpl options fuel ((Object.find key o).getD .null) st with
                    | none => none
                    | some (false, w, st) => some (false, Object.assign key w o, st)
                    | some (true, w, st) =>
                      let o := Object.assign key w o
                      let e := st.detectEndOfInputAfterSkippingWhitespaces
                      if e.1 then some (false, o, e.2)
                      else
                        match e.2.i.rest with
                        | [] => none
                        | d :: _ =>
                          if d.val = 125 then some (true, o, e.2.advance)
                          else if d.val = 44 then
                            let e := e.2.advance.detectEndOfInputAfterSkippingWhitespaces
                            if e.1 then some (false, o, e.2)
                            else parseObjectMembers options fuel o e.2
                          else some (false, o,
                            e.2.addInvalidCharacterIssue "invalid character, ',' or '\x7d' expected")
end

/-- The member `parse(Value &v)`, with the recursion budget for `parseImpl`. -/
def parse (options : ParsingOptions) (fuel : Nat) (v : Value) (st : ParserImpl) :
    Option (Bool × Value × ParserImpl) :=
  let e := st.detectEndOfInputAfterSkippingWhitespaces
  if e.1 then some (false, v, e.2) else parseImpl options fuel v e.2

end ParserImpl

end detail

namespace impl

/-- The function `impl::parse(input, options, allocator)`.  Each nested call of the parser
moves the cursor before it calls again, so a budget of three steps for each input byte is
enough. -/
def parse (input : Bytes) (options : ParsingOptions) : Option ParsingResult :=
  match detail.ParserImpl.parse options (3 * input.length + 1) .null
      { i := ⟨0, input⟩, issues := [] } with
  | none => none
  | some (r, value, parser) =>
    some { value := value,
           status := if r then .Success else .Failure,
           parsedSize := parser.parsedSize,
           issues := parser.issues }

end impl

/-- The function `parse(input, options, parsingMode, allocator)`. -/
def parse (input : Bytes) (options : ParsingOptions := {})
    (parsingMode : ParsingMode := .VerifyTrailingWhitespace) : Option ParsingResult :=
  match impl.parse input options with
  | none => none
  | some result =>
    if result.status = .Success ∧ parsingMode = .VerifyTrailingWhitespace then
      let w := detail.skipWhitespaces ⟨result.parsedSize, input.drop result.parsedSize⟩
      let result := { result with parsedSize := w.2.pos }
      if !w.1 then
        some { result with
               status := .PartialSuccess,
               issues := result.issues ++
                 [{ offset := result.parsedSize,
                    description := "non-whitespace characters after a valid JSON value" }] }
      else some result
    else some result

/-! ## The escaper -/

/-- The enumeration `Escape`. -/
inductive Escape where
  | Default
  | NonAscii
  deriving DecidableEq, Repr

/-- The enumeration `Utf8Validation`. -/
inductive Utf8Validation where
  | IgnoreInvalidUtf8CodeUnits
  | FailOnInvalidUtf8CodeUnits
  deriving DecidableEq, Repr

/-- The enumeration `HexDigitsCase`. -/
inductive HexDigitsCase where
  | Lower
  | Upper
  deriving DecidableEq, Repr

namespace detail

/-- The function `matchCommonCharacterToEscape`; the result `0` is `'\0'`. -/
def matchCommonCharacterToEscape (c : Byte) : Byte :=
  if c.val = 8 then 98
  else if c.val = 9 then 116
  else if c.val = 10 then 110
  else if c.val = 12 then 102
  else if c.val = 13 then 114
  else if c.val = 34 then 34
  else if c.val = 92 then 92
  else 0

/-- The function template `isUtf8CodeUnit<N>`. -/
def isUtf8CodeUnit (n : Nat) (c : Byte) : Bool :=
  let mask := (0xff <<< (7 - n)) % 256
  let pattern := (0xff <<< (8 - n)) % 256
  mask &&& c.val == pattern

/-- The function `getExpectedUtf8CodePointSize`. -/
def getExpectedUtf8CodePointSize (c : Byte) : Nat :=
  if isUtf8CodeUnit 2 c then 2
  else if isUtf8CodeUnit 3 c then 3
  else if isUtf8CodeUnit 4 c then 4
  else 1

/-- The function `detectUtf8CodePointSize(begin, end)`. -/
def detectUtf8CodePointSize (begin : Ptr) : Option Nat :=
  match begin.rest with
  | [] => none
  | b :: rest =>
    let expectedSize := getExpectedUtf8CodePointSize b
    if expectedSize ≠ 1 ∧ (b :: rest).length ≥ expectedSize ∧
        (rest.take (expectedSize - 1)).all (isUtf8CodeUnit 1) then some expectedSize
    else some 0

/-- The two digit tables of `EscapedChar`. -/
def EscapedChar.hexDigits (hexDigitsCase : HexDigitsCase) : Bytes :=
  if hexDigitsCase = .Lower then bytes "0123456789abcdef" else bytes "0123456789ABCDEF"

/-- The lookup `hexDigits[n]`. -/
def EscapedChar.hexDigit (hexDigitsCase : HexDigitsCase) (n : Nat) : Byte :=
  (EscapedChar.hexDigits hexDigitsCase).getD n 0

/-- The member `EscapedChar::decorate`. -/
def EscapedChar.decorate (escape : Byte) : Bytes := [92, escape]

/-- The member `EscapedChar::get(char c)`. -/
def EscapedChar.getChar (h : HexDigitsCase) (c : Byte) : Bytes :=
  [92, 117, 48, 48, EscapedChar.hexDigit h (c.val >>> 4), EscapedChar.hexDigit h (c.val &&& 0xf)]

/-- The member `EscapedChar::write(char *p, uint16_t c)`. -/
def EscapedChar.write (h : HexDigitsCase) (c : Nat) : Bytes :=
  [92, 117, EscapedChar.hexDigit h (c >>> 12), EscapedChar.hexDigit h ((c >>> 8) &&& 0xf),
    EscapedChar.hexDigit h ((c >>> 4) &&& 0xf), EscapedChar.hexDigit h (c &&& 0xf)]

/-- The member `EscapedChar::get(uint16_t c)`. -/
def EscapedChar.get (h : HexDigitsCase) (c : Nat) : Bytes := EscapedChar.write h c

/-- The member `EscapedChar::getSurrogates(uint32_t c)`. -/
def EscapedChar.getSurrogates (h : HexDigitsCase) (c : Nat) : Bytes :=
  let surrogatePair := (c + 2 ^ 32 - 0x10000) % 2 ^ 32
  EscapedChar.write h (((surrogatePair >>> 10) ||| 0xd800) % 2 ^ 16) ++
    EscapedChar.write h (((surrogatePair &&& LowerBitsMask 10) ||| 0xdc00) % 2 ^ 16)

/-- The call `writePending(i)` of `EscapedStringWriter`: the range goes to the sink. -/
def EscapedStringWriter.writePending (out : List Bytes) (pendingBegin i : Ptr) : List Bytes :=
  out ++ [pendingBegin.range i]

/-- The call `writeAndAdvance(i, escapeSequence, inc)` of `EscapedStringWriter`, as far as the
sink goes; the new `pendingBegin` is `i + inc`. -/
def EscapedStringWriter.writeAndAdvance (out : List Bytes) (pendingBegin i : Ptr)
    (escapeSequence : Bytes) : List Bytes :=
  (if pendingBegin.pos ≠ i.pos then EscapedStringWriter.writePending out pendingBegin i else out)
    ++ [escapeSequence]

/-- The escape sequence that `writeImpl` computes for a code point of `codePointSize` bytes
at `i`. -/
def EscapedStringWriter.escapeSequence (h : HexDigitsCase) (codePointSize : Nat) (i : Ptr) :
    Bytes :=
  let c (k : Nat) : Nat := ((i.rest.getD k 0 : Byte)).val
  if codePointSize = 3 then EscapedChar.get h (gatherBits [(4, c 0), (6, c 1), (6, c 2)])
  else if codePointSize = 4 then
    EscapedChar.getSurrogates h (gatherBits [(3, c 0), (6, c 1), (6, c 2), (6, c 3)])
  else EscapedChar.get h (gatherBits [(5, c 0), (6, c 1)])

/-- The member template `EscapedStringWriter::writeImpl<escapeMode>`, from the inside of its
`for (;;)` at the byte `i`, for the mode with the flags `escapeNonAscii` and `validateUtf8`: the
pointer it returns and what went to the sink.  `out` is what went to the sink so far. -/
def EscapedStringWriter.writeImplFrom (escapeNonAscii validateUtf8 : Bool) (h : HexDigitsCase) :
    Nat → List Bytes → Ptr → Ptr → Option (Ptr × List Bytes)
  | 0, _, _, _ => none
  | fuel + 1, out, pendingBegin, i =>
    match i.rest with
    | [] => none
    | b :: _ =>
      -- after a `break` of the `for (;;)`: the test of the `while`, then `i = pendingBegin`
      let afterBreak (out : List Bytes) (pendingBegin : Ptr) : Option (Ptr × List Bytes) :=
        if pendingBegin.rest = [] then some (pendingBegin, out)
        else EscapedStringWriter.writeImplFrom escapeNonAscii validateUtf8 h fuel out
          pendingBegin pendingBegin
      -- the label `CheckEnd`
      let checkEnd (i : Ptr) : Option (Ptr × List Bytes) :=
        if i.rest = [] then some (i, EscapedStringWriter.writePending out pendingBegin i)
        else EscapedStringWriter.writeImplFrom escapeNonAscii validateUtf8 h fuel out
          pendingBegin i
      if matchCommonCharacterToEscape b ≠ 0 then
        afterBreak (EscapedStringWriter.writeAndAdvance out pendingBegin i
          (EscapedChar.decorate (matchCommonCharacterToEscape b))) i.next
      else if isControlCharacter b then
        afterBreak (EscapedStringWriter.writeAndAdvance out pendingBegin i
          (EscapedChar.getChar h b)) i.next
      else if (escapeNonAscii ∨ validateUtf8) ∧ b.val &&& 0x80 ≠ 0 then
        match detectUtf8CodePointSize i with
        | none => none
        | some codePointSize =>
          if escapeNonAscii then
            if codePointSize ≠ 0 then
              afterBreak (EscapedStringWriter.writeAndAdvance out pendingBegin i
                (EscapedStringWriter.escapeSequence h codePointSize i))
                ⟨i.pos + codePointSize, i.rest.drop codePointSize⟩
            else if validateUtf8 then some (i, out)
            else checkEnd i.next
          else
            if codePointSize = 0 then some (i, out)
            else checkEnd ⟨i.pos + codePointSize, i.rest.drop codePointSize⟩
      else checkEnd i.next

/-- The member `EscapedStringWriter::write(begin, end, escape, validation)`: the pointer it
returns and the fragments it sends to the sink, in order. -/
def EscapedStringWriter.write (begin : Ptr) (escape : Escape) (validation : Utf8Validation)
    (h : HexDigitsCase) : Option (Ptr × List Bytes) :=
  if begin.rest = [] then some (begin, [])
  else EscapedStringWriter.writeImplFrom (escape = .NonAscii)
    (validation = .FailOnInvalidUtf8CodeUnits) h (begin.rest.length + 1) [] begin begin

end detail

namespace impl

/-- The function `impl::escape(sink, s, escapeMode, validation, hexDigitsCase)`: its result and
the fragments it sends to the sink, in order. -/
def escape (s : Bytes) (escapeMode : Escape) (validation : Utf8Validation)
    (hexDigitsCase : HexDigitsCase) : Option (Nat × List Bytes) :=
  match detail.EscapedStringWriter.write ⟨0, s⟩ escapeMode validation hexDigitsCase with
  | none => none
  | some (escapedEnd, out) => some (escapedEnd.pos, out)

end impl

/-- The function `escape(s, escapeMode, validation, hexDigitsCase)`; a `StringSink` appends
the fragments to the result. -/
def escape (s : Bytes) (escapeMode : Escape := .Default)
    (validation : Utf8Validation := .IgnoreInvalidUtf8CodeUnits)
    (hexDigitsCase : HexDigitsCase := .Lower) : Option Bytes :=
  if s ≠ [] then
    match impl.escape s escapeMode validation hexDigitsCase with
    | none => none
    | some (n, out) => if n = s.length then some out.flatten else some []
  else some []

/-! ## The unescaper -/

namespace detail

/-- The call `writePending(pendingEnd)` of `UnescapeParser`. -/
def UnescapeParser.writePending (out : List Bytes) (pendingBegin pendingEnd : Ptr) : List Bytes :=
  if pendingBegin.pos ≠ pendingEnd.pos then out ++ [pendingBegin.range pendingEnd] else out

/-- How the inner `for (;;)` of `UnescapeParser::unescape` ends: `unescape` returns a pointer
(`none` for `nullptr`), or the loop is left through `BreakForLoop`. -/
inductive UnescapeLoopExit where
  | returned (result : Option Ptr) (out : List Bytes)
  | broke (out : List Bytes) (pendingBegin : Ptr) (i : Ptr)
  deriving DecidableEq, Repr

/-- The inner `for (;;)` of `UnescapeParser::unescape<mode>`, entered after a high surrogate
escape. -/
def UnescapeParser.unescapeSurrogates (mode : UnescapeMode) (surrogateReplacement : Nat) :
    Nat → List Bytes → Nat → Ptr → Option UnescapeLoopExit
  | 0, _, _, _ => none
  | fuel + 1, out, surrogate, i =>
    if i.rest = [] then
      some (.returned (some i) (out ++
        [Utf8Encoder.encodeSurrogateCodeUnitAsCodePoint surrogate surrogateReplacement]))
    else
      let pendingBegin := i
      match EscapedStringParser.parseMore mode i with
      | none => none
      | some (r2, i) =>
        match r2.result with
        | .JsonStringEnd =>
          if mode = .Strict then some (.returned (some i) out)
          else some (.broke (out ++
            [Utf8Encoder.encodeSurrogateCodeUnitAsCodePoint surrogate surrogateReplacement])
            pendingBegin i.next)
        | .Skip =>
          some (.broke (out ++
            [Utf8Encoder.encodeSurrogateCodeUnitAsCodePoint surrogate surrogateReplacement])
            pendingBegin i)
        | .Unescaped =>
          some (.broke (out ++
            [Utf8Encoder.encodeSurrogateCodeUnitAsCodePoint surrogate surrogateReplacement,
             r2.unescaped]) i i)
        | .HighSurrogate =>
          UnescapeParser.unescapeSurrogates mode surrogateReplacement fuel (out ++
            [Utf8Encoder.encodeSurrogateCodeUnitAsCodePoint surrogate surrogateReplacement])
            r2.surrogate i
        | .LowSurrogate =>
          some (.broke (out ++ [Utf8Encoder.encode surrogate r2.surrogate]) i i)
        | .UnexpectedEndOfInput => some (.returned none out)
        | .InvalidCharacter => some (.returned (some i) out)

/-- The loop `do ... while (i != end)` of `UnescapeParser::unescape<mode>`: the pointer it
returns (`none` for `nullptr`) and the fragments sent to the sink. -/
def UnescapeParser.unescapeLoop (mode : UnescapeMode) (surrogateReplacement : Nat) :
    Nat → List Bytes → Ptr → Ptr → Option (Option Ptr × List Bytes)
  | 0, _, _, _ => none
  | fuel + 1, out, pendingBegin, i =>
    let pendingEnd := i
    -- the test `while (i != end)` and what follows the loop
    let again (out : List Bytes) (pendingBegin i : Ptr) : Option (Option Ptr × List Bytes) :=
      if i.rest = [] then some (some i, UnescapeParser.writePending out pendingBegin i)
      else UnescapeParser.unescapeLoop mode surrogateReplacement fuel out pendingBegin i
    match EscapedStringParser.parseMore mode i with
    | none => none
    | some (r, i) =>
      match r.result with
      | .JsonStringEnd =>
        if mode = .Strict then some (some i, out) else again out pendingBegin i.next
      | .Skip => again out pendingBegin i
      | .Unescaped =>
        again (UnescapeParser.writePending out pendingBegin pendingEnd ++ [r.unescaped]) i i
      | .HighSurrogate =>
        match UnescapeParser.unescapeSurrogates mode surrogateReplacement fuel
            (UnescapeParser.writePending out pendingBegin pendingEnd) r.surrogate i with
        | none => none
        | some (.returned p out) => some (p, out)
        | some (.broke out pendingBegin i) => again out pendingBegin i
      | .LowSurrogate =>
        again (UnescapeParser.writePending out pendingBegin pendingEnd ++
          [Utf8Encoder.encodeSurrogateCodeUnitAsCodePoint r.surrogate surrogateReplacement]) i i
      | .UnexpectedEndOfInput => some (none, out)
      | .InvalidCharacter => some (some i, out)

/-- The member template `UnescapeParser::unescape<mode>(input, surrogateReplacement)`, for a
non-empty input. -/
def UnescapeParser.unescape (mode : UnescapeMode) (input : Bytes) (surrogateReplacement : Nat) :
    Option (Option Ptr × List Bytes) :=
  UnescapeParser.unescapeLoop mode surrogateReplacement (input.length + 1) [] ⟨0, input⟩ ⟨0, input⟩

end detail

namespace impl

/-- The constant `impl::NPos`, `~size_t{ 0 }`. -/
def NPos : Nat := 2 ^ 64 - 1

/-- The function `impl::unescape(sink, input, mode, surrogateReplacement)`: its result and the
fragments it sends to the sink, in order. -/
def unescape (input : Bytes) (mode : UnescapeMode)
    (surrogateReplacement : Nat := detail.DoNotReplaceSurrogates) : Option (Nat × List Bytes) :=
  if input = [] then some (0, [])
  else
    match detail.UnescapeParser.unescape mode input surrogateReplacement with
    | none => none
    | some (none, out) => some (NPos, out)
    | some (some p, out) => some (p.pos, out)

end impl

/-- The function `unescape(input, unescapeMode)`; the default argument `UnescapeMode{}` is
`Relaxed`. -/
def unescape (input : Bytes) (unescapeMode : UnescapeMode := .Relaxed) : Option Bytes :=
  match impl.unescape input unescapeMode with
  | none => none
  | some (n, out) => if n = input.length then some out.flatten else some []

/-- The function `unescape(input, unescapeMode, unpairedSurrogateReplacement)`. -/
def unescapeReplacing (input : Bytes) (unescapeMode : UnescapeMode)
    (unpairedSurrogateReplacement : Nat) : Option Bytes :=
  match impl.unescape input unescapeMode unpairedSurrogateReplacement with
  | none => none
  | some (n, out) => if n = input.length then some out.flatten else some []

/-! ## The serializer -/

namespace detail

/-! ### The standard library conversions used by the serializer

`std::to_chars` is not part of the repository; the definitions below state what the C++
standard requires of it ([charconv.to.chars]): an integer is written in decimal with a leading
minus sign when negative; a `double` is written with the fewest characters from which
`std::from_chars` recovers it, in fixed notation unless scientific notation is shorter, the
nearest such text when there are several. -/

/-- The decimal digits of `n`, most significant first, at most `fuel` of them. -/
def decimalDigits : Nat → Nat → Bytes
  | 0, _ => []
  | fuel + 1, n =>
    if n < 10 then [Fin.ofNat (48 + n)]
    else decimalDigits fuel (n / 10) ++ [Fin.ofNat (48 + n % 10)]

/-- The call `std::to_chars(buf, buf + sizeof(buf), n)` for `int64_t`: the text written. -/
def to_chars_int64 (n : Int64) : Bytes :=
  if n.val < 0 then 45 :: decimalDigits 20 n.val.natAbs else decimalDigits 20 n.val.natAbs

/-- The magnitude of a finite double as a fraction `(num, den)`. -/
def Double.magnitude (d : Double) : Nat × Nat :=
  if d.exponent = 0 then (d.fraction, 2 ^ 1074)
  else if d.exponent ≥ 1075 then ((2 ^ 52 + d.fraction) * 2 ^ (d.exponent - 1075), 1)
  else (2 ^ 52 + d.fraction, 2 ^ (1075 - d.exponent))

/-- The fraction `(num, den)` scaled by `10 ^ (-s)`. -/
def scale10 (num den : Nat) (s : Int) : Nat × Nat :=
  if 0 ≤ s then (num, den * 10 ^ s.toNat) else (num * 10 ^ (-s).toNat, den)

/-- The least `k` from `k0` on, among `n` values, with `num / den < 10 ^ (k + 1)`: the decimal
exponent of `num / den` when `k0` is small enough. -/
def decimalExponent (num den : Nat) : Nat → Int → Int
  | 0, k => k
  | n + 1, k =>
    let x := scale10 num den (k + 1)
    if x.1 < x.2 then k else decimalExponent num den n (k + 1)

/-- Does the decimal `digits * 10 ^ s` convert to the double with the exponent and fraction
fields of `d`. -/
def roundsTo (d : Double) (digits : Nat) (s : Int) : Bool :=
  let x := scale10 digits 1 (-s)
  match Double.round d.sign x.1 x.2 with
  | some r => r.exponent == d.exponent && r.fraction == d.fraction
  | none => false

/-- The shortest decimal `(digits, s)`, of value `digits * 10 ^ s`, that converts to `d`, tried
for `p, p + 1, ...` significant digits through `n` values of `p`: of the two decimals of `p`
digits around the magnitude of `d` that convert to `d`, the nearer, the even one when they are
equally near. -/
def shortestDecimal (d : Double) (k : Int) : Nat → Nat → Nat × Int
  | 0, p => ((scale10 (Double.magnitude d).1 (Double.magnitude d).2 (k - p + 1)).1 /
      (scale10 (Double.magnitude d).1 (Double.magnitude d).2 (k - p + 1)).2, k - p + 1)
  | n + 1, p =>
    let s : Int := k - p + 1
    let x := scale10 (Double.magnitude d).1 (Double.magnitude d).2 s
    let lo := x.1 / x.2
    let hi := lo + 1
    let okLo := roundsTo d lo s
    let okHi := roundsTo d hi s
    let hiNearer : Bool := 2 * x.1 > (2 * lo + 1) * x.2 ∨ (2 * x.1 = (2 * lo + 1) * x.2 ∧ hi % 2 = 0)
    if okLo ∧ okHi then (if hiNearer then (hi, s) else (lo, s))
    else if okLo then (lo, s)
    else if okHi then (hi, s)
    else shortestDecimal d k n (p + 1)

/-- The decimal without the zeros at the end of its digits. -/
def stripZeros : Nat → Nat × Int → Nat × Int
  | 0, x => x
  | n + 1, (digits, s) =>
    if digits ≠ 0 ∧ digits % 10 = 0 then stripZeros n (digits / 10, s + 1) else (digits, s)

/-- The text in fixed notation of the double of magnitude `num / den` whose shortest decimal
is `digits * 10 ^ s`: for `s` not negative the double is an integer and its digits are written,
which has the length of `digits` followed by `s` zeros and differs least from the double;
otherwise the digits with the point among them or after `0.` and zeros. -/
def fixedNotation (num den digits : Nat) (s : Int) : Bytes :=
  let ds := decimalDigits 800 digits
  if 0 ≤ s then decimalDigits 800 (num / den)
  else if (-s).toNat < ds.length then
    ds.take (ds.length - (-s).toNat) ++ [46] ++ ds.drop (ds.length - (-s).toNat)
  else [48, 46] ++ List.replicate ((-s).toNat - ds.length) 48 ++ ds

/-- The text of the decimal `digits * 10 ^ s` in scientific notation: one digit, the other
digits after a point, and the exponent with a sign and at least two digits. -/
def scientificNotation (digits : Nat) (s : Int) : Bytes :=
  let ds := decimalDigits 800 digits
  let e : Int := s + (ds.length : Int) - 1
  let es := decimalDigits 20 e.natAbs
  ds.take 1 ++ (if ds.length > 1 then 46 :: ds.drop 1 else []) ++
    [101, if e < 0 then 45 else 43] ++ (if es.length < 2 then 48 :: es else es)

/-- The call `std::to_chars(buf, buf + sizeof(buf), d)` for `double`: the text written. -/
def to_chars_double (d : Double) : Bytes :=
  let sign : Bytes := if d.sign then [45] else []
  if d.exponent ≥ 2047 then sign ++ (if d.fraction = 0 then bytes "inf" else bytes "nan")
  else if d.isZero then sign ++ [48]
  else
    let k := decimalExponent (Double.magnitude d).1 (Double.magnitude d).2 700 (-340)
    let x := stripZeros 20 (shortestDecimal d k 17 1)
    let f := fixedNotation (Double.magnitude d).1 (Double.magnitude d).2 x.1 x.2
    let e := scientificNotation x.1 x.2
    sign ++ (if f.length ≤ e.length then f else e)

end detail

/-- The enumeration `SerializationOptions::IndentationChar`. -/
inductive SerializationOptions.IndentationChar where
  | Space
  | Tab
  deriving DecidableEq, Repr

/-- The struct `SerializationOptions::NewlineOptions` with its default member initialisers. -/
structure SerializationOptions.NewlineOptions where
  separator : Bytes := []
  afterObjectOpeningBrace : Bool := true
  beforeObjectClosingBrace : Bool := true
  afterObjectMemberKey : Bool := false
  beforeObjectMemberValue : Bool := false
  beforeObjectMemberCollectionValue : Bool := false
  beforeObjectMemberSeparator : Bool := false
  afterObjectMemberSeparator : Bool := true
  afterArrayOpeningBracket : Bool := true
  beforeArrayClosingBracket : Bool := true
  beforeArrayMemberSeparator : Bool := false
  afterArrayMemberSeparator : Bool := true
  deriving DecidableEq, Repr

/-- The struct `SerializationOptions` with its default member initialisers. -/
structure SerializationOptions where
  indent : Nat := 0
  escape : Escape := .Default
  validation : Utf8Validation := .IgnoreInvalidUtf8CodeUnits
  hexDigitsCase : HexDigitsCase := .Lower
  indentationChar : SerializationOptions.IndentationChar := .Space
  newline : SerializationOptions.NewlineOptions := {}
  sortObjectKeys : Bool := false
  nullLiteral : Bytes := NullLiteral
  falseLiteral : Bytes := FalseLiteral
  trueLiteral : Bytes := TrueLiteral
  emptyObject : Bytes := [123, 125]
  objectOpeningBrace : Bytes := [123]
  objectClosingBrace : Bytes := [125]
  objectKeyValueSeparator : Bytes := [58]
  objectMemberSeparator : Bytes := [44]
  emptyArray : Bytes := [91, 93]
  arrayOpeningBracket : Bytes := [91]
  arrayClosingBracket : Bytes := [93]
  arrayMemberSeparator : Bytes := [44]
  openingStringQuotation : Bytes := [34]
  closingStringQuotation : Bytes := [34]
  deriving DecidableEq, Repr

/-- The exception `InvalidUtf8CodeUnitsError`; its message is always
"string contains invalid UTF-8 code units". -/
structure InvalidUtf8CodeUnitsError where
  codeUnits : Bytes
  offset : Nat
  deriving DecidableEq, Repr

namespace detail

/-- The enumeration `SerializationMode`. -/
inductive SerializationMode where
  | WithoutIndentation
  | WithIndentation
  deriving DecidableEq, Repr

/-- What a member function of `SerializingVisitor` leaves behind: the fragments sent to the
sink so far when it returns, the exception and the fragments sent before it when it throws, or
`stopped` when the recursion budget is used up or a byte outside a string would be read. -/
inductive Written where
  | ok (out : List Bytes)
  | thrown (error : InvalidUtf8CodeUnitsError) (out : List Bytes)
  | stopped
  deriving DecidableEq, Repr

/-- Sequencing of two steps of the visitor. -/
def Written.andThen (w : Written) (f : List Bytes → Written) : Written :=
  match w with
  | .ok out => f out
  | .thrown e out => .thrown e out
  | .stopped => .stopped

/-- The data members of `SerializingVisitor` that do not change during a visit; the member
`indentation` is passed separately. -/
structure SerializingVisitor where
  serializationMode : SerializationMode
  options : SerializationOptions
  newlineSeparator : Bytes
  deriving DecidableEq, Repr

namespace SerializingVisitor

/-- The member `indentationChars`: a hundred spaces or a hundred tabs. -/
def indentationChars (c : SerializingVisitor) : Bytes :=
  if c.serializationMode = .WithIndentation then
    (if c.options.indentationChar = .Space then List.replicate 100 32 else List.replicate 100 9)
  else []

/-- The loop `while (indent)` of `writeNewlineAndIndentation`: the fragments it sends. -/
def indentationFragments (chars : Bytes) : Nat → Nat → List Bytes
  | 0, _ => []
  | fuel + 1, indent =>
    if indent = 0 then []
    else
      let charsToWrite := min indent chars.length
      chars.take charsToWrite :: indentationFragments chars fuel (indent - charsToWrite)

/-- The member `writeNewlineAndIndentation(doWrite)`. -/
def writeNewlineAndIndentation (c : SerializingVisitor) (indentation : Nat) (doWrite : Bool)
    (out : List Bytes) : List Bytes :=
  if c.serializationMode = .WithIndentation ∧ doWrite then
    out ++ [c.newlineSeparator] ++ indentationFragments c.indentationChars indentation indentation
  else out

/-- The member `writeString(s)`. -/
def writeString (c : SerializingVisitor) (s : Bytes) (out : List Bytes) : Written :=
  let out := out ++ [c.options.openingStringQuotation]
  match impl.escape s c.options.escape c.options.validation c.options.hexDigitsCase with
  | none => .stopped
  | some (escapedSize, fragments) =>
    let out := out ++ fragments
    if c.options.validation = .FailOnInvalidUtf8CodeUnits ∧ escapedSize ≠ s.length then
      let expectedCodePointSize := getExpectedUtf8CodePointSize (s.getD escapedSize 0)
      .thrown { codeUnits := (s.drop escapedSize).take
                  (min expectedCodePointSize (s.length - escapedSize)),
                offset := escapedSize } out
    else .ok (out ++ [c.options.closingStringQuotation])

/-- The member template `writeNumber` for `int64_t`. -/
def writeNumberInt64 (n : Int64) (out : List Bytes) : List Bytes := out ++ [to_chars_int64 n]

/-- The member template `writeNumber` for `double`. -/
def writeNumberDouble (d : Double) (out : List Bytes) : List Bytes := out ++ [to_chars_double d]

/-- Is the value an `Object` or an `Array`. -/
def isCollection : Value → Bool
  | .object _ => true
  | .array _ => true
  | _ => false

/-- The member `writeObjectMember(i)`, with `visit` the visit of the member value. -/
def writeObjectMember (c : SerializingVisitor) (visit : Value → List Bytes → Written)
    (indentation : Nat) (i : Bytes × Value) (out : List Bytes) : Written :=
  (writeString c i.1 out).andThen fun out =>
    let out := writeNewlineAndIndentation c indentation c.options.newline.afterObjectMemberKey out
    let out := out ++ [c.options.objectKeyValueSeparator]
    let out := writeNewlineAndIndentation c indentation
      (c.options.newline.beforeObjectMemberValue ||
        (c.options.newline.beforeObjectMemberCollectionValue && isCollection i.2)) out
    visit i.2 out

/-- The loop `for (++begin; begin != end; ++begin)` of `writeObjectMembers`. -/
def writeObjectMembersRest (c : SerializingVisitor) (visit : Value → List Bytes → Written)
    (indentation : Nat) : List (Bytes × Value) → List Bytes → Written
  | [], out => .ok out
  | i :: rest, out =>
    let out := writeNewlineAndIndentation c indentation
      c.options.newline.beforeObjectMemberSeparator out
    let out := out ++ [c.options.objectMemberSeparator]
    let out := writeNewlineAndIndentation c indentation
      c.options.newline.afterObjectMemberSeparator out
    (writeObjectMember c visit indentation i out).andThen
      (writeObjectMembersRest c visit indentation rest)

/-- The member template `writeObjectMembers(begin, end)`, called on at least one member. -/
def writeObjectMembers (c : SerializingVisitor) (visit : Value → List Bytes → Written)
    (indentation : Nat) : List (Bytes × Value) → List Bytes → Written
  | [], _ => .stopped
  | i :: rest, out =>
    (writeObjectMember c visit indentation i out).andThen
      (writeObjectMembersRest c visit indentation rest)

/-- The loop `for (++i; i != a.end(); ++i)` of `operator()(const Array &)`. -/
def writeArrayMembersRest (c : SerializingVisitor) (visit : Value → List Bytes → Written)
    (indentation : Nat) : List Value → List Bytes → Written
  | [], out => .ok out
  | v :: rest, out =>
    let out := writeNewlineAndIndentation c indentation
      c.options.newline.beforeArrayMemberSeparator out
    let out := out ++ [c.options.arrayMemberSeparator]
    let out := writeNewlineAndIndentation c indentation
      c.options.newline.afterArrayMemberSeparator out
    (visit v out).andThen (writeArrayMembersRest c visit indentation rest)

/-- Comparison `a < b` of two `std::string`: the first differing byte decides, then the
length. -/
def stringLt : Bytes → Bytes → Bool
  | _, [] => false
  | [], _ :: _ => true
  | a :: as, b :: bs => if a.val < b.val then true else if b.val < a.val then false
    else stringLt as bs

/-- Insertion of an entry into a list of entries sorted by key. -/
def insertSorted (x : Bytes × Value) : List (Bytes × Value) → List (Bytes × Value)
  | [] => [x]
  | y :: rest => if stringLt y.1 x.1 then y :: insertSorted x rest else x :: y :: rest

/-- The call `std::sort(items.begin(), items.end(), ...)` of the entries by key; the keys of a
map differ pairwise, so the sorted order is unique. -/
def sortItems : List (Bytes × Value) → List (Bytes × Value)
  | [] => []
  | x :: rest => insertSorted x (sortItems rest)

/-- The visit `visit(*this, v)` of a value: the seven `operator()` of `SerializingVisitor`,
with the member `indentation` as a parameter (in `size_t` arithmetic). -/
def visit (c : SerializingVisitor) : Nat → Nat → Value → List Bytes → Written
  | 0, _, _, _ => .stopped
  | fuel + 1, indentation, v, out =>
    match v with
    | .null => .ok (out ++ [c.options.nullLiteral])
    | .boolean b => .ok (out ++ [if b then c.options.trueLiteral else c.options.falseLiteral])
    | .int64 i => .ok (writeNumberInt64 i out)
    | .double d => .ok (writeNumberDouble d out)
    | .string t => writeString c t out
    | .array a =>
      if a.isEmpty ∧ c.options.emptyArray ≠ [] then .ok (out ++ [c.options.emptyArray])
      else
        let out := out ++ [c.options.arrayOpeningBracket]
        match a with
        | i :: rest =>
          let inner := if c.serializationMode = .WithIndentation then
            (indentation + c.options.indent) % 2 ^ 64 else indentation
          let out := writeNewlineAndIndentation c inner
            c.options.newline.afterArrayOpeningBracket out
          ((visit c fuel inner i out).andThen
            (writeArrayMembersRest c (visit c fuel inner) inner rest)).andThen fun out =>
              let out := writeNewlineAndIndentation c indentation
                c.options.newline.beforeArrayClosingBracket out
              .ok (out ++ [c.options.arrayClosingBracket])
        | [] =>
          let out := writeNewlineAndIndentation c indentation
            (c.options.newline.afterArrayOpeningBracket ||
              c.options.newline.beforeArrayClosingBracket) out
          .ok (out ++ [c.options.arrayClosingBracket])
    | .object o =>
      if o.isEmpty ∧ c.options.emptyObject ≠ [] then .ok (out ++ [c.options.emptyObject])
      else
        let out := out ++ [c.options.objectOpeningBrace]
        if !o.isEmpty then
          let inner := if c.serializationMode = .WithIndentation then
            (indentation + c.options.indent) % 2 ^ 64 else indentation
          let out := writeNewlineAndIndentation c inner
            c.options.newline.afterObjectOpeningBrace out
          (if o.length = 1 then
              writeObjectMember c (visit c fuel inner) inner (o.headD ([], .null)) out
            else if c.options.sortObjectKeys then
              writeObjectMembers c (visit c fuel inner) inner (sortItems o) out
            else writeObjectMembers c (visit c fuel inner) inner o out).andThen fun out =>
              let out := writeNewlineAndIndentation c indentation
                c.options.newline.beforeObjectClosingBrace out
              .ok (out ++ [c.options.objectClosingBrace])
        else
          let out := writeNewlineAndIndentation c indentation
            (c.options.newline.afterObjectOpeningBrace ||
              c.options.newline.beforeObjectClosingBrace) out
          .ok (out ++ [c.options.objectClosingBrace])

end SerializingVisitor

end detail

mutual
/-- The height of a value: one more than the height of its highest member. -/
def Value.height : Value → Nat
  | .array a => Value.heightArray a + 1
  | .object o => Value.heightObject o + 1
  | _ => 1
/-- The height of the highest element of an array. -/
def Value.heightArray : List Value → Nat
  | [] => 0
  | v :: rest => max v.height (Value.heightArray rest)
/-- The height of the highest member value of an object. -/
def Value.heightObject : List (Bytes × Value) → Nat
  | [] => 0
  | (_, v) :: rest => max v.height (Value.heightObject rest)
end

namespace impl

/-- The function `impl::serialize(sink, v, options, initialIndentation)`.  The visit recurses
once for each level of the value, so its height is budget enough. -/
def serialize (v : Value) (options : SerializationOptions) (initialIndentation : Nat := 0) :
    detail.Written :=
  if options.indent ≠ 0 ∨ options.newline.separator ≠ [] then
    detail.SerializingVisitor.visit
      { serializationMode := .WithIndentation
        options := options
        newlineSeparator := if options.newline.separator = [] then [10]
          else options.newline.separator }
      v.height initialIndentation v []
  else
    detail.SerializingVisitor.visit
      { serializationMode := .WithoutIndentation
        options := options
        newlineSeparator := [] }
      v.height 0 v []

end impl

/-- The function `serializeToString(v, o)`: the string when it returns, the exception when it
throws, `none` when the embedding stopped. -/
def serializeToString (v : Value) (o : SerializationOptions := {}) :
    Option (Except InvalidUtf8CodeUnitsError Bytes) :=
  match impl.serialize v o with
  | .ok out => some (.ok out.flatten)
  | .thrown e _ => some (.error e)
  | .stopped => none

/-! # Predicates of the statements -/

/-- Is the byte a whitespace byte, as a Boolean. -/
def isWhitespaceB (b : Byte) : Bool := b.val = 9 ∨ b.val = 10 ∨ b.val = 13 ∨ b.val = 32

/-- The cursor `q` is the cursor `p` moved forward over the bytes `c`. -/
def Ptr.Moved (p : Ptr) (c : Bytes) (q : Ptr) : Prop :=
  p.rest = c ++ q.rest ∧ q.pos = p.pos + c.length

/-- The cursor `q` is the cursor `p` moved forward. -/
def Ptr.Reach (p q : Ptr) : Prop := ∃ c, p.Moved c q

/-- An issue that is reported without stopping the parse: a duplicate key or an unpaired
surrogate under the policy `Report`. -/
def ReportKind (o : ParsingOptions) (x : ParsingIssue) : Prop :=
  (x.code = .DuplicateKeys ∧ o.duplicateObjectKeys = .Report) ∨
  ((x.code = .StringContainsUnpairedUtf16HighSurrogate ∨
    x.code = .StringContainsUnpairedUtf16LowSurrogate) ∧ o.unpairedUtf16Surrogates = .Report)

/-- How the issue that stops a parse lies against the cursor the parse stops at. -/
def Stops (o : ParsingOptions) (x : ParsingIssue) (i : Ptr) : Prop :=
  match x.code with
  | .Other => False
  | .InvalidCharacter => x.offset = i.pos ∧ i.rest ≠ []
  | .UnexpectedEndOfInput => x.offset = i.pos ∧ i.rest = []
  | .FailedToParseNumber => x.offset ≤ i.pos
  | .ParsedNumberOutOfRange => x.offset < i.pos
  | .DuplicateKeys => o.duplicateObjectKeys = .Fail ∧ x.offset < i.pos
  | .StringContainsUnpairedUtf16HighSurrogate =>
    o.unpairedUtf16Surrogates = .Fail ∧ x.offset < i.pos
  | .StringContainsUnpairedUtf16LowSurrogate =>
    o.unpairedUtf16Surrogates = .Fail ∧ x.offset < i.pos

/-- A step of the parser that goes on: the cursor moved forward and the issues added are
reports that lie before the new cursor. -/
def Ok (o : ParsingOptions) (st st' : detail.ParserImpl) : Prop :=
  st.i.Reach st'.i ∧
  ∃ rep, st'.issues = st.issues ++ rep ∧ ∀ x ∈ rep, ReportKind o x ∧ x.offset < st'.i.pos

/-- A step of the parser that fails: the cursor moved forward, and the issues added are reports
followed by the one issue that stops the parse. -/
def Fail (o : ParsingOptions) (st st' : detail.ParserImpl) : Prop :=
  st.i.Reach st'.i ∧
  ∃ rep x, st'.issues = st.issues ++ rep ++ [x] ∧
    (∀ y ∈ rep, ReportKind o y ∧ y.offset < st'.i.pos) ∧ Stops o x st'.i

/-- The four whitespace bytes: tab, line feed, carriage return, space. -/
def isWhitespace (b : Byte) : Prop := b.val = 9 ∨ b.val = 10 ∨ b.val = 13 ∨ b.val = 32

instance (b : Byte) : Decidable (isWhitespace b) := by unfold isWhitespace; infer_instance

/-- What `parseMore` (and `parseEscape`) return, against the cursor before and after. -/
def MoreSpec (i : Ptr) (r : detail.EscapedStringParser.Result) (j : Ptr) : Prop :=
  i.Reach j ∧
  match r.result with
  | .Skip => j = i.next ∧ i.rest ≠ []
  | .Unescaped => i.pos + 2 ≤ j.pos
  | .HighSurrogate => j.pos = i.pos + 6
  | .LowSurrogate => j.pos = i.pos + 6
  | .JsonStringEnd => j = i ∧ i.rest ≠ []
  | .InvalidCharacter => j.rest ≠ []
  | .UnexpectedEndOfInput => j.rest = []

/-- What the inner loop of `parseString` leaves behind. -/
def SurrogatesPost (o : ParsingOptions) (st : detail.ParserImpl) :
    detail.ParserImpl.SurrogateLoopExit → Prop
  | .returned true _ st' => Ok o st st' ∧ st'.i.rest.length < st.i.rest.length
  | .returned false _ st' => Fail o st st'
  | .broke _ pb st' => Ok o st st' ∧ st'.i.rest.length < st.i.rest.length ∧ pb.Reach st'.i

/-- What a parsing function leaves behind: on success the cursor moved forward by at least one
byte and only reports were added; on failure the last issue added is the one that stops the
parse. -/
def Post (o : ParsingOptions) (st : detail.ParserImpl) (r : Bool) (st' : detail.ParserImpl) : Prop :=
  (r = true → Ok o st st' ∧ st'.i.rest.length < st.i.rest.length) ∧
  (r = false → Fail o st st')

/-- The statement of `parser_post` for one recursion budget. -/
def PostAll (o : ParsingOptions) (fuel : Nat) : Prop :=
  (∀ v st r v' st', detail.ParserImpl.parseImpl o fuel v st = some (r, v', st') → Post o st r st') ∧
  (∀ v st r v' st', st.i.rest ≠ [] → detail.ParserImpl.parseArray o fuel v st = some (r, v', st') →
    Post o st r st') ∧
  (∀ a v size st r a' v' st', detail.ParserImpl.parseArrayMembersRecursion o fuel a v size st
    = some (r, a', v', st') → Post o st r st') ∧
  (∀ a st r a' st', detail.ParserImpl.parseArrayMembersLoop o fuel a st = some (r, a', st') → Post o st r st') ∧
  (∀ v st r v' st', st.i.rest ≠ [] → detail.ParserImpl.parseObject o fuel v st = some (r, v', st') →
    Post o st r st') ∧
  (∀ o' st r o'' st', detail.ParserImpl.parseObjectMembers o fuel o' st = some (r, o'', st') → Post o st r st')

/-- The statement of `parser_total` for one recursion budget. -/
def TotalAll (o : ParsingOptions) (fuel : Nat) : Prop :=
  (∀ v st, st.i.rest ≠ [] → 3 * st.i.rest.length + 1 ≤ fuel →
    (detail.ParserImpl.parseImpl o fuel v st).isSome = true) ∧
  (∀ v st, st.i.rest ≠ [] → 3 * st.i.rest.length ≤ fuel →
    (detail.ParserImpl.parseArray o fuel v st).isSome = true) ∧
  (∀ a v size st, st.i.rest ≠ [] → 3 * st.i.rest.length + 2 ≤ fuel →
    (detail.ParserImpl.parseArrayMembersRecursion o fuel a v size st).isSome = true) ∧
  (∀ a st, st.i.rest ≠ [] → 3 * st.i.rest.length + 2 ≤ fuel →
    (detail.ParserImpl.parseArrayMembersLoop o fuel a st).isSome = true) ∧
  (∀ v st, st.i.rest ≠ [] → 3 * st.i.rest.length ≤ fuel →
    (detail.ParserImpl.parseObject o fuel v st).isSome = true) ∧
  (∀ ob st, st.i.rest ≠ [] → 3 * st.i.rest.length + 2 ≤ fuel →
    (detail.ParserImpl.parseObjectMembers o fuel ob st).isSome = true)

open detail detail.ParserImpl

/-- The bytes after a number do not continue it: there is none, or the first one is neither a
digit nor one of `.`, `e`, `E`. -/
def InertEnd (s : Bytes) : Prop :=
  ∀ b, s.head? = some b → isDecimalDigit b = false ∧ b.val ≠ 46 ∧ b.val ≠ 101 ∧ b.val ≠ 69

/-- The text of an integer literal: optional `-`, then digits with no leading zero. -/
def intLiteral (neg : Bool) (ds : Bytes) : Bytes := (if neg then [45] else []) ++ ds

/-- The number an integer literal writes. -/
def intLiteralValue (neg : Bool) (ds : Bytes) : Int :=
  if neg then -(digitsValue ds : Int) else (digitsValue ds : Int)

/-- An issue moved `k` bytes to the right. -/
def ParsingIssue.shift (k : Nat) (x : ParsingIssue) : ParsingIssue :=
  { x with offset := x.offset + k }

/-- Two runs of the parser that are compared: the buffer of the second run is the buffer of the
first with the bytes `s` at its end replaced by `s2`, and moved `k` bytes to the right; `base`
and `base2` are the issues that the two runs start with. -/
structure Frame where
  k : Nat
  s : Bytes
  s2 : Bytes
  base : List ParsingIssue
  base2 : List ParsingIssue

/-- The cursor `p2` of the second run is at the place of the cursor `p` of the first. -/
def Frame.PtrSim (F : Frame) (p p2 : Ptr) : Prop :=
  ∃ c, p.rest = c ++ F.s ∧ p2.rest = c ++ F.s2 ∧ p2.pos = p.pos + F.k

/-- The state `st2` of the second run is the state `st` of the first: the same place, and the
same issues added, moved by `k`. -/
def Frame.Sim (F : Frame) (st st2 : ParserImpl) : Prop :=
  F.PtrSim st.i st2.i ∧
  ∃ new, st.issues = F.base ++ new ∧ st2.issues = F.base2 ++ new.map (ParsingIssue.shift F.k)

/-- The two ends `s` and `s2` look the same to a number that ends before them. -/
def Frame.Agree (F : Frame) : Prop := F.s.head? = F.s2.head? ∨ InertEnd F.s2

/-- The results of `parseMore` after which a string goes on. -/
def GoodKind (r : EscapedStringParsingResult) : Prop :=
  r ≠ .InvalidCharacter ∧ r ≠ .UnexpectedEndOfInput

/-- The state that an exit of the inner loop of `parseString` leaves. -/
def exitState : SurrogateLoopExit → ParserImpl
  | .returned _ _ st => st
  | .broke _ _ st => st

/-- The exit of the inner loop of `parseString` is not a failure. -/
def exitGood : SurrogateLoopExit → Prop
  | .returned r _ _ => r = true
  | .broke _ _ _ => True

/-- Two exits of the inner loop of `parseString` that correspond. -/
def Frame.ExitSim (F : Frame) : SurrogateLoopExit → SurrogateLoopExit → Prop
  | .returned r s st, .returned r2 s2 st2 => r = r2 ∧ s = s2 ∧ F.Sim st st2
  | .broke s pb st, .broke s2 pb2 st2 => s = s2 ∧ F.PtrSim pb pb2 ∧ F.Sim st st2
  | _, _ => False

/-- The statement of locality for `parseImpl` with one recursion budget: a run that succeeds
is repeated by the second run, with any budget of three steps for each byte up to the end. -/
def LocImpl (F : Frame) (o : ParsingOptions) (fuel : Nat) : Prop :=
  ∀ v st v' st', parseImpl o fuel v st = some (true, v', st') →
    ∀ st2 v2 fuel', F.Sim st st2 → F.s.length ≤ st'.i.rest.length →
      3 * (st.i.rest.length - F.s.length) + 1 ≤ fuel' →
      ∃ st2', parseImpl o fuel' v2 st2 = some (true, v', st2') ∧ F.Sim st' st2'

/-- The statement of locality for `parseArray`. -/
def LocArr (F : Frame) (o : ParsingOptions) (fuel : Nat) : Prop :=
  ∀ v st v' st', st.i.rest ≠ [] → parseArray o fuel v st = some (true, v', st') →
    ∀ st2 v2 fuel', F.Sim st st2 → F.s.length ≤ st'.i.rest.length →
      3 * (st.i.rest.length - F.s.length) ≤ fuel' →
      ∃ st2', parseArray o fuel' v2 st2 = some (true, v', st2') ∧ F.Sim st' st2'

/-- The statement of locality for `parseArrayMembers<Recursion>`. -/
def LocRec (F : Frame) (o : ParsingOptions) (fuel : Nat) : Prop :=
  ∀ a v size st a' v' st', parseArrayMembersRecursion o fuel a v size st
      = some (true, a', v', st') →
    ∀ st2 v2 fuel', F.Sim st st2 → F.s.length ≤ st'.i.rest.length →
      3 * (st.i.rest.length - F.s.length) + 2 ≤ fuel' →
      ∃ st2', parseArrayMembersRecursion o fuel' a v2 size st2 = some (true, a', v', st2') ∧
        F.Sim st' st2'

/-- The statement of locality for `parseArrayMembers<Loop>`. -/
def LocLoop (F : Frame) (o : ParsingOptions) (fuel : Nat) : Prop :=
  ∀ a st a' st', parseArrayMembersLoop o fuel a st = some (true, a', st') →
    ∀ st2 fuel', F.Sim st st2 → F.s.length ≤ st'.i.rest.length →
      3 * (st.i.rest.length - F.s.length) + 2 ≤ fuel' →
      ∃ st2', parseArrayMembersLoop o fuel' a st2 = some (true, a', st2') ∧ F.Sim st' st2'

/-- The statement of locality for `parseObject`. -/
def LocObj (F : Frame) (o : ParsingOptions) (fuel : Nat) : Prop :=
  ∀ v st v' st', st.i.rest ≠ [] → parseObject o fuel v st = some (true, v', st') →
    ∀ st2 v2 fuel', F.Sim st st2 → F.s.length ≤ st'.i.rest.length →
      3 * (st.i.rest.length - F.s.length) ≤ fuel' →
      ∃ st2', parseObject o fuel' v2 st2 = some (true, v', st2') ∧ F.Sim st' st2'

/-- The statement of locality for the loop of `parseObject`. -/
def LocMem (F : Frame) (o : ParsingOptions) (fuel : Nat) : Prop :=
  ∀ ob st ob' st', parseObjectMembers o fuel ob st = some (true, ob', st') →
    ∀ st2 fuel', F.Sim st st2 → F.s.length ≤ st'.i.rest.length →
      3 * (st.i.rest.length - F.s.length) + 2 ≤ fuel' →
      ∃ st2', parseObjectMembers o fuel' ob st2 = some (true, ob', st2') ∧ F.Sim st' st2'

/-- The cursor `q` is after `p` and the byte right before `q` is not whitespace. -/
def Ptr.Last (p q : Ptr) : Prop :=
  ∃ c b, p.rest = c ++ b :: q.rest ∧ ¬ isWhitespace b

/-- The statement of `parser_last` for one recursion budget. -/
def LastAll (o : ParsingOptions) (fuel : Nat) : Prop :=
  (∀ v st v' st', parseImpl o fuel v st = some (true, v', st') → st.i.Last st'.i) ∧
  (∀ v st v' st', st.i.rest ≠ [] → parseArray o fuel v st = some (true, v', st') →
    st.i.Last st'.i) ∧
  (∀ a v size st a' v' st', parseArrayMembersRecursion o fuel a v size st
    = some (true, a', v', st') → st.i.Last st'.i) ∧
  (∀ a st a' st', parseArrayMembersLoop o fuel a st = some (true, a', st') →
    st.i.Last st'.i) ∧
  (∀ v st v' st', st.i.rest ≠ [] → parseObject o fuel v st = some (true, v', st') →
    st.i.Last st'.i) ∧
  (∀ ob st ob' st', parseObjectMembers o fuel ob st = some (true, ob', st') →
    st.i.Last st'.i)

/-- One member of an object literal, by its pieces: whitespace, the text of the key (a JSON
string, which reads as `key`), whitespace, the colon, whitespace, the text of the value (which
reads as `value`), whitespace. -/
structure Member where
  before : Bytes
  keyText : Bytes
  key : Bytes
  afterKey : Bytes
  beforeValue : Bytes
  valueText : Bytes
  value : Value
  afterValue : Bytes

/-- The text of a member from its key on. -/
def Member.body (m : Member) : Bytes :=
  m.keyText ++ (m.afterKey ++ (58 :: (m.beforeValue ++ (m.valueText ++ m.afterValue))))

/-- The text of an object literal after the body of a member: the members that follow, each
after a comma, and the closing brace. -/
def membersTail : List Member → Bytes
  | [] => [125]
  | m :: rest => 44 :: (m.before ++ (m.body ++ membersTail rest))

/-- The text of the object literal with the members `m :: rest`. -/
def objectText (m : Member) (rest : List Member) : Bytes :=
  123 :: (m.before ++ (m.body ++ membersTail rest))

/-- The pieces of a member are what they are called, for the parser with the options `o`: the
whitespace is whitespace, the text of the key starts with a quotation mark and is parsed
(alone) as the string `key`, and the text of the value does not start with whitespace and is
parsed (alone) as `value`. -/
def Member.WellFormed (o : ParsingOptions) (m : Member) : Prop :=
  (∀ b ∈ m.before, isWhitespace b) ∧ (∀ b ∈ m.afterKey, isWhitespace b) ∧
  (∀ b ∈ m.beforeValue, isWhitespace b) ∧ (∀ b ∈ m.afterValue, isWhitespace b) ∧
  m.keyText.head? = some 34 ∧
  (∀ b, m.valueText.head? = some b → ¬ isWhitespace b) ∧
  (∃ iss, parse m.keyText o .StopAfterValueEnds = some
    { value := .string m.key, status := .Success, parsedSize := m.keyText.length,
      issues := iss }) ∧
  (∃ iss, parse m.valueText o .StopAfterValueEnds = some
    { value := m.value, status := .Success, parsedSize := m.valueText.length, issues := iss })

/-- The value of the last member with the given key. -/
def lastValue (key : Bytes) : List Member → Option Value
  | [] => none
  | m :: rest =>
    match lastValue key rest with
    | some v => some v
    | none => if m.key = key then some m.value else none

/-- The object after one more member is parsed: `try_emplace` of the key, then assignment of
the value to the entry. -/
def insertMember (ob : List (Bytes × Value)) (m : Member) : List (Bytes × Value) :=
  Object.assign m.key m.value (tryEmplace ob m.key).1

/-- The bytes that `EscapedStringWriter::writeImpl<Escape::Default>` sends to the sink for the
byte `b` when no UTF-8 validation is asked for: the escape sequence of the first two tests of
its loop, or the byte itself. -/
def escapedByte (h : HexDigitsCase) (b : Byte) : Bytes :=
  if matchCommonCharacterToEscape b ≠ 0 then
    EscapedChar.decorate (matchCommonCharacterToEscape b)
  else if isControlCharacter b then EscapedChar.getChar h b
  else [b]

/-- The UTF-8 encoding of the code point `c`, by the book: one byte below `0x80`, two bytes
below `0x800`, three bytes below `0x10000`, four bytes from there on. -/
def utf8Encoding (c : Nat) : Bytes :=
  if c < 0x80 then [Fin.ofNat c]
  else if c < 0x800 then [Fin.ofNat (0xC0 ||| (c >>> 6)), Fin.ofNat (0x80 ||| (c &&& 0x3F))]
  else if c < 0x10000 then
    [Fin.ofNat (0xE0 ||| (c >>> 12)), Fin.ofNat (0x80 ||| ((c >>> 6) &&& 0x3F)),
      Fin.ofNat (0x80 ||| (c &&& 0x3F))]
  else
    [Fin.ofNat (0xF0 ||| (c >>> 18)), Fin.ofNat (0x80 ||| ((c >>> 12) &&& 0x3F)),
      Fin.ofNat (0x80 ||| ((c >>> 6) &&& 0x3F)), Fin.ofNat (0x80 ||| (c &&& 0x3F))]

/-- The value of a hexadecimal digit, in either case. -/
def hexDigitValue (b : Byte) : Option Nat :=
  if 48 ≤ b.val ∧ b.val ≤ 57 then some (b.val - 48)
  else if 97 ≤ b.val ∧ b.val ≤ 102 then some (b.val - 87)
  else if 65 ≤ b.val ∧ b.val ≤ 70 then some (b.val - 55)
  else none

/-- The code unit that four hexadecimal digits write. -/
def codeUnit (d1 d2 d3 d4 : Byte) : Nat :=
  (((hexDigitValue d1).getD 0 * 16 + (hexDigitValue d2).getD 0) * 16 +
    (hexDigitValue d3).getD 0) * 16 + (hexDigitValue d4).getD 0

/-- The byte that the escape of the character `c` after a backslash stands for. -/
def simpleEscapeValue (c : Byte) : Option Byte :=
  if c.val = 34 then some 34
  else if c.val = 92 then some 92
  else if c.val = 47 then some 47
  else if c.val = 98 then some 8
  else if c.val = 102 then some 12
  else if c.val = 110 then some 10
  else if c.val = 114 then some 13
  else if c.val = 116 then some 9
  else none

/-- One piece of the text of a string: a byte that stands for itself, the escape of one
character, or the escape of a code unit by four hexadecimal digits. -/
inductive Piece where
  | plain (b : Byte)
  | simple (c : Byte)
  | unicode (d1 d2 d3 d4 : Byte)
  deriving DecidableEq, Repr

/-- The text of a piece. -/
def Piece.text : Piece → Bytes
  | .plain b => [b]
  | .simple c => [92, c]
  | .unicode d1 d2 d3 d4 => [92, 117, d1, d2, d3, d4]

/-- The text of a list of pieces. -/
def piecesText (ps : List Piece) : Bytes := ps.flatMap Piece.text

/-- The piece is one that the mode reads: a plain byte is no backslash and, in the mode
`Strict`, neither a quotation mark nor a control character; the character of an escape is one
of the eight; the digits are hexadecimal digits. -/
def Piece.WellFormed (mode : UnescapeMode) : Piece → Prop
  | .plain b => b.val ≠ 92 ∧ (mode = .Strict → b.val ≠ 34 ∧ isControlCharacter b = false)
  | .simple c => simpleEscapeValue c ≠ none
  | .unicode d1 d2 d3 d4 => hexDigitValue d1 ≠ none ∧ hexDigitValue d2 ≠ none ∧
      hexDigitValue d3 ≠ none ∧ hexDigitValue d4 ≠ none

instance (mode : UnescapeMode) (p : Piece) : Decidable (p.WellFormed mode) := by
  cases p <;> unfold Piece.WellFormed <;> infer_instance

/-- The code unit is a high surrogate. -/
def isHighSurrogate (u : Nat) : Prop := 0xD800 ≤ u ∧ u ≤ 0xDBFF

/-- The code unit is a low surrogate. -/
def isLowSurrogate (u : Nat) : Prop := 0xDC00 ≤ u ∧ u ≤ 0xDFFF

instance (u : Nat) : Decidable (isHighSurrogate u) := by unfold isHighSurrogate; infer_instance

instance (u : Nat) : Decidable (isLowSurrogate u) := by unfold isLowSurrogate; infer_instance

/-- The code point that a high and a low surrogate write together. -/
def surrogatePair (h l : Nat) : Nat := (((h - 0xD800) <<< 10) ||| (l - 0xDC00)) + 0x10000

/-- What stands for a surrogate without its partner: the three bytes of the code unit itself
when no replacement is set (`replacement` is `none`), the UTF-8 encoding of the replacement
otherwise. -/
def loneSurrogate (replacement : Option Nat) (u : Nat) : Bytes :=
  match replacement with
  | none => [0xED, Fin.ofNat (0x80 ||| ((u >>> 6) &&& 0x3F)), Fin.ofNat (0x80 ||| (u &&& 0x3F))]
  | some r => utf8Encoding r

/-- The bytes that a list of pieces stands for: a high surrogate directly followed by a low
surrogate is the code point of the pair, any other surrogate stands alone. -/
def unescapedPieces (replacement : Option Nat) : List Piece → Bytes
  | [] => []
  | .plain b :: r => b :: unescapedPieces replacement r
  | .simple c :: r => (simpleEscapeValue c).getD 0 :: unescapedPieces replacement r
  | [.unicode d1 d2 d3 d4] =>
    if isHighSurrogate (codeUnit d1 d2 d3 d4) ∨ isLowSurrogate (codeUnit d1 d2 d3 d4) then
      loneSurrogate replacement (codeUnit d1 d2 d3 d4)
    else utf8Encoding (codeUnit d1 d2 d3 d4)
  | .unicode d1 d2 d3 d4 :: p :: r =>
    if isHighSurrogate (codeUnit d1 d2 d3 d4) then
      match p with
      | .unicode e1 e2 e3 e4 =>
        if isLowSurrogate (codeUnit e1 e2 e3 e4) then
          utf8Encoding (surrogatePair (codeUnit d1 d2 d3 d4) (codeUnit e1 e2 e3 e4)) ++
            unescapedPieces replacement r
        else loneSurrogate replacement (codeUnit d1 d2 d3 d4) ++
          unescapedPieces replacement (p :: r)
      | _ => loneSurrogate replacement (codeUnit d1 d2 d3 d4) ++
          unescapedPieces replacement (p :: r)
    else if isLowSurrogate (codeUnit d1 d2 d3 d4) then
      loneSurrogate replacement (codeUnit d1 d2 d3 d4) ++ unescapedPieces replacement (p :: r)
    else utf8Encoding (codeUnit d1 d2 d3 d4) ++ unescapedPieces replacement (p :: r)

/-- What `parseMore` returns for a code unit. -/
def codeUnitResult (u : Nat) : EscapedStringParser.Result :=
  if isHighSurrogate u then { result := .HighSurrogate, surrogate := u }
  else if isLowSurrogate u then { result := .LowSurrogate, surrogate := u }
  else { result := .Unescaped, unescaped := utf8Encoding u }

/-- The argument `surrogateReplacement` that stands for a replacement, or for none. -/
def replacementCode (replacement : Option Nat) : Nat :=
  match replacement with
  | none => DoNotReplaceSurrogates
  | some r => r

/-- The replacement, when there is one, is a code point of at most 21 bits. -/
def ValidReplacement (replacement : Option Nat) : Prop :=
  ∀ r, replacement = some r → r < 0x200000

/-- The piece is the escape of a high surrogate. -/
def Piece.isHigh : Piece → Prop
  | .unicode d1 d2 d3 d4 => isHighSurrogate (codeUnit d1 d2 d3 d4)
  | _ => False

/-- The piece is the escape of a low surrogate. -/
def Piece.isLow : Piece → Prop
  | .unicode d1 d2 d3 d4 => isLowSurrogate (codeUnit d1 d2 d3 d4)
  | _ => False

instance (p : Piece) : Decidable p.isHigh := by
  cases p <;> unfold Piece.isHigh <;> infer_instance

instance (p : Piece) : Decidable p.isLow := by
  cases p <;> unfold Piece.isLow <;> infer_instance

/-- No high surrogate at the end of `a` meets a low surrogate at the start of `b`. -/
def NoPairAcross (a b : List Piece) : Prop :=
  ∀ p q, a.getLast? = some p → b.head? = some q → ¬ (p.isHigh ∧ q.isLow)

/-- The issue that the parser reports for a high surrogate without its partner, at the offset
of the backslash of its escape. -/
def highSurrogateIssue (offset : Nat) : ParsingIssue :=
  { offset := offset, description := "string contains unpaired UTF-16 high surrogate",
    code := .StringContainsUnpairedUtf16HighSurrogate }

/-- The issue that the parser reports for a low surrogate without its partner, at the offset
of the backslash of its escape. -/
def lowSurrogateIssue (offset : Nat) : ParsingIssue :=
  { offset := offset, description := "string contains unpaired UTF-16 low surrogate",
    code := .StringContainsUnpairedUtf16LowSurrogate }

/-- The issues of the surrogates without partner in a list of pieces whose text starts at the
offset `pos`, in the order of the text: a high surrogate directly followed by a low surrogate
is a pair, any other surrogate is without partner. -/
def unpairedIssues : Nat → List Piece → List ParsingIssue
  | _, [] => []
  | pos, .plain _ :: r => unpairedIssues (pos + 1) r
  | pos, .simple _ :: r => unpairedIssues (pos + 2) r
  | pos, [.unicode d1 d2 d3 d4] =>
    if isHighSurrogate (codeUnit d1 d2 d3 d4) then [highSurrogateIssue pos]
    else if isLowSurrogate (codeUnit d1 d2 d3 d4) then [lowSurrogateIssue pos]
    else []
  | pos, .unicode d1 d2 d3 d4 :: p :: r =>
    if isHighSurrogate (codeUnit d1 d2 d3 d4) then
      match p with
      | .unicode e1 e2 e3 e4 =>
        if isLowSurrogate (codeUnit e1 e2 e3 e4) then unpairedIssues (pos + 12) r
        else highSurrogateIssue pos :: unpairedIssues (pos + 6) (p :: r)
      | _ => highSurrogateIssue pos :: unpairedIssues (pos + 6) (p :: r)
    else if isLowSurrogate (codeUnit d1 d2 d3 d4) then
      lowSurrogateIssue pos :: unpairedIssues (pos + 6) (p :: r)
    else unpairedIssues (pos + 6) (p :: r)

/-- The replacement for surrogates without partner that the options set, if any. -/
def optionsReplacement (o : ParsingOptions) : Option Nat :=
  if o.replaceInvalidUtf16Surrogates then some o.replacement else none

/-- What `parseString` returns on the text of the pieces `toks` at the offset `pos`, followed
by the closing quotation mark and the bytes `s2`, when it starts with the string `acc` and
the issues `iss0`: with the policy `Fail` and a surrogate without partner, failure and the
first of the issues; otherwise the bytes the pieces stand for, the cursor after the quotation
mark and, with the policy `Report`, all the issues. -/
def StringResult (o : ParsingOptions) (acc : Bytes) (iss0 : List ParsingIssue) (pos : Nat)
    (toks : List Piece) (s2 : Bytes) (res : Bool × Bytes × ParserImpl) : Prop :=
  if o.unpairedUtf16Surrogates = .Fail ∧ unpairedIssues pos toks ≠ [] then
    res.1 = false ∧ res.2.2.issues = iss0 ++ (unpairedIssues pos toks).take 1
  else
    res = (true, acc ++ unescapedPieces (optionsReplacement o) toks,
      ⟨⟨pos + (piecesText toks).length + 1, s2⟩,
        iss0 ++ (if o.unpairedUtf16Surrogates = .Report then unpairedIssues pos toks else [])⟩)

/-- The text of a string literal with the given pieces. -/
def stringLiteral (toks : List Piece) : Bytes := 34 :: (piecesText toks ++ [34])

/-- The second options differ from the first at most in that a policy `Report` of the first
is the policy `Ignore` in the second. -/
def ReportsMore (o o2 : ParsingOptions) : Prop :=
  o2.replaceInvalidUtf16Surrogates = o.replaceInvalidUtf16Surrogates ∧
  o2.replacement = o.replacement ∧
  (o2.duplicateObjectKeys = o.duplicateObjectKeys ∨
    (o.duplicateObjectKeys = .Report ∧ o2.duplicateObjectKeys = .Ignore)) ∧
  (o2.unpairedUtf16Surrogates = o.unpairedUtf16Surrogates ∨
    (o.unpairedUtf16Surrogates = .Report ∧ o2.unpairedUtf16Surrogates = .Ignore))

/-- The issues that the first options report and the second do not: those of a policy that
differs. -/
def onlyReported (o o2 : ParsingOptions) (x : ParsingIssue) : Bool :=
  (x.code = .DuplicateKeys ∧ o.duplicateObjectKeys ≠ o2.duplicateObjectKeys) ∨
  ((x.code = .StringContainsUnpairedUtf16HighSurrogate ∨
      x.code = .StringContainsUnpairedUtf16LowSurrogate) ∧
    o.unpairedUtf16Surrogates ≠ o2.unpairedUtf16Surrogates)

/-- The state without the issues that only the first options report. -/
def withoutReported (o o2 : ParsingOptions) (st : ParserImpl) : ParserImpl :=
  { st with issues := st.issues.filter (fun x => !onlyReported o o2 x) }

/-- The exit of the inner loop of `parseString` without the issues that only the first options
report. -/
def SurrogateLoopExit.withoutReported (o o2 : ParsingOptions) :
    SurrogateLoopExit → SurrogateLoopExit
  | .returned r s st => .returned r s (minjson.withoutReported o o2 st)
  | .broke s pb st => .broke s pb (minjson.withoutReported o o2 st)

/-- The statement of `parser_withoutReported` for one recursion budget. -/
def HomAll (o o2 : ParsingOptions) (fuel : Nat) : Prop :=
  (∀ v st, parseImpl o2 fuel v (withoutReported o o2 st) =
    (parseImpl o fuel v st).map (fun x => (x.1, x.2.1, withoutReported o o2 x.2.2))) ∧
  (∀ v st, parseArray o2 fuel v (withoutReported o o2 st) =
    (parseArray o fuel v st).map (fun x => (x.1, x.2.1, withoutReported o o2 x.2.2))) ∧
  (∀ a v size st, parseArrayMembersRecursion o2 fuel a v size (withoutReported o o2 st) =
    (parseArrayMembersRecursion o fuel a v size st).map
      (fun x => (x.1, x.2.1, x.2.2.1, withoutReported o o2 x.2.2.2))) ∧
  (∀ a st, parseArrayMembersLoop o2 fuel a (withoutReported o o2 st) =
    (parseArrayMembersLoop o fuel a st).map
      (fun x => (x.1, x.2.1, withoutReported o o2 x.2.2))) ∧
  (∀ v st, parseObject o2 fuel v (withoutReported o o2 st) =
    (parseObject o fuel v st).map (fun x => (x.1, x.2.1, withoutReported o o2 x.2.2))) ∧
  (∀ ob st, parseObjectMembers o2 fuel ob (withoutReported o o2 st) =
    (parseObjectMembers o fuel ob st).map
      (fun x => (x.1, x.2.1, withoutReported o o2 x.2.2)))

/-- The result without the issues that only the first options report. -/
def ParsingResult.withoutReported (o o2 : ParsingOptions) (r : ParsingResult) : ParsingResult :=
  { r with issues := r.issues.filter (fun x => !onlyReported o o2 x) }

/-- The text `t` is read by `parseImpl` as the value `v`, with the issues `iss` (at offsets in
`t`), wherever it stands before the bytes `s2`, with any recursion budget of three steps for
each of its bytes. -/
def RunsAs (o : ParsingOptions) (t s2 : Bytes) (v : Value) (iss : List ParsingIssue) : Prop :=
  ∀ (p : Nat) (iss0 : List ParsingIssue) (fuel : Nat) (v0 : Value), 3 * t.length + 1 ≤ fuel →
    parseImpl o fuel v0 ⟨⟨p, t ++ s2⟩, iss0⟩ =
      some (true, v, ⟨⟨p + t.length, s2⟩, iss0 ++ iss.map (ParsingIssue.shift p)⟩)

/-- The text `t` is read by `parseString` as the string `k`, with the issues `iss`, wherever it
stands. -/
def KeyRunsAs (o : ParsingOptions) (t : Bytes) (k : Bytes) (iss : List ParsingIssue) : Prop :=
  t.head? = some 34 ∧
  ∀ (p : Nat) (iss0 : List ParsingIssue) (s2 : Bytes),
    parseString o [] ⟨⟨p, t ++ s2⟩, iss0⟩ =
      some (true, k, ⟨⟨p + t.length, s2⟩, iss0 ++ iss.map (ParsingIssue.shift p)⟩)

/-- The issue that the parser reports for a key that the object has already, at the offset of
the opening quotation mark of the key. -/
def duplicateKeyIssue (offset : Nat) : ParsingIssue :=
  { offset := offset, description := "JSON object contains duplicate keys",
    code := .DuplicateKeys }

/-- The issues of one member of an object at the offset `p`: those of its key, the issue of a
key that the object has already (unless the policy is `Ignore`), those of its value. -/
def memberIssues (o : ParsingOptions) (p : Nat) (ki : List ParsingIssue) (seen : Bool)
    (vp : Nat) (vi : List ParsingIssue) : List ParsingIssue :=
  ki.map (ParsingIssue.shift p) ++
    (if seen = true ∧ o.duplicateObjectKeys ≠ .Ignore then [duplicateKeyIssue p] else []) ++
    vi.map (ParsingIssue.shift vp)

/-- The issues that `parse` reports for the text `t` read alone. -/
def parsedIssues (o : ParsingOptions) (t : Bytes) : List ParsingIssue :=
  match parse t o .StopAfterValueEnds with
  | some r => r.issues
  | none => []

/-- One member of an array literal, by its pieces: whitespace, the text of the value (which
reads as `value`), whitespace. -/
structure Element where
  before : Bytes
  text : Bytes
  value : Value
  after : Bytes

/-- The pieces of a member of an array are what they are called, for the parser with the
options `o`: the whitespace is whitespace, and the text does not start with whitespace and is
parsed (alone) as `value`. -/
def Element.WellFormed (o : ParsingOptions) (e : Element) : Prop :=
  (∀ b ∈ e.before, isWhitespace b) ∧ (∀ b ∈ e.after, isWhitespace b) ∧
  (∀ b, e.text.head? = some b → ¬ isWhitespace b) ∧
  ∃ iss, parse e.text o .StopAfterValueEnds = some
    { value := e.value, status := .Success, parsedSize := e.text.length, issues := iss }

/-- The text of an array literal after a member: the members that follow, each after a comma,
and the closing bracket. -/
def elementsTail : List Element → Bytes
  | [] => [93]
  | e :: rest => 44 :: (e.before ++ (e.text ++ (e.after ++ elementsTail rest)))

/-- The text of the array literal with the members `e :: rest`. -/
def arrayText (e : Element) (rest : List Element) : Bytes :=
  91 :: (e.before ++ (e.text ++ (e.after ++ elementsTail rest)))

/-- The issues of the members of an array literal, the first of which starts (with its
whitespace) at offset `p`: the issues of each text read alone, moved to the place of the
text. -/
def elementsIssues (o : ParsingOptions) : Nat → List Element → List ParsingIssue
  | _, [] => []
  | p, e :: rest =>
    (parsedIssues o e.text).map (ParsingIssue.shift (p + e.before.length)) ++
      elementsIssues o (p + e.before.length + e.text.length + e.after.length + 1) rest

/-- The text of `d + 1` opening brackets followed by `d + 1` closing brackets. -/
def nestedArrayText (d : Nat) : Bytes := List.replicate (d + 1) 91 ++ List.replicate (d + 1) 93

/-- The array nested `d + 1` levels deep: the empty array for `d = 0`, and the array that holds
the array nested `d` levels deep, and nothing else, for `d + 1`. -/
def nestedArray : Nat → Value
  | 0 => .array []
  | d + 1 => .array [nestedArray d]

/-- The issues of the members of an object literal, the first of which starts (with its
whitespace) at offset `p`, after members with the keys `seen`: for each member the issues of
its key read alone, one issue `DuplicateKeys` at the opening quotation mark of the key if the
key is one of those before it (unless the policy is `Ignore`), and the issues of its value read
alone. -/
def membersIssues (o : ParsingOptions) : Nat → List Bytes → List Member → List ParsingIssue
  | _, _, [] => []
  | p, seen, m :: rest =>
    memberIssues o (p + m.before.length) (parsedIssues o m.keyText) (decide (m.key ∈ seen))
        (p + m.before.length + m.keyText.length + m.afterKey.length + 1 + m.beforeValue.length)
        (parsedIssues o m.valueText) ++
      membersIssues o (p + m.before.length + m.body.length + 1) (m.key :: seen) rest

/-- The keys of the object `ob` are the strings of `seen`. -/
def KeysOf (ob : List (Bytes × Value)) (seen : List Bytes) : Prop :=
  ∀ k, (Object.find k ob).isSome = true ↔ k ∈ seen

/-- The text `t` does not start with whitespace and is parsed (alone, to its end) as a value. -/
def ValueText (o : ParsingOptions) (t : Bytes) : Prop :=
  (∀ b, t.head? = some b → ¬ isWhitespace b) ∧
  ∃ v iss, parse t o .StopAfterValueEnds = some
    { value := v, status := .Success, parsedSize := t.length, issues := iss }

/-- The text `t` starts with a quotation mark and is parsed (alone, to its end) as the string
`k`. -/
def KeyText (o : ParsingOptions) (t k : Bytes) : Prop :=
  t.head? = some 34 ∧
  ∃ iss, parse t o .StopAfterValueEnds = some
    { value := .string k, status := .Success, parsedSize := t.length, issues := iss }

/-- What the parser looks for at a place of a JSON text: a value, a member of an array, or a
member of an object after members with the keys `seen`. -/
inductive Place where
  | value
  | element
  | member (seen : List Bytes)

/-- The text `P` is the beginning of a JSON text, valid up to its end, where the parser is at
the place given: after the leading whitespace (`top`); in an array, after the opening bracket
(`arrayOpen`) or after a member and the comma (`arrayNext`), each time with the whitespace that
follows; in an object, after the opening brace (`objectOpen`) or after a member and the comma
(`objectNext`); a member of an array is a value (`arrayValue`), and so is what follows the key
of a member of an object, the colon and the whitespace (`objectValue`).  With the policy `Fail`
no key of an object is there twice. -/
inductive Ctx (o : ParsingOptions) : Place → Bytes → Prop where
  | top (w : Bytes) (hw : ∀ b ∈ w, isWhitespace b) : Ctx o .value w
  | arrayOpen {P : Bytes} (w : Bytes) (hw : ∀ b ∈ w, isWhitespace b) (h : Ctx o .value P) :
      Ctx o .element (P ++ 91 :: w)
  | arrayNext {P : Bytes} (t w1 w2 : Bytes) (ht : ValueText o t)
      (hw1 : ∀ b ∈ w1, isWhitespace b) (hw2 : ∀ b ∈ w2, isWhitespace b)
      (h : Ctx o .element P) : Ctx o .element (P ++ (t ++ (w1 ++ 44 :: w2)))
  | arrayValue {P : Bytes} (h : Ctx o .element P) : Ctx o .value P
  | objectOpen {P : Bytes} (w : Bytes) (hw : ∀ b ∈ w, isWhitespace b) (h : Ctx o .value P) :
      Ctx o (.member []) (P ++ 123 :: w)
  | objectNext {P : Bytes} {seen : List Bytes} (kt k w1 w2 vt w3 w4 : Bytes)
      (hk : KeyText o kt k) (hw1 : ∀ b ∈ w1, isWhitespace b) (hw2 : ∀ b ∈ w2, isWhitespace b)
      (hv : ValueText o vt) (hw3 : ∀ b ∈ w3, isWhitespace b) (hw4 : ∀ b ∈ w4, isWhitespace b)
      (hnew : o.duplicateObjectKeys = .Fail → k ∉ seen) (h : Ctx o (.member seen) P) :
      Ctx o (.member (k :: seen)) (P ++ (kt ++ (w1 ++ 58 :: (w2 ++ (vt ++ (w3 ++ 44 :: w4))))))
  | objectValue {P : Bytes} {seen : List Bytes} (kt k w1 w2 : Bytes)
      (hk : KeyText o kt k) (hw1 : ∀ b ∈ w1, isWhitespace b) (hw2 : ∀ b ∈ w2, isWhitespace b)
      (hnew : o.duplicateObjectKeys = .Fail → k ∉ seen) (h : Ctx o (.member seen) P) :
      Ctx o .value (P ++ (kt ++ (w1 ++ 58 :: w2)))

/-- The bytes `Y` start with a byte that is neither whitespace nor a closing bracket or
brace. -/
def Opens (Y : Bytes) : Prop :=
  ∃ b t, Y = b :: t ∧ ¬ isWhitespace b ∧ b.val ≠ 93 ∧ b.val ≠ 125

/-- The function of the parser for the place given, called at the offset `p` before the bytes
`Y`, whatever the issues, the budget (if it is three steps for each byte) and the value to
fill: it fails at the offset `q` with `x` as the last issue. -/
def Stuck (o : ParsingOptions) : Place → Nat → Bytes → Nat → ParsingIssue → Prop
  | .value, p, Y, q, x => ∀ iss fuel v0, 3 * Y.length + 1 ≤ fuel →
      ∃ v s pre, parseImpl o fuel v0 ⟨⟨p, Y⟩, iss⟩ = some (false, v, ⟨⟨q, s⟩, pre ++ [x]⟩)
  | .element, p, Y, q, x => ∀ iss fuel, 3 * Y.length + 2 ≤ fuel →
      (∀ a v0 size, ∃ a2 v s pre, parseArrayMembersRecursion o fuel a v0 size ⟨⟨p, Y⟩, iss⟩ =
        some (false, a2, v, ⟨⟨q, s⟩, pre ++ [x]⟩)) ∧
      (∀ a, ∃ a2 s pre, parseArrayMembersLoop o fuel a ⟨⟨p, Y⟩, iss⟩ =
        some (false, a2, ⟨⟨q, s⟩, pre ++ [x]⟩))
  | .member seen, p, Y, q, x => ∀ iss fuel ob, KeysOf ob seen → 3 * Y.length + 2 ≤ fuel →
      ∃ ob2 s pre, parseObjectMembers o fuel ob ⟨⟨p, Y⟩, iss⟩ =
        some (false, ob2, ⟨⟨q, s⟩, pre ++ [x]⟩)

/-- The issue of `parseArrayMembers` for a byte after a member that is neither a comma nor the
closing bracket. -/
def arrayEndExpected (offset : Nat) : ParsingIssue :=
  { offset := offset, description := "invalid character, ',' or ']' expected",
    code := .InvalidCharacter }

/-- The issue of `parseObject` for a byte after a member that is neither a comma nor the
closing brace. -/
def objectEndExpected (offset : Nat) : ParsingIssue :=
  { offset := offset, description := "invalid character, ',' or '\x7d' expected",
    code := .InvalidCharacter }

/-- The issue that `parse` adds for a byte after the value that is not whitespace. -/
def trailingIssue (offset : Nat) : ParsingIssue :=
  { offset := offset, description := "non-whitespace characters after a valid JSON value" }

/-- The text that the serializer writes for a string with the default options: the quotation
marks around the escaped bytes. -/
def stringText (s : Bytes) : Bytes := 34 :: (s.flatMap (escapedByte .Lower) ++ [34])

mutual
/-- The text that the serializer writes for a value with the default options. -/
def Value.text : Value → Bytes
  | .null => NullLiteral
  | .boolean b => if b then TrueLiteral else FalseLiteral
  | .int64 i => to_chars_int64 i
  | .double d => to_chars_double d
  | .string s => stringText s
  | .array a => Value.textArray a
  | .object o => Value.textObject o
/-- The text of an array. -/
def Value.textArray : List Value → Bytes
  | [] => [91, 93]
  | x :: xs => 91 :: (x.text ++ Value.textElements xs)
/-- The text of an array after a member: the members that follow, each after a comma, and the
closing bracket. -/
def Value.textElements : List Value → Bytes
  | [] => [93]
  | x :: xs => 44 :: (x.text ++ Value.textElements xs)
/-- The text of an object. -/
def Value.textObject : List (Bytes × Value) → Bytes
  | [] => [123, 125]
  | (k, x) :: ms => 123 :: (stringText k ++ 58 :: (x.text ++ Value.textMembers ms))
/-- The text of an object after a member: the members that follow, each after a comma, and
the closing brace. -/
def Value.textMembers : List (Bytes × Value) → Bytes
  | [] => [125]
  | (k, x) :: ms => 44 :: (stringText k ++ 58 :: (x.text ++ Value.textMembers ms))
end

/-- The visitor of `impl::serialize` for the default options. -/
def defaultVisitor : SerializingVisitor :=
  { serializationMode := .WithoutIndentation, options := {}, newlineSeparator := [] }

/-- The visit `f` writes the text of the value `x`, after whatever was written before. -/
def WritesText (f : Value → List Bytes → Written) (x : Value) : Prop :=
  ∀ out, ∃ out2, f x out = .ok out2 ∧ out2.flatten = out.flatten ++ x.text

/-- The piece that the escaper writes for a byte: the escape of the character, the escape of
the code unit for another control character, the byte itself otherwise. -/
def escapedPiece (b : Byte) : Piece :=
  if matchCommonCharacterToEscape b ≠ 0 then .simple (matchCommonCharacterToEscape b)
  else if isControlCharacter b then
    .unicode 48 48 (EscapedChar.hexDigit .Lower (b.val >>> 4))
      (EscapedChar.hexDigit .Lower (b.val &&& 0xf))
  else .plain b

mutual
/-- There is no `Double` in the value. -/
def Value.noDouble : Value → Bool
  | .double _ => false
  | .array a => Value.noDoubleArray a
  | .object o => Value.noDoubleObject o
  | _ => true
/-- There is no `Double` in the elements of an array. -/
def Value.noDoubleArray : List Value → Bool
  | [] => true
  | x :: xs => x.noDouble && Value.noDoubleArray xs
/-- There is no `Double` in the member values of an object. -/
def Value.noDoubleObject : List (Bytes × Value) → Bool
  | [] => true
  | (_, x) :: ms => x.noDouble && Value.noDoubleObject ms
end

mutual
/-- The keys of every `Object` in the value differ pairwise, as the keys of a map do. -/
def Value.keysDistinct : Value → Bool
  | .array a => Value.keysDistinctArray a
  | .object o => decide ((o.map (fun e => e.1)).Nodup) && Value.keysDistinctObject o
  | _ => true
/-- The keys of every `Object` in the elements of an array differ pairwise. -/
def Value.keysDistinctArray : List Value → Bool
  | [] => true
  | x :: xs => x.keysDistinct && Value.keysDistinctArray xs
/-- The keys of every `Object` in the member values of an object differ pairwise. -/
def Value.keysDistinctObject : List (Bytes × Value) → Bool
  | [] => true
  | (_, x) :: ms => x.keysDistinct && Value.keysDistinctObject ms
end

/-- The round trip `parse(serializeToString(v))` with the default options on both sides, when
`serializeToString` returns a text. -/
def roundTrip (v : Value) : Option ParsingResult :=
  match serializeToString v with
  | some (.ok text) => parse text
  | _ => none

/-- The member of an array literal that the serializer writes for the value `x`. -/
def elementOf (x : Value) : Element := ⟨[], x.text, x, []⟩

/-- The member of an object literal that the serializer writes for the entry `e`. -/
def memberOf (e : Bytes × Value) : Member := ⟨[], stringText e.1, e.1, [], [], e.2.text, e.2, []⟩

/-- How the scan of a text with escapes ends: at the end of the text, at a byte that is not
allowed where it stands (with its offset), or inside an escape that the end of the text cuts
off. -/
inductive ScanEnd where
  | complete
  | invalid (offset : Nat)
  | truncated
  deriving DecidableEq, Repr

/-- Where the scan of a text with escapes stands: in the text, right after a backslash, or
before the last `n` of the four hexadecimal digits of a `\u` escape. -/
inductive ScanState where
  | text
  | escape
  | hex (n : Nat)
  deriving DecidableEq, Repr

/-- The end of a scan, seen from one byte earlier. -/
def ScanEnd.next : ScanEnd → ScanEnd
  | .invalid k => .invalid (k + 1)
  | e => e

/-- The scan of a text with escapes, byte by byte: after a backslash one of the eight escape
characters or `u` must follow, and after `\u` four hexadecimal digits; in the mode `Strict` a
quotation mark or a control byte in the text is not allowed. -/
def scanEscapes (mode : UnescapeMode) : ScanState → Bytes → ScanEnd
  | .text, [] => .complete
  | .text, b :: t =>
    if b.val = 92 then (scanEscapes mode .escape t).next
    else if mode = .Strict ∧ (b.val = 34 ∨ b.val < 32) then .invalid 0
    else (scanEscapes mode .text t).next
  | .escape, [] => .truncated
  | .escape, b :: t =>
    if simpleEscapeValue b ≠ none then (scanEscapes mode .text t).next
    else if b.val = 117 then (scanEscapes mode (.hex 4) t).next
    else .invalid 0
  | .hex _, [] => .truncated
  | .hex n, b :: t =>
    if hexDigitValue b ≠ none then
      (if n ≤ 1 then scanEscapes mode .text t else scanEscapes mode (.hex (n - 1)) t).next
    else .invalid 0

/-- What `impl::unescape` returns for the end of the scan of an input of the given size. -/
def ScanEnd.result (size : Nat) : ScanEnd → Nat
  | .complete => size
  | .invalid k => k
  | .truncated => impl.NPos

/-- The pointer that `UnescapeParser::unescape` returns for the end of a scan that starts at
the pointer `i`: its offset, or `none` for `nullptr`. -/
def ScanEnd.stop (i : Ptr) : ScanEnd → Option Nat
  | .complete => some (i.pos + i.rest.length)
  | .invalid k => some (i.pos + k)
  | .truncated => none

/-- The offset at which `UnescapeParser::unescape` stops when it goes on from `i`. -/
def stopAt (mode : UnescapeMode) (i : Ptr) : Option Nat :=
  (scanEscapes mode .text i.rest).stop i

/-- What one turn of the loop of `EscapedStringWriter::writeImpl` does with the bytes at the
head of the text: it leaves `size` bytes to be copied, it sends an escape sequence for `size`
bytes, or it stops at an invalid code unit. -/
inductive EscapeStep where
  | copy (size : Nat)
  | emit (sequence : Bytes) (size : Nat)
  | stop
  deriving DecidableEq, Repr

/-- The turn that the loop of `EscapedStringWriter::writeImpl` takes at the head of the text,
by the tests of its body in their order. -/
def escapeStep (escapeNonAscii validateUtf8 : Bool) (h : HexDigitsCase) (text : Bytes) :
    EscapeStep :=
  match text with
  | [] => .stop
  | b :: _ =>
    if matchCommonCharacterToEscape b ≠ 0 then
      .emit (EscapedChar.decorate (matchCommonCharacterToEscape b)) 1
    else if isControlCharacter b then .emit (EscapedChar.getChar h b) 1
    else if (escapeNonAscii ∨ validateUtf8) ∧ b.val &&& 0x80 ≠ 0 then
      match detectUtf8CodePointSize ⟨0, text⟩ with
      | none => .stop
      | some codePointSize =>
        if escapeNonAscii then
          if codePointSize ≠ 0 then
            .emit (EscapedStringWriter.escapeSequence h codePointSize ⟨0, text⟩) codePointSize
          else if validateUtf8 then .stop
          else .copy 1
        else
          if codePointSize = 0 then .stop
          else .copy codePointSize
    else .copy 1

/-- A piece of what the escaper makes of a text: bytes of the text copied as they are, or the
escape sequence of one character. -/
inductive Chunk where
  | copied (bytes : Bytes)
  | escaped (sequence : Bytes)
  deriving DecidableEq, Repr

/-- The bytes of a chunk. -/
def Chunk.bytes : Chunk → Bytes
  | .copied bytes => bytes
  | .escaped sequence => sequence

/-- Is the chunk an escape sequence. -/
def Chunk.isEscaped : Chunk → Bool
  | .copied _ => false
  | .escaped _ => true

/-- The turns of the loop of `EscapedStringWriter::writeImpl` over a text, one chunk for each,
and the offset at which the loop stops at an invalid code unit, if it does.  A turn takes at
least one byte, so the length of the text is budget enough. -/
def escapeChunks (escapeNonAscii validateUtf8 : Bool) (h : HexDigitsCase) :
    Nat → Bytes → List Chunk × Option Nat
  | 0, _ => ([], none)
  | fuel + 1, text =>
    if text = [] then ([], none)
    else
      match escapeStep escapeNonAscii validateUtf8 h text with
      | .copy size =>
        let r := escapeChunks escapeNonAscii validateUtf8 h fuel (text.drop size)
        (.copied (text.take size) :: r.1, r.2.map (· + size))
      | .emit sequence size =>
        let r := escapeChunks escapeNonAscii validateUtf8 h fuel (text.drop size)
        (.escaped sequence :: r.1, r.2.map (· + size))
      | .stop => ([], some 0)

/-- The fragments for a list of chunks when the bytes `pending` wait to be sent: the copied
bytes that follow one another make one fragment, each escape sequence makes one, and nothing
empty is sent. -/
def batchesFrom (pending : Bytes) : List Chunk → List Bytes
  | [] => if pending = [] then [] else [pending]
  | .copied bytes :: rest => batchesFrom (pending ++ bytes) rest
  | .escaped sequence :: rest =>
    (if pending = [] then [] else [pending]) ++ sequence :: batchesFrom [] rest

/-- The fragments for a list of chunks: one for each maximal run of copied bytes and one for
each escape sequence, in order. -/
def batches (chunks : List Chunk) : List Bytes := batchesFrom [] chunks

/-- The chunks that the escaper makes of a text in the given modes, one for each turn of its
loop. -/
def escapeUnits (escapeMode : Escape) (validation : Utf8Validation) (h : HexDigitsCase)
    (text : Bytes) : List Chunk :=
  (escapeChunks (escapeMode = .NonAscii) (validation = .FailOnInvalidUtf8CodeUnits) h
    text.length text).1

/-- The offset at which the escaper stops at an invalid code unit in the given modes, if it
does. -/
def escapeStop (escapeMode : Escape) (validation : Utf8Validation) (h : HexDigitsCase)
    (text : Bytes) : Option Nat :=
  (escapeChunks (escapeMode = .NonAscii) (validation = .FailOnInvalidUtf8CodeUnits) h
    text.length text).2

/-- The size that a byte announces for the sequence it starts: 2 for `110xxxxx`, 3 for
`1110xxxx`, 4 for `11110xxx`, and 1 for every other byte. -/
def announcedSize (a : Byte) : Nat :=
  if a.val / 32 = 6 then 2 else if a.val / 16 = 14 then 3 else if a.val / 8 = 30 then 4 else 1

/-- The size of the well-formed sequence that the text starts with: a lead byte `110xxxxx`,
`1110xxxx` or `11110xxx` followed in the text by 1, 2 or 3 bytes of the form `10xxxxxx`;
`none` when the text starts with no such sequence. -/
def sequenceSize (text : Bytes) : Option Nat :=
  match text with
  | [] => none
  | a :: t =>
    if announcedSize a ≠ 1 ∧ announcedSize a - 1 ≤ t.length ∧
        (t.take (announcedSize a - 1)).all (fun c => c.val / 64 = 2) then some (announcedSize a)
    else none

/-- The offset of the first byte from `0x80` on that the scan of the text reaches and that
starts no well-formed sequence; the scan goes byte by byte and steps over a well-formed
sequence as a whole.  A step takes at least one byte, so the length of the text is budget
enough. -/
def firstMalformedFrom : Nat → Bytes → Option Nat
  | 0, _ => none
  | fuel + 1, text =>
    match text with
    | [] => none
    | a :: t =>
      if a.val < 0x80 then (firstMalformedFrom fuel t).map (· + 1)
      else
        match sequenceSize (a :: t) with
        | some n => (firstMalformedFrom fuel ((a :: t).drop n)).map (· + n)
        | none => some 0

/-- The offset of the first malformed UTF-8 unit of a text, if there is one. -/
def firstMalformed (text : Bytes) : Option Nat := firstMalformedFrom text.length text

/-- The hexadecimal digit of the value `d` below 16, in the given case. -/
def hexChar (h : HexDigitsCase) (d : Nat) : Byte :=
  if d < 10 then Fin.ofNat (48 + d)
  else if h = .Lower then Fin.ofNat (87 + d)
  else Fin.ofNat (55 + d)

/-- What the escaper makes of one byte when it escapes no UTF-8 sequences: `\b`, `\t`, `\n`,
`\f`, `\r`, `\"`, `\\` for the bytes that have such an escape, `\u00XX` with its two
hexadecimal digits for every other byte below `0x20`, and the byte itself otherwise. -/
def escapeImage (h : HexDigitsCase) (b : Byte) : Bytes :=
  if b.val = 8 then [92, 98]
  else if b.val = 9 then [92, 116]
  else if b.val = 10 then [92, 110]
  else if b.val = 12 then [92, 102]
  else if b.val = 13 then [92, 114]
  else if b.val = 34 then [92, 34]
  else if b.val = 92 then [92, 92]
  else if b.val < 0x20 then [92, 117, 48, 48, hexChar h (b.val / 16), hexChar h (b.val % 16)]
  else [b]

/-- The escape `\uXXXX` of the 16-bit value `u`, with its four hexadecimal digits. -/
def unicodeEscape (h : HexDigitsCase) (u : Nat) : Bytes :=
  [92, 117, hexChar h (u / 4096 % 16), hexChar h (u / 256 % 16), hexChar h (u / 16 % 16),
    hexChar h (u % 16)]

/-- The code point that a sequence of two, three or four bytes encodes: the low five, four
or three bits of the lead byte, followed by the low six bits of each byte after it. -/
def codePoint (u : Bytes) : Nat :=
  match u with
  | [a, b] => a.val % 32 * 64 + b.val % 64
  | [a, b, c] => a.val % 16 * 4096 + b.val % 64 * 64 + c.val % 64
  | [a, b, c, d] => a.val % 8 * 262144 + b.val % 64 * 4096 + c.val % 64 * 64 + d.val % 64
  | _ => 0

/-- The high surrogate of the code point `c`: `0xD800 + ((c - 0x10000) >> 10)`. -/
def highSurrogate (c : Nat) : Nat := 0xD800 + ((c - 0x10000) >>> 10)

/-- The low surrogate of the code point `c`: `0xDC00 + ((c - 0x10000) & 0x3FF)`. -/
def lowSurrogate (c : Nat) : Nat := 0xDC00 + ((c - 0x10000) &&& 0x3FF)

/-- The units of a text, as the scan from left to right meets them: a well-formed sequence
as a whole, every other byte alone.  A unit has at least one byte, so the length of the text
is budget enough. -/
def utf8Units : Nat → Bytes → List Bytes
  | 0, _ => []
  | fuel + 1, text =>
    match text with
    | [] => []
    | a :: t =>
      if a.val < 0x80 then [a] :: utf8Units fuel t
      else
        match sequenceSize (a :: t) with
        | some n => (a :: t).take n :: utf8Units fuel ((a :: t).drop n)
        | none => [a] :: utf8Units fuel t

/-- The units of a text. -/
def textUnits (text : Bytes) : List Bytes := utf8Units text.length text

/-- What the escaper makes of one unit when it escapes the UTF-8 sequences: a sequence of two
or three bytes becomes the escape `\uXXXX` of its code point, a sequence of four bytes the
escapes of the high and of the low surrogate of its code point, and a single byte is escaped
as without the UTF-8 sequences. -/
def nonAsciiUnit (h : HexDigitsCase) (u : Bytes) : Bytes :=
  match u with
  | [a] => escapeImage h a
  | [_, _] => unicodeEscape h (codePoint u)
  | [_, _, _] => unicodeEscape h (codePoint u)
  | [_, _, _, _] =>
    unicodeEscape h (highSurrogate (codePoint u)) ++ unicodeEscape h (lowSurrogate (codePoint u))
  | _ => u

/-- The Strings and the keys of a value in the order in which `SerializingVisitor` writes
them: the elements of an array in their order, and for each member of an object its key and
then its value, the members sorted by key when `sortObjectKeys` is set.  The budget is the one
of the visit. -/
def writtenStrings (sortObjectKeys : Bool) : Nat → Value → List Bytes
  | 0, _ => []
  | _ + 1, .string t => [t]
  | fuel + 1, .array a => a.flatMap (writtenStrings sortObjectKeys fuel)
  | fuel + 1, .object o =>
    (if sortObjectKeys then SerializingVisitor.sortItems o else o).flatMap
      (fun i => i.1 :: writtenStrings sortObjectKeys fuel i.2)
  | _ + 1, _ => []

/-- The Strings and the keys of a value in the order in which the serializer writes them. -/
def Value.strings (sortObjectKeys : Bool) (v : Value) : List Bytes :=
  writtenStrings sortObjectKeys v.height v

/-- The exception for a string with a malformed UTF-8 unit: the offset of its first invalid
byte, and the bytes from that offset on, as many as that byte announces for its sequence and
no more than the string has left. -/
def utf8Error (s : Bytes) : Option InvalidUtf8CodeUnitsError :=
  (firstMalformed s).map fun k =>
    { codeUnits := (s.drop k).take (min (announcedSize (s.getD k 0)) (s.length - k))
      offset := k }

/-- A step of the visitor ends by throwing the given exception, or it returns when there is
none. -/
def Outcome (r : Option InvalidUtf8CodeUnitsError) (w : Written) : Prop :=
  match r with
  | some e => ∃ out, w = .thrown e out
  | none => ∃ out, w = .ok out

/-- The exception with which `serializeToString(v, o)` ends, if it ends with one. -/
def serializeError (v : Value) (o : SerializationOptions) : Option InvalidUtf8CodeUnitsError :=
  match serializeToString v o with
  | some (.error e) => some e
  | _ => none

/-- A reference token of `BasicValue::resolve`: an argument convertible to `size_t`, or an
argument convertible to `String`. -/
inductive RefToken where
  | index (i : Nat)
  | key (k : Bytes)
  deriving DecidableEq, Repr

/-- The two overloads of the member `BasicValue::resolveImpl`; `none` is `nullptr`. -/
def Value.resolveImpl (v : Value) : RefToken → Option Value
  | .index i =>
    match v with
    | .array a => if h : i < a.length then some (a.get ⟨i, h⟩) else none
    | _ => none
  | .key k =>
    match v with
    | .object o => Object.find k o
    | _ => none

/-- The fold `(static_cast<bool>(value = value->resolveImpl(refTokens)) && ...)` of
`BasicValue::resolve`, from the value `value` on: it stops at the first `nullptr`. -/
def Value.resolveFold (value : Value) : List RefToken → Option Value
  | [] => some value
  | token :: rest =>
    match value.resolveImpl token with
    | none => none
    | some next => Value.resolveFold next rest

/-- The member `BasicValue::resolve(refTokens...)`, which takes at least one token; `none` is
`nullptr`. -/
def Value.resolve (v : Value) (token : RefToken) (rest : List RefToken) : Option Value :=
  v.resolveFold (token :: rest)

/-- The lookup of one token in a node: the element at the index when the node is an `Array`
and the token an index below its size, the value of the key when the node is an `Object` and
the token a key that it has, and nothing in every other case. -/
def lookupToken (node : Value) (token : RefToken) : Option Value :=
  match node, token with
  | .array a, .index i => a[i]?
  | .object o, .key k => (o.find? (fun e => e.1 = k)).map (fun e => e.2)
  | _, _ => none

/-- The lookups of the tokens one after the other, from a node or from nothing. -/
def lookupTokens (start : Option Value) (tokens : List RefToken) : Option Value :=
  tokens.foldl (fun node token => node.bind (fun n => lookupToken n token)) start

/-- The indentation character of the options: a space or a tab. -/
def indentationByte (o : SerializationOptions) : Byte :=
  if o.indentationChar = .Space then 32 else 9

/-- The bytes that `writeNewlineAndIndentation(doWrite)` sends: in the mode `WithIndentation`
and when `doWrite` is set, the newline separator and the indentation; nothing otherwise. -/
def newlineText (c : SerializingVisitor) (indentation : Nat) (doWrite : Bool) : Bytes :=
  if c.serializationMode = .WithIndentation ∧ doWrite then
    c.newlineSeparator ++ List.replicate indentation (indentationByte c.options)
  else []

/-- The text of a string or of a key: the escaped bytes between the two quotation strings of
the options. -/
def quotedText (o : SerializationOptions) (s : Bytes) : Bytes :=
  o.openingStringQuotation ++ (escape s o.escape o.validation o.hexDigitsCase).getD [] ++
    o.closingStringQuotation

/-- The bytes that the visit of a value sends to the sink when it returns, for any options
and either mode, at the given indentation. -/
def layout (c : SerializingVisitor) : Nat → Nat → Value → Bytes
  | 0, _, _ => []
  | fuel + 1, indentation, v =>
    match v with
    | .null => c.options.nullLiteral
    | .boolean b => if b then c.options.trueLiteral else c.options.falseLiteral
    | .int64 i => to_chars_int64 i
    | .double d => to_chars_double d
    | .string t => quotedText c.options t
    | .array a =>
      if a.isEmpty ∧ c.options.emptyArray ≠ [] then c.options.emptyArray
      else
        match a with
        | i :: rest =>
          let inner := if c.serializationMode = .WithIndentation then
            (indentation + c.options.indent) % 2 ^ 64 else indentation
          c.options.arrayOpeningBracket ++
            newlineText c inner c.options.newline.afterArrayOpeningBracket ++
            layout c fuel inner i ++
            rest.flatMap (fun x =>
              newlineText c inner c.options.newline.beforeArrayMemberSeparator ++
              c.options.arrayMemberSeparator ++
              newlineText c inner c.options.newline.afterArrayMemberSeparator ++
              layout c fuel inner x) ++
            newlineText c indentation c.options.newline.beforeArrayClosingBracket ++
            c.options.arrayClosingBracket
        | [] =>
          c.options.arrayOpeningBracket ++
            newlineText c indentation (c.options.newline.afterArrayOpeningBracket ||
              c.options.newline.beforeArrayClosingBracket) ++
            c.options.arrayClosingBracket
    | .object o =>
      if o.isEmpty ∧ c.options.emptyObject ≠ [] then c.options.emptyObject
      else
        let inner := if c.serializationMode = .WithIndentation then
          (indentation + c.options.indent) % 2 ^ 64 else indentation
        let member (m : Bytes × Value) : Bytes :=
          quotedText c.options m.1 ++
            newlineText c inner c.options.newline.afterObjectMemberKey ++
            c.options.objectKeyValueSeparator ++
            newlineText c inner (c.options.newline.beforeObjectMemberValue ||
              (c.options.newline.beforeObjectMemberCollectionValue &&
                SerializingVisitor.isCollection m.2)) ++
            layout c fuel inner m.2
        match (if c.options.sortObjectKeys then SerializingVisitor.sortItems o else o) with
        | i :: rest =>
          c.options.objectOpeningBrace ++
            newlineText c inner c.options.newline.afterObjectOpeningBrace ++
            member i ++
            rest.flatMap (fun m =>
              newlineText c inner c.options.newline.beforeObjectMemberSeparator ++
              c.options.objectMemberSeparator ++
              newlineText c inner c.options.newline.afterObjectMemberSeparator ++
              member m) ++
            newlineText c indentation c.options.newline.beforeObjectClosingBrace ++
            c.options.objectClosingBrace
        | [] =>
          c.options.objectOpeningBrace ++
            newlineText c indentation (c.options.newline.afterObjectOpeningBrace ||
              c.options.newline.beforeObjectClosingBrace) ++
            c.options.objectClosingBrace

/-- The visitor that `impl::serialize` makes for the options: in the mode `WithIndentation`
when `indent` is not zero or the newline separator is not empty, with a line feed for an empty
separator. -/
def visitorOf (o : SerializationOptions) : SerializingVisitor :=
  if o.indent ≠ 0 ∨ o.newline.separator ≠ [] then
    { serializationMode := .WithIndentation
      options := o
      newlineSeparator := if o.newline.separator = [] then [10] else o.newline.separator }
  else
    { serializationMode := .WithoutIndentation
      options := o
      newlineSeparator := [] }

/-- The text that `serializeToString(v, o)` returns, if it returns one. -/
def serializedText (v : Value) (o : SerializationOptions) : Option Bytes :=
  match serializeToString v o with
  | some (.ok text) => some text
  | _ => none

/-- The texts joined by the separator. -/
def joined (separator : Bytes) (texts : List Bytes) : Bytes :=
  (texts.intersperse separator).flatten

/-- The compact rendering of a value from the strings of the options: the literals for
`Null` and the Booleans, the decimal text of a number, a string between the quotation strings,
an empty collection as its empty literal when that is not empty and as the opening and the
closing string otherwise, and the members of a collection joined by the separator between the
opening and the closing string, a member of an `Object` being its key, the key-value separator
and its value.  The members of an `Object` come in its iteration order, or sorted by key when
`sortObjectKeys` is set. -/
def compactText (o : SerializationOptions) : Nat → Value → Bytes
  | 0, _ => []
  | fuel + 1, v =>
    match v with
    | .null => o.nullLiteral
    | .boolean b => if b then o.trueLiteral else o.falseLiteral
    | .int64 i => to_chars_int64 i
    | .double d => to_chars_double d
    | .string s => quotedText o s
    | .array a =>
      if a.isEmpty then
        (if o.emptyArray ≠ [] then o.emptyArray
          else o.arrayOpeningBracket ++ o.arrayClosingBracket)
      else
        o.arrayOpeningBracket ++ joined o.arrayMemberSeparator (a.map (compactText o fuel)) ++
          o.arrayClosingBracket
    | .object m =>
      if m.isEmpty then
        (if o.emptyObject ≠ [] then o.emptyObject
          else o.objectOpeningBrace ++ o.objectClosingBrace)
      else
        o.objectOpeningBrace ++
          joined o.objectMemberSeparator
            ((if o.sortObjectKeys then SerializingVisitor.sortItems m else m).map
              (fun e => quotedText o e.1 ++ o.objectKeyValueSeparator ++ compactText o fuel e.2)) ++
          o.objectClosingBrace

/-- The compact rendering of a value. -/
def Value.compact (v : Value) (o : SerializationOptions) : Bytes := compactText o v.height v

/-- The line break before something at the depth `depth`: a line feed and `depth * indent`
indentation characters. -/
def lineBreak (o : SerializationOptions) (depth : Nat) : Bytes :=
  10 :: List.replicate (depth * o.indent) (indentationByte o)

/-- The indented rendering of a value at the depth `depth`: a collection that is not empty is
its opening string, its members, each on a line of its own at the depth `depth + 1` and joined
by the separator, which comes right after the member before it, then a line break at the
depth `depth` and the closing string; a member of an `Object` is its key, the key-value
separator and its value.  An empty collection is its empty literal when that is not empty,
and otherwise the opening string, a line break and the closing string.  The rest is as in the
compact rendering. -/
def indentedText (o : SerializationOptions) : Nat → Nat → Value → Bytes
  | 0, _, _ => []
  | fuel + 1, depth, v =>
    match v with
    | .null => o.nullLiteral
    | .boolean b => if b then o.trueLiteral else o.falseLiteral
    | .int64 i => to_chars_int64 i
    | .double d => to_chars_double d
    | .string s => quotedText o s
    | .array a =>
      if a.isEmpty then
        (if o.emptyArray ≠ [] then o.emptyArray
          else o.arrayOpeningBracket ++ lineBreak o depth ++ o.arrayClosingBracket)
      else
        o.arrayOpeningBracket ++
          joined o.arrayMemberSeparator
            (a.map (fun x => lineBreak o (depth + 1) ++ indentedText o fuel (depth + 1) x)) ++
          lineBreak o depth ++ o.arrayClosingBracket
    | .object m =>
      if m.isEmpty then
        (if o.emptyObject ≠ [] then o.emptyObject
          else o.objectOpeningBrace ++ lineBreak o depth ++ o.objectClosingBrace)
      else
        o.objectOpeningBrace ++
          joined o.objectMemberSeparator
            ((if o.sortObjectKeys then SerializingVisitor.sortItems m else m).map
              (fun e => lineBreak o (depth + 1) ++ quotedText o e.1 ++
                o.objectKeyValueSeparator ++ indentedText o fuel (depth + 1) e.2)) ++
          lineBreak o depth ++ o.objectClosingBrace

/-- The indented rendering of a value at the top level. -/
def Value.indented (v : Value) (o : SerializationOptions) : Bytes := indentedText o v.height 0 v

/-- The text of an empty collection, by the specification: the empty literal when that is not
empty; otherwise the opening string, then, in the mode `WithIndentation` and when the flag
after the opening or the flag before the closing is set, one newline separator and the
current indentation, then the closing string. -/
def emptyCollectionText (c : SerializingVisitor) (indentation : Nat)
    (literal opening closing : Bytes) (afterOpening beforeClosing : Bool) : Bytes :=
  if literal ≠ [] then literal
  else
    opening ++
      (if c.serializationMode = .WithIndentation ∧ (afterOpening = true ∨ beforeClosing = true)
        then c.newlineSeparator ++ List.replicate indentation (indentationByte c.options)
        else []) ++
      closing

/-- The text of an empty `Array` at the top level. -/
def emptyArrayText (o : SerializationOptions) : Bytes :=
  emptyCollectionText (visitorOf o) 0 o.emptyArray o.arrayOpeningBracket o.arrayClosingBracket
    o.newline.afterArrayOpeningBracket o.newline.beforeArrayClosingBracket

/-- The text of an empty `Object` at the top level. -/
def emptyObjectText (o : SerializationOptions) : Bytes :=
  emptyCollectionText (visitorOf o) 0 o.emptyObject o.objectOpeningBrace o.objectClosingBrace
    o.newline.afterObjectOpeningBrace o.newline.beforeObjectClosingBrace

/-- The byte-wise order of two strings, the bytes compared as unsigned numbers: at the first
position where the strings differ the first has the smaller byte, or the first is a proper
beginning of the second. -/
def bytesLess (a b : Bytes) : Prop := List.Lex (fun x y : Byte => x.val < y.val) a b

/-- The value with the members of every `Object` listed in the order of `std::sort` by key,
down to the given number of levels. -/
def Value.sortedTo : Nat → Value → Value
  | 0, v => v
  | fuel + 1, .array a => .array (a.map (Value.sortedTo fuel))
  | fuel + 1, .object m =>
    .object ((SerializingVisitor.sortItems m).map (fun e => (e.1, Value.sortedTo fuel e.2)))
  | _ + 1, v => v

/-- The value with the members of every `Object`, at every level, listed in the order of
`std::sort` by key. -/
def Value.sorted (v : Value) : Value := v.sortedTo v.height

/-- The keys of every `Object` of the value, down to the given number of levels, are listed
in strictly ascending byte-wise order. -/
def KeysAscending : Nat → Value → Prop
  | 0, _ => True
  | fuel + 1, .array a => ∀ x ∈ a, KeysAscending fuel x
  | fuel + 1, .object m =>
    m.Pairwise (fun a b => bytesLess a.1 b.1) ∧ ∀ e ∈ m, KeysAscending fuel e.2
  | _ + 1, _ => True

/-- The second value is the first with the members of its `Object`s listed in another order,
down to the given number of levels: every member of an `Object` of the first is listed
exactly once in the second, with its key, and nothing else is. -/
def Rearranged : Nat → Value → Value → Prop
  | 0, v, w => v = w
  | fuel + 1, .array a, .array b => List.Forall₂ (Rearranged fuel) a b
  | fuel + 1, .object m, .object n =>
    ∃ l, l.Perm m ∧ List.Forall₂ (fun x y => x.1 = y.1 ∧ Rearranged fuel x.2 y.2) l n
  | _ + 1, v, w => v = w

/-- The visitor with the option `sortObjectKeys` set to the given value. -/
def withSortObjectKeys (c : SerializingVisitor) (b : Bool) : SerializingVisitor :=
  { c with options := { c.options with sortObjectKeys := b } }

/-- The unit is the UTF-8 encoding of a Unicode scalar value in its shortest form: an ASCII
byte; a sequence of two bytes for a code point from `0x80` on; a sequence of three bytes for
a code point from `0x800` on that is no surrogate; a sequence of four bytes for a code point
from `0x10000` to `0x10FFFF`. -/
def scalarUnit (u : Bytes) : Bool :=
  match u with
  | [a] => decide (a.val < 0x80)
  | [_, _] => decide (0x80 ≤ codePoint u)
  | [_, _, _] => decide (0x800 ≤ codePoint u ∧ ¬ (0xD800 ≤ codePoint u ∧ codePoint u ≤ 0xDFFF))
  | [_, _, _, _] => decide (0x10000 ≤ codePoint u ∧ codePoint u ≤ 0x10FFFF)
  | _ => false

/-- The text is well-formed UTF-8: every byte from `0x80` on belongs to a sequence of a lead
byte and the continuation bytes it announces, no sequence is an overlong form, none encodes a
surrogate, and none encodes a code point above `U+10FFFF`. -/
def wellFormedUtf8 (s : Bytes) : Bool :=
  (firstMalformed s).isNone && (textUnits s).all scalarUnit

/-- The piece of the escape `\uXXXX` of a 16-bit value. -/
def unicodePiece (h : HexDigitsCase) (u : Nat) : Piece :=
  .unicode (hexChar h (u / 4096 % 16)) (hexChar h (u / 256 % 16)) (hexChar h (u / 16 % 16))
    (hexChar h (u % 16))

/-- The piece that the image of a byte is the text of. -/
def imagePiece (h : HexDigitsCase) (b : Byte) : Piece :=
  if b.val = 8 then .simple 98
  else if b.val = 9 then .simple 116
  else if b.val = 10 then .simple 110
  else if b.val = 12 then .simple 102
  else if b.val = 13 then .simple 114
  else if b.val = 34 then .simple 34
  else if b.val = 92 then .simple 92
  else if b.val < 0x20 then .unicode 48 48 (hexChar h (b.val / 16)) (hexChar h (b.val % 16))
  else .plain b

/-- The pieces that the escape of a unit with `Escape::NonAscii` is the text of. -/
def unitPieces (h : HexDigitsCase) (u : Bytes) : List Piece :=
  match u with
  | [a] => [imagePiece h a]
  | [_, _] => [unicodePiece h (codePoint u)]
  | [_, _, _] => [unicodePiece h (codePoint u)]
  | [_, _, _, _] =>
    [unicodePiece h (highSurrogate (codePoint u)), unicodePiece h (lowSurrogate (codePoint u))]
  | _ => u.map Piece.plain

/-- The unit is an ASCII byte or a whole well-formed sequence, and it encodes a scalar value
in the shortest form. -/
def GoodUnit (u : Bytes) : Prop :=
  ((∃ a, u = [a] ∧ a.val < 0x80) ∨ sequenceSize u = some u.length) ∧ scalarUnit u = true

/-- The cursor of the parser in the input `"` ++ b ++ `"` at the place of the cursor `i` of the
unescaper in the text `b`: one byte further, with the closing quotation mark after the rest
of the text. -/
def Ptr.quoted (i : Ptr) : Ptr := ⟨i.pos + 1, i.rest ++ [34]⟩

/-- How the inner loops of the unescaper and of the parser end together, the parser with the
issues `iss`: both leave the loop through `BreakForLoop` at the same place with the same
text; or the unescaper returns the end of the text and the parser returns `true` after the
closing quotation mark, with the same text; or the unescaper returns another pointer and the
parser returns with bytes left when it returns `true`; or the unescaper returns `nullptr` and
the parser returns `false` or leaves the loop at the end of its input. -/
def SurrogateExits (iss : List ParsingIssue) :
    UnescapeLoopExit → SurrogateLoopExit → Prop
  | .broke out pb i, e => pb.Reach i ∧ e = .broke out.flatten pb.quoted ⟨i.quoted, iss⟩
  | .returned (some q) out, e =>
    if q.rest = [] then e = .returned true out.flatten ⟨⟨q.pos + 2, []⟩, iss⟩
    else ∃ ok s st, e = .returned ok s st ∧ (ok = true → st.i.rest ≠ [])
  | .returned none _, e =>
    (∃ s st, e = .returned false s st) ∨ (∃ s pb st, e = .broke s pb st ∧ st.i.rest = [])

/-- How the loops of the unescaper and of the parser end together, the parser with the issues
`iss`: when the unescaper returns the end of the text, the parser returns `true` after the
closing quotation mark, with the same text and no new issue; otherwise the parser returns
`false`, or `true` with bytes left. -/
def LoopResults (iss : List ParsingIssue) (u : Option Ptr × List Bytes)
    (p : Bool × Bytes × ParserImpl) : Prop :=
  match u.1 with
  | some q =>
    if q.rest = [] then p = (true, u.2.flatten, ⟨⟨q.pos + 2, []⟩, iss⟩)
    else (p.1 = true → p.2.2.i.rest ≠ [])
  | none => (p.1 = true → p.2.2.i.rest ≠ [])

/-- The number is a Unicode scalar value: a code point up to `U+10FFFF` that is no
surrogate. -/
def isScalarValue (c : Nat) : Prop := c ≤ 0x10FFFF ∧ ¬ (0xD800 ≤ c ∧ c ≤ 0xDFFF)

/-- The code point of a unit: the byte itself for a single byte, the code point that the
sequence encodes otherwise. -/
def unitValue (u : Bytes) : Nat :=
  match u with
  | [a] => a.val
  | _ => codePoint u

/-- The symbols of the grammar of JSON texts: a value; the members of an array from a member
on, up to and with the closing bracket; the members of an object from a key on, up to and with
the closing brace. -/
inductive Sym where
  | value
  | elements
  | members
  deriving DecidableEq, Repr

/-- The text is one or more decimal digits. -/
def Digits (ds : Bytes) : Prop := ds ≠ [] ∧ ∀ c ∈ ds, isDecimalDigit c = true

/-- The integer part of a number: `0`, or digits that do not start with `0`. -/
def IntegerPart (t : Bytes) : Prop := Digits t ∧ (t.head? = some 48 → t = [48])

/-- The fraction part of a number: nothing, or `.` and digits. -/
def FractionPart (t : Bytes) : Prop := t = [] ∨ ∃ ds, t = 46 :: ds ∧ Digits ds

/-- The exponent part of a number: nothing, or `e` or `E`, an optional sign, and digits. -/
def ExponentPart (t : Bytes) : Prop :=
  t = [] ∨ ∃ (e : Byte) (sg ds : Bytes), t = e :: (sg ++ ds) ∧ (e.val = 101 ∨ e.val = 69) ∧
    (sg = [] ∨ sg = [43] ∨ sg = [45]) ∧ Digits ds

/-- The text of a JSON number: an optional `-`, the integer part, the fraction part, the
exponent part. -/
def NumberText (t : Bytes) : Prop :=
  ∃ (neg : Bool) (ip fp ep : Bytes), t = intLiteral neg ip ++ (fp ++ ep) ∧ IntegerPart ip ∧
    FractionPart fp ∧ ExponentPart ep

/-- The text of a JSON number after the sign. -/
def NumberBody (u : Bytes) : Prop :=
  ∃ ip fp ep : Bytes, u = ip ++ (fp ++ ep) ∧ IntegerPart ip ∧ FractionPart fp ∧ ExponentPart ep

/-- The text of a JSON string: a quotation mark, pieces (bytes other than the quotation mark,
the backslash and the control characters; the eight escapes of one character; escapes of a code
unit by four hexadecimal digits), a quotation mark. -/
def StringText (t : Bytes) : Prop :=
  ∃ ps : List Piece, (∀ p ∈ ps, p.WellFormed .Strict) ∧ t = stringLiteral ps

/-- The grammar of JSON over bytes: the three literals, numbers, strings, arrays and objects,
with whitespace allowed after an opening bracket or brace, around a comma and a colon, and
before a closing bracket or brace. -/
inductive Json : Sym → Bytes → Prop where
  | nullText : Json .value NullLiteral
  | falseText : Json .value FalseLiteral
  | trueText : Json .value TrueLiteral
  | number {t : Bytes} (h : NumberText t) : Json .value t
  | string {t : Bytes} (h : StringText t) : Json .value t
  | emptyArray (w : Bytes) (hw : ∀ b ∈ w, isWhitespace b) : Json .value (91 :: (w ++ [93]))
  | array (w : Bytes) {t : Bytes} (hw : ∀ b ∈ w, isWhitespace b) (h : Json .elements t) :
      Json .value (91 :: (w ++ t))
  | emptyObject (w : Bytes) (hw : ∀ b ∈ w, isWhitespace b) : Json .value (123 :: (w ++ [125]))
  | object (w : Bytes) {t : Bytes} (hw : ∀ b ∈ w, isWhitespace b) (h : Json .members t) :
      Json .value (123 :: (w ++ t))
  | lastElement {t : Bytes} (w : Bytes) (h : Json .value t) (hw : ∀ b ∈ w, isWhitespace b) :
      Json .elements (t ++ (w ++ [93]))
  | nextElement {t rest : Bytes} (w1 w2 : Bytes) (h : Json .value t)
      (hw1 : ∀ b ∈ w1, isWhitespace b) (hw2 : ∀ b ∈ w2, isWhitespace b)
      (hr : Json .elements rest) : Json .elements (t ++ (w1 ++ 44 :: (w2 ++ rest)))
  | lastMember {k t : Bytes} (w1 w2 w3 : Bytes) (hk : StringText k) (h : Json .value t)
      (hw1 : ∀ b ∈ w1, isWhitespace b) (hw2 : ∀ b ∈ w2, isWhitespace b)
      (hw3 : ∀ b ∈ w3, isWhitespace b) :
      Json .members (k ++ (w1 ++ 58 :: (w2 ++ (t ++ (w3 ++ [125])))))
  | nextMember {k t rest : Bytes} (w1 w2 w3 w4 : Bytes) (hk : StringText k)
      (h : Json .value t) (hw1 : ∀ b ∈ w1, isWhitespace b) (hw2 : ∀ b ∈ w2, isWhitespace b)
      (hw3 : ∀ b ∈ w3, isWhitespace b) (hw4 : ∀ b ∈ w4, isWhitespace b)
      (hr : Json .members rest) :
      Json .members (k ++ (w1 ++ 58 :: (w2 ++ (t ++ (w3 ++ 44 :: (w4 ++ rest))))))

/-- A JSON text: one value, with whitespace allowed before and after it. -/
def JsonDocument (x : Bytes) : Prop :=
  ∃ w t w2, x = w ++ (t ++ w2) ∧ (∀ b ∈ w, isWhitespace b) ∧ (∀ b ∈ w2, isWhitespace b) ∧
    Json .value t

/-- The bytes are the beginning of a JSON text: some bytes after them make a JSON text. -/
def BeginsJson (u : Bytes) : Prop := ∃ ext, JsonDocument (u ++ ext)

/-- The bytes after the opening quotation mark of a string, up to and with the closing one. -/
def StringTail (u : Bytes) : Prop :=
  ∃ ps : List Piece, (∀ p ∈ ps, p.WellFormed .Strict) ∧ u = piecesText ps ++ [34]

/-- What `parseString` has read after the opening quotation mark when it returns `r`, from the
cursor `i` to the cursor `j`: the rest of a string on success, the beginning of one on
failure. -/
def StrPost (i : Ptr) (r : Bool) (j : Ptr) : Prop :=
  ∃ c, i.Moved c j ∧ (r = true → StringTail c) ∧ (r = false → ∃ ext, StringTail (c ++ ext))

/-- What the inner loop of `parseString` has read from the cursor `i` on: when the outer loop
goes on, the text of pieces. -/
def SurrogatesGram (i : Ptr) : SurrogateLoopExit → Prop
  | .returned r _ st' => StrPost i r st'.i
  | .broke _ _ st' => ∃ ps : List Piece, (∀ p ∈ ps, p.WellFormed .Strict) ∧
      i.Moved (piecesText ps) st'.i

/-- What a function of the parser for the symbol `k` has read when it returns `r`, from the
cursor `i` to the cursor `j`: a text of the symbol on success, the beginning of one on
failure. -/
def GramPost (k : Sym) (i : Ptr) (r : Bool) (j : Ptr) : Prop :=
  ∃ c, i.Moved c j ∧ (r = true → Json k c) ∧ (r = false → ∃ ext, Json k (c ++ ext))

/-- The statement of `parser_gram` for one recursion budget. -/
def GramAll (o : ParsingOptions) (fuel : Nat) : Prop :=
  (∀ v st r v' st', parseImpl o fuel v st = some (r, v', st') → GramPost .value st.i r st'.i) ∧
  (∀ v st r v' st', (∃ t, st.i.rest = 91 :: t) → parseArray o fuel v st = some (r, v', st') →
    GramPost .value st.i r st'.i) ∧
  (∀ a v size st r a' v' st', parseArrayMembersRecursion o fuel a v size st
    = some (r, a', v', st') → GramPost .elements st.i r st'.i) ∧
  (∀ a st r a' st', parseArrayMembersLoop o fuel a st = some (r, a', st') →
    GramPost .elements st.i r st'.i) ∧
  (∀ v st r v' st', (∃ t, st.i.rest = 123 :: t) → parseObject o fuel v st = some (r, v', st') →
    GramPost .value st.i r st'.i) ∧
  (∀ ob st r ob' st', parseObjectMembers o fuel ob st = some (r, ob', st') →
    GramPost .members st.i r st'.i)

/-- The first `k` bytes of the buffer `B` are the first `k` bytes of the text `T`. -/
def AgreeTo (k : Nat) (B T : Bytes) : Prop := B.take k = T.take k

/-- A failure whose last issue is neither `InvalidCharacter` nor `UnexpectedEndOfInput`: a
duplicate key, an unpaired surrogate or a number that cannot be converted. -/
def PolicyFail (r : Bool) (st' : ParserImpl) : Prop :=
  r = false ∧ ∃ x, st'.issues.getLast? = some x ∧ x.code ≠ .InvalidCharacter ∧
    x.code ≠ .UnexpectedEndOfInput

/-- How a run that ends in the state `st'` with the result `r` lies against a text that ends
at the offset `e` and that the buffer follows up to the offset `target`: the run stops for a
policy; or the buffer leaves the text before its end and the cursor is at or after that place;
or the buffer holds the whole text and one byte more, and the run succeeds at the end of the
text. -/
def Lock (target e : Nat) (r : Bool) (st' : ParserImpl) : Prop :=
  PolicyFail r st' ∨ (target ≤ e ∧ target ≤ st'.i.pos) ∨
    (e < target ∧ r = true ∧ st'.i.pos = e)

/-- The cursor `s` between two steps of a run, against the rest `τ` of the text (that ends at
the offset `e`, before the bytes `X`): the buffer has left the text at or before the cursor;
or the cursor is where the text has `τ` and the buffer follows `τ ++ X` up to `target`. -/
def Inv (target e : Nat) (s : Ptr) (τ X : Bytes) : Prop :=
  (target ≤ e ∧ target ≤ s.pos) ∨
    (s.pos < target ∧ s.pos + τ.length = e ∧ AgreeTo (target - s.pos) s.rest (τ ++ X))

/-- The cursor after the longest run of bytes with the property `p`. -/
def Ptr.scan (p : Byte → Bool) (i : Ptr) : Ptr :=
  ⟨i.pos + (i.rest.takeWhile p).length, i.rest.dropWhile p⟩

/-- What one step of `parseMore` leaves against the text of a string: after the closing
quotation mark the text has ended; a failure lies where the buffer has left the text; any
other step leaves the cursor before the text of more pieces and the quotation mark. -/
def MoreLock (target e : Nat) (X : Bytes) (res : EscapedStringParsingResult) (j : Ptr) : Prop :=
  match res with
  | .JsonStringEnd => Inv target e j.next [] X
  | .InvalidCharacter => target ≤ e ∧ target ≤ j.pos
  | .UnexpectedEndOfInput => target ≤ e ∧ target ≤ j.pos
  | _ => ∃ ps : List Piece, (∀ p ∈ ps, p.WellFormed .Strict) ∧
      Inv target e j (piecesText ps ++ [34]) X

/-- What the loop over the hexadecimal digits leaves against the digits of the text. -/
def HexLock (target e : Nat) (X τ : Bytes) (out : EscapedStringParser.Result × Ptr) : Prop :=
  match out.1.result with
  | .InvalidCharacter => target ≤ e ∧ target ≤ out.2.pos
  | .UnexpectedEndOfInput => target ≤ e ∧ target ≤ out.2.pos
  | .JsonStringEnd => False
  | .Skip => False
  | _ => Inv target e out.2 τ X

/-- What the inner loop of `parseString` leaves against the text of a string. -/
def SurLock (target e : Nat) (X : Bytes) : SurrogateLoopExit → Prop
  | .returned r _ st' => Lock target e r st'
  | .broke _ _ st' => ∃ ps : List Piece, (∀ p ∈ ps, p.WellFormed .Strict) ∧
      Inv target e st'.i (piecesText ps ++ [34]) X

/-- The statement of `parser_lock` for one kind of text: the function that reads the kind,
run where the buffer follows the text `t` up to the offset `target`, stops for a policy, or
at or after `target` when the buffer leaves the text before its end, or with success at
the end of the text. -/
def LockAll : Sym → Bytes → Prop
  | .value, t => ∀ (o : ParsingOptions) (fuel : Nat) (v : Value) (st : ParserImpl) (r : Bool)
      (v' : Value) (st' : ParserImpl) (target e : Nat) (X : Bytes), InertEnd X →
      Inv target e st.i t X → parseImpl o fuel v st = some (r, v', st') → Lock target e r st'
  | .elements, t =>
    (∀ (o : ParsingOptions) (fuel : Nat) (a : List Value) (v : Value) (size : Nat)
      (st : ParserImpl) (r : Bool) (a' : List Value) (v' : Value) (st' : ParserImpl)
      (target e : Nat) (X : Bytes), InertEnd X → Inv target e st.i t X →
      parseArrayMembersRecursion o fuel a v size st = some (r, a', v', st') →
      Lock target e r st') ∧
    (∀ (o : ParsingOptions) (fuel : Nat) (a : List Value) (st : ParserImpl) (r : Bool)
      (a' : List Value) (st' : ParserImpl) (target e : Nat) (X : Bytes), InertEnd X →
      Inv target e st.i t X → parseArrayMembersLoop o fuel a st = some (r, a', st') →
      Lock target e r st')
  | .members, t => ∀ (o : ParsingOptions) (fuel : Nat) (ob : List (Bytes × Value))
      (st : ParserImpl) (r : Bool) (ob' : List (Bytes × Value)) (st' : ParserImpl)
      (target e : Nat) (X : Bytes), InertEnd X → Inv target e st.i t X →
      parseObjectMembers o fuel ob st = some (r, ob', st') → Lock target e r st'

/-- The bytes that a value can start with. -/
def ValueHead (b : Byte) : Prop :=
  b.val = 110 ∨ b.val = 102 ∨ b.val = 116 ∨ b.val = 34 ∨ b.val = 91 ∨ b.val = 123 ∨
    b.val = 45 ∨ (48 ≤ b.val ∧ b.val ≤ 57)

/-- The text after the opening bracket of an array: the closing bracket, or elements. -/
def ArrayTail (τ : Bytes) : Prop :=
  τ = [93] ∨ (LockAll .elements τ ∧ ∃ b t', τ = b :: t' ∧ ValueHead b)

/-- The text after the opening brace of an object: the closing brace, or members. -/
def ObjectTail (τ : Bytes) : Prop :=
  τ = [125] ∨ (LockAll .members τ ∧ ∃ t', τ = 34 :: t')

/-- What stands after an element of an array: the closing bracket, or a comma and more
elements. -/
def ElementsTail (c : Byte) (τ : Bytes) : Prop :=
  (c = 93 ∧ τ = []) ∨
    (c = 44 ∧ ∃ w2 rest, τ = w2 ++ rest ∧ (∀ b ∈ w2, isWhitespace b) ∧
      LockAll .elements rest ∧ ∃ b t', rest = b :: t' ∧ ValueHead b)

/-- What stands after a member of an object: the closing brace, or a comma and more
members. -/
def MembersTail (c : Byte) (τ : Bytes) : Prop :=
  (c = 125 ∧ τ = []) ∨
    (c = 44 ∧ ∃ w4 rest, τ = w4 ++ rest ∧ (∀ b ∈ w4, isWhitespace b) ∧
      LockAll .members rest ∧ ∃ t', rest = 34 :: t')

/-- The codes of the issues that stop a parse by a policy or by the range of the numbers, on
text that is well-formed so far. -/
def PolicyCode (c : ParsingIssue.Code) : Prop :=
  c = .DuplicateKeys ∨ c = .ParsedNumberOutOfRange ∨
  c = .StringContainsUnpairedUtf16HighSurrogate ∨ c = .StringContainsUnpairedUtf16LowSurrogate

/-- The text between the offset of an issue with a policy code and the cursor the parse stops
at.  `DuplicateKeys`: the key (a string), whitespace, the colon, whitespace.
`ParsedNumberOutOfRange`: the number.  Unpaired high surrogate: the escape of the high
surrogate and what follows it, the closing quotation mark or one piece that is not the escape
of a low surrogate.  Unpaired low surrogate: the escape of the low surrogate. -/
def IssueText (code : ParsingIssue.Code) (tok : Bytes) : Prop :=
  match code with
  | .DuplicateKeys => ∃ k w1 w2, tok = k ++ (w1 ++ 58 :: w2) ∧ StringText k ∧
      (∀ b ∈ w1, isWhitespace b) ∧ (∀ b ∈ w2, isWhitespace b)
  | .ParsedNumberOutOfRange => NumberText tok
  | .StringContainsUnpairedUtf16HighSurrogate =>
    ∃ (p : Piece) (rest : Bytes), p.WellFormed .Strict ∧ p.isHigh ∧ tok = p.text ++ rest ∧
      (rest = [34] ∨ ∃ q : Piece, q.WellFormed .Strict ∧ ¬ q.isLow ∧ rest = q.text)
  | .StringContainsUnpairedUtf16LowSurrogate =>
    ∃ p : Piece, p.WellFormed .Strict ∧ p.isLow ∧ tok = p.text
  | _ => True

/-- When the last issue of the state has a policy code, its offset is at or after the cursor
`i` and the text from the offset to the cursor of the state is the text of the issue. -/
def Tok (i : Ptr) (st' : ParserImpl) : Prop :=
  ∀ x, st'.issues.getLast? = some x → PolicyCode x.code →
    ∃ pre tok, i.Moved (pre ++ tok) st'.i ∧ x.offset = i.pos + pre.length ∧
      IssueText x.code tok

/-- The last issue of the state has no policy code. -/
def NoPolicy (st' : ParserImpl) : Prop :=
  ∀ x, st'.issues.getLast? = some x → ¬ PolicyCode x.code

/-- The statement of `parser_tok` for one recursion budget. -/
def TokAll (o : ParsingOptions) (fuel : Nat) : Prop :=
  (∀ v st r v' st', parseImpl o fuel v st = some (r, v', st') → r = false → Tok st.i st') ∧
  (∀ v st r v' st', (∃ t, st.i.rest = 91 :: t) → parseArray o fuel v st = some (r, v', st') →
    r = false → Tok st.i st') ∧
  (∀ a v size st r a' v' st', parseArrayMembersRecursion o fuel a v size st
    = some (r, a', v', st') → r = false → Tok st.i st') ∧
  (∀ a st r a' st', parseArrayMembersLoop o fuel a st = some (r, a', st') → r = false →
    Tok st.i st') ∧
  (∀ v st r v' st', (∃ t, st.i.rest = 123 :: t) → parseObject o fuel v st = some (r, v', st') →
    r = false → Tok st.i st') ∧
  (∀ ob st r ob' st', parseObjectMembers o fuel ob st = some (r, ob', st') → r = false →
    Tok st.i st')

/-- The double with the significand `M` and the unit `2 ^ (q - 1074)`. -/
def Double.ofParts (sign : Bool) (M q : Nat) : Double :=
  if M < 2 ^ 52 then ⟨sign, 0, M⟩ else ⟨sign, q + 1, M - 2 ^ 52⟩

/-- The significand and the shift of the unit of a double: its magnitude is
`M * 2 ^ (q - 1074)`. -/
def Double.parts (d : Double) : Nat × Nat :=
  if d.exponent = 0 then (d.fraction, 0) else (2 ^ 52 + d.fraction, d.exponent - 1)

/-- The magnitude of a double as a rational number. -/
def Double.toRat (d : Double) : ℚ := ((Double.magnitude d).1 : ℚ) / (Double.magnitude d).2

/-- The decimal exponent that `to_chars` finds for a double. -/
def Double.decimalK (d : Double) : Int :=
  decimalExponent (Double.magnitude d).1 (Double.magnitude d).2 700 (-340)

/-- The decimal that `to_chars` writes for a double. -/
def Double.decimal (d : Double) : Nat × Int :=
  stripZeros 20 (shortestDecimal d d.decimalK 17 1)

/-- The text of a fraction part: nothing, or a point and the digits. -/
def fractionText (fp : Bytes) : Bytes := if fp = [] then [] else 46 :: fp

/-- The text of an exponent part: nothing, or `e`, a sign and the digits. -/
def exponentText (eneg : Bool) (es : Bytes) : Bytes :=
  if es = [] then [] else 101 :: (if eneg then 45 else 43) :: es

/-- The number an exponent part writes. -/
def exponentValue (eneg : Bool) (es : Bytes) : Int :=
  if eneg then -(digitsValue es : Int) else (digitsValue es : Int)

/-- The text of a decimal literal: an integer literal, a fraction part, an exponent part. -/
def decimalLiteral (neg : Bool) (ip fp : Bytes) (eneg : Bool) (es : Bytes) : Bytes :=
  intLiteral neg ip ++ (fractionText fp ++ exponentText eneg es)

/-- Is the text that `to_chars` writes for the double read by `parseNumber` as an integer:
after the sign there are only digits, fewer than 19, or 19 that are not beyond the largest
magnitude of an `int64_t` of that sign. -/
def Double.readAsInteger (d : Double) : Bool :=
  let isNegative : Nat := if d.sign then 1 else 0
  let body := (to_chars_double d).drop isNegative
  body.all isDecimalDigit &&
    (decide (body.length < 19) ||
      (decide (body.length = 19) && stringViewLe (body.take 19) (maxValue isNegative)))

/-- Does the text that `to_chars` writes for the double come back as the double: the double is
finite (with a fraction field of 52 bits) and its text is not read as an integer. -/
def Double.kept (d : Double) : Bool :=
  decide (d.exponent < 2047) && decide (d.fraction < 2 ^ 52) && !d.readAsInteger

mutual
/-- Every `Double` in the value is kept by the round trip through its text. -/
def Value.doublesKept : Value → Bool
  | .double d => d.kept
  | .array a => Value.doublesKeptArray a
  | .object o => Value.doublesKeptObject o
  | _ => true
/-- Every `Double` in the elements of an array is kept. -/
def Value.doublesKeptArray : List Value → Bool
  | [] => true
  | x :: xs => x.doublesKept && Value.doublesKeptArray xs
/-- Every `Double` in the member values of an object is kept. -/
def Value.doublesKeptObject : List (Bytes × Value) → Bool
  | [] => true
  | (_, x) :: ms => x.doublesKept && Value.doublesKeptObject ms
end

end minjson

/-! # Theorems -/

namespace minjson

open detail detail.ParserImpl

theorem skipWhitespacesFrom_whitespace (ws : Bytes) (h : ∀ b ∈ ws, isWhitespace b) (pos : Nat) :
    skipWhitespacesFrom pos ws = (true, ⟨pos + ws.length, []⟩) := by
  induction ws generalizing pos with
  | nil => simp [skipWhitespacesFrom]
  | cons b rest ih =>
    have hb : isWhitespace b := h b (List.mem_cons_self _ _)
    have hr : ∀ c ∈ rest, isWhitespace c := fun c hc => h c (List.mem_cons_of_mem _ hc)
    unfold isWhitespace at hb
    rw [skipWhitespacesFrom, if_pos hb, ih hr]
    simp [Nat.add_assoc, Nat.add_comm 1]

/-- C9: on an input made only of whitespace bytes (the empty input included) `parse` returns
`Failure`, the value left `Null`, `parsedSize` the input length, and exactly one issue, of code
`UnexpectedEndOfInput` and offset the input length; this for all options and both modes. -/
theorem parse_whitespace_only (input : Bytes) (options : ParsingOptions) (mode : ParsingMode)
    (h : ∀ b ∈ input, isWhitespace b) :
    parse input options mode = some
      { value := .null
        status := .Failure
        parsedSize := input.length
        issues := [{ offset := input.length
                     description := "unexpected end of input"
                     code := .UnexpectedEndOfInput }] } := by
  simp [parse, impl.parse, ParserImpl.parse, detectEndOfInputAfterSkippingWhitespaces,
    skipWhitespaces, skipWhitespacesFrom_whitespace input h, addUnexpectedEndOfInputIssue,
    addIssueAt, parsedSize]

/-- C9 at the input of a space, a tab, a carriage return and a line feed. -/
theorem parse_whitespace_only_witness :
    (∀ b ∈ ([32, 9, 13, 10] : Bytes), isWhitespace b) ∧
    parse [32, 9, 13, 10] {} .VerifyTrailingWhitespace = some
      { value := .null
        status := .Failure
        parsedSize := 4
        issues := [{ offset := 4
                     description := "unexpected end of input"
                     code := .UnexpectedEndOfInput }] } :=
  ⟨by decide!, parse_whitespace_only [32, 9, 13, 10] {} .VerifyTrailingWhitespace (by decide!)⟩

@[simp] theorem Byte.val_lit (n : ℕ) [n.AtLeastTwo] :
    ((no_index (OfNat.ofNat n) : Byte)).val = OfNat.ofNat n % 256 := rfl

theorem Ptr.Reach.refl (p : Ptr) : p.Reach p := ⟨[], by simp [Ptr.Moved]⟩

theorem Ptr.Reach.trans {p q r : Ptr} (h1 : p.Reach q) (h2 : q.Reach r) : p.Reach r := by
  obtain ⟨c1, h1a, h1b⟩ := h1
  obtain ⟨c2, h2a, h2b⟩ := h2
  exact ⟨c1 ++ c2, by simp [h1a, h2a], by simp [h1b, h2b, Nat.add_assoc]⟩

theorem Ptr.Reach.pos_le {p q : Ptr} (h : p.Reach q) : p.pos ≤ q.pos := by
  obtain ⟨c, _, hb⟩ := h; omega

theorem Ptr.Reach.length_le {p q : Ptr} (h : p.Reach q) : q.rest.length ≤ p.rest.length := by
  obtain ⟨c, ha, _⟩ := h; simp [ha]

theorem Ptr.Reach.size_eq {p q : Ptr} (h : p.Reach q) :
    q.pos + q.rest.length = p.pos + p.rest.length := by
  obtain ⟨c, ha, hb⟩ := h; simp [ha, hb]; omega

theorem Ptr.reach_next {p : Ptr} (h : p.rest ≠ []) : p.Reach p.next := by
  cases hr : p.rest with
  | nil => exact absurd hr h
  | cons b r => exact ⟨[b], by simp [Ptr.Moved, Ptr.next, hr]⟩

theorem Ptr.next_length {p : Ptr} (h : p.rest ≠ []) : p.next.rest.length + 1 = p.rest.length := by
  cases hr : p.rest with
  | nil => exact absurd hr h
  | cons b r => simp [Ptr.next, hr]

theorem Ok.same (o : ParsingOptions) (st : ParserImpl) : Ok o st st :=
  ⟨Ptr.Reach.refl _, [], by simp, by simp⟩

theorem Ok.andThen {o : ParsingOptions} {a b c : ParserImpl} (h1 : Ok o a b) (h2 : Ok o b c) :
    Ok o a c := by
  obtain ⟨r1, n1, e1, p1⟩ := h1
  obtain ⟨r2, n2, e2, p2⟩ := h2
  refine ⟨r1.trans r2, n1 ++ n2, by simp [e1, e2], ?_⟩
  intro x hx
  rcases List.mem_append.mp hx with hx | hx
  · exact ⟨(p1 x hx).1, Nat.lt_of_lt_of_le (p1 x hx).2 r2.pos_le⟩
  · exact p2 x hx

theorem Ok.thenFail {o : ParsingOptions} {a b c : ParserImpl} (h1 : Ok o a b) (h2 : Fail o b c) :
    Fail o a c := by
  obtain ⟨r1, n1, e1, p1⟩ := h1
  obtain ⟨r2, n2, x, e2, p2, s2⟩ := h2
  refine ⟨r1.trans r2, n1 ++ n2, x, by simp [e1, e2], ?_, s2⟩
  intro y hy
  rcases List.mem_append.mp hy with hy | hy
  · exact ⟨(p1 y hy).1, Nat.lt_of_lt_of_le (p1 y hy).2 r2.pos_le⟩
  · exact p2 y hy

theorem Ok.cursor {o : ParsingOptions} {a b : ParserImpl} (h : Ok o a b) : a.i.Reach b.i := h.1

theorem Fail.cursorMoved {o : ParsingOptions} {a b : ParserImpl} (h : Fail o a b) : a.i.Reach b.i := h.1

/-- A step that only moves the cursor. -/
theorem Ok.of_reach (o : ParsingOptions) {a b : ParserImpl} (h : a.i.Reach b.i)
    (hi : b.issues = a.issues) : Ok o a b :=
  ⟨h, [], by simp [hi], by simp⟩

theorem ok_advance (o : ParsingOptions) {st : ParserImpl} (h : st.i.rest ≠ []) :
    Ok o st st.advance :=
  Ok.of_reach o (Ptr.reach_next h) rfl

theorem skipWhitespacesFrom_eq (pos : Nat) (rest : Bytes) :
    skipWhitespacesFrom pos rest =
      (decide (rest.dropWhile isWhitespaceB = []),
        ⟨pos + (rest.takeWhile isWhitespaceB).length, rest.dropWhile isWhitespaceB⟩) := by
  induction rest generalizing pos with
  | nil => simp [skipWhitespacesFrom]
  | cons b rest ih =>
    by_cases hb : b.val = 9 ∨ b.val = 10 ∨ b.val = 13 ∨ b.val = 32
    · have hb' : isWhitespaceB b = true := by simp [isWhitespaceB, hb]
      rw [skipWhitespacesFrom, if_pos hb, ih]
      simp [List.dropWhile_cons, List.takeWhile_cons, hb', Nat.add_assoc, Nat.add_comm 1]
    · have hb' : isWhitespaceB b = false := by simp [isWhitespaceB, hb]
      rw [skipWhitespacesFrom, if_neg hb]
      simp [List.dropWhile_cons, List.takeWhile_cons, hb']

theorem skipWhitespaces_reach (p : Ptr) : p.Reach (skipWhitespaces p).2 := by
  refine ⟨p.rest.takeWhile isWhitespaceB, ?_, ?_⟩
  · simp [skipWhitespaces, skipWhitespacesFrom_eq]
  · simp [skipWhitespaces, skipWhitespacesFrom_eq]

theorem skipWhitespaces_true (p : Ptr) :
    (skipWhitespaces p).1 = true ↔ (skipWhitespaces p).2.rest = [] := by
  simp [skipWhitespaces, skipWhitespacesFrom_eq]

theorem skipDigitsFrom_eq (pos : Nat) (rest : Bytes) :
    skipDigitsFrom pos rest =
      ⟨pos + (rest.takeWhile isDecimalDigit).length, rest.dropWhile isDecimalDigit⟩ := by
  induction rest generalizing pos with
  | nil => simp [skipDigitsFrom]
  | cons b rest ih =>
    by_cases hb : isDecimalDigit b = true
    · rw [skipDigitsFrom, if_pos hb, ih]
      simp [List.dropWhile_cons, List.takeWhile_cons, hb, Nat.add_assoc, Nat.add_comm 1]
    · rw [skipDigitsFrom, if_neg hb]
      simp [List.dropWhile_cons, List.takeWhile_cons, hb]

theorem ok_skipDigits (o : ParsingOptions) (st : ParserImpl) : Ok o st st.skipDigits := by
  refine Ok.of_reach o ⟨st.i.rest.takeWhile isDecimalDigit, ?_, ?_⟩ rfl
  · simp [skipDigits, skipDigitsFrom_eq]
  · simp [skipDigits, skipDigitsFrom_eq]

/-- Adding the stopping issue at a cursor. -/
theorem fail_addIssueAt (o : ParsingOptions) (st : ParserImpl) (p : Nat) (d : String)
    (c : ParsingIssue.Code) (h : Stops o { offset := p, description := d, code := c } st.i) :
    Fail o st (st.addIssueAt p d c) :=
  ⟨Ptr.Reach.refl _, [], _, by simp [addIssueAt], by simp, h⟩

theorem fail_addUnexpectedEndOfInputIssue (o : ParsingOptions) (st : ParserImpl)
    (h : st.i.rest = []) : Fail o st st.addUnexpectedEndOfInputIssue := by
  apply fail_addIssueAt
  simp [Stops, h]

theorem fail_addInvalidCharacterIssue (o : ParsingOptions) (st : ParserImpl) (msg : String)
    (h : st.i.rest ≠ []) : Fail o st (st.addInvalidCharacterIssue msg) := by
  apply fail_addIssueAt
  simp [Stops, h]

theorem detectEndOfInput_true (o : ParsingOptions) (st : ParserImpl)
    (h : st.detectEndOfInput.1 = true) : Fail o st st.detectEndOfInput.2 := by
  unfold detectEndOfInput at h ⊢
  by_cases he : st.isEmpty = true
  · simp only [he, if_true]
    exact fail_addUnexpectedEndOfInputIssue o st (by simpa [isEmpty] using he)
  · simp [he] at h

theorem detectEndOfInput_false (st : ParserImpl) (h : st.detectEndOfInput.1 = false) :
    st.detectEndOfInput.2 = st ∧ st.i.rest ≠ [] := by
  unfold detectEndOfInput at h ⊢
  by_cases he : st.isEmpty = true
  · simp [he] at h
  · simp only [he]
    simpa [isEmpty] using he

theorem detectEndOfInputAfterSkippingWhitespaces_true (o : ParsingOptions) (st : ParserImpl)
    (h : st.detectEndOfInputAfterSkippingWhitespaces.1 = true) :
    Fail o st st.detectEndOfInputAfterSkippingWhitespaces.2 := by
  unfold detectEndOfInputAfterSkippingWhitespaces at h ⊢
  by_cases he : (skipWhitespaces st.i).1 = true
  · simp only [he, if_true]
    exact Ok.thenFail (Ok.of_reach o (b := { st with i := (skipWhitespaces st.i).2 })
      (skipWhitespaces_reach st.i) rfl)
      (fail_addUnexpectedEndOfInputIssue o _ ((skipWhitespaces_true st.i).mp he))
  · simp [he] at h

theorem detectEndOfInputAfterSkippingWhitespaces_false (o : ParsingOptions) (st : ParserImpl)
    (h : st.detectEndOfInputAfterSkippingWhitespaces.1 = false) :
    Ok o st st.detectEndOfInputAfterSkippingWhitespaces.2 ∧
      st.detectEndOfInputAfterSkippingWhitespaces.2.i.rest ≠ [] := by
  unfold detectEndOfInputAfterSkippingWhitespaces at h ⊢
  by_cases he : (skipWhitespaces st.i).1 = true
  · simp [he] at h
  · simp only [he]
    refine ⟨Ok.of_reach o (skipWhitespaces_reach st.i) rfl, ?_⟩
    intro hr
    exact he ((skipWhitespaces_true st.i).mpr hr)

theorem matchLoop_post (o : ParsingOptions) (ps : Bytes) (p : Byte) (st : ParserImpl) :
    ((matchLoop p ps st).1 = true →
      Ok o st (matchLoop p ps st).2 ∧ (matchLoop p ps st).2.i.rest.length < st.i.rest.length) ∧
    ((matchLoop p ps st).1 = false → Fail o st (matchLoop p ps st).2) := by
  induction ps generalizing p st with
  | nil =>
    unfold matchLoop
    cases hr : st.i.rest with
    | nil => simp; exact fail_addUnexpectedEndOfInputIssue o st hr
    | cons b r =>
      by_cases hb : b = p
      · have hne : st.i.rest ≠ [] := by simp [hr]
        have := Ptr.next_length hne
        simp [hb]
        refine ⟨ok_advance o hne, ?_⟩
        simp [advance]; rw [hr] at this; simp at this; omega
      · simp [hb]; exact fail_addInvalidCharacterIssue o st _ (by simp [hr])
  | cons q qs ih =>
    unfold matchLoop
    cases hr : st.i.rest with
    | nil => simp; exact fail_addUnexpectedEndOfInputIssue o st hr
    | cons b r =>
      by_cases hb : b = p
      · have hne : st.i.rest ≠ [] := by simp [hr]
        have hl := Ptr.next_length hne
        have := ih q st.advance
        simp only [hb, ne_eq, not_true_eq_false, if_false]
        refine ⟨fun h => ⟨(ok_advance o hne).andThen (this.1 h).1, ?_⟩,
          fun h => (ok_advance o hne).thenFail (this.2 h)⟩
        have := (this.1 h).2
        simp [advance] at this hl ⊢
        rw [hr] at hl; simp at hl; omega
      · simp [hb]; exact fail_addInvalidCharacterIssue o st _ (by simp [hr])

theorem matchPattern_post (o : ParsingOptions) (c p : Byte) (ps : Bytes) (st : ParserImpl)
    (hne : st.i.rest ≠ []) :
    ((matchPattern (c :: p :: ps) st).1 = true →
      Ok o st (matchPattern (c :: p :: ps) st).2 ∧
      (matchPattern (c :: p :: ps) st).2.i.rest.length < st.i.rest.length) ∧
    ((matchPattern (c :: p :: ps) st).1 = false → Fail o st (matchPattern (c :: p :: ps) st).2) := by
  have := matchLoop_post o ps p st.advance
  have hl := Ptr.next_length hne
  simp only [matchPattern]
  refine ⟨fun h => ⟨(ok_advance o hne).andThen (this.1 h).1, ?_⟩,
    fun h => (ok_advance o hne).thenFail (this.2 h)⟩
  have := (this.1 h).2
  simp [advance] at this ⊢
  omega

theorem parseLiteral_post (o : ParsingOptions) (lit : Value) (c p : Byte) (ps : Bytes)
    (v : Value) (st : ParserImpl) (hne : st.i.rest ≠ []) :
    ((parseLiteral lit (c :: p :: ps) v st).1 = true →
      Ok o st (parseLiteral lit (c :: p :: ps) v st).2.2 ∧
      (parseLiteral lit (c :: p :: ps) v st).2.2.i.rest.length < st.i.rest.length) ∧
    ((parseLiteral lit (c :: p :: ps) v st).1 = false →
      Fail o st (parseLiteral lit (c :: p :: ps) v st).2.2) := by
  have := matchPattern_post o c p ps st hne
  unfold parseLiteral
  by_cases h : (matchPattern (c :: p :: ps) st).1 = true
  · simp only [h, if_true]; simpa [h] using this.1 h
  · simp only [h]; simp at h; simpa [h] using this.2 h

theorem parseEscapeHex_spec (n c : Nat) (p : Ptr) :
    p.Reach (EscapedStringParser.parseEscapeHex n c p).2 ∧
    match (EscapedStringParser.parseEscapeHex n c p).1.result with
    | .Skip => False
    | .Unescaped => (EscapedStringParser.parseEscapeHex n c p).2.pos = p.pos + n
    | .HighSurrogate => (EscapedStringParser.parseEscapeHex n c p).2.pos = p.pos + n
    | .LowSurrogate => (EscapedStringParser.parseEscapeHex n c p).2.pos = p.pos + n
    | .JsonStringEnd => False
    | .InvalidCharacter => (EscapedStringParser.parseEscapeHex n c p).2.rest ≠ []
    | .UnexpectedEndOfInput => (EscapedStringParser.parseEscapeHex n c p).2.rest = [] := by
  induction n generalizing c p with
  | zero =>
    unfold EscapedStringParser.parseEscapeHex
    split_ifs <;> simp [Ptr.Reach.refl]
  | succ n ih =>
    unfold EscapedStringParser.parseEscapeHex
    cases hr : p.rest with
    | nil => simp [Ptr.Reach.refl, hr]
    | cons b r =>
      have hne : p.rest ≠ [] := by simp [hr]
      have hn : p.next.pos = p.pos + 1 := rfl
      simp only
      split_ifs with h1 h2
      · have := ih (c <<< 4 % 2 ^ 32 ||| (b.val - 48)) p.next
        refine ⟨(Ptr.reach_next hne).trans this.1, ?_⟩
        have h2 := this.2
        split <;> rename_i heq <;> simp only [heq] at h2 <;> first | exact h2 | omega
      · have := ih (c <<< 4 % 2 ^ 32 ||| ((b.val ||| 0x20) - 87)) p.next
        refine ⟨(Ptr.reach_next hne).trans this.1, ?_⟩
        have h2 := this.2
        split <;> rename_i heq <;> simp only [heq] at h2 <;> first | exact h2 | omega
      · simp [Ptr.Reach.refl, hr]

theorem parseEscape_spec (p : Ptr) (r : EscapedStringParser.Result) (j : Ptr)
    (h : EscapedStringParser.parseEscape p = some (r, j)) :
    p.Reach j ∧
    match r.result with
    | .Skip => False
    | .Unescaped => p.pos + 1 ≤ j.pos
    | .HighSurrogate => j.pos = p.pos + 5
    | .LowSurrogate => j.pos = p.pos + 5
    | .JsonStringEnd => False
    | .InvalidCharacter => j.rest ≠ []
    | .UnexpectedEndOfInput => j.rest = [] := by
  unfold EscapedStringParser.parseEscape at h
  cases hr : p.rest with
  | nil => simp [hr] at h
  | cons b rest =>
    have hne : p.rest ≠ [] := by simp [hr]
    have hn : p.next.pos = p.pos + 1 := rfl
    simp only [hr] at h
    by_cases hu : b.val = 117
    · have h34 : ¬ b.val = 34 := by omega
      have h92 : ¬ b.val = 92 := by omega
      have h47 : ¬ b.val = 47 := by omega
      have h98 : ¬ b.val = 98 := by omega
      have h102 : ¬ b.val = 102 := by omega
      have h110 : ¬ b.val = 110 := by omega
      have h114 : ¬ b.val = 114 := by omega
      have h116 : ¬ b.val = 116 := by omega
      simp only [h34, h92, h47, h98, h102, h110, h114, h116, hu, if_false, if_true] at h
      have hx := Option.some.inj h
      have h1 : r = (EscapedStringParser.parseEscapeHex 4 0 p.next).1 := by rw [hx]
      have h2 : j = (EscapedStringParser.parseEscapeHex 4 0 p.next).2 := by rw [hx]
      have := parseEscapeHex_spec 4 0 p.next
      rw [← h1, ← h2] at this
      refine ⟨(Ptr.reach_next hne).trans this.1, ?_⟩
      have h2 := this.2
      split <;> rename_i heq <;> simp only [heq] at h2 <;> first | exact h2 | omega
    · simp only [hu, if_false] at h
      split_ifs at h <;> simp only [Option.some.injEq, Prod.mk.injEq] at h <;>
        obtain ⟨rfl, rfl⟩ := h <;>
        first
        | exact ⟨Ptr.reach_next hne, by simp [hn]⟩
        | exact ⟨Ptr.Reach.refl _, by simp [hr]⟩

theorem parseMore_spec (mode : UnescapeMode) (i : Ptr) (r : EscapedStringParser.Result) (j : Ptr)
    (h : EscapedStringParser.parseMore mode i = some (r, j)) : MoreSpec i r j := by
  unfold EscapedStringParser.parseMore at h
  cases hr : i.rest with
  | nil => simp [hr] at h
  | cons b rest =>
    have hne : i.rest ≠ [] := by simp [hr]
    have hn : i.next.pos = i.pos + 1 := rfl
    simp only [hr] at h
    split_ifs at h with h1 h2 h3 h4
    · simp only [Option.some.injEq, Prod.mk.injEq] at h
      obtain ⟨rfl, rfl⟩ := h
      exact ⟨Ptr.reach_next hne, by simpa using h2⟩
    · have := parseEscape_spec i.next r j h
      refine ⟨(Ptr.reach_next hne).trans this.1, ?_⟩
      have h2 := this.2
      split <;> rename_i heq <;> simp only [heq] at h2 <;> first | exact h2.elim | exact h2 | omega
    · simp only [Option.some.injEq, Prod.mk.injEq] at h
      obtain ⟨rfl, rfl⟩ := h
      exact ⟨Ptr.Reach.refl _, by simp [hr]⟩
    · simp only [Option.some.injEq, Prod.mk.injEq] at h
      obtain ⟨rfl, rfl⟩ := h
      exact ⟨Ptr.Reach.refl _, by simp [hr]⟩
    · simp only [Option.some.injEq, Prod.mk.injEq] at h
      obtain ⟨rfl, rfl⟩ := h
      exact ⟨Ptr.reach_next hne, by simp [hr]⟩

theorem parseEscape_isSome (p : Ptr) (h : p.rest ≠ []) :
    (EscapedStringParser.parseEscape p).isSome = true := by
  unfold EscapedStringParser.parseEscape
  cases hr : p.rest with
  | nil => exact absurd hr h
  | cons b rest =>
    simp only
    split_ifs <;> rfl

theorem parseMore_isSome (mode : UnescapeMode) (i : Ptr) (h : i.rest ≠ []) :
    (EscapedStringParser.parseMore mode i).isSome = true := by
  unfold EscapedStringParser.parseMore
  cases hr : i.rest with
  | nil => exact absurd hr h
  | cons b rest =>
    simp only
    split_ifs with h1 h2 h3 h4
    · rfl
    · exact parseEscape_isSome _ h2
    · rfl
    · rfl
    · rfl

theorem check_post (o : ParsingOptions) (s : Bytes) (sur p : Nat) (d : String)
    (code : ParsingIssue.Code) (st : ParserImpl)
    (hc : code = .StringContainsUnpairedUtf16HighSurrogate ∨
      code = .StringContainsUnpairedUtf16LowSurrogate)
    (hp : p < st.i.pos) :
    (checkInvalidUtf16SurrogateOptionAndEncode o s sur p d code st).2.2.i = st.i ∧
    ((checkInvalidUtf16SurrogateOptionAndEncode o s sur p d code st).1 = true →
      Ok o st (checkInvalidUtf16SurrogateOptionAndEncode o s sur p d code st).2.2) ∧
    ((checkInvalidUtf16SurrogateOptionAndEncode o s sur p d code st).1 = false →
      Fail o st (checkInvalidUtf16SurrogateOptionAndEncode o s sur p d code st).2.2) := by
  unfold checkInvalidUtf16SurrogateOptionAndEncode
  by_cases h1 : o.unpairedUtf16Surrogates = .Ignore
  · simp [h1, Ok.same]
  · by_cases h2 : o.unpairedUtf16Surrogates = .Fail
    · simp only [ne_eq, h1, not_false_eq_true, if_true, h2]
      refine ⟨rfl, by simp, fun _ => ?_⟩
      apply fail_addIssueAt
      rcases hc with rfl | rfl <;> simp [Stops, h2, hp]
    · simp only [ne_eq, h1, not_false_eq_true, if_true, h2, if_false]
      refine ⟨rfl, fun _ => ?_, by simp⟩
      refine ⟨Ptr.Reach.refl _, [_], rfl, ?_⟩
      intro x hx
      simp only [List.mem_singleton] at hx
      subst hx
      have h3 : o.unpairedUtf16Surrogates = .Report := by
        cases h : o.unpairedUtf16Surrogates <;> simp_all
      refine ⟨Or.inr ⟨hc, h3⟩, hp⟩

theorem checkHigh_post (o : ParsingOptions) (s : Bytes) (sur p : Nat) (st : ParserImpl)
    (hp : p < st.i.pos) :
    (checkInvalidUtf16HighSurrogateOptionAndEncode o s sur p st).2.2.i = st.i ∧
    ((checkInvalidUtf16HighSurrogateOptionAndEncode o s sur p st).1 = true →
      Ok o st (checkInvalidUtf16HighSurrogateOptionAndEncode o s sur p st).2.2) ∧
    ((checkInvalidUtf16HighSurrogateOptionAndEncode o s sur p st).1 = false →
      Fail o st (checkInvalidUtf16HighSurrogateOptionAndEncode o s sur p st).2.2) :=
  check_post o s sur p _ _ st (Or.inl rfl) hp

theorem checkLow_post (o : ParsingOptions) (s : Bytes) (sur p : Nat) (st : ParserImpl)
    (hp : p < st.i.pos) :
    (checkInvalidUtf16LowSurrogateOptionAndEncode o s sur p st).2.2.i = st.i ∧
    ((checkInvalidUtf16LowSurrogateOptionAndEncode o s sur p st).1 = true →
      Ok o st (checkInvalidUtf16LowSurrogateOptionAndEncode o s sur p st).2.2) ∧
    ((checkInvalidUtf16LowSurrogateOptionAndEncode o s sur p st).1 = false →
      Fail o st (checkInvalidUtf16LowSurrogateOptionAndEncode o s sur p st).2.2) :=
  check_post o s sur p _ _ st (Or.inr rfl) hp

theorem moved_state (o : ParsingOptions) (st : ParserImpl) (j : Ptr) (h : st.i.Reach j) :
    Ok o st { st with i := j } := Ok.of_reach o h rfl

theorem parseStringSurrogates_post (o : ParsingOptions) (fuel : Nat) (s : Bytes) (sur : Nat)
    (st : ParserImpl) (e : SurrogateLoopExit)
    (h : parseStringSurrogates o fuel s sur st = some e) : SurrogatesPost o st e := by
  induction fuel generalizing s sur st e with
  | zero => simp [parseStringSurrogates] at h
  | succ fuel ih =>
    unfold parseStringSurrogates at h
    by_cases he : st.i.rest = []
    · simp only [he, if_true, Option.some.injEq] at h
      subst h
      exact fail_addUnexpectedEndOfInputIssue o st he
    · simp only [he, if_false] at h
      cases hm : EscapedStringParser.parseMore .Strict st.i with
      | none => simp [hm] at h
      | some x =>
        obtain ⟨r2, i2⟩ := x
        have hs := parseMore_spec _ _ _ _ hm
        obtain ⟨hreach, hcase⟩ := hs
        have hok := moved_state o st i2 hreach
        have hlen := hreach.size_eq
        simp only [hm] at h
        cases hres : r2.result <;> simp only [hres] at h hcase
        · -- Skip
          obtain ⟨hj, hne⟩ := hcase
          have hpos : st.i.pos - 6 < ({ st with i := i2 } : ParserImpl).i.pos := by
            simp [hj, Ptr.next]; omega
          have hc := checkHigh_post o s sur (st.i.pos - 6) { st with i := i2 } hpos
          have hl := Ptr.next_length hne
          split_ifs at h with hc1
          · simp only [Option.some.injEq] at h; subst h
            refine ⟨hok.andThen (hc.2.1 hc1), ?_, ?_⟩
            · rw [hc.1]; simp [hj]; omega
            · rw [hc.1]; simp [hj]; exact Ptr.reach_next hne
          · simp only [Option.some.injEq] at h; subst h
            exact hok.thenFail (hc.2.2 (by simpa using hc1))
        · -- Unescaped
          have hpos : st.i.pos - 6 < ({ st with i := i2 } : ParserImpl).i.pos := by
            simp; omega
          have hc := checkHigh_post o s sur (st.i.pos - 6) { st with i := i2 } hpos
          split_ifs at h with hc1
          · simp only [Option.some.injEq] at h; subst h
            refine ⟨hok.andThen (hc.2.1 hc1), ?_, ?_⟩
            · rw [hc.1]; simp; omega
            · exact Ptr.Reach.refl _
          · simp only [Option.some.injEq] at h; subst h
            exact hok.thenFail (hc.2.2 (by simpa using hc1))
        · -- HighSurrogate
          have hpos : st.i.pos - 6 < ({ st with i := i2 } : ParserImpl).i.pos := by
            simp; omega
          have hc := checkHigh_post o s sur (st.i.pos - 6) { st with i := i2 } hpos
          split_ifs at h with hc1
          · have := ih _ _ _ _ h
            have hok2 := hok.andThen (hc.2.1 hc1)
            have hl2 : (checkInvalidUtf16HighSurrogateOptionAndEncode o s sur (st.i.pos - 6)
                { st with i := i2 }).2.2.i.rest.length < st.i.rest.length := by
              rw [hc.1]; simp; omega
            cases e with
            | returned b s' st' =>
              cases b
              · exact hok2.thenFail this
              · exact ⟨hok2.andThen this.1, by have := this.2; omega⟩
            | broke s' pb st' =>
              exact ⟨hok2.andThen this.1, by have := this.2.1; omega, this.2.2⟩
          · simp only [Option.some.injEq] at h; subst h
            exact hok.thenFail (hc.2.2 (by simpa using hc1))
        · -- LowSurrogate
          simp only [Option.some.injEq] at h; subst h
          exact ⟨hok, by simp; omega, Ptr.Reach.refl _⟩
        · -- JsonStringEnd
          obtain ⟨hj, hne⟩ := hcase
          subst hj
          have hpos : st.i.pos - 6 < (({ st with i := st.i } : ParserImpl).advance).i.pos := by
            simp [advance, Ptr.next]; omega
          have hc := checkHigh_post o s sur (st.i.pos - 6) ({ st with i := st.i } : ParserImpl).advance hpos
          have hl := Ptr.next_length hne
          simp only [Option.some.injEq] at h; subst h
          have hadv : Ok o st ({ st with i := st.i } : ParserImpl).advance := ok_advance o hne
          cases hb : (checkInvalidUtf16HighSurrogateOptionAndEncode o s sur (st.i.pos - 6)
              ({ st with i := st.i } : ParserImpl).advance).1
          · simp only [SurrogatesPost]
            exact hadv.thenFail (hc.2.2 hb)
          · simp only [SurrogatesPost]
            refine ⟨hadv.andThen (hc.2.1 hb), ?_⟩
            rw [hc.1]; simp [advance]; omega
        · -- InvalidCharacter
          simp only [Option.some.injEq] at h; subst h
          exact hok.thenFail (fail_addInvalidCharacterIssue o _ _ hcase)
        · -- UnexpectedEndOfInput
          simp only [Option.some.injEq] at h; subst h
          exact hok.thenFail (fail_addUnexpectedEndOfInputIssue o _ hcase)

theorem parseStringLoop_post (o : ParsingOptions) (fuel : Nat) (s : Bytes) (pb : Ptr)
    (st : ParserImpl) (r : Bool) (s' : Bytes) (st' : ParserImpl)
    (h : parseStringLoop o fuel s pb st = some (r, s', st')) :
    (r = true → Ok o st st' ∧ st'.i.rest.length < st.i.rest.length) ∧
    (r = false → Fail o st st') := by
  induction fuel generalizing s pb st r s' st' with
  | zero => simp [parseStringLoop] at h
  | succ fuel ih =>
    unfold parseStringLoop at h
    by_cases he : st.detectEndOfInput.1 = true
    · simp only [he, if_true, Option.some.injEq, Prod.mk.injEq] at h
      obtain ⟨rfl, rfl, rfl⟩ := h
      exact ⟨by simp, fun _ => detectEndOfInput_true o st he⟩
    · have he' : st.detectEndOfInput.1 = false := by simpa using he
      obtain ⟨heq, hne⟩ := detectEndOfInput_false st he'
      simp only [he', heq] at h
      simp only [Bool.false_eq_true, if_false] at h
      cases hm : EscapedStringParser.parseMore .Strict st.i with
      | none => simp [hm] at h
      | some x =>
        obtain ⟨r1, i1⟩ := x
        obtain ⟨hreach, hcase⟩ := parseMore_spec _ _ _ _ hm
        have hok := moved_state o st i1 hreach
        have hlen := hreach.size_eq
        simp only [hm] at h
        cases hres : r1.result <;> simp only [hres] at h hcase
        · -- Skip
          obtain ⟨hj, hne⟩ := hcase
          have hl := Ptr.next_length hne
          have := ih _ _ _ _ _ _ h
          refine ⟨fun hr => ⟨hok.andThen (this.1 hr).1, ?_⟩, fun hr => hok.thenFail (this.2 hr)⟩
          have := (this.1 hr).2
          simp [hj] at this; omega
        · -- Unescaped
          have := ih _ _ _ _ _ _ h
          refine ⟨fun hr => ⟨hok.andThen (this.1 hr).1, ?_⟩, fun hr => hok.thenFail (this.2 hr)⟩
          have := (this.1 hr).2
          simp at this; omega
        · -- HighSurrogate
          cases hsur : parseStringSurrogates o fuel (s ++ pb.range st.i) r1.surrogate
              { st with i := i1 } with
          | none => simp [hsur] at h
          | some e =>
            have hp := parseStringSurrogates_post o _ _ _ _ _ hsur
            simp only [hsur] at h
            cases e with
            | returned b s2 st2 =>
              simp only [Option.some.injEq, Prod.mk.injEq] at h
              obtain ⟨rfl, rfl, rfl⟩ := h
              cases b
              · exact ⟨by simp, fun _ => hok.thenFail hp⟩
              · refine ⟨fun _ => ⟨hok.andThen hp.1, ?_⟩, by simp⟩
                have := hp.2; simp at this; omega
            | broke s2 pb2 st2 =>
              simp only at h
              have := ih _ _ _ _ _ _ h
              have hok2 := hok.andThen hp.1
              refine ⟨fun hr => ⟨hok2.andThen (this.1 hr).1, ?_⟩, fun hr => hok2.thenFail (this.2 hr)⟩
              have h1 := (this.1 hr).2
              have h2 := hp.2.1
              simp at h2; omega
        · -- LowSurrogate
          have hpos : st.i.pos < ({ st with i := i1 } : ParserImpl).i.pos := by simp; omega
          have hc := checkLow_post o (s ++ pb.range st.i) r1.surrogate st.i.pos
            { st with i := i1 } hpos
          split_ifs at h with hc1
          · have := ih _ _ _ _ _ _ h
            have hok2 := hok.andThen (hc.2.1 hc1)
            refine ⟨fun hr => ⟨hok2.andThen (this.1 hr).1, ?_⟩, fun hr => hok2.thenFail (this.2 hr)⟩
            have h1 := (this.1 hr).2
            rw [hc.1] at h1; simp at h1; omega
          · simp only [Option.some.injEq, Prod.mk.injEq] at h
            obtain ⟨rfl, rfl, rfl⟩ := h
            exact ⟨by simp, fun _ => hok.thenFail (hc.2.2 (by simpa using hc1))⟩
        · -- JsonStringEnd
          obtain ⟨hj, hne⟩ := hcase
          subst hj
          have hl := Ptr.next_length hne
          simp only [Option.some.injEq, Prod.mk.injEq] at h
          obtain ⟨rfl, rfl, rfl⟩ := h
          refine ⟨fun _ => ⟨ok_advance o hne, ?_⟩, by simp⟩
          simp [advance]; omega
        · -- InvalidCharacter
          simp only [Option.some.injEq, Prod.mk.injEq] at h
          obtain ⟨rfl, rfl, rfl⟩ := h
          exact ⟨by simp, fun _ => hok.thenFail (fail_addInvalidCharacterIssue o _ _ hcase)⟩
        · -- UnexpectedEndOfInput
          simp only [Option.some.injEq, Prod.mk.injEq] at h
          obtain ⟨rfl, rfl, rfl⟩ := h
          exact ⟨by simp, fun _ => hok.thenFail (fail_addUnexpectedEndOfInputIssue o _ hcase)⟩

theorem parseString_post (o : ParsingOptions) (s : Bytes) (st : ParserImpl) (r : Bool)
    (s' : Bytes) (st' : ParserImpl) (hne : st.i.rest ≠ [])
    (h : parseString o s st = some (r, s', st')) :
    (r = true → Ok o st st' ∧ st'.i.rest.length + 1 < st.i.rest.length) ∧
    (r = false → Fail o st st') := by
  unfold parseString at h
  have := parseStringLoop_post o _ _ _ _ _ _ _ h
  have hl := Ptr.next_length hne
  refine ⟨fun hr => ⟨(ok_advance o hne).andThen (this.1 hr).1, ?_⟩,
    fun hr => (ok_advance o hne).thenFail (this.2 hr)⟩
  have := (this.1 hr).2
  simp [advance] at this; omega

theorem Ptr.rest_cases (p : Ptr) : p.rest = [] ∨ ∃ b r, p.rest = b :: r := by
  cases p.rest with
  | nil => exact Or.inl rfl
  | cons b r => exact Or.inr ⟨b, r, rfl⟩

theorem advanceAndDetectEndOfInput_true (o : ParsingOptions) (st : ParserImpl)
    (hne : st.i.rest ≠ []) (h : st.advanceAndDetectEndOfInput.1 = true) :
    Fail o st st.advanceAndDetectEndOfInput.2 :=
  (ok_advance o hne).thenFail (detectEndOfInput_true o st.advance h)

theorem advanceAndDetectEndOfInput_false (o : ParsingOptions) (st : ParserImpl)
    (hne : st.i.rest ≠ []) (h : st.advanceAndDetectEndOfInput.1 = false) :
    st.advanceAndDetectEndOfInput.2 = st.advance ∧ Ok o st st.advance ∧
      st.advance.i.rest ≠ [] ∧ st.advance.i.rest.length + 1 = st.i.rest.length :=
  ⟨(detectEndOfInput_false st.advance h).1, ok_advance o hne,
    (detectEndOfInput_false st.advance h).2, Ptr.next_length hne⟩

theorem detectDigits_post (o : ParsingOptions) (st : ParserImpl) (r : Bool) (st' : ParserImpl)
    (h : detectDigits st = some (r, st')) :
    (r = true → Ok o st st' ∧ st'.i.rest.length < st.i.rest.length) ∧
    (r = false → Fail o st st') := by
  unfold detectDigits at h
  rcases st.i.rest_cases with hr | ⟨b, rest, hr⟩
  · simp [hr] at h
  · have hne : st.i.rest ≠ [] := by simp [hr]
    have hl := Ptr.next_length hne
    simp only [hr] at h
    split_ifs at h <;> simp only [Option.some.injEq, Prod.mk.injEq] at h <;>
      obtain ⟨rfl, rfl⟩ := h
    · exact ⟨by simp, fun _ => fail_addInvalidCharacterIssue o st _ hne⟩
    · refine ⟨fun _ => ⟨(ok_advance o hne).andThen (ok_skipDigits o _), ?_⟩, by simp⟩
      have := (ok_skipDigits o st.advance).cursor.length_le
      have h2 : st.advance.i = st.i.next := rfl
      rw [h2] at this
      omega

theorem parseNumberInteger_post (o : ParsingOptions) (st : ParserImpl) (r : Bool)
    (st' : ParserImpl) (h : parseNumberInteger st = some (r, st')) :
    (r = true → Ok o st st' ∧ st'.i.rest.length < st.i.rest.length) ∧
    (r = false → Fail o st st') := by
  unfold parseNumberInteger at h
  rcases st.i.rest_cases with hr | ⟨b, rest, hr⟩
  · simp [hr] at h
  · have hne : st.i.rest ≠ [] := by simp [hr]
    have hl := Ptr.next_length hne
    simp only [hr] at h
    split_ifs at h <;> simp only [Option.some.injEq, Prod.mk.injEq] at h <;>
      obtain ⟨rfl, rfl⟩ := h
    · refine ⟨fun _ => ⟨ok_advance o hne, ?_⟩, by simp⟩
      have h2 : st.advance.i = st.i.next := rfl
      rw [h2]; omega
    · refine ⟨fun _ => ⟨(ok_advance o hne).andThen (ok_skipDigits o _), ?_⟩, by simp⟩
      have := (ok_skipDigits o st.advance).cursor.length_le
      have h2 : st.advance.i = st.i.next := rfl
      rw [h2] at this
      omega
    · exact ⟨by simp, fun _ => fail_addInvalidCharacterIssue o st _ hne⟩

theorem parseNumberFraction_post (o : ParsingOptions) (st : ParserImpl) (go d : Bool)
    (st' : ParserImpl) (h : parseNumberFraction st = some (go, d, st')) :
    (go = true → Ok o st st') ∧ (go = false → Fail o st st') := by
  unfold parseNumberFraction at h
  cases hr : st.i.rest with
  | nil =>
    simp only [hr, Option.some.injEq, Prod.mk.injEq] at h
    obtain ⟨rfl, rfl, rfl⟩ := h
    exact ⟨fun _ => Ok.same o st, by simp⟩
  | cons b rest =>
    have hne : st.i.rest ≠ [] := by simp [hr]
    simp only [hr] at h
    split_ifs at h with h1 h2
    · simp only [Option.some.injEq, Prod.mk.injEq] at h
      obtain ⟨rfl, rfl, rfl⟩ := h
      exact ⟨by simp, fun _ => advanceAndDetectEndOfInput_true o st hne h2⟩
    · have ha := advanceAndDetectEndOfInput_false o st hne (by simpa using h2)
      cases hd : detectDigits st.advanceAndDetectEndOfInput.2 with
      | none => simp [hd] at h
      | some x =>
        obtain ⟨rd, sd⟩ := x
        have hp := detectDigits_post o _ _ _ hd
        rw [ha.1] at hp
        simp only [hd] at h
        cases rd <;> simp only [Option.some.injEq, Prod.mk.injEq] at h <;>
          obtain ⟨rfl, rfl, rfl⟩ := h
        · exact ⟨by simp, fun _ => ha.2.1.thenFail (hp.2 rfl)⟩
        · exact ⟨fun _ => ha.2.1.andThen (hp.1 rfl).1, by simp⟩
    · simp only [Option.some.injEq, Prod.mk.injEq] at h
      obtain ⟨rfl, rfl, rfl⟩ := h
      exact ⟨fun _ => Ok.same o st, by simp⟩

theorem parseNumberExponent_post (o : ParsingOptions) (st : ParserImpl) (go d : Bool)
    (st' : ParserImpl) (h : parseNumberExponent st = some (go, d, st')) :
    (go = true → Ok o st st') ∧ (go = false → Fail o st st') := by
  unfold parseNumberExponent at h
  cases hr : st.i.rest with
  | nil =>
    simp only [hr, Option.some.injEq, Prod.mk.injEq] at h
    obtain ⟨rfl, rfl, rfl⟩ := h
    exact ⟨fun _ => Ok.same o st, by simp⟩
  | cons b rest =>
    have hne : st.i.rest ≠ [] := by simp [hr]
    simp only [hr] at h
    split_ifs at h with h1 h2
    · simp only [Option.some.injEq, Prod.mk.injEq] at h
      obtain ⟨rfl, rfl, rfl⟩ := h
      exact ⟨by simp, fun _ => advanceAndDetectEndOfInput_true o st hne h2⟩
    · have ha := advanceAndDetectEndOfInput_false o st hne (by simpa using h2)
      rw [ha.1] at h
      cases hr2 : st.advance.i.rest with
      | nil => exact absurd hr2 ha.2.2.1
      | cons c rest2 =>
        simp only [hr2] at h
        by_cases hsign : c.val = 43 ∨ c.val = 45
        · simp only [hsign, if_true] at h
          by_cases h3 : st.advance.advanceAndDetectEndOfInput.1 = true
          · simp only [h3, if_true, Option.some.injEq, Prod.mk.injEq] at h
            obtain ⟨rfl, rfl, rfl⟩ := h
            exact ⟨by simp, fun _ => ha.2.1.thenFail
              (advanceAndDetectEndOfInput_true o st.advance ha.2.2.1 h3)⟩
          · have hb := advanceAndDetectEndOfInput_false o st.advance ha.2.2.1 (by simpa using h3)
            simp only [h3, Bool.false_eq_true, if_false] at h
            rw [hb.1] at h
            cases hd : detectDigits st.advance.advance with
            | none => simp [hd] at h
            | some x =>
              obtain ⟨rd, sd⟩ := x
              have hp := detectDigits_post o _ _ _ hd
              simp only [hd] at h
              cases rd <;> simp only [Option.some.injEq, Prod.mk.injEq] at h <;>
                obtain ⟨rfl, rfl, rfl⟩ := h
              · exact ⟨by simp, fun _ => (ha.2.1.andThen hb.2.1).thenFail (hp.2 rfl)⟩
              · exact ⟨fun _ => (ha.2.1.andThen hb.2.1).andThen (hp.1 rfl).1, by simp⟩
        · simp only [hsign, if_false, Bool.false_eq_true] at h
          cases hd : detectDigits st.advance with
          | none => simp [hd] at h
          | some x =>
            obtain ⟨rd, sd⟩ := x
            have hp := detectDigits_post o _ _ _ hd
            simp only [hd] at h
            cases rd <;> simp only [Option.some.injEq, Prod.mk.injEq] at h <;>
              obtain ⟨rfl, rfl, rfl⟩ := h
            · exact ⟨by simp, fun _ => ha.2.1.thenFail (hp.2 rfl)⟩
            · exact ⟨fun _ => ha.2.1.andThen (hp.1 rfl).1, by simp⟩
    · simp only [Option.some.injEq, Prod.mk.injEq] at h
      obtain ⟨rfl, rfl, rfl⟩ := h
      exact ⟨fun _ => Ok.same o st, by simp⟩

theorem takeWhile_length_le (p : Byte → Bool) (l : Bytes) :
    (l.takeWhile p).length ≤ l.length :=
  (List.takeWhile_sublist p).length_le

theorem from_chars_int64_ptr_le (text : Bytes) :
    (∀ p, from_chars_int64 text = .result_out_of_range p → p ≤ text.length) ∧
    (∀ p, from_chars_int64 text = .invalid_argument p → p = 0) := by
  constructor
  · intro p hp
    cases text with
    | nil => simp [from_chars_int64] at hp
    | cons b rest =>
      have k1 := takeWhile_length_le isDecimalDigit rest
      have k2 := takeWhile_length_le isDecimalDigit (b :: rest)
      simp only [from_chars_int64] at hp
      split_ifs at hp <;> simp only [FromChars.result_out_of_range.injEq] at hp <;>
        subst hp <;> simp only [List.tail_cons, List.length_cons] at * <;> omega
  · intro p hp
    simp only [from_chars_int64] at hp
    split_ifs at hp <;> simp only [FromChars.invalid_argument.injEq] at hp <;> exact hp.symm

theorem decimalToDouble_valid (neg : Bool) (ptr m : Nat) (e : Int) (p : Nat) :
    decimalToDouble neg ptr m e ≠ .invalid_argument p := by
  unfold decimalToDouble
  split_ifs
  · simp
  · split
    · simp
    · split_ifs <;> simp
  · split
    · simp
    · split_ifs <;> simp

theorem from_chars_double_invalid (text : Bytes) (p : Nat)
    (hf : from_chars_double text = .invalid_argument p) : p = 0 := by
  unfold from_chars_double at hf
  dsimp only at hf
  split_ifs at hf <;>
    first
    | (simp only [FromChars.invalid_argument.injEq] at hf; exact hf.symm)
    | exact absurd hf (decimalToDouble_valid _ _ _ _ _)

theorem parseNumberConvert_post (o : ParsingOptions) (begin : Ptr) (neg : Nat) (d : Bool)
    (v : Value) (st : ParserImpl) (hlt : begin.pos < st.i.pos) :
    ((parseNumberConvert begin neg d v st).1 = true → (parseNumberConvert begin neg d v st).2.2 = st) ∧
    ((parseNumberConvert begin neg d v st).1 = false →
      Fail o st (parseNumberConvert begin neg d v st).2.2) := by
  have hrange : (begin.range st.i).length ≤ st.i.pos - begin.pos := by
    simp [Ptr.range]
  unfold parseNumberConvert
  simp only
  split_ifs with h1
  · cases hf : from_chars_int64 (begin.range st.i) with
    | ok p x => simp
    | invalid_argument p =>
      have := (from_chars_int64_ptr_le _).2 p hf
      simp only [Bool.false_eq_true, false_implies, true_and]
      intro _
      apply fail_addIssueAt
      simp [Stops]; omega
    | result_out_of_range p =>
      have := (from_chars_int64_ptr_le _).1 p hf
      simp only [Bool.false_eq_true, false_implies, true_and]
      intro _
      apply fail_addIssueAt
      simp [Stops]; omega
  · cases hf : from_chars_double (begin.range st.i) with
    | ok p x => simp
    | invalid_argument p =>
      have := from_chars_double_invalid _ p hf
      simp only [Bool.false_eq_true, false_implies, true_and]
      intro _
      apply fail_addIssueAt
      simp [Stops]; omega
    | result_out_of_range p =>
      simp only [Bool.false_eq_true, false_implies, true_and]
      intro _
      apply fail_addIssueAt
      simp [Stops]; omega

theorem parseNumberBody_post (o : ParsingOptions) (begin : Ptr) (neg : Nat) (v : Value)
    (st : ParserImpl) (r : Bool) (v' : Value) (st' : ParserImpl)
    (hb : begin.Reach st.i)
    (h : parseNumberBody begin neg v st = some (r, v', st')) :
    (r = true → Ok o st st' ∧ st'.i.rest.length < st.i.rest.length) ∧
    (r = false → Fail o st st') := by
  unfold parseNumberBody at h
  cases hi : parseNumberInteger st with
  | none => simp [hi] at h
  | some x =>
    obtain ⟨ri, si⟩ := x
    have hpi := parseNumberInteger_post o _ _ _ hi
    simp only [hi] at h
    cases ri
    · simp only [Option.some.injEq, Prod.mk.injEq] at h
      obtain ⟨rfl, rfl, rfl⟩ := h
      exact ⟨by simp, fun _ => hpi.2 rfl⟩
    · simp only at h
      have hok2 := (hpi.1 rfl).1
      have hl2 := (hpi.1 rfl).2
      cases hfr : parseNumberFraction si with
      | none => simp [hfr] at h
      | some x =>
        obtain ⟨gf, df, sf⟩ := x
        have hpf := parseNumberFraction_post o _ _ _ _ hfr
        simp only [hfr] at h
        cases gf
        · simp only [Option.some.injEq, Prod.mk.injEq] at h
          obtain ⟨rfl, rfl, rfl⟩ := h
          exact ⟨by simp, fun _ => hok2.thenFail (hpf.2 rfl)⟩
        · simp only at h
          have hok3 := hok2.andThen (hpf.1 rfl)
          cases hex : parseNumberExponent sf with
          | none => simp [hex] at h
          | some x =>
            obtain ⟨ge, de, se⟩ := x
            have hpe := parseNumberExponent_post o _ _ _ _ hex
            simp only [hex] at h
            cases ge
            · simp only [Option.some.injEq, Prod.mk.injEq] at h
              obtain ⟨rfl, rfl, rfl⟩ := h
              exact ⟨by simp, fun _ => hok3.thenFail (hpe.2 rfl)⟩
            · simp only [Option.some.injEq] at h
              have hok4 := hok3.andThen (hpe.1 rfl)
              have hl4 : se.i.rest.length < st.i.rest.length := by
                have := (hpf.1 rfl).cursor.length_le
                have := (hpe.1 rfl).cursor.length_le
                omega
              have hlt : begin.pos < se.i.pos := by
                have := hok4.cursor.size_eq
                have := hb.pos_le
                omega
              have hc := parseNumberConvert_post o begin neg (df || de) v se hlt
              rw [h] at hc
              simp only at hc
              refine ⟨fun hr => ?_, fun hr => hok4.thenFail (hc.2 hr)⟩
              rw [hc.1 hr]
              exact ⟨hok4, hl4⟩

theorem parseNumber_post (o : ParsingOptions) (v : Value) (st : ParserImpl) (r : Bool)
    (v' : Value) (st' : ParserImpl) (h : parseNumber v st = some (r, v', st')) :
    (r = true → Ok o st st' ∧ st'.i.rest.length < st.i.rest.length) ∧
    (r = false → Fail o st st') := by
  unfold parseNumber at h
  rcases st.i.rest_cases with hr | ⟨b, rest, hr⟩
  · simp [hr] at h
  · have hne : st.i.rest ≠ [] := by simp [hr]
    simp only [hr] at h
    by_cases hm : b.val = 45
    · simp only [hm, if_true, ne_eq, one_ne_zero, not_false_eq_true] at h
      by_cases h1 : st.advanceAndDetectEndOfInput.1 = true
      · simp only [h1, if_true, Option.some.injEq, Prod.mk.injEq] at h
        obtain ⟨rfl, rfl, rfl⟩ := h
        exact ⟨by simp, fun _ => advanceAndDetectEndOfInput_true o st hne h1⟩
      · have ha := advanceAndDetectEndOfInput_false o st hne (by simpa using h1)
        simp only [h1, Bool.false_eq_true, if_false] at h
        rw [ha.1] at h
        have := parseNumberBody_post o _ _ _ _ _ _ _ ha.2.1.cursor h
        refine ⟨fun hr => ⟨ha.2.1.andThen (this.1 hr).1, ?_⟩, fun hr => ha.2.1.thenFail (this.2 hr)⟩
        have := (this.1 hr).2
        have := ha.2.2.2
        omega
    · simp only [hm, if_false, ne_eq, not_true_eq_false, Bool.false_eq_true] at h
      exact parseNumberBody_post o _ _ _ _ _ _ _ (Ptr.Reach.refl _) h

theorem Post.of_fail {o : ParsingOptions} {st st' : ParserImpl} (h : Fail o st st') :
    Post o st false st' := ⟨by simp, fun _ => h⟩

theorem Post.of_ok {o : ParsingOptions} {st st' : ParserImpl} (h : Ok o st st')
    (hl : st'.i.rest.length < st.i.rest.length) : Post o st true st' :=
  ⟨fun _ => ⟨h, hl⟩, by simp⟩

theorem Post.after {o : ParsingOptions} {st st1 st' : ParserImpl} {r : Bool}
    (h1 : Ok o st st1) (h2 : Post o st1 r st') : Post o st r st' :=
  ⟨fun hr => ⟨h1.andThen (h2.1 hr).1, Nat.lt_of_lt_of_le (h2.1 hr).2 h1.cursor.length_le⟩,
    fun hr => h1.thenFail (h2.2 hr)⟩

theorem Post.ok {o : ParsingOptions} {st st' : ParserImpl} (h : Post o st true st') :
    Ok o st st' := (h.1 rfl).1

theorem Post.lt {o : ParsingOptions} {st st' : ParserImpl} (h : Post o st true st') :
    st'.i.rest.length < st.i.rest.length := (h.1 rfl).2

theorem Post.failed {o : ParsingOptions} {st st' : ParserImpl} (h : Post o st false st') :
    Fail o st st' := h.2 rfl

theorem Post.before {o : ParsingOptions} {st st1 st' : ParserImpl} {r : Bool}
    (h1 : Post o st true st1) (h2 : Ok o st1 st') (h3 : r = true) : Post o st r st' := by
  subst h3
  exact Post.of_ok (h1.ok.andThen h2) (Nat.lt_of_le_of_lt h2.cursor.length_le h1.lt)

theorem post_parseString (o : ParsingOptions) (s : Bytes) (st : ParserImpl) (r : Bool)
    (s' : Bytes) (st' : ParserImpl) (hne : st.i.rest ≠ [])
    (h : parseString o s st = some (r, s', st')) : Post o st r st' := by
  have := parseString_post o s st r s' st' hne h
  exact ⟨fun hr => ⟨(this.1 hr).1, by have := (this.1 hr).2; omega⟩, this.2⟩

theorem post_endWs (o : ParsingOptions) (st : ParserImpl) :
    (st.detectEndOfInputAfterSkippingWhitespaces.1 = true →
      Fail o st st.detectEndOfInputAfterSkippingWhitespaces.2) ∧
    (st.detectEndOfInputAfterSkippingWhitespaces.1 = false →
      Ok o st st.detectEndOfInputAfterSkippingWhitespaces.2 ∧
      st.detectEndOfInputAfterSkippingWhitespaces.2.i.rest ≠ []) :=
  ⟨detectEndOfInputAfterSkippingWhitespaces_true o st,
    detectEndOfInputAfterSkippingWhitespaces_false o st⟩

theorem dupIssue_post (o : ParsingOptions) (st : ParserImpl) (ins : Bool) (kb : Nat)
    (d : String) (hk : kb < st.i.pos) :
    (¬((!ins) = true ∧ o.duplicateObjectKeys = .Fail) →
      Ok o st (if (!ins) = true ∧ o.duplicateObjectKeys ≠ .Ignore then
        st.addIssueAt kb d .DuplicateKeys else st)) ∧
    (((!ins) = true ∧ o.duplicateObjectKeys = .Fail) →
      Fail o st (if (!ins) = true ∧ o.duplicateObjectKeys ≠ .Ignore then
        st.addIssueAt kb d .DuplicateKeys else st)) := by
  constructor
  · intro hn
    split_ifs with hc
    · refine ⟨Ptr.Reach.refl _, [_], rfl, ?_⟩
      intro x hx
      simp only [List.mem_singleton] at hx
      subst hx
      have h3 : o.duplicateObjectKeys = .Report := by
        cases h : o.duplicateObjectKeys <;> simp_all
      exact ⟨Or.inl ⟨rfl, h3⟩, hk⟩
    · exact Ok.same o st
  · intro hf
    have hc : (!ins) = true ∧ o.duplicateObjectKeys ≠ .Ignore := ⟨hf.1, by simp [hf.2]⟩
    rw [if_pos hc]
    apply fail_addIssueAt
    simp [Stops, hf.2, hk]

theorem parser_post (o : ParsingOptions) (fuel : Nat) : PostAll o fuel := by
  induction fuel with
  | zero =>
    refine ⟨?_, ?_, ?_, ?_, ?_, ?_⟩ <;> intros <;> simp_all [parseImpl, parseArray,
      parseArrayMembersRecursion, parseArrayMembersLoop, parseObject, parseObjectMembers]
  | succ fuel ih =>
    obtain ⟨ihImpl, ihArr, ihRec, ihLoop, ihObj, ihMem⟩ := ih
    refine ⟨?_, ?_, ?_, ?_, ?_, ?_⟩
    · -- parseImpl
      intro v st r v' st' h
      unfold parseImpl at h
      rcases st.i.rest_cases with hr | ⟨b, rest, hr⟩
      · simp [hr] at h
      · have hne : st.i.rest ≠ [] := by simp [hr]
        simp only [hr] at h
        split_ifs at h with h1 h2 h3 h4 h5 h6
        · simp only [Option.some.injEq] at h
          have := parseLiteral_post o .null 110 117 [108, 108] v st hne
          have e : NullLiteral = [110, 117, 108, 108] := by decide
          rw [e] at h; rw [h] at this; exact this
        · simp only [Option.some.injEq] at h
          have := parseLiteral_post o (.boolean false) 102 97 [108, 115, 101] v st hne
          have e : FalseLiteral = [102, 97, 108, 115, 101] := by decide
          rw [e] at h; rw [h] at this; exact this
        · simp only [Option.some.injEq] at h
          have := parseLiteral_post o (.boolean true) 116 114 [117, 101] v st hne
          have e : TrueLiteral = [116, 114, 117, 101] := by decide
          rw [e] at h; rw [h] at this; exact this
        · cases hs : parseString o [] st with
          | none => simp [hs] at h
          | some x =>
            obtain ⟨rs, ss, sts⟩ := x
            simp only [hs, Option.some.injEq, Prod.mk.injEq] at h
            obtain ⟨rfl, rfl, rfl⟩ := h
            exact post_parseString o _ _ _ _ _ hne hs
        · exact ihArr _ _ _ _ _ hne h
        · exact ihObj _ _ _ _ _ hne h
        · exact parseNumber_post o _ _ _ _ _ h
    · -- parseArray
      intro v st r v' st' hne h
      unfold parseArray at h
      have hadv := ok_advance o hne
      have hws := post_endWs o st.advance
      by_cases he : st.advance.detectEndOfInputAfterSkippingWhitespaces.1 = true
      · simp only [he, if_true, Option.some.injEq, Prod.mk.injEq] at h
        obtain ⟨rfl, rfl, rfl⟩ := h
        exact Post.of_fail (hadv.thenFail (hws.1 he))
      · have he' : st.advance.detectEndOfInputAfterSkippingWhitespaces.1 = false := by
          simpa using he
        obtain ⟨hok, hne2⟩ := hws.2 he'
        have hok1 := hadv.andThen hok
        have hl1 : st.advance.detectEndOfInputAfterSkippingWhitespaces.2.i.rest.length
            < st.i.rest.length := by
          have h1 := hok.cursor.length_le
          have := Ptr.next_length hne
          have h2 : st.advance.i = st.i.next := rfl
          rw [h2] at h1; omega
        simp only [he', Bool.false_eq_true, if_false] at h
        rcases st.advance.detectEndOfInputAfterSkippingWhitespaces.2.i.rest_cases with
          hr | ⟨b, rest, hr⟩
        · exact absurd hr hne2
        · simp only [hr] at h
          split_ifs at h with h1
          · simp only [Option.some.injEq, Prod.mk.injEq] at h
            obtain ⟨rfl, rfl, rfl⟩ := h
            refine Post.of_ok (hok1.andThen (ok_advance o hne2)) ?_
            have := (@ok_advance o st.advance.detectEndOfInputAfterSkippingWhitespaces.2
              hne2).cursor.length_le
            omega
          · cases hm : parseArrayMembersRecursion o fuel [] .null 1
                st.advance.detectEndOfInputAfterSkippingWhitespaces.2 with
            | none => simp [hm] at h
            | some x =>
              obtain ⟨rm, am, um, sm⟩ := x
              have hp := ihRec _ _ _ _ _ _ _ _ hm
              simp only [hm] at h
              cases rm <;> simp only [Option.some.injEq, Prod.mk.injEq] at h <;>
                obtain ⟨rfl, rfl, rfl⟩ := h <;> exact Post.after hok1 hp
    · -- parseArrayMembersRecursion
      intro a v size st r a' v' st' h
      unfold parseArrayMembersRecursion at h
      cases hi : parseImpl o fuel v st with
      | none => simp [hi] at h
      | some x =>
        obtain ⟨ri, vi, si⟩ := x
        have hp := ihImpl _ _ _ _ _ hi
        simp only [hi] at h
        cases ri
        · simp only [Option.some.injEq, Prod.mk.injEq] at h
          obtain ⟨rfl, rfl, rfl, rfl⟩ := h
          exact hp
        · simp only at h
          have hws := post_endWs o si
          by_cases he : si.detectEndOfInputAfterSkippingWhitespaces.1 = true
          · simp only [he, if_true, Option.some.injEq, Prod.mk.injEq] at h
            obtain ⟨rfl, rfl, rfl, rfl⟩ := h
            exact Post.of_fail (hp.ok.thenFail (hws.1 he))
          · have he' : si.detectEndOfInputAfterSkippingWhitespaces.1 = false := by
              simpa using he
            obtain ⟨hok, hne2⟩ := hws.2 he'
            have hp1 : Post o st true si.detectEndOfInputAfterSkippingWhitespaces.2 :=
              hp.before hok rfl
            simp only [he', Bool.false_eq_true, if_false] at h
            rcases si.detectEndOfInputAfterSkippingWhitespaces.2.i.rest_cases with
              hr | ⟨b, rest, hr⟩
            · exact absurd hr hne2
            · simp only [hr] at h
              have hadv := ok_advance o hne2
              split_ifs at h with h1 h2 h3 h4
              · simp only [Option.some.injEq, Prod.mk.injEq] at h
                obtain ⟨rfl, rfl, rfl, rfl⟩ := h
                exact hp1.before hadv rfl
              · simp only [Option.some.injEq, Prod.mk.injEq] at h
                obtain ⟨rfl, rfl, rfl, rfl⟩ := h
                exact Post.of_fail (hp1.ok.thenFail (hadv.thenFail ((post_endWs o _).1 h3)))
              · have hws2 := (post_endWs o
                  si.detectEndOfInputAfterSkippingWhitespaces.2.advance).2 (by simpa using h3)
                have hp2 := hp1.before (hadv.andThen hws2.1) rfl
                cases hm : parseArrayMembersLoop o fuel (resize a (size + 1))
                    si.detectEndOfInputAfterSkippingWhitespaces.2.advance.detectEndOfInputAfterSkippingWhitespaces.2 with
                | none => simp [hm] at h
                | some x =>
                  obtain ⟨rm, am, sm⟩ := x
                  have hq := ihLoop _ _ _ _ _ hm
                  simp only [hm, Option.some.injEq, Prod.mk.injEq] at h
                  obtain ⟨rfl, rfl, rfl, rfl⟩ := h
                  exact Post.after hp2.ok hq
              · have hws2 := (post_endWs o
                  si.detectEndOfInputAfterSkippingWhitespaces.2.advance).2 (by simpa using h3)
                have hp2 := hp1.before (hadv.andThen hws2.1) rfl
                cases hm : parseArrayMembersRecursion o fuel a .null (size + 1)
                    si.detectEndOfInputAfterSkippingWhitespaces.2.advance.detectEndOfInputAfterSkippingWhitespaces.2 with
                | none => simp [hm] at h
                | some x =>
                  obtain ⟨rm, am, um, sm⟩ := x
                  have hq := ihRec _ _ _ _ _ _ _ _ hm
                  simp only [hm] at h
                  cases rm <;> simp only [Option.some.injEq, Prod.mk.injEq] at h <;>
                    obtain ⟨rfl, rfl, rfl, rfl⟩ := h <;> exact Post.after hp2.ok hq
              · simp only [Option.some.injEq, Prod.mk.injEq] at h
                obtain ⟨rfl, rfl, rfl, rfl⟩ := h
                exact Post.of_fail (hp1.ok.thenFail (fail_addInvalidCharacterIssue o _ _ hne2))
    · -- parseArrayMembersLoop
      intro a st r a' st' h
      unfold parseArrayMembersLoop at h
      cases hi : parseImpl o fuel (a.getLastD .null) st with
      | none => rw [hi] at h; exact absurd h (by simp)
      | some x =>
        obtain ⟨ri, vi, si⟩ := x
        have hp := ihImpl _ _ _ _ _ hi
        simp only [hi] at h
        cases ri
        · simp only [Option.some.injEq, Prod.mk.injEq] at h
          obtain ⟨rfl, rfl, rfl⟩ := h
          exact hp
        · simp only at h
          have hws := post_endWs o si
          by_cases he : si.detectEndOfInputAfterSkippingWhitespaces.1 = true
          · simp only [he, if_true, Option.some.injEq, Prod.mk.injEq] at h
            obtain ⟨rfl, rfl, rfl⟩ := h
            exact Post.of_fail (hp.ok.thenFail (hws.1 he))
          · have he' : si.detectEndOfInputAfterSkippingWhitespaces.1 = false := by
              simpa using he
            obtain ⟨hok, hne2⟩ := hws.2 he'
            have hp1 : Post o st true si.detectEndOfInputAfterSkippingWhitespaces.2 :=
              hp.before hok rfl
            simp only [he', Bool.false_eq_true, if_false] at h
            rcases si.detectEndOfInputAfterSkippingWhitespaces.2.i.rest_cases with
              hr | ⟨b, rest, hr⟩
            · exact absurd hr hne2
            · simp only [hr] at h
              have hadv := ok_advance o hne2
              split_ifs at h with h1 h2 h3
              · simp only [Option.some.injEq, Prod.mk.injEq] at h
                obtain ⟨rfl, rfl, rfl⟩ := h
                exact hp1.before hadv rfl
              · simp only [Option.some.injEq, Prod.mk.injEq] at h
                obtain ⟨rfl, rfl, rfl⟩ := h
                exact Post.of_fail (hp1.ok.thenFail (hadv.thenFail ((post_endWs o _).1 h3)))
              · have hws2 := (post_endWs o
                  si.detectEndOfInputAfterSkippingWhitespaces.2.advance).2 (by simpa using h3)
                have hp2 := hp1.before (hadv.andThen hws2.1) rfl
                exact Post.after hp2.ok (ihLoop _ _ _ _ _ h)
              · simp only [Option.some.injEq, Prod.mk.injEq] at h
                obtain ⟨rfl, rfl, rfl⟩ := h
                exact Post.of_fail (hp1.ok.thenFail (fail_addInvalidCharacterIssue o _ _ hne2))
    · -- parseObject
      intro v st r v' st' hne h
      unfold parseObject at h
      have hadv := ok_advance o hne
      have hws := post_endWs o st.advance
      by_cases he : st.advance.detectEndOfInputAfterSkippingWhitespaces.1 = true
      · simp only [he, if_true, Option.some.injEq, Prod.mk.injEq] at h
        obtain ⟨rfl, rfl, rfl⟩ := h
        exact Post.of_fail (hadv.thenFail (hws.1 he))
      · have he' : st.advance.detectEndOfInputAfterSkippingWhitespaces.1 = false := by
          simpa using he
        obtain ⟨hok, hne2⟩ := hws.2 he'
        have hok1 := hadv.andThen hok
        simp only [he', Bool.false_eq_true, if_false] at h
        rcases st.advance.detectEndOfInputAfterSkippingWhitespaces.2.i.rest_cases with
          hr | ⟨b, rest, hr⟩
        · exact absurd hr hne2
        · simp only [hr] at h
          split_ifs at h with h1
          · simp only [Option.some.injEq, Prod.mk.injEq] at h
            obtain ⟨rfl, rfl, rfl⟩ := h
            refine Post.of_ok (hok1.andThen (ok_advance o hne2)) ?_
            have := (@ok_advance o st.advance.detectEndOfInputAfterSkippingWhitespaces.2
              hne2).cursor.length_le
            have h1 := hok.cursor.length_le
            have := Ptr.next_length hne
            have h2 : st.advance.i = st.i.next := rfl
            rw [h2] at h1; omega
          · cases hm : parseObjectMembers o fuel []
                st.advance.detectEndOfInputAfterSkippingWhitespaces.2 with
            | none => simp [hm] at h
            | some x =>
              obtain ⟨rm, om, sm⟩ := x
              have hp := ihMem _ _ _ _ _ hm
              simp only [hm, Option.some.injEq, Prod.mk.injEq] at h
              obtain ⟨rfl, rfl, rfl⟩ := h
              exact Post.after hok1 hp
    · -- parseObjectMembers
      intro ob st r o'' st' h
      unfold parseObjectMembers at h
      rcases st.i.rest_cases with hr | ⟨b, rest, hr⟩
      · simp [hr] at h
      · have hne : st.i.rest ≠ [] := by simp [hr]
        simp only [hr] at h
        split_ifs at h with h1
        · simp only [Option.some.injEq, Prod.mk.injEq] at h
          obtain ⟨rfl, rfl, rfl⟩ := h
          exact Post.of_fail (fail_addInvalidCharacterIssue o _ _ hne)
        · cases hs : parseString o [] st with
          | none => simp [hs] at h
          | some x =>
            obtain ⟨rs, key, s1⟩ := x
            have hp := post_parseString o _ _ _ _ _ hne hs
            simp only [hs] at h
            cases rs
            · simp only [Option.some.injEq, Prod.mk.injEq] at h
              obtain ⟨rfl, rfl, rfl⟩ := h
              exact hp
            · simp only at h
              have hws := post_endWs o s1
              by_cases he : s1.detectEndOfInputAfterSkippingWhitespaces.1 = true
              · simp only [he, if_true, Option.some.injEq, Prod.mk.injEq] at h
                obtain ⟨rfl, rfl, rfl⟩ := h
                exact Post.of_fail (hp.ok.thenFail (hws.1 he))
              · have he' : s1.detectEndOfInputAfterSkippingWhitespaces.1 = false := by
                  simpa using he
                obtain ⟨hok, hne2⟩ := hws.2 he'
                have hp1 : Post o st true s1.detectEndOfInputAfterSkippingWhitespaces.2 :=
                  hp.before hok rfl
                simp only [he', Bool.false_eq_true, if_false] at h
                rcases s1.detectEndOfInputAfterSkippingWhitespaces.2.i.rest_cases with
                  hr2 | ⟨c, rest2, hr2⟩
                · exact absurd hr2 hne2
                · simp only [hr2] at h
                  have hadv := ok_advance o hne2
                  by_cases h2 : c.val = 58
                  swap
                  · simp only [ne_eq, h2, not_false_eq_true, if_true, Option.some.injEq,
                      Prod.mk.injEq] at h
                    obtain ⟨rfl, rfl, rfl⟩ := h
                    exact Post.of_fail (hp1.ok.thenFail (fail_addInvalidCharacterIssue o _ _ hne2))
                  simp only [ne_eq, h2, not_true_eq_false, if_false] at h
                  by_cases h3 : s1.detectEndOfInputAfterSkippingWhitespaces.2.advance.detectEndOfInputAfterSkippingWhitespaces.1 = true
                  · simp only [h3, if_true, Option.some.injEq, Prod.mk.injEq] at h
                    obtain ⟨rfl, rfl, rfl⟩ := h
                    exact Post.of_fail (hp1.ok.thenFail (hadv.thenFail ((post_endWs o _).1 h3)))
                  simp only [h3, Bool.false_eq_true, if_false] at h
                  have hws2 := (post_endWs o
                    s1.detectEndOfInputAfterSkippingWhitespaces.2.advance).2 (by simpa using h3)
                  have hp2 := hp1.before (hadv.andThen hws2.1) rfl
                  have hk : st.i.pos < s1.detectEndOfInputAfterSkippingWhitespaces.2.advance.detectEndOfInputAfterSkippingWhitespaces.2.i.pos := by
                    have := hp2.ok.cursor.size_eq
                    have := hp2.lt
                    omega
                  by_cases h4 : (!(tryEmplace ob key).2) = true ∧ o.duplicateObjectKeys = .Fail
                  · -- duplicate key under `Fail`
                    rw [if_pos h4] at h
                    simp only [Option.some.injEq, Prod.mk.injEq] at h
                    obtain ⟨rfl, rfl, rfl⟩ := h
                    exact Post.of_fail (hp2.ok.thenFail ((dupIssue_post o _ _ _ _ hk).2 h4))
                  · rw [if_neg h4] at h
                    have hd := (dupIssue_post o _ (tryEmplace ob key).2 _
                      "JSON object contains duplicate keys" hk).1 h4
                    have hp3 := hp2.before hd rfl
                    cases hv : parseImpl o fuel
                        ((Object.find key (tryEmplace ob key).1).getD Value.null)
                        (if (!(tryEmplace ob key).2) = true ∧ o.duplicateObjectKeys ≠ .Ignore then
                          s1.detectEndOfInputAfterSkippingWhitespaces.2.advance.detectEndOfInputAfterSkippingWhitespaces.2.addIssueAt
                            st.i.pos "JSON object contains duplicate keys" .DuplicateKeys
                        else s1.detectEndOfInputAfterSkippingWhitespaces.2.advance.detectEndOfInputAfterSkippingWhitespaces.2) with
                    | none => rw [hv] at h; exact absurd h (by simp)
                    | some x =>
                      obtain ⟨rv, w, sv⟩ := x
                      have hq := ihImpl _ _ _ _ _ hv
                      rw [hv] at h
                      cases rv
                      · simp only [Option.some.injEq, Prod.mk.injEq] at h
                        obtain ⟨rfl, rfl, rfl⟩ := h
                        exact Post.after hp3.ok hq
                      · simp only at h
                        have hp4 : Post o st true sv := Post.after hp3.ok hq
                        have hws3 := post_endWs o sv
                        by_cases he3 : sv.detectEndOfInputAfterSkippingWhitespaces.1 = true
                        · simp only [he3, if_true, Option.some.injEq, Prod.mk.injEq] at h
                          obtain ⟨rfl, rfl, rfl⟩ := h
                          exact Post.of_fail (hp4.ok.thenFail (hws3.1 he3))
                        · have he3' : sv.detectEndOfInputAfterSkippingWhitespaces.1 = false := by
                            simpa using he3
                          obtain ⟨hok3, hne3⟩ := hws3.2 he3'
                          have hp5 := hp4.before hok3 rfl
                          simp only [he3', Bool.false_eq_true, if_false] at h
                          rcases sv.detectEndOfInputAfterSkippingWhitespaces.2.i.rest_cases with
                            hr3 | ⟨d, rest3, hr3⟩
                          · exact absurd hr3 hne3
                          · simp only [hr3] at h
                            have hadv3 := ok_advance o hne3
                            split_ifs at h with h5 h6 h7
                            · simp only [Option.some.injEq, Prod.mk.injEq] at h
                              obtain ⟨rfl, rfl, rfl⟩ := h
                              exact hp5.before hadv3 rfl
                            · simp only [Option.some.injEq, Prod.mk.injEq] at h
                              obtain ⟨rfl, rfl, rfl⟩ := h
                              exact Post.of_fail (hp5.ok.thenFail (hadv3.thenFail ((post_endWs o _).1 h7)))
                            · have hws4 := (post_endWs o
                                sv.detectEndOfInputAfterSkippingWhitespaces.2.advance).2
                                (by simpa using h7)
                              have hp6 := hp5.before (hadv3.andThen hws4.1) rfl
                              exact Post.after hp6.ok (ihMem _ _ _ _ _ h)
                            · simp only [Option.some.injEq, Prod.mk.injEq] at h
                              obtain ⟨rfl, rfl, rfl⟩ := h
                              exact Post.of_fail (hp5.ok.thenFail
                                (fail_addInvalidCharacterIssue o _ _ hne3))

theorem parseStringSurrogates_isSome (o : ParsingOptions) (fuel : Nat) (s : Bytes) (sur : Nat)
    (st : ParserImpl) (hf : st.i.rest.length + 1 ≤ fuel) :
    (parseStringSurrogates o fuel s sur st).isSome = true := by
  induction fuel generalizing s sur st with
  | zero => omega
  | succ fuel ih =>
    unfold parseStringSurrogates
    by_cases he : st.i.rest = []
    · simp [he]
    · simp only [he, if_false]
      have hs := parseMore_isSome .Strict st.i he
      cases hm : EscapedStringParser.parseMore .Strict st.i with
      | none => simp [hm] at hs
      | some x =>
        obtain ⟨r2, i2⟩ := x
        obtain ⟨hreach, hcase⟩ := parseMore_spec _ _ _ _ hm
        have hlen := hreach.size_eq
        simp only
        cases hres : r2.result <;> simp only [hres] at hcase ⊢ <;> try (split_ifs <;> rfl)
        · -- HighSurrogate
          split_ifs with hc1
          · apply ih
            have := (checkHigh_post o s sur (st.i.pos - 6) { st with i := i2 }
              (by simp; omega)).1
            rw [this]; simp; omega
          · rfl
        all_goals rfl

theorem parseStringLoop_isSome (o : ParsingOptions) (fuel : Nat) (s : Bytes) (pb : Ptr)
    (st : ParserImpl) (hf : st.i.rest.length + 1 ≤ fuel) :
    (parseStringLoop o fuel s pb st).isSome = true := by
  induction fuel generalizing s pb st with
  | zero => omega
  | succ fuel ih =>
    unfold parseStringLoop
    by_cases he : st.detectEndOfInput.1 = true
    · simp [he]
    · have he' : st.detectEndOfInput.1 = false := by simpa using he
      obtain ⟨heq, hne⟩ := detectEndOfInput_false st he'
      simp only [he', heq, Bool.false_eq_true, if_false]
      have hs := parseMore_isSome .Strict st.i hne
      cases hm : EscapedStringParser.parseMore .Strict st.i with
      | none => simp [hm] at hs
      | some x =>
        obtain ⟨r1, i1⟩ := x
        obtain ⟨hreach, hcase⟩ := parseMore_spec _ _ _ _ hm
        have hlen := hreach.size_eq
        simp only
        cases hres : r1.result <;> simp only [hres] at hcase ⊢
        · -- Skip
          apply ih
          have := Ptr.next_length hcase.2
          rw [hcase.1]
          show st.i.next.rest.length + 1 ≤ fuel
          omega
        · apply ih; simp; omega
        · -- HighSurrogate
          have h1 := parseStringSurrogates_isSome o fuel (s ++ pb.range st.i) r1.surrogate
            { st with i := i1 } (by simp; omega)
          cases hsur : parseStringSurrogates o fuel (s ++ pb.range st.i) r1.surrogate
              { st with i := i1 } with
          | none => simp [hsur] at h1
          | some e =>
            have hp := parseStringSurrogates_post o _ _ _ _ _ hsur
            cases e with
            | returned b s2 st2 => rfl
            | broke s2 pb2 st2 =>
              simp only
              apply ih
              have := hp.2.1
              simp at this; omega
        · -- LowSurrogate
          split_ifs with hc1
          · apply ih
            have := (checkLow_post o (s ++ pb.range st.i) r1.surrogate st.i.pos
              { st with i := i1 } (by simp; omega)).1
            rw [this]; simp; omega
          · rfl
        all_goals rfl

theorem parseString_isSome (o : ParsingOptions) (s : Bytes) (st : ParserImpl) :
    (parseString o s st).isSome = true :=
  parseStringLoop_isSome o _ _ _ _ (Nat.le_refl _)

theorem detectDigits_isSome (st : ParserImpl) (h : st.i.rest ≠ []) :
    (detectDigits st).isSome = true := by
  unfold detectDigits
  rcases st.i.rest_cases with hr | ⟨b, rest, hr⟩
  · exact absurd hr h
  · simp only [hr]; split_ifs <;> rfl

theorem parseNumberInteger_isSome (st : ParserImpl) (h : st.i.rest ≠ []) :
    (parseNumberInteger st).isSome = true := by
  unfold parseNumberInteger
  rcases st.i.rest_cases with hr | ⟨b, rest, hr⟩
  · exact absurd hr h
  · simp only [hr]; split_ifs <;> rfl

theorem parseNumberFraction_isSome (st : ParserImpl) :
    (parseNumberFraction st).isSome = true := by
  unfold parseNumberFraction
  rcases st.i.rest_cases with hr | ⟨b, rest, hr⟩
  · simp [hr]
  · have hne : st.i.rest ≠ [] := by simp [hr]
    simp only [hr]
    split_ifs with h1 h2
    · rfl
    · have ha := advanceAndDetectEndOfInput_false {} st hne (by simpa using h2)
      have := detectDigits_isSome st.advanceAndDetectEndOfInput.2 (by rw [ha.1]; exact ha.2.2.1)
      cases hd : detectDigits st.advanceAndDetectEndOfInput.2 with
      | none => simp [hd] at this
      | some x => obtain ⟨rd, sd⟩ := x; cases rd <;> rfl
    · rfl

theorem parseNumberExponent_isSome (st : ParserImpl) :
    (parseNumberExponent st).isSome = true := by
  unfold parseNumberExponent
  rcases st.i.rest_cases with hr | ⟨b, rest, hr⟩
  · simp [hr]
  · have hne : st.i.rest ≠ [] := by simp [hr]
    simp only [hr]
    split_ifs with h1 h2
    · rfl
    · have ha := advanceAndDetectEndOfInput_false {} st hne (by simpa using h2)
      rw [ha.1]
      rcases st.advance.i.rest_cases with hr2 | ⟨c, rest2, hr2⟩
      · exact absurd hr2 ha.2.2.1
      · simp only [hr2]
        by_cases hsign : c.val = 43 ∨ c.val = 45
        · simp only [hsign, if_true]
          by_cases h3 : st.advance.advanceAndDetectEndOfInput.1 = true
          · simp [h3]
          · have hb := advanceAndDetectEndOfInput_false {} st.advance ha.2.2.1 (by simpa using h3)
            simp only [h3, Bool.false_eq_true, if_false]
            rw [hb.1]
            have := detectDigits_isSome st.advance.advance hb.2.2.1
            cases hd : detectDigits st.advance.advance with
            | none => simp [hd] at this
            | some x => obtain ⟨rd, sd⟩ := x; cases rd <;> rfl
        · simp only [hsign, if_false, Bool.false_eq_true]
          have := detectDigits_isSome st.advance ha.2.2.1
          cases hd : detectDigits st.advance with
          | none => simp [hd] at this
          | some x => obtain ⟨rd, sd⟩ := x; cases rd <;> rfl
    · rfl

theorem parseNumberBody_isSome (begin : Ptr) (neg : Nat) (v : Value) (st : ParserImpl)
    (h : st.i.rest ≠ []) : (parseNumberBody begin neg v st).isSome = true := by
  unfold parseNumberBody
  have h1 := parseNumberInteger_isSome st h
  cases hi : parseNumberInteger st with
  | none => simp [hi] at h1
  | some x =>
    obtain ⟨ri, si⟩ := x
    cases ri
    · rfl
    · simp only
      have h2 := parseNumberFraction_isSome si
      cases hfr : parseNumberFraction si with
      | none => simp [hfr] at h2
      | some x =>
        obtain ⟨gf, df, sf⟩ := x
        cases gf
        · rfl
        · simp only
          have h3 := parseNumberExponent_isSome sf
          cases hex : parseNumberExponent sf with
          | none => simp [hex] at h3
          | some x =>
            obtain ⟨ge, de, se⟩ := x
            cases ge <;> rfl

theorem parseNumber_isSome (v : Value) (st : ParserImpl) (h : st.i.rest ≠ []) :
    (parseNumber v st).isSome = true := by
  unfold parseNumber
  rcases st.i.rest_cases with hr | ⟨b, rest, hr⟩
  · exact absurd hr h
  · simp only [hr]
    by_cases hm : b.val = 45
    · simp only [hm, if_true, ne_eq, one_ne_zero, not_false_eq_true]
      by_cases h1 : st.advanceAndDetectEndOfInput.1 = true
      · simp [h1]
      · have ha := advanceAndDetectEndOfInput_false {} st h (by simpa using h1)
        simp only [h1, Bool.false_eq_true, if_false]
        rw [ha.1]
        exact parseNumberBody_isSome _ _ _ _ ha.2.2.1
    · simp only [hm, if_false, ne_eq, not_true_eq_false, Bool.false_eq_true]
      exact parseNumberBody_isSome _ _ _ _ h

theorem endWs_length (o : ParsingOptions) (st : ParserImpl) :
    st.detectEndOfInputAfterSkippingWhitespaces.2.i.rest.length ≤ st.i.rest.length := by
  by_cases he : st.detectEndOfInputAfterSkippingWhitespaces.1 = true
  · exact ((post_endWs o st).1 he).cursorMoved.length_le
  · exact ((post_endWs o st).2 (by simpa using he)).1.cursor.length_le

theorem advance_length (st : ParserImpl) (h : st.i.rest ≠ []) :
    st.advance.i.rest.length + 1 = st.i.rest.length := Ptr.next_length h

theorem parser_total (o : ParsingOptions) (fuel : Nat) : TotalAll o fuel := by
  induction fuel with
  | zero =>
    refine ⟨?_, ?_, ?_, ?_, ?_, ?_⟩ <;> intros <;> first | omega | skip
    all_goals
      rename_i st hne hf
      have : st.i.rest.length = 0 := by omega
      exact absurd (List.length_eq_zero.mp this) hne
  | succ fuel ih =>
    obtain ⟨ihImpl, ihArr, ihRec, ihLoop, ihObj, ihMem⟩ := ih
    obtain ⟨pImpl, pArr, pRec, pLoop, pObj, pMem⟩ := parser_post o fuel
    refine ⟨?_, ?_, ?_, ?_, ?_, ?_⟩
    · -- parseImpl
      intro v st hne hf
      unfold parseImpl
      rcases st.i.rest_cases with hr | ⟨b, rest, hr⟩
      · exact absurd hr hne
      · simp only [hr]
        split_ifs with h1 h2 h3 h4 h5 h6
        · rfl
        · rfl
        · rfl
        · have := parseString_isSome o [] st
          cases hs : parseString o [] st with
          | none => simp [hs] at this
          | some x => rfl
        · exact ihArr _ _ hne (by omega)
        · exact ihObj _ _ hne (by omega)
        · exact parseNumber_isSome _ _ hne
    · -- parseArray
      intro v st hne hf
      unfold parseArray
      have hl0 := advance_length st hne
      have hl1 := endWs_length o st.advance
      simp only
      by_cases he : st.advance.detectEndOfInputAfterSkippingWhitespaces.1 = true
      · simp [he]
      · simp only [he, Bool.false_eq_true, if_false]
        have hne2 := ((post_endWs o st.advance).2 (by simpa using he)).2
        rcases st.advance.detectEndOfInputAfterSkippingWhitespaces.2.i.rest_cases with
          hr | ⟨b, rest, hr⟩
        · exact absurd hr hne2
        · simp only [hr]
          by_cases h1 : b.val = 93
          · simp [h1]
          · simp only [h1, if_false]
            have := ihRec [] .null 1 st.advance.detectEndOfInputAfterSkippingWhitespaces.2 hne2
              (by omega)
            cases hm : parseArrayMembersRecursion o fuel [] .null 1
                st.advance.detectEndOfInputAfterSkippingWhitespaces.2 with
            | none => rw [hm] at this; simp at this
            | some x => obtain ⟨rm, am, um, sm⟩ := x; cases rm <;> rfl
    · -- parseArrayMembersRecursion
      intro a v size st hne hf
      unfold parseArrayMembersRecursion
      have h1 := ihImpl v st hne (by omega)
      cases hi : parseImpl o fuel v st with
      | none => rw [hi] at h1; simp at h1
      | some x =>
        obtain ⟨ri, vi, si⟩ := x
        have hp := pImpl _ _ _ _ _ hi
        cases ri
        · rfl
        · simp only
          have hl1 := hp.lt
          have hl2 := endWs_length o si
          by_cases he : si.detectEndOfInputAfterSkippingWhitespaces.1 = true
          · simp [he]
          simp only [he, Bool.false_eq_true, if_false]
          have hne2 := ((post_endWs o si).2 (by simpa using he)).2
          rcases si.detectEndOfInputAfterSkippingWhitespaces.2.i.rest_cases with
            hr | ⟨b, rest, hr⟩
          · exact absurd hr hne2
          · simp only [hr]
            have hl3 := advance_length _ hne2
            have hl4 := endWs_length o si.detectEndOfInputAfterSkippingWhitespaces.2.advance
            by_cases h2 : b.val = 93
            · simp [h2]
            simp only [h2, if_false]
            by_cases h3 : b.val = 44
            swap
            · simp [h3]
            simp only [h3, if_true]
            by_cases h4 : si.detectEndOfInputAfterSkippingWhitespaces.2.advance.detectEndOfInputAfterSkippingWhitespaces.1 = true
            · simp [h4]
            simp only [h4, Bool.false_eq_true, if_false]
            have hne3 := ((post_endWs o
              si.detectEndOfInputAfterSkippingWhitespaces.2.advance).2 (by simpa using h4)).2
            by_cases h5 : size > 42
            · simp only [h5, if_true]
              have := ihLoop (resize a (size + 1)) _ hne3 (by omega)
              cases hm : parseArrayMembersLoop o fuel (resize a (size + 1))
                  si.detectEndOfInputAfterSkippingWhitespaces.2.advance.detectEndOfInputAfterSkippingWhitespaces.2 with
              | none => rw [hm] at this; simp at this
              | some x => rfl
            · simp only [h5, if_false]
              have := ihRec a .null (size + 1) _ hne3 (by omega)
              cases hm : parseArrayMembersRecursion o fuel a .null (size + 1)
                  si.detectEndOfInputAfterSkippingWhitespaces.2.advance.detectEndOfInputAfterSkippingWhitespaces.2 with
              | none => rw [hm] at this; simp at this
              | some x => obtain ⟨rm, am, um, sm⟩ := x; cases rm <;> rfl
    · -- parseArrayMembersLoop
      intro a st hne hf
      unfold parseArrayMembersLoop
      have h1 := ihImpl (a.getLastD .null) st hne (by omega)
      cases hi : parseImpl o fuel (a.getLastD .null) st with
      | none => rw [hi] at h1; simp at h1
      | some x =>
        obtain ⟨ri, vi, si⟩ := x
        have hp := pImpl _ _ _ _ _ hi
        cases ri
        · rfl
        · simp only
          have hl1 := hp.lt
          have hl2 := endWs_length o si
          by_cases he : si.detectEndOfInputAfterSkippingWhitespaces.1 = true
          · simp [he]
          simp only [he, Bool.false_eq_true, if_false]
          have hne2 := ((post_endWs o si).2 (by simpa using he)).2
          rcases si.detectEndOfInputAfterSkippingWhitespaces.2.i.rest_cases with
            hr | ⟨b, rest, hr⟩
          · exact absurd hr hne2
          · simp only [hr]
            have hl3 := advance_length _ hne2
            have hl4 := endWs_length o si.detectEndOfInputAfterSkippingWhitespaces.2.advance
            by_cases h2 : b.val = 93
            · simp [h2]
            simp only [h2, if_false]
            by_cases h3 : b.val = 44
            swap
            · simp [h3]
            simp only [h3, if_true]
            by_cases h4 : si.detectEndOfInputAfterSkippingWhitespaces.2.advance.detectEndOfInputAfterSkippingWhitespaces.1 = true
            · simp [h4]
            simp only [h4, Bool.false_eq_true, if_false]
            have hne3 := ((post_endWs o
              si.detectEndOfInputAfterSkippingWhitespaces.2.advance).2 (by simpa using h4)).2
            exact ihLoop _ _ hne3 (by omega)
    · -- parseObject
      intro v st hne hf
      unfold parseObject
      have hl0 := advance_length st hne
      have hl1 := endWs_length o st.advance
      simp only
      by_cases he : st.advance.detectEndOfInputAfterSkippingWhitespaces.1 = true
      · simp [he]
      · simp only [he, Bool.false_eq_true, if_false]
        have hne2 := ((post_endWs o st.advance).2 (by simpa using he)).2
        rcases st.advance.detectEndOfInputAfterSkippingWhitespaces.2.i.rest_cases with
          hr | ⟨b, rest, hr⟩
        · exact absurd hr hne2
        · simp only [hr]
          by_cases h1 : b.val = 125
          · simp [h1]
          · simp only [h1, if_false]
            have := ihMem [] st.advance.detectEndOfInputAfterSkippingWhitespaces.2 hne2
              (by omega)
            cases hm : parseObjectMembers o fuel []
                st.advance.detectEndOfInputAfterSkippingWhitespaces.2 with
            | none => rw [hm] at this; simp at this
            | some x => rfl
    · -- parseObjectMembers
      intro ob st hne hf
      unfold parseObjectMembers
      rcases st.i.rest_cases with hr | ⟨b, rest, hr⟩
      · exact absurd hr hne
      · simp only [hr]
        by_cases h1 : b.val = 34
        swap
        · simp [h1]
        simp only [ne_eq, h1, not_true_eq_false, if_false]
        have hs := parseString_isSome o [] st
        cases hk : parseString o [] st with
        | none => simp [hk] at hs
        | some x =>
          obtain ⟨rs, key, s1⟩ := x
          have hp := post_parseString o _ _ _ _ _ hne hk
          cases rs
          · rfl
          · simp only
            have hl1 := hp.lt
            have hl2 := endWs_length o s1
            by_cases he : s1.detectEndOfInputAfterSkippingWhitespaces.1 = true
            · simp [he]
            simp only [he, Bool.false_eq_true, if_false]
            have hne2 := ((post_endWs o s1).2 (by simpa using he)).2
            rcases s1.detectEndOfInputAfterSkippingWhitespaces.2.i.rest_cases with
              hr2 | ⟨c, rest2, hr2⟩
            · exact absurd hr2 hne2
            · simp only [hr2]
              have hl3 := advance_length _ hne2
              have hl4 := endWs_length o s1.detectEndOfInputAfterSkippingWhitespaces.2.advance
              by_cases h2 : c.val = 58
              swap
              · simp [h2]
              simp only [ne_eq, h2, not_true_eq_false, if_false]
              by_cases h3 : s1.detectEndOfInputAfterSkippingWhitespaces.2.advance.detectEndOfInputAfterSkippingWhitespaces.1 = true
              · simp [h3]
              simp only [h3, Bool.false_eq_true, if_false]
              have hne3 := ((post_endWs o
                s1.detectEndOfInputAfterSkippingWhitespaces.2.advance).2 (by simpa using h3)).2
              by_cases h4 : (!(tryEmplace ob key).2) = true ∧ o.duplicateObjectKeys = .Fail
              · rw [if_pos h4]; rfl
              rw [if_neg h4]
              have hst : ∀ (c : Prop) [Decidable c] (p : Nat) (d : String)
                  (code : ParsingIssue.Code) (s : ParserImpl),
                  (if c then s.addIssueAt p d code else s).i = s.i := by
                intro c _ p d code s; split_ifs <;> rfl
              have hv := ihImpl ((Object.find key (tryEmplace ob key).1).getD Value.null)
                (if (!(tryEmplace ob key).2) = true ∧ o.duplicateObjectKeys ≠ .Ignore then
                  s1.detectEndOfInputAfterSkippingWhitespaces.2.advance.detectEndOfInputAfterSkippingWhitespaces.2.addIssueAt
                    st.i.pos "JSON object contains duplicate keys" .DuplicateKeys
                else s1.detectEndOfInputAfterSkippingWhitespaces.2.advance.detectEndOfInputAfterSkippingWhitespaces.2)
                (by rw [hst]; exact hne3) (by rw [hst]; omega)
              cases hvv : parseImpl o fuel
                  ((Object.find key (tryEmplace ob key).1).getD Value.null)
                  (if (!(tryEmplace ob key).2) = true ∧ o.duplicateObjectKeys ≠ .Ignore then
                    s1.detectEndOfInputAfterSkippingWhitespaces.2.advance.detectEndOfInputAfterSkippingWhitespaces.2.addIssueAt
                      st.i.pos "JSON object contains duplicate keys" .DuplicateKeys
                  else s1.detectEndOfInputAfterSkippingWhitespaces.2.advance.detectEndOfInputAfterSkippingWhitespaces.2) with
              | none => rw [hvv] at hv; simp at hv
              | some x =>
                obtain ⟨rv, w, sv⟩ := x
                have hq := pImpl _ _ _ _ _ hvv
                cases rv
                · rfl
                · simp only
                  have hl5 := hq.lt
                  rw [hst] at hl5
                  have hl6 := endWs_length o sv
                  by_cases he3 : sv.detectEndOfInputAfterSkippingWhitespaces.1 = true
                  · simp [he3]
                  simp only [he3, Bool.false_eq_true, if_false]
                  have hne4 := ((post_endWs o sv).2 (by simpa using he3)).2
                  rcases sv.detectEndOfInputAfterSkippingWhitespaces.2.i.rest_cases with
                    hr3 | ⟨d, rest3, hr3⟩
                  · exact absurd hr3 hne4
                  · simp only [hr3]
                    have hl7 := advance_length _ hne4
                    have hl8 := endWs_length o
                      sv.detectEndOfInputAfterSkippingWhitespaces.2.advance
                    by_cases h5 : d.val = 125
                    · simp [h5]
                    simp only [h5, if_false]
                    by_cases h6 : d.val = 44
                    swap
                    · simp [h6]
                    simp only [h6, if_true]
                    by_cases h7 : sv.detectEndOfInputAfterSkippingWhitespaces.2.advance.detectEndOfInputAfterSkippingWhitespaces.1 = true
                    · simp [h7]
                    simp only [h7, Bool.false_eq_true, if_false]
                    have hne5 := ((post_endWs o
                      sv.detectEndOfInputAfterSkippingWhitespaces.2.advance).2
                      (by simpa using h7)).2
                    exact ihMem _ _ hne5 (by omega)

theorem Ptr.Reach.eq_drop {input : Bytes} {q : Ptr} (h : Ptr.Reach ⟨0, input⟩ q) :
    q.pos ≤ input.length ∧ q.rest = input.drop q.pos := by
  obtain ⟨c, ha, hb⟩ := h
  simp only at ha hb
  subst ha
  simp [hb]

/-- What `ParserImpl::parse` returns, from any state and with any budget. -/
theorem parserParse_post (o : ParsingOptions) (fuel : Nat) (v : Value) (st : ParserImpl)
    (r : Bool) (v' : Value) (st' : ParserImpl)
    (h : ParserImpl.parse o fuel v st = some (r, v', st')) : Post o st r st' := by
  unfold ParserImpl.parse at h
  simp only at h
  by_cases he : st.detectEndOfInputAfterSkippingWhitespaces.1 = true
  · simp only [he, if_true, Option.some.injEq, Prod.mk.injEq] at h
    obtain ⟨rfl, rfl, rfl⟩ := h
    exact Post.of_fail ((post_endWs o st).1 he)
  · simp only [he, Bool.false_eq_true, if_false] at h
    exact Post.after ((post_endWs o st).2 (by simpa using he)).1 ((parser_post o fuel).1 _ _ _ _ _ h)

theorem parserParse_isSome (o : ParsingOptions) (fuel : Nat) (v : Value) (st : ParserImpl)
    (hf : 3 * st.i.rest.length + 1 ≤ fuel) : (ParserImpl.parse o fuel v st).isSome = true := by
  unfold ParserImpl.parse
  simp only
  by_cases he : st.detectEndOfInputAfterSkippingWhitespaces.1 = true
  · simp [he]
  · simp only [he, Bool.false_eq_true, if_false]
    have := endWs_length o st
    exact (parser_total o fuel).1 _ _ ((post_endWs o st).2 (by simpa using he)).2 (by omega)

theorem implParse_isSome (input : Bytes) (o : ParsingOptions) :
    (impl.parse input o).isSome = true := by
  unfold impl.parse
  have := parserParse_isSome o (3 * input.length + 1) .null { i := ⟨0, input⟩, issues := [] }
    (Nat.le_refl _)
  cases h : ParserImpl.parse o (3 * input.length + 1) .null { i := ⟨0, input⟩, issues := [] } with
  | none => rw [h] at this; simp at this
  | some x => rfl

/-- C6: `parse` is total. For every byte sequence, all options and both modes the embedding
returns a result (with its status); since the embedding returns `none` as soon as a byte
outside the input would be read or a recursion budget is used up, neither happens. -/
theorem parse_total (input : Bytes) (options : ParsingOptions) (mode : ParsingMode) :
    ∃ result : ParsingResult, parse input options mode = some result := by
  unfold parse
  have := implParse_isSome input options
  cases h : impl.parse input options with
  | none => rw [h] at this; simp at this
  | some r =>
    simp only
    split_ifs <;> exact ⟨_, rfl⟩

/-- What `impl::parse` returns: the final state of the parser, which lies at `parsedSize` in
the input, and how it relates to the result. -/
theorem implParse_post (input : Bytes) (o : ParsingOptions) (res : ParsingResult)
    (h : impl.parse input o = some res) :
    res.parsedSize ≤ input.length ∧
    ∃ r, res.status = (if r then .Success else .Failure) ∧
      Post o { i := ⟨0, input⟩, issues := [] } r
        { i := ⟨res.parsedSize, input.drop res.parsedSize⟩, issues := res.issues } := by
  unfold impl.parse at h
  cases hp : ParserImpl.parse o (3 * input.length + 1) .null { i := ⟨0, input⟩, issues := [] } with
  | none => rw [hp] at h; simp at h
  | some x =>
    obtain ⟨r, v, st'⟩ := x
    rw [hp] at h
    simp only [Option.some.injEq] at h
    subst h
    have hpost := parserParse_post o _ _ _ _ _ _ hp
    have hreach : Ptr.Reach ⟨0, input⟩ st'.i := by
      cases r
      · exact hpost.failed.cursorMoved
      · exact hpost.ok.cursor
    obtain ⟨h1, h2⟩ := hreach.eq_drop
    refine ⟨h1, r, rfl, ?_⟩
    have e : ({ i := ⟨st'.parsedSize, input.drop st'.parsedSize⟩, issues := st'.issues }
        : ParserImpl) = st' := by
      cases st' with
      | mk i issues =>
        cases i with
        | mk pos rest =>
          simp only [parsedSize] at h2 ⊢
          rw [← h2]
    simp only
    rw [e]
    exact hpost

theorem isWhitespaceB_iff (b : Byte) : isWhitespaceB b = true ↔ isWhitespace b := by
  simp [isWhitespaceB, isWhitespace]

theorem dropWhile_eq_nil_iff_all (l : Bytes) :
    l.dropWhile isWhitespaceB = [] ↔ ∀ b ∈ l, isWhitespace b := by
  induction l with
  | nil => simp
  | cons b rest ih =>
    by_cases hb : isWhitespaceB b = true
    · simp [List.dropWhile_cons, hb, ih, (isWhitespaceB_iff b).mp hb]
    · have : ¬ isWhitespace b := fun h => hb ((isWhitespaceB_iff b).mpr h)
      simp [List.dropWhile_cons, hb, this]

theorem takeWhile_all_whitespace (l : Bytes) :
    ∀ b ∈ l.takeWhile isWhitespaceB, isWhitespace b := by
  intro b hb
  exact (isWhitespaceB_iff b).mp (List.mem_takeWhile_imp hb)

theorem dropWhile_head_not_whitespace (l : Bytes) (b : Byte) (rest : Bytes)
    (h : l.dropWhile isWhitespaceB = b :: rest) : ¬ isWhitespace b := by
  intro hb
  have := List.head_dropWhile_not isWhitespaceB l (by rw [h]; simp)
  simp [h, (isWhitespaceB_iff b).mpr hb] at this

/-- The input around the trailing run of whitespace that starts at `p`. -/
theorem input_split (input : Bytes) (p : Nat) :
    input = input.take p ++ ((input.drop p).takeWhile isWhitespaceB ++
      (input.drop p).dropWhile isWhitespaceB) := by
  rw [List.takeWhile_append_dropWhile, List.take_append_drop]

theorem getElem?_of_split (l a b c : Bytes) (n : Nat) (h : l = a ++ (b ++ c))
    (hn : a.length = n) :
    (∀ k, n ≤ k → k < n + b.length → ∃ x, l[k]? = some x ∧ x ∈ b) ∧
    l[n + b.length]? = c.head? := by
  subst h hn
  constructor
  · intro k h1 h2
    have hk : k - a.length < b.length := by omega
    refine ⟨b[k - a.length], ?_, List.getElem_mem _⟩
    rw [List.getElem?_append_right h1, List.getElem?_append_left hk,
      List.getElem?_eq_getElem hk]
  · rw [List.getElem?_append_right (by omega), List.getElem?_append_right (by omega)]
    cases c <;> simp

/-- C7: when `parse` in the mode `StopAfterValueEnds` returns `Success` with `parsedSize = p`,
`parse` in the mode `VerifyTrailingWhitespace` returns the same value and: if all bytes from `p`
on are whitespace, `Success`, `parsedSize` the input length and the same issues; otherwise
`PartialSuccess`, `parsedSize = q` for the offset `q` of the first byte at or after `p` that is
not whitespace, and the same issues followed by one issue of code `Other` and offset `q`. -/
theorem parse_verify_of_stop (input : Bytes) (options : ParsingOptions) (r : ParsingResult)
    (h : parse input options .StopAfterValueEnds = some r) (hs : r.status = .Success) :
    ((∀ b ∈ input.drop r.parsedSize, isWhitespace b) →
      parse input options .VerifyTrailingWhitespace =
        some { r with parsedSize := input.length }) ∧
    (¬(∀ b ∈ input.drop r.parsedSize, isWhitespace b) →
      ∃ q, r.parsedSize ≤ q ∧ q < input.length ∧
        (∀ k, r.parsedSize ≤ k → k < q → ∃ b, input[k]? = some b ∧ isWhitespace b) ∧
        (∃ b, input[q]? = some b ∧ ¬ isWhitespace b) ∧
        parse input options .VerifyTrailingWhitespace = some
          { value := r.value
            status := .PartialSuccess
            parsedSize := q
            issues := r.issues ++
              [{ offset := q
                 description := "non-whitespace characters after a valid JSON value"
                 code := .Other }] }) := by
  have hi : impl.parse input options = some r := by
    unfold parse at h
    cases hp : impl.parse input options with
    | none => rw [hp] at h; simp at h
    | some x =>
      rw [hp] at h
      simpa using h
  have hle := (implParse_post input options r hi).1
  have hsplit := input_split input r.parsedSize
  have hlen : (input.take r.parsedSize).length = r.parsedSize := by
    simp [List.length_take, hle]
  constructor
  · intro hall
    have hd := (dropWhile_eq_nil_iff_all _).mpr hall
    have ht : ((input.drop r.parsedSize).takeWhile isWhitespaceB).length
        = input.length - r.parsedSize := by
      have := congrArg List.length
        (List.takeWhile_append_dropWhile isWhitespaceB (input.drop r.parsedSize))
      simp [hd] at this
      omega
    unfold parse
    simp only [hi, hs, skipWhitespaces, skipWhitespacesFrom_eq, hd, ht, and_self, if_true,
      decide_True, Bool.not_true, Bool.false_eq_true, if_false]
    congr 2
    omega
  · intro hnot
    have hd : (input.drop r.parsedSize).dropWhile isWhitespaceB ≠ [] :=
      fun e => hnot ((dropWhile_eq_nil_iff_all _).mp e)
    obtain ⟨b, rest, hbr⟩ := List.exists_cons_of_ne_nil hd
    have hnb := dropWhile_head_not_whitespace _ _ _ hbr
    refine ⟨r.parsedSize + ((input.drop r.parsedSize).takeWhile isWhitespaceB).length,
      by omega, ?_, ?_, ?_, ?_⟩
    · have := congrArg List.length hsplit
      rw [hbr] at this
      simp only [List.length_append, List.length_cons, hlen] at this
      omega
    · intro k hk1 hk2
      obtain ⟨x, hx, hm⟩ := (getElem?_of_split _ _ _ _ _ hsplit hlen).1 k hk1 hk2
      exact ⟨x, hx, takeWhile_all_whitespace _ _ hm⟩
    · refine ⟨b, ?_, hnb⟩
      rw [(getElem?_of_split _ _ _ _ _ hsplit hlen).2, hbr]
      rfl
    · unfold parse
      simp only [hi, hs, skipWhitespaces, skipWhitespacesFrom_eq, hd, and_self, if_true,
        decide_False, Bool.not_false]

/-- C7 at the input `1 x`, where the value ends at offset 1 and the first byte that is not
whitespace after it is at offset 2. -/
theorem parse_verify_of_stop_witness :
    parse [49, 32, 120] {} .StopAfterValueEnds = some
      { value := .int64 ⟨1, by decide⟩, status := .Success, parsedSize := 1, issues := [] } ∧
    ∃ q, 1 ≤ q ∧ q < 3 ∧
      (∀ k, 1 ≤ k → k < q → ∃ b, ([49, 32, 120] : Bytes)[k]? = some b ∧ isWhitespace b) ∧
      (∃ b, ([49, 32, 120] : Bytes)[q]? = some b ∧ ¬ isWhitespace b) ∧
      parse [49, 32, 120] {} .VerifyTrailingWhitespace = some
        { value := .int64 ⟨1, by decide⟩
          status := .PartialSuccess
          parsedSize := q
          issues := [{ offset := q
                       description := "non-whitespace characters after a valid JSON value"
                       code := .Other }] } :=
  ⟨by decide!,
    (parse_verify_of_stop [49, 32, 120] {}
      { value := .int64 ⟨1, by decide⟩, status := .Success, parsedSize := 1, issues := [] }
      (by decide!) rfl).2 (by decide!)⟩

/-- What `parse` returns in either mode, from what `impl::parse` returns. -/
theorem parse_cases (input : Bytes) (o : ParsingOptions) (mode : ParsingMode)
    (r : ParsingResult) (h : parse input o mode = some r) :
    ∃ res, impl.parse input o = some res ∧
      (res.status = .Failure → r = res) ∧
      (res.status = .Success → mode = .VerifyTrailingWhitespace →
        (r.status = .Success ∨ r.status = .PartialSuccess) ∧
        (r.status = .Success → r.parsedSize = input.length)) ∧
      (res.status = .Success → mode = .StopAfterValueEnds → r = res) := by
  unfold parse at h
  cases hp : impl.parse input o with
  | none => rw [hp] at h; simp at h
  | some res =>
    rw [hp] at h
    have hle := (implParse_post input o res hp).1
    refine ⟨res, rfl, ?_, ?_, ?_⟩
    · intro hs
      simp only at h
      have hn : ¬(res.status = .Success ∧ mode = .VerifyTrailingWhitespace) :=
        fun hh => absurd (hs.symm.trans hh.1) (by decide)
      rw [if_neg hn] at h
      exact (Option.some.inj h).symm
    · intro hs hm
      simp only [hs, hm, and_self, if_true, skipWhitespaces, skipWhitespacesFrom_eq] at h
      by_cases hd : (input.drop res.parsedSize).dropWhile isWhitespaceB = []
      · simp only [hd, decide_True, Bool.not_true, Bool.false_eq_true, if_false,
          Option.some.injEq] at h
        subst h
        refine ⟨Or.inl rfl, fun _ => ?_⟩
        have := congrArg List.length
          (List.takeWhile_append_dropWhile isWhitespaceB (input.drop res.parsedSize))
        simp [hd] at this
        show res.parsedSize + _ = _
        omega
      · simp only [hd, decide_False, Bool.not_false, if_true, Option.some.injEq] at h
        subst h
        exact ⟨Or.inr rfl, fun h => by simp at h⟩
    · intro hs hm
      simp only at h
      have hn : ¬(res.status = .Success ∧ mode = .VerifyTrailingWhitespace) :=
        fun hh => absurd (hm.symm.trans hh.2) (by decide)
      rw [if_neg hn] at h
      exact (Option.some.inj h).symm

/-- C3 as the code has it: the input `{"a":1,"a":2}` parsed with the default options fails
with the issue `DuplicateKeys` at offset 7, the offset of the second key, and `parsedSize` is
11, the offset of the second member's value. -/
theorem parse_duplicate_key_parsedSize :
    (parse [123, 34, 97, 34, 58, 49, 44, 34, 97, 34, 58, 50, 125]).map
      (fun r => (r.status, r.parsedSize, r.issues.map (fun x => (x.offset, x.code)))) =
    some (.Failure, 11, [(7, .DuplicateKeys)]) := by
  decide!

/-- When `parse` returns `Failure`, the issues end with the one that stopped the
parse, all issues before it are reports that lie before `parsedSize`, and the last one lies
against `parsedSize` by its code: `InvalidCharacter` is at `parsedSize`, inside the input;
`UnexpectedEndOfInput` is at `parsedSize`, the input length; `DuplicateKeys`,
`ParsedNumberOutOfRange` and the two unpaired surrogate codes are before `parsedSize`; the code
is never `Other`.  When `parse` in the mode `VerifyTrailingWhitespace` returns `Success`,
`parsedSize` is the input length. -/
theorem parse_failure_stops (input : Bytes) (o : ParsingOptions) (mode : ParsingMode)
    (r : ParsingResult) (h : parse input o mode = some r) :
    (r.status = .Failure →
      r.parsedSize ≤ input.length ∧
      ∃ rep x, r.issues = rep ++ [x] ∧
        (∀ y ∈ rep, ReportKind o y ∧ y.offset < r.parsedSize) ∧
        x.offset ≤ r.parsedSize ∧
        x.code ≠ .Other ∧
        (x.code = .InvalidCharacter → x.offset = r.parsedSize ∧ r.parsedSize < input.length) ∧
        (x.code = .UnexpectedEndOfInput →
          x.offset = r.parsedSize ∧ r.parsedSize = input.length) ∧
        (x.code = .DuplicateKeys ∨ x.code = .ParsedNumberOutOfRange ∨
          x.code = .StringContainsUnpairedUtf16HighSurrogate ∨
          x.code = .StringContainsUnpairedUtf16LowSurrogate → x.offset < r.parsedSize)) ∧
    (mode = .VerifyTrailingWhitespace → r.status = .Success → r.parsedSize = input.length) := by
  obtain ⟨res, hi, hF, hV, hS⟩ := parse_cases input o mode r h
  obtain ⟨hle, b, hst, hpost⟩ := implParse_post input o res hi
  constructor
  · intro hs
    cases b with
    | true =>
      have hs2 : res.status = .Success := by simpa using hst
      cases mode with
      | StopAfterValueEnds =>
        have := hS hs2 rfl
        subst this
        rw [hs] at hs2
        exact absurd hs2 (by decide)
      | VerifyTrailingWhitespace =>
        rcases (hV hs2 rfl).1 with h1 | h1 <;> rw [hs] at h1 <;> exact absurd h1 (by decide)
    | false =>
      have hs2 : res.status = .Failure := by simpa using hst
      have := hF hs2
      subst this
      refine ⟨hle, ?_⟩
      obtain ⟨-, rep, x, hiss, hrep, hx⟩ := hpost.failed
      simp only [List.nil_append] at hiss
      have hlen : (input.drop r.parsedSize).length = input.length - r.parsedSize :=
        List.length_drop _ _
      refine ⟨rep, x, hiss, hrep, ?_⟩
      unfold Stops at hx
      cases hc : x.code <;> rw [hc] at hx <;> simp only at hx
      · refine ⟨hx.1.le, by simp, fun _ => ⟨hx.1, ?_⟩, by simp, by simp⟩
        have h2 := hx.2
        rw [← List.length_pos] at h2
        omega
      · refine ⟨hx.1.le, by simp, by simp, fun _ => ⟨hx.1, ?_⟩, by simp⟩
        have h2 := congrArg List.length hx.2
        simp only [List.length_nil] at h2
        omega
      · exact ⟨hx, by simp, by simp, by simp, by simp⟩
      · exact ⟨hx.le, by simp, by simp, by simp, fun _ => hx⟩
      · exact ⟨hx.2.le, by simp, by simp, by simp, fun _ => hx.2⟩
      · exact ⟨hx.2.le, by simp, by simp, by simp, fun _ => hx.2⟩
      · exact ⟨hx.2.le, by simp, by simp, by simp, fun _ => hx.2⟩
  · intro hm hs
    obtain ⟨hle, b, hst, hpost⟩ := implParse_post input o res hi
    cases b with
    | false =>
      have hs2 : res.status = .Failure := by simpa using hst
      have := hF hs2
      subst this
      rw [hs] at hs2
      exact absurd hs2 (by decide)
    | true =>
      have hs2 : res.status = .Success := by simpa using hst
      exact (hV hs2 hm).2 hs

theorem isDecimalDigit_iff (b : Byte) : isDecimalDigit b = true ↔ 48 ≤ b.val ∧ b.val ≤ 57 := by
  simp [isDecimalDigit]

theorem foldl_digits (ds : Bytes) (n : Nat) :
    ds.foldl (fun n d => 10 * n + (d.val - 48)) n
      = n * 10 ^ ds.length + ds.foldl (fun n d => 10 * n + (d.val - 48)) 0 := by
  induction ds generalizing n with
  | nil => simp
  | cons d ds ih =>
    simp only [List.foldl_cons, List.length_cons]
    rw [ih, ih (10 * 0 + (d.val - 48))]
    ring

theorem digitsValue_cons (d : Byte) (ds : Bytes) :
    digitsValue (d :: ds) = (d.val - 48) * 10 ^ ds.length + digitsValue ds := by
  unfold digitsValue
  rw [List.foldl_cons, foldl_digits]
  simp

theorem digitsValue_lt (ds : Bytes) (h : ∀ d ∈ ds, isDecimalDigit d = true) :
    digitsValue ds < 10 ^ ds.length := by
  induction ds with
  | nil => simp [digitsValue]
  | cons d ds ih =>
    rw [digitsValue_cons]
    have h1 := (isDecimalDigit_iff d).mp (h d (List.mem_cons_self _ _))
    have h2 := ih (fun x hx => h x (List.mem_cons_of_mem _ hx))
    have h3 : (d.val - 48) * 10 ^ ds.length ≤ 9 * 10 ^ ds.length :=
      Nat.mul_le_mul_right _ (by omega)
    simp only [List.length_cons, pow_succ]
    omega

theorem digitsValue_ge (d : Byte) (ds : Bytes) (h : 49 ≤ d.val) :
    10 ^ ds.length ≤ digitsValue (d :: ds) := by
  rw [digitsValue_cons]
  have h3 : 1 * 10 ^ ds.length ≤ (d.val - 48) * 10 ^ ds.length :=
    Nat.mul_le_mul_right _ (by omega)
  omega

theorem stringViewLe_iff (a b : Bytes) (hl : a.length = b.length)
    (ha : ∀ d ∈ a, isDecimalDigit d = true) (hb : ∀ d ∈ b, isDecimalDigit d = true) :
    stringViewLe a b = true ↔ digitsValue a ≤ digitsValue b := by
  induction a generalizing b with
  | nil =>
    cases b with
    | nil => simp [stringViewLe]
    | cons _ _ => simp at hl
  | cons x a ih =>
    cases b with
    | nil => simp at hl
    | cons y b =>
      have hl2 : a.length = b.length := by simpa using hl
      have hx := (isDecimalDigit_iff x).mp (ha x (List.mem_cons_self _ _))
      have hy := (isDecimalDigit_iff y).mp (hb y (List.mem_cons_self _ _))
      have ha2 := digitsValue_lt a (fun z hz => ha z (List.mem_cons_of_mem _ hz))
      have hb2 := digitsValue_lt b (fun z hz => hb z (List.mem_cons_of_mem _ hz))
      have ih2 := ih b hl2 (fun z hz => ha z (List.mem_cons_of_mem _ hz))
        (fun z hz => hb z (List.mem_cons_of_mem _ hz))
      rw [digitsValue_cons, digitsValue_cons, hl2]
      rw [hl2] at ha2
      generalize 10 ^ b.length = p at ha2 hb2 ⊢
      unfold stringViewLe
      by_cases h1 : x.val < y.val
      · simp only [h1, if_true, true_iff]
        have : (x.val - 48 + 1) * p ≤ (y.val - 48) * p := Nat.mul_le_mul_right _ (by omega)
        rw [Nat.add_mul] at this
        omega
      · by_cases h2 : y.val < x.val
        · simp only [h1, h2, if_true, if_false, Bool.false_eq_true, false_iff]
          have : (y.val - 48 + 1) * p ≤ (x.val - 48) * p := Nat.mul_le_mul_right _ (by omega)
          rw [Nat.add_mul] at this
          omega
        · have e : x.val = y.val := by omega
          rw [if_neg h1, if_neg h2, ih2, e]
          exact Nat.add_le_add_iff_left.symm

theorem takeWhile_digits_append (ds s : Bytes) (hd : ∀ d ∈ ds, isDecimalDigit d = true)
    (hs : InertEnd s) :
    (ds ++ s).takeWhile isDecimalDigit = ds ∧ (ds ++ s).dropWhile isDecimalDigit = s := by
  induction ds with
  | nil =>
    cases s with
    | nil => simp
    | cons b s =>
      have := (hs b rfl).1
      simp [List.takeWhile_cons, List.dropWhile_cons, this]
  | cons d ds ih =>
    have h1 := hd d (List.mem_cons_self _ _)
    have h2 := ih (fun x hx => hd x (List.mem_cons_of_mem _ hx))
    simp [List.takeWhile_cons, List.dropWhile_cons, h1, h2]

theorem or_0x20_eq (b : Byte) : b.val ||| 0x20 = 101 ↔ b.val = 101 ∨ b.val = 69 := by
  revert b
  decide!

theorem parseNumberFraction_inert (p : Nat) (s : Bytes) (iss : List ParsingIssue)
    (hs : InertEnd s) :
    parseNumberFraction ⟨⟨p, s⟩, iss⟩ = some (true, false, ⟨⟨p, s⟩, iss⟩) := by
  cases s with
  | nil => rfl
  | cons b s =>
    have := (hs b rfl).2.1
    simp only [parseNumberFraction, this, if_false]

theorem parseNumberExponent_inert (p : Nat) (s : Bytes) (iss : List ParsingIssue)
    (hs : InertEnd s) :
    parseNumberExponent ⟨⟨p, s⟩, iss⟩ = some (true, false, ⟨⟨p, s⟩, iss⟩) := by
  cases s with
  | nil => rfl
  | cons b s =>
    have h1 := (hs b rfl).2.2
    have : ¬ (b.val ||| 0x20 = 101) := fun h => by
      rcases (or_0x20_eq b).mp h with h | h
      · exact h1.1 h
      · exact h1.2 h
    simp only [parseNumberExponent, this, if_false]

/-- The integer part of `parseNumber` on digits with no leading zero takes them all. -/
theorem parseNumberInteger_digits (p : Nat) (ds s : Bytes) (iss : List ParsingIssue)
    (hne : ds ≠ []) (hd : ∀ d ∈ ds, isDecimalDigit d = true)
    (hz : ds.head? = some 48 → ds = [48]) (hs : InertEnd s) :
    parseNumberInteger ⟨⟨p, ds ++ s⟩, iss⟩ = some (true, ⟨⟨p + ds.length, s⟩, iss⟩) := by
  cases ds with
  | nil => exact absurd rfl hne
  | cons d ds =>
    have h1 := (isDecimalDigit_iff d).mp (hd d (List.mem_cons_self _ _))
    by_cases h0 : d.val = 48
    · have hd0 : d = 48 := Fin.ext h0
      subst hd0
      have := hz rfl
      simp only [List.cons.injEq, true_and] at this
      subst this
      simp [parseNumberInteger, advance, Ptr.next]
    · have h2 := takeWhile_digits_append ds s (fun x hx => hd x (List.mem_cons_of_mem _ hx)) hs
      have h3 : 49 ≤ d.val ∧ d.val ≤ 57 := by omega
      simp only [parseNumberInteger, List.cons_append, h0, if_false, h3, and_self, if_true,
        skipDigits, advance, Ptr.next, List.tail_cons, skipDigitsFrom_eq, h2.1, h2.2,
        List.length_cons]
      congr 4
      omega

/-- The member `parseNumber` after the sign, on the digits of an integer literal. -/
theorem parseNumberBody_digits (begin : Ptr) (isNegative : Nat) (v : Value) (p : Nat)
    (ds s : Bytes) (iss : List ParsingIssue)
    (hne : ds ≠ []) (hd : ∀ d ∈ ds, isDecimalDigit d = true)
    (hz : ds.head? = some 48 → ds = [48]) (hs : InertEnd s) :
    parseNumberBody begin isNegative v ⟨⟨p, ds ++ s⟩, iss⟩ =
      some (parseNumberConvert begin isNegative false v ⟨⟨p + ds.length, s⟩, iss⟩) := by
  unfold parseNumberBody
  rw [parseNumberInteger_digits p ds s iss hne hd hz hs]
  simp only [parseNumberFraction_inert _ _ _ hs, parseNumberExponent_inert _ _ _ hs,
    Bool.or_self]

/-- The member `parseNumber` on an integer literal: the whole literal is passed to the
conversion. -/
theorem parseNumber_intLiteral (neg : Bool) (v : Value) (p : Nat)
    (ds s : Bytes) (iss : List ParsingIssue)
    (hne : ds ≠ []) (hd : ∀ d ∈ ds, isDecimalDigit d = true)
    (hz : ds.head? = some 48 → ds = [48]) (hs : InertEnd s) :
    parseNumber v ⟨⟨p, intLiteral neg ds ++ s⟩, iss⟩ =
      some (parseNumberConvert ⟨p, intLiteral neg ds ++ s⟩ (if neg then 1 else 0) false v
        ⟨⟨p + (intLiteral neg ds).length, s⟩, iss⟩) := by
  cases neg with
  | false =>
    cases ds with
    | nil => exact absurd rfl hne
    | cons d ds =>
      have h1 := (isDecimalDigit_iff d).mp (hd d (List.mem_cons_self _ _))
      have h45 : ¬ d.val = 45 := by omega
      have := parseNumberBody_digits ⟨p, d :: ds ++ s⟩ 0 v p (d :: ds) s iss hne hd hz hs
      simpa [parseNumber, intLiteral, h45] using this
  | true =>
    cases ds with
    | nil => exact absurd rfl hne
    | cons d ds =>
      have := parseNumberBody_digits ⟨p, 45 :: (d :: ds ++ s)⟩ 1 v (p + 1) (d :: ds) s iss
        hne hd hz hs
      simp only [parseNumber, intLiteral, if_true, List.cons_append, List.nil_append,
        advanceAndDetectEndOfInput, detectEndOfInput, advance, Ptr.next, isEmpty,
        List.tail_cons, List.isEmpty_cons, Bool.false_eq_true, if_false, Byte.val_lit,
        List.length_cons]
      simp only [List.cons_append] at this
      simp only [Nat.reduceMod, if_true, ne_eq, one_ne_zero, not_false_eq_true]
      rw [this, if_neg Bool.false_ne_true]
      have e : p + 1 + (d :: ds).length = p + (ds.length + 1 + 1) := by
        simp only [List.length_cons]
        omega
      rw [e]

theorem inertEnd_nil : InertEnd [] := fun _ h => by simp at h

theorem maxValue_zero : (∀ d ∈ maxValue 0, isDecimalDigit d = true) ∧ (maxValue 0).length = 19 ∧
    digitsValue (maxValue 0) = 9223372036854775807 := by
  decide!

theorem maxValue_one : (∀ d ∈ maxValue 1, isDecimalDigit d = true) ∧ (maxValue 1).length = 19 ∧
    digitsValue (maxValue 1) = 9223372036854775808 := by
  decide!

/-- The test of `parseNumber` that chooses the conversion to `int64_t` holds exactly for the
literals whose value is an `int64_t`. -/
theorem intLiteral_test (neg : Bool) (ds s : Bytes)
    (hne : ds ≠ []) (hd : ∀ d ∈ ds, isDecimalDigit d = true)
    (hz : ds.head? = some 48 → ds = [48]) :
    (ds.length < 19 ∨ (ds.length = 19 ∧
      stringViewLe ((ds ++ s).take 19) (maxValue (if neg then 1 else 0)) = true)) ↔
    (-9223372036854775808 ≤ intLiteralValue neg ds ∧
      intLiteralValue neg ds ≤ 9223372036854775807) := by
  have hlt := digitsValue_lt ds hd
  rcases Nat.lt_trichotomy ds.length 19 with h | h | h
  · have : digitsValue ds < 10 ^ 18 :=
      lt_of_lt_of_le hlt (Nat.pow_le_pow_right (by decide) (by omega))
    have h2 : (digitsValue ds : Int) < 10 ^ 18 := by exact_mod_cast this
    simp only [h, true_or, true_iff, intLiteralValue]
    cases neg <;> simp only [if_true, if_false, Bool.false_eq_true] <;> constructor <;> omega
  · have ht : (ds ++ s).take 19 = ds := by
      rw [← h, List.take_left]
    have hno : ¬ ds.length < 19 := by omega
    simp only [hno, false_or, h, true_and, ht, intLiteralValue]
    cases neg with
    | false =>
      simp only [if_false, Bool.false_eq_true]
      rw [stringViewLe_iff ds _ (by rw [h, maxValue_zero.2.1]) hd maxValue_zero.1,
        maxValue_zero.2.2]
      omega
    | true =>
      simp only [if_true]
      rw [stringViewLe_iff ds _ (by rw [h, maxValue_one.2.1]) hd maxValue_one.1,
        maxValue_one.2.2]
      omega
  · have hno : ¬ ds.length < 19 := by omega
    have hno2 : ¬ ds.length = 19 := by omega
    simp only [hno, hno2, false_and, or_self, false_iff, intLiteralValue]
    cases ds with
    | nil => exact absurd rfl hne
    | cons d ds =>
      have h1 := (isDecimalDigit_iff d).mp (hd d (List.mem_cons_self _ _))
      have h49 : 49 ≤ d.val := by
        by_contra hc
        have h0 : d = 48 := Fin.ext (by simp only [Byte.val_lit]; omega)
        subst h0
        have := hz rfl
        simp only [List.cons.injEq, true_and] at this
        subst this
        simp at h
      have hge := digitsValue_ge d ds h49
      have hl : 19 ≤ ds.length := by
        simp only [List.length_cons] at h
        omega
      have : 10 ^ 19 ≤ digitsValue (d :: ds) :=
        le_trans (Nat.pow_le_pow_right (by decide) hl) hge
      have h2 : (10 : Int) ^ 19 ≤ (digitsValue (d :: ds) : Int) := by exact_mod_cast this
      cases neg <;> simp only [if_true, if_false, Bool.false_eq_true] <;> omega

theorem from_chars_int64_intLiteral (neg : Bool) (ds : Bytes)
    (hne : ds ≠ []) (hd : ∀ d ∈ ds, isDecimalDigit d = true)
    (h : -9223372036854775808 ≤ intLiteralValue neg ds ∧
      intLiteralValue neg ds ≤ 9223372036854775807) :
    from_chars_int64 (intLiteral neg ds) = .ok (intLiteral neg ds).length ⟨_, h⟩ := by
  have ht := (takeWhile_digits_append ds [] hd inertEnd_nil).1
  rw [List.append_nil] at ht
  cases ds with
  | nil => exact absurd rfl hne
  | cons d ds =>
    have h1 := (isDecimalDigit_iff d).mp (hd d (List.mem_cons_self _ _))
    have h45 : ¬ d = 45 := fun e => by subst e; simp at h1
    cases neg with
    | false =>
      simp only [intLiteralValue, if_false, Bool.false_eq_true] at h
      simp only [from_chars_int64, intLiteral, if_false, Bool.false_eq_true, List.nil_append,
        List.head?_cons, Option.some.injEq, h45, decide_False, ht, List.cons_ne_nil,
        zero_add, h, and_self, dite_true, intLiteralValue]
    | true =>
      simp only [intLiteralValue, if_true] at h
      simp only [from_chars_int64, intLiteral, if_true, List.singleton_append,
        List.head?_cons, decide_True, List.tail_cons, ht, List.cons_ne_nil, if_false,
        h, and_self, dite_true, intLiteralValue, List.length_cons]
      congr 1
      omega

theorem roundShift_spec (t n q0 : Nat) (h : q0 = 0 ∨ 2 ^ (52 + q0) ≤ t) :
    Double.roundShift t n q0 = 0 ∨ 2 ^ (52 + Double.roundShift t n q0) ≤ t := by
  induction n generalizing q0 with
  | zero => exact h
  | succ n ih =>
    unfold Double.roundShift
    by_cases hc : t < 2 ^ (53 + q0)
    · rw [if_pos hc]
      exact h
    · rw [if_neg hc]
      refine ih (q0 + 1) (Or.inr ?_)
      have e : 52 + (q0 + 1) = 53 + q0 := by omega
      rw [e]
      omega

/-- A whole number that is not zero does not round to zero. -/
theorem round_nat_ne_zero (sign : Bool) (N : Nat) (hN : 1 ≤ N) (d : Double)
    (h : Double.round sign N 1 = some d) : d.isZero = false := by
  unfold Double.round at h
  simp only [Nat.div_one, one_mul] at h
  have hq := roundShift_spec (N * 2 ^ 1074) 2048 0 (Or.inl rfl)
  generalize Double.roundShift (N * 2 ^ 1074) 2048 0 = q at h hq
  have hpos : 1 ≤ N * 2 ^ 1074 := Nat.mul_pos hN (Nat.pow_pos (by decide))
  have hm0 : 1 ≤ N * 2 ^ 1074 / 2 ^ q := by
    rw [Nat.le_div_iff_mul_le (Nat.pow_pos (by decide)), one_mul]
    rcases hq with hq | hq
    · rw [hq]
      exact hpos
    · refine le_trans (Nat.pow_le_pow_right (by decide) (by omega)) hq
  generalize N * 2 ^ 1074 / 2 ^ q = m0 at h hm0
  generalize N * 2 ^ 1074 % 2 ^ q = r at h
  generalize (2 : Nat) ^ q = dd at h
  have fin : ∀ (e f : Nat), (e = 0 → f ≠ 0) →
      (⟨sign, e, f⟩ : Double).isZero = false := by
    intro e f hef
    simp only [Double.isZero, Bool.and_eq_false_imp, beq_iff_eq, beq_eq_false_iff_ne, ne_eq]
    exact hef
  split_ifs at h <;>
    (obtain rfl := Option.some.inj h
     refine fin _ _ (fun h0 => ?_)
     omega)

theorem from_chars_double_intLiteral (neg : Bool) (ds : Bytes)
    (hne : ds ≠ []) (hd : ∀ d ∈ ds, isDecimalDigit d = true) :
    from_chars_double (intLiteral neg ds) =
      decimalToDouble neg (intLiteral neg ds).length (digitsValue ds) 0 := by
  have ht := (takeWhile_digits_append ds [] hd inertEnd_nil).1
  rw [List.append_nil] at ht
  cases ds with
  | nil => exact absurd rfl hne
  | cons d ds =>
    have h1 := (isDecimalDigit_iff d).mp (hd d (List.mem_cons_self _ _))
    have h45 : ¬ d = 45 := fun e => by subst e; simp at h1
    cases neg with
    | false =>
      simp [from_chars_double, intLiteral, h45, ht, scanExponent]
    | true =>
      simp [from_chars_double, intLiteral, ht, scanExponent, Nat.add_comm 1]

/-- The conversion at the end of `parseNumber`, on an integer literal. -/
theorem parseNumberConvert_intLiteral (neg : Bool) (v : Value) (p : Nat)
    (ds s : Bytes) (iss : List ParsingIssue)
    (hne : ds ≠ []) (hd : ∀ d ∈ ds, isDecimalDigit d = true)
    (hz : ds.head? = some 48 → ds = [48]) :
    (∀ h : -9223372036854775808 ≤ intLiteralValue neg ds ∧
        intLiteralValue neg ds ≤ 9223372036854775807,
      parseNumberConvert ⟨p, intLiteral neg ds ++ s⟩ (if neg then 1 else 0) false v
        ⟨⟨p + (intLiteral neg ds).length, s⟩, iss⟩ =
      (true, .int64 ⟨_, h⟩, ⟨⟨p + (intLiteral neg ds).length, s⟩, iss⟩)) ∧
    (¬(-9223372036854775808 ≤ intLiteralValue neg ds ∧
        intLiteralValue neg ds ≤ 9223372036854775807) →
      parseNumberConvert ⟨p, intLiteral neg ds ++ s⟩ (if neg then 1 else 0) false v
        ⟨⟨p + (intLiteral neg ds).length, s⟩, iss⟩ =
      match Double.round neg (digitsValue ds) 1 with
      | some d => (true, .double d, ⟨⟨p + (intLiteral neg ds).length, s⟩, iss⟩)
      | none => (false, v, ⟨⟨p + (intLiteral neg ds).length, s⟩,
          iss ++ [{ offset := p, description := "parsed number value is out of range",
                    code := .ParsedNumberOutOfRange }]⟩)) := by
  have hlen : p + (intLiteral neg ds).length - p - (if neg then 1 else 0) = ds.length := by
    cases neg <;> simp [intLiteral]
  have hdrop : (intLiteral neg ds ++ s).drop (if neg then 1 else 0) = ds ++ s := by
    cases neg <;> simp [intLiteral]
  have hrange : Ptr.range ⟨p, intLiteral neg ds ++ s⟩ ⟨p + (intLiteral neg ds).length, s⟩
      = intLiteral neg ds := by
    simp [Ptr.range]
  have htest := intLiteral_test neg ds s hne hd hz
  constructor
  · intro h
    have hc := htest.mpr h
    unfold parseNumberConvert
    simp only [hlen, hdrop, hrange, Bool.not_false, true_and, hc, if_true,
      from_chars_int64_intLiteral neg ds hne hd h]
  · intro h
    have hc : ¬(ds.length < 19 ∨ (ds.length = 19 ∧
        stringViewLe ((ds ++ s).take 19) (maxValue (if neg then 1 else 0)) = true)) :=
      fun x => h (htest.mp x)
    unfold parseNumberConvert
    simp only [hlen, hdrop, hrange, Bool.not_false, true_and, hc, if_false,
      from_chars_double_intLiteral neg ds hne hd]
    have hm : digitsValue ds ≠ 0 := by
      intro h0
      apply h
      simp only [intLiteralValue, h0]
      cases neg <;> simp
    unfold decimalToDouble
    simp only [hm, if_false, le_refl, if_true, Int.toNat_zero, pow_zero, mul_one]
    cases hr : Double.round neg (digitsValue ds) 1 with
    | none => simp [addIssueAt]
    | some d =>
      have := round_nat_ne_zero neg _ (Nat.pos_of_ne_zero hm) d hr
      simp [this]

/-- The member `parseImpl` on text that does not start a literal, a string, an array or an
object goes to `parseNumber`. -/
theorem parseImpl_number (o : ParsingOptions) (fuel : Nat) (v : Value) (st : ParserImpl)
    (b : Byte) (rest : Bytes) (hr : st.i.rest = b :: rest)
    (hb : b.val = 45 ∨ isDecimalDigit b = true) :
    parseImpl o (fuel + 1) v st = parseNumber v st := by
  have h : 45 ≤ b.val ∧ b.val ≤ 57 := by
    rcases hb with hb | hb
    · omega
    · have := (isDecimalDigit_iff b).mp hb
      omega
  unfold parseImpl
  simp only [hr]
  rw [if_neg (by omega), if_neg (by omega), if_neg (by omega), if_neg (by omega),
    if_neg (by omega), if_neg (by omega)]

theorem intLiteral_head (neg : Bool) (ds : Bytes) (hne : ds ≠ [])
    (hd : ∀ d ∈ ds, isDecimalDigit d = true) :
    ∃ b rest, intLiteral neg ds = b :: rest ∧ (b.val = 45 ∨ isDecimalDigit b = true) := by
  cases neg with
  | true => exact ⟨45, ds, rfl, Or.inl rfl⟩
  | false =>
    cases ds with
    | nil => exact absurd rfl hne
    | cons d ds => exact ⟨d, ds, rfl, Or.inr (hd d (List.mem_cons_self _ _))⟩

/-- The function `impl::parse` on an integer literal is the conversion of the literal. -/
theorem implParse_intLiteral (neg : Bool) (ds : Bytes) (o : ParsingOptions)
    (hne : ds ≠ []) (hd : ∀ d ∈ ds, isDecimalDigit d = true)
    (hz : ds.head? = some 48 → ds = [48]) :
    impl.parse (intLiteral neg ds) o =
      some { value := (parseNumberConvert ⟨0, intLiteral neg ds⟩ (if neg then 1 else 0) false
                .null ⟨⟨0 + (intLiteral neg ds).length, []⟩, []⟩).2.1
             status := if (parseNumberConvert ⟨0, intLiteral neg ds⟩ (if neg then 1 else 0)
                false .null ⟨⟨0 + (intLiteral neg ds).length, []⟩, []⟩).1
                then .Success else .Failure
             parsedSize := (parseNumberConvert ⟨0, intLiteral neg ds⟩ (if neg then 1 else 0)
                false .null ⟨⟨0 + (intLiteral neg ds).length, []⟩, []⟩).2.2.parsedSize
             issues := (parseNumberConvert ⟨0, intLiteral neg ds⟩ (if neg then 1 else 0)
                false .null ⟨⟨0 + (intLiteral neg ds).length, []⟩, []⟩).2.2.issues } := by
  obtain ⟨b, rest, hb, hb2⟩ := intLiteral_head neg ds hne hd
  have hnw : isWhitespaceB b = false := by
    have h : 45 ≤ b.val ∧ b.val ≤ 57 := by
      rcases hb2 with hb | hb
      · omega
      · have := (isDecimalDigit_iff b).mp hb
        omega
    simp only [isWhitespaceB, decide_eq_false_iff_not]
    omega
  have hrun := parseNumber_intLiteral neg .null 0 ds [] [] hne hd hz inertEnd_nil
  rw [List.append_nil] at hrun
  unfold impl.parse ParserImpl.parse
  have hskip : detectEndOfInputAfterSkippingWhitespaces ⟨⟨0, intLiteral neg ds⟩, []⟩
      = (false, ⟨⟨0, intLiteral neg ds⟩, []⟩) := by
    simp [detectEndOfInputAfterSkippingWhitespaces, skipWhitespaces, skipWhitespacesFrom_eq,
      hb, List.dropWhile_cons, List.takeWhile_cons, hnw]
  simp only [hskip, Bool.false_eq_true, if_false]
  rw [parseImpl_number o _ .null _ b rest hb hb2, hrun]

/-- The function `parse` after `impl::parse` has taken the whole input. -/
theorem parse_of_implParse_all (input : Bytes) (o : ParsingOptions) (mode : ParsingMode)
    (r : ParsingResult) (h : impl.parse input o = some r) (hp : r.parsedSize = input.length)
    (hs : r.status ≠ .PartialSuccess) : parse input o mode = some r := by
  unfold parse
  rw [h]
  obtain ⟨v, st, ps, iss⟩ := r
  simp only at hp
  subst hp
  simp only
  by_cases hc : st = .Success ∧ mode = .VerifyTrailingWhitespace
  · rw [if_pos hc]
    simp only [List.drop_length, skipWhitespaces, skipWhitespacesFrom, Bool.not_true,
      Bool.false_eq_true, if_false]
  · rw [if_neg hc]

/-- C5 as the code has it: the integer literal `1` followed by 309 zeros is beyond the finite
doubles; `parse` fails with the issue `ParsedNumberOutOfRange` at offset 0 and leaves the value
`null`. -/
theorem parse_huge_integer_fails :
    (parse (49 :: List.replicate 309 48)).map
      (fun r => (r.value, r.status, r.issues.map (fun x => (x.offset, x.code)))) =
    some (.null, .Failure, [(0, .ParsedNumberOutOfRange)]) := by
  decide!

/-- C5, amended: for every integer literal (optional `-`, then `0` or digits that do not start
with `0`), all options and both modes: if the number it writes lies in `[-2^63, 2^63 - 1]`,
`parse` succeeds with the `Int64` of exactly that number; otherwise, if the nearest `double` is
finite, `parse` succeeds with that `Double`, and if it is not, `parse` fails with the one issue
`ParsedNumberOutOfRange` at offset 0 and the value `null`.  In each case `parsedSize` is the
length of the literal. -/
theorem parse_intLiteral (neg : Bool) (ds : Bytes) (o : ParsingOptions) (mode : ParsingMode)
    (hne : ds ≠ []) (hd : ∀ d ∈ ds, isDecimalDigit d = true)
    (hz : ds.head? = some 48 → ds = [48]) :
    (∀ h : -9223372036854775808 ≤ intLiteralValue neg ds ∧
        intLiteralValue neg ds ≤ 9223372036854775807,
      parse (intLiteral neg ds) o mode = some
        { value := .int64 ⟨intLiteralValue neg ds, h⟩
          status := .Success
          parsedSize := (intLiteral neg ds).length
          issues := [] }) ∧
    (¬(-9223372036854775808 ≤ intLiteralValue neg ds ∧
        intLiteralValue neg ds ≤ 9223372036854775807) →
      (∀ d, Double.round neg (digitsValue ds) 1 = some d →
        parse (intLiteral neg ds) o mode = some
          { value := .double d
            status := .Success
            parsedSize := (intLiteral neg ds).length
            issues := [] }) ∧
      (Double.round neg (digitsValue ds) 1 = none →
        parse (intLiteral neg ds) o mode = some
          { value := .null
            status := .Failure
            parsedSize := (intLiteral neg ds).length
            issues := [{ offset := 0, description := "parsed number value is out of range",
                         code := .ParsedNumberOutOfRange }] })) := by
  have hi := implParse_intLiteral neg ds o hne hd hz
  have hc := parseNumberConvert_intLiteral neg .null 0 ds [] [] hne hd hz
  rw [List.append_nil] at hc
  refine ⟨fun h => ?_, fun h => ⟨fun d hr => ?_, fun hr => ?_⟩⟩
  · rw [hc.1 h] at hi
    refine parse_of_implParse_all _ o mode _ ?_ rfl (by simp)
    rw [hi]
    simp [parsedSize]
  · rw [hc.2 h, hr] at hi
    refine parse_of_implParse_all _ o mode _ ?_ rfl (by simp)
    rw [hi]
    simp [parsedSize]
  · rw [hc.2 h, hr] at hi
    refine parse_of_implParse_all _ o mode _ ?_ rfl (by simp)
    rw [hi]
    simp [parsedSize]

/-- C5, amended, at the literal `9223372036854775807`, which gives the largest `Int64`. -/
theorem parse_intLiteral_witness :
    parse (intLiteral false
        [57, 50, 50, 51, 51, 55, 50, 48, 51, 54, 56, 53, 52, 55, 55, 53, 56, 48, 55]) {}
        .VerifyTrailingWhitespace = some
      { value := .int64 ⟨9223372036854775807, by decide⟩
        status := .Success
        parsedSize := 19
        issues := [] } :=
  (parse_intLiteral false
    [57, 50, 50, 51, 51, 55, 50, 48, 51, 54, 56, 53, 52, 55, 55, 53, 56, 48, 55] {}
    .VerifyTrailingWhitespace (by decide) (by decide!) (by decide!)).1 (by decide!)

theorem Frame.PtrSim.uncons {F : Frame} {p p2 : Ptr} (h : F.PtrSim p p2)
    (hin : F.s.length < p.rest.length) :
    ∃ b c, p.rest = b :: (c ++ F.s) ∧ p2.rest = b :: (c ++ F.s2) := by
  obtain ⟨c, h1, h2, -⟩ := h
  cases c with
  | nil =>
    rw [h1] at hin
    simp at hin
  | cons b c => exact ⟨b, c, h1, h2⟩

theorem Frame.PtrSim.next {F : Frame} {p p2 : Ptr} (h : F.PtrSim p p2)
    (hin : F.s.length < p.rest.length) : F.PtrSim p.next p2.next := by
  obtain ⟨c, h1, h2, h3⟩ := h
  cases c with
  | nil =>
    rw [h1] at hin
    simp at hin
  | cons b c =>
    refine ⟨c, ?_, ?_, ?_⟩
    · simp [Ptr.next, h1]
    · simp [Ptr.next, h2]
    · simp only [Ptr.next, h3]
      omega

theorem Frame.PtrSim.ne_nil {F : Frame} {p p2 : Ptr} (h : F.PtrSim p p2)
    (hin : F.s.length < p.rest.length) : p2.rest ≠ [] := by
  obtain ⟨b, c, -, h2⟩ := h.uncons hin
  rw [h2]
  simp

theorem Frame.Sim.cons {F : Frame} {st st2 : ParserImpl} (h : F.Sim st st2)
    (hin : F.s.length < st.i.rest.length) :
    ∃ b c, st.i.rest = b :: (c ++ F.s) ∧ st2.i.rest = b :: (c ++ F.s2) := h.1.uncons hin

theorem Frame.Sim.head {F : Frame} {st st2 : ParserImpl} (h : F.Sim st st2)
    (hin : F.s.length < st.i.rest.length) {b : Byte} {t : Bytes} (hr : st.i.rest = b :: t) :
    ∃ t2, st2.i.rest = b :: t2 := by
  obtain ⟨b', c, h1, h2⟩ := h.cons hin
  rw [h1] at hr
  obtain ⟨rfl, -⟩ := List.cons.inj hr
  exact ⟨_, h2⟩

theorem Frame.Sim.advance {F : Frame} {st st2 : ParserImpl} (h : F.Sim st st2)
    (hin : F.s.length < st.i.rest.length) : F.Sim st.advance st2.advance :=
  ⟨h.1.next hin, h.2⟩

/-- The states with the cursors moved to two places that correspond. -/
theorem Frame.Sim.move {F : Frame} {st st2 : ParserImpl} (h : F.Sim st st2) {j j2 : Ptr}
    (hj : F.PtrSim j j2) : F.Sim { st with i := j } { st2 with i := j2 } :=
  ⟨hj, h.2⟩

/-- The states after the same issue is added at two offsets that correspond. -/
theorem Frame.Sim.addIssueAt {F : Frame} {st st2 : ParserImpl} (h : F.Sim st st2)
    (p : Nat) (d : String) (c : ParsingIssue.Code) :
    F.Sim (st.addIssueAt p d c) (st2.addIssueAt (p + F.k) d c) := by
  obtain ⟨h1, new, h2, h3⟩ := h
  refine ⟨h1, new ++ [{ offset := p, description := d, code := c }], ?_, ?_⟩
  · simp [ParserImpl.addIssueAt, h2]
  · simp [ParserImpl.addIssueAt, h3, ParsingIssue.shift]

theorem skipWhitespacesFrom_sim (s s2 c : Bytes) (pos k : Nat)
    (h1 : (skipWhitespacesFrom pos (c ++ s)).1 = false)
    (hin : s.length < (skipWhitespacesFrom pos (c ++ s)).2.rest.length) :
    (skipWhitespacesFrom (pos + k) (c ++ s2)).1 = false ∧
    ∃ c', (skipWhitespacesFrom pos (c ++ s)).2.rest = c' ++ s ∧
      (skipWhitespacesFrom (pos + k) (c ++ s2)).2.rest = c' ++ s2 ∧
      (skipWhitespacesFrom (pos + k) (c ++ s2)).2.pos
        = (skipWhitespacesFrom pos (c ++ s)).2.pos + k := by
  induction c generalizing pos with
  | nil =>
    exfalso
    have := (skipWhitespaces_reach ⟨pos, s⟩).length_le
    simp only [skipWhitespaces, List.nil_append] at this hin
    omega
  | cons b c ih =>
    simp only [List.cons_append, skipWhitespacesFrom] at h1 hin ⊢
    by_cases hb : b.val = 9 ∨ b.val = 10 ∨ b.val = 13 ∨ b.val = 32
    · simp only [hb, if_true] at h1 hin ⊢
      have := ih (pos + 1) h1 hin
      have e : pos + 1 + k = pos + k + 1 := by omega
      rw [e] at this
      exact this
    · simp only [hb, if_false] at h1 hin ⊢
      refine ⟨trivial, b :: c, ?_⟩
      simp

theorem Frame.Sim.endWs {F : Frame} {st st2 : ParserImpl} (h : F.Sim st st2)
    (h1 : st.detectEndOfInputAfterSkippingWhitespaces.1 = false)
    (hin : F.s.length < st.detectEndOfInputAfterSkippingWhitespaces.2.i.rest.length) :
    st2.detectEndOfInputAfterSkippingWhitespaces.1 = false ∧
    F.Sim st.detectEndOfInputAfterSkippingWhitespaces.2
      st2.detectEndOfInputAfterSkippingWhitespaces.2 := by
  obtain ⟨⟨c, hc1, hc2, hc3⟩, hiss⟩ := h
  unfold detectEndOfInputAfterSkippingWhitespaces at h1 hin ⊢
  by_cases he : (skipWhitespaces st.i).1 = true
  · simp [he] at h1
  · simp only [he, Bool.false_eq_true, if_false] at hin ⊢
    simp only [Bool.not_eq_true] at he
    simp only [skipWhitespaces, hc1, hc2, hc3] at he hin ⊢
    obtain ⟨e2, c', r1, r2, r3⟩ := skipWhitespacesFrom_sim F.s F.s2 c st.i.pos F.k he hin
    simp only [e2, Bool.false_eq_true, if_false]
    exact ⟨trivial, ⟨c', r1, r2, r3⟩, hiss⟩

theorem matchLoop_sim (F : Frame) (ps : Bytes) (p : Byte) (st st2 : ParserImpl)
    (h : F.Sim st st2) (h1 : (matchLoop p ps st).1 = true)
    (hin : F.s.length ≤ (matchLoop p ps st).2.i.rest.length) :
    (matchLoop p ps st2).1 = true ∧ F.Sim (matchLoop p ps st).2 (matchLoop p ps st2).2 := by
  induction ps generalizing p st st2 with
  | nil =>
    have hlt := ((matchLoop_post {} [] p st).1 h1).2
    obtain ⟨b, c, hr, hr2⟩ := h.cons (by omega)
    simp only [matchLoop, hr, hr2] at h1 ⊢
    by_cases hb : b = p
    · simp only [hb, ne_eq, not_true_eq_false, if_false, true_and]
      exact h.advance (by omega)
    · simp [hb] at h1
  | cons q qs ih =>
    have hlt := ((matchLoop_post {} (q :: qs) p st).1 h1).2
    have hin0 : F.s.length < st.i.rest.length := by omega
    obtain ⟨b, c, hr, hr2⟩ := h.cons hin0
    simp only [matchLoop, hr, hr2] at h1 hin ⊢
    by_cases hb : b = p
    · simp only [hb, ne_eq, not_true_eq_false, if_false] at h1 hin ⊢
      exact ih q st.advance st2.advance (h.advance hin0) h1 hin
    · simp [hb] at h1

theorem parseLiteral_sim (F : Frame) (lit : Value) (c p : Byte) (ps : Bytes) (v v2 : Value)
    (st st2 : ParserImpl) (v' : Value) (st' : ParserImpl) (h : F.Sim st st2)
    (hne : st.i.rest ≠ [])
    (h1 : parseLiteral lit (c :: p :: ps) v st = (true, v', st'))
    (hin : F.s.length ≤ st'.i.rest.length) :
    ∃ st2', parseLiteral lit (c :: p :: ps) v2 st2 = (true, v', st2') ∧ F.Sim st' st2' := by
  unfold parseLiteral matchPattern at h1 ⊢
  simp only at h1 ⊢
  by_cases hm : (matchLoop p ps st.advance).1 = true
  · simp only [hm, if_true, Prod.mk.injEq, true_and] at h1
    obtain ⟨rfl, rfl⟩ := h1
    have hlt := ((matchLoop_post {} ps p st.advance).1 hm).2
    have hadv := advance_length st hne
    obtain ⟨e, hs⟩ := matchLoop_sim F ps p st.advance st2.advance (h.advance (by omega)) hm hin
    exact ⟨_, by simp only [e, if_true], hs⟩
  · simp [hm] at h1

theorem parseEscapeHex_pos (n c : Nat) (p : Ptr)
    (hg : GoodKind (EscapedStringParser.parseEscapeHex n c p).1.result) :
    (EscapedStringParser.parseEscapeHex n c p).2.pos = p.pos + n := by
  have h := (parseEscapeHex_spec n c p).2
  revert h hg
  generalize (EscapedStringParser.parseEscapeHex n c p).1.result = k
  cases k <;> simp [GoodKind]

theorem parseEscapeHex_sim (F : Frame) (n c : Nat) (p p2 : Ptr) (h : F.PtrSim p p2)
    (hg : GoodKind (EscapedStringParser.parseEscapeHex n c p).1.result)
    (hin : F.s.length ≤ (EscapedStringParser.parseEscapeHex n c p).2.rest.length) :
    (EscapedStringParser.parseEscapeHex n c p2).1 = (EscapedStringParser.parseEscapeHex n c p).1 ∧
    F.PtrSim (EscapedStringParser.parseEscapeHex n c p).2
      (EscapedStringParser.parseEscapeHex n c p2).2 := by
  induction n generalizing c p p2 with
  | zero =>
    unfold EscapedStringParser.parseEscapeHex
    split_ifs <;> exact ⟨rfl, h⟩
  | succ n ih =>
    have hpos := parseEscapeHex_pos (n + 1) c p hg
    have hsz := (parseEscapeHex_spec (n + 1) c p).1.size_eq
    have hin0 : F.s.length < p.rest.length := by omega
    obtain ⟨b, t, hr, hr2⟩ := h.uncons hin0
    unfold EscapedStringParser.parseEscapeHex at hg hin ⊢
    simp only [hr, hr2] at hg hin ⊢
    by_cases hd : isDecimalDigit b = true
    · simp only [hd, if_true] at hg hin ⊢
      exact ih _ p.next p2.next (h.next hin0) hg hin
    · simp only [hd, Bool.false_eq_true, if_false] at hg hin ⊢
      by_cases hx : 97 ≤ (b.val ||| 0x20) ∧ (b.val ||| 0x20) ≤ 102
      · simp only [hx, and_self, if_true] at hg hin ⊢
        exact ih _ p.next p2.next (h.next hin0) hg hin
      · simp only [hx, if_false] at hg
        exact absurd rfl hg.1

theorem parseEscape_sim (F : Frame) (p p2 : Ptr) (r : EscapedStringParser.Result) (q : Ptr)
    (h : F.PtrSim p p2) (h1 : EscapedStringParser.parseEscape p = some (r, q))
    (hg : GoodKind r.result) (hin : F.s.length ≤ q.rest.length) :
    ∃ q2, EscapedStringParser.parseEscape p2 = some (r, q2) ∧ F.PtrSim q q2 := by
  have hspec := parseEscape_spec p r q h1
  have hsz := hspec.1.size_eq
  have hlt : p.pos < q.pos := by
    have h2 := hspec.2
    revert h2 hg
    generalize r.result = k
    cases k <;> simp [GoodKind] <;> omega
  have hin0 : F.s.length < p.rest.length := by omega
  obtain ⟨b, t, hr, hr2⟩ := h.uncons hin0
  unfold EscapedStringParser.parseEscape at h1 ⊢
  simp only [hr, hr2] at h1 ⊢
  by_cases hu : b.val = 117
  · have h34 : ¬ b.val = 34 := by omega
    have h92 : ¬ b.val = 92 := by omega
    have h47 : ¬ b.val = 47 := by omega
    have h98 : ¬ b.val = 98 := by omega
    have h102 : ¬ b.val = 102 := by omega
    have h110 : ¬ b.val = 110 := by omega
    have h114 : ¬ b.val = 114 := by omega
    have h116 : ¬ b.val = 116 := by omega
    simp only [if_neg h34, if_neg h92, if_neg h47, if_neg h98, if_neg h102, if_neg h110,
      if_neg h114, if_neg h116, if_pos hu] at h1 ⊢
    have hx := Option.some.inj h1
    have hs := parseEscapeHex_sim F 4 0 p.next p2.next (h.next hin0)
    rw [hx] at hs
    have hs2 := hs hg hin
    generalize EscapedStringParser.parseEscapeHex 4 0 p2.next = X at hs2 ⊢
    obtain ⟨r2, q2⟩ := X
    simp only at hs2
    exact ⟨q2, by rw [hs2.1], hs2.2⟩
  · simp only [hu, if_false] at h1 ⊢
    split_ifs at h1 ⊢ <;> simp only [Option.some.injEq, Prod.mk.injEq] at h1 <;>
      obtain ⟨rfl, rfl⟩ := h1 <;>
      first
      | exact ⟨_, rfl, h.next hin0⟩
      | exact absurd rfl hg.1

theorem parseMore_sim (F : Frame) (mode : UnescapeMode) (p p2 : Ptr)
    (r : EscapedStringParser.Result) (q : Ptr)
    (h : F.PtrSim p p2) (h1 : EscapedStringParser.parseMore mode p = some (r, q))
    (hg : GoodKind r.result) (hin0 : F.s.length < p.rest.length)
    (hin : F.s.length ≤ q.rest.length) :
    ∃ q2, EscapedStringParser.parseMore mode p2 = some (r, q2) ∧ F.PtrSim q q2 := by
  obtain ⟨b, t, hr, hr2⟩ := h.uncons hin0
  have hnl : p.next.rest.length + 1 = p.rest.length := Ptr.next_length (by simp [hr])
  unfold EscapedStringParser.parseMore at h1 ⊢
  simp only [hr, hr2] at h1 ⊢
  by_cases h92 : b.val = 92
  · simp only [h92, if_true] at h1 ⊢
    by_cases he : p.next.rest = []
    · simp only [he, if_true, Option.some.injEq, Prod.mk.injEq] at h1
      obtain ⟨rfl, rfl⟩ := h1
      exact absurd rfl hg.2
    · simp only [he, if_false] at h1
      obtain ⟨q2, e, hq⟩ := parseEscape_sim F p.next p2.next r q (h.next hin0) h1 hg hin
      have hsz := (parseEscape_spec p.next r q h1).1.length_le
      have he2 : p2.next.rest ≠ [] := (h.next hin0).ne_nil (by
        have hspec := parseEscape_spec p.next r q h1
        have h2 := hspec.2
        have hsz2 := hspec.1.size_eq
        revert h2 hg
        generalize r.result = k
        cases k <;> simp [GoodKind] <;> omega)
      simp only [he2, if_false]
      exact ⟨q2, e, hq⟩
  · simp only [h92, if_false] at h1 ⊢
    split_ifs at h1 ⊢ <;> simp only [Option.some.injEq, Prod.mk.injEq] at h1 <;>
      obtain ⟨rfl, rfl⟩ := h1 <;>
      first
      | exact ⟨_, rfl, h.next hin0⟩
      | exact ⟨_, rfl, h⟩
      | exact absurd rfl hg.1

theorem check_sim (F : Frame) (o : ParsingOptions) (sb : Bytes) (sur p : Nat) (d : String)
    (code : ParsingIssue.Code) (st st2 : ParserImpl) (h : F.Sim st st2) :
    (checkInvalidUtf16SurrogateOptionAndEncode o sb sur (p + F.k) d code st2).1 =
      (checkInvalidUtf16SurrogateOptionAndEncode o sb sur p d code st).1 ∧
    (checkInvalidUtf16SurrogateOptionAndEncode o sb sur (p + F.k) d code st2).2.1 =
      (checkInvalidUtf16SurrogateOptionAndEncode o sb sur p d code st).2.1 ∧
    F.Sim (checkInvalidUtf16SurrogateOptionAndEncode o sb sur p d code st).2.2
      (checkInvalidUtf16SurrogateOptionAndEncode o sb sur (p + F.k) d code st2).2.2 := by
  unfold checkInvalidUtf16SurrogateOptionAndEncode
  split_ifs
  · exact ⟨rfl, rfl, h.addIssueAt p d code⟩
  · exact ⟨rfl, rfl, h.addIssueAt p d code⟩
  · exact ⟨rfl, rfl, h⟩

theorem checkHigh_sim (F : Frame) (o : ParsingOptions) (sb : Bytes) (sur p : Nat)
    (st st2 : ParserImpl) (h : F.Sim st st2) :
    (checkInvalidUtf16HighSurrogateOptionAndEncode o sb sur (p + F.k) st2).1 =
      (checkInvalidUtf16HighSurrogateOptionAndEncode o sb sur p st).1 ∧
    (checkInvalidUtf16HighSurrogateOptionAndEncode o sb sur (p + F.k) st2).2.1 =
      (checkInvalidUtf16HighSurrogateOptionAndEncode o sb sur p st).2.1 ∧
    F.Sim (checkInvalidUtf16HighSurrogateOptionAndEncode o sb sur p st).2.2
      (checkInvalidUtf16HighSurrogateOptionAndEncode o sb sur (p + F.k) st2).2.2 :=
  check_sim F o sb sur p _ _ st st2 h

theorem checkLow_sim (F : Frame) (o : ParsingOptions) (sb : Bytes) (sur p : Nat)
    (st st2 : ParserImpl) (h : F.Sim st st2) :
    (checkInvalidUtf16LowSurrogateOptionAndEncode o sb sur (p + F.k) st2).1 =
      (checkInvalidUtf16LowSurrogateOptionAndEncode o sb sur p st).1 ∧
    (checkInvalidUtf16LowSurrogateOptionAndEncode o sb sur (p + F.k) st2).2.1 =
      (checkInvalidUtf16LowSurrogateOptionAndEncode o sb sur p st).2.1 ∧
    F.Sim (checkInvalidUtf16LowSurrogateOptionAndEncode o sb sur p st).2.2
      (checkInvalidUtf16LowSurrogateOptionAndEncode o sb sur (p + F.k) st2).2.2 :=
  check_sim F o sb sur p _ _ st st2 h

theorem check_cursor (o : ParsingOptions) (sb : Bytes) (sur p : Nat) (d : String)
    (code : ParsingIssue.Code) (st : ParserImpl) :
    (checkInvalidUtf16SurrogateOptionAndEncode o sb sur p d code st).2.2.i = st.i := by
  unfold checkInvalidUtf16SurrogateOptionAndEncode
  split_ifs <;> rfl

theorem range_sim (F : Frame) (pb pb2 q q2 : Ptr) (h1 : F.PtrSim pb pb2) (h2 : F.PtrSim q q2)
    (hr : pb.Reach q) : pb2.range q2 = pb.range q := by
  obtain ⟨c, a1, a2, a3⟩ := h1
  obtain ⟨c', b1, b2, b3⟩ := h2
  obtain ⟨d, m1, m2⟩ := hr
  have e : c = d ++ c' := by
    rw [a1, b1, ← List.append_assoc] at m1
    exact List.append_cancel_right m1
  subst e
  have e1 : q.pos - pb.pos = d.length := by omega
  have e2 : q2.pos - pb2.pos = d.length := by omega
  simp only [Ptr.range, e1, e2, a1, a2, List.append_assoc, List.take_left]

theorem checkHigh_cursor (o : ParsingOptions) (sb : Bytes) (sur p : Nat) (st : ParserImpl) :
    (checkInvalidUtf16HighSurrogateOptionAndEncode o sb sur p st).2.2.i = st.i :=
  check_cursor o sb sur p _ _ st

theorem checkLow_cursor (o : ParsingOptions) (sb : Bytes) (sur p : Nat) (st : ParserImpl) :
    (checkInvalidUtf16LowSurrogateOptionAndEncode o sb sur p st).2.2.i = st.i :=
  check_cursor o sb sur p _ _ st

theorem Frame.Sim.pos {F : Frame} {st st2 : ParserImpl} (h : F.Sim st st2) :
    st2.i.pos = st.i.pos + F.k := by
  obtain ⟨⟨c, -, -, h3⟩, -⟩ := h
  exact h3

theorem parseStringSurrogates_sim (F : Frame) (o : ParsingOptions) (fuel : Nat) (sb : Bytes)
    (sur : Nat) (st st2 : ParserImpl) (e : SurrogateLoopExit)
    (h : parseStringSurrogates o fuel sb sur st = some e) (hs : F.Sim st st2)
    (h6 : 6 ≤ st.i.pos) (hgood : exitGood e)
    (hin : F.s.length ≤ (exitState e).i.rest.length)
    (fuel' : Nat) (hf : st.i.rest.length - F.s.length + 1 ≤ fuel') :
    ∃ e2, parseStringSurrogates o fuel' sb sur st2 = some e2 ∧ F.ExitSim e e2 := by
  induction fuel generalizing sb sur st st2 e fuel' with
  | zero => simp [parseStringSurrogates] at h
  | succ fuel ih =>
    obtain ⟨f', rfl⟩ : ∃ f', fuel' = f' + 1 := ⟨fuel' - 1, by omega⟩
    have hpost := parseStringSurrogates_post o _ _ _ _ _ h
    have hlt : (exitState e).i.rest.length < st.i.rest.length := by
      cases e with
      | returned r s' st' =>
        simp only [exitGood] at hgood
        subst hgood
        exact hpost.2
      | broke s' pb st' => exact hpost.2.1
    have hin0 : F.s.length < st.i.rest.length := by omega
    have hpos2 := hs.pos
    have ep : st2.i.pos - 6 = st.i.pos - 6 + F.k := by omega
    unfold parseStringSurrogates at h ⊢
    have he : ¬ st.i.rest = [] := fun e0 => by rw [e0] at hin0; simp at hin0
    have he2 : ¬ st2.i.rest = [] := hs.1.ne_nil hin0
    simp only [he, he2, if_false] at h ⊢
    cases hm : EscapedStringParser.parseMore .Strict st.i with
    | none => simp [hm] at h
    | some x =>
      obtain ⟨r2, i2⟩ := x
      obtain ⟨hreach, hcase⟩ := parseMore_spec _ _ _ _ hm
      have hsz := hreach.size_eq
      simp only [hm] at h
      cases hres : r2.result <;> simp only [hres] at h hcase
      · -- Skip
        by_cases hc1 : (checkInvalidUtf16HighSurrogateOptionAndEncode o sb sur (st.i.pos - 6)
            { st with i := i2 }).1 = true
        · simp only [hc1, if_true, Option.some.injEq] at h
          subst h
          simp only [exitState, checkHigh_cursor] at hin
          obtain ⟨i22, hm2, hp2⟩ := parseMore_sim F .Strict st.i st2.i r2 i2 hs.1 hm
            (by rw [hres]; simp [GoodKind]) hin0 hin
          have hcs := checkHigh_sim F o sb sur (st.i.pos - 6) _ _ (hs.move hp2)
          simp only [hm2, hres, ep, hcs.1, hcs.2.1, hc1, if_true]
          exact ⟨_, rfl, rfl, hs.1, hcs.2.2⟩
        · simp only [hc1, Bool.false_eq_true, if_false, Option.some.injEq] at h
          subst h
          simp [exitGood] at hgood
      · -- Unescaped
        by_cases hc1 : (checkInvalidUtf16HighSurrogateOptionAndEncode o sb sur (st.i.pos - 6)
            { st with i := i2 }).1 = true
        · simp only [hc1, if_true, Option.some.injEq] at h
          subst h
          simp only [exitState, checkHigh_cursor] at hin
          obtain ⟨i22, hm2, hp2⟩ := parseMore_sim F .Strict st.i st2.i r2 i2 hs.1 hm
            (by rw [hres]; simp [GoodKind]) hin0 hin
          have hcs := checkHigh_sim F o sb sur (st.i.pos - 6) _ _ (hs.move hp2)
          simp only [hm2, hres, ep, hcs.1, hcs.2.1, hc1, if_true]
          exact ⟨_, rfl, rfl, hcs.2.2.1, hcs.2.2⟩
        · simp only [hc1, Bool.false_eq_true, if_false, Option.some.injEq] at h
          subst h
          simp [exitGood] at hgood
      · -- HighSurrogate
        by_cases hc1 : (checkInvalidUtf16HighSurrogateOptionAndEncode o sb sur (st.i.pos - 6)
            { st with i := i2 }).1 = true
        · simp only [hc1, if_true] at h
          have hpost2 := parseStringSurrogates_post o _ _ _ _ _ h
          have hcur := checkHigh_cursor o sb sur (st.i.pos - 6) { st with i := i2 }
          have hlt2 : (exitState e).i.rest.length < i2.rest.length := by
            have : (exitState e).i.rest.length < (checkInvalidUtf16HighSurrogateOptionAndEncode
                o sb sur (st.i.pos - 6) { st with i := i2 }).2.2.i.rest.length := by
              cases e with
              | returned r s' st' =>
                simp only [exitGood] at hgood
                subst hgood
                exact hpost2.2
              | broke s' pb st' => exact hpost2.2.1
            rw [hcur] at this
            exact this
          obtain ⟨i22, hm2, hp2⟩ := parseMore_sim F .Strict st.i st2.i r2 i2 hs.1 hm
            (by rw [hres]; simp [GoodKind]) hin0 (by omega)
          have hcs := checkHigh_sim F o sb sur (st.i.pos - 6) _ _ (hs.move hp2)
          simp only [hm2, hres, ep, hcs.1, hcs.2.1, hc1, if_true]
          refine ih _ _ _ _ _ h hcs.2.2 ?_ hgood hin f' ?_
          · rw [hcur]
            show 6 ≤ i2.pos
            omega
          · rw [hcur]
            show i2.rest.length - F.s.length + 1 ≤ f'
            omega
        · simp only [hc1, Bool.false_eq_true, if_false, Option.some.injEq] at h
          subst h
          simp [exitGood] at hgood
      · -- LowSurrogate
        simp only [Option.some.injEq] at h
        subst h
        simp only [exitState] at hin
        obtain ⟨i22, hm2, hp2⟩ := parseMore_sim F .Strict st.i st2.i r2 i2 hs.1 hm
          (by rw [hres]; simp [GoodKind]) hin0 hin
        simp only [hm2, hres]
        exact ⟨_, rfl, rfl, hp2, hs.move hp2⟩
      · -- JsonStringEnd
        obtain ⟨hj, hne⟩ := hcase
        subst hj
        simp only [Option.some.injEq] at h
        subst h
        simp only [exitGood] at hgood
        obtain ⟨i22, hm2, hp2⟩ := parseMore_sim F .Strict st.i st2.i r2 st.i hs.1 hm
          (by rw [hres]; simp [GoodKind]) hin0 (by omega)
        have hcs := checkHigh_sim F o sb sur (st.i.pos - 6) _ _
          ((hs.move hp2).advance hin0)
        simp only [hm2, hres, ep, hcs.1, hcs.2.1]
        exact ⟨_, rfl, rfl, rfl, hcs.2.2⟩
      · -- InvalidCharacter
        simp only [Option.some.injEq] at h
        subst h
        simp [exitGood] at hgood
      · -- UnexpectedEndOfInput
        simp only [Option.some.injEq] at h
        subst h
        simp [exitGood] at hgood

theorem detectEndOfInput_ne (st : ParserImpl) (h : st.i.rest ≠ []) :
    st.detectEndOfInput = (false, st) := by
  cases hr : st.i.rest with
  | nil => exact absurd hr h
  | cons b t => simp [detectEndOfInput, isEmpty, hr]

theorem parseStringLoop_sim (F : Frame) (o : ParsingOptions) (fuel : Nat) (sb : Bytes)
    (pb pb2 : Ptr) (st st2 : ParserImpl) (out : Bytes) (st' : ParserImpl)
    (h : parseStringLoop o fuel sb pb st = some (true, out, st')) (hs : F.Sim st st2)
    (hpb : F.PtrSim pb pb2) (hreach : pb.Reach st.i)
    (hin : F.s.length ≤ st'.i.rest.length)
    (fuel' : Nat) (hf : st.i.rest.length - F.s.length + 1 ≤ fuel') :
    ∃ st2', parseStringLoop o fuel' sb pb2 st2 = some (true, out, st2') ∧ F.Sim st' st2' := by
  induction fuel generalizing sb pb pb2 st st2 fuel' with
  | zero => simp [parseStringLoop] at h
  | succ fuel ih =>
    obtain ⟨f', rfl⟩ : ∃ f', fuel' = f' + 1 := ⟨fuel' - 1, by omega⟩
    have hlt := ((parseStringLoop_post o _ _ _ _ _ _ _ h).1 rfl).2
    have hin0 : F.s.length < st.i.rest.length := by omega
    have hpos2 := hs.pos
    have he : st.i.rest ≠ [] := fun e0 => by rw [e0] at hin0; simp at hin0
    have he2 : st2.i.rest ≠ [] := hs.1.ne_nil hin0
    have hrange := range_sim F pb pb2 st.i st2.i hpb hs.1 hreach
    unfold parseStringLoop at h ⊢
    simp only [detectEndOfInput_ne st he, detectEndOfInput_ne st2 he2, Bool.false_eq_true,
      if_false] at h ⊢
    cases hm : EscapedStringParser.parseMore .Strict st.i with
    | none => simp [hm] at h
    | some x =>
      obtain ⟨r1, i1⟩ := x
      obtain ⟨hreach1, hcase⟩ := parseMore_spec _ _ _ _ hm
      have hsz := hreach1.size_eq
      simp only [hm] at h
      cases hres : r1.result <;> simp only [hres] at h hcase
      · -- Skip
        have hlt1 := ((parseStringLoop_post o _ _ _ _ _ _ _ h).1 rfl).2
        obtain ⟨i12, hm2, hp2⟩ := parseMore_sim F .Strict st.i st2.i r1 i1 hs.1 hm
          (by rw [hres]; simp [GoodKind]) hin0 (by simp only at hlt1; omega)
        simp only [hm2, hres]
        refine ih _ _ _ _ _ h (hs.move hp2) hpb (hreach.trans hreach1) f' ?_
        obtain ⟨hj, -⟩ := hcase
        have := Ptr.next_length he
        show i1.rest.length - F.s.length + 1 ≤ f'
        rw [hj]
        omega
      · -- Unescaped
        have hlt1 := ((parseStringLoop_post o _ _ _ _ _ _ _ h).1 rfl).2
        obtain ⟨i12, hm2, hp2⟩ := parseMore_sim F .Strict st.i st2.i r1 i1 hs.1 hm
          (by rw [hres]; simp [GoodKind]) hin0 (by simp only at hlt1; omega)
        simp only [hm2, hres, hrange]
        refine ih _ _ _ _ _ h (hs.move hp2) hp2 (Ptr.Reach.refl _) f' ?_
        show i1.rest.length - F.s.length + 1 ≤ f'
        omega
      · -- HighSurrogate
        cases hsur : parseStringSurrogates o fuel (sb ++ pb.range st.i) r1.surrogate
            { st with i := i1 } with
        | none => simp [hsur] at h
        | some e =>
          have hp := parseStringSurrogates_post o _ _ _ _ _ hsur
          simp only [hsur] at h
          have hexit : exitGood e ∧ F.s.length ≤ (exitState e).i.rest.length := by
            cases e with
            | returned b s3 st3 =>
              simp only [Option.some.injEq, Prod.mk.injEq] at h
              obtain ⟨rfl, rfl, rfl⟩ := h
              exact ⟨rfl, hin⟩
            | broke s3 pb3 st3 =>
              simp only at h
              have hlt1 := ((parseStringLoop_post o _ _ _ _ _ _ _ h).1 rfl).2
              exact ⟨trivial, by simp only [exitState]; omega⟩
          have hlt2 : (exitState e).i.rest.length < i1.rest.length := by
            cases e with
            | returned b s3 st3 =>
              have := hexit.1
              simp only [exitGood] at this
              subst this
              exact hp.2
            | broke s3 pb3 st3 => exact hp.2.1
          obtain ⟨i12, hm2, hp2⟩ := parseMore_sim F .Strict st.i st2.i r1 i1 hs.1 hm
            (by rw [hres]; simp [GoodKind]) hin0 (by omega)
          obtain ⟨e2, hsur2, hex⟩ := parseStringSurrogates_sim F o fuel _ r1.surrogate
            { st with i := i1 } { st2 with i := i12 } e hsur (hs.move hp2)
            (by show 6 ≤ i1.pos; omega) hexit.1 hexit.2 f'
            (by show i1.rest.length - F.s.length + 1 ≤ f'; omega)
          simp only [hm2, hres, hrange, hsur2]
          cases e with
          | returned b s3 st3 =>
            cases e2 with
            | returned b2 s4 st4 =>
              simp only [Frame.ExitSim] at hex
              obtain ⟨rfl, rfl, hsim⟩ := hex
              simp only [Option.some.injEq, Prod.mk.injEq] at h
              obtain ⟨rfl, rfl, rfl⟩ := h
              exact ⟨_, rfl, hsim⟩
            | broke s4 pb4 st4 => exact hex.elim
          | broke s3 pb3 st3 =>
            cases e2 with
            | returned b2 s4 st4 => exact hex.elim
            | broke s4 pb4 st4 =>
              simp only [Frame.ExitSim] at hex
              obtain ⟨rfl, hpb4, hsim⟩ := hex
              simp only at h ⊢
              refine ih _ _ _ _ _ h hsim hpb4 hp.2.2 f' ?_
              have := hp.2.1
              simp only at this
              omega
      · -- LowSurrogate
        by_cases hc1 : (checkInvalidUtf16LowSurrogateOptionAndEncode o (sb ++ pb.range st.i)
            r1.surrogate st.i.pos { st with i := i1 }).1 = true
        · simp only [hc1, if_true] at h
          have hcur := checkLow_cursor o (sb ++ pb.range st.i) r1.surrogate st.i.pos
            { st with i := i1 }
          have hlt1 := ((parseStringLoop_post o _ _ _ _ _ _ _ h).1 rfl).2
          rw [hcur] at hlt1
          obtain ⟨i12, hm2, hp2⟩ := parseMore_sim F .Strict st.i st2.i r1 i1 hs.1 hm
            (by rw [hres]; simp [GoodKind]) hin0 (by simp only at hlt1; omega)
          have hcs := checkLow_sim F o (sb ++ pb.range st.i) r1.surrogate st.i.pos _ _
            (hs.move hp2)
          simp only [hm2, hres, hrange, hpos2, hcs.1, hcs.2.1, hc1, if_true]
          refine ih _ _ _ _ _ h hcs.2.2 hcs.2.2.1 (Ptr.Reach.refl _) f' ?_
          rw [hcur]
          show i1.rest.length - F.s.length + 1 ≤ f'
          omega
        · simp only [hc1, Bool.false_eq_true, if_false, Option.some.injEq, Prod.mk.injEq] at h
          exact absurd h.1 (by decide)
      · -- JsonStringEnd
        obtain ⟨hj, hne⟩ := hcase
        subst hj
        simp only [Option.some.injEq, Prod.mk.injEq, true_and] at h
        obtain ⟨rfl, rfl⟩ := h
        obtain ⟨i12, hm2, hp2⟩ := parseMore_sim F .Strict st.i st2.i r1 st.i hs.1 hm
          (by rw [hres]; simp [GoodKind]) hin0 (by omega)
        have hrange2 := range_sim F pb pb2 st.i i12 hpb hp2 hreach
        simp only [hm2, hres, hrange2]
        exact ⟨_, rfl, (hs.move hp2).advance hin0⟩
      · -- InvalidCharacter
        simp only [Option.some.injEq, Prod.mk.injEq] at h
        exact absurd h.1 (by decide)
      · -- UnexpectedEndOfInput
        simp only [Option.some.injEq, Prod.mk.injEq] at h
        exact absurd h.1 (by decide)

theorem parseString_sim (F : Frame) (o : ParsingOptions) (sb : Bytes)
    (st st2 : ParserImpl) (out : Bytes) (st' : ParserImpl)
    (h : parseString o sb st = some (true, out, st')) (hs : F.Sim st st2)
    (hne : st.i.rest ≠ []) (hin : F.s.length ≤ st'.i.rest.length) :
    ∃ st2', parseString o sb st2 = some (true, out, st2') ∧ F.Sim st' st2' := by
  have hlt := ((parseString_post o _ _ _ _ _ hne h).1 rfl).2
  have hin0 : F.s.length < st.i.rest.length := by omega
  have hl := Ptr.next_length hne
  have hl2 := Ptr.next_length (hs.1.ne_nil hin0)
  have hsa := hs.advance hin0
  unfold parseString at h ⊢
  refine parseStringLoop_sim F o _ sb _ _ _ _ out st' h hsa hsa.1 (Ptr.Reach.refl _) hin _ ?_
  obtain ⟨c, h1, h2, -⟩ := hsa.1
  rw [h2, h1]
  simp

theorem Frame.Sim.inside_or_end {F : Frame} {st st2 : ParserImpl} (h : F.Sim st st2) :
    F.s.length < st.i.rest.length ∨ (st.i.rest = F.s ∧ st2.i.rest = F.s2) := by
  obtain ⟨⟨c, h1, h2, -⟩, -⟩ := h
  cases c with
  | nil => exact Or.inr ⟨h1, h2⟩
  | cons b c =>
    left
    rw [h1]
    simp
    omega

/-- What the end `s2` of the second run starts with, from what the end `s` of the first run
starts with: a byte that could go on a number is at the start of `s2` only if it is at the
start of `s`. -/
theorem Frame.Agree.headNot {F : Frame} (hag : F.Agree) (bad : Byte → Prop)
    (hbad : ∀ b, bad b → isDecimalDigit b = true ∨ b.val = 46 ∨ b.val = 101 ∨ b.val = 69)
    (hs : ∀ b, F.s.head? = some b → ¬ bad b) : ∀ b, F.s2.head? = some b → ¬ bad b := by
  intro b hb hbb
  rcases hag with h | h
  · rw [← h] at hb
    exact hs b hb hbb
  · have := h b hb
    rcases hbad b hbb with h1 | h1 | h1 | h1
    · rw [this.1] at h1
      exact absurd h1 (by decide)
    · exact this.2.1 h1
    · exact this.2.2.1 h1
    · exact this.2.2.2 h1

theorem skipDigitsFrom_stop (pos : Nat) (s : Bytes)
    (h : ∀ b, s.head? = some b → isDecimalDigit b = false) : skipDigitsFrom pos s = ⟨pos, s⟩ := by
  cases s with
  | nil => rfl
  | cons b t => simp [skipDigitsFrom, h b rfl]

theorem skipDigitsFrom_length (pos : Nat) (s : Bytes) :
    (skipDigitsFrom pos s).rest.length ≤ s.length := by
  rw [skipDigitsFrom_eq]
  exact (List.dropWhile_suffix _).length_le

theorem skipDigitsFrom_sim (F : Frame) (hag : F.Agree) (c : Bytes) (pos : Nat)
    (hin : F.s.length ≤ (skipDigitsFrom pos (c ++ F.s)).rest.length) :
    F.PtrSim (skipDigitsFrom pos (c ++ F.s)) (skipDigitsFrom (pos + F.k) (c ++ F.s2)) := by
  induction c generalizing pos with
  | nil =>
    simp only [List.nil_append] at hin ⊢
    have hs : ∀ b, F.s.head? = some b → ¬ (isDecimalDigit b = true) := by
      intro b hb hd
      cases hF : F.s with
      | nil => rw [hF] at hb; simp at hb
      | cons x t =>
        rw [hF] at hb hin
        simp only [List.head?_cons, Option.some.injEq] at hb
        subst hb
        simp only [skipDigitsFrom, hd, if_true, List.length_cons] at hin
        have := skipDigitsFrom_length (pos + 1) t
        omega
    have hs2 := hag.headNot (fun b => isDecimalDigit b = true) (fun b hb => Or.inl hb) hs
    rw [skipDigitsFrom_stop pos F.s (fun b hb => by simpa using hs b hb),
      skipDigitsFrom_stop (pos + F.k) F.s2 (fun b hb => by simpa using hs2 b hb)]
    exact ⟨[], rfl, rfl, rfl⟩
  | cons b c ih =>
    simp only [List.cons_append, skipDigitsFrom] at hin ⊢
    by_cases hd : isDecimalDigit b = true
    · simp only [hd, if_true] at hin ⊢
      have := ih (pos + 1) hin
      have e : pos + 1 + F.k = pos + F.k + 1 := by omega
      rw [e] at this
      exact this
    · simp only [hd, Bool.false_eq_true, if_false]
      exact ⟨b :: c, rfl, rfl, rfl⟩

theorem Frame.Sim.skipDigits {F : Frame} {st st2 : ParserImpl} (h : F.Sim st st2)
    (hag : F.Agree) (hin : F.s.length ≤ st.skipDigits.i.rest.length) :
    F.Sim st.skipDigits st2.skipDigits := by
  obtain ⟨⟨c, h1, h2, h3⟩, hiss⟩ := h
  refine ⟨?_, hiss⟩
  simp only [ParserImpl.skipDigits, h1, h2, h3] at hin ⊢
  exact skipDigitsFrom_sim F hag c st.i.pos hin

theorem detectDigits_sim (F : Frame) (hag : F.Agree) (st st2 st' : ParserImpl)
    (h : detectDigits st = some (true, st')) (hs : F.Sim st st2)
    (hin : F.s.length ≤ st'.i.rest.length) :
    ∃ st2', detectDigits st2 = some (true, st2') ∧ F.Sim st' st2' := by
  have hlt := ((detectDigits_post {} _ _ _ h).1 rfl).2
  have hin0 : F.s.length < st.i.rest.length := by omega
  obtain ⟨b, c, hr, hr2⟩ := hs.cons hin0
  unfold detectDigits at h ⊢
  simp only [hr, hr2] at h ⊢
  by_cases hd : isDecimalDigit b = true
  · simp only [hd, Bool.not_true, Bool.false_eq_true, if_false, Option.some.injEq,
      Prod.mk.injEq, true_and] at h ⊢
    subst h
    exact ⟨_, rfl, (hs.advance hin0).skipDigits hag hin⟩
  · simp [hd] at h

theorem parseNumberInteger_sim (F : Frame) (hag : F.Agree) (st st2 st' : ParserImpl)
    (h : parseNumberInteger st = some (true, st')) (hs : F.Sim st st2)
    (hin : F.s.length ≤ st'.i.rest.length) :
    ∃ st2', parseNumberInteger st2 = some (true, st2') ∧ F.Sim st' st2' := by
  have hlt := ((parseNumberInteger_post {} _ _ _ h).1 rfl).2
  have hin0 : F.s.length < st.i.rest.length := by omega
  obtain ⟨b, c, hr, hr2⟩ := hs.cons hin0
  unfold parseNumberInteger at h ⊢
  simp only [hr, hr2] at h ⊢
  by_cases h0 : b.val = 48
  · simp only [h0, if_true, Option.some.injEq, Prod.mk.injEq, true_and] at h ⊢
    subst h
    exact ⟨_, rfl, hs.advance hin0⟩
  · simp only [h0, if_false] at h ⊢
    by_cases h1 : 49 ≤ b.val ∧ b.val ≤ 57
    · simp only [h1, and_self, if_true, Option.some.injEq, Prod.mk.injEq, true_and] at h ⊢
      subst h
      exact ⟨_, rfl, (hs.advance hin0).skipDigits hag hin⟩
    · simp [h1] at h

theorem advanceAndDetectEndOfInput_ne (st : ParserImpl) (h : st.advance.i.rest ≠ []) :
    st.advanceAndDetectEndOfInput = (false, st.advance) :=
  detectEndOfInput_ne st.advance h

theorem advanceAndDetectEndOfInput_inv (st : ParserImpl)
    (h : st.advanceAndDetectEndOfInput.1 = false) :
    st.advance.i.rest ≠ [] ∧ st.advanceAndDetectEndOfInput = (false, st.advance) := by
  have : st.advance.i.rest ≠ [] := by
    intro e
    simp [advanceAndDetectEndOfInput, detectEndOfInput, isEmpty, e] at h
  exact ⟨this, advanceAndDetectEndOfInput_ne st this⟩

theorem parseNumberFraction_stop (st : ParserImpl)
    (h : ∀ b, st.i.rest.head? = some b → b.val ≠ 46) :
    parseNumberFraction st = some (true, false, st) := by
  unfold parseNumberFraction
  cases hr : st.i.rest with
  | nil => rfl
  | cons b t =>
    have := h b (by rw [hr]; rfl)
    simp only [this, if_false]

/-- The two ways in which the fraction part of `parseNumber` goes on. -/
theorem parseNumberFraction_inv (st : ParserImpl) (d : Bool) (st' : ParserImpl)
    (h : parseNumberFraction st = some (true, d, st')) :
    (d = false ∧ st' = st ∧ ∀ b, st.i.rest.head? = some b → b.val ≠ 46) ∨
    (d = true ∧ (∃ b t, st.i.rest = b :: t ∧ b.val = 46) ∧ st.advance.i.rest ≠ [] ∧
      detectDigits st.advance = some (true, st')) := by
  unfold parseNumberFraction at h
  cases hr : st.i.rest with
  | nil =>
    simp only [hr, Option.some.injEq, Prod.mk.injEq, true_and] at h
    obtain ⟨rfl, rfl⟩ := h
    exact Or.inl ⟨rfl, rfl, by simp⟩
  | cons b t =>
    simp only [hr] at h
    by_cases h46 : b.val = 46
    · simp only [h46, if_true] at h
      by_cases he : st.advanceAndDetectEndOfInput.1 = true
      · simp only [he, if_true, Option.some.injEq, Prod.mk.injEq] at h
        exact absurd h.1 (by decide)
      · simp only [Bool.not_eq_true] at he
        obtain ⟨hne, heq⟩ := advanceAndDetectEndOfInput_inv st he
        simp only [heq, Bool.false_eq_true, if_false] at h
        cases hd : detectDigits st.advance with
        | none => simp [hd] at h
        | some x =>
          obtain ⟨rd, sd⟩ := x
          simp only [hd] at h
          cases rd
          · simp only [Option.some.injEq, Prod.mk.injEq] at h
            exact absurd h.1 (by decide)
          · simp only [Option.some.injEq, Prod.mk.injEq, true_and] at h
            obtain ⟨rfl, rfl⟩ := h
            exact Or.inr ⟨rfl, ⟨b, t, rfl, h46⟩, hne, rfl⟩
    · simp only [h46, if_false, Option.some.injEq, Prod.mk.injEq, true_and] at h
      obtain ⟨rfl, rfl⟩ := h
      refine Or.inl ⟨rfl, rfl, ?_⟩
      intro x hx
      simp only [List.head?_cons, Option.some.injEq] at hx
      subst hx
      exact h46

/-- The head of the second run, from a property of the head of the first run that is kept at
the end. -/
theorem Frame.Sim.head_not {F : Frame} {st st2 : ParserImpl} (hs : F.Sim st st2)
    (hag : F.Agree) (bad : Byte → Prop)
    (hbad : ∀ b, bad b → isDecimalDigit b = true ∨ b.val = 46 ∨ b.val = 101 ∨ b.val = 69)
    (h : ∀ b, st.i.rest.head? = some b → ¬ bad b) :
    ∀ b, st2.i.rest.head? = some b → ¬ bad b := by
  rcases hs.inside_or_end with hin | ⟨h1, h2⟩
  · obtain ⟨b, c, hr, hr2⟩ := hs.cons hin
    rw [hr] at h
    rw [hr2]
    exact h
  · rw [h1] at h
    rw [h2]
    exact hag.headNot bad hbad h

theorem parseNumberFraction_sim (F : Frame) (hag : F.Agree) (st st2 : ParserImpl) (d : Bool)
    (st' : ParserImpl) (h : parseNumberFraction st = some (true, d, st')) (hs : F.Sim st st2)
    (hin : F.s.length ≤ st'.i.rest.length) :
    ∃ st2', parseNumberFraction st2 = some (true, d, st2') ∧ F.Sim st' st2' := by
  rcases parseNumberFraction_inv st d st' h with ⟨rfl, rfl, hh⟩ | ⟨rfl, ⟨b, t, hr, h46⟩, hne, hd⟩
  · refine ⟨st2, parseNumberFraction_stop st2 ?_, hs⟩
    exact hs.head_not hag (fun b => b.val = 46) (fun b hb => Or.inr (Or.inl hb)) hh
  · have hlt := ((detectDigits_post {} _ _ _ hd).1 rfl).2
    have hl := advance_length st (by rw [hr]; simp)
    have hin0 : F.s.length < st.i.rest.length := by omega
    have hin1 : F.s.length < st.advance.i.rest.length := by omega
    obtain ⟨t2, hr2⟩ := hs.head hin0 hr
    obtain ⟨st2', hd2, hsim⟩ := detectDigits_sim F hag _ _ _ hd (hs.advance hin0) hin
    refine ⟨st2', ?_, hsim⟩
    unfold parseNumberFraction
    simp only [hr2, h46, if_true,
      advanceAndDetectEndOfInput_ne st2 ((hs.advance hin0).1.ne_nil hin1), Bool.false_eq_true,
      if_false, hd2]

theorem parseNumberExponent_stop (st : ParserImpl)
    (h : ∀ b, st.i.rest.head? = some b → ¬ (b.val ||| 0x20 = 101)) :
    parseNumberExponent st = some (true, false, st) := by
  unfold parseNumberExponent
  cases hr : st.i.rest with
  | nil => rfl
  | cons b t =>
    have := h b (by rw [hr]; rfl)
    simp only [this, if_false]

/-- The ways in which the exponent part of `parseNumber` goes on. -/
theorem parseNumberExponent_inv (st : ParserImpl) (d : Bool) (st' : ParserImpl)
    (h : parseNumberExponent st = some (true, d, st')) :
    (d = false ∧ st' = st ∧ ∀ b, st.i.rest.head? = some b → ¬ (b.val ||| 0x20 = 101)) ∨
    (d = true ∧ (∃ b t, st.i.rest = b :: t ∧ b.val ||| 0x20 = 101) ∧
      ∃ c t', st.advance.i.rest = c :: t' ∧
        (((c.val = 43 ∨ c.val = 45) ∧ st.advance.advance.i.rest ≠ [] ∧
            detectDigits st.advance.advance = some (true, st')) ∨
          (¬(c.val = 43 ∨ c.val = 45) ∧ detectDigits st.advance = some (true, st')))) := by
  unfold parseNumberExponent at h
  cases hr : st.i.rest with
  | nil =>
    simp only [hr, Option.some.injEq, Prod.mk.injEq, true_and] at h
    obtain ⟨rfl, rfl⟩ := h
    exact Or.inl ⟨rfl, rfl, by simp⟩
  | cons b t =>
    simp only [hr] at h
    by_cases hE : b.val ||| 0x20 = 101
    · simp only [hE, if_true] at h
      by_cases he : st.advanceAndDetectEndOfInput.1 = true
      · simp only [he, if_true, Option.some.injEq, Prod.mk.injEq] at h
        exact absurd h.1 (by decide)
      · simp only [Bool.not_eq_true] at he
        obtain ⟨hne, heq⟩ := advanceAndDetectEndOfInput_inv st he
        simp only [heq, Bool.false_eq_true, if_false] at h
        cases hr2 : st.advance.i.rest with
        | nil => exact absurd hr2 hne
        | cons c t' =>
          simp only [hr2] at h
          refine Or.inr ?_
          by_cases hsign : c.val = 43 ∨ c.val = 45
          · simp only [hsign, if_true] at h
            by_cases he2 : st.advance.advanceAndDetectEndOfInput.1 = true
            · simp only [he2, if_true, Option.some.injEq, Prod.mk.injEq] at h
              exact absurd h.1 (by decide)
            · simp only [Bool.not_eq_true] at he2
              obtain ⟨hne2, heq2⟩ := advanceAndDetectEndOfInput_inv st.advance he2
              simp only [heq2, Bool.false_eq_true, if_false] at h
              cases hd : detectDigits st.advance.advance with
              | none => simp [hd] at h
              | some x =>
                obtain ⟨rd, sd⟩ := x
                simp only [hd] at h
                cases rd
                · simp only [Option.some.injEq, Prod.mk.injEq] at h
                  exact absurd h.1 (by decide)
                · simp only [Option.some.injEq, Prod.mk.injEq, true_and] at h
                  obtain ⟨rfl, rfl⟩ := h
                  exact ⟨rfl, ⟨b, t, rfl, hE⟩, c, t', rfl, Or.inl ⟨hsign, hne2, rfl⟩⟩
          · simp only [hsign, if_false, Bool.false_eq_true] at h
            cases hd : detectDigits st.advance with
            | none => simp [hd] at h
            | some x =>
              obtain ⟨rd, sd⟩ := x
              simp only [hd] at h
              cases rd
              · simp only [Option.some.injEq, Prod.mk.injEq] at h
                exact absurd h.1 (by decide)
              · simp only [Option.some.injEq, Prod.mk.injEq, true_and] at h
                obtain ⟨rfl, rfl⟩ := h
                exact ⟨rfl, ⟨b, t, rfl, hE⟩, c, t', rfl, Or.inr ⟨hsign, rfl⟩⟩
    · simp only [hE, if_false, Option.some.injEq, Prod.mk.injEq, true_and] at h
      obtain ⟨rfl, rfl⟩ := h
      refine Or.inl ⟨rfl, rfl, ?_⟩
      intro x hx
      simp only [List.head?_cons, Option.some.injEq] at hx
      subst hx
      exact hE

theorem parseNumberExponent_sim (F : Frame) (hag : F.Agree) (st st2 : ParserImpl) (d : Bool)
    (st' : ParserImpl) (h : parseNumberExponent st = some (true, d, st')) (hs : F.Sim st st2)
    (hin : F.s.length ≤ st'.i.rest.length) :
    ∃ st2', parseNumberExponent st2 = some (true, d, st2') ∧ F.Sim st' st2' := by
  rcases parseNumberExponent_inv st d st' h with
    ⟨rfl, rfl, hh⟩ | ⟨rfl, ⟨b, t, hr, hE⟩, c, t', hrc, hcase⟩
  · refine ⟨st2, parseNumberExponent_stop st2 ?_, hs⟩
    exact hs.head_not hag (fun b => b.val ||| 0x20 = 101)
      (fun b hb => Or.inr (Or.inr ((or_0x20_eq b).mp hb))) hh
  · have hl := advance_length st (by rw [hr]; simp)
    have hl1 := advance_length st.advance (by rw [hrc]; simp)
    rcases hcase with ⟨hsign, hne2, hd⟩ | ⟨hsign, hd⟩
    · have hlt := ((detectDigits_post {} _ _ _ hd).1 rfl).2
      have hin0 : F.s.length < st.i.rest.length := by omega
      have hin1 : F.s.length < st.advance.i.rest.length := by omega
      have hin2 : F.s.length < st.advance.advance.i.rest.length := by omega
      obtain ⟨t2, hr2⟩ := hs.head hin0 hr
      obtain ⟨t2', hrc2⟩ := (hs.advance hin0).head hin1 hrc
      obtain ⟨st2', hd2, hsim⟩ := detectDigits_sim F hag _ _ _ hd
        ((hs.advance hin0).advance hin1) hin
      refine ⟨st2', ?_, hsim⟩
      unfold parseNumberExponent
      simp only [hr2, hE, if_true,
        advanceAndDetectEndOfInput_ne st2 ((hs.advance hin0).1.ne_nil hin1), Bool.false_eq_true,
        if_false, hrc2, hsign,
        advanceAndDetectEndOfInput_ne st2.advance
          (((hs.advance hin0).advance hin1).1.ne_nil hin2), hd2]
    · have hlt := ((detectDigits_post {} _ _ _ hd).1 rfl).2
      have hin0 : F.s.length < st.i.rest.length := by omega
      have hin1 : F.s.length < st.advance.i.rest.length := by omega
      obtain ⟨t2, hr2⟩ := hs.head hin0 hr
      obtain ⟨t2', hrc2⟩ := (hs.advance hin0).head hin1 hrc
      obtain ⟨st2', hd2, hsim⟩ := detectDigits_sim F hag _ _ _ hd (hs.advance hin0) hin
      refine ⟨st2', ?_, hsim⟩
      unfold parseNumberExponent
      simp only [hr2, hE, if_true,
        advanceAndDetectEndOfInput_ne st2 ((hs.advance hin0).1.ne_nil hin1), Bool.false_eq_true,
        if_false, hrc2, hsign, hd2]

theorem take19_eq (begin e : Ptr) (n : Nat) (h : e.pos - begin.pos - n = 19) :
    (begin.rest.drop n).take 19 = (begin.range e).drop n := by
  have e1 : e.pos - begin.pos = n + 19 := by omega
  simp only [Ptr.range, e1]
  rw [List.take_drop]

theorem parseNumberConvert_sim (F : Frame) (begin begin2 : Ptr) (n : Nat) (d : Bool)
    (v v2 v' : Value) (st st2 st' : ParserImpl)
    (h : parseNumberConvert begin n d v st = (true, v', st'))
    (hb : F.PtrSim begin begin2) (hs : F.Sim st st2) (hreach : begin.Reach st.i) :
    parseNumberConvert begin2 n d v2 st2 = (true, v', st2) ∧ st' = st := by
  have hrange := range_sim F begin begin2 st.i st2.i hb hs.1 hreach
  have hp := hs.pos
  obtain ⟨c, -, -, hbp⟩ := hb
  have hle := hreach.pos_le
  have hlen : st2.i.pos - begin2.pos - n = st.i.pos - begin.pos - n := by omega
  have hcond : (st2.i.pos - begin2.pos - n = 19 ∧
        stringViewLe ((begin2.rest.drop n).take 19) (maxValue n) = true) ↔
      (st.i.pos - begin.pos - n = 19 ∧
        stringViewLe ((begin.rest.drop n).take 19) (maxValue n) = true) := by
    rw [hlen]
    constructor
    · rintro ⟨h1, h2⟩
      refine ⟨h1, ?_⟩
      rw [take19_eq begin st.i n h1]
      rw [take19_eq begin2 st2.i n (by omega), hrange] at h2
      exact h2
    · rintro ⟨h1, h2⟩
      refine ⟨h1, ?_⟩
      rw [take19_eq begin2 st2.i n (by omega), hrange]
      rw [take19_eq begin st.i n h1] at h2
      exact h2
  unfold parseNumberConvert at h ⊢
  simp only [hrange, hcond] at h ⊢
  simp only [hlen]
  split_ifs at h ⊢ with hc
  · cases hf : from_chars_int64 (begin.range st.i) <;> simp only [hf] at h ⊢ <;>
      simp only [Prod.mk.injEq] at h
    · obtain ⟨-, rfl, rfl⟩ := h
      exact ⟨rfl, rfl⟩
    · exact absurd h.1 (by decide)
    · exact absurd h.1 (by decide)
  · cases hf : from_chars_double (begin.range st.i) <;> simp only [hf] at h ⊢ <;>
      simp only [Prod.mk.injEq] at h
    · obtain ⟨-, rfl, rfl⟩ := h
      exact ⟨rfl, rfl⟩
    · exact absurd h.1 (by decide)
    · exact absurd h.1 (by decide)

theorem parseNumberConvert_state (begin : Ptr) (n : Nat) (d : Bool) (v v' : Value)
    (st st' : ParserImpl) (h : parseNumberConvert begin n d v st = (true, v', st')) :
    st' = st := by
  unfold parseNumberConvert at h
  simp only at h
  split_ifs at h with hc
  · cases hf : from_chars_int64 (begin.range st.i) <;> simp only [hf] at h <;>
      simp only [Prod.mk.injEq] at h
    · exact h.2.2.symm
    · exact absurd h.1 (by decide)
    · exact absurd h.1 (by decide)
  · cases hf : from_chars_double (begin.range st.i) <;> simp only [hf] at h <;>
      simp only [Prod.mk.injEq] at h
    · exact h.2.2.symm
    · exact absurd h.1 (by decide)
    · exact absurd h.1 (by decide)

theorem parseNumberBody_sim (F : Frame) (hag : F.Agree) (begin begin2 : Ptr) (n : Nat)
    (v v2 v' : Value) (st st2 st' : ParserImpl)
    (h : parseNumberBody begin n v st = some (true, v', st'))
    (hb : F.PtrSim begin begin2) (hs : F.Sim st st2) (hreach : begin.Reach st.i)
    (hin : F.s.length ≤ st'.i.rest.length) :
    ∃ st2', parseNumberBody begin2 n v2 st2 = some (true, v', st2') ∧ F.Sim st' st2' := by
  unfold parseNumberBody at h ⊢
  cases h1 : parseNumberInteger st with
  | none => simp [h1] at h
  | some x1 =>
    obtain ⟨r1, st1⟩ := x1
    simp only [h1] at h
    cases r1 with
    | false =>
      simp only [Option.some.injEq, Prod.mk.injEq] at h
      exact absurd h.1 (by decide)
    | true =>
      simp only at h
      have p1 := ((parseNumberInteger_post {} _ _ _ h1).1 rfl).1
      cases h2 : parseNumberFraction st1 with
      | none => simp [h2] at h
      | some x2 =>
        obtain ⟨r2, d1, st2a⟩ := x2
        simp only [h2] at h
        cases r2 with
        | false =>
          simp only [Option.some.injEq, Prod.mk.injEq] at h
          exact absurd h.1 (by decide)
        | true =>
          simp only at h
          have p2 := (parseNumberFraction_post {} _ _ _ _ h2).1 rfl
          cases h3 : parseNumberExponent st2a with
          | none => simp [h3] at h
          | some x3 =>
            obtain ⟨r3, d2, st3⟩ := x3
            simp only [h3] at h
            cases r3 with
            | false =>
              simp only [Option.some.injEq, Prod.mk.injEq] at h
              exact absurd h.1 (by decide)
            | true =>
              simp only [Option.some.injEq] at h
              have p3 := (parseNumberExponent_post {} _ _ _ _ h3).1 rfl
              have hr3 : begin.Reach st3.i :=
                hreach.trans (p1.cursor.trans (p2.cursor.trans p3.cursor))
              -- the conversion leaves the state as it is
              have hst : st' = st3 := parseNumberConvert_state _ _ _ _ _ _ _ h
              subst hst
              have l3 := p3.cursor.length_le
              have l2 := p2.cursor.length_le
              obtain ⟨s1, e1, sim1⟩ := parseNumberInteger_sim F hag _ _ _ h1 hs (by omega)
              obtain ⟨s2, e2, sim2⟩ := parseNumberFraction_sim F hag _ _ _ _ h2 sim1 (by omega)
              obtain ⟨s3, e3, sim3⟩ := parseNumberExponent_sim F hag _ _ _ _ h3 sim2 hin
              have hc := parseNumberConvert_sim F begin begin2 n (d1 || d2) v v2 v' _ s3 _ h
                hb sim3 hr3
              refine ⟨s3, ?_, sim3⟩
              simp only [e1, e2, e3, hc.1]

theorem parseNumber_sim (F : Frame) (hag : F.Agree) (v v2 v' : Value) (st st2 st' : ParserImpl)
    (h : parseNumber v st = some (true, v', st')) (hs : F.Sim st st2)
    (hin : F.s.length ≤ st'.i.rest.length) :
    ∃ st2', parseNumber v2 st2 = some (true, v', st2') ∧ F.Sim st' st2' := by
  have hlt := ((parseNumber_post {} _ _ _ _ _ h).1 rfl).2
  have hin0 : F.s.length < st.i.rest.length := by omega
  obtain ⟨b, c, hr, hr2⟩ := hs.cons hin0
  have hne : st.i.rest ≠ [] := by rw [hr]; simp
  unfold parseNumber at h ⊢
  simp only [hr, hr2] at h ⊢
  by_cases hneg : b.val = 45
  · simp only [hneg, if_true, ne_eq, one_ne_zero, not_false_eq_true] at h ⊢
    by_cases he : st.advanceAndDetectEndOfInput.1 = true
    · simp only [he, if_true, Option.some.injEq, Prod.mk.injEq] at h
      exact absurd h.1 (by decide)
    · simp only [Bool.not_eq_true] at he
      obtain ⟨hne1, heq⟩ := advanceAndDetectEndOfInput_inv st he
      simp only [heq, Bool.false_eq_true, if_false] at h
      have hl := advance_length st hne
      have hlt1 := ((parseNumberBody_post {} _ _ _ _ _ _ _ (Ptr.reach_next hne) h).1 rfl).2
      have hin1 : F.s.length < st.advance.i.rest.length := by omega
      simp only [advanceAndDetectEndOfInput_ne st2 ((hs.advance hin0).1.ne_nil hin1),
        Bool.false_eq_true, if_false]
      exact parseNumberBody_sim F hag _ _ _ _ _ _ _ _ _ h hs.1 (hs.advance hin0)
        (Ptr.reach_next hne) hin
  · simp only [hneg, if_false, ne_eq, not_true_eq_false, Bool.false_eq_true] at h ⊢
    exact parseNumberBody_sim F hag _ _ _ _ _ _ _ _ _ h hs.1 hs (Ptr.Reach.refl _) hin

theorem locImpl_step (F : Frame) (hag : F.Agree) (o : ParsingOptions) (fuel : Nat)
    (ihArr : LocArr F o fuel) (ihObj : LocObj F o fuel) : LocImpl F o (fuel + 1) := by
  intro v st v' st' h st2 v2 fuel' hs hin hf
  have hlt := ((parser_post o (fuel + 1)).1 _ _ _ _ _ h).lt
  have hin0 : F.s.length < st.i.rest.length := by omega
  obtain ⟨f', rfl⟩ : ∃ f', fuel' = f' + 1 := ⟨fuel' - 1, by omega⟩
  obtain ⟨b, c, hr, hr2⟩ := hs.cons hin0
  have hne : st.i.rest ≠ [] := by rw [hr]; simp
  unfold parseImpl at h ⊢
  simp only [hr, hr2] at h ⊢
  split_ifs at h ⊢ with h1 h2 h3 h4 h5 h6
  · simp only [Option.some.injEq] at h
    have e : NullLiteral = [110, 117, 108, 108] := by decide
    rw [e] at h ⊢
    obtain ⟨st2', e2, hsim⟩ := parseLiteral_sim F _ _ _ _ v v2 st st2 v' st' hs hne h hin
    exact ⟨st2', by rw [e2], hsim⟩
  · simp only [Option.some.injEq] at h
    have e : FalseLiteral = [102, 97, 108, 115, 101] := by decide
    rw [e] at h ⊢
    obtain ⟨st2', e2, hsim⟩ := parseLiteral_sim F _ _ _ _ v v2 st st2 v' st' hs hne h hin
    exact ⟨st2', by rw [e2], hsim⟩
  · simp only [Option.some.injEq] at h
    have e : TrueLiteral = [116, 114, 117, 101] := by decide
    rw [e] at h ⊢
    obtain ⟨st2', e2, hsim⟩ := parseLiteral_sim F _ _ _ _ v v2 st st2 v' st' hs hne h hin
    exact ⟨st2', by rw [e2], hsim⟩
  · cases hstr : parseString o [] st with
    | none => simp [hstr] at h
    | some x =>
      obtain ⟨rs, ss, sts⟩ := x
      simp only [hstr, Option.some.injEq, Prod.mk.injEq] at h
      obtain ⟨rfl, rfl, rfl⟩ := h
      obtain ⟨st2', e2, hsim⟩ := parseString_sim F o [] st st2 ss sts hstr hs hne hin
      exact ⟨st2', by rw [e2], hsim⟩
  · exact ihArr _ _ _ _ hne h st2 v2 f' hs hin (by omega)
  · exact ihObj _ _ _ _ hne h st2 v2 f' hs hin (by omega)
  · exact parseNumber_sim F hag v v2 v' st st2 st' h hs hin

theorem locArr_step (F : Frame) (o : ParsingOptions) (fuel : Nat)
    (ihRec : LocRec F o fuel) : LocArr F o (fuel + 1) := by
  intro v st v' st' hne h st2 v2 fuel' hs hin hf
  have hlt := ((parser_post o (fuel + 1)).2.1 _ _ _ _ _ hne h).lt
  have hin0 : F.s.length < st.i.rest.length := by omega
  obtain ⟨f', rfl⟩ : ∃ f', fuel' = f' + 1 := ⟨fuel' - 1, by omega⟩
  have hl := advance_length st hne
  have hle := endWs_length o st.advance
  have hsa := hs.advance hin0
  unfold parseArray at h ⊢
  by_cases he : st.advance.detectEndOfInputAfterSkippingWhitespaces.1 = true
  · simp only [he, if_true, Option.some.injEq, Prod.mk.injEq] at h
    exact absurd h.1 (by decide)
  · simp only [Bool.not_eq_true] at he
    have hne2 := ((post_endWs o st.advance).2 he).2
    simp only [he, Bool.false_eq_true, if_false] at h
    rcases st.advance.detectEndOfInputAfterSkippingWhitespaces.2.i.rest_cases with
      hr | ⟨b, rest, hr⟩
    · exact absurd hr hne2
    · simp only [hr] at h
      have hl2 := advance_length _ hne2
      by_cases h1 : b.val = 93
      · simp only [h1, if_true, Option.some.injEq, Prod.mk.injEq, true_and] at h
        obtain ⟨rfl, rfl⟩ := h
        have hinE : F.s.length <
            st.advance.detectEndOfInputAfterSkippingWhitespaces.2.i.rest.length := by omega
        obtain ⟨he2, hse⟩ := hsa.endWs he hinE
        obtain ⟨t2, hr2⟩ := hse.head hinE hr
        simp only [he2, Bool.false_eq_true, if_false, hr2, h1, if_true]
        exact ⟨_, rfl, hse.advance hinE⟩
      · simp only [h1, if_false] at h
        cases hm : parseArrayMembersRecursion o fuel [] .null 1
            st.advance.detectEndOfInputAfterSkippingWhitespaces.2 with
        | none => simp [hm] at h
        | some x =>
          obtain ⟨rm, am, um, sm⟩ := x
          simp only [hm] at h
          cases rm with
          | false =>
            simp only [Option.some.injEq, Prod.mk.injEq] at h
            exact absurd h.1 (by decide)
          | true =>
            simp only [Option.some.injEq, Prod.mk.injEq, true_and] at h
            obtain ⟨rfl, rfl⟩ := h
            have hltm := ((parser_post o fuel).2.2.1 _ _ _ _ _ _ _ _ hm).lt
            have hinE : F.s.length <
                st.advance.detectEndOfInputAfterSkippingWhitespaces.2.i.rest.length := by omega
            obtain ⟨he2, hse⟩ := hsa.endWs he hinE
            obtain ⟨t2, hr2⟩ := hse.head hinE hr
            obtain ⟨st2', e2, hsim⟩ := ihRec _ _ _ _ _ _ _ hm _ .null f' hse hin (by omega)
            simp only [he2, Bool.false_eq_true, if_false, hr2, h1, e2]
            exact ⟨_, rfl, hsim⟩

theorem locObj_step (F : Frame) (o : ParsingOptions) (fuel : Nat)
    (ihMem : LocMem F o fuel) : LocObj F o (fuel + 1) := by
  intro v st v' st' hne h st2 v2 fuel' hs hin hf
  have hlt := ((parser_post o (fuel + 1)).2.2.2.2.1 _ _ _ _ _ hne h).lt
  have hin0 : F.s.length < st.i.rest.length := by omega
  obtain ⟨f', rfl⟩ : ∃ f', fuel' = f' + 1 := ⟨fuel' - 1, by omega⟩
  have hl := advance_length st hne
  have hle := endWs_length o st.advance
  have hsa := hs.advance hin0
  unfold parseObject at h ⊢
  by_cases he : st.advance.detectEndOfInputAfterSkippingWhitespaces.1 = true
  · simp only [he, if_true, Option.some.injEq, Prod.mk.injEq] at h
    exact absurd h.1 (by decide)
  · simp only [Bool.not_eq_true] at he
    have hne2 := ((post_endWs o st.advance).2 he).2
    simp only [he, Bool.false_eq_true, if_false] at h
    rcases st.advance.detectEndOfInputAfterSkippingWhitespaces.2.i.rest_cases with
      hr | ⟨b, rest, hr⟩
    · exact absurd hr hne2
    · simp only [hr] at h
      have hl2 := advance_length _ hne2
      by_cases h1 : b.val = 125
      · simp only [h1, if_true, Option.some.injEq, Prod.mk.injEq, true_and] at h
        obtain ⟨rfl, rfl⟩ := h
        have hinE : F.s.length <
            st.advance.detectEndOfInputAfterSkippingWhitespaces.2.i.rest.length := by omega
        obtain ⟨he2, hse⟩ := hsa.endWs he hinE
        obtain ⟨t2, hr2⟩ := hse.head hinE hr
        simp only [he2, Bool.false_eq_true, if_false, hr2, h1, if_true]
        exact ⟨_, rfl, hse.advance hinE⟩
      · simp only [h1, if_false] at h
        cases hm : parseObjectMembers o fuel []
            st.advance.detectEndOfInputAfterSkippingWhitespaces.2 with
        | none => simp [hm] at h
        | some x =>
          obtain ⟨rm, om, sm⟩ := x
          simp only [hm, Option.some.injEq, Prod.mk.injEq] at h
          obtain ⟨rfl, rfl, rfl⟩ := h
          have hltm := ((parser_post o fuel).2.2.2.2.2 _ _ _ _ _ hm).lt
          have hinE : F.s.length <
              st.advance.detectEndOfInputAfterSkippingWhitespaces.2.i.rest.length := by omega
          obtain ⟨he2, hse⟩ := hsa.endWs he hinE
          obtain ⟨t2, hr2⟩ := hse.head hinE hr
          obtain ⟨st2', e2, hsim⟩ := ihMem _ _ _ _ hm _ f' hse hin (by omega)
          simp only [he2, Bool.false_eq_true, if_false, hr2, h1, e2]
          exact ⟨_, rfl, hsim⟩

theorem locRec_step (F : Frame) (o : ParsingOptions) (fuel : Nat)
    (ihImpl : LocImpl F o fuel) (ihRec : LocRec F o fuel) (ihLoop : LocLoop F o fuel) :
    LocRec F o (fuel + 1) := by
  intro a v size st a' v' st' h st2 v2 fuel' hs hin hf
  obtain ⟨f', rfl⟩ : ∃ f', fuel' = f' + 1 := ⟨fuel' - 1, by omega⟩
  unfold parseArrayMembersRecursion at h ⊢
  cases hi : parseImpl o fuel v st with
  | none => simp [hi] at h
  | some x =>
    obtain ⟨ri, vi, si⟩ := x
    simp only [hi] at h
    cases ri with
    | false =>
      simp only [Option.some.injEq, Prod.mk.injEq] at h
      exact absurd h.1 (by decide)
    | true =>
      simp only at h
      have hpl := ((parser_post o fuel).1 _ _ _ _ _ hi).lt
      have hle := endWs_length o si
      by_cases he : si.detectEndOfInputAfterSkippingWhitespaces.1 = true
      · simp only [he, if_true, Option.some.injEq, Prod.mk.injEq] at h
        exact absurd h.1 (by decide)
      · simp only [Bool.not_eq_true] at he
        have hne2 := ((post_endWs o si).2 he).2
        simp only [he, Bool.false_eq_true, if_false] at h
        rcases si.detectEndOfInputAfterSkippingWhitespaces.2.i.rest_cases with
          hr | ⟨b, rest, hr⟩
        · exact absurd hr hne2
        · simp only [hr] at h
          have hl2 := advance_length _ hne2
          by_cases h1 : b.val = 93
          · simp only [h1, if_true, Option.some.injEq, Prod.mk.injEq, true_and] at h
            obtain ⟨rfl, rfl, rfl⟩ := h
            have hinE : F.s.length <
                si.detectEndOfInputAfterSkippingWhitespaces.2.i.rest.length := by omega
            obtain ⟨si2, ei, hsi⟩ := ihImpl _ _ _ _ hi st2 v2 f' hs (by omega) (by omega)
            obtain ⟨he2, hse⟩ := hsi.endWs he hinE
            obtain ⟨t2, hr2⟩ := hse.head hinE hr
            simp only [ei, he2, Bool.false_eq_true, if_false, hr2, h1, if_true]
            exact ⟨_, rfl, hse.advance hinE⟩
          · simp only [h1, if_false] at h
            by_cases h2 : b.val = 44
            · simp only [h2, if_true] at h
              have hle2 := endWs_length o
                si.detectEndOfInputAfterSkippingWhitespaces.2.advance
              by_cases he3 : si.detectEndOfInputAfterSkippingWhitespaces.2.advance.detectEndOfInputAfterSkippingWhitespaces.1 = true
              · simp only [he3, if_true, Option.some.injEq, Prod.mk.injEq] at h
                exact absurd h.1 (by decide)
              · simp only [Bool.not_eq_true] at he3
                simp only [he3, Bool.false_eq_true, if_false] at h
                by_cases hsz : size > 42
                · simp only [hsz, if_true] at h
                  cases hm : parseArrayMembersLoop o fuel (resize a (size + 1))
                      si.detectEndOfInputAfterSkippingWhitespaces.2.advance.detectEndOfInputAfterSkippingWhitespaces.2 with
                  | none => simp [hm] at h
                  | some x =>
                    obtain ⟨rm, am, sm⟩ := x
                    simp only [hm, Option.some.injEq, Prod.mk.injEq] at h
                    obtain ⟨rfl, rfl, rfl, rfl⟩ := h
                    have hltm := ((parser_post o fuel).2.2.2.1 _ _ _ _ _ hm).lt
                    have hinE3 : F.s.length < si.detectEndOfInputAfterSkippingWhitespaces.2.advance.detectEndOfInputAfterSkippingWhitespaces.2.i.rest.length := by
                      omega
                    have hinE : F.s.length <
                        si.detectEndOfInputAfterSkippingWhitespaces.2.i.rest.length := by omega
                    obtain ⟨si2, ei, hsi⟩ := ihImpl _ _ _ _ hi st2 v2 f' hs (by omega)
                      (by omega)
                    obtain ⟨he2, hse⟩ := hsi.endWs he hinE
                    obtain ⟨t2, hr2⟩ := hse.head hinE hr
                    obtain ⟨he4, hse3⟩ := (hse.advance hinE).endWs he3 hinE3
                    obtain ⟨st2', e2, hsim⟩ := ihLoop _ _ _ _ hm _ f' hse3 hin (by omega)
                    simp only [ei, he2, Bool.false_eq_true, if_false, hr2, h1, h2, if_true,
                      he4, hsz, e2]
                    exact ⟨_, rfl, hsim⟩
                · simp only [hsz, if_false] at h
                  cases hm : parseArrayMembersRecursion o fuel a .null (size + 1)
                      si.detectEndOfInputAfterSkippingWhitespaces.2.advance.detectEndOfInputAfterSkippingWhitespaces.2 with
                  | none => simp [hm] at h
                  | some x =>
                    obtain ⟨rm, am, um, sm⟩ := x
                    simp only [hm] at h
                    cases rm with
                    | false =>
                      simp only [Option.some.injEq, Prod.mk.injEq] at h
                      exact absurd h.1 (by decide)
                    | true =>
                      simp only [Option.some.injEq, Prod.mk.injEq, true_and] at h
                      obtain ⟨rfl, rfl, rfl⟩ := h
                      have hltm := ((parser_post o fuel).2.2.1 _ _ _ _ _ _ _ _ hm).lt
                      have hinE3 : F.s.length < si.detectEndOfInputAfterSkippingWhitespaces.2.advance.detectEndOfInputAfterSkippingWhitespaces.2.i.rest.length := by
                        omega
                      have hinE : F.s.length <
                          si.detectEndOfInputAfterSkippingWhitespaces.2.i.rest.length := by
                        omega
                      obtain ⟨si2, ei, hsi⟩ := ihImpl _ _ _ _ hi st2 v2 f' hs (by omega)
                        (by omega)
                      obtain ⟨he2, hse⟩ := hsi.endWs he hinE
                      obtain ⟨t2, hr2⟩ := hse.head hinE hr
                      obtain ⟨he4, hse3⟩ := (hse.advance hinE).endWs he3 hinE3
                      obtain ⟨st2', e2, hsim⟩ := ihRec _ _ _ _ _ _ _ hm _ .null f' hse3 hin
                        (by omega)
                      simp only [ei, he2, Bool.false_eq_true, if_false, hr2, h1, h2, if_true,
                        he4, hsz, e2]
                      exact ⟨_, rfl, hsim⟩
            · simp only [h2, if_false, Option.some.injEq, Prod.mk.injEq] at h
              exact absurd h.1 (by decide)

theorem locLoop_step (F : Frame) (o : ParsingOptions) (fuel : Nat)
    (ihImpl : LocImpl F o fuel) (ihLoop : LocLoop F o fuel) : LocLoop F o (fuel + 1) := by
  intro a st a' st' h st2 fuel' hs hin hf
  obtain ⟨f', rfl⟩ : ∃ f', fuel' = f' + 1 := ⟨fuel' - 1, by omega⟩
  unfold parseArrayMembersLoop at h ⊢
  cases hi : parseImpl o fuel (a.getLastD .null) st with
  | none => rw [hi] at h; exact absurd h (by simp)
  | some x =>
    obtain ⟨ri, vi, si⟩ := x
    rw [hi] at h
    cases ri with
    | false =>
      simp only [Option.some.injEq, Prod.mk.injEq] at h
      exact absurd h.1 (by decide)
    | true =>
      simp only at h
      have hpl := ((parser_post o fuel).1 _ _ _ _ _ hi).lt
      have hle := endWs_length o si
      by_cases he : si.detectEndOfInputAfterSkippingWhitespaces.1 = true
      · simp only [he, if_true, Option.some.injEq, Prod.mk.injEq] at h
        exact absurd h.1 (by decide)
      · simp only [Bool.not_eq_true] at he
        have hne2 := ((post_endWs o si).2 he).2
        simp only [he, Bool.false_eq_true, if_false] at h
        rcases si.detectEndOfInputAfterSkippingWhitespaces.2.i.rest_cases with
          hr | ⟨b, rest, hr⟩
        · exact absurd hr hne2
        · simp only [hr] at h
          have hl2 := advance_length _ hne2
          by_cases h1 : b.val = 93
          · simp only [h1, if_true, Option.some.injEq, Prod.mk.injEq, true_and] at h
            obtain ⟨rfl, rfl⟩ := h
            have hinE : F.s.length <
                si.detectEndOfInputAfterSkippingWhitespaces.2.i.rest.length := by omega
            obtain ⟨si2, ei, hsi⟩ := ihImpl _ _ _ _ hi st2 (a.getLastD .null) f' hs (by omega)
              (by omega)
            obtain ⟨he2, hse⟩ := hsi.endWs he hinE
            obtain ⟨t2, hr2⟩ := hse.head hinE hr
            rw [ei]
            simp only [he2, Bool.false_eq_true, if_false, hr2, h1, if_true]
            exact ⟨_, rfl, hse.advance hinE⟩
          · simp only [h1, if_false] at h
            by_cases h2 : b.val = 44
            · simp only [h2, if_true] at h
              have hle2 := endWs_length o
                si.detectEndOfInputAfterSkippingWhitespaces.2.advance
              by_cases he3 : si.detectEndOfInputAfterSkippingWhitespaces.2.advance.detectEndOfInputAfterSkippingWhitespaces.1 = true
              · simp only [he3, if_true, Option.some.injEq, Prod.mk.injEq] at h
                exact absurd h.1 (by decide)
              · simp only [Bool.not_eq_true] at he3
                simp only [he3, Bool.false_eq_true, if_false] at h
                have hltm := ((parser_post o fuel).2.2.2.1 _ _ _ _ _ h).lt
                have hinE3 : F.s.length < si.detectEndOfInputAfterSkippingWhitespaces.2.advance.detectEndOfInputAfterSkippingWhitespaces.2.i.rest.length := by
                  omega
                have hinE : F.s.length <
                    si.detectEndOfInputAfterSkippingWhitespaces.2.i.rest.length := by omega
                obtain ⟨si2, ei, hsi⟩ := ihImpl _ _ _ _ hi st2 (a.getLastD .null) f' hs
                  (by omega) (by omega)
                obtain ⟨he2, hse⟩ := hsi.endWs he hinE
                obtain ⟨t2, hr2⟩ := hse.head hinE hr
                obtain ⟨he4, hse3⟩ := (hse.advance hinE).endWs he3 hinE3
                obtain ⟨st2', e2, hsim⟩ := ihLoop _ _ _ _ h _ f' hse3 hin (by omega)
                rw [ei]
                simp only [he2, Bool.false_eq_true, if_false, hr2, h1, h2, if_true, he4, e2]
                exact ⟨_, rfl, hsim⟩
            · simp only [h2, if_false, Option.some.injEq, Prod.mk.injEq] at h
              exact absurd h.1 (by decide)

theorem Frame.Sim.dupIssue {F : Frame} {a a2 : ParserImpl} (hs : F.Sim a a2) (C : Prop)
    [Decidable C] (p : Nat) (d : String) (c : ParsingIssue.Code) :
    F.Sim (if C then a.addIssueAt p d c else a) (if C then a2.addIssueAt (p + F.k) d c else a2) := by
  split_ifs
  · exact hs.addIssueAt p d c
  · exact hs

theorem dupIssue_cursor (a : ParserImpl) (C : Prop) [Decidable C] (p : Nat) (d : String)
    (c : ParsingIssue.Code) : (if C then a.addIssueAt p d c else a).i = a.i := by
  split_ifs <;> rfl

theorem locMem_step (F : Frame) (o : ParsingOptions) (fuel : Nat)
    (ihImpl : LocImpl F o fuel) (ihMem : LocMem F o fuel) : LocMem F o (fuel + 1) := by
  intro ob st ob' st' h st2 fuel' hs hin hf
  obtain ⟨f', rfl⟩ : ∃ f', fuel' = f' + 1 := ⟨fuel' - 1, by omega⟩
  have hlt := ((parser_post o (fuel + 1)).2.2.2.2.2 _ _ _ _ _ h).lt
  have hin0 : F.s.length < st.i.rest.length := by omega
  have hpos := hs.pos
  unfold parseObjectMembers at h ⊢
  rcases st.i.rest_cases with hr | ⟨b, rest, hr⟩
  · simp [hr] at h
  · have hne : st.i.rest ≠ [] := by simp [hr]
    obtain ⟨t2, hr2⟩ := hs.head hin0 hr
    simp only [hr] at h
    simp only [hr2]
    by_cases h1 : b.val = 34
    swap
    · simp only [ne_eq, h1, not_false_eq_true, if_true, Option.some.injEq, Prod.mk.injEq] at h
      exact absurd h.1 (by decide)
    simp only [ne_eq, h1, not_true_eq_false, if_false] at h ⊢
    cases hk : parseString o [] st with
    | none => simp [hk] at h
    | some x =>
      obtain ⟨rs, key, s1⟩ := x
      simp only [hk] at h
      cases rs with
      | false =>
        simp only [Option.some.injEq, Prod.mk.injEq] at h
        exact absurd h.1 (by decide)
      | true =>
        simp only at h
        have hpk := (post_parseString o _ _ _ _ _ hne hk).lt
        have hle1 := endWs_length o s1
        by_cases he : s1.detectEndOfInputAfterSkippingWhitespaces.1 = true
        · simp only [he, if_true, Option.some.injEq, Prod.mk.injEq] at h
          exact absurd h.1 (by decide)
        simp only [Bool.not_eq_true] at he
        have hne2 := ((post_endWs o s1).2 he).2
        simp only [he, Bool.false_eq_true, if_false] at h
        rcases s1.detectEndOfInputAfterSkippingWhitespaces.2.i.rest_cases with
          hrc | ⟨c, rest2, hrc⟩
        · exact absurd hrc hne2
        simp only [hrc] at h
        have hl2 := advance_length _ hne2
        have hle2 := endWs_length o s1.detectEndOfInputAfterSkippingWhitespaces.2.advance
        by_cases h2 : c.val = 58
        swap
        · simp only [ne_eq, h2, not_false_eq_true, if_true, Option.some.injEq,
            Prod.mk.injEq] at h
          exact absurd h.1 (by decide)
        simp only [ne_eq, h2, not_true_eq_false, if_false] at h
        by_cases h3 : s1.detectEndOfInputAfterSkippingWhitespaces.2.advance.detectEndOfInputAfterSkippingWhitespaces.1 = true
        · simp only [h3, if_true, Option.some.injEq, Prod.mk.injEq] at h
          exact absurd h.1 (by decide)
        simp only [Bool.not_eq_true] at h3
        simp only [h3, Bool.false_eq_true, if_false] at h
        by_cases h4 : (!(tryEmplace ob key).2) = true ∧ o.duplicateObjectKeys = .Fail
        · rw [if_pos h4] at h
          simp only [Option.some.injEq, Prod.mk.injEq] at h
          exact absurd h.1 (by decide)
        rw [if_neg h4] at h
        have hcur := dupIssue_cursor
          s1.detectEndOfInputAfterSkippingWhitespaces.2.advance.detectEndOfInputAfterSkippingWhitespaces.2
          ((!(tryEmplace ob key).2) = true ∧ o.duplicateObjectKeys ≠ .Ignore)
          st.i.pos "JSON object contains duplicate keys" .DuplicateKeys
        cases hv : parseImpl o fuel
            ((Object.find key (tryEmplace ob key).1).getD Value.null)
            (if (!(tryEmplace ob key).2) = true ∧ o.duplicateObjectKeys ≠ .Ignore then
              s1.detectEndOfInputAfterSkippingWhitespaces.2.advance.detectEndOfInputAfterSkippingWhitespaces.2.addIssueAt
                st.i.pos "JSON object contains duplicate keys" .DuplicateKeys
            else s1.detectEndOfInputAfterSkippingWhitespaces.2.advance.detectEndOfInputAfterSkippingWhitespaces.2) with
        | none => rw [hv] at h; exact absurd h (by simp)
        | some x =>
          obtain ⟨rv, w, sv⟩ := x
          rw [hv] at h
          cases rv with
          | false =>
            simp only [Option.some.injEq, Prod.mk.injEq] at h
            exact absurd h.1 (by decide)
          | true =>
            simp only at h
            have hpv := ((parser_post o fuel).1 _ _ _ _ _ hv).lt
            rw [hcur] at hpv
            have hle3 := endWs_length o sv
            by_cases he3 : sv.detectEndOfInputAfterSkippingWhitespaces.1 = true
            · simp only [he3, if_true, Option.some.injEq, Prod.mk.injEq] at h
              exact absurd h.1 (by decide)
            simp only [Bool.not_eq_true] at he3
            have hne3 := ((post_endWs o sv).2 he3).2
            simp only [he3, Bool.false_eq_true, if_false] at h
            rcases sv.detectEndOfInputAfterSkippingWhitespaces.2.i.rest_cases with
              hrd | ⟨d, rest3, hrd⟩
            · exact absurd hrd hne3
            simp only [hrd] at h
            have hl3 := advance_length _ hne3
            have hle4 := endWs_length o sv.detectEndOfInputAfterSkippingWhitespaces.2.advance
            -- what is left of the run, in either case, ends at or after `s`
            have hinV : F.s.length < sv.detectEndOfInputAfterSkippingWhitespaces.2.i.rest.length := by
              by_cases h5 : d.val = 125
              · simp only [h5, if_true, Option.some.injEq, Prod.mk.injEq, true_and] at h
                obtain ⟨-, rfl⟩ := h
                omega
              · simp only [h5, if_false] at h
                by_cases h6 : d.val = 44
                · simp only [h6, if_true] at h
                  by_cases h7 : sv.detectEndOfInputAfterSkippingWhitespaces.2.advance.detectEndOfInputAfterSkippingWhitespaces.1 = true
                  · simp only [h7, if_true, Option.some.injEq, Prod.mk.injEq] at h
                    exact absurd h.1 (by decide)
                  · simp only [h7, Bool.false_eq_true, if_false] at h
                    have := ((parser_post o fuel).2.2.2.2.2 _ _ _ _ _ h).lt
                    omega
                · simp only [h6, if_false, Option.some.injEq, Prod.mk.injEq] at h
                  exact absurd h.1 (by decide)
            have hinE : F.s.length <
                s1.detectEndOfInputAfterSkippingWhitespaces.2.i.rest.length := by omega
            have hinE2 : F.s.length < s1.detectEndOfInputAfterSkippingWhitespaces.2.advance.detectEndOfInputAfterSkippingWhitespaces.2.i.rest.length := by
              omega
            -- the second run, up to the value of the member
            obtain ⟨s12, ek, hsk⟩ := parseString_sim F o [] st st2 key s1 hk hs hne (by omega)
            obtain ⟨he2, hse⟩ := hsk.endWs he hinE
            obtain ⟨tc, hrc2⟩ := hse.head hinE hrc
            obtain ⟨he4, hse2⟩ := (hse.advance hinE).endWs h3 hinE2
            have hsd := hse2.dupIssue
              ((!(tryEmplace ob key).2) = true ∧ o.duplicateObjectKeys ≠ .Ignore)
              st.i.pos "JSON object contains duplicate keys" .DuplicateKeys
            obtain ⟨sv2, ev, hsv⟩ := ihImpl _ _ _ _ hv _
              ((Object.find key (tryEmplace ob key).1).getD Value.null) f' hsd (by omega)
              (by rw [hcur]; omega)
            obtain ⟨he5, hse3⟩ := hsv.endWs he3 hinV
            obtain ⟨td, hrd2⟩ := hse3.head hinV hrd
            simp only [ek, he2, Bool.false_eq_true, if_false, hrc2, h2, ne_eq, not_true_eq_false,
              he4]
            rw [if_neg h4, hpos, ev]
            simp only [he5, Bool.false_eq_true, if_false, hrd2]
            by_cases h5 : d.val = 125
            · simp only [h5, if_true, Option.some.injEq, Prod.mk.injEq, true_and] at h ⊢
              obtain ⟨rfl, rfl⟩ := h
              exact ⟨_, ⟨rfl, rfl⟩, hse3.advance hinV⟩
            · simp only [h5, if_false] at h ⊢
              by_cases h6 : d.val = 44
              · simp only [h6, if_true] at h ⊢
                by_cases h7 : sv.detectEndOfInputAfterSkippingWhitespaces.2.advance.detectEndOfInputAfterSkippingWhitespaces.1 = true
                · simp only [h7, if_true, Option.some.injEq, Prod.mk.injEq] at h
                  exact absurd h.1 (by decide)
                · simp only [Bool.not_eq_true] at h7
                  simp only [h7, Bool.false_eq_true, if_false] at h
                  have hltm := ((parser_post o fuel).2.2.2.2.2 _ _ _ _ _ h).lt
                  obtain ⟨he6, hse4⟩ := (hse3.advance hinV).endWs h7 (by omega)
                  simp only [he6, Bool.false_eq_true, if_false]
                  exact ihMem _ _ _ _ h _ f' hse4 hin (by omega)
              · simp only [h6, if_false, Option.some.injEq, Prod.mk.injEq] at h
                exact absurd h.1 (by decide)

/-- Locality of the parser: a run that succeeds and ends before the bytes `s` is repeated,
with the same values, on the buffer in which `s2` takes the place of `s`, at any offset
further to the right and with any budget that is enough for the bytes before `s`. -/
theorem parser_local (F : Frame) (hag : F.Agree) (o : ParsingOptions) (fuel : Nat) :
    LocImpl F o fuel ∧ LocArr F o fuel ∧ LocRec F o fuel ∧ LocLoop F o fuel ∧
      LocObj F o fuel ∧ LocMem F o fuel := by
  induction fuel with
  | zero =>
    refine ⟨?_, ?_, ?_, ?_, ?_, ?_⟩
    · intro v st v' st' h
      simp [parseImpl] at h
    · intro v st v' st' _ h
      simp [parseArray] at h
    · intro a v size st a' v' st' h
      simp [parseArrayMembersRecursion] at h
    · intro a st a' st' h
      simp [parseArrayMembersLoop] at h
    · intro v st v' st' _ h
      simp [parseObject] at h
    · intro ob st ob' st' h
      simp [parseObjectMembers] at h
  | succ fuel ih =>
    obtain ⟨ihImpl, ihArr, ihRec, ihLoop, ihObj, ihMem⟩ := ih
    exact ⟨locImpl_step F hag o fuel ihArr ihObj, locArr_step F o fuel ihRec,
      locRec_step F o fuel ihImpl ihRec ihLoop, locLoop_step F o fuel ihImpl ihLoop,
      locObj_step F o fuel ihMem, locMem_step F o fuel ihImpl ihMem⟩

theorem skipWhitespacesFrom_leading (ws rest : Bytes) (h : ∀ b ∈ ws, isWhitespace b)
    (pos : Nat) :
    skipWhitespacesFrom pos (ws ++ rest) = skipWhitespacesFrom (pos + ws.length) rest := by
  induction ws generalizing pos with
  | nil => simp
  | cons b t ih =>
    have hb : isWhitespace b := h b (List.mem_cons_self _ _)
    have hr : ∀ c ∈ t, isWhitespace c := fun c hc => h c (List.mem_cons_of_mem _ hc)
    unfold isWhitespace at hb
    rw [List.cons_append, skipWhitespacesFrom, if_pos hb, ih hr]
    simp [Nat.add_assoc, Nat.add_comm 1]

theorem endWs_leading (ws rest : Bytes) (h : ∀ b ∈ ws, isWhitespace b)
    (iss : List ParsingIssue) :
    detectEndOfInputAfterSkippingWhitespaces ⟨⟨0, ws ++ rest⟩, iss⟩ =
      detectEndOfInputAfterSkippingWhitespaces ⟨⟨ws.length, rest⟩, iss⟩ := by
  unfold detectEndOfInputAfterSkippingWhitespaces skipWhitespaces
  simp only [skipWhitespacesFrom_leading ws rest h 0, Nat.zero_add]

/-- What a success of `impl::parse` says of the run of `parseImpl` inside it. -/
theorem implParse_inv (input : Bytes) (o : ParsingOptions) (res : ParsingResult)
    (h : impl.parse input o = some res) (hs : res.status = .Success) :
    (detectEndOfInputAfterSkippingWhitespaces ⟨⟨0, input⟩, []⟩).1 = false ∧
    res.parsedSize ≤ input.length ∧
    parseImpl o (3 * input.length + 1) .null
        (detectEndOfInputAfterSkippingWhitespaces ⟨⟨0, input⟩, []⟩).2 =
      some (true, res.value,
        ⟨⟨res.parsedSize, input.drop res.parsedSize⟩, res.issues⟩) := by
  unfold impl.parse at h
  cases hp : ParserImpl.parse o (3 * input.length + 1) .null { i := ⟨0, input⟩, issues := [] } with
  | none => rw [hp] at h; simp at h
  | some x =>
    obtain ⟨r, v, st'⟩ := x
    rw [hp] at h
    simp only [Option.some.injEq] at h
    subst h
    have hpost := parserParse_post o _ _ _ _ _ _ hp
    cases r with
    | false => simp at hs
    | true =>
      obtain ⟨h1, h2⟩ := hpost.ok.cursor.eq_drop
      unfold ParserImpl.parse at hp
      simp only at hp
      by_cases he : (detectEndOfInputAfterSkippingWhitespaces ⟨⟨0, input⟩, []⟩).1 = true
      · simp only [he, if_true, Option.some.injEq, Prod.mk.injEq] at hp
        exact absurd hp.1 (by decide)
      · simp only [Bool.not_eq_true] at he
        simp only [he, Bool.false_eq_true, if_false] at hp
        refine ⟨he, h1, ?_⟩
        rw [hp]
        simp only [parsedSize]
        rw [← h2]

/-- Locality of `impl::parse`: when it succeeds on an input and stops at `parsedSize = p`, it
succeeds in the same way on `w1 ++ input.take p ++ s2`, for any whitespace `w1` and any bytes
`s2` that either start like the bytes after `p` or cannot go on a number; the issues move with
the text. -/
theorem implParse_local (input w1 s2 : Bytes) (o : ParsingOptions) (res : ParsingResult)
    (h : impl.parse input o = some res) (hs : res.status = .Success)
    (hw : ∀ b ∈ w1, isWhitespace b)
    (hag : (input.drop res.parsedSize).head? = s2.head? ∨ InertEnd s2) :
    impl.parse (w1 ++ (input.take res.parsedSize ++ s2)) o = some
      { value := res.value
        status := .Success
        parsedSize := res.parsedSize + w1.length
        issues := res.issues.map (ParsingIssue.shift w1.length) } := by
  obtain ⟨he, hle, hrun⟩ := implParse_inv input o res h hs
  have hlt := ((parser_post o _).1 _ _ _ _ _ hrun).lt
  have hle0 := endWs_length o (⟨⟨0, input⟩, []⟩ : ParserImpl)
  simp only at hlt hle0
  have hdl : (input.drop res.parsedSize).length = input.length - res.parsedSize :=
    List.length_drop _ _
  have htl : (input.take res.parsedSize).length = res.parsedSize := by
    simp [List.length_take, hle]
  let F : Frame := ⟨w1.length, input.drop res.parsedSize, s2, [], []⟩
  have hsim0 : F.Sim (⟨⟨0, input⟩, []⟩ : ParserImpl)
      ⟨⟨w1.length, input.take res.parsedSize ++ s2⟩, []⟩ :=
    ⟨⟨input.take res.parsedSize, (List.take_append_drop _ _).symm, rfl, by simp [F]⟩,
      [], rfl, rfl⟩
  obtain ⟨he2, hsim1⟩ := hsim0.endWs he (by show (input.drop res.parsedSize).length < _; omega)
  obtain ⟨st2', e2, hsim2⟩ := (parser_local F hag o _).1 _ _ _ _ hrun _ .null
    (3 * (w1 ++ (input.take res.parsedSize ++ s2)).length + 1) hsim1
    (by show (input.drop res.parsedSize).length ≤ (input.drop res.parsedSize).length; omega)
    (by
      show 3 * (_ - (input.drop res.parsedSize).length) + 1 ≤ _
      simp only [List.length_append, htl]
      omega)
  unfold impl.parse ParserImpl.parse
  simp only [endWs_leading w1 _ hw, he2, Bool.false_eq_true, if_false, e2]
  obtain ⟨⟨c, hc1, hc2, hc3⟩, new, hn1, hn2⟩ := hsim2
  simp only [F, List.nil_append] at hc1 hc2 hc3 hn1 hn2
  simp only [parsedSize, hc3, hn2, hn1, if_true]

/-- The function `parse` in the mode `VerifyTrailingWhitespace`, when `impl::parse` succeeds
and only whitespace follows. -/
theorem parse_verify_of_impl (input : Bytes) (o : ParsingOptions) (res : ParsingResult)
    (h : impl.parse input o = some res) (hs : res.status = .Success)
    (hw : ∀ b ∈ input.drop res.parsedSize, isWhitespace b) :
    parse input o .VerifyTrailingWhitespace = some { res with parsedSize := input.length } := by
  have hle := (implParse_post input o res h).1
  unfold parse
  simp only [h, hs, and_self, if_true, skipWhitespaces,
    skipWhitespacesFrom_whitespace _ hw, Bool.not_true, Bool.false_eq_true, if_false]
  congr 2
  simp only [List.length_drop]
  omega

/-- A success of `parse` in the mode `VerifyTrailingWhitespace` is a success of `impl::parse`
after which only whitespace follows. -/
theorem parse_verify_inv (input : Bytes) (o : ParsingOptions) (r : ParsingResult)
    (h : parse input o .VerifyTrailingWhitespace = some r) (hs : r.status = .Success) :
    ∃ res, impl.parse input o = some res ∧ res.status = .Success ∧
      r = { res with parsedSize := input.length } ∧
      ∀ b ∈ input.drop res.parsedSize, isWhitespace b := by
  unfold parse at h
  cases hp : impl.parse input o with
  | none => rw [hp] at h; simp at h
  | some res =>
    rw [hp] at h
    simp only at h
    have hle := (implParse_post input o res hp).1
    by_cases hc : res.status = .Success
    · simp only [hc, and_self, if_true] at h
      simp only [skipWhitespaces, skipWhitespacesFrom_eq] at h
      by_cases hd : (input.drop res.parsedSize).dropWhile isWhitespaceB = []
      · simp only [hd, decide_True, Bool.not_true, Bool.false_eq_true, if_false,
          Option.some.injEq] at h
        refine ⟨res, rfl, hc, ?_, (dropWhile_eq_nil_iff_all _).mp hd⟩
        rw [← h]
        have := congrArg List.length
          (List.takeWhile_append_dropWhile isWhitespaceB (input.drop res.parsedSize))
        simp only [hd, List.append_nil, List.length_drop] at this
        rw [hc]
        congr 1
        omega
      · simp only [hd, decide_False, Bool.not_false, if_true, Option.some.injEq] at h
        rw [← h] at hs
        simp at hs
    · simp only [hc, false_and, if_false, Option.some.injEq] at h
      subst h
      exact absurd hs hc

theorem drop_two (a b c : Bytes) (n : Nat) (hn : b.length = n) :
    (a ++ (b ++ c)).drop (n + a.length) = c := by
  subst hn
  induction a with
  | nil => simp
  | cons x a ih => simpa using ih

/-- With the default options a success of `impl::parse` has no issues. -/
theorem implParse_default_issues (input : Bytes) (res : ParsingResult)
    (h : impl.parse input {} = some res) (hs : res.status = .Success) : res.issues = [] := by
  obtain ⟨-, b, hst, hpost⟩ := implParse_post input {} res h
  cases b with
  | false =>
    rw [hs] at hst
    exact absurd hst (by decide)
  | true =>
    obtain ⟨-, rep, hrep, hall⟩ := hpost.ok
    simp only [List.nil_append] at hrep
    rw [hrep]
    cases rep with
    | nil => rfl
    | cons x t =>
      have := (hall x (List.mem_cons_self _ _)).1
      simp [ReportKind] at this

theorem inertEnd_of_whitespace (s : Bytes) (h : ∀ b ∈ s, isWhitespace b) : InertEnd s := by
  intro b hb
  cases s with
  | nil => simp at hb
  | cons x t =>
    simp only [List.head?_cons, Option.some.injEq] at hb
    subst hb
    have := h x (List.mem_cons_self _ _)
    unfold isWhitespace at this
    simp only [isDecimalDigit, Bool.and_eq_false_imp, decide_eq_true_eq, decide_eq_false_iff_not]
    omega

/-- C10: leading and trailing whitespace is insignificant. When `parse` with the default
options in the mode `VerifyTrailingWhitespace` returns `Success` with the value `v` on an
input `x`, then for all `w1` and `w2` made of space, tab, CR and LF bytes it returns on
`w1 ++ x ++ w2` the status `Success`, the same value `v`, no issues and
`parsedSize = |w1| + |x| + |w2|`. -/
theorem parse_whitespace_insignificant (x w1 w2 : Bytes) (r : ParsingResult)
    (hw1 : ∀ b ∈ w1, isWhitespace b) (hw2 : ∀ b ∈ w2, isWhitespace b)
    (h : parse x {} .VerifyTrailingWhitespace = some r) (hs : r.status = .Success) :
    parse (w1 ++ x ++ w2) {} .VerifyTrailingWhitespace = some
      { value := r.value
        status := .Success
        parsedSize := w1.length + x.length + w2.length
        issues := [] } := by
  obtain ⟨res, hi, hrs, rfl, hws⟩ := parse_verify_inv x {} r h hs
  have hle := (implParse_post x {} res hi).1
  have hiss := implParse_default_issues x res hi hrs
  have hall : ∀ b ∈ x.drop res.parsedSize ++ w2, isWhitespace b := by
    intro b hb
    rcases List.mem_append.mp hb with hb | hb
    · exact hws b hb
    · exact hw2 b hb
  have hloc := implParse_local x w1 (x.drop res.parsedSize ++ w2) {} res hi hrs hw1
    (Or.inr (inertEnd_of_whitespace _ hall))
  have hx : w1 ++ (x.take res.parsedSize ++ (x.drop res.parsedSize ++ w2)) = w1 ++ x ++ w2 := by
    rw [← List.append_assoc (x.take _), List.take_append_drop, List.append_assoc]
  rw [hx, hiss] at hloc
  have hv := parse_verify_of_impl (w1 ++ x ++ w2) {} _ hloc rfl (by
    have htl : (x.take res.parsedSize).length = res.parsedSize := by
      simp [List.length_take, hle]
    have e : (w1 ++ x ++ w2).drop (res.parsedSize + w1.length)
        = x.drop res.parsedSize ++ w2 := by
      rw [← hx]
      exact drop_two _ _ _ _ htl
    simp only [e]
    exact hall)
  rw [hv]
  simp [Nat.add_assoc]

/-- C10 at the input `1` with the whitespace ` ` before it and a line feed after it. -/
theorem parse_whitespace_insignificant_witness :
    parse [49] {} .VerifyTrailingWhitespace = some
      { value := .int64 ⟨1, by decide⟩, status := .Success, parsedSize := 1, issues := [] } ∧
    parse ([32] ++ [49] ++ [10]) {} .VerifyTrailingWhitespace = some
      { value := .int64 ⟨1, by decide⟩
        status := .Success
        parsedSize := ([32] : Bytes).length + ([49] : Bytes).length + ([10] : Bytes).length
        issues := [] } :=
  ⟨by decide!,
    parse_whitespace_insignificant [49] [32] [10]
      { value := .int64 ⟨1, by decide⟩, status := .Success, parsedSize := 1, issues := [] }
      (by decide!) (by decide!) (by decide!) rfl⟩

theorem Ptr.Last.behind {p m q : Ptr} (h1 : p.Reach m) (h2 : m.Last q) : p.Last q := by
  obtain ⟨d, hd, -⟩ := h1
  obtain ⟨c, b, hc, hb⟩ := h2
  exact ⟨d ++ c, b, by rw [hd, hc, List.append_assoc], hb⟩

theorem Ptr.Last.step {p : Ptr} {b : Byte} {t : Bytes} (h : p.rest = b :: t)
    (hb : ¬ isWhitespace b) : p.Last p.next :=
  ⟨[], b, by simp [Ptr.next, h], hb⟩

theorem digit_not_whitespace (b : Byte) (h : isDecimalDigit b = true) : ¬ isWhitespace b := by
  have := (isDecimalDigit_iff b).mp h
  unfold isWhitespace
  omega

theorem skipDigitsFrom_last (p0 : Ptr) (pos : Nat) (rest : Bytes)
    (h : p0.Last ⟨pos, rest⟩) : p0.Last (skipDigitsFrom pos rest) := by
  induction rest generalizing pos with
  | nil => exact h
  | cons b t ih =>
    unfold skipDigitsFrom
    by_cases hd : isDecimalDigit b = true
    · rw [if_pos hd]
      apply ih
      obtain ⟨c, x, hc, hx⟩ := h
      exact ⟨c ++ [x], b, by simp [hc], digit_not_whitespace b hd⟩
    · rw [if_neg hd]
      exact h

theorem matchLoop_last (ps : Bytes) (p : Byte) (st : ParserImpl) (p0 : Ptr)
    (hp : ∀ b ∈ p :: ps, ¬ isWhitespace b) (h0 : p0.Reach st.i)
    (h : (matchLoop p ps st).1 = true) : p0.Last (matchLoop p ps st).2.i := by
  induction ps generalizing p st with
  | nil =>
    rcases st.i.rest_cases with hr | ⟨b, t, hr⟩
    · simp [matchLoop, hr] at h
    · simp only [matchLoop, hr] at h ⊢
      by_cases hb : b = p
      · subst hb
        simp only [ne_eq, not_true_eq_false, if_false]
        exact Ptr.Last.behind h0 (Ptr.Last.step hr (hp b (List.mem_cons_self _ _)))
      · simp [hb] at h
  | cons q qs ih =>
    rcases st.i.rest_cases with hr | ⟨b, t, hr⟩
    · simp [matchLoop, hr] at h
    · simp only [matchLoop, hr] at h ⊢
      by_cases hb : b = p
      · subst hb
        simp only [ne_eq, not_true_eq_false, if_false] at h ⊢
        exact ih q st.advance (fun x hx => hp x (List.mem_cons_of_mem _ hx))
          (h0.trans (Ptr.reach_next (by rw [hr]; simp))) h
      · simp [hb] at h

theorem parseLiteral_last (lit : Value) (c p : Byte) (ps : Bytes) (v v' : Value)
    (st st' : ParserImpl) (hp : ∀ b ∈ p :: ps, ¬ isWhitespace b) (hne : st.i.rest ≠ [])
    (h : parseLiteral lit (c :: p :: ps) v st = (true, v', st')) : st.i.Last st'.i := by
  unfold parseLiteral matchPattern at h
  simp only at h
  by_cases hm : (matchLoop p ps st.advance).1 = true
  · simp only [hm, if_true, Prod.mk.injEq, true_and] at h
    obtain ⟨-, rfl⟩ := h
    exact matchLoop_last ps p st.advance st.i hp (Ptr.reach_next hne) hm
  · simp [hm] at h

theorem parseMore_end_head (mode : UnescapeMode) (i : Ptr) (r : EscapedStringParser.Result)
    (j : Ptr) (h : EscapedStringParser.parseMore mode i = some (r, j))
    (hr : r.result = .JsonStringEnd) : ∃ t, i.rest = 34 :: t := by
  have hspec := parseMore_spec mode i r j h
  unfold EscapedStringParser.parseMore at h
  rcases i.rest_cases with h0 | ⟨b, t, h0⟩
  · simp [h0] at h
  · simp only [h0] at h
    by_cases h92 : b.val = 92
    · simp only [h92, if_true] at h
      by_cases he : i.next.rest = []
      · simp only [he, if_true, Option.some.injEq, Prod.mk.injEq] at h
        rw [← h.1] at hr
        simp at hr
      · simp only [he, if_false] at h
        have := (parseEscape_spec _ _ _ h).2
        rw [hr] at this
        exact this.elim
    · simp only [h92, if_false] at h
      by_cases h34 : b.val = 34
      · exact ⟨t, by rw [h0, Fin.ext (a := b) (b := 34) h34]⟩
      · simp only [h34, if_false] at h
        split_ifs at h <;> simp only [Option.some.injEq, Prod.mk.injEq] at h <;>
          (rw [← h.1] at hr; simp at hr)

theorem quote_not_whitespace : ¬ isWhitespace (34 : Byte) := by decide

theorem parseStringSurrogates_last (o : ParsingOptions) (fuel : Nat) (sb : Bytes) (sur : Nat)
    (st : ParserImpl) (p0 : Ptr) (sb' : Bytes) (st' : ParserImpl) (h0 : p0.Reach st.i)
    (h : parseStringSurrogates o fuel sb sur st = some (.returned true sb' st')) :
    p0.Last st'.i := by
  induction fuel generalizing sb sur st with
  | zero => simp [parseStringSurrogates] at h
  | succ fuel ih =>
    unfold parseStringSurrogates at h
    by_cases he : st.i.rest = []
    · simp [he] at h
    · simp only [he, if_false] at h
      cases hm : EscapedStringParser.parseMore .Strict st.i with
      | none => simp [hm] at h
      | some x =>
        obtain ⟨r2, i2⟩ := x
        obtain ⟨hreach, hcase⟩ := parseMore_spec _ _ _ _ hm
        simp only [hm] at h
        cases hres : r2.result <;> simp only [hres] at h hcase
        · split_ifs at h <;> simp at h
        · split_ifs at h <;> simp at h
        · split_ifs at h with hc1
          · refine ih _ _ _ ?_ h
            rw [checkHigh_cursor]
            exact h0.trans hreach
          · simp at h
        · simp at h
        · obtain ⟨t, ht⟩ := parseMore_end_head _ _ _ _ hm hres
          obtain ⟨hj, -⟩ := hcase
          subst hj
          simp only [Option.some.injEq, SurrogateLoopExit.returned.injEq] at h
          obtain ⟨-, -, rfl⟩ := h
          rw [checkHigh_cursor]
          exact Ptr.Last.behind h0 (Ptr.Last.step ht quote_not_whitespace)
        · simp at h
        · simp at h

theorem parseStringLoop_last (o : ParsingOptions) (fuel : Nat) (sb : Bytes) (pb : Ptr)
    (st : ParserImpl) (p0 : Ptr) (out : Bytes) (st' : ParserImpl) (h0 : p0.Reach st.i)
    (h : parseStringLoop o fuel sb pb st = some (true, out, st')) : p0.Last st'.i := by
  induction fuel generalizing sb pb st with
  | zero => simp [parseStringLoop] at h
  | succ fuel ih =>
    unfold parseStringLoop at h
    by_cases he : st.detectEndOfInput.1 = true
    · simp only [he, if_true, Option.some.injEq, Prod.mk.injEq] at h
      exact absurd h.1 (by decide)
    · have he' : st.detectEndOfInput.1 = false := by simpa using he
      obtain ⟨heq, hne⟩ := detectEndOfInput_false st he'
      simp only [he', heq, Bool.false_eq_true, if_false] at h
      cases hm : EscapedStringParser.parseMore .Strict st.i with
      | none => simp [hm] at h
      | some x =>
        obtain ⟨r1, i1⟩ := x
        obtain ⟨hreach, hcase⟩ := parseMore_spec _ _ _ _ hm
        simp only [hm] at h
        cases hres : r1.result <;> simp only [hres] at h hcase
        · exact ih _ _ _ (h0.trans hreach) h
        · exact ih _ _ _ (h0.trans hreach) h
        · cases hsur : parseStringSurrogates o fuel (sb ++ pb.range st.i) r1.surrogate
              { st with i := i1 } with
          | none => simp [hsur] at h
          | some e =>
            have hp := parseStringSurrogates_post o _ _ _ _ _ hsur
            simp only [hsur] at h
            cases e with
            | returned b s3 st3 =>
              simp only [Option.some.injEq, Prod.mk.injEq] at h
              obtain ⟨rfl, rfl, rfl⟩ := h
              exact parseStringSurrogates_last o fuel _ _ _ p0 _ _ (h0.trans hreach) hsur
            | broke s3 pb3 st3 =>
              simp only at h
              exact ih _ _ _ ((h0.trans hreach).trans hp.1.cursor) h
        · split_ifs at h with hc1
          · refine ih _ _ _ ?_ h
            rw [checkLow_cursor]
            exact h0.trans hreach
          · simp only [Option.some.injEq, Prod.mk.injEq] at h
            exact absurd h.1 (by simpa using hc1)
        · obtain ⟨t, ht⟩ := parseMore_end_head _ _ _ _ hm hres
          obtain ⟨hj, -⟩ := hcase
          subst hj
          simp only [Option.some.injEq, Prod.mk.injEq, true_and] at h
          obtain ⟨-, rfl⟩ := h
          exact Ptr.Last.behind h0 (Ptr.Last.step ht quote_not_whitespace)
        · simp only [Option.some.injEq, Prod.mk.injEq] at h
          exact absurd h.1 (by decide)
        · simp only [Option.some.injEq, Prod.mk.injEq] at h
          exact absurd h.1 (by decide)

theorem parseString_last (o : ParsingOptions) (sb : Bytes) (st : ParserImpl) (out : Bytes)
    (st' : ParserImpl) (hne : st.i.rest ≠ [])
    (h : parseString o sb st = some (true, out, st')) : st.i.Last st'.i := by
  unfold parseString at h
  exact parseStringLoop_last o _ _ _ _ st.i _ _ (Ptr.reach_next hne) h

theorem detectDigits_last (st st' : ParserImpl) (p0 : Ptr) (h0 : p0.Reach st.i)
    (h : detectDigits st = some (true, st')) : p0.Last st'.i := by
  unfold detectDigits at h
  rcases st.i.rest_cases with hr | ⟨b, t, hr⟩
  · simp [hr] at h
  · simp only [hr] at h
    by_cases hd : isDecimalDigit b = true
    · simp only [hd, Bool.not_true, Bool.false_eq_true, if_false, Option.some.injEq,
        Prod.mk.injEq, true_and] at h
      subst h
      exact skipDigitsFrom_last p0 _ _
        (Ptr.Last.behind h0 (Ptr.Last.step hr (digit_not_whitespace b hd)))
    · simp [hd] at h

theorem parseNumberInteger_last (st st' : ParserImpl) (p0 : Ptr) (h0 : p0.Reach st.i)
    (h : parseNumberInteger st = some (true, st')) : p0.Last st'.i := by
  unfold parseNumberInteger at h
  rcases st.i.rest_cases with hr | ⟨b, t, hr⟩
  · simp [hr] at h
  · simp only [hr] at h
    by_cases h48 : b.val = 48
    · simp only [h48, if_true, Option.some.injEq, Prod.mk.injEq, true_and] at h
      subst h
      refine Ptr.Last.behind h0 (Ptr.Last.step hr ?_)
      unfold isWhitespace
      omega
    · simp only [h48, if_false] at h
      by_cases h1 : 49 ≤ b.val ∧ b.val ≤ 57
      · simp only [h1, and_self, if_true, Option.some.injEq, Prod.mk.injEq, true_and] at h
        subst h
        refine skipDigitsFrom_last p0 _ _ (Ptr.Last.behind h0 (Ptr.Last.step hr ?_))
        unfold isWhitespace
        omega
      · simp [h1] at h

theorem parseNumberFraction_last (st : ParserImpl) (d : Bool) (st' : ParserImpl) (p0 : Ptr)
    (h0 : p0.Reach st.i) (hl : p0.Last st.i)
    (h : parseNumberFraction st = some (true, d, st')) : p0.Last st'.i := by
  rcases parseNumberFraction_inv st d st' h with ⟨-, rfl, -⟩ | ⟨-, ⟨b, t, hr, -⟩, -, hd⟩
  · exact hl
  · exact detectDigits_last _ _ p0 (h0.trans (Ptr.reach_next (by rw [hr]; simp))) hd

theorem parseNumberExponent_last (st : ParserImpl) (d : Bool) (st' : ParserImpl) (p0 : Ptr)
    (h0 : p0.Reach st.i) (hl : p0.Last st.i)
    (h : parseNumberExponent st = some (true, d, st')) : p0.Last st'.i := by
  rcases parseNumberExponent_inv st d st' h with
    ⟨-, rfl, -⟩ | ⟨-, ⟨b, t, hr, -⟩, c, t', hrc, hcase⟩
  · exact hl
  · have h1 : p0.Reach st.advance.i := h0.trans (Ptr.reach_next (by rw [hr]; simp))
    rcases hcase with ⟨-, -, hd⟩ | ⟨-, hd⟩
    · exact detectDigits_last _ _ p0 (h1.trans (Ptr.reach_next (by rw [hrc]; simp))) hd
    · exact detectDigits_last _ _ p0 h1 hd

theorem parseNumberBody_last (begin : Ptr) (n : Nat) (v v' : Value) (st st' : ParserImpl)
    (p0 : Ptr) (h0 : p0.Reach st.i)
    (h : parseNumberBody begin n v st = some (true, v', st')) : p0.Last st'.i := by
  unfold parseNumberBody at h
  cases h1 : parseNumberInteger st with
  | none => simp [h1] at h
  | some x1 =>
    obtain ⟨r1, st1⟩ := x1
    simp only [h1] at h
    cases r1 with
    | false =>
      simp only [Option.some.injEq, Prod.mk.injEq] at h
      exact absurd h.1 (by decide)
    | true =>
      simp only at h
      have p1 := ((parseNumberInteger_post {} _ _ _ h1).1 rfl).1
      have l1 := parseNumberInteger_last _ _ p0 h0 h1
      cases h2 : parseNumberFraction st1 with
      | none => simp [h2] at h
      | some x2 =>
        obtain ⟨r2, d1, st2a⟩ := x2
        simp only [h2] at h
        cases r2 with
        | false =>
          simp only [Option.some.injEq, Prod.mk.injEq] at h
          exact absurd h.1 (by decide)
        | true =>
          simp only at h
          have p2 := (parseNumberFraction_post {} _ _ _ _ h2).1 rfl
          have l2 := parseNumberFraction_last _ _ _ p0 (h0.trans p1.cursor) l1 h2
          cases h3 : parseNumberExponent st2a with
          | none => simp [h3] at h
          | some x3 =>
            obtain ⟨r3, d2, st3⟩ := x3
            simp only [h3] at h
            cases r3 with
            | false =>
              simp only [Option.some.injEq, Prod.mk.injEq] at h
              exact absurd h.1 (by decide)
            | true =>
              simp only [Option.some.injEq] at h
              have l3 := parseNumberExponent_last _ _ _ p0
                ((h0.trans p1.cursor).trans p2.cursor) l2 h3
              rw [parseNumberConvert_state _ _ _ _ _ _ _ h]
              exact l3

theorem parseNumber_last (v v' : Value) (st st' : ParserImpl)
    (h : parseNumber v st = some (true, v', st')) : st.i.Last st'.i := by
  unfold parseNumber at h
  rcases st.i.rest_cases with hr | ⟨b, t, hr⟩
  · simp [hr] at h
  · have hne : st.i.rest ≠ [] := by rw [hr]; simp
    simp only [hr] at h
    by_cases hneg : b.val = 45
    · simp only [hneg, if_true, ne_eq, one_ne_zero, not_false_eq_true] at h
      by_cases he : st.advanceAndDetectEndOfInput.1 = true
      · simp only [he, if_true, Option.some.injEq, Prod.mk.injEq] at h
        exact absurd h.1 (by decide)
      · simp only [Bool.not_eq_true] at he
        obtain ⟨-, heq⟩ := advanceAndDetectEndOfInput_inv st he
        simp only [heq, Bool.false_eq_true, if_false] at h
        exact parseNumberBody_last _ _ _ _ _ _ st.i (Ptr.reach_next hne) h
    · simp only [hneg, if_false, ne_eq, not_true_eq_false, Bool.false_eq_true] at h
      exact parseNumberBody_last _ _ _ _ _ _ st.i (Ptr.Reach.refl _) h

theorem bracket_not_whitespace : ¬ isWhitespace (93 : Byte) ∧ ¬ isWhitespace (125 : Byte) := by
  decide

theorem last_of_advance (o : ParsingOptions) (p0 : Ptr) (st : ParserImpl) (b : Byte)
    (t : Bytes) (h0 : p0.Reach st.i) (hr : st.i.rest = b :: t)
    (hb : b.val = 93 ∨ b.val = 125) : p0.Last st.advance.i := by
  refine Ptr.Last.behind h0 (Ptr.Last.step hr ?_)
  unfold isWhitespace
  omega

/-- A value that `parseImpl` (or one of the functions under it) parses ends with a byte that
is not whitespace. -/
theorem parser_last (o : ParsingOptions) (fuel : Nat) : LastAll o fuel := by
  induction fuel with
  | zero =>
    refine ⟨?_, ?_, ?_, ?_, ?_, ?_⟩ <;> intros <;> simp_all [parseImpl, parseArray,
      parseArrayMembersRecursion, parseArrayMembersLoop, parseObject, parseObjectMembers]
  | succ fuel ih =>
    obtain ⟨ihImpl, ihArr, ihRec, ihLoop, ihObj, ihMem⟩ := ih
    refine ⟨?_, ?_, ?_, ?_, ?_, ?_⟩
    · -- parseImpl
      intro v st v' st' h
      unfold parseImpl at h
      rcases st.i.rest_cases with hr | ⟨b, rest, hr⟩
      · simp [hr] at h
      · have hne : st.i.rest ≠ [] := by simp [hr]
        simp only [hr] at h
        split_ifs at h with h1 h2 h3 h4 h5 h6
        · simp only [Option.some.injEq] at h
          have e : NullLiteral = [110, 117, 108, 108] := by decide
          rw [e] at h
          exact parseLiteral_last _ _ _ _ _ _ _ _ (by decide!) hne h
        · simp only [Option.some.injEq] at h
          have e : FalseLiteral = [102, 97, 108, 115, 101] := by decide
          rw [e] at h
          exact parseLiteral_last _ _ _ _ _ _ _ _ (by decide!) hne h
        · simp only [Option.some.injEq] at h
          have e : TrueLiteral = [116, 114, 117, 101] := by decide
          rw [e] at h
          exact parseLiteral_last _ _ _ _ _ _ _ _ (by decide!) hne h
        · cases hs : parseString o [] st with
          | none => simp [hs] at h
          | some x =>
            obtain ⟨rs, ss, sts⟩ := x
            simp only [hs, Option.some.injEq, Prod.mk.injEq] at h
            obtain ⟨rfl, rfl, rfl⟩ := h
            exact parseString_last o _ _ _ _ hne hs
        · exact ihArr _ _ _ _ hne h
        · exact ihObj _ _ _ _ hne h
        · exact parseNumber_last _ _ _ _ h
    · -- parseArray
      intro v st v' st' hne h
      unfold parseArray at h
      have hadv := Ptr.reach_next hne
      by_cases he : st.advance.detectEndOfInputAfterSkippingWhitespaces.1 = true
      · simp only [he, if_true, Option.some.injEq, Prod.mk.injEq] at h
        exact absurd h.1 (by decide)
      · simp only [Bool.not_eq_true] at he
        obtain ⟨hok, hne2⟩ := (post_endWs o st.advance).2 he
        have hreach : st.i.Reach st.advance.detectEndOfInputAfterSkippingWhitespaces.2.i :=
          hadv.trans hok.cursor
        simp only [he, Bool.false_eq_true, if_false] at h
        rcases st.advance.detectEndOfInputAfterSkippingWhitespaces.2.i.rest_cases with
          hr | ⟨b, rest, hr⟩
        · exact absurd hr hne2
        · simp only [hr] at h
          by_cases h1 : b.val = 93
          · simp only [h1, if_true, Option.some.injEq, Prod.mk.injEq, true_and] at h
            obtain ⟨-, rfl⟩ := h
            exact last_of_advance o _ _ b rest hreach hr (Or.inl h1)
          · simp only [h1, if_false] at h
            cases hm : parseArrayMembersRecursion o fuel [] .null 1
                st.advance.detectEndOfInputAfterSkippingWhitespaces.2 with
            | none => simp [hm] at h
            | some x =>
              obtain ⟨rm, am, um, sm⟩ := x
              simp only [hm] at h
              cases rm with
              | false =>
                simp only [Option.some.injEq, Prod.mk.injEq] at h
                exact absurd h.1 (by decide)
              | true =>
                simp only [Option.some.injEq, Prod.mk.injEq, true_and] at h
                obtain ⟨-, rfl⟩ := h
                exact Ptr.Last.behind hreach (ihRec _ _ _ _ _ _ _ hm)
    · -- parseArrayMembersRecursion
      intro a v size st a' v' st' h
      unfold parseArrayMembersRecursion at h
      cases hi : parseImpl o fuel v st with
      | none => simp [hi] at h
      | some x =>
        obtain ⟨ri, vi, si⟩ := x
        simp only [hi] at h
        cases ri with
        | false =>
          simp only [Option.some.injEq, Prod.mk.injEq] at h
          exact absurd h.1 (by decide)
        | true =>
          simp only at h
          have hp := ((parser_post o fuel).1 _ _ _ _ _ hi).ok.cursor
          by_cases he : si.detectEndOfInputAfterSkippingWhitespaces.1 = true
          · simp only [he, if_true, Option.some.injEq, Prod.mk.injEq] at h
            exact absurd h.1 (by decide)
          · simp only [Bool.not_eq_true] at he
            obtain ⟨hok, hne2⟩ := (post_endWs o si).2 he
            have hreach := hp.trans hok.cursor
            simp only [he, Bool.false_eq_true, if_false] at h
            rcases si.detectEndOfInputAfterSkippingWhitespaces.2.i.rest_cases with
              hr | ⟨b, rest, hr⟩
            · exact absurd hr hne2
            · simp only [hr] at h
              by_cases h1 : b.val = 93
              · simp only [h1, if_true, Option.some.injEq, Prod.mk.injEq, true_and] at h
                obtain ⟨-, -, rfl⟩ := h
                exact last_of_advance o _ _ b rest hreach hr (Or.inl h1)
              · simp only [h1, if_false] at h
                by_cases h2 : b.val = 44
                · simp only [h2, if_true] at h
                  by_cases he3 : si.detectEndOfInputAfterSkippingWhitespaces.2.advance.detectEndOfInputAfterSkippingWhitespaces.1 = true
                  · simp only [he3, if_true, Option.some.injEq, Prod.mk.injEq] at h
                    exact absurd h.1 (by decide)
                  · simp only [Bool.not_eq_true] at he3
                    simp only [he3, Bool.false_eq_true, if_false] at h
                    have hreach2 := (hreach.trans (Ptr.reach_next hne2)).trans
                      ((post_endWs o _).2 he3).1.cursor
                    by_cases hsz : size > 42
                    · simp only [hsz, if_true] at h
                      cases hm : parseArrayMembersLoop o fuel (resize a (size + 1))
                          si.detectEndOfInputAfterSkippingWhitespaces.2.advance.detectEndOfInputAfterSkippingWhitespaces.2 with
                      | none => simp [hm] at h
                      | some x =>
                        obtain ⟨rm, am, sm⟩ := x
                        simp only [hm, Option.some.injEq, Prod.mk.injEq] at h
                        obtain ⟨rfl, -, -, rfl⟩ := h
                        exact Ptr.Last.behind hreach2 (ihLoop _ _ _ _ hm)
                    · simp only [hsz, if_false] at h
                      cases hm : parseArrayMembersRecursion o fuel a .null (size + 1)
                          si.detectEndOfInputAfterSkippingWhitespaces.2.advance.detectEndOfInputAfterSkippingWhitespaces.2 with
                      | none => simp [hm] at h
                      | some x =>
                        obtain ⟨rm, am, um, sm⟩ := x
                        simp only [hm] at h
                        cases rm with
                        | false =>
                          simp only [Option.some.injEq, Prod.mk.injEq] at h
                          exact absurd h.1 (by decide)
                        | true =>
                          simp only [Option.some.injEq, Prod.mk.injEq, true_and] at h
                          obtain ⟨-, -, rfl⟩ := h
                          exact Ptr.Last.behind hreach2 (ihRec _ _ _ _ _ _ _ hm)
                · simp only [h2, if_false, Option.some.injEq, Prod.mk.injEq] at h
                  exact absurd h.1 (by decide)
    · -- parseArrayMembersLoop
      intro a st a' st' h
      unfold parseArrayMembersLoop at h
      cases hi : parseImpl o fuel (a.getLastD .null) st with
      | none => rw [hi] at h; exact absurd h (by simp)
      | some x =>
        obtain ⟨ri, vi, si⟩ := x
        rw [hi] at h
        cases ri with
        | false =>
          simp only [Option.some.injEq, Prod.mk.injEq] at h
          exact absurd h.1 (by decide)
        | true =>
          simp only at h
          have hp := ((parser_post o fuel).1 _ _ _ _ _ hi).ok.cursor
          by_cases he : si.detectEndOfInputAfterSkippingWhitespaces.1 = true
          · simp only [he, if_true, Option.some.injEq, Prod.mk.injEq] at h
            exact absurd h.1 (by decide)
          · simp only [Bool.not_eq_true] at he
            obtain ⟨hok, hne2⟩ := (post_endWs o si).2 he
            have hreach := hp.trans hok.cursor
            simp only [he, Bool.false_eq_true, if_false] at h
            rcases si.detectEndOfInputAfterSkippingWhitespaces.2.i.rest_cases with
              hr | ⟨b, rest, hr⟩
            · exact absurd hr hne2
            · simp only [hr] at h
              by_cases h1 : b.val = 93
              · simp only [h1, if_true, Option.some.injEq, Prod.mk.injEq, true_and] at h
                obtain ⟨-, rfl⟩ := h
                exact last_of_advance o _ _ b rest hreach hr (Or.inl h1)
              · simp only [h1, if_false] at h
                by_cases h2 : b.val = 44
                · simp only [h2, if_true] at h
                  by_cases he3 : si.detectEndOfInputAfterSkippingWhitespaces.2.advance.detectEndOfInputAfterSkippingWhitespaces.1 = true
                  · simp only [he3, if_true, Option.some.injEq, Prod.mk.injEq] at h
                    exact absurd h.1 (by decide)
                  · simp only [Bool.not_eq_true] at he3
                    simp only [he3, Bool.false_eq_true, if_false] at h
                    have hreach2 := (hreach.trans (Ptr.reach_next hne2)).trans
                      ((post_endWs o _).2 he3).1.cursor
                    exact Ptr.Last.behind hreach2 (ihLoop _ _ _ _ h)
                · simp only [h2, if_false, Option.some.injEq, Prod.mk.injEq] at h
                  exact absurd h.1 (by decide)
    · -- parseObject
      intro v st v' st' hne h
      unfold parseObject at h
      have hadv := Ptr.reach_next hne
      by_cases he : st.advance.detectEndOfInputAfterSkippingWhitespaces.1 = true
      · simp only [he, if_true, Option.some.injEq, Prod.mk.injEq] at h
        exact absurd h.1 (by decide)
      · simp only [Bool.not_eq_true] at he
        obtain ⟨hok, hne2⟩ := (post_endWs o st.advance).2 he
        have hreach : st.i.Reach st.advance.detectEndOfInputAfterSkippingWhitespaces.2.i :=
          hadv.trans hok.cursor
        simp only [he, Bool.false_eq_true, if_false] at h
        rcases st.advance.detectEndOfInputAfterSkippingWhitespaces.2.i.rest_cases with
          hr | ⟨b, rest, hr⟩
        · exact absurd hr hne2
        · simp only [hr] at h
          by_cases h1 : b.val = 125
          · simp only [h1, if_true, Option.some.injEq, Prod.mk.injEq, true_and] at h
            obtain ⟨-, rfl⟩ := h
            exact last_of_advance o _ _ b rest hreach hr (Or.inr h1)
          · simp only [h1, if_false] at h
            cases hm : parseObjectMembers o fuel []
                st.advance.detectEndOfInputAfterSkippingWhitespaces.2 with
            | none => simp [hm] at h
            | some x =>
              obtain ⟨rm, om, sm⟩ := x
              simp only [hm, Option.some.injEq, Prod.mk.injEq] at h
              obtain ⟨rfl, -, rfl⟩ := h
              exact Ptr.Last.behind hreach (ihMem _ _ _ _ hm)
    · -- parseObjectMembers
      intro ob st ob' st' h
      have hpost := (parser_post o (fuel + 1)).2.2.2.2.2 _ _ _ _ _ h
      unfold parseObjectMembers at h
      rcases st.i.rest_cases with hr | ⟨b, rest, hr⟩
      · simp [hr] at h
      have hne : st.i.rest ≠ [] := by simp [hr]
      simp only [hr] at h
      by_cases h1 : b.val = 34
      swap
      · simp only [ne_eq, h1, not_false_eq_true, if_true, Option.some.injEq,
          Prod.mk.injEq] at h
        exact absurd h.1 (by decide)
      simp only [ne_eq, h1, not_true_eq_false, if_false] at h
      cases hk : parseString o [] st with
      | none => simp [hk] at h
      | some x =>
        obtain ⟨rs, key, s1⟩ := x
        simp only [hk] at h
        cases rs with
        | false =>
          simp only [Option.some.injEq, Prod.mk.injEq] at h
          exact absurd h.1 (by decide)
        | true =>
          simp only at h
          have hpk := (post_parseString o _ _ _ _ _ hne hk).ok.cursor
          by_cases he : s1.detectEndOfInputAfterSkippingWhitespaces.1 = true
          · simp only [he, if_true, Option.some.injEq, Prod.mk.injEq] at h
            exact absurd h.1 (by decide)
          simp only [Bool.not_eq_true] at he
          obtain ⟨hok1, hne2⟩ := (post_endWs o s1).2 he
          simp only [he, Bool.false_eq_true, if_false] at h
          rcases s1.detectEndOfInputAfterSkippingWhitespaces.2.i.rest_cases with
            hrc | ⟨c, rest2, hrc⟩
          · exact absurd hrc hne2
          simp only [hrc] at h
          by_cases h2 : c.val = 58
          swap
          · simp only [ne_eq, h2, not_false_eq_true, if_true, Option.some.injEq,
              Prod.mk.injEq] at h
            exact absurd h.1 (by decide)
          simp only [ne_eq, h2, not_true_eq_false, if_false] at h
          by_cases h3 : s1.detectEndOfInputAfterSkippingWhitespaces.2.advance.detectEndOfInputAfterSkippingWhitespaces.1 = true
          · simp only [h3, if_true, Option.some.injEq, Prod.mk.injEq] at h
            exact absurd h.1 (by decide)
          simp only [Bool.not_eq_true] at h3
          simp only [h3, Bool.false_eq_true, if_false] at h
          have hreach2 : st.i.Reach s1.detectEndOfInputAfterSkippingWhitespaces.2.advance.detectEndOfInputAfterSkippingWhitespaces.2.i :=
            ((hpk.trans hok1.cursor).trans (Ptr.reach_next hne2)).trans
              ((post_endWs o _).2 h3).1.cursor
          by_cases h4 : (!(tryEmplace ob key).2) = true ∧ o.duplicateObjectKeys = .Fail
          · rw [if_pos h4] at h
            simp only [Option.some.injEq, Prod.mk.injEq] at h
            exact absurd h.1 (by decide)
          rw [if_neg h4] at h
          have hcur := dupIssue_cursor
            s1.detectEndOfInputAfterSkippingWhitespaces.2.advance.detectEndOfInputAfterSkippingWhitespaces.2
            ((!(tryEmplace ob key).2) = true ∧ o.duplicateObjectKeys ≠ .Ignore)
            st.i.pos "JSON object contains duplicate keys" .DuplicateKeys
          cases hv : parseImpl o fuel
              ((Object.find key (tryEmplace ob key).1).getD Value.null)
              (if (!(tryEmplace ob key).2) = true ∧ o.duplicateObjectKeys ≠ .Ignore then
                s1.detectEndOfInputAfterSkippingWhitespaces.2.advance.detectEndOfInputAfterSkippingWhitespaces.2.addIssueAt
                  st.i.pos "JSON object contains duplicate keys" .DuplicateKeys
              else s1.detectEndOfInputAfterSkippingWhitespaces.2.advance.detectEndOfInputAfterSkippingWhitespaces.2) with
          | none => rw [hv] at h; exact absurd h (by simp)
          | some x =>
            obtain ⟨rv, w, sv⟩ := x
            rw [hv] at h
            cases rv with
            | false =>
              simp only [Option.some.injEq, Prod.mk.injEq] at h
              exact absurd h.1 (by decide)
            | true =>
              simp only at h
              have hpv := ((parser_post o fuel).1 _ _ _ _ _ hv).ok.cursor
              rw [hcur] at hpv
              by_cases he3 : sv.detectEndOfInputAfterSkippingWhitespaces.1 = true
              · simp only [he3, if_true, Option.some.injEq, Prod.mk.injEq] at h
                exact absurd h.1 (by decide)
              simp only [Bool.not_eq_true] at he3
              obtain ⟨hok3, hne3⟩ := (post_endWs o sv).2 he3
              have hreach3 := (hreach2.trans hpv).trans hok3.cursor
              simp only [he3, Bool.false_eq_true, if_false] at h
              rcases sv.detectEndOfInputAfterSkippingWhitespaces.2.i.rest_cases with
                hrd | ⟨d, rest3, hrd⟩
              · exact absurd hrd hne3
              simp only [hrd] at h
              by_cases h5 : d.val = 125
              · simp only [h5, if_true, Option.some.injEq, Prod.mk.injEq, true_and] at h
                obtain ⟨-, rfl⟩ := h
                exact last_of_advance o _ _ d rest3 hreach3 hrd (Or.inr h5)
              · simp only [h5, if_false] at h
                by_cases h6 : d.val = 44
                · simp only [h6, if_true] at h
                  by_cases h7 : sv.detectEndOfInputAfterSkippingWhitespaces.2.advance.detectEndOfInputAfterSkippingWhitespaces.1 = true
                  · simp only [h7, if_true, Option.some.injEq, Prod.mk.injEq] at h
                    exact absurd h.1 (by decide)
                  · simp only [Bool.not_eq_true] at h7
                    simp only [h7, Bool.false_eq_true, if_false] at h
                    have hreach4 := (hreach3.trans (Ptr.reach_next hne3)).trans
                      ((post_endWs o _).2 h7).1.cursor
                    exact Ptr.Last.behind hreach4 (ihMem _ _ _ _ h)
                · simp only [h6, if_false, Option.some.injEq, Prod.mk.injEq] at h
                  exact absurd h.1 (by decide)

theorem parse_stop_eq (input : Bytes) (o : ParsingOptions) :
    parse input o .StopAfterValueEnds = impl.parse input o := by
  unfold parse
  cases hp : impl.parse input o with
  | none => rfl
  | some res =>
    simp only
    rw [if_neg (fun hh => absurd hh.2 (by decide))]

theorem shift_zero (l : List ParsingIssue) : l.map (ParsingIssue.shift 0) = l := by
  induction l with
  | nil => rfl
  | cons x t ih =>
    rw [List.map_cons, ih]
    rfl

/-- The issues of `impl::parse` never have the code `Other`. -/
theorem implParse_codes (input : Bytes) (o : ParsingOptions) (res : ParsingResult)
    (h : impl.parse input o = some res) :
    (res.status = .Success ∨ res.status = .Failure) ∧ ∀ x ∈ res.issues, x.code ≠ .Other := by
  obtain ⟨-, b, hst, hpost⟩ := implParse_post input o res h
  have hrep : ∀ x, ReportKind o x → x.code ≠ .Other := by
    intro x hx hc
    rcases hx with ⟨h1, -⟩ | ⟨h1 | h1, -⟩ <;> rw [hc] at h1 <;> exact absurd h1 (by decide)
  cases b with
  | true =>
    refine ⟨Or.inl (by simpa using hst), ?_⟩
    obtain ⟨-, rep, hr, hall⟩ := hpost.ok
    simp only [List.nil_append] at hr
    rw [hr]
    exact fun x hx => hrep x (hall x hx).1
  | false =>
    refine ⟨Or.inr (by simpa using hst), ?_⟩
    obtain ⟨-, rep, y, hr, hall, hy⟩ := hpost.failed
    simp only [List.nil_append] at hr
    rw [hr]
    intro x hx
    rcases List.mem_append.mp hx with hx | hx
    · exact hrep x (hall x hx).1
    · simp only [List.mem_singleton] at hx
      subst hx
      intro hc
      unfold Stops at hy
      rw [hc] at hy
      exact hy

/-- The byte before the place where a success of `impl::parse` stops is not whitespace. -/
theorem implParse_last (input : Bytes) (o : ParsingOptions) (res : ParsingResult)
    (h : impl.parse input o = some res) (hs : res.status = .Success) :
    0 < res.parsedSize ∧ ∃ b, input[res.parsedSize - 1]? = some b ∧ ¬ isWhitespace b := by
  obtain ⟨he, hle, hrun⟩ := implParse_inv input o res h hs
  have hl := (parser_last o _).1 _ _ _ _ hrun
  have hreach := ((post_endWs o (⟨⟨0, input⟩, []⟩ : ParserImpl)).2 he).1.cursor
  obtain ⟨c, b, hc, hb⟩ := Ptr.Last.behind hreach hl
  simp only at hc
  have hlen := congrArg List.length hc
  simp only [List.length_append, List.length_cons, List.length_drop] at hlen
  have hcl : c.length = res.parsedSize - 1 := by omega
  refine ⟨by omega, b, ?_, hb⟩
  rw [hc, ← hcl, List.getElem?_append_right (Nat.le_refl _)]
  simp

/-- The function `parse` in the mode `StopAfterValueEnds` never returns `PartialSuccess` and
never adds an issue with the code `Other`.  When it returns `Success` with `parsedSize = p`,
the result is stable: `p` is positive and within the input, the byte
at `p - 1` is not whitespace (no trailing whitespace is taken), and the result is that of the
first `p` bytes alone, whatever follows them: `parse` returns the same result on the first `p`
bytes followed by any bytes `s2` that start like the bytes after `p` in the input, or by none,
or by any bytes that do not go on a number (a digit, `.`, `e` or `E`). -/
theorem parse_stop_stable (input : Bytes) (o : ParsingOptions) (r : ParsingResult)
    (h : parse input o .StopAfterValueEnds = some r) :
    r.status ≠ .PartialSuccess ∧ (∀ x ∈ r.issues, x.code ≠ .Other) ∧
    (r.status = .Success →
      0 < r.parsedSize ∧ r.parsedSize ≤ input.length ∧
      (∃ b, input[r.parsedSize - 1]? = some b ∧ ¬ isWhitespace b) ∧
      ∀ s2, ((input.drop r.parsedSize).head? = s2.head? ∨ InertEnd s2) →
        parse (input.take r.parsedSize ++ s2) o .StopAfterValueEnds = some r) := by
  rw [parse_stop_eq] at h
  obtain ⟨hst, hcodes⟩ := implParse_codes input o r h
  refine ⟨?_, hcodes, fun hs => ?_⟩
  · rcases hst with h1 | h1 <;> rw [h1] <;> decide
  · obtain ⟨hpos, hb⟩ := implParse_last input o r h hs
    refine ⟨hpos, (implParse_post input o r h).1, hb, fun s2 hag => ?_⟩
    have := implParse_local input [] s2 o r h hs (by simp) hag
    rw [parse_stop_eq]
    simp only [List.nil_append, List.length_nil, Nat.add_zero, shift_zero] at this
    rw [this, ← hs]

theorem find_append_one (key k : Bytes) (v : Value) (ob : List (Bytes × Value)) :
    Object.find key (ob ++ [(k, v)]) =
      match Object.find key ob with
      | some w => some w
      | none => if k = key then some v else none := by
  induction ob with
  | nil => simp [Object.find]
  | cons e t ih =>
    obtain ⟨k1, v1⟩ := e
    simp only [List.cons_append, Object.find]
    by_cases h : k1 = key
    · simp [h]
    · simp only [h, if_false]
      exact ih

theorem find_assign (key k : Bytes) (v : Value) (ob : List (Bytes × Value)) :
    Object.find key (Object.assign k v ob) =
      if k = key then (Object.find key ob).map (fun _ => v) else Object.find key ob := by
  induction ob with
  | nil => simp [Object.find, Object.assign]
  | cons e t ih =>
    obtain ⟨k1, v1⟩ := e
    simp only [Object.assign]
    by_cases h1 : k1 = k
    · subst h1
      by_cases h2 : k1 = key
      · simp [Object.find, h2]
      · simp [Object.find, h2]
    · simp only [h1, if_false, Object.find]
      by_cases h2 : k1 = key
      · subst h2
        simp [h1, Ne.symm h1]
      · simp only [h2, if_false, ih]

theorem find_insertMember (key : Bytes) (ob : List (Bytes × Value)) (m : Member) :
    Object.find key (insertMember ob m) =
      if m.key = key then some m.value else Object.find key ob := by
  unfold insertMember tryEmplace
  cases hf : Object.find m.key ob with
  | some w =>
    simp only [find_assign]
    by_cases h : m.key = key
    · subst h
      simp [hf]
    · simp [h]
  | none =>
    simp only [find_assign, find_append_one]
    by_cases h : m.key = key
    · subst h
      simp [hf]
    · simp only [h, if_false]
      cases Object.find key ob <;> rfl

theorem find_foldl_insertMember (key : Bytes) (ms : List Member) (ob : List (Bytes × Value)) :
    Object.find key (ms.foldl insertMember ob) =
      match lastValue key ms with
      | some v => some v
      | none => Object.find key ob := by
  induction ms generalizing ob with
  | nil => rfl
  | cons m rest ih =>
    rw [List.foldl_cons, ih, lastValue]
    cases hl : lastValue key rest with
    | some v => rfl
    | none =>
      simp only [find_insertMember]
      by_cases h : m.key = key <;> simp [h]

theorem endWs_run (st : ParserImpl) (w X : Bytes) (hst : st.i.rest = w ++ X)
    (hw : ∀ b ∈ w, isWhitespace b) (hX : ∀ b, X.head? = some b → ¬ isWhitespace b)
    (hne : X ≠ []) :
    st.detectEndOfInputAfterSkippingWhitespaces =
      (false, { st with i := ⟨st.i.pos + w.length, X⟩ }) := by
  obtain ⟨b, t, rfl⟩ := List.exists_cons_of_ne_nil hne
  have hb := hX b rfl
  unfold isWhitespace at hb
  unfold detectEndOfInputAfterSkippingWhitespaces skipWhitespaces
  rw [hst, skipWhitespacesFrom_leading w _ hw]
  simp only [skipWhitespacesFrom, hb, if_false, Bool.false_eq_true]

theorem implParse_nonempty (t : Bytes) (o : ParsingOptions) (res : ParsingResult)
    (h : impl.parse t o = some res) (hs : res.status = .Success) : t ≠ [] := by
  have := (implParse_last t o res h hs).1
  have hle := (implParse_post t o res h).1
  intro e
  rw [e] at hle
  simp at hle
  omega

/-- A text that `impl::parse` reads alone as a value is read as the same value by `parseImpl`
wherever it stands, before bytes that cannot go on a number. -/
theorem value_run (o : ParsingOptions) (t : Bytes) (v : Value) (iss : List ParsingIssue)
    (h : impl.parse t o = some
      { value := v, status := .Success, parsedSize := t.length, issues := iss })
    (hh : ∀ b, t.head? = some b → ¬ isWhitespace b) (st1 : ParserImpl) (s2 : Bytes)
    (hst : st1.i.rest = t ++ s2) (hs2 : InertEnd s2) (fuel : Nat)
    (hf : 3 * t.length + 1 ≤ fuel) (v0 : Value) :
    ∃ st', parseImpl o fuel v0 st1 = some (true, v, st') ∧ st'.i.rest = s2 := by
  have hne := implParse_nonempty t o _ h rfl
  obtain ⟨he, -, hrun⟩ := implParse_inv t o _ h rfl
  have hws := endWs_run (⟨⟨0, t⟩, []⟩ : ParserImpl) [] t rfl (by simp) hh hne
  rw [hws] at hrun
  simp only [List.length_nil, Nat.add_zero, List.drop_length] at hrun
  let F : Frame := ⟨st1.i.pos, [], s2, [], st1.issues⟩
  have hsim : F.Sim (⟨⟨0, t⟩, []⟩ : ParserImpl) st1 :=
    ⟨⟨t, by simp [F], hst, by simp [F]⟩, [], rfl, by simp [F]⟩
  obtain ⟨st2', e2, ⟨c, hc1, hc2, -⟩, -⟩ := (parser_local F (Or.inr hs2) o _).1 _ _ _ _ hrun
    st1 v0 fuel hsim (by simp [F]) (by simp only [F, List.length_nil]; omega)
  refine ⟨st2', e2, ?_⟩
  simp only [F, List.append_nil] at hc1 hc2
  rw [hc2, ← hc1]
  rfl

/-- A text that `impl::parse` reads alone as a string is read as the same string by
`parseString` wherever it stands. -/
theorem key_run (o : ParsingOptions) (kt k : Bytes) (iss : List ParsingIssue)
    (h : impl.parse kt o = some
      { value := .string k, status := .Success, parsedSize := kt.length, issues := iss })
    (hq : kt.head? = some 34) (st1 : ParserImpl) (s2 : Bytes)
    (hst : st1.i.rest = kt ++ s2) :
    ∃ st', parseString o [] st1 = some (true, k, st') ∧ st'.i.rest = s2 := by
  have hne := implParse_nonempty kt o _ h rfl
  obtain ⟨he, -, hrun⟩ := implParse_inv kt o _ h rfl
  have hws := endWs_run (⟨⟨0, kt⟩, []⟩ : ParserImpl) [] kt rfl (by simp)
    (fun b hb => by
      rw [hq] at hb
      obtain rfl := Option.some.inj hb
      decide) hne
  rw [hws] at hrun
  simp only [List.length_nil, Nat.add_zero, List.drop_length] at hrun
  obtain ⟨b, t, rfl⟩ := List.exists_cons_of_ne_nil hne
  simp only [List.head?_cons, Option.some.injEq] at hq
  subst hq
  unfold parseImpl at hrun
  simp only [Byte.val_lit] at hrun
  norm_num at hrun
  cases hp : parseString o [] (⟨⟨0, 34 :: t⟩, []⟩ : ParserImpl) with
  | none => simp [hp] at hrun
  | some x =>
    obtain ⟨r, sk, sf⟩ := x
    simp only [hp, Option.some.injEq, Prod.mk.injEq, Value.string.injEq] at hrun
    obtain ⟨rfl, rfl, rfl⟩ := hrun
    let F : Frame := ⟨st1.i.pos, [], s2, [], st1.issues⟩
    have hsim : F.Sim (⟨⟨0, 34 :: t⟩, []⟩ : ParserImpl) st1 :=
      ⟨⟨34 :: t, by simp [F], hst, by simp [F]⟩, [], rfl, by simp [F]⟩
    obtain ⟨st2', e2, ⟨c, hc1, hc2, -⟩, -⟩ := parseString_sim F o [] _ st1 _ _ hp hsim
      (by simp) (by simp [F])
    refine ⟨st2', e2, ?_⟩
    simp only [F, List.append_nil] at hc1 hc2
    rw [hc2, ← hc1]
    rfl

theorem endWs_run_rest (st : ParserImpl) (w X : Bytes) (hst : st.i.rest = w ++ X)
    (hw : ∀ b ∈ w, isWhitespace b) (hX : ∀ b, X.head? = some b → ¬ isWhitespace b)
    (hne : X ≠ []) :
    ∃ st', st.detectEndOfInputAfterSkippingWhitespaces = (false, st') ∧ st'.i.rest = X :=
  ⟨_, endWs_run st w X hst hw hX hne, rfl⟩

theorem advance_rest (st : ParserImpl) (b : Byte) (t : Bytes) (h : st.i.rest = b :: t) :
    st.advance.i.rest = t := by
  simp [advance, Ptr.next, h]

theorem membersTail_head (rest : List Member) (s2 : Bytes) :
    ∃ b t, membersTail rest ++ s2 = b :: t ∧ (b.val = 125 ∨ b.val = 44) := by
  cases rest with
  | nil => exact ⟨125, s2, rfl, Or.inl rfl⟩
  | cons m r => exact ⟨44, _, rfl, Or.inr rfl⟩

theorem Member.WellFormed.valueText_cons {o : ParsingOptions} {m : Member}
    (h : m.WellFormed o) : ∃ b t, m.valueText = b :: t ∧ ¬ isWhitespace b := by
  obtain ⟨-, -, -, -, -, hvh, -, iv, hv⟩ := h
  rw [parse_stop_eq] at hv
  obtain ⟨b, t, e⟩ := List.exists_cons_of_ne_nil (implParse_nonempty _ _ _ hv rfl)
  exact ⟨b, t, e, hvh b (by rw [e]; rfl)⟩

theorem Member.WellFormed.keyText_cons {o : ParsingOptions} {m : Member}
    (h : m.WellFormed o) : ∃ t, m.keyText = 34 :: t := by
  obtain ⟨-, -, -, -, hq, -⟩ := h
  cases hk : m.keyText with
  | nil => rw [hk] at hq; simp at hq
  | cons b t =>
    rw [hk] at hq
    simp only [List.head?_cons, Option.some.injEq] at hq
    exact ⟨t, by rw [hq]⟩

theorem inertEnd_of_head (X : Bytes)
    (h : ∀ b, X.head? = some b → isWhitespace b ∨ b.val = 125 ∨ b.val = 44 ∨ b.val = 93) :
    InertEnd X := by
  intro b hb
  have := h b hb
  unfold isWhitespace at this
  simp only [isDecimalDigit, Bool.and_eq_false_imp, decide_eq_true_eq, decide_eq_false_iff_not]
  omega

/-- The loop of `parseObject` on the text of the members of an object literal: it ends after
the closing brace, with the members put into the object one after the other. -/
theorem members_run (o : ParsingOptions) (ho : o.duplicateObjectKeys ≠ .Fail)
    (rest : List Member) :
    ∀ (m : Member) (ob : List (Bytes × Value)) (st : ParserImpl) (s2 : Bytes) (fuel : Nat),
      m.WellFormed o → (∀ x ∈ rest, x.WellFormed o) →
      st.i.rest = m.body ++ (membersTail rest ++ s2) →
      3 * (m.body ++ membersTail rest).length + 2 ≤ fuel →
      ∃ st', parseObjectMembers o fuel ob st
          = some (true, (m :: rest).foldl insertMember ob, st') ∧ st'.i.rest = s2 := by
  induction rest with
  | nil =>
    intro m ob st s2 fuel hm _ hst hf
    obtain ⟨f, rfl⟩ : ∃ f, fuel = f + 1 := ⟨fuel - 1, by omega⟩
    obtain ⟨kt', hkt⟩ := hm.keyText_cons
    obtain ⟨vb, vt', hvt, hvb⟩ := hm.valueText_cons
    obtain ⟨hb, hak, hbv, hav, hq, hvh, ⟨ik, hk⟩, iv, hv⟩ := hm
    rw [parse_stop_eq] at hk hv
    simp only [Member.body, List.append_assoc, List.cons_append, List.length_append,
      List.length_cons, membersTail, List.nil_append, List.length_nil] at hst hf
    -- the key
    obtain ⟨s1, e1, r1⟩ := key_run o _ _ _ hk hq st _ hst
    have hr : st.i.rest = 34 :: (kt' ++ (m.afterKey ++ 58 :: (m.beforeValue ++
        (m.valueText ++ (m.afterValue ++ 125 :: s2))))) := by
      rw [hst, hkt]
      rfl
    -- the colon
    obtain ⟨s2a, e2, r2⟩ := endWs_run_rest s1 m.afterKey _ r1 hak
      (fun b hb => by simp at hb; subst hb; decide) (by simp)
    have r3 := advance_rest s2a _ _ r2
    obtain ⟨s3, e3, r3a⟩ := endWs_run_rest s2a.advance m.beforeValue _ r3 hbv
      (fun b hb => by rw [hvt] at hb; simp at hb; subst hb; exact hvb) (by rw [hvt]; simp)
    -- the value
    have hcur := dupIssue_cursor s3
      ((!(tryEmplace ob m.key).2) = true ∧ o.duplicateObjectKeys ≠ .Ignore)
      st.i.pos "JSON object contains duplicate keys" .DuplicateKeys
    obtain ⟨sv, ev, rv⟩ := value_run o _ _ _ hv hvh
      (if (!(tryEmplace ob m.key).2) = true ∧ o.duplicateObjectKeys ≠ .Ignore then
        s3.addIssueAt st.i.pos "JSON object contains duplicate keys" .DuplicateKeys
      else s3) (m.afterValue ++ 125 :: s2) (by rw [hcur]; exact r3a)
      (inertEnd_of_head _ (fun b hb => by
        cases hav' : m.afterValue with
        | nil => rw [hav'] at hb; simp at hb; subst hb; right; left; rfl
        | cons x t =>
          rw [hav'] at hb; simp at hb; subst hb
          exact Or.inl (hav _ (by rw [hav']; simp))))
      f (by omega) ((Object.find m.key (tryEmplace ob m.key).1).getD Value.null)
    -- the closing brace
    obtain ⟨s4, e4, r4⟩ := endWs_run_rest sv m.afterValue _ rv hav
      (fun b hb => by simp at hb; subst hb; decide) (by simp)
    have r5 := advance_rest s4 _ _ r4
    refine ⟨s4.advance, ?_, r5⟩
    unfold parseObjectMembers
    have h34 : ¬ ((34 : Byte).val ≠ 34) := by decide
    have h58 : ¬ ((58 : Byte).val ≠ 58) := by decide
    have h125 : (125 : Byte).val = 125 := rfl
    simp only [hr, h34, e1, e2, Bool.false_eq_true, if_false, r2, h58, e3]
    rw [if_neg (fun hh => ho hh.2), ev]
    simp only [e4, Bool.false_eq_true, if_false, r4, h125, if_true]
    rfl
  | cons m2 rest2 ih =>
    intro m ob st s2 fuel hm hrest hst hf
    obtain ⟨f, rfl⟩ : ∃ f, fuel = f + 1 := ⟨fuel - 1, by omega⟩
    have hm2 := hrest m2 (List.mem_cons_self _ _)
    obtain ⟨kt2, hkt2⟩ := hm2.keyText_cons
    obtain ⟨kt', hkt⟩ := hm.keyText_cons
    obtain ⟨vb, vt', hvt, hvb⟩ := hm.valueText_cons
    obtain ⟨hb, hak, hbv, hav, hq, hvh, ⟨ik, hk⟩, iv, hv⟩ := hm
    rw [parse_stop_eq] at hk hv
    have hf2 : 3 * (m2.body ++ membersTail rest2).length + 2 ≤ f := by
      simp only [membersTail, List.length_append, List.length_cons] at hf ⊢
      omega
    have hfv : 3 * m.valueText.length + 1 ≤ f := by
      simp only [Member.body, membersTail, List.length_append, List.length_cons] at hf
      omega
    simp only [Member.body, List.append_assoc, List.cons_append, membersTail] at hst
    -- the key
    obtain ⟨s1, e1, r1⟩ := key_run o _ _ _ hk hq st _ hst
    have hr : st.i.rest = 34 :: (kt' ++ (m.afterKey ++ 58 :: (m.beforeValue ++
        (m.valueText ++ (m.afterValue ++ 44 :: (m2.before ++ (m2.keyText ++ (m2.afterKey ++
          58 :: (m2.beforeValue ++ (m2.valueText ++ (m2.afterValue ++
            (membersTail rest2 ++ s2))))))))))))  := by
      rw [hst, hkt]
      rfl
    -- the colon
    obtain ⟨s2a, e2, r2⟩ := endWs_run_rest s1 m.afterKey _ r1 hak
      (fun b hb => by simp at hb; subst hb; decide) (by simp)
    have r3 := advance_rest s2a _ _ r2
    obtain ⟨s3, e3, r3a⟩ := endWs_run_rest s2a.advance m.beforeValue _ r3 hbv
      (fun b hb => by rw [hvt] at hb; simp at hb; subst hb; exact hvb) (by rw [hvt]; simp)
    -- the value
    have hcur := dupIssue_cursor s3
      ((!(tryEmplace ob m.key).2) = true ∧ o.duplicateObjectKeys ≠ .Ignore)
      st.i.pos "JSON object contains duplicate keys" .DuplicateKeys
    obtain ⟨sv, ev, rv⟩ := value_run o _ _ _ hv hvh
      (if (!(tryEmplace ob m.key).2) = true ∧ o.duplicateObjectKeys ≠ .Ignore then
        s3.addIssueAt st.i.pos "JSON object contains duplicate keys" .DuplicateKeys
      else s3) _ (by rw [hcur]; exact r3a)
      (inertEnd_of_head _ (fun b hb => by
        cases hav' : m.afterValue with
        | nil => rw [hav'] at hb; simp at hb; subst hb; right; right; left; rfl
        | cons x t =>
          rw [hav'] at hb; simp at hb; subst hb
          exact Or.inl (hav _ (by rw [hav']; simp))))
      f hfv ((Object.find m.key (tryEmplace ob m.key).1).getD Value.null)
    -- the comma and the next member
    obtain ⟨s4, e4, r4⟩ := endWs_run_rest sv m.afterValue _ rv hav
      (fun b hb => by simp at hb; subst hb; decide) (by simp)
    have r5 := advance_rest s4 _ _ r4
    obtain ⟨s6, e6, r6⟩ := endWs_run_rest s4.advance m2.before _ r5 hm2.1
      (fun b hb => by rw [hkt2] at hb; simp at hb; subst hb; decide) (by rw [hkt2]; simp)
    obtain ⟨st', e7, r7⟩ := ih m2 (insertMember ob m) s6 s2 f hm2
      (fun x hx => hrest x (List.mem_cons_of_mem _ hx))
      (by rw [r6]; simp [Member.body]) hf2
    refine ⟨st', ?_, r7⟩
    unfold parseObjectMembers
    have h34 : ¬ ((34 : Byte).val ≠ 34) := by decide
    have h58 : ¬ ((58 : Byte).val ≠ 58) := by decide
    have h44a : ¬ ((44 : Byte).val = 125) := by decide
    have h44 : (44 : Byte).val = 44 := rfl
    simp only [hr, h34, e1, e2, Bool.false_eq_true, if_false, r2, h58, e3]
    rw [if_neg (fun hh => ho hh.2), ev]
    simp only [e4, Bool.false_eq_true, if_false, r4, h44a, h44, if_true, e6]
    exact e7

/-- The function `impl::parse` on an object literal given by its members. -/
theorem implParse_objectText (o : ParsingOptions) (ho : o.duplicateObjectKeys ≠ .Fail)
    (m : Member) (rest : List Member) (hwf : ∀ x ∈ m :: rest, x.WellFormed o) :
    ∃ iss, impl.parse (objectText m rest) o = some
      { value := .object ((m :: rest).foldl insertMember [])
        status := .Success
        parsedSize := (objectText m rest).length
        issues := iss } := by
  have hm := hwf m (List.mem_cons_self _ _)
  obtain ⟨kt', hkt⟩ := hm.keyText_cons
  have hbody : ∃ t, m.body ++ membersTail rest = 34 :: t := ⟨_, by rw [Member.body, hkt]; rfl⟩
  obtain ⟨bt, hbt⟩ := hbody
  -- what `impl::parse` returns
  cases hp : impl.parse (objectText m rest) o with
  | none =>
    have := implParse_isSome (objectText m rest) o
    rw [hp] at this
    simp at this
  | some res =>
    have hpost := implParse_post _ o res hp
    -- the run inside
    have hrun : ParserImpl.parse o (3 * (objectText m rest).length + 1) .null
        { i := ⟨0, objectText m rest⟩, issues := [] } =
        some (if res.status = .Success then true else false, res.value,
          ⟨⟨res.parsedSize, (objectText m rest).drop res.parsedSize⟩, res.issues⟩) := by
      unfold impl.parse at hp
      cases hq : ParserImpl.parse o (3 * (objectText m rest).length + 1) .null
          { i := ⟨0, objectText m rest⟩, issues := [] } with
      | none => rw [hq] at hp; simp at hp
      | some x =>
        obtain ⟨r, v, st'⟩ := x
        rw [hq] at hp
        simp only [Option.some.injEq] at hp
        subst hp
        have h2 := (parserParse_post o _ _ _ _ _ _ hq)
        have hreach : Ptr.Reach ⟨0, objectText m rest⟩ st'.i := by
          cases r
          · exact h2.failed.cursorMoved
          · exact h2.ok.cursor
        obtain ⟨-, h3⟩ := hreach.eq_drop
        cases r <;> simp only [parsedSize, ← h3] <;> rfl
    -- the same run, step by step
    obtain ⟨f, hf⟩ : ∃ f, 3 * (objectText m rest).length = f + 1 :=
      ⟨3 * (objectText m rest).length - 1, by simp [objectText]; omega⟩
    have hmem := members_run o ho rest m []
    obtain ⟨s1, e1, r1⟩ := endWs_run_rest
      (ParserImpl.advance ⟨⟨0, objectText m rest⟩, []⟩) m.before (m.body ++ membersTail rest)
      (by simp [advance, Ptr.next, objectText]) hm.1
      (fun b hb => by rw [hbt] at hb; simp at hb; subst hb; decide) (by rw [hbt]; simp)
    obtain ⟨st', e2, r2⟩ := hmem s1 [] f hm (fun x hx => hwf x (List.mem_cons_of_mem _ hx))
      (by rw [r1]; simp) (by
        have : (objectText m rest).length
            = 1 + m.before.length + (m.body ++ membersTail rest).length := by
          simp [objectText]
          omega
        omega)
    have e0 := endWs_run (⟨⟨0, objectText m rest⟩, []⟩ : ParserImpl) [] (objectText m rest)
      rfl (by simp) (fun b hb => by simp [objectText] at hb; subst hb; decide)
      (by simp [objectText])
    have h123 : (123 : Byte).val = 123 := rfl
    have hb125 : ¬ ((34 : Byte).val = 125) := by decide
    have hcalc : ParserImpl.parse o (3 * (objectText m rest).length + 1) .null
        { i := ⟨0, objectText m rest⟩, issues := [] } =
        some (true, .object ((m :: rest).foldl insertMember []), st') := by
      unfold ParserImpl.parse
      simp only [e0, Bool.false_eq_true, if_false, List.length_nil, Nat.add_zero]
      unfold parseImpl
      rw [hf]
      simp only [objectText, h123]
      norm_num
      unfold parseObject
      have e1' : (ParserImpl.advance ⟨⟨0, 123 :: (m.before ++ (m.body ++ membersTail rest))⟩, []⟩).detectEndOfInputAfterSkippingWhitespaces = (false, s1) := e1
      simp only [e1', Bool.false_eq_true, if_false]
      simp only [r1, hbt, hb125, if_false, e2]
      rfl
    rw [hcalc] at hrun
    simp only [Option.some.injEq, Prod.mk.injEq] at hrun
    obtain ⟨hs, hv, hst⟩ := hrun
    have hs' : res.status = .Success := by
      by_contra hc
      simp [hc] at hs
    have hrest : (objectText m rest).drop res.parsedSize = [] := by
      rw [hst] at r2
      exact r2
    have hsize : res.parsedSize = (objectText m rest).length := by
      have := congrArg List.length hrest
      simp only [List.length_drop, List.length_nil] at this
      have := hpost.1
      omega
    refine ⟨res.issues, ?_⟩
    obtain ⟨v, status, ps, iss⟩ := res
    simp only at hs' hv hsize
    subst hs' hv hsize
    rfl

/-- C4 as the code has it: the input `{"a":1,"a":2}` parsed with the policy `Ignore` for
duplicate keys gives `Success` with the object that maps `a` to 2, the value of the last
occurrence of the key. -/
theorem parse_duplicate_key_keeps_last :
    (parse [123, 34, 97, 34, 58, 49, 44, 34, 97, 34, 58, 50, 125]
        { duplicateObjectKeys := .Ignore }).map (fun r => (r.status, r.value)) =
      some (.Success, .object [([97], .int64 ⟨2, by decide⟩)]) := by
  decide!

/-- C4, amended: for every object literal given by its members (each with a key text that is
parsed as a string and a value text that is parsed as a value, and whitespace between the
pieces), parsing with `duplicateObjectKeys` other than `Fail` (that is, `Ignore` or `Report`)
gives `Success` with an object that maps every key to the value of its LAST occurrence in the
literal, and no other key. -/
theorem parse_object_last_wins (o : ParsingOptions) (ho : o.duplicateObjectKeys ≠ .Fail)
    (m : Member) (rest : List Member) (hwf : ∀ x ∈ m :: rest, x.WellFormed o)
    (mode : ParsingMode) :
    ∃ r ob, parse (objectText m rest) o mode = some r ∧ r.status = .Success ∧
      r.parsedSize = (objectText m rest).length ∧ r.value = .object ob ∧
      ∀ key, Object.find key ob = lastValue key (m :: rest) := by
  obtain ⟨iss, h⟩ := implParse_objectText o ho m rest hwf
  refine ⟨_, _, parse_of_implParse_all _ o mode _ h rfl (by simp), rfl, rfl, rfl, ?_⟩
  intro key
  rw [find_foldl_insertMember]
  cases lastValue key (m :: rest) <;> rfl

/-- C4, amended, at the literal `{"a":1,"a":2}` with the policy `Ignore`. -/
theorem parse_object_last_wins_witness :
    ∃ r ob,
      parse (objectText ⟨[], [34, 97, 34], [97], [], [], [49], .int64 ⟨1, by decide⟩, []⟩
          [⟨[], [34, 97, 34], [97], [], [], [50], .int64 ⟨2, by decide⟩, []⟩])
        { duplicateObjectKeys := .Ignore } .VerifyTrailingWhitespace = some r ∧
      r.status = .Success ∧
      r.parsedSize = (objectText ⟨[], [34, 97, 34], [97], [], [], [49], .int64 ⟨1, by decide⟩, []⟩
          [⟨[], [34, 97, 34], [97], [], [], [50], .int64 ⟨2, by decide⟩, []⟩]).length ∧
      r.value = .object ob ∧
      ∀ key, Object.find key ob = lastValue key
        [⟨[], [34, 97, 34], [97], [], [], [49], .int64 ⟨1, by decide⟩, []⟩,
          ⟨[], [34, 97, 34], [97], [], [], [50], .int64 ⟨2, by decide⟩, []⟩] :=
  parse_object_last_wins { duplicateObjectKeys := .Ignore } (by decide)
    ⟨[], [34, 97, 34], [97], [], [], [49], .int64 ⟨1, by decide⟩, []⟩
    [⟨[], [34, 97, 34], [97], [], [], [50], .int64 ⟨2, by decide⟩, []⟩]
    (by
      intro x hx
      simp only [List.mem_cons, List.mem_singleton, List.not_mem_nil, or_false] at hx
      rcases hx with rfl | rfl
      · exact ⟨by simp, by simp, by simp, by simp, rfl,
          fun b hb => by simp at hb; subst hb; decide, ⟨[], by decide!⟩, ⟨[], by decide!⟩⟩
      · exact ⟨by simp, by simp, by simp, by simp, rfl,
          fun b hb => by simp at hb; subst hb; decide, ⟨[], by decide!⟩, ⟨[], by decide!⟩⟩)
    .VerifyTrailingWhitespace

theorem range_self (p : Ptr) : p.range p = [] := by
  simp [Ptr.range]

theorem range_next (pb i : Ptr) (b : Byte) (rest : Bytes) (hr : pb.Reach i)
    (hi : i.rest = b :: rest) : pb.range i.next = pb.range i ++ [b] := by
  obtain ⟨c, h1, h2⟩ := hr
  simp only [Ptr.range, Ptr.next, h1, h2, hi]
  have e1 : pb.pos + c.length + 1 - pb.pos = c.length + 1 := by omega
  have e2 : pb.pos + c.length - pb.pos = c.length := by omega
  rw [e1, e2]
  simp [List.take_append_eq_append_take]

theorem reach_step_of_cons (pb i : Ptr) (b : Byte) (rest : Bytes) (hr : pb.Reach i)
    (hi : i.rest = b :: rest) : pb.Reach i.next := by
  obtain ⟨c, h1, h2⟩ := hr
  refine ⟨c ++ [b], ?_, ?_⟩
  · simp [Ptr.next, h1, hi]
  · simp [Ptr.next, h2, hi]; omega

theorem writeAndAdvance_flatten (out : List Bytes) (pb i : Ptr) (e : Bytes) (hr : pb.Reach i) :
    (EscapedStringWriter.writeAndAdvance out pb i e).flatten = out.flatten ++ pb.range i ++ e := by
  unfold EscapedStringWriter.writeAndAdvance EscapedStringWriter.writePending
  by_cases hp : pb.pos = i.pos
  · have : pb.range i = [] := by simp [Ptr.range, hp]
    simp [hp, this]
  · simp [hp]

theorem writeImplFrom_default (h : HexDigitsCase) :
    ∀ (fuel : Nat) (out : List Bytes) (pb i : Ptr), pb.Reach i → i.rest ≠ [] →
      i.rest.length ≤ fuel →
      ∃ out2, EscapedStringWriter.writeImplFrom false false h fuel out pb i =
          some (⟨i.pos + i.rest.length, []⟩, out2) ∧
        out2.flatten = out.flatten ++ pb.range i ++ i.rest.flatMap (escapedByte h) := by
  intro fuel
  induction fuel with
  | zero =>
    intro out pb i _ hne hf
    have : i.rest = [] := List.length_eq_zero.mp (by omega)
    exact absurd this hne
  | succ fuel ih =>
    intro out pb i hr hne hf
    obtain ⟨pos, rest0⟩ := i
    cases rest0 with
    | nil => exact absurd rfl hne
    | cons b rest =>
      have hnext : (⟨pos, b :: rest⟩ : Ptr).next = ⟨pos + 1, rest⟩ := rfl
      unfold EscapedStringWriter.writeImplFrom
      simp only [hnext]
      by_cases h1 : matchCommonCharacterToEscape b ≠ 0
      · simp only [if_pos h1]
        have hfl := writeAndAdvance_flatten out pb ⟨pos, b :: rest⟩
          (EscapedChar.decorate (matchCommonCharacterToEscape b)) hr
        have heb : escapedByte h b = EscapedChar.decorate (matchCommonCharacterToEscape b) := by
          simp only [escapedByte, if_pos h1]
        cases rest with
        | nil =>
          refine ⟨EscapedStringWriter.writeAndAdvance out pb ⟨pos, [b]⟩
            (EscapedChar.decorate (matchCommonCharacterToEscape b)), by simp, ?_⟩
          rw [hfl]; simp [heb]
        | cons b2 rest2 =>
          obtain ⟨out2, e1, e2⟩ := ih (EscapedStringWriter.writeAndAdvance out pb ⟨pos, b :: b2 :: rest2⟩
            (EscapedChar.decorate (matchCommonCharacterToEscape b))) ⟨pos + 1, b2 :: rest2⟩
            ⟨pos + 1, b2 :: rest2⟩ (Ptr.Reach.refl _) (by simp) (by simpa using hf)
          refine ⟨out2, ?_, ?_⟩
          · simp only [reduceCtorEq, if_false, e1]
            simp; omega
          · rw [e2, hfl, range_self]; simp [heb]
      · simp only [if_neg h1]
        by_cases h2 : isControlCharacter b = true
        · simp only [h2, if_true]
          have hfl := writeAndAdvance_flatten out pb ⟨pos, b :: rest⟩ (EscapedChar.getChar h b) hr
          have heb : escapedByte h b = EscapedChar.getChar h b := by
            simp only [escapedByte, if_neg h1, h2, if_true]
          cases rest with
          | nil =>
            refine ⟨EscapedStringWriter.writeAndAdvance out pb ⟨pos, [b]⟩
              (EscapedChar.getChar h b), by simp, ?_⟩
            rw [hfl]; simp [heb]
          | cons b2 rest2 =>
            obtain ⟨out2, e1, e2⟩ := ih (EscapedStringWriter.writeAndAdvance out pb
              ⟨pos, b :: b2 :: rest2⟩ (EscapedChar.getChar h b)) ⟨pos + 1, b2 :: rest2⟩
              ⟨pos + 1, b2 :: rest2⟩ (Ptr.Reach.refl _) (by simp) (by simpa using hf)
            refine ⟨out2, ?_, ?_⟩
            · simp only [reduceCtorEq, if_false, e1]
              simp; omega
            · rw [e2, hfl, range_self]; simp [heb]
        · have heb : escapedByte h b = [b] := by
            simp only [escapedByte, if_neg h1, h2, Bool.false_eq_true, if_false]
          have hrn := range_next pb ⟨pos, b :: rest⟩ b rest hr rfl
          have hrr := reach_step_of_cons pb ⟨pos, b :: rest⟩ b rest hr rfl
          rw [hnext] at hrn hrr
          simp only [h2, Bool.false_eq_true, if_false, or_self, false_and]
          cases rest with
          | nil =>
            refine ⟨EscapedStringWriter.writePending out pb ⟨pos + 1, []⟩, by simp, ?_⟩
            simp [EscapedStringWriter.writePending, hrn, heb]
          | cons b2 rest2 =>
            obtain ⟨out2, e1, e2⟩ := ih out pb ⟨pos + 1, b2 :: rest2⟩ hrr (by simp)
              (by simpa using hf)
            refine ⟨out2, ?_, ?_⟩
            · simp only [reduceCtorEq, if_false, e1]
              simp; omega
            · rw [e2, hrn]; simp [heb]

theorem escape_default (s : Bytes) :
    escape s = some (s.flatMap (escapedByte .Lower)) := by
  unfold escape
  by_cases hs : s = []
  · simp [hs]
  · simp only [ne_eq, hs, not_false_eq_true, if_true, impl.escape, EscapedStringWriter.write,
      if_false]
    obtain ⟨out2, e1, e2⟩ := writeImplFrom_default .Lower (s.length + 1) [] ⟨0, s⟩ ⟨0, s⟩
      (Ptr.Reach.refl _) hs (by simp)
    have d1 : (decide (Escape.Default = Escape.NonAscii)) = false := by decide
    have d2 : (decide (Utf8Validation.IgnoreInvalidUtf8CodeUnits =
      Utf8Validation.FailOnInvalidUtf8CodeUnits)) = false := by decide
    simp only [d1, d2, e1]
    simp [e2, range_self]

theorem escapedByte_ne_nil (h : HexDigitsCase) (b : Byte) : escapedByte h b ≠ [] := by
  unfold escapedByte EscapedChar.decorate EscapedChar.getChar
  split_ifs <;> simp

theorem flatMap_escapedByte_eq_nil (h : HexDigitsCase) (s : Bytes) :
    s.flatMap (escapedByte h) = [] ↔ s = [] := by
  cases s with
  | nil => simp
  | cons b t => simp [escapedByte_ne_nil]

theorem length_le_flatMap_escapedByte (h : HexDigitsCase) (s : Bytes) :
    s.length ≤ (s.flatMap (escapedByte h)).length := by
  induction s with
  | nil => simp
  | cons b t ih =>
    have := List.length_pos.mpr (escapedByte_ne_nil h b)
    simp only [List.flatMap_cons, List.length_append, List.length_cons]
    omega

theorem parseMore_escapedByte_alone : ∀ b : Byte,
    (escapedByte .Lower b = [b] ∧
      EscapedStringParser.parseMore .Relaxed ⟨0, [b]⟩ = some ({ result := .Skip }, ⟨1, []⟩)) ∨
    EscapedStringParser.parseMore .Relaxed ⟨0, escapedByte .Lower b⟩ =
      some ({ result := .Unescaped, unescaped := [b] }, ⟨(escapedByte .Lower b).length, []⟩) := by
  decide!

theorem parseMore_transport (t : Bytes) (r : EscapedStringParser.Result) (n : Nat)
    (h : EscapedStringParser.parseMore .Relaxed ⟨0, t⟩ = some (r, ⟨n, []⟩))
    (hg : GoodKind r.result) (hne : t ≠ []) (pos : Nat) (rest : Bytes) :
    EscapedStringParser.parseMore .Relaxed ⟨pos, t ++ rest⟩ = some (r, ⟨pos + n, rest⟩) := by
  obtain ⟨q2, e, c, hc1, hc2, hc3⟩ := parseMore_sim ⟨pos, [], rest, [], []⟩ .Relaxed ⟨0, t⟩
    ⟨pos, t ++ rest⟩ r ⟨n, []⟩ ⟨t, by simp, rfl, by simp⟩ h hg
    (by simpa using List.length_pos.mpr hne) (by simp)
  have hc : c = [] := by simpa using hc1.symm
  subst hc
  obtain ⟨qp, qr⟩ := q2
  simp only [List.nil_append] at hc2 hc3
  subst hc2 hc3
  rw [e, Nat.add_comm]

theorem unescape_writePending_flatten (out : List Bytes) (pb pe : Ptr) :
    (UnescapeParser.writePending out pb pe).flatten = out.flatten ++ pb.range pe := by
  unfold UnescapeParser.writePending
  by_cases hp : pb.pos = pe.pos
  · simp [hp, Ptr.range]
  · simp [hp]

theorem unescapeLoop_escaped (sr : Nat) :
    ∀ (s : Bytes) (fuel : Nat) (out : List Bytes) (pb : Ptr) (pos : Nat), s ≠ [] →
      s.length ≤ fuel → pb.Reach ⟨pos, s.flatMap (escapedByte .Lower)⟩ →
      ∃ out2, UnescapeParser.unescapeLoop .Relaxed sr fuel out pb
          ⟨pos, s.flatMap (escapedByte .Lower)⟩ =
          some (some ⟨pos + (s.flatMap (escapedByte .Lower)).length, []⟩, out2) ∧
        out2.flatten = out.flatten ++ pb.range ⟨pos, s.flatMap (escapedByte .Lower)⟩ ++ s := by
  intro s
  induction s with
  | nil => intro _ _ _ _ h; exact absurd rfl h
  | cons b t ih =>
    intro fuel out pb pos _ hf hr
    cases fuel with
    | zero => simp at hf
    | succ fuel =>
      have hf2 : t.length ≤ fuel := by simpa using hf
      rw [UnescapeParser.unescapeLoop]
      simp only [List.flatMap_cons]
      rcases parseMore_escapedByte_alone b with ⟨heb, hpm⟩ | hpm
      · have hpm2 := parseMore_transport [b] _ 1 hpm
          ⟨by simp, by simp⟩ (by simp) pos (t.flatMap (escapedByte .Lower))
        simp only [List.flatMap_cons, heb] at hr
        simp only [heb, hpm2]
        have hrn := range_next pb ⟨pos, [b] ++ t.flatMap (escapedByte .Lower)⟩ b _ hr rfl
        have hrr := reach_step_of_cons pb ⟨pos, [b] ++ t.flatMap (escapedByte .Lower)⟩ b _ hr rfl
        have hnx : (⟨pos, [b] ++ t.flatMap (escapedByte .Lower)⟩ : Ptr).next =
            ⟨pos + 1, t.flatMap (escapedByte .Lower)⟩ := rfl
        rw [hnx] at hrn hrr
        by_cases ht : t = []
        · subst ht
          refine ⟨UnescapeParser.writePending out pb ⟨pos + 1, []⟩, by simp, ?_⟩
          rw [unescape_writePending_flatten]
          simp only [List.flatMap_nil] at hrn
          rw [hrn]; simp
        · have hne : t.flatMap (escapedByte .Lower) ≠ [] :=
            fun h0 => ht ((flatMap_escapedByte_eq_nil _ _).mp h0)
          obtain ⟨out2, e1, e2⟩ := ih fuel out pb (pos + 1) ht hf2 hrr
          refine ⟨out2, ?_, ?_⟩
          · simp only [hne, if_false, e1]
            simp; omega
          · rw [e2, hrn]; simp
      · have hpm2 := parseMore_transport (escapedByte .Lower b) _ _ hpm ⟨by simp, by simp⟩
          (escapedByte_ne_nil _ _) pos (t.flatMap (escapedByte .Lower))
        simp only [hpm2]
        have hwf := unescape_writePending_flatten out pb
          ⟨pos, escapedByte .Lower b ++ t.flatMap (escapedByte .Lower)⟩
        by_cases ht : t = []
        · subst ht
          refine ⟨UnescapeParser.writePending (UnescapeParser.writePending out pb
            ⟨pos, escapedByte .Lower b ++ []⟩ ++ [[b]]) ⟨pos + (escapedByte .Lower b).length, []⟩
            ⟨pos + (escapedByte .Lower b).length, []⟩, by simp, ?_⟩
          rw [unescape_writePending_flatten, range_self]
          simp only [List.flatMap_nil, List.append_nil] at hwf ⊢
          simp [hwf]
        · have hne : t.flatMap (escapedByte .Lower) ≠ [] :=
            fun h0 => ht ((flatMap_escapedByte_eq_nil _ _).mp h0)
          obtain ⟨out2, e1, e2⟩ := ih fuel (UnescapeParser.writePending out pb
            ⟨pos, escapedByte .Lower b ++ t.flatMap (escapedByte .Lower)⟩ ++ [[b]]) 
            ⟨pos + (escapedByte .Lower b).length, t.flatMap (escapedByte .Lower)⟩
            (pos + (escapedByte .Lower b).length) ht hf2 (Ptr.Reach.refl _)
          refine ⟨out2, ?_, ?_⟩
          · simp only [hne, if_false, e1]
            simp; omega
          · rw [e2, range_self]; simp [hwf]

theorem unescape_escaped (s : Bytes) :
    unescape (s.flatMap (escapedByte .Lower)) = some s := by
  by_cases hs : s = []
  · subst hs; rfl
  · have hne : s.flatMap (escapedByte .Lower) ≠ [] :=
      fun h0 => hs ((flatMap_escapedByte_eq_nil _ _).mp h0)
    obtain ⟨out2, e1, e2⟩ := unescapeLoop_escaped DoNotReplaceSurrogates s
      ((s.flatMap (escapedByte .Lower)).length + 1) [] ⟨0, s.flatMap (escapedByte .Lower)⟩ 0 hs
      (by have := length_le_flatMap_escapedByte .Lower s; omega) (Ptr.Reach.refl _)
    unfold unescape impl.unescape UnescapeParser.unescape
    simp only [hne, if_false, e1]
    simp [e2, range_self]

/-- C2: for every string `s` (valid UTF-8 or not), `escape` with its default arguments returns
a text, and `unescape` with its default argument gives `s` back from that text:
`unescape(escape(s)) == s`. -/
theorem unescape_escape (s : Bytes) : ∃ e, escape s = some e ∧ unescape e = some s :=
  ⟨_, escape_default s, unescape_escaped s⟩

theorem hex_step (c d : Nat) (hc : c < 2 ^ 28) (hd : d < 16) :
    (c <<< 4) % 2 ^ 32 ||| d = 16 * c + d := by
  rw [Nat.shiftLeft_eq, Nat.mod_eq_of_lt (by omega)]
  have := Nat.mul_add_lt_is_or (show d < 2 ^ 4 by omega) c
  rw [Nat.mul_comm c (2 ^ 4), ← this]

theorem and_fc00 (c : Nat) : c &&& 0xfc00 = (c / 1024 % 64) * 1024 := by
  have e1 : (0xfc00 : Nat) = (2 ^ 6 - 1) <<< 10 := by decide
  have e2 : (c / 1024 % 64) * 1024 = ((c >>> 10) &&& (2 ^ 6 - 1)) <<< 10 := by
    rw [Nat.and_pow_two_sub_one_eq_mod, Nat.shiftRight_eq_div_pow, Nat.shiftLeft_eq]
  rw [e2, e1]
  apply Nat.eq_of_testBit_eq
  intro i
  simp only [Nat.testBit_and, Nat.testBit_shiftLeft, Nat.testBit_shiftRight,
    Nat.testBit_two_pow_sub_one]
  by_cases h : 10 ≤ i
  · simp [h, Nat.add_sub_cancel' h]
  · simp [h]

theorem isHigh_iff (c : Nat) (hc : c < 65536) :
    c &&& 0xfc00 = 0xd800 ↔ 0xd800 ≤ c ∧ c < 0xdc00 := by
  rw [and_fc00]; omega

theorem isLow_iff (c : Nat) (hc : c < 65536) :
    c &&& 0xfc00 = 0xdc00 ↔ 0xdc00 ≤ c ∧ c < 0xe000 := by
  rw [and_fc00]; omega

theorem lead2 : ∀ y : Fin 32, (((y.val &&& 31) ||| 0xffffffc0) % 256) = 0xC0 ||| y.val := by
  decide!

theorem lead3 : ∀ y : Fin 16, (((y.val &&& 15) ||| 0xffffffe0) % 256) = 0xE0 ||| y.val := by
  decide!

theorem lead4 : ∀ y : Fin 8, (((y.val &&& 7) ||| 0xfffffff0) % 256) = 0xF0 ||| y.val := by
  decide!

theorem cont6 : ∀ y : Fin 64, ((y.val ||| 0xffffff80) % 256) = 0x80 ||| y.val := by
  decide!

theorem cont_byte (z : Nat) :
    (((z &&& 63) ||| 0xffffff80) % 256) = 0x80 ||| (z &&& 63) := by
  have h : z &&& 63 < 64 := by
    have := Nat.and_pow_two_sub_one_eq_mod z 6
    norm_num at this
    rw [this]; omega
  exact cont6 ⟨z &&& 63, h⟩

theorem encodeCodePoint2 (c : Nat) : Utf8Encoder.encodeCodePoint [5, 6] c =
    [Fin.ofNat ((((c >>> 6) &&& 31) ||| 0xffffffc0) % 256),
      Fin.ofNat ((((c >>> 0) &&& 63) ||| 0xffffff80) % 256)] := rfl

theorem encodeCodePoint3 (c : Nat) : Utf8Encoder.encodeCodePoint [4, 6, 6] c =
    [Fin.ofNat ((((c >>> 12) &&& 15) ||| 0xffffffe0) % 256),
      Fin.ofNat ((((c >>> 6) &&& 63) ||| 0xffffff80) % 256),
      Fin.ofNat ((((c >>> 0) &&& 63) ||| 0xffffff80) % 256)] := rfl

theorem encodeCodePoint4 (c : Nat) : Utf8Encoder.encodeCodePoint [3, 6, 6, 6] c =
    [Fin.ofNat ((((c >>> 18) &&& 7) ||| 0xfffffff0) % 256),
      Fin.ofNat ((((c >>> 12) &&& 63) ||| 0xffffff80) % 256),
      Fin.ofNat ((((c >>> 6) &&& 63) ||| 0xffffff80) % 256),
      Fin.ofNat ((((c >>> 0) &&& 63) ||| 0xffffff80) % 256)] := rfl

theorem encode123_eq (c : Nat) (hc : c < 0x10000) :
    Utf8Encoder.encode123 c = utf8Encoding c := by
  unfold Utf8Encoder.encode123 utf8Encoding
  by_cases h1 : c < 0x80
  · simp only [h1, if_true]
    congr 1
    simp [Fin.ofNat]
  · simp only [h1, if_false]
    by_cases h2 : c < 0x800
    · simp only [h2, if_true]
      have hy : c >>> 6 < 32 := by rw [Nat.shiftRight_eq_div_pow]; omega
      have e := lead2 ⟨c >>> 6, hy⟩
      simp only at e
      rw [encodeCodePoint2, e, cont_byte, Nat.shiftRight_zero]
    · simp only [h2, if_false, hc, if_true]
      have hy : c >>> 12 < 16 := by rw [Nat.shiftRight_eq_div_pow]; omega
      have e := lead3 ⟨c >>> 12, hy⟩
      simp only at e
      rw [encodeCodePoint3, e, cont_byte, cont_byte, Nat.shiftRight_zero]

theorem encode4_eq (c : Nat) (h1 : 0x10000 ≤ c) (hc : c < 0x200000) :
    Utf8Encoder.encode4 c = utf8Encoding c := by
  unfold Utf8Encoder.encode4 utf8Encoding
  have n1 : ¬ c < 0x80 := by omega
  have n2 : ¬ c < 0x800 := by omega
  have n3 : ¬ c < 0x10000 := by omega
  simp only [n1, n2, n3, if_false]
  have hy : c >>> 18 < 8 := by rw [Nat.shiftRight_eq_div_pow]; omega
  have e := lead4 ⟨c >>> 18, hy⟩
  simp only at e
  rw [encodeCodePoint4, e, cont_byte, cont_byte, cont_byte, Nat.shiftRight_zero]

theorem unescapedPieces_test :
    unescapedPieces none [.unicode 100 56 51 68, .unicode 68 69 48 48, .plain 65,
      .unicode 100 56 51 68] = [0xF0, 0x9F, 0x98, 0x80, 65, 0xED, 0xA0, 0xBD] := by
  decide

theorem hexDigit_step : ∀ b : Byte, hexDigitValue b ≠ none →
    (hexDigitValue b).getD 0 < 16 ∧
    ((isDecimalDigit b = true ∧ b.val - 48 = (hexDigitValue b).getD 0) ∨
     (isDecimalDigit b = false ∧ 97 ≤ (b.val ||| 0x20) ∧ (b.val ||| 0x20) ≤ 102 ∧
       (b.val ||| 0x20) - 87 = (hexDigitValue b).getD 0)) := by
  decide!

theorem parseEscapeHex_digit (n c : Nat) (pos : Nat) (b : Byte) (rest : Bytes)
    (hb : hexDigitValue b ≠ none) (hc : c < 2 ^ 28) :
    EscapedStringParser.parseEscapeHex (n + 1) c ⟨pos, b :: rest⟩ =
      EscapedStringParser.parseEscapeHex n (16 * c + (hexDigitValue b).getD 0)
        ⟨pos + 1, rest⟩ := by
  obtain ⟨hv, h⟩ := hexDigit_step b hb
  rw [EscapedStringParser.parseEscapeHex]
  have hn : (⟨pos, b :: rest⟩ : Ptr).next = ⟨pos + 1, rest⟩ := rfl
  simp only [hn]
  rcases h with ⟨h1, h2⟩ | ⟨h1, h2, h3, h4⟩
  · simp only [h1, if_true, h2, hex_step c _ hc hv]
  · simp only [h1, Bool.false_eq_true, if_false, h2, h3, and_self, if_true, h4,
      hex_step c _ hc hv]

theorem hexDigitValue_lt (b : Byte) : (hexDigitValue b).getD 0 < 16 := by
  revert b; decide!

theorem codeUnit_lt (d1 d2 d3 d4 : Byte) : codeUnit d1 d2 d3 d4 < 65536 := by
  have h1 := hexDigitValue_lt d1
  have h2 := hexDigitValue_lt d2
  have h3 := hexDigitValue_lt d3
  have h4 := hexDigitValue_lt d4
  unfold codeUnit
  omega

theorem parseEscapeHex_four (pos : Nat) (d1 d2 d3 d4 : Byte) (rest : Bytes)
    (h1 : hexDigitValue d1 ≠ none) (h2 : hexDigitValue d2 ≠ none)
    (h3 : hexDigitValue d3 ≠ none) (h4 : hexDigitValue d4 ≠ none) :
    EscapedStringParser.parseEscapeHex 4 0 ⟨pos, d1 :: d2 :: d3 :: d4 :: rest⟩ =
      EscapedStringParser.parseEscapeHex 0 (codeUnit d1 d2 d3 d4) ⟨pos + 4, rest⟩ := by
  have v1 := hexDigitValue_lt d1
  have v2 := hexDigitValue_lt d2
  have v3 := hexDigitValue_lt d3
  have v4 := hexDigitValue_lt d4
  rw [parseEscapeHex_digit 3 0 pos d1 _ h1 (by norm_num),
    parseEscapeHex_digit 2 _ _ d2 _ h2 (by omega),
    parseEscapeHex_digit 1 _ _ d3 _ h3 (by omega),
    parseEscapeHex_digit 0 _ _ d4 _ h4 (by omega)]
  unfold codeUnit
  congr 1
  omega

theorem parseEscapeHex_zero (u : Nat) (hu : u < 65536) (p : Ptr) :
    EscapedStringParser.parseEscapeHex 0 u p = (codeUnitResult u, p) := by
  rw [EscapedStringParser.parseEscapeHex]
  unfold codeUnitResult isHighSurrogate isLowSurrogate
  have e1 := isHigh_iff u hu
  have e2 := isLow_iff u hu
  by_cases h1 : 0xd800 ≤ u ∧ u < 0xdc00
  · have h1a : 0xD800 ≤ u ∧ u ≤ 0xDBFF := by omega
    rw [if_pos (e1.mpr h1), if_pos h1a]
  · have h1a : ¬ (0xD800 ≤ u ∧ u ≤ 0xDBFF) := by omega
    rw [if_neg (fun h => h1 (e1.mp h)), if_neg h1a]
    by_cases h2 : 0xdc00 ≤ u ∧ u < 0xe000
    · have h2a : 0xDC00 ≤ u ∧ u ≤ 0xDFFF := by omega
      rw [if_pos (e2.mpr h2), if_pos h2a]
    · have h2a : ¬ (0xDC00 ≤ u ∧ u ≤ 0xDFFF) := by omega
      rw [if_neg (fun h => h2 (e2.mp h)), if_neg h2a, encode123_eq u hu]

theorem parseMore_plain (mode : UnescapeMode) (b : Byte) (pos : Nat) (rest : Bytes)
    (h92 : b.val ≠ 92) (h34 : b.val ≠ 34)
    (hs : mode = .Strict → isControlCharacter b = false) :
    EscapedStringParser.parseMore mode ⟨pos, b :: rest⟩ =
      some ({ result := .Skip }, ⟨pos + 1, rest⟩) := by
  unfold EscapedStringParser.parseMore
  simp only [if_neg h92, if_neg h34]
  cases mode with
  | Relaxed => simp [Ptr.next]
  | Strict => simp [hs rfl, Ptr.next]

theorem parseMore_quote (mode : UnescapeMode) (pos : Nat) (rest : Bytes) :
    EscapedStringParser.parseMore mode ⟨pos, 34 :: rest⟩ =
      some ({ result := .JsonStringEnd }, ⟨pos, 34 :: rest⟩) := by
  unfold EscapedStringParser.parseMore
  simp

theorem simpleEscape_cases : ∀ c : Byte, simpleEscapeValue c ≠ none →
    c = 34 ∨ c = 92 ∨ c = 47 ∨ c = 98 ∨ c = 102 ∨ c = 110 ∨ c = 114 ∨ c = 116 := by
  decide!

theorem parseMore_simple (mode : UnescapeMode) (c : Byte) (pos : Nat) (rest : Bytes)
    (hc : simpleEscapeValue c ≠ none) :
    EscapedStringParser.parseMore mode ⟨pos, 92 :: c :: rest⟩ =
      some ({ result := .Unescaped, unescaped := [(simpleEscapeValue c).getD 0] },
        ⟨pos + 2, rest⟩) := by
  rcases simpleEscape_cases c hc with h | h | h | h | h | h | h | h <;> subst h <;> rfl

theorem parseMore_unicode (mode : UnescapeMode) (pos : Nat) (d1 d2 d3 d4 : Byte) (rest : Bytes)
    (h1 : hexDigitValue d1 ≠ none) (h2 : hexDigitValue d2 ≠ none)
    (h3 : hexDigitValue d3 ≠ none) (h4 : hexDigitValue d4 ≠ none) :
    EscapedStringParser.parseMore mode ⟨pos, 92 :: 117 :: d1 :: d2 :: d3 :: d4 :: rest⟩ =
      some (codeUnitResult (codeUnit d1 d2 d3 d4), ⟨pos + 6, rest⟩) := by
  unfold EscapedStringParser.parseMore
  have hn : (⟨pos, 92 :: 117 :: d1 :: d2 :: d3 :: d4 :: rest⟩ : Ptr).next =
    ⟨pos + 1, 117 :: d1 :: d2 :: d3 :: d4 :: rest⟩ := rfl
  simp only [hn]
  unfold EscapedStringParser.parseEscape
  have hn2 : (⟨pos + 1, 117 :: d1 :: d2 :: d3 :: d4 :: rest⟩ : Ptr).next =
    ⟨pos + 2, d1 :: d2 :: d3 :: d4 :: rest⟩ := rfl
  simp only [hn2]
  have e : ((117 : Byte)).val = 117 := rfl
  simp only [e]
  norm_num
  rw [parseEscapeHex_four _ _ _ _ _ _ h1 h2 h3 h4, parseEscapeHex_zero _ (codeUnit_lt _ _ _ _)]
  simp

theorem encodeLone_eq (rep : Option Nat) (hrep : ValidReplacement rep) (u : Nat)
    (hu : isHighSurrogate u ∨ isLowSurrogate u) :
    Utf8Encoder.encodeSurrogateCodeUnitAsCodePoint u (replacementCode rep) =
      loneSurrogate rep u := by
  unfold Utf8Encoder.encodeSurrogateCodeUnitAsCodePoint replacementCode loneSurrogate
  cases rep with
  | none =>
    simp only [if_true]
    have hu2 : 0xD800 ≤ u ∧ u ≤ 0xDFFF := by
      rcases hu with h | h
      · have := h.1; have := h.2; omega
      · have := h.1; have := h.2; omega
    have h1 : u < 0x10000 := by omega
    have h2 : ¬ u < 0x80 := by omega
    have h3 : ¬ u < 0x800 := by omega
    have h4 : u >>> 12 = 13 := by
      rw [Nat.shiftRight_eq_div_pow]; omega
    rw [encode123_eq u h1]
    unfold utf8Encoding
    simp only [h2, h3, h1, if_false, if_true, h4]
    rfl
  | some r =>
    have hr := hrep r rfl
    have hne : r ≠ DoNotReplaceSurrogates := by unfold DoNotReplaceSurrogates; omega
    simp only [if_neg hne]
    by_cases h : r ≥ 0x10000
    · rw [if_pos h, encode4_eq r h hr]
    · rw [if_neg h, encode123_eq r (by omega)]

theorem encodePair_eq (h l : Nat) (hh : isHighSurrogate h) (hl : isLowSurrogate l) :
    Utf8Encoder.encode h l = utf8Encoding (surrogatePair h l) := by
  unfold isHighSurrogate at hh
  unfold isLowSurrogate at hl
  have e : gatherBits [(10, h), (10, l)] = ((h &&& (2 ^ 10 - 1)) <<< 10) ||| (l &&& (2 ^ 10 - 1)) :=
    rfl
  have e1 : h &&& (2 ^ 10 - 1) = h - 0xD800 := by
    rw [Nat.and_pow_two_sub_one_eq_mod]; omega
  have e2 : l &&& (2 ^ 10 - 1) = l - 0xDC00 := by
    rw [Nat.and_pow_two_sub_one_eq_mod]; omega
  have hb : ((h - 0xD800) <<< 10) ||| (l - 0xDC00) < 2 ^ 20 := by
    apply Nat.or_lt_two_pow
    · rw [Nat.shiftLeft_eq]; omega
    · omega
  unfold Utf8Encoder.encode surrogatePair
  rw [e, e1, e2, Nat.mod_eq_of_lt (by omega)]
  exact encode4_eq _ (by omega) (by omega)

theorem piecesText_cons (t : Piece) (r : List Piece) :
    piecesText (t :: r) = t.text ++ piecesText r := rfl

theorem piecesText_append (a b : List Piece) :
    piecesText (a ++ b) = piecesText a ++ piecesText b := by
  simp [piecesText]

theorem pieceText_ne_nil (t : Piece) : t.text ≠ [] := by
  cases t <;> simp [Piece.text]

theorem piecesText_eq_nil (ps : List Piece) : piecesText ps = [] ↔ ps = [] := by
  cases ps with
  | nil => simp [piecesText]
  | cons t r => simp [piecesText_cons, pieceText_ne_nil]

theorem unescapedPieces_high (rep : Option Nat) (d1 d2 d3 d4 : Byte) (r : List Piece)
    (hh : isHighSurrogate (codeUnit d1 d2 d3 d4))
    (hr : ∀ e1 e2 e3 e4 r2, r = .unicode e1 e2 e3 e4 :: r2 →
      ¬ isLowSurrogate (codeUnit e1 e2 e3 e4)) :
    unescapedPieces rep (.unicode d1 d2 d3 d4 :: r) =
      loneSurrogate rep (codeUnit d1 d2 d3 d4) ++ unescapedPieces rep r := by
  cases r with
  | nil => simp [unescapedPieces, hh]
  | cons p r2 =>
    cases p with
    | plain b => simp [unescapedPieces, hh]
    | simple c => simp [unescapedPieces, hh]
    | unicode e1 e2 e3 e4 =>
      have := hr e1 e2 e3 e4 r2 rfl
      simp [unescapedPieces, hh, this]

theorem unescapedPieces_pair (rep : Option Nat) (d1 d2 d3 d4 e1 e2 e3 e4 : Byte)
    (r : List Piece) (hh : isHighSurrogate (codeUnit d1 d2 d3 d4))
    (hl : isLowSurrogate (codeUnit e1 e2 e3 e4)) :
    unescapedPieces rep (.unicode d1 d2 d3 d4 :: .unicode e1 e2 e3 e4 :: r) =
      utf8Encoding (surrogatePair (codeUnit d1 d2 d3 d4) (codeUnit e1 e2 e3 e4)) ++
        unescapedPieces rep r := by
  simp [unescapedPieces, hh, hl]

theorem unescapedPieces_low (rep : Option Nat) (d1 d2 d3 d4 : Byte) (r : List Piece)
    (hl : isLowSurrogate (codeUnit d1 d2 d3 d4)) :
    unescapedPieces rep (.unicode d1 d2 d3 d4 :: r) =
      loneSurrogate rep (codeUnit d1 d2 d3 d4) ++ unescapedPieces rep r := by
  have hh : ¬ isHighSurrogate (codeUnit d1 d2 d3 d4) := by
    unfold isHighSurrogate; unfold isLowSurrogate at hl; omega
  cases r with
  | nil => simp [unescapedPieces, hl]
  | cons p r2 => simp [unescapedPieces, hh, hl]

theorem unescapedPieces_scalar (rep : Option Nat) (d1 d2 d3 d4 : Byte) (r : List Piece)
    (hh : ¬ isHighSurrogate (codeUnit d1 d2 d3 d4))
    (hl : ¬ isLowSurrogate (codeUnit d1 d2 d3 d4)) :
    unescapedPieces rep (.unicode d1 d2 d3 d4 :: r) =
      utf8Encoding (codeUnit d1 d2 d3 d4) ++ unescapedPieces rep r := by
  cases r with
  | nil => simp [unescapedPieces, hh, hl]
  | cons p r2 => simp [unescapedPieces, hh, hl]

theorem range_one (pos : Nat) (b : Byte) (rest : Bytes) :
    (⟨pos, b :: rest⟩ : Ptr).range ⟨pos + 1, rest⟩ = [b] := by
  simp [Ptr.range]

theorem reach_one (pos : Nat) (b : Byte) (rest : Bytes) :
    (⟨pos, b :: rest⟩ : Ptr).Reach ⟨pos + 1, rest⟩ :=
  ⟨[b], by simp [Ptr.Moved]⟩

theorem unescapeSurrogates_pieces (mode : UnescapeMode) (rep : Option Nat)
    (hrep : ValidReplacement rep) :
    ∀ (toks : List Piece), (∀ t ∈ toks, t.WellFormed mode) →
    ∀ (fuel : Nat) (out : List Bytes) (d1 d2 d3 d4 : Byte) (pos : Nat),
      isHighSurrogate (codeUnit d1 d2 d3 d4) → toks.length + 1 ≤ fuel →
      (∃ out', UnescapeParser.unescapeSurrogates mode (replacementCode rep) fuel out
          (codeUnit d1 d2 d3 d4) ⟨pos, piecesText toks⟩ =
            some (.returned (some ⟨pos + (piecesText toks).length, []⟩) out') ∧
          out'.flatten = out.flatten ++ unescapedPieces rep (.unicode d1 d2 d3 d4 :: toks)) ∨
      (∃ out' pb pre toks', toks = pre ++ toks' ∧ pre ≠ [] ∧
          UnescapeParser.unescapeSurrogates mode (replacementCode rep) fuel out
            (codeUnit d1 d2 d3 d4) ⟨pos, piecesText toks⟩ =
            some (.broke out' pb ⟨pos + (piecesText pre).length, piecesText toks'⟩) ∧
          pb.Reach ⟨pos + (piecesText pre).length, piecesText toks'⟩ ∧
          out'.flatten ++ pb.range ⟨pos + (piecesText pre).length, piecesText toks'⟩ ++
              unescapedPieces rep toks' =
            out.flatten ++ unescapedPieces rep (.unicode d1 d2 d3 d4 :: toks)) := by
  intro toks
  induction toks with
  | nil =>
    intro _ fuel out d1 d2 d3 d4 pos hh hf
    obtain ⟨f, rfl⟩ : ∃ f, fuel = f + 1 := ⟨fuel - 1, by omega⟩
    left
    refine ⟨out ++ [Utf8Encoder.encodeSurrogateCodeUnitAsCodePoint (codeUnit d1 d2 d3 d4)
      (replacementCode rep)], ?_, ?_⟩
    · rw [UnescapeParser.unescapeSurrogates]
      simp [piecesText]
    · rw [encodeLone_eq rep hrep _ (Or.inl hh)]
      simp [unescapedPieces, hh]
  | cons t r ih =>
    intro hwf fuel out d1 d2 d3 d4 pos hh hf
    obtain ⟨f, rfl⟩ : ∃ f, fuel = f + 1 := ⟨fuel - 1, by omega⟩
    have hf2 : r.length + 1 ≤ f := by simpa using hf
    have ht := hwf t (List.mem_cons_self _ _)
    have hr : ∀ x ∈ r, x.WellFormed mode := fun x hx => hwf x (List.mem_cons_of_mem _ hx)
    have hne : t.text ++ piecesText r ≠ [] := by simp [pieceText_ne_nil]
    have hlone := encodeLone_eq rep hrep _ (Or.inl hh)
    rw [UnescapeParser.unescapeSurrogates]
    simp only [piecesText_cons, hne, if_false]
    cases t with
    | plain b =>
      obtain ⟨h92, hs⟩ := ht
      have hun : unescapedPieces rep (.unicode d1 d2 d3 d4 :: .plain b :: r) =
          loneSurrogate rep (codeUnit d1 d2 d3 d4) ++ b :: unescapedPieces rep r := by
        rw [unescapedPieces_high rep _ _ _ _ _ hh (by intro _ _ _ _ _ h; cases h)]
        rfl
      right
      refine ⟨out ++ [Utf8Encoder.encodeSurrogateCodeUnitAsCodePoint (codeUnit d1 d2 d3 d4)
        (replacementCode rep)], ⟨pos, b :: piecesText r⟩, [.plain b], r, rfl, by simp, ?_, ?_, ?_⟩
      · by_cases h34 : b.val = 34
        · have hb : b = 34 := Fin.ext h34
          subst hb
          have hm : mode ≠ .Strict := fun h => (hs h).1 rfl
          simp only [Piece.text, List.singleton_append, parseMore_quote, hm, if_false]
          rfl
        · simp only [Piece.text, List.singleton_append,
            parseMore_plain mode b pos _ h92 h34 (fun h => (hs h).2)]
          rfl
      · exact reach_one _ _ _
      · simp only [piecesText, List.flatMap_cons, List.flatMap_nil, Piece.text,
          List.append_nil, List.length_singleton, List.singleton_append]
        rw [range_one, hun, hlone]
        simp
    | simple c =>
      have hun : unescapedPieces rep (.unicode d1 d2 d3 d4 :: .simple c :: r) =
          loneSurrogate rep (codeUnit d1 d2 d3 d4) ++
            (simpleEscapeValue c).getD 0 :: unescapedPieces rep r := by
        rw [unescapedPieces_high rep _ _ _ _ _ hh (by intro _ _ _ _ _ h; cases h)]
        rfl
      right
      refine ⟨out ++ [Utf8Encoder.encodeSurrogateCodeUnitAsCodePoint (codeUnit d1 d2 d3 d4)
        (replacementCode rep), [(simpleEscapeValue c).getD 0]], ⟨pos + 2, piecesText r⟩,
        [.simple c], r, rfl, by simp, ?_, ?_, ?_⟩
      · simp only [Piece.text, List.cons_append, List.nil_append, parseMore_simple mode c pos _ ht]
        rfl
      · exact Ptr.Reach.refl _
      · simp only [piecesText, List.flatMap_cons, List.flatMap_nil, Piece.text,
          List.append_nil, List.length_cons, List.length_nil]
        rw [range_self, hun, hlone]
        simp
    | unicode e1 e2 e3 e4 =>
      obtain ⟨g1, g2, g3, g4⟩ := ht
      have hpm := parseMore_unicode mode pos e1 e2 e3 e4 (piecesText r) g1 g2 g3 g4
      simp only [Piece.text, List.cons_append, List.nil_append, hpm]
      by_cases hh2 : isHighSurrogate (codeUnit e1 e2 e3 e4)
      · have hres : codeUnitResult (codeUnit e1 e2 e3 e4) =
            { result := .HighSurrogate, surrogate := codeUnit e1 e2 e3 e4 } := by
          simp [codeUnitResult, hh2]
        have hnl : ¬ isLowSurrogate (codeUnit e1 e2 e3 e4) := by
          unfold isLowSurrogate; unfold isHighSurrogate at hh2; omega
        have hun : unescapedPieces rep (.unicode d1 d2 d3 d4 :: .unicode e1 e2 e3 e4 :: r) =
            loneSurrogate rep (codeUnit d1 d2 d3 d4) ++
              unescapedPieces rep (.unicode e1 e2 e3 e4 :: r) := by
          rw [unescapedPieces_high rep _ _ _ _ _ hh]
          intro a1 a2 a3 a4 r2 h
          cases h
          exact hnl
        simp only [hres]
        rcases ih hr f (out ++ [Utf8Encoder.encodeSurrogateCodeUnitAsCodePoint
            (codeUnit d1 d2 d3 d4) (replacementCode rep)]) e1 e2 e3 e4 (pos + 6) hh2 hf2 with
          ⟨out', e, hfl⟩ | ⟨out', pb, pre, toks', hsplit, hpre, e, hreach, hfl⟩
        · left
          refine ⟨out', ?_, ?_⟩
          · rw [e]
            simp [piecesText_cons, Piece.text]
            omega
          · rw [hfl, hun, hlone]
            simp
        · right
          refine ⟨out', pb, .unicode e1 e2 e3 e4 :: pre, toks', by rw [hsplit]; rfl, by simp,
            ?_, ?_, ?_⟩
          · rw [e]
            simp [piecesText_cons, Piece.text]
            omega
          · have : pos + (piecesText (.unicode e1 e2 e3 e4 :: pre)).length =
                pos + 6 + (piecesText pre).length := by
              simp [piecesText_cons, Piece.text]; omega
            rw [this]; exact hreach
          · have : pos + (piecesText (.unicode e1 e2 e3 e4 :: pre)).length =
                pos + 6 + (piecesText pre).length := by
              simp [piecesText_cons, Piece.text]; omega
            rw [this, hfl, hun, hlone]
            simp
      · right
        by_cases hl2 : isLowSurrogate (codeUnit e1 e2 e3 e4)
        · have hres : codeUnitResult (codeUnit e1 e2 e3 e4) =
              { result := .LowSurrogate, surrogate := codeUnit e1 e2 e3 e4 } := by
            simp [codeUnitResult, hh2, hl2]
          simp only [hres]
          refine ⟨out ++ [Utf8Encoder.encode (codeUnit d1 d2 d3 d4) (codeUnit e1 e2 e3 e4)],
            ⟨pos + 6, piecesText r⟩, [.unicode e1 e2 e3 e4], r, rfl, by simp, ?_, ?_, ?_⟩
          · rfl
          · exact Ptr.Reach.refl _
          · simp only [piecesText, List.flatMap_cons, List.flatMap_nil, Piece.text,
              List.append_nil, List.length_cons, List.length_nil]
            rw [range_self, unescapedPieces_pair rep _ _ _ _ _ _ _ _ _ hh hl2,
              encodePair_eq _ _ hh hl2]
            simp
        · have hres : codeUnitResult (codeUnit e1 e2 e3 e4) =
              { result := .Unescaped, unescaped := utf8Encoding (codeUnit e1 e2 e3 e4) } := by
            simp [codeUnitResult, hh2, hl2]
          simp only [hres]
          refine ⟨out ++ [Utf8Encoder.encodeSurrogateCodeUnitAsCodePoint (codeUnit d1 d2 d3 d4)
        (replacementCode rep), utf8Encoding (codeUnit e1 e2 e3 e4)],
            ⟨pos + 6, piecesText r⟩, [.unicode e1 e2 e3 e4], r, rfl, by simp, ?_, ?_, ?_⟩
          · rfl
          · exact Ptr.Reach.refl _
          · simp only [piecesText, List.flatMap_cons, List.flatMap_nil, Piece.text,
              List.append_nil, List.length_cons, List.length_nil]
            rw [range_self, unescapedPieces_high rep _ _ _ _ _ hh
              (by intro a1 a2 a3 a4 r2 h; cases h; exact hl2),
              unescapedPieces_scalar rep _ _ _ _ _ hh2 hl2, hlone]
            simp

theorem unescapeLoop_pieces (mode : UnescapeMode) (rep : Option Nat)
    (hrep : ValidReplacement rep) :
    ∀ (n : Nat) (toks : List Piece), toks.length ≤ n → toks ≠ [] →
      (∀ t ∈ toks, t.WellFormed mode) →
      ∀ (fuel : Nat) (out : List Bytes) (pb : Ptr) (pos : Nat), toks.length + 1 ≤ fuel →
        pb.Reach ⟨pos, piecesText toks⟩ →
        ∃ out', UnescapeParser.unescapeLoop mode (replacementCode rep) fuel out pb
            ⟨pos, piecesText toks⟩ =
            some (some ⟨pos + (piecesText toks).length, []⟩, out') ∧
          out'.flatten = out.flatten ++ pb.range ⟨pos, piecesText toks⟩ ++
            unescapedPieces rep toks := by
  intro n
  induction n with
  | zero =>
    intro toks hn hne
    exact absurd (List.length_eq_zero.mp (Nat.le_zero.mp hn)) hne
  | succ n ih =>
    intro toks hn hne hwf fuel out pb pos hf hreach
    obtain ⟨f, rfl⟩ : ∃ f, fuel = f + 1 := ⟨fuel - 1, by omega⟩
    -- the test of the loop and what follows
    have again : ∀ (r : List Piece), r.length ≤ n → (∀ t ∈ r, t.WellFormed mode) →
        (r ≠ [] → r.length + 1 ≤ f) → ∀ (out2 : List Bytes) (pb2 : Ptr) (pos2 : Nat),
        pb2.Reach ⟨pos2, piecesText r⟩ →
        ∃ out', (if (⟨pos2, piecesText r⟩ : Ptr).rest = [] then
              some (some (⟨pos2, piecesText r⟩ : Ptr),
                UnescapeParser.writePending out2 pb2 ⟨pos2, piecesText r⟩)
            else UnescapeParser.unescapeLoop mode (replacementCode rep) f out2 pb2
              ⟨pos2, piecesText r⟩) =
            some (some ⟨pos2 + (piecesText r).length, []⟩, out') ∧
          out'.flatten = out2.flatten ++ pb2.range ⟨pos2, piecesText r⟩ ++
            unescapedPieces rep r := by
      intro r hrn hrw hrf out2 pb2 pos2 hreach2
      by_cases hr0 : r = []
      · subst hr0
        refine ⟨UnescapeParser.writePending out2 pb2 ⟨pos2, piecesText []⟩, ?_, ?_⟩
        · simp [piecesText]
        · rw [unescape_writePending_flatten]
          simp [unescapedPieces]
      · have hne2 : piecesText r ≠ [] := fun h => hr0 ((piecesText_eq_nil r).mp h)
        simp only [hne2, if_false]
        exact ih r hrn hr0 hrw f out2 pb2 pos2 (hrf hr0) hreach2
    cases toks with
    | nil => exact absurd rfl hne
    | cons t r =>
      have hrn : r.length ≤ n := by simpa using hn
      have hf2 : r.length + 1 ≤ f := by simpa using hf
      have ht := hwf t (List.mem_cons_self _ _)
      have hr : ∀ x ∈ r, x.WellFormed mode := fun x hx => hwf x (List.mem_cons_of_mem _ hx)
      rw [UnescapeParser.unescapeLoop]
      simp only [piecesText_cons] at hreach ⊢
      cases t with
      | plain b =>
        obtain ⟨h92, hs⟩ := ht
        have hrn1 := range_next pb ⟨pos, [b] ++ piecesText r⟩ b _ hreach rfl
        have hrr1 := reach_step_of_cons pb ⟨pos, [b] ++ piecesText r⟩ b _ hreach rfl
        have hnx : (⟨pos, [b] ++ piecesText r⟩ : Ptr).next = ⟨pos + 1, piecesText r⟩ := rfl
        rw [hnx] at hrn1 hrr1
        obtain ⟨out', e1, e2⟩ := again r hrn hr (fun _ => hf2) out pb (pos + 1) hrr1
        have hlen : pos + ((Piece.plain b).text ++ piecesText r).length =
            pos + 1 + (piecesText r).length := by simp [Piece.text]; omega
        rw [hlen]
        refine ⟨out', ?_, ?_⟩
        · by_cases h34 : b.val = 34
          · have hb : b = 34 := Fin.ext h34
            subst hb
            have hm : mode ≠ .Strict := fun h => (hs h).1 rfl
            simp only [Piece.text, List.singleton_append, parseMore_quote, hm, if_false]
            exact e1
          · simp only [Piece.text, List.singleton_append,
              parseMore_plain mode b pos _ h92 h34 (fun h => (hs h).2)]
            exact e1
        · rw [e2, hrn1]
          simp [unescapedPieces, Piece.text]
      | simple c =>
        obtain ⟨out', e1, e2⟩ := again r hrn hr (fun _ => hf2)
          (UnescapeParser.writePending out pb ⟨pos, (Piece.simple c).text ++ piecesText r⟩ ++
            [[(simpleEscapeValue c).getD 0]]) ⟨pos + 2, piecesText r⟩ (pos + 2)
          (Ptr.Reach.refl _)
        have hlen : pos + ((Piece.simple c).text ++ piecesText r).length =
            pos + 2 + (piecesText r).length := by simp [Piece.text]; omega
        rw [hlen]
        refine ⟨out', ?_, ?_⟩
        · simp only [Piece.text, List.cons_append, List.nil_append,
            parseMore_simple mode c pos _ ht]
          exact e1
        · rw [e2, range_self]
          simp [unescapedPieces, unescape_writePending_flatten]
      | unicode d1 d2 d3 d4 =>
        obtain ⟨g1, g2, g3, g4⟩ := ht
        have hpm := parseMore_unicode mode pos d1 d2 d3 d4 (piecesText r) g1 g2 g3 g4
        simp only [Piece.text, List.cons_append, List.nil_append, hpm]
        have hlen : pos + (92 :: 117 :: d1 :: d2 :: d3 :: d4 :: piecesText r).length =
            pos + 6 + (piecesText r).length := by simp; omega
        rw [hlen]
        by_cases hh : isHighSurrogate (codeUnit d1 d2 d3 d4)
        · have hres : codeUnitResult (codeUnit d1 d2 d3 d4) =
              { result := .HighSurrogate, surrogate := codeUnit d1 d2 d3 d4 } := by
            simp [codeUnitResult, hh]
          simp only [hres]
          rcases unescapeSurrogates_pieces mode rep hrep r hr f
              (UnescapeParser.writePending out pb
                ⟨pos, 92 :: 117 :: d1 :: d2 :: d3 :: d4 :: piecesText r⟩) d1 d2 d3 d4 (pos + 6)
              hh hf2 with
            ⟨out', e, hfl⟩ | ⟨out1, pb1, pre, toks', hsplit, hpre, e, hreach1, hfl⟩
          · refine ⟨out', ?_, ?_⟩
            · simp only [e]
            · rw [hfl, unescape_writePending_flatten]
          · have hl1 : toks'.length ≤ n := by
              have := congrArg List.length hsplit
              simp at this; omega
            have hl2 : toks'.length + 1 ≤ f := by
              have := congrArg List.length hsplit
              simp at this; omega
            have hw1 : ∀ t ∈ toks', t.WellFormed mode := fun t ht =>
              hr t (by rw [hsplit]; exact List.mem_append_right _ ht)
            obtain ⟨out', e1, e2⟩ := again toks' hl1 hw1 (fun _ => hl2) out1 pb1
              (pos + 6 + (piecesText pre).length) hreach1
            refine ⟨out', ?_, ?_⟩
            · simp only [e]
              rw [e1, hsplit, piecesText_append]
              simp
              omega
            · rw [e2, hfl, unescape_writePending_flatten]
        · by_cases hl : isLowSurrogate (codeUnit d1 d2 d3 d4)
          · have hres : codeUnitResult (codeUnit d1 d2 d3 d4) =
                { result := .LowSurrogate, surrogate := codeUnit d1 d2 d3 d4 } := by
              simp [codeUnitResult, hh, hl]
            simp only [hres]
            obtain ⟨out', e1, e2⟩ := again r hrn hr (fun _ => hf2)
              (UnescapeParser.writePending out pb
                ⟨pos, 92 :: 117 :: d1 :: d2 :: d3 :: d4 :: piecesText r⟩ ++
                [Utf8Encoder.encodeSurrogateCodeUnitAsCodePoint (codeUnit d1 d2 d3 d4)
                  (replacementCode rep)]) ⟨pos + 6, piecesText r⟩ (pos + 6)
              (Ptr.Reach.refl _)
            refine ⟨out', e1, ?_⟩
            rw [e2, range_self, unescapedPieces_low rep _ _ _ _ _ hl,
              encodeLone_eq rep hrep _ (Or.inr hl)]
            simp [unescape_writePending_flatten]
          · have hres : codeUnitResult (codeUnit d1 d2 d3 d4) =
                { result := .Unescaped, unescaped := utf8Encoding (codeUnit d1 d2 d3 d4) } := by
              simp [codeUnitResult, hh, hl]
            simp only [hres]
            obtain ⟨out', e1, e2⟩ := again r hrn hr (fun _ => hf2)
              (UnescapeParser.writePending out pb
                ⟨pos, 92 :: 117 :: d1 :: d2 :: d3 :: d4 :: piecesText r⟩ ++
                [utf8Encoding (codeUnit d1 d2 d3 d4)]) ⟨pos + 6, piecesText r⟩ (pos + 6)
              (Ptr.Reach.refl _)
            refine ⟨out', e1, ?_⟩
            rw [e2, range_self, unescapedPieces_scalar rep _ _ _ _ _ hh hl]
            simp [unescape_writePending_flatten]

theorem implUnescape_pieces (mode : UnescapeMode) (rep : Option Nat)
    (hrep : ValidReplacement rep) (toks : List Piece) (hwf : ∀ t ∈ toks, t.WellFormed mode) :
    ∃ frags, impl.unescape (piecesText toks) mode (replacementCode rep) =
        some ((piecesText toks).length, frags) ∧
      frags.flatten = unescapedPieces rep toks := by
  by_cases h0 : toks = []
  · subst h0
    exact ⟨[], rfl, rfl⟩
  · have hne : piecesText toks ≠ [] := fun h => h0 ((piecesText_eq_nil toks).mp h)
    obtain ⟨out', e1, e2⟩ := unescapeLoop_pieces mode rep hrep toks.length toks (le_refl _) h0
      hwf ((piecesText toks).length + 1) [] ⟨0, piecesText toks⟩ 0
      (by
        have : toks.length ≤ (piecesText toks).length := by
          clear hwf h0 hne
          induction toks with
          | nil => simp
          | cons t r ih =>
            have := List.length_pos.mpr (pieceText_ne_nil t)
            simp only [piecesText_cons, List.length_append, List.length_cons]
            omega
        omega)
      (Ptr.Reach.refl _)
    refine ⟨out', ?_, ?_⟩
    · unfold impl.unescape UnescapeParser.unescape
      simp only [hne, if_false, e1]
      simp
    · rw [e2, range_self]; simp

theorem unescape_pieces (mode : UnescapeMode) (toks : List Piece)
    (hwf : ∀ t ∈ toks, t.WellFormed mode) :
    unescape (piecesText toks) mode = some (unescapedPieces none toks) := by
  obtain ⟨frags, e1, e2⟩ := implUnescape_pieces mode none (by intro r h; cases h) toks hwf
  unfold unescape
  have : replacementCode none = DoNotReplaceSurrogates := rfl
  rw [this] at e1
  simp only [e1, if_true, e2]

theorem unescapeReplacing_pieces (mode : UnescapeMode) (r : Nat) (hr : r < 0x200000)
    (toks : List Piece) (hwf : ∀ t ∈ toks, t.WellFormed mode) :
    unescapeReplacing (piecesText toks) mode r = some (unescapedPieces (some r) toks) := by
  obtain ⟨frags, e1, e2⟩ := implUnescape_pieces mode (some r)
    (by intro r2 h; cases h; exact hr) toks hwf
  unfold unescapeReplacing
  have : replacementCode (some r) = r := rfl
  rw [this] at e1
  simp only [e1, if_true, e2]

theorem getLast?_cons_cons {α : Type} (a b : α) (l : List α) :
    (a :: b :: l).getLast? = (b :: l).getLast? := by
  simp [List.getLast?_cons_cons]

theorem unescapedPieces_append (rep : Option Nat) :
    ∀ (n : Nat) (a b : List Piece), a.length ≤ n → NoPairAcross a b →
      unescapedPieces rep (a ++ b) = unescapedPieces rep a ++ unescapedPieces rep b := by
  intro n
  induction n with
  | zero =>
    intro a b hn _
    have : a = [] := List.length_eq_zero.mp (Nat.le_zero.mp hn)
    subst this
    rfl
  | succ n ih =>
    intro a b hn hab
    -- the condition for a tail of `a`
    have tail : ∀ (x : Piece) (a2 : List Piece), a = x :: a2 → a2 ≠ [] → NoPairAcross a2 b := by
      intro x a2 ha ha2 p q hp hq
      refine hab p q ?_ hq
      rw [ha]
      cases a2 with
      | nil => exact absurd rfl ha2
      | cons y a3 => rw [getLast?_cons_cons]; exact hp
    have tail0 : ∀ (x : Piece) (a2 : List Piece), a = x :: a2 → NoPairAcross a2 b := by
      intro x a2 ha
      by_cases ha2 : a2 = []
      · subst ha2
        intro p q hp
        simp at hp
      · exact tail x a2 ha ha2
    cases a with
    | nil => rfl
    | cons x a2 =>
      have hn2 : a2.length ≤ n := by simpa using hn
      have ih2 := ih a2 b hn2 (tail0 x a2 rfl)
      cases x with
      | plain c => simp only [List.cons_append, unescapedPieces, List.append_eq, ih2]
      | simple c => simp only [List.cons_append, unescapedPieces, List.append_eq, ih2]
      | unicode d1 d2 d3 d4 =>
        by_cases hh : isHighSurrogate (codeUnit d1 d2 d3 d4)
        · cases a2 with
          | nil =>
            have hb : ∀ e1 e2 e3 e4 r2, b = .unicode e1 e2 e3 e4 :: r2 →
                ¬ isLowSurrogate (codeUnit e1 e2 e3 e4) := by
              intro e1 e2 e3 e4 r2 hb hl
              exact hab (.unicode d1 d2 d3 d4) (.unicode e1 e2 e3 e4) rfl (by rw [hb]; rfl)
                ⟨hh, hl⟩
            simp only [List.cons_append, List.nil_append]
            rw [unescapedPieces_high rep _ _ _ _ _ hh hb,
              unescapedPieces_high rep _ _ _ _ [] hh (by intro _ _ _ _ _ h; cases h)]
            simp [unescapedPieces]
          | cons y a3 =>
            by_cases hy : y.isLow
            · cases y with
              | plain c => exact absurd hy (by simp [Piece.isLow])
              | simple c => exact absurd hy (by simp [Piece.isLow])
              | unicode e1 e2 e3 e4 =>
                have hn3 : a3.length ≤ n := by simp at hn2; omega
                have ih3 := ih a3 b hn3 (by
                  intro p q hp hq
                  refine hab p q ?_ hq
                  cases a3 with
                  | nil => simp at hp
                  | cons z a4 =>
                    rw [getLast?_cons_cons, getLast?_cons_cons]; exact hp)
                simp only [List.cons_append]
                rw [unescapedPieces_pair rep _ _ _ _ _ _ _ _ _ hh hy,
                  unescapedPieces_pair rep _ _ _ _ _ _ _ _ _ hh hy, ih3]
                simp
            · have hnl : ∀ e1 e2 e3 e4 r2, y :: a3 = .unicode e1 e2 e3 e4 :: r2 →
                  ¬ isLowSurrogate (codeUnit e1 e2 e3 e4) := by
                intro e1 e2 e3 e4 r2 h hl
                cases h
                exact hy hl
              have hnl2 : ∀ e1 e2 e3 e4 r2, y :: a3 ++ b = .unicode e1 e2 e3 e4 :: r2 →
                  ¬ isLowSurrogate (codeUnit e1 e2 e3 e4) := by
                intro e1 e2 e3 e4 r2 h hl
                simp only [List.cons_append, List.cons.injEq] at h
                obtain ⟨h1, _⟩ := h
                subst h1
                exact hy hl
              simp only [List.cons_append] at ih2 hnl2 ⊢
              rw [unescapedPieces_high rep _ _ _ _ _ hh hnl2,
                unescapedPieces_high rep _ _ _ _ _ hh hnl, ih2]
              simp
        · by_cases hl : isLowSurrogate (codeUnit d1 d2 d3 d4)
          · simp only [List.cons_append]
            rw [unescapedPieces_low rep _ _ _ _ _ hl, unescapedPieces_low rep _ _ _ _ _ hl, ih2]
            simp
          · simp only [List.cons_append]
            rw [unescapedPieces_scalar rep _ _ _ _ _ hh hl,
              unescapedPieces_scalar rep _ _ _ _ _ hh hl, ih2]
            simp

theorem wellFormed_middle (mode : UnescapeMode) (a b : List Piece) (p : Piece)
    (ha : ∀ t ∈ a, t.WellFormed mode) (hb : ∀ t ∈ b, t.WellFormed mode)
    (hp : p.WellFormed mode) : ∀ t ∈ a ++ p :: b, t.WellFormed mode := by
  intro t ht
  simp only [List.mem_append, List.mem_cons] at ht
  rcases ht with h | h | h
  · exact ha t h
  · rw [h]; exact hp
  · exact hb t h

theorem piecesText_middle (a b : List Piece) (p : Piece) :
    piecesText (a ++ p :: b) = piecesText a ++ p.text ++ piecesText b := by
  rw [piecesText_append, piecesText_cons, List.append_assoc]

theorem unescapedPieces_middle (rep : Option Nat) (a b : List Piece) (p : Piece)
    (h1 : NoPairAcross a (p :: b)) (h2 : NoPairAcross [p] b) :
    unescapedPieces rep (a ++ p :: b) =
      unescapedPieces rep a ++ unescapedPieces rep [p] ++ unescapedPieces rep b := by
  rw [unescapedPieces_append rep a.length a (p :: b) (le_refl _) h1]
  have := unescapedPieces_append rep 1 [p] b (le_refl _) h2
  simp only [List.singleton_append] at this
  rw [this, List.append_assoc]

/-- C19: in both modes, within any text of well-formed pieces, the escape `\u` with four
hexadecimal digits (in any mix of upper and lower case) of a code unit `c` outside
`0xD800`-`0xDFFF` is unescaped to the UTF-8 encoding of `c`, of one byte if `c < 0x80`, two
bytes if `c < 0x800`, three bytes otherwise; and the escape of one of the eight characters
`"`, `\`, `/`, `b`, `f`, `n`, `r`, `t` is unescaped to the single byte `0x22`, `0x5C`, `0x2F`,
`0x08`, `0x0C`, `0x0A`, `0x0D`, `0x09` respectively. -/
theorem unescape_escape_sequences (mode : UnescapeMode) (a b : List Piece)
    (ha : ∀ t ∈ a, t.WellFormed mode) (hb : ∀ t ∈ b, t.WellFormed mode)
    (d1 d2 d3 d4 : Byte) (h1 : hexDigitValue d1 ≠ none) (h2 : hexDigitValue d2 ≠ none)
    (h3 : hexDigitValue d3 ≠ none) (h4 : hexDigitValue d4 ≠ none)
    (hc : ¬ (0xD800 ≤ codeUnit d1 d2 d3 d4 ∧ codeUnit d1 d2 d3 d4 ≤ 0xDFFF))
    (e : Byte) (he : simpleEscapeValue e ≠ none) :
    (unescape (piecesText a ++ [92, 117, d1, d2, d3, d4] ++ piecesText b) mode =
        some (unescapedPieces none a ++ utf8Encoding (codeUnit d1 d2 d3 d4) ++
          unescapedPieces none b) ∧
      (utf8Encoding (codeUnit d1 d2 d3 d4)).length =
        (if codeUnit d1 d2 d3 d4 < 0x80 then 1 else if codeUnit d1 d2 d3 d4 < 0x800 then 2
          else 3)) ∧
    unescape (piecesText a ++ [92, e] ++ piecesText b) mode =
      some (unescapedPieces none a ++ [(simpleEscapeValue e).getD 0] ++
        unescapedPieces none b) ∧
    [34, 92, 47, 98, 102, 110, 114, 116].map simpleEscapeValue =
      [some 0x22, some 0x5C, some 0x2F, some 0x08, some 0x0C, some 0x0A, some 0x0D,
        some 0x09] := by
  have hh : ¬ isHighSurrogate (codeUnit d1 d2 d3 d4) := by unfold isHighSurrogate; omega
  have hl : ¬ isLowSurrogate (codeUnit d1 d2 d3 d4) := by unfold isLowSurrogate; omega
  refine ⟨⟨?_, ?_⟩, ?_, by decide⟩
  · have := unescape_pieces mode (a ++ .unicode d1 d2 d3 d4 :: b)
      (wellFormed_middle mode a b _ ha hb ⟨h1, h2, h3, h4⟩)
    rw [piecesText_middle, unescapedPieces_middle none a b _
      (by
        intro p q _ hq hpq
        simp only [List.head?_cons, Option.some.injEq] at hq
        subst hq
        exact hl hpq.2)
      (by
        intro p q hp _ hpq
        simp only [List.getLast?_singleton, Option.some.injEq] at hp
        subst hp
        exact hh hpq.1)] at this
    simp only [Piece.text] at this
    rw [this]
    simp [unescapedPieces, hh, hl]
  · have := codeUnit_lt d1 d2 d3 d4
    unfold utf8Encoding
    split_ifs <;> first | rfl | omega
  · have := unescape_pieces mode (a ++ .simple e :: b) (wellFormed_middle mode a b _ ha hb he)
    rw [piecesText_middle, unescapedPieces_middle none a b _
      (by
        intro p q _ hq hpq
        simp only [List.head?_cons, Option.some.injEq] at hq
        subst hq
        exact hpq.2)
      (by
        intro p q hp _ hpq
        simp only [List.getLast?_singleton, Option.some.injEq] at hp
        subst hp
        exact hpq.1)] at this
    simp only [Piece.text] at this
    rw [this]
    simp [unescapedPieces]

/-- C19 at the text `aé\n` in the mode `Strict`: the bytes `a`, `C3 A9`, line feed. -/
theorem unescape_escape_sequences_witness :
    (unescape ([97] ++ [92, 117, 48, 48, 69, 57] ++ [92, 110]) .Strict =
        some ([97] ++ [0xC3, 0xA9] ++ [10]) ∧ ([0xC3, 0xA9] : Bytes).length = 2) ∧
    unescape ([97] ++ [92, 110] ++ [92, 110]) .Strict = some ([97] ++ [10] ++ [10]) ∧
    [34, 92, 47, 98, 102, 110, 114, 116].map simpleEscapeValue =
      [some 0x22, some 0x5C, some 0x2F, some 0x08, some 0x0C, some 0x0A, some 0x0D,
        some 0x09] :=
  unescape_escape_sequences .Strict [.plain 97] [.simple 110] (by decide) (by decide)
    48 48 69 57 (by decide) (by decide) (by decide) (by decide) (by decide) 110 (by decide)

/-- C20: in both modes, within any text of well-formed pieces, the escape of a surrogate code
unit `u` without its partner (a high surrogate that no low surrogate escape follows directly,
or a low surrogate that no high surrogate escape precedes directly) is unescaped, when no
replacement is set, to the three bytes `0xED`, `0x80 | ((u >> 6) & 0x3F)`, `0x80 | (u & 0x3F)`,
and, with the replacement code point `r`, to the UTF-8 encoding of `r` (`EF BF BD` for
`U+FFFD`); the pieces before and after are unescaped as they are without it, and the whole
input is consumed. -/
theorem unescape_unpaired_surrogate (mode : UnescapeMode) (a b : List Piece)
    (ha : ∀ t ∈ a, t.WellFormed mode) (hb : ∀ t ∈ b, t.WellFormed mode)
    (d1 d2 d3 d4 : Byte) (h1 : hexDigitValue d1 ≠ none) (h2 : hexDigitValue d2 ≠ none)
    (h3 : hexDigitValue d3 ≠ none) (h4 : hexDigitValue d4 ≠ none)
    (hu : (isHighSurrogate (codeUnit d1 d2 d3 d4) ∧ ∀ q, b.head? = some q → ¬ q.isLow) ∨
      (isLowSurrogate (codeUnit d1 d2 d3 d4) ∧ ∀ p, a.getLast? = some p → ¬ p.isHigh))
    (r : Nat) (hr : r < 0x110000) :
    ((∃ frags, impl.unescape (piecesText a ++ [92, 117, d1, d2, d3, d4] ++ piecesText b) mode =
          some ((piecesText a ++ [92, 117, d1, d2, d3, d4] ++ piecesText b).length, frags) ∧
        frags.flatten = unescapedPieces none a ++
          [0xED, Fin.ofNat (0x80 ||| ((codeUnit d1 d2 d3 d4 >>> 6) &&& 0x3F)),
            Fin.ofNat (0x80 ||| (codeUnit d1 d2 d3 d4 &&& 0x3F))] ++ unescapedPieces none b) ∧
      unescape (piecesText a ++ [92, 117, d1, d2, d3, d4] ++ piecesText b) mode =
        some (unescapedPieces none a ++
          [0xED, Fin.ofNat (0x80 ||| ((codeUnit d1 d2 d3 d4 >>> 6) &&& 0x3F)),
            Fin.ofNat (0x80 ||| (codeUnit d1 d2 d3 d4 &&& 0x3F))] ++ unescapedPieces none b)) ∧
    ((∃ frags, impl.unescape (piecesText a ++ [92, 117, d1, d2, d3, d4] ++ piecesText b) mode r =
          some ((piecesText a ++ [92, 117, d1, d2, d3, d4] ++ piecesText b).length, frags) ∧
        frags.flatten = unescapedPieces (some r) a ++ utf8Encoding r ++
          unescapedPieces (some r) b) ∧
      unescapeReplacing (piecesText a ++ [92, 117, d1, d2, d3, d4] ++ piecesText b) mode r =
        some (unescapedPieces (some r) a ++ utf8Encoding r ++ unescapedPieces (some r) b)) ∧
    utf8Encoding 0xFFFD = [0xEF, 0xBF, 0xBD] := by
  have hwf := wellFormed_middle mode a b (.unicode d1 d2 d3 d4) ha hb ⟨h1, h2, h3, h4⟩
  have hn1 : NoPairAcross a (.unicode d1 d2 d3 d4 :: b) := by
    intro p q hp hq hpq
    simp only [List.head?_cons, Option.some.injEq] at hq
    subst hq
    rcases hu with ⟨hh, _⟩ | ⟨_, hl⟩
    · have := hpq.2
      simp only [Piece.isLow] at this
      unfold isLowSurrogate at this
      unfold isHighSurrogate at hh
      omega
    · exact hl p hp hpq.1
  have hn2 : NoPairAcross [.unicode d1 d2 d3 d4] b := by
    intro p q hp hq hpq
    simp only [List.getLast?_singleton, Option.some.injEq] at hp
    subst hp
    rcases hu with ⟨_, hh⟩ | ⟨hl, _⟩
    · exact hh q hq hpq.2
    · have := hpq.1
      simp only [Piece.isHigh] at this
      unfold isHighSurrogate at this
      unfold isLowSurrogate at hl
      omega
  have hsur : isHighSurrogate (codeUnit d1 d2 d3 d4) ∨ isLowSurrogate (codeUnit d1 d2 d3 d4) :=
    hu.imp And.left And.left
  have hone : ∀ rep, unescapedPieces rep [.unicode d1 d2 d3 d4] =
      loneSurrogate rep (codeUnit d1 d2 d3 d4) := by
    intro rep
    simp [unescapedPieces, hsur]
  have hmid : ∀ rep, unescapedPieces rep (a ++ .unicode d1 d2 d3 d4 :: b) =
      unescapedPieces rep a ++ loneSurrogate rep (codeUnit d1 d2 d3 d4) ++
        unescapedPieces rep b := by
    intro rep
    rw [unescapedPieces_middle rep a b _ hn1 hn2, hone]
  have htext := piecesText_middle a b (.unicode d1 d2 d3 d4)
  simp only [Piece.text] at htext
  refine ⟨⟨?_, ?_⟩, ⟨?_, ?_⟩, by decide⟩
  · obtain ⟨frags, e1, e2⟩ := implUnescape_pieces mode none (by intro r h; cases h) _ hwf
    rw [htext] at e1
    exact ⟨frags, e1, by rw [e2, hmid]; rfl⟩
  · have := unescape_pieces mode _ hwf
    rw [htext, hmid] at this
    exact this
  · obtain ⟨frags, e1, e2⟩ := implUnescape_pieces mode (some r)
      (by intro r2 h; cases h; omega) _ hwf
    rw [htext] at e1
    exact ⟨frags, e1, by rw [e2, hmid]; rfl⟩
  · have := unescapeReplacing_pieces mode r (by omega) _ hwf
    rw [htext, hmid] at this
    exact this

/-- C20 at the text `a\uD800b` in the mode `Relaxed`, with the replacement `U+FFFD`. -/
theorem unescape_unpaired_surrogate_witness :
    ((∃ frags, impl.unescape ([97] ++ [92, 117, 68, 56, 48, 48] ++ [98]) .Relaxed =
          some (([97] ++ [92, 117, 68, 56, 48, 48] ++ [98] : Bytes).length, frags) ∧
        frags.flatten = [97] ++ [0xED, 0xA0, 0x80] ++ [98]) ∧
      unescape ([97] ++ [92, 117, 68, 56, 48, 48] ++ [98]) .Relaxed =
        some ([97] ++ [0xED, 0xA0, 0x80] ++ [98])) ∧
    ((∃ frags, impl.unescape ([97] ++ [92, 117, 68, 56, 48, 48] ++ [98]) .Relaxed 0xFFFD =
          some (([97] ++ [92, 117, 68, 56, 48, 48] ++ [98] : Bytes).length, frags) ∧
        frags.flatten = [97] ++ [0xEF, 0xBF, 0xBD] ++ [98]) ∧
      unescapeReplacing ([97] ++ [92, 117, 68, 56, 48, 48] ++ [98]) .Relaxed 0xFFFD =
        some ([97] ++ [0xEF, 0xBF, 0xBD] ++ [98])) ∧
    utf8Encoding 0xFFFD = [0xEF, 0xBF, 0xBD] :=
  unescape_unpaired_surrogate .Relaxed [.plain 97] [.plain 98] (by decide) (by decide)
    68 56 48 48 (by decide) (by decide) (by decide) (by decide)
    (Or.inl ⟨by decide, by decide⟩) 0xFFFD (by decide)

theorem surrogateReplacement_eq (o : ParsingOptions) :
    surrogateReplacement o = replacementCode (optionsReplacement o) := by
  unfold surrogateReplacement optionsReplacement replacementCode
  cases o.replaceInvalidUtf16Surrogates <;> rfl

theorem unpairedIssues_high (pos : Nat) (d1 d2 d3 d4 : Byte) (r : List Piece)
    (hh : isHighSurrogate (codeUnit d1 d2 d3 d4))
    (hr : ∀ e1 e2 e3 e4 r2, r = .unicode e1 e2 e3 e4 :: r2 →
      ¬ isLowSurrogate (codeUnit e1 e2 e3 e4)) :
    unpairedIssues pos (.unicode d1 d2 d3 d4 :: r) =
      highSurrogateIssue pos :: unpairedIssues (pos + 6) r := by
  cases r with
  | nil => simp [unpairedIssues, hh]
  | cons p r2 =>
    cases p with
    | plain b => simp [unpairedIssues, hh]
    | simple c => simp [unpairedIssues, hh]
    | unicode e1 e2 e3 e4 =>
      have := hr e1 e2 e3 e4 r2 rfl
      simp [unpairedIssues, hh, this]

theorem unpairedIssues_pair (pos : Nat) (d1 d2 d3 d4 e1 e2 e3 e4 : Byte)
    (r : List Piece) (hh : isHighSurrogate (codeUnit d1 d2 d3 d4))
    (hl : isLowSurrogate (codeUnit e1 e2 e3 e4)) :
    unpairedIssues pos (.unicode d1 d2 d3 d4 :: .unicode e1 e2 e3 e4 :: r) =
      unpairedIssues (pos + 12) r := by
  simp [unpairedIssues, hh, hl]

theorem unpairedIssues_low (pos : Nat) (d1 d2 d3 d4 : Byte) (r : List Piece)
    (hl : isLowSurrogate (codeUnit d1 d2 d3 d4)) :
    unpairedIssues pos (.unicode d1 d2 d3 d4 :: r) =
      lowSurrogateIssue pos :: unpairedIssues (pos + 6) r := by
  have hh : ¬ isHighSurrogate (codeUnit d1 d2 d3 d4) := by
    unfold isHighSurrogate; unfold isLowSurrogate at hl; omega
  cases r with
  | nil => simp [unpairedIssues, hh, hl]
  | cons p r2 => simp [unpairedIssues, hh, hl]

theorem unpairedIssues_scalar (pos : Nat) (d1 d2 d3 d4 : Byte) (r : List Piece)
    (hh : ¬ isHighSurrogate (codeUnit d1 d2 d3 d4))
    (hl : ¬ isLowSurrogate (codeUnit d1 d2 d3 d4)) :
    unpairedIssues pos (.unicode d1 d2 d3 d4 :: r) = unpairedIssues (pos + 6) r := by
  cases r with
  | nil => simp [unpairedIssues, hh, hl]
  | cons p r2 => simp [unpairedIssues, hh, hl]

/-- The three policies for the check of a surrogate without partner. -/
theorem checkHigh_cases (o : ParsingOptions) (s : Bytes) (u p : Nat) (st : ParserImpl) :
    (o.unpairedUtf16Surrogates = .Ignore ∧
      checkInvalidUtf16HighSurrogateOptionAndEncode o s u p st =
        (true, s ++ Utf8Encoder.encodeSurrogateCodeUnitAsCodePoint u (surrogateReplacement o),
          st)) ∨
    (o.unpairedUtf16Surrogates = .Report ∧
      checkInvalidUtf16HighSurrogateOptionAndEncode o s u p st =
        (true, s ++ Utf8Encoder.encodeSurrogateCodeUnitAsCodePoint u (surrogateReplacement o),
          ⟨st.i, st.issues ++ [highSurrogateIssue p]⟩)) ∨
    (o.unpairedUtf16Surrogates = .Fail ∧
      checkInvalidUtf16HighSurrogateOptionAndEncode o s u p st =
        (false, s, ⟨st.i, st.issues ++ [highSurrogateIssue p]⟩)) := by
  unfold checkInvalidUtf16HighSurrogateOptionAndEncode checkInvalidUtf16SurrogateOptionAndEncode
  cases h : o.unpairedUtf16Surrogates <;> simp [addIssueAt, highSurrogateIssue]

theorem checkLow_cases (o : ParsingOptions) (s : Bytes) (u p : Nat) (st : ParserImpl) :
    (o.unpairedUtf16Surrogates = .Ignore ∧
      checkInvalidUtf16LowSurrogateOptionAndEncode o s u p st =
        (true, s ++ Utf8Encoder.encodeSurrogateCodeUnitAsCodePoint u (surrogateReplacement o),
          st)) ∨
    (o.unpairedUtf16Surrogates = .Report ∧
      checkInvalidUtf16LowSurrogateOptionAndEncode o s u p st =
        (true, s ++ Utf8Encoder.encodeSurrogateCodeUnitAsCodePoint u (surrogateReplacement o),
          ⟨st.i, st.issues ++ [lowSurrogateIssue p]⟩)) ∨
    (o.unpairedUtf16Surrogates = .Fail ∧
      checkInvalidUtf16LowSurrogateOptionAndEncode o s u p st =
        (false, s, ⟨st.i, st.issues ++ [lowSurrogateIssue p]⟩)) := by
  unfold checkInvalidUtf16LowSurrogateOptionAndEncode checkInvalidUtf16SurrogateOptionAndEncode
  cases h : o.unpairedUtf16Surrogates <;> simp [addIssueAt, lowSurrogateIssue]

/-- The result for a list of pieces from the result for the pieces after a surrogate without
partner at its head. -/
theorem StringResult.afterLone (o : ParsingOptions) (acc : Bytes) (iss0 : List ParsingIssue)
    (pos : Nat) (p : Piece) (r : List Piece) (s2 : Bytes) (x : ParsingIssue) (n : Nat)
    (lone : Bytes)
    (hu : unpairedIssues pos (p :: r) = x :: unpairedIssues (pos + n) r)
    (he : unescapedPieces (optionsReplacement o) (p :: r) =
      lone ++ unescapedPieces (optionsReplacement o) r)
    (hn : p.text.length = n) (hf : o.unpairedUtf16Surrogates ≠ .Fail)
    (res : Bool × Bytes × ParserImpl)
    (h : StringResult o (acc ++ lone)
      (iss0 ++ (if o.unpairedUtf16Surrogates = .Report then [x] else [])) (pos + n) r s2 res) :
    StringResult o acc iss0 pos (p :: r) s2 res := by
  unfold StringResult at h ⊢
  simp only [hf, false_and, if_false] at h ⊢
  rw [h, he, hu, piecesText_cons]
  by_cases hr : o.unpairedUtf16Surrogates = .Report
  · simp [hr, hn]; omega
  · simp [hr, hn]; omega

/-- The result for a list of pieces from the result for the pieces after a piece at its head
that raises no issue. -/
theorem StringResult.afterPiece (o : ParsingOptions) (acc : Bytes) (iss0 : List ParsingIssue)
    (pos : Nat) (p : Piece) (r : List Piece) (s2 : Bytes) (n : Nat) (bs : Bytes)
    (hu : unpairedIssues pos (p :: r) = unpairedIssues (pos + n) r)
    (he : unescapedPieces (optionsReplacement o) (p :: r) =
      bs ++ unescapedPieces (optionsReplacement o) r)
    (hn : p.text.length = n)
    (res : Bool × Bytes × ParserImpl)
    (h : StringResult o (acc ++ bs) iss0 (pos + n) r s2 res) :
    StringResult o acc iss0 pos (p :: r) s2 res := by
  unfold StringResult at h ⊢
  rw [hu, he, piecesText_cons]
  by_cases hc : o.unpairedUtf16Surrogates = .Fail ∧ unpairedIssues (pos + n) r ≠ []
  · rw [if_pos hc] at h ⊢; exact h
  · rw [if_neg hc] at h ⊢
    rw [h]
    simp [hn]; omega

/-- The result when the check of a surrogate without partner fails. -/
theorem StringResult.checkFailed (o : ParsingOptions) (acc : Bytes) (iss0 : List ParsingIssue)
    (pos : Nat) (toks : List Piece) (s2 : Bytes) (x : ParsingIssue) (rest : List ParsingIssue)
    (hu : unpairedIssues pos toks = x :: rest) (hf : o.unpairedUtf16Surrogates = .Fail)
    (s : Bytes) (st : ParserImpl) (hst : st.issues = iss0 ++ [x]) :
    StringResult o acc iss0 pos toks s2 (false, s, st) := by
  unfold StringResult
  rw [if_pos ⟨hf, by rw [hu]; simp⟩, hu]
  exact ⟨rfl, by simpa using hst⟩

/-- The result for a list of pieces from the result for the pieces after a pair of
surrogates at its head. -/
theorem StringResult.afterPair (o : ParsingOptions) (acc : Bytes) (iss0 : List ParsingIssue)
    (pos : Nat) (d1 d2 d3 d4 e1 e2 e3 e4 : Byte) (r : List Piece) (s2 : Bytes)
    (hh : isHighSurrogate (codeUnit d1 d2 d3 d4)) (hl : isLowSurrogate (codeUnit e1 e2 e3 e4))
    (res : Bool × Bytes × ParserImpl)
    (h : StringResult o
      (acc ++ utf8Encoding (surrogatePair (codeUnit d1 d2 d3 d4) (codeUnit e1 e2 e3 e4)))
      iss0 (pos + 12) r s2 res) :
    StringResult o acc iss0 pos (.unicode d1 d2 d3 d4 :: .unicode e1 e2 e3 e4 :: r) s2 res := by
  unfold StringResult at h ⊢
  rw [unpairedIssues_pair pos _ _ _ _ _ _ _ _ r hh hl,
    unescapedPieces_pair _ _ _ _ _ _ _ _ _ r hh hl, piecesText_cons, piecesText_cons]
  by_cases hc : o.unpairedUtf16Surrogates = .Fail ∧ unpairedIssues (pos + 12) r ≠ []
  · rw [if_pos hc] at h ⊢; exact h
  · rw [if_neg hc] at h ⊢
    rw [h]
    simp [Piece.text]; omega

theorem parseStringSurrogates_pieces (o : ParsingOptions)
    (hrep : ValidReplacement (optionsReplacement o)) :
    ∀ (toks : List Piece), (∀ t ∈ toks, t.WellFormed .Strict) →
    ∀ (fuel : Nat) (s : Bytes) (d1 d2 d3 d4 : Byte) (upos : Nat) (iss : List ParsingIssue)
      (s2 : Bytes),
      isHighSurrogate (codeUnit d1 d2 d3 d4) → toks.length + 1 ≤ fuel →
      ∃ exit, parseStringSurrogates o fuel s (codeUnit d1 d2 d3 d4)
          ⟨⟨upos + 6, piecesText toks ++ 34 :: s2⟩, iss⟩ = some exit ∧
        match exit with
        | .returned b s' st' =>
          StringResult o s iss upos (.unicode d1 d2 d3 d4 :: toks) s2 (b, s', st')
        | .broke s' pb' st' =>
          ∃ pre toks', toks = pre ++ toks' ∧ pre ≠ [] ∧
            st'.i = ⟨upos + 6 + (piecesText pre).length, piecesText toks' ++ 34 :: s2⟩ ∧
            pb'.Reach st'.i ∧
            ∀ res, StringResult o (s' ++ pb'.range st'.i) st'.issues
                (upos + 6 + (piecesText pre).length) toks' s2 res →
              StringResult o s iss upos (.unicode d1 d2 d3 d4 :: toks) s2 res := by
  intro toks
  induction toks with
  | nil =>
    intro _ fuel s d1 d2 d3 d4 upos iss s2 hh hf
    obtain ⟨f, rfl⟩ : ∃ f, fuel = f + 1 := ⟨fuel - 1, by omega⟩
    rw [parseStringSurrogates]
    simp only [piecesText, List.flatMap_nil, List.nil_append, reduceCtorEq, if_false,
      parseMore_quote, Nat.add_sub_cancel]
    refine ⟨_, rfl, ?_⟩
    have hlone := encodeLone_eq _ hrep _ (Or.inl hh)
    rw [← surrogateReplacement_eq] at hlone
    have hu : unpairedIssues upos [.unicode d1 d2 d3 d4] = [highSurrogateIssue upos] := by
      simp [unpairedIssues, hh]
    have he : unescapedPieces (optionsReplacement o) [.unicode d1 d2 d3 d4] =
        loneSurrogate (optionsReplacement o) (codeUnit d1 d2 d3 d4) := by
      simp [unescapedPieces, hh]
    rcases checkHigh_cases o s (codeUnit d1 d2 d3 d4) upos
        (advance ⟨⟨upos + 6, 34 :: s2⟩, iss⟩) with ⟨ho, hc⟩ | ⟨ho, hc⟩ | ⟨ho, hc⟩
    · simp only [hc]
      unfold StringResult
      simp [ho, he, hlone, advance, Ptr.next, piecesText, Piece.text]
    · simp only [hc]
      unfold StringResult
      simp [ho, he, hlone, hu, advance, Ptr.next, piecesText, Piece.text]
    · simp only [hc]
      exact StringResult.checkFailed o _ _ _ _ _ _ [] hu ho _ _ rfl
  | cons t r ih =>
    intro hwf fuel s d1 d2 d3 d4 upos iss s2 hh hf
    obtain ⟨f, rfl⟩ : ∃ f, fuel = f + 1 := ⟨fuel - 1, by omega⟩
    have hf2 : r.length + 1 ≤ f := by simpa using hf
    have ht := hwf t (List.mem_cons_self _ _)
    have hr : ∀ x ∈ r, x.WellFormed .Strict := fun x hx => hwf x (List.mem_cons_of_mem _ hx)
    have hlone := encodeLone_eq _ hrep _ (Or.inl hh)
    rw [← surrogateReplacement_eq] at hlone
    rw [parseStringSurrogates]
    have hne : (t.text ++ piecesText r) ++ 34 :: s2 ≠ [] := by simp
    simp only [piecesText_cons, hne, if_false, Nat.add_sub_cancel]
    -- the head of the list is not a low surrogate: the surrogate is without partner
    have lone_case : ∀ (n : Nat) (bs : Bytes), t.text.length = n →
        (∀ e1 e2 e3 e4, t = .unicode e1 e2 e3 e4 → ¬ isLowSurrogate (codeUnit e1 e2 e3 e4)) →
        unpairedIssues (upos + 6) (t :: r) = unpairedIssues (upos + 6 + n) r →
        unescapedPieces (optionsReplacement o) (t :: r) =
          bs ++ unescapedPieces (optionsReplacement o) r →
        o.unpairedUtf16Surrogates ≠ .Fail →
        ∀ res, StringResult o (s ++ loneSurrogate (optionsReplacement o) (codeUnit d1 d2 d3 d4)
              ++ bs)
            (iss ++ (if o.unpairedUtf16Surrogates = .Report then [highSurrogateIssue upos]
              else [])) (upos + 6 + n) r s2 res →
          StringResult o s iss upos (.unicode d1 d2 d3 d4 :: t :: r) s2 res := by
      intro n bs hn hnl hu he hof res hres
      refine StringResult.afterLone o s iss upos _ _ s2 (highSurrogateIssue upos) 6 _
        (unpairedIssues_high upos _ _ _ _ _ hh (by
          intro e1 e2 e3 e4 r2 h
          cases h
          exact hnl e1 e2 e3 e4 rfl))
        (unescapedPieces_high _ _ _ _ _ _ hh (by
          intro e1 e2 e3 e4 r2 h
          cases h
          exact hnl e1 e2 e3 e4 rfl)) rfl hof res ?_
      exact StringResult.afterPiece o _ _ _ t r s2 n bs hu he hn res hres
    have fail_case : (∀ e1 e2 e3 e4, t = .unicode e1 e2 e3 e4 →
          ¬ isLowSurrogate (codeUnit e1 e2 e3 e4)) →
        o.unpairedUtf16Surrogates = .Fail → ∀ (s' : Bytes) (i' : Ptr),
        StringResult o s iss upos (.unicode d1 d2 d3 d4 :: t :: r) s2
          (false, s', ⟨i', iss ++ [highSurrogateIssue upos]⟩) := by
      intro hnl hof s' i'
      exact StringResult.checkFailed o _ _ _ _ _ _ _
        (unpairedIssues_high upos _ _ _ _ _ hh (by
          intro e1 e2 e3 e4 r2 h
          cases h
          exact hnl e1 e2 e3 e4 rfl)) hof _ _ rfl
    cases t with
    | plain b =>
      obtain ⟨h92, hs⟩ := ht
      obtain ⟨h34, hcc⟩ := hs rfl
      simp only [Piece.text, List.singleton_append, List.cons_append, List.nil_append,
        parseMore_plain .Strict b (upos + 6) _ h92 h34 (fun _ => hcc)]
      rcases checkHigh_cases o s (codeUnit d1 d2 d3 d4) upos
          ⟨⟨upos + 6 + 1, piecesText r ++ 34 :: s2⟩, iss⟩ with ⟨ho, hc⟩ | ⟨ho, hc⟩ | ⟨ho, hc⟩
      · simp only [hc, if_true]
        refine ⟨_, rfl, [.plain b], r, rfl, by simp, by simp [piecesText, Piece.text],
          reach_one _ _ _, ?_⟩
        intro res hres
        dsimp only at hres
        simp only [range_one, hlone] at hres
        exact lone_case 1 [b] rfl (by intro _ _ _ _ h; cases h) rfl rfl (by simp [ho]) res
          (by simpa [ho, piecesText, Piece.text] using hres)
      · simp only [hc, if_true]
        refine ⟨_, rfl, [.plain b], r, rfl, by simp, by simp [piecesText, Piece.text],
          reach_one _ _ _, ?_⟩
        intro res hres
        dsimp only at hres
        simp only [range_one, hlone] at hres
        exact lone_case 1 [b] rfl (by intro _ _ _ _ h; cases h) rfl rfl (by simp [ho]) res
          (by simpa [ho, piecesText, Piece.text] using hres)
      · simp only [hc, Bool.false_eq_true, if_false]
        exact ⟨_, rfl, fail_case (by intro _ _ _ _ h; cases h) ho _ _⟩
    | simple c =>
      simp only [Piece.text, List.cons_append, List.nil_append,
        parseMore_simple .Strict c (upos + 6) _ ht]
      rcases checkHigh_cases o s (codeUnit d1 d2 d3 d4) upos
          ⟨⟨upos + 6 + 2, piecesText r ++ 34 :: s2⟩, iss⟩ with ⟨ho, hc⟩ | ⟨ho, hc⟩ | ⟨ho, hc⟩
      · simp only [hc, if_true]
        refine ⟨_, rfl, [.simple c], r, rfl, by simp, by simp [piecesText, Piece.text],
          Ptr.Reach.refl _, ?_⟩
        intro res hres
        dsimp only at hres
        simp only [range_self, hlone, List.append_nil] at hres
        exact lone_case 2 [(simpleEscapeValue c).getD 0] rfl (by intro _ _ _ _ h; cases h)
          rfl rfl (by simp [ho]) res (by simpa [ho, piecesText, Piece.text] using hres)
      · simp only [hc, if_true]
        refine ⟨_, rfl, [.simple c], r, rfl, by simp, by simp [piecesText, Piece.text],
          Ptr.Reach.refl _, ?_⟩
        intro res hres
        dsimp only at hres
        simp only [range_self, hlone, List.append_nil] at hres
        exact lone_case 2 [(simpleEscapeValue c).getD 0] rfl (by intro _ _ _ _ h; cases h)
          rfl rfl (by simp [ho]) res (by simpa [ho, piecesText, Piece.text] using hres)
      · simp only [hc, Bool.false_eq_true, if_false]
        exact ⟨_, rfl, fail_case (by intro _ _ _ _ h; cases h) ho _ _⟩
    | unicode e1 e2 e3 e4 =>
      obtain ⟨g1, g2, g3, g4⟩ := ht
      have hpm := parseMore_unicode .Strict (upos + 6) e1 e2 e3 e4 (piecesText r ++ 34 :: s2)
        g1 g2 g3 g4
      simp only [Piece.text, List.cons_append, List.nil_append, hpm]
      by_cases hh2 : isHighSurrogate (codeUnit e1 e2 e3 e4)
      · have hres : codeUnitResult (codeUnit e1 e2 e3 e4) =
            { result := .HighSurrogate, surrogate := codeUnit e1 e2 e3 e4 } := by
          simp [codeUnitResult, hh2]
        have hnl : ¬ isLowSurrogate (codeUnit e1 e2 e3 e4) := by
          unfold isLowSurrogate; unfold isHighSurrogate at hh2; omega
        have hnl2 : ∀ a1 a2 a3 a4, Piece.unicode e1 e2 e3 e4 = .unicode a1 a2 a3 a4 →
            ¬ isLowSurrogate (codeUnit a1 a2 a3 a4) := by
          intro a1 a2 a3 a4 h; cases h; exact hnl
        simp only [hres]
        have compose : o.unpairedUtf16Surrogates ≠ .Fail → ∀ res,
            StringResult o (s ++ loneSurrogate (optionsReplacement o) (codeUnit d1 d2 d3 d4))
              (iss ++ (if o.unpairedUtf16Surrogates = .Report then [highSurrogateIssue upos]
                else [])) (upos + 6) (.unicode e1 e2 e3 e4 :: r) s2 res →
            StringResult o s iss upos (.unicode d1 d2 d3 d4 :: .unicode e1 e2 e3 e4 :: r) s2
              res := by
          intro hof res hres
          exact StringResult.afterLone o s iss upos _ _ s2 (highSurrogateIssue upos) 6 _
            (unpairedIssues_high upos _ _ _ _ _ hh (by
              intro a1 a2 a3 a4 r2 h; cases h; exact hnl))
            (unescapedPieces_high _ _ _ _ _ _ hh (by
              intro a1 a2 a3 a4 r2 h; cases h; exact hnl)) rfl hof res hres
        have rec_case : ∀ iss', o.unpairedUtf16Surrogates ≠ .Fail →
            iss' = iss ++ (if o.unpairedUtf16Surrogates = .Report then [highSurrogateIssue upos]
                else []) →
            ∃ exit, parseStringSurrogates o f
                (s ++ loneSurrogate (optionsReplacement o) (codeUnit d1 d2 d3 d4))
                (codeUnit e1 e2 e3 e4)
                ⟨⟨upos + 6 + 6, piecesText r ++ 34 :: s2⟩, iss'⟩ = some exit ∧
              match exit with
              | .returned b s' st' =>
                StringResult o s iss upos (.unicode d1 d2 d3 d4 :: .unicode e1 e2 e3 e4 :: r) s2
                  (b, s', st')
              | .broke s' pb' st' =>
                ∃ pre toks', .unicode e1 e2 e3 e4 :: r = pre ++ toks' ∧ pre ≠ [] ∧
                  st'.i = ⟨upos + 6 + (piecesText pre).length, piecesText toks' ++ 34 :: s2⟩ ∧
                  pb'.Reach st'.i ∧
                  ∀ res, StringResult o (s' ++ pb'.range st'.i) st'.issues
                      (upos + 6 + (piecesText pre).length) toks' s2 res →
                    StringResult o s iss upos
                      (.unicode d1 d2 d3 d4 :: .unicode e1 e2 e3 e4 :: r) s2 res := by
          intro iss' hof hiss
          obtain ⟨exit, e, hex⟩ := ih hr f
            (s ++ loneSurrogate (optionsReplacement o) (codeUnit d1 d2 d3 d4))
            e1 e2 e3 e4 (upos + 6) iss' s2 hh2 hf2
          refine ⟨exit, e, ?_⟩
          cases exit with
          | returned b s' st' =>
            simp only at hex ⊢
            exact compose hof _ (hiss ▸ hex)
          | broke s' pb' st' =>
            simp only at hex ⊢
            obtain ⟨pre, toks', hsplit, hpre, hi, hreach, hcomp⟩ := hex
            have hlen : upos + 6 + (piecesText (.unicode e1 e2 e3 e4 :: pre)).length =
                upos + 6 + 6 + (piecesText pre).length := by
              simp [piecesText_cons, Piece.text]; omega
            refine ⟨.unicode e1 e2 e3 e4 :: pre, toks', by rw [hsplit]; rfl, by simp,
              by rw [hlen]; exact hi, hreach, ?_⟩
            intro res hres
            rw [hlen] at hres
            exact compose hof _ (hiss ▸ hcomp res hres)
        rcases checkHigh_cases o s (codeUnit d1 d2 d3 d4) upos
            ⟨⟨upos + 6 + 6, piecesText r ++ 34 :: s2⟩, iss⟩ with ⟨ho, hc⟩ | ⟨ho, hc⟩ | ⟨ho, hc⟩
        · simp only [hc, if_true, hlone]
          exact rec_case iss (by simp [ho]) (by simp [ho])
        · simp only [hc, if_true, hlone]
          exact rec_case _ (by simp [ho]) (by simp [ho])
        · simp only [hc, Bool.false_eq_true, if_false]
          exact ⟨_, rfl, fail_case hnl2 ho _ _⟩
      · by_cases hl2 : isLowSurrogate (codeUnit e1 e2 e3 e4)
        · have hres : codeUnitResult (codeUnit e1 e2 e3 e4) =
              { result := .LowSurrogate, surrogate := codeUnit e1 e2 e3 e4 } := by
            simp [codeUnitResult, hh2, hl2]
          simp only [hres]
          refine ⟨_, rfl, [.unicode e1 e2 e3 e4], r, rfl, by simp,
            by simp [piecesText, Piece.text], Ptr.Reach.refl _, ?_⟩
          intro res hres
          dsimp only at hres
          simp only [range_self, List.append_nil, encodePair_eq _ _ hh hl2] at hres
          refine StringResult.afterPair o s iss upos _ _ _ _ _ _ _ _ r s2 hh hl2 res ?_
          have hlen : upos + 6 + (piecesText [.unicode e1 e2 e3 e4]).length = upos + 12 := by
            simp [piecesText, Piece.text]
          rw [hlen] at hres
          exact hres
        · have hres : codeUnitResult (codeUnit e1 e2 e3 e4) =
              { result := .Unescaped, unescaped := utf8Encoding (codeUnit e1 e2 e3 e4) } := by
            simp [codeUnitResult, hh2, hl2]
          have hnl2 : ∀ a1 a2 a3 a4, Piece.unicode e1 e2 e3 e4 = .unicode a1 a2 a3 a4 →
              ¬ isLowSurrogate (codeUnit a1 a2 a3 a4) := by
            intro a1 a2 a3 a4 h; cases h; exact hl2
          simp only [hres]
          rcases checkHigh_cases o s (codeUnit d1 d2 d3 d4) upos
              ⟨⟨upos + 6 + 6, piecesText r ++ 34 :: s2⟩, iss⟩ with
            ⟨ho, hc⟩ | ⟨ho, hc⟩ | ⟨ho, hc⟩
          · simp only [hc, if_true]
            refine ⟨_, rfl, [.unicode e1 e2 e3 e4], r, rfl, by simp,
              by simp [piecesText, Piece.text], Ptr.Reach.refl _, ?_⟩
            intro res hres
            dsimp only at hres
            simp only [range_self, hlone, List.append_nil] at hres
            exact lone_case 6 (utf8Encoding (codeUnit e1 e2 e3 e4)) rfl hnl2
              (unpairedIssues_scalar _ _ _ _ _ _ hh2 hl2)
              (unescapedPieces_scalar _ _ _ _ _ _ hh2 hl2) (by simp [ho]) res
              (by simpa [ho, piecesText, Piece.text] using hres)
          · simp only [hc, if_true]
            refine ⟨_, rfl, [.unicode e1 e2 e3 e4], r, rfl, by simp,
              by simp [piecesText, Piece.text], Ptr.Reach.refl _, ?_⟩
            intro res hres
            dsimp only at hres
            simp only [range_self, hlone, List.append_nil] at hres
            exact lone_case 6 (utf8Encoding (codeUnit e1 e2 e3 e4)) rfl hnl2
              (unpairedIssues_scalar _ _ _ _ _ _ hh2 hl2)
              (unescapedPieces_scalar _ _ _ _ _ _ hh2 hl2) (by simp [ho]) res
              (by simpa [ho, piecesText, Piece.text] using hres)
          · simp only [hc, Bool.false_eq_true, if_false]
            exact ⟨_, rfl, fail_case hnl2 ho _ _⟩

theorem parseStringLoop_pieces (o : ParsingOptions)
    (hrep : ValidReplacement (optionsReplacement o)) :
    ∀ (n : Nat) (toks : List Piece), toks.length ≤ n → (∀ t ∈ toks, t.WellFormed .Strict) →
    ∀ (fuel : Nat) (s : Bytes) (pb : Ptr) (pos : Nat) (iss : List ParsingIssue) (s2 : Bytes),
      toks.length + 2 ≤ fuel → pb.Reach ⟨pos, piecesText toks ++ 34 :: s2⟩ →
      ∃ res, parseStringLoop o fuel s pb ⟨⟨pos, piecesText toks ++ 34 :: s2⟩, iss⟩ = some res ∧
        StringResult o (s ++ pb.range ⟨pos, piecesText toks ++ 34 :: s2⟩) iss pos toks s2 res := by
  intro n
  induction n with
  | zero =>
    intro toks hn _ fuel s pb pos iss s2 hf hreach
    have h0 : toks = [] := List.length_eq_zero.mp (Nat.le_zero.mp hn)
    subst h0
    obtain ⟨f, rfl⟩ : ∃ f, fuel = f + 1 := ⟨fuel - 1, by omega⟩
    rw [parseStringLoop]
    simp only [piecesText, List.flatMap_nil, List.nil_append]
    rw [detectEndOfInput_ne _ (by simp)]
    simp only [Bool.false_eq_true, if_false, parseMore_quote]
    refine ⟨_, rfl, ?_⟩
    unfold StringResult
    simp [unpairedIssues, unescapedPieces, advance, Ptr.next, piecesText]
  | succ n ih =>
    intro toks hn hwf fuel s pb pos iss s2 hf hreach
    cases toks with
    | nil => exact ih [] (by simp) hwf fuel s pb pos iss s2 hf hreach
    | cons t r =>
      obtain ⟨f, rfl⟩ : ∃ f, fuel = f + 1 := ⟨fuel - 1, by omega⟩
      have hrn : r.length ≤ n := by simpa using hn
      have hf2 : r.length + 2 ≤ f := by simpa using hf
      have ht := hwf t (List.mem_cons_self _ _)
      have hr : ∀ x ∈ r, x.WellFormed .Strict := fun x hx => hwf x (List.mem_cons_of_mem _ hx)
      have hne : (t.text ++ piecesText r) ++ 34 :: s2 ≠ [] := by simp
      rw [parseStringLoop]
      simp only [piecesText_cons] at hreach ⊢
      rw [detectEndOfInput_ne _ hne]
      simp only [Bool.false_eq_true, if_false]
      cases t with
      | plain b =>
        obtain ⟨h92, hs⟩ := ht
        obtain ⟨h34, hcc⟩ := hs rfl
        simp only [Piece.text, List.singleton_append, List.cons_append, List.nil_append,
          parseMore_plain .Strict b pos _ h92 h34 (fun _ => hcc)] at hreach ⊢
        have hrn1 := range_next pb ⟨pos, b :: (piecesText r ++ 34 :: s2)⟩ b _ hreach rfl
        have hrr1 := reach_step_of_cons pb ⟨pos, b :: (piecesText r ++ 34 :: s2)⟩ b _ hreach rfl
        have hnx : (⟨pos, b :: (piecesText r ++ 34 :: s2)⟩ : Ptr).next =
            ⟨pos + 1, piecesText r ++ 34 :: s2⟩ := rfl
        rw [hnx] at hrn1 hrr1
        obtain ⟨res, e, hres⟩ := ih r hrn hr f s pb (pos + 1) iss s2 hf2 hrr1
        refine ⟨res, e, ?_⟩
        rw [hrn1, ← List.append_assoc] at hres
        exact StringResult.afterPiece o _ _ _ (.plain b) r s2 1 [b] rfl rfl rfl res hres
      | simple c =>
        simp only [Piece.text, List.cons_append, List.nil_append,
          parseMore_simple .Strict c pos _ ht] at hreach ⊢
        obtain ⟨res, e, hres⟩ := ih r hrn hr f
          (s ++ pb.range ⟨pos, 92 :: c :: (piecesText r ++ 34 :: s2)⟩ ++
            [(simpleEscapeValue c).getD 0])
          ⟨pos + 2, piecesText r ++ 34 :: s2⟩ (pos + 2) iss s2 hf2 (Ptr.Reach.refl _)
        refine ⟨res, e, ?_⟩
        rw [range_self, List.append_nil] at hres
        exact StringResult.afterPiece o _ _ _ (.simple c) r s2 2 _ rfl rfl rfl res hres
      | unicode d1 d2 d3 d4 =>
        obtain ⟨g1, g2, g3, g4⟩ := ht
        have hpm := parseMore_unicode .Strict pos d1 d2 d3 d4 (piecesText r ++ 34 :: s2)
          g1 g2 g3 g4
        simp only [Piece.text, List.cons_append, List.nil_append, hpm] at hreach ⊢
        by_cases hh : isHighSurrogate (codeUnit d1 d2 d3 d4)
        · have hcr : codeUnitResult (codeUnit d1 d2 d3 d4) =
              { result := .HighSurrogate, surrogate := codeUnit d1 d2 d3 d4 } := by
            simp [codeUnitResult, hh]
          simp only [hcr]
          obtain ⟨exit, e, hex⟩ := parseStringSurrogates_pieces o hrep r hr f
            (s ++ pb.range ⟨pos, 92 :: 117 :: d1 :: d2 :: d3 :: d4 :: (piecesText r ++ 34 :: s2)⟩)
            d1 d2 d3 d4 pos iss s2 hh (by omega)
          simp only [e]
          cases exit with
          | returned b s' st' => exact ⟨_, rfl, hex⟩
          | broke s' pb' st' =>
            simp only at hex ⊢
            obtain ⟨pre, toks', hsplit, hpre, hi, hreach1, hcomp⟩ := hex
            have hl1 : toks'.length ≤ n := by
              have := congrArg List.length hsplit
              simp at this; omega
            have hl2 : toks'.length + 2 ≤ f := by
              have := congrArg List.length hsplit
              simp at this; omega
            have hw1 : ∀ t ∈ toks', t.WellFormed .Strict := fun t ht =>
              hr t (by rw [hsplit]; exact List.mem_append_right _ ht)
            obtain ⟨sti, stiss⟩ := st'
            simp only at hi hreach1 hcomp
            subst hi
            obtain ⟨res, e2, hres⟩ := ih toks' hl1 hw1 f s' pb' _ stiss s2 hl2 hreach1
            exact ⟨res, e2, hcomp res hres⟩
        · by_cases hl : isLowSurrogate (codeUnit d1 d2 d3 d4)
          · have hcr : codeUnitResult (codeUnit d1 d2 d3 d4) =
                { result := .LowSurrogate, surrogate := codeUnit d1 d2 d3 d4 } := by
              simp [codeUnitResult, hh, hl]
            simp only [hcr]
            have hlone := encodeLone_eq _ hrep _ (Or.inr hl)
            rw [← surrogateReplacement_eq] at hlone
            rcases checkLow_cases o
                (s ++ pb.range
                  ⟨pos, 92 :: 117 :: d1 :: d2 :: d3 :: d4 :: (piecesText r ++ 34 :: s2)⟩)
                (codeUnit d1 d2 d3 d4) pos
                ⟨⟨pos + 6, piecesText r ++ 34 :: s2⟩, iss⟩ with ⟨ho, hc⟩ | ⟨ho, hc⟩ | ⟨ho, hc⟩
            · simp only [hc, if_true, hlone]
              obtain ⟨res, e, hres⟩ := ih r hrn hr f
                (s ++ pb.range
                    ⟨pos, 92 :: 117 :: d1 :: d2 :: d3 :: d4 :: (piecesText r ++ 34 :: s2)⟩ ++
                  loneSurrogate (optionsReplacement o) (codeUnit d1 d2 d3 d4))
                ⟨pos + 6, piecesText r ++ 34 :: s2⟩ (pos + 6) iss s2 hf2 (Ptr.Reach.refl _)
              refine ⟨res, e, ?_⟩
              rw [range_self, List.append_nil] at hres
              exact StringResult.afterLone o _ iss pos _ r s2 (lowSurrogateIssue pos) 6 _
                (unpairedIssues_low pos _ _ _ _ _ hl) (unescapedPieces_low _ _ _ _ _ _ hl) rfl
                (by simp [ho]) res (by simpa [ho] using hres)
            · simp only [hc, if_true, hlone]
              obtain ⟨res, e, hres⟩ := ih r hrn hr f
                (s ++ pb.range
                    ⟨pos, 92 :: 117 :: d1 :: d2 :: d3 :: d4 :: (piecesText r ++ 34 :: s2)⟩ ++
                  loneSurrogate (optionsReplacement o) (codeUnit d1 d2 d3 d4))
                ⟨pos + 6, piecesText r ++ 34 :: s2⟩ (pos + 6)
                (iss ++ [lowSurrogateIssue pos]) s2 hf2 (Ptr.Reach.refl _)
              refine ⟨res, e, ?_⟩
              rw [range_self, List.append_nil] at hres
              exact StringResult.afterLone o _ iss pos _ r s2 (lowSurrogateIssue pos) 6 _
                (unpairedIssues_low pos _ _ _ _ _ hl) (unescapedPieces_low _ _ _ _ _ _ hl) rfl
                (by simp [ho]) res (by simpa [ho] using hres)
            · simp only [hc, Bool.false_eq_true, if_false]
              exact ⟨_, rfl, StringResult.checkFailed o _ _ _ _ _ _ _
                (unpairedIssues_low pos _ _ _ _ _ hl) ho _ _ rfl⟩
          · have hcr : codeUnitResult (codeUnit d1 d2 d3 d4) =
                { result := .Unescaped, unescaped := utf8Encoding (codeUnit d1 d2 d3 d4) } := by
              simp [codeUnitResult, hh, hl]
            simp only [hcr]
            obtain ⟨res, e, hres⟩ := ih r hrn hr f
              (s ++ pb.range
                  ⟨pos, 92 :: 117 :: d1 :: d2 :: d3 :: d4 :: (piecesText r ++ 34 :: s2)⟩ ++
                utf8Encoding (codeUnit d1 d2 d3 d4))
              ⟨pos + 6, piecesText r ++ 34 :: s2⟩ (pos + 6) iss s2 hf2 (Ptr.Reach.refl _)
            refine ⟨res, e, ?_⟩
            rw [range_self, List.append_nil] at hres
            exact StringResult.afterPiece o _ _ _ (.unicode d1 d2 d3 d4) r s2 6 _
              (unpairedIssues_scalar _ _ _ _ _ _ hh hl)
              (unescapedPieces_scalar _ _ _ _ _ _ hh hl) rfl res hres

theorem length_le_piecesText (toks : List Piece) : toks.length ≤ (piecesText toks).length := by
  induction toks with
  | nil => simp
  | cons t r ih =>
    have := List.length_pos.mpr (pieceText_ne_nil t)
    simp only [piecesText_cons, List.length_append, List.length_cons]
    omega

theorem parseString_pieces (o : ParsingOptions)
    (hrep : ValidReplacement (optionsReplacement o)) (toks : List Piece)
    (hwf : ∀ t ∈ toks, t.WellFormed .Strict) (pos : Nat) (iss : List ParsingIssue)
    (s2 : Bytes) :
    ∃ res, parseString o [] ⟨⟨pos, stringLiteral toks ++ s2⟩, iss⟩ = some res ∧
      StringResult o [] iss (pos + 1) toks s2 res := by
  unfold parseString
  have hadv : (⟨⟨pos, stringLiteral toks ++ s2⟩, iss⟩ : ParserImpl).advance =
      ⟨⟨pos + 1, piecesText toks ++ 34 :: s2⟩, iss⟩ := by
    simp [advance, Ptr.next, stringLiteral]
  rw [hadv]
  have hlen := length_le_piecesText toks
  obtain ⟨res, e, hres⟩ := parseStringLoop_pieces o hrep toks.length toks (le_refl _) hwf
    ((piecesText toks ++ 34 :: s2).length + 1) [] ⟨pos + 1, piecesText toks ++ 34 :: s2⟩
    (pos + 1) iss s2 (by simp; omega) (Ptr.Reach.refl _)
  refine ⟨res, e, ?_⟩
  rw [range_self] at hres
  exact hres

theorem implParse_stringLiteral (o : ParsingOptions)
    (hrep : ValidReplacement (optionsReplacement o)) (toks : List Piece)
    (hwf : ∀ t ∈ toks, t.WellFormed .Strict) (w : Bytes) (hw : ∀ b ∈ w, isWhitespace b)
    (s2 : Bytes) :
    ∃ res, StringResult o [] [] (w.length + 1) toks s2 res ∧
      impl.parse (w ++ (stringLiteral toks ++ s2)) o = some
        { value := .string res.2.1
          status := if res.1 then .Success else .Failure
          parsedSize := res.2.2.i.pos
          issues := res.2.2.issues } := by
  obtain ⟨res, e, hres⟩ := parseString_pieces o hrep toks hwf w.length [] s2
  refine ⟨res, hres, ?_⟩
  unfold impl.parse ParserImpl.parse
  have hws := endWs_run (⟨⟨0, w ++ (stringLiteral toks ++ s2)⟩, []⟩ : ParserImpl) w
    (stringLiteral toks ++ s2) rfl hw
    (by intro b hb; simp [stringLiteral] at hb; subst hb; decide) (by simp [stringLiteral])
  rw [hws]
  simp only [Bool.false_eq_true, if_false, Nat.zero_add]
  rw [parseImpl]
  have hq : stringLiteral toks ++ s2 = 34 :: (piecesText toks ++ 34 :: s2) := by
    simp [stringLiteral]
  have e34 : ((34 : Byte)).val = 34 := rfl
  simp only [hq, e34]
  norm_num
  rw [← hq, e]
  obtain ⟨r1, s1, st1⟩ := res
  rfl

theorem unpairedIssues_shift (k : Nat) : ∀ (n : Nat) (toks : List Piece) (pos : Nat),
    toks.length ≤ n →
    unpairedIssues (pos + k) toks = (unpairedIssues pos toks).map (ParsingIssue.shift k) := by
  intro n
  induction n with
  | zero =>
    intro toks pos hn
    have : toks = [] := List.length_eq_zero.mp (Nat.le_zero.mp hn)
    subst this
    rfl
  | succ n ih =>
    intro toks pos hn
    cases toks with
    | nil => rfl
    | cons t r =>
      have hrn : r.length ≤ n := by simpa using hn
      cases t with
      | plain b =>
        simp only [unpairedIssues]
        rw [← ih r (pos + 1) hrn]
        congr 1; omega
      | simple c =>
        simp only [unpairedIssues]
        rw [← ih r (pos + 2) hrn]
        congr 1; omega
      | unicode d1 d2 d3 d4 =>
        have e6 : pos + k + 6 = pos + 6 + k := by omega
        by_cases hh : isHighSurrogate (codeUnit d1 d2 d3 d4)
        · by_cases hp : ∃ e1 e2 e3 e4 r2, r = .unicode e1 e2 e3 e4 :: r2 ∧
              isLowSurrogate (codeUnit e1 e2 e3 e4)
          · obtain ⟨e1, e2, e3, e4, r2, rfl, hl⟩ := hp
            have hrn2 : r2.length ≤ n := by simp at hrn; omega
            rw [unpairedIssues_pair _ _ _ _ _ _ _ _ _ r2 hh hl,
              unpairedIssues_pair _ _ _ _ _ _ _ _ _ r2 hh hl, ← ih r2 (pos + 12) hrn2]
            congr 1; omega
          · have hnl : ∀ e1 e2 e3 e4 r2, r = .unicode e1 e2 e3 e4 :: r2 →
                ¬ isLowSurrogate (codeUnit e1 e2 e3 e4) :=
              fun e1 e2 e3 e4 r2 h hl => hp ⟨e1, e2, e3, e4, r2, h, hl⟩
            rw [unpairedIssues_high _ _ _ _ _ r hh hnl, unpairedIssues_high _ _ _ _ _ r hh hnl,
              e6, ih r (pos + 6) hrn]
            rfl
        · by_cases hl : isLowSurrogate (codeUnit d1 d2 d3 d4)
          · rw [unpairedIssues_low _ _ _ _ _ r hl, unpairedIssues_low _ _ _ _ _ r hl,
              e6, ih r (pos + 6) hrn]
            rfl
          · rw [unpairedIssues_scalar _ _ _ _ _ r hh hl, unpairedIssues_scalar _ _ _ _ _ r hh hl,
              e6, ih r (pos + 6) hrn]

theorem unpairedIssues_eq_nil (toks : List Piece) (pos : Nat)
    (h : unpairedIssues 0 toks = []) : unpairedIssues pos toks = [] := by
  have := unpairedIssues_shift pos toks.length toks 0 (le_refl _)
  rw [Nat.zero_add] at this
  rw [this, h]
  rfl

theorem unpairedIssues_append :
    ∀ (n : Nat) (a b : List Piece) (pos : Nat), a.length ≤ n → NoPairAcross a b →
      unpairedIssues pos (a ++ b) =
        unpairedIssues pos a ++ unpairedIssues (pos + (piecesText a).length) b := by
  intro n
  induction n with
  | zero =>
    intro a b pos hn _
    have : a = [] := List.length_eq_zero.mp (Nat.le_zero.mp hn)
    subst this
    simp [unpairedIssues, piecesText]
  | succ n ih =>
    intro a b pos hn hab
    have tail0 : ∀ (x : Piece) (a2 : List Piece), a = x :: a2 → NoPairAcross a2 b := by
      intro x a2 ha p q hp hq
      refine hab p q ?_ hq
      rw [ha]
      cases a2 with
      | nil => simp at hp
      | cons y a3 => rw [getLast?_cons_cons]; exact hp
    cases a with
    | nil => simp [unpairedIssues, piecesText]
    | cons x a2 =>
      have hn2 : a2.length ≤ n := by simpa using hn
      have ih2 := fun pos => ih a2 b pos hn2 (tail0 x a2 rfl)
      cases x with
      | plain c =>
        simp only [List.cons_append, unpairedIssues, List.append_eq, ih2, piecesText_cons,
          Piece.text, List.length_append, List.length_cons, List.length_nil]
        congr 2; omega
      | simple c =>
        simp only [List.cons_append, unpairedIssues, List.append_eq, ih2, piecesText_cons,
          Piece.text, List.length_append, List.length_cons, List.length_nil]
        congr 2; omega
      | unicode d1 d2 d3 d4 =>
        have e6 : ∀ (l : List Piece), pos + (piecesText (.unicode d1 d2 d3 d4 :: l)).length =
            pos + 6 + (piecesText l).length := by
          intro l; simp [piecesText_cons, Piece.text]; omega
        by_cases hh : isHighSurrogate (codeUnit d1 d2 d3 d4)
        · cases a2 with
          | nil =>
            have hb : ∀ e1 e2 e3 e4 r2, b = .unicode e1 e2 e3 e4 :: r2 →
                ¬ isLowSurrogate (codeUnit e1 e2 e3 e4) := by
              intro e1 e2 e3 e4 r2 hb hl
              exact hab (.unicode d1 d2 d3 d4) (.unicode e1 e2 e3 e4) rfl (by rw [hb]; rfl)
                ⟨hh, hl⟩
            simp only [List.cons_append, List.nil_append]
            rw [unpairedIssues_high pos _ _ _ _ _ hh hb,
              unpairedIssues_high pos _ _ _ _ [] hh (by intro _ _ _ _ _ h; cases h), e6]
            simp [unpairedIssues, piecesText]
          | cons y a3 =>
            by_cases hy : y.isLow
            · cases y with
              | plain c => exact absurd hy (by simp [Piece.isLow])
              | simple c => exact absurd hy (by simp [Piece.isLow])
              | unicode e1 e2 e3 e4 =>
                have hn3 : a3.length ≤ n := by simp at hn2; omega
                have ih3 := ih a3 b (pos + 12) hn3 (by
                  intro p q hp hq
                  refine hab p q ?_ hq
                  cases a3 with
                  | nil => simp at hp
                  | cons z a4 =>
                    rw [getLast?_cons_cons, getLast?_cons_cons]; exact hp)
                simp only [List.cons_append]
                rw [unpairedIssues_pair pos _ _ _ _ _ _ _ _ _ hh hy,
                  unpairedIssues_pair pos _ _ _ _ _ _ _ _ _ hh hy, ih3]
                congr 2
                simp [piecesText_cons, Piece.text]; omega
            · have hnl : ∀ e1 e2 e3 e4 r2, y :: a3 = .unicode e1 e2 e3 e4 :: r2 →
                  ¬ isLowSurrogate (codeUnit e1 e2 e3 e4) := by
                intro e1 e2 e3 e4 r2 h hl
                cases h
                exact hy hl
              have hnl2 : ∀ e1 e2 e3 e4 r2, y :: a3 ++ b = .unicode e1 e2 e3 e4 :: r2 →
                  ¬ isLowSurrogate (codeUnit e1 e2 e3 e4) := by
                intro e1 e2 e3 e4 r2 h hl
                simp only [List.cons_append, List.cons.injEq] at h
                obtain ⟨h1, _⟩ := h
                subst h1
                exact hy hl
              have ih2' := ih2 (pos + 6)
              simp only [List.cons_append] at ih2' hnl2 ⊢
              rw [unpairedIssues_high pos _ _ _ _ _ hh hnl2,
                unpairedIssues_high pos _ _ _ _ _ hh hnl, ih2', e6]
              simp
        · by_cases hl : isLowSurrogate (codeUnit d1 d2 d3 d4)
          · simp only [List.cons_append]
            rw [unpairedIssues_low pos _ _ _ _ _ hl, unpairedIssues_low pos _ _ _ _ _ hl,
              ih2, e6]
            simp
          · simp only [List.cons_append]
            rw [unpairedIssues_scalar pos _ _ _ _ _ hh hl,
              unpairedIssues_scalar pos _ _ _ _ _ hh hl, ih2, e6]

theorem parse_of_implParse_failure (input : Bytes) (o : ParsingOptions) (mode : ParsingMode)
    (r : ParsingResult) (h : impl.parse input o = some r) (hs : r.status = .Failure) :
    parse input o mode = some r := by
  unfold parse
  rw [h]
  simp only
  rw [if_neg (fun hh => absurd (hs.symm.trans hh.1) (by decide))]

theorem unpairedIssues_lone (pos : Nat) (d1 d2 d3 d4 : Byte) (b : List Piece)
    (hu : (isHighSurrogate (codeUnit d1 d2 d3 d4) ∧ ∀ q, b.head? = some q → ¬ q.isLow) ∨
      isLowSurrogate (codeUnit d1 d2 d3 d4)) :
    unpairedIssues pos (.unicode d1 d2 d3 d4 :: b) =
      (if isHighSurrogate (codeUnit d1 d2 d3 d4) then highSurrogateIssue pos
        else lowSurrogateIssue pos) :: unpairedIssues (pos + 6) b := by
  rcases hu with ⟨hh, hb⟩ | hl
  · rw [if_pos hh]
    exact unpairedIssues_high pos _ _ _ _ _ hh (by
      intro e1 e2 e3 e4 r2 h hl
      exact hb (.unicode e1 e2 e3 e4) (by rw [h]; rfl) hl)
  · have hh : ¬ isHighSurrogate (codeUnit d1 d2 d3 d4) := by
      unfold isHighSurrogate; unfold isLowSurrogate at hl; omega
    rw [if_neg hh]
    exact unpairedIssues_low pos _ _ _ _ _ hl

theorem noPairAcross_lone (a b : List Piece) (d1 d2 d3 d4 : Byte)
    (hu : (isHighSurrogate (codeUnit d1 d2 d3 d4) ∧ ∀ q, b.head? = some q → ¬ q.isLow) ∨
      (isLowSurrogate (codeUnit d1 d2 d3 d4) ∧ ∀ p, a.getLast? = some p → ¬ p.isHigh)) :
    NoPairAcross a (.unicode d1 d2 d3 d4 :: b) := by
  intro p q hp hq hpq
  simp only [List.head?_cons, Option.some.injEq] at hq
  subst hq
  rcases hu with ⟨hh, _⟩ | ⟨_, hl⟩
  · have := hpq.2
    simp only [Piece.isLow] at this
    unfold isLowSurrogate at this
    unfold isHighSurrogate at hh
    omega
  · exact hl p hp hpq.1

/-- C13: for a string literal given by its pieces (after whitespace, and whatever follows it)
with a surrogate escape without partner (a high surrogate that no low surrogate escape follows
directly, or a low surrogate that no high surrogate escape precedes directly), the first one in
the literal, `parse` with `unpairedUtf16Surrogates = Fail` returns `Failure` with exactly one
issue: its offset is the offset of the backslash of that escape, its code is
`StringContainsUnpairedUtf16HighSurrogate` for a high surrogate and
`StringContainsUnpairedUtf16LowSurrogate` for a low surrogate. -/
theorem parse_unpaired_surrogate_fails (o : ParsingOptions)
    (ho : o.unpairedUtf16Surrogates = .Fail) (hrep : ValidReplacement (optionsReplacement o))
    (w : Bytes) (hw : ∀ c ∈ w, isWhitespace c) (a b : List Piece)
    (ha : ∀ t ∈ a, t.WellFormed .Strict) (hb : ∀ t ∈ b, t.WellFormed .Strict)
    (d1 d2 d3 d4 : Byte) (h1 : hexDigitValue d1 ≠ none) (h2 : hexDigitValue d2 ≠ none)
    (h3 : hexDigitValue d3 ≠ none) (h4 : hexDigitValue d4 ≠ none)
    (hfirst : unpairedIssues 0 a = [])
    (hu : (isHighSurrogate (codeUnit d1 d2 d3 d4) ∧ ∀ q, b.head? = some q → ¬ q.isLow) ∨
      (isLowSurrogate (codeUnit d1 d2 d3 d4) ∧ ∀ p, a.getLast? = some p → ¬ p.isHigh))
    (s2 : Bytes) (mode : ParsingMode) :
    ∃ r, parse (w ++ (stringLiteral (a ++ .unicode d1 d2 d3 d4 :: b) ++ s2)) o mode = some r ∧
      r.status = .Failure ∧
      r.issues = [{
        offset := w.length + 1 + (piecesText a).length
        description := if isHighSurrogate (codeUnit d1 d2 d3 d4) then
            "string contains unpaired UTF-16 high surrogate"
          else "string contains unpaired UTF-16 low surrogate"
        code := if isHighSurrogate (codeUnit d1 d2 d3 d4) then
            .StringContainsUnpairedUtf16HighSurrogate
          else .StringContainsUnpairedUtf16LowSurrogate }] := by
  have hwf := wellFormed_middle .Strict a b (.unicode d1 d2 d3 d4) ha hb ⟨h1, h2, h3, h4⟩
  obtain ⟨res, hres, hp⟩ := implParse_stringLiteral o hrep _ hwf w hw s2
  have hui : unpairedIssues (w.length + 1) (a ++ .unicode d1 d2 d3 d4 :: b) =
      (if isHighSurrogate (codeUnit d1 d2 d3 d4) then
          highSurrogateIssue (w.length + 1 + (piecesText a).length)
        else lowSurrogateIssue (w.length + 1 + (piecesText a).length)) ::
        unpairedIssues (w.length + 1 + (piecesText a).length + 6) b := by
    rw [unpairedIssues_append a.length a _ _ (le_refl _) (noPairAcross_lone a b _ _ _ _ hu),
      unpairedIssues_eq_nil a _ hfirst, List.nil_append,
      unpairedIssues_lone _ _ _ _ _ b (hu.imp id And.left)]
  unfold StringResult at hres
  rw [if_pos ⟨ho, by rw [hui]; simp⟩, hui] at hres
  obtain ⟨r1, s1, st1⟩ := res
  simp only at hres hp
  obtain ⟨hr1, hiss⟩ := hres
  subst hr1
  refine ⟨_, parse_of_implParse_failure _ o mode _ hp rfl, rfl, ?_⟩
  simp only [hiss, List.nil_append, List.take_succ_cons, List.take_zero]
  split_ifs <;> rfl

/-- C13 at the literal `"a\uD800b"`: the issue is at offset 2, for a high surrogate. -/
theorem parse_unpaired_surrogate_fails_witness :
    ∃ r, parse ([] ++ (stringLiteral ([.plain 97] ++ .unicode 68 56 48 48 :: [.plain 98]) ++ []))
        { unpairedUtf16Surrogates := .Fail } .VerifyTrailingWhitespace = some r ∧
      r.status = .Failure ∧
      r.issues = [{
        offset := ([] : Bytes).length + 1 + (piecesText [.plain 97]).length
        description := if isHighSurrogate (codeUnit 68 56 48 48) then
            "string contains unpaired UTF-16 high surrogate"
          else "string contains unpaired UTF-16 low surrogate"
        code := if isHighSurrogate (codeUnit 68 56 48 48) then
            .StringContainsUnpairedUtf16HighSurrogate
          else .StringContainsUnpairedUtf16LowSurrogate }] :=
  parse_unpaired_surrogate_fails { unpairedUtf16Surrogates := .Fail } rfl
    (by intro r h; simp [optionsReplacement] at h) [] (by simp) [.plain 97] [.plain 98]
    (by decide) (by decide) 68 56 48 48 (by decide) (by decide) (by decide) (by decide)
    (by decide) (Or.inl ⟨by decide, by decide⟩) [] .VerifyTrailingWhitespace

theorem surrogatePair_ge (h l : Nat) : 0x10000 ≤ surrogatePair h l := by
  unfold surrogatePair; omega

theorem utf8Encoding_length_four (c : Nat) (h : 0x10000 ≤ c) : (utf8Encoding c).length = 4 := by
  unfold utf8Encoding
  have n1 : ¬ c < 0x80 := by omega
  have n2 : ¬ c < 0x800 := by omega
  have n3 : ¬ c < 0x10000 := by omega
  simp [n1, n2, n3]

theorem noPairAcross_high (a b : List Piece) (d1 d2 d3 d4 : Byte)
    (hh : isHighSurrogate (codeUnit d1 d2 d3 d4)) :
    NoPairAcross a (.unicode d1 d2 d3 d4 :: b) := by
  intro p q _ hq hpq
  simp only [List.head?_cons, Option.some.injEq] at hq
  subst hq
  have := hpq.2
  simp only [Piece.isLow] at this
  unfold isLowSurrogate at this
  unfold isHighSurrogate at hh
  omega

theorem unescapedPieces_around_pair (rep : Option Nat) (a b : List Piece)
    (d1 d2 d3 d4 e1 e2 e3 e4 : Byte) (hh : isHighSurrogate (codeUnit d1 d2 d3 d4))
    (hl : isLowSurrogate (codeUnit e1 e2 e3 e4)) :
    unescapedPieces rep (a ++ .unicode d1 d2 d3 d4 :: .unicode e1 e2 e3 e4 :: b) =
      unescapedPieces rep a ++
        utf8Encoding (surrogatePair (codeUnit d1 d2 d3 d4) (codeUnit e1 e2 e3 e4)) ++
        unescapedPieces rep b := by
  rw [unescapedPieces_append rep a.length a _ (le_refl _) (noPairAcross_high a _ _ _ _ _ hh),
    unescapedPieces_pair rep _ _ _ _ _ _ _ _ b hh hl, List.append_assoc]

theorem unpairedIssues_around_pair (pos : Nat) (a b : List Piece)
    (d1 d2 d3 d4 e1 e2 e3 e4 : Byte) (hh : isHighSurrogate (codeUnit d1 d2 d3 d4))
    (hl : isLowSurrogate (codeUnit e1 e2 e3 e4)) :
    unpairedIssues pos (a ++ .unicode d1 d2 d3 d4 :: .unicode e1 e2 e3 e4 :: b) =
      unpairedIssues pos a ++ unpairedIssues (pos + (piecesText a).length + 12) b := by
  rw [unpairedIssues_append a.length a _ _ (le_refl _) (noPairAcross_high a _ _ _ _ _ hh),
    unpairedIssues_pair _ _ _ _ _ _ _ _ _ b hh hl]

/-- C18: for a high surrogate `h` and a low surrogate `l` written as two consecutive `\u`
escapes with hexadecimal digits in any case, within any text of well-formed pieces, `unescape`
in both modes and the string scanner of the parser give the UTF-8 encoding of the code point
`((h - 0xD800) << 10 | (l - 0xDC00)) + 0x10000`, which has four bytes; the escapes of
`D83D` and `DE00` give `F0 9F 98 80`.  For the parser the pieces are those of a string literal, and with the policy
`Fail` for unpaired surrogates the other pieces have no surrogate without partner. -/
theorem surrogate_pair_utf8 (mode : UnescapeMode) (a b : List Piece)
    (ha : ∀ t ∈ a, t.WellFormed mode) (hb : ∀ t ∈ b, t.WellFormed mode)
    (o : ParsingOptions) (hrep : ValidReplacement (optionsReplacement o))
    (w : Bytes) (hw : ∀ c ∈ w, isWhitespace c) (pa pb : List Piece)
    (hpa : ∀ t ∈ pa, t.WellFormed .Strict) (hpb : ∀ t ∈ pb, t.WellFormed .Strict)
    (ho : o.unpairedUtf16Surrogates = .Fail →
      unpairedIssues 0 pa = [] ∧ unpairedIssues 0 pb = [])
    (s2 : Bytes)
    (d1 d2 d3 d4 e1 e2 e3 e4 : Byte)
    (h1 : hexDigitValue d1 ≠ none) (h2 : hexDigitValue d2 ≠ none)
    (h3 : hexDigitValue d3 ≠ none) (h4 : hexDigitValue d4 ≠ none)
    (g1 : hexDigitValue e1 ≠ none) (g2 : hexDigitValue e2 ≠ none)
    (g3 : hexDigitValue e3 ≠ none) (g4 : hexDigitValue e4 ≠ none)
    (hh : 0xD800 ≤ codeUnit d1 d2 d3 d4 ∧ codeUnit d1 d2 d3 d4 ≤ 0xDBFF)
    (hl : 0xDC00 ≤ codeUnit e1 e2 e3 e4 ∧ codeUnit e1 e2 e3 e4 ≤ 0xDFFF) :
    unescape (piecesText a ++ [92, 117, d1, d2, d3, d4] ++ [92, 117, e1, e2, e3, e4] ++
        piecesText b) mode =
      some (unescapedPieces none a ++
        utf8Encoding ((((codeUnit d1 d2 d3 d4 - 0xD800) <<< 10) |||
          (codeUnit e1 e2 e3 e4 - 0xDC00)) + 0x10000) ++ unescapedPieces none b) ∧
    (∃ r, parse (w ++ (stringLiteral
          (pa ++ .unicode d1 d2 d3 d4 :: .unicode e1 e2 e3 e4 :: pb) ++ s2)) o
          .StopAfterValueEnds = some r ∧
      r.status = .Success ∧
      r.value = .string (unescapedPieces (optionsReplacement o) pa ++
        utf8Encoding ((((codeUnit d1 d2 d3 d4 - 0xD800) <<< 10) |||
          (codeUnit e1 e2 e3 e4 - 0xDC00)) + 0x10000) ++
        unescapedPieces (optionsReplacement o) pb)) ∧
    (utf8Encoding ((((codeUnit d1 d2 d3 d4 - 0xD800) <<< 10) |||
      (codeUnit e1 e2 e3 e4 - 0xDC00)) + 0x10000)).length = 4 ∧
    utf8Encoding ((((0xD83D - 0xD800) <<< 10) ||| (0xDE00 - 0xDC00)) + 0x10000) =
      [0xF0, 0x9F, 0x98, 0x80] := by
  have hh' : isHighSurrogate (codeUnit d1 d2 d3 d4) := hh
  have hl' : isLowSurrogate (codeUnit e1 e2 e3 e4) := hl
  refine ⟨?_, ?_, utf8Encoding_length_four _ (by omega), by decide⟩
  · have hwf : ∀ t ∈ a ++ .unicode d1 d2 d3 d4 :: .unicode e1 e2 e3 e4 :: b,
        t.WellFormed mode := by
      intro t ht
      simp only [List.mem_append, List.mem_cons] at ht
      rcases ht with h | h | h | h
      · exact ha t h
      · rw [h]; exact ⟨h1, h2, h3, h4⟩
      · rw [h]; exact ⟨g1, g2, g3, g4⟩
      · exact hb t h
    have := unescape_pieces mode _ hwf
    rw [unescapedPieces_around_pair none a b _ _ _ _ _ _ _ _ hh' hl', piecesText_append,
      piecesText_cons, piecesText_cons] at this
    simp only [Piece.text, List.append_assoc] at this ⊢
    exact this
  · have hwf : ∀ t ∈ pa ++ .unicode d1 d2 d3 d4 :: .unicode e1 e2 e3 e4 :: pb,
        t.WellFormed .Strict := by
      intro t ht
      simp only [List.mem_append, List.mem_cons] at ht
      rcases ht with h | h | h | h
      · exact hpa t h
      · rw [h]; exact ⟨h1, h2, h3, h4⟩
      · rw [h]; exact ⟨g1, g2, g3, g4⟩
      · exact hpb t h
    obtain ⟨res, hres, hp⟩ := implParse_stringLiteral o hrep _ hwf w hw s2
    unfold StringResult at hres
    have hnf : ¬ (o.unpairedUtf16Surrogates = .Fail ∧
        unpairedIssues (w.length + 1)
          (pa ++ .unicode d1 d2 d3 d4 :: .unicode e1 e2 e3 e4 :: pb) ≠ []) := by
      rintro ⟨hf, hne⟩
      apply hne
      obtain ⟨u1, u2⟩ := ho hf
      rw [unpairedIssues_around_pair _ pa pb _ _ _ _ _ _ _ _ hh' hl',
        unpairedIssues_eq_nil pa _ u1, unpairedIssues_eq_nil pb _ u2]
      rfl
    rw [if_neg hnf] at hres
    subst hres
    simp only [if_true] at hp
    rw [parse_stop_eq, hp]
    refine ⟨_, rfl, rfl, ?_⟩
    simp only [List.nil_append]
    rw [unescapedPieces_around_pair _ pa pb _ _ _ _ _ _ _ _ hh' hl']
    rfl

/-- C18 at the escapes of `d83d` and `DE00`, alone and as a string literal. -/
theorem surrogate_pair_utf8_witness :
    unescape ([] ++ [92, 117, 100, 56, 51, 100] ++ [92, 117, 68, 69, 48, 48] ++ []) .Strict =
      some ([] ++ [0xF0, 0x9F, 0x98, 0x80] ++ []) ∧
    (∃ r, parse ([] ++ (stringLiteral
          ([] ++ .unicode 100 56 51 100 :: .unicode 68 69 48 48 :: []) ++ [])) {}
          .StopAfterValueEnds = some r ∧
      r.status = .Success ∧
      r.value = .string ([] ++ [0xF0, 0x9F, 0x98, 0x80] ++ [])) ∧
    ([0xF0, 0x9F, 0x98, 0x80] : Bytes).length = 4 ∧
    utf8Encoding ((((0xD83D - 0xD800) <<< 10) ||| (0xDE00 - 0xDC00)) + 0x10000) =
      [0xF0, 0x9F, 0x98, 0x80] :=
  surrogate_pair_utf8 .Strict [] [] (by simp) (by simp) {}
    (by intro r h; simp [optionsReplacement] at h) [] (by simp) [] [] (by simp) (by simp)
    (fun _ => ⟨rfl, rfl⟩) [] 100 56 51 100 68 69 48 48
    (by decide) (by decide) (by decide) (by decide) (by decide) (by decide) (by decide)
    (by decide) (by decide) (by decide)

theorem withoutReported_i (o o2 : ParsingOptions) (st : ParserImpl) :
    (withoutReported o o2 st).i = st.i := rfl

theorem withoutReported_advance (o o2 : ParsingOptions) (st : ParserImpl) :
    (withoutReported o o2 st).advance = withoutReported o o2 st.advance := rfl

theorem withoutReported_skipDigits (o o2 : ParsingOptions) (st : ParserImpl) :
    (withoutReported o o2 st).skipDigits = withoutReported o o2 st.skipDigits := rfl

theorem withoutReported_move (o o2 : ParsingOptions) (st : ParserImpl) (p : Ptr) :
    ({ withoutReported o o2 st with i := p } : ParserImpl) =
      withoutReported o o2 { st with i := p } := rfl

theorem withoutReported_addIssueAt (o o2 : ParsingOptions) (st : ParserImpl) (p : Nat)
    (d : String) (c : ParsingIssue.Code)
    (hc : onlyReported o o2 { offset := p, description := d, code := c } = false) :
    (withoutReported o o2 st).addIssueAt p d c = withoutReported o o2 (st.addIssueAt p d c) := by
  simp [withoutReported, addIssueAt, List.filter_append, hc]

theorem withoutReported_dropped (o o2 : ParsingOptions) (st : ParserImpl) (p : Nat)
    (d : String) (c : ParsingIssue.Code)
    (hc : onlyReported o o2 { offset := p, description := d, code := c } = true) :
    withoutReported o o2 (st.addIssueAt p d c) = withoutReported o o2 st := by
  simp [withoutReported, addIssueAt, List.filter_append, hc]

theorem withoutReported_addUnexpected (o o2 : ParsingOptions) (st : ParserImpl) :
    (withoutReported o o2 st).addUnexpectedEndOfInputIssue =
      withoutReported o o2 st.addUnexpectedEndOfInputIssue :=
  withoutReported_addIssueAt o o2 st _ _ _ (by simp [onlyReported])

theorem withoutReported_addInvalid (o o2 : ParsingOptions) (st : ParserImpl) (msg : String) :
    (withoutReported o o2 st).addInvalidCharacterIssue msg =
      withoutReported o o2 (st.addInvalidCharacterIssue msg) :=
  withoutReported_addIssueAt o o2 st _ _ _ (by simp [onlyReported])

theorem withoutReported_endWs (o o2 : ParsingOptions) (st : ParserImpl) :
    (withoutReported o o2 st).detectEndOfInputAfterSkippingWhitespaces =
      (st.detectEndOfInputAfterSkippingWhitespaces.1,
        withoutReported o o2 st.detectEndOfInputAfterSkippingWhitespaces.2) := by
  unfold detectEndOfInputAfterSkippingWhitespaces
  simp only [withoutReported_i, withoutReported_move]
  split_ifs
  · rw [withoutReported_addUnexpected]
  · rfl

theorem withoutReported_detectEnd (o o2 : ParsingOptions) (st : ParserImpl) :
    (withoutReported o o2 st).detectEndOfInput =
      (st.detectEndOfInput.1, withoutReported o o2 st.detectEndOfInput.2) := by
  unfold detectEndOfInput
  have : (withoutReported o o2 st).isEmpty = st.isEmpty := rfl
  rw [this]
  split_ifs
  · rw [withoutReported_addUnexpected]
  · rfl

theorem withoutReported_advanceAndDetect (o o2 : ParsingOptions) (st : ParserImpl) :
    (withoutReported o o2 st).advanceAndDetectEndOfInput =
      (st.advanceAndDetectEndOfInput.1,
        withoutReported o o2 st.advanceAndDetectEndOfInput.2) := by
  unfold advanceAndDetectEndOfInput
  rw [withoutReported_advance, withoutReported_detectEnd]

theorem withoutReported_matchLoop (o o2 : ParsingOptions) (ps : Bytes) :
    ∀ (q : Byte) (st : ParserImpl),
      matchLoop q ps (withoutReported o o2 st) =
        ((matchLoop q ps st).1, withoutReported o o2 (matchLoop q ps st).2) := by
  induction ps with
  | nil =>
    intro q st
    unfold matchLoop
    simp only [withoutReported_i]
    cases st.i.rest with
    | nil => simp only [withoutReported_addUnexpected]
    | cons b t =>
      simp only
      split_ifs
      · rw [withoutReported_addInvalid]
      · rw [withoutReported_advance]
  | cons x xs ih =>
    intro q st
    unfold matchLoop
    simp only [withoutReported_i]
    cases st.i.rest with
    | nil => simp only [withoutReported_addUnexpected]
    | cons b t =>
      simp only
      split_ifs
      · rw [withoutReported_addInvalid]
      · rw [withoutReported_advance, ih]

theorem withoutReported_matchPattern (o o2 : ParsingOptions) (pattern : Bytes)
    (st : ParserImpl) :
    matchPattern pattern (withoutReported o o2 st) =
      ((matchPattern pattern st).1, withoutReported o o2 (matchPattern pattern st).2) := by
  unfold matchPattern
  split
  · rw [withoutReported_advance, withoutReported_matchLoop]
  · rfl

theorem withoutReported_parseLiteral (o o2 : ParsingOptions) (lit : Value) (pattern : Bytes)
    (v : Value) (st : ParserImpl) :
    parseLiteral lit pattern v (withoutReported o o2 st) =
      ((parseLiteral lit pattern v st).1, (parseLiteral lit pattern v st).2.1,
        withoutReported o o2 (parseLiteral lit pattern v st).2.2) := by
  unfold parseLiteral
  simp only [withoutReported_matchPattern]
  split_ifs <;> rfl

theorem withoutReported_detectDigits (o o2 : ParsingOptions) (st : ParserImpl) :
    detectDigits (withoutReported o o2 st) =
      (detectDigits st).map (fun x => (x.1, withoutReported o o2 x.2)) := by
  unfold detectDigits
  simp only [withoutReported_i]
  cases st.i.rest with
  | nil => rfl
  | cons b t =>
    simp only
    split_ifs
    · simp [withoutReported_addInvalid]
    · rfl

theorem withoutReported_parseNumberInteger (o o2 : ParsingOptions) (st : ParserImpl) :
    parseNumberInteger (withoutReported o o2 st) =
      (parseNumberInteger st).map (fun x => (x.1, withoutReported o o2 x.2)) := by
  unfold parseNumberInteger
  simp only [withoutReported_i]
  cases st.i.rest with
  | nil => rfl
  | cons b t =>
    simp only
    split_ifs
    · rfl
    · rfl
    · simp [withoutReported_addInvalid]

theorem withoutReported_parseNumberFraction (o o2 : ParsingOptions) (st : ParserImpl) :
    parseNumberFraction (withoutReported o o2 st) =
      (parseNumberFraction st).map (fun x => (x.1, x.2.1, withoutReported o o2 x.2.2)) := by
  unfold parseNumberFraction
  simp only [withoutReported_i]
  cases st.i.rest with
  | nil => rfl
  | cons b t =>
    simp only [withoutReported_advanceAndDetect]
    split_ifs
    · rfl
    · simp only [withoutReported_detectDigits]
      cases hd : detectDigits st.advanceAndDetectEndOfInput.2 with
      | none => rfl
      | some x => obtain ⟨r, s⟩ := x; cases r <;> rfl
    · rfl

theorem withoutReported_parseNumberExponent (o o2 : ParsingOptions) (st : ParserImpl) :
    parseNumberExponent (withoutReported o o2 st) =
      (parseNumberExponent st).map (fun x => (x.1, x.2.1, withoutReported o o2 x.2.2)) := by
  unfold parseNumberExponent
  simp only [withoutReported_i]
  cases st.i.rest with
  | nil => rfl
  | cons b t =>
    simp only [withoutReported_advanceAndDetect]
    split_ifs with h1 h2
    · rfl
    · simp only [withoutReported_i]
      cases st.advanceAndDetectEndOfInput.2.i.rest with
      | nil => rfl
      | cons c u =>
        simp only
        by_cases h3 : c.val = 43 ∨ c.val = 45
        · simp only [h3, if_true, withoutReported_advanceAndDetect]
          split_ifs
          · rfl
          · simp only [withoutReported_detectDigits]
            cases hd : detectDigits
                st.advanceAndDetectEndOfInput.2.advanceAndDetectEndOfInput.2 with
            | none => rfl
            | some x => obtain ⟨r, s⟩ := x; cases r <;> rfl
        · simp only [h3, if_false, Bool.false_eq_true]
          simp only [withoutReported_detectDigits]
          cases hd : detectDigits st.advanceAndDetectEndOfInput.2 with
          | none => rfl
          | some x => obtain ⟨r, s⟩ := x; cases r <;> rfl
    · rfl

theorem withoutReported_parseNumberConvert (o o2 : ParsingOptions) (begin : Ptr)
    (isNegative : Nat) (isDecimal : Bool) (v : Value) (st : ParserImpl) :
    parseNumberConvert begin isNegative isDecimal v (withoutReported o o2 st) =
      ((parseNumberConvert begin isNegative isDecimal v st).1,
        (parseNumberConvert begin isNegative isDecimal v st).2.1,
        withoutReported o o2 (parseNumberConvert begin isNegative isDecimal v st).2.2) := by
  unfold parseNumberConvert
  simp only [withoutReported_i]
  split_ifs
  · cases from_chars_int64 (begin.range st.i) with
    | ok _ _ => rfl
    | invalid_argument p =>
      simp only
      rw [withoutReported_addIssueAt _ _ _ _ _ _ (by simp [onlyReported])]
    | result_out_of_range p =>
      simp only
      rw [withoutReported_addIssueAt _ _ _ _ _ _ (by simp [onlyReported])]
  · cases from_chars_double (begin.range st.i) with
    | ok _ _ => rfl
    | invalid_argument p =>
      simp only
      rw [withoutReported_addIssueAt _ _ _ _ _ _ (by simp [onlyReported])]
    | result_out_of_range p =>
      simp only
      rw [withoutReported_addIssueAt _ _ _ _ _ _ (by simp [onlyReported])]

theorem withoutReported_parseNumberBody (o o2 : ParsingOptions) (begin : Ptr)
    (isNegative : Nat) (v : Value) (st : ParserImpl) :
    parseNumberBody begin isNegative v (withoutReported o o2 st) =
      (parseNumberBody begin isNegative v st).map
        (fun x => (x.1, x.2.1, withoutReported o o2 x.2.2)) := by
  unfold parseNumberBody
  simp only [withoutReported_parseNumberInteger]
  cases parseNumberInteger st with
  | none => rfl
  | some x =>
    obtain ⟨r, s⟩ := x
    cases r
    · rfl
    · simp only [Option.map_some', withoutReported_parseNumberFraction]
      cases parseNumberFraction s with
      | none => rfl
      | some y =>
        obtain ⟨r2, d2, s2⟩ := y
        cases r2
        · rfl
        · simp only [Option.map_some', withoutReported_parseNumberExponent]
          cases parseNumberExponent s2 with
          | none => rfl
          | some z =>
            obtain ⟨r3, d3, s3⟩ := z
            cases r3
            · rfl
            · simp only [Option.map_some', withoutReported_parseNumberConvert]

theorem withoutReported_parseNumber (o o2 : ParsingOptions) (v : Value) (st : ParserImpl) :
    parseNumber v (withoutReported o o2 st) =
      (parseNumber v st).map (fun x => (x.1, x.2.1, withoutReported o o2 x.2.2)) := by
  unfold parseNumber
  simp only [withoutReported_i]
  cases st.i.rest with
  | nil => rfl
  | cons b t =>
    simp only
    by_cases hb : b.val = 45
    · simp only [hb, if_true, ne_eq, one_ne_zero, not_false_eq_true,
        withoutReported_advanceAndDetect]
      split_ifs
      · rfl
      · rw [withoutReported_parseNumberBody]
    · simp only [hb, if_false, ne_eq, not_true_eq_false, Bool.false_eq_true]
      rw [withoutReported_parseNumberBody]

theorem ReportsMore.surrogateReplacement {o o2 : ParsingOptions} (h : ReportsMore o o2) :
    surrogateReplacement o2 = surrogateReplacement o := by
  unfold ParserImpl.surrogateReplacement
  rw [h.1, h.2.1]

theorem withoutReported_check (o o2 : ParsingOptions) (h : ReportsMore o o2) (s : Bytes)
    (u p : Nat) (d : String) (c : ParsingIssue.Code)
    (hc : c = .StringContainsUnpairedUtf16HighSurrogate ∨
      c = .StringContainsUnpairedUtf16LowSurrogate) (st : ParserImpl) :
    checkInvalidUtf16SurrogateOptionAndEncode o2 s u p d c (withoutReported o o2 st) =
      ((checkInvalidUtf16SurrogateOptionAndEncode o s u p d c st).1,
        (checkInvalidUtf16SurrogateOptionAndEncode o s u p d c st).2.1,
        withoutReported o o2 (checkInvalidUtf16SurrogateOptionAndEncode o s u p d c st).2.2) := by
  unfold checkInvalidUtf16SurrogateOptionAndEncode
  rw [h.surrogateReplacement]
  rcases h.2.2.2 with he | ⟨h1, h2⟩
  · have hk : onlyReported o o2 { offset := p, description := d, code := c } = false := by
      rcases hc with rfl | rfl <;> simp [onlyReported, he]
    rw [he]
    split_ifs
    · rw [withoutReported_addIssueAt _ _ _ _ _ _ hk]
    · rw [withoutReported_addIssueAt _ _ _ _ _ _ hk]
    · rfl
  · have hk : onlyReported o o2 { offset := p, description := d, code := c } = true := by
      rcases hc with rfl | rfl <;> simp [onlyReported, h1, h2]
    simp only [h1, h2, ne_eq, not_true_eq_false, if_false, reduceCtorEq, not_false_eq_true,
      if_true]
    rw [withoutReported_dropped _ _ _ _ _ _ hk]

theorem withoutReported_checkHigh (o o2 : ParsingOptions) (h : ReportsMore o o2) (s : Bytes)
    (u p : Nat) (st : ParserImpl) :
    checkInvalidUtf16HighSurrogateOptionAndEncode o2 s u p (withoutReported o o2 st) =
      ((checkInvalidUtf16HighSurrogateOptionAndEncode o s u p st).1,
        (checkInvalidUtf16HighSurrogateOptionAndEncode o s u p st).2.1,
        withoutReported o o2 (checkInvalidUtf16HighSurrogateOptionAndEncode o s u p st).2.2) :=
  withoutReported_check o o2 h s u p _ _ (Or.inl rfl) st

theorem withoutReported_checkLow (o o2 : ParsingOptions) (h : ReportsMore o o2) (s : Bytes)
    (u p : Nat) (st : ParserImpl) :
    checkInvalidUtf16LowSurrogateOptionAndEncode o2 s u p (withoutReported o o2 st) =
      ((checkInvalidUtf16LowSurrogateOptionAndEncode o s u p st).1,
        (checkInvalidUtf16LowSurrogateOptionAndEncode o s u p st).2.1,
        withoutReported o o2 (checkInvalidUtf16LowSurrogateOptionAndEncode o s u p st).2.2) :=
  withoutReported_check o o2 h s u p _ _ (Or.inr rfl) st

theorem withoutReported_parseStringSurrogates (o o2 : ParsingOptions) (h : ReportsMore o o2) :
    ∀ (fuel : Nat) (s : Bytes) (u : Nat) (st : ParserImpl),
      parseStringSurrogates o2 fuel s u (withoutReported o o2 st) =
        (parseStringSurrogates o fuel s u st).map (SurrogateLoopExit.withoutReported o o2) := by
  intro fuel
  induction fuel with
  | zero => intro s u st; rfl
  | succ f ih =>
    intro s u st
    rw [parseStringSurrogates, parseStringSurrogates]
    simp only [withoutReported_i]
    by_cases he : st.i.rest = []
    · simp only [he, if_true, withoutReported_addUnexpected]
      rfl
    · simp only [he, if_false]
      cases hm : EscapedStringParser.parseMore .Strict st.i with
      | none => rfl
      | some x =>
        obtain ⟨r2, i2⟩ := x
        simp only [withoutReported_move]
        cases hr : r2.result
        all_goals simp only [withoutReported_checkHigh o o2 h, withoutReported_advance]
        · -- Skip
          split_ifs <;> rfl
        · -- Unescaped
          split_ifs <;> rfl
        · -- HighSurrogate
          split_ifs
          · rw [ih]
          · rfl
        · rfl
        · rfl
        · simp only [withoutReported_addInvalid]; rfl
        · simp only [withoutReported_addUnexpected]; rfl

theorem withoutReported_parseStringLoop (o o2 : ParsingOptions) (h : ReportsMore o o2) :
    ∀ (fuel : Nat) (s : Bytes) (pb : Ptr) (st : ParserImpl),
      parseStringLoop o2 fuel s pb (withoutReported o o2 st) =
        (parseStringLoop o fuel s pb st).map
          (fun x => (x.1, x.2.1, withoutReported o o2 x.2.2)) := by
  intro fuel
  induction fuel with
  | zero => intro s pb st; rfl
  | succ f ih =>
    intro s pb st
    rw [parseStringLoop, parseStringLoop]
    simp only [withoutReported_detectEnd]
    by_cases he : st.detectEndOfInput.1 = true
    · simp only [he, if_true]; rfl
    · simp only [he, Bool.false_eq_true, if_false, withoutReported_i]
      cases hm : EscapedStringParser.parseMore .Strict st.detectEndOfInput.2.i with
      | none => rfl
      | some x =>
        obtain ⟨r, i1⟩ := x
        simp only [withoutReported_move]
        cases hr : r.result
        · -- Skip
          simp only [ih]
        · -- Unescaped
          simp only [withoutReported_i, ih]
        · -- HighSurrogate
          simp only [withoutReported_parseStringSurrogates o o2 h]
          cases hs : parseStringSurrogates o f
              (s ++ pb.range st.detectEndOfInput.2.i) r.surrogate
              { st.detectEndOfInput.2 with i := i1 } with
          | none => rfl
          | some ex =>
            cases ex with
            | returned b s' st' => rfl
            | broke s' pb' st' =>
              simp only [Option.map_some', SurrogateLoopExit.withoutReported, ih]
        · -- LowSurrogate
          simp only [withoutReported_checkLow o o2 h, withoutReported_i]
          split_ifs
          · rw [ih]
          · rfl
        · -- JsonStringEnd
          rfl
        · simp only [withoutReported_addInvalid]; rfl
        · simp only [withoutReported_addUnexpected]; rfl

theorem withoutReported_parseString (o o2 : ParsingOptions) (h : ReportsMore o o2) (s : Bytes)
    (st : ParserImpl) :
    parseString o2 s (withoutReported o o2 st) =
      (parseString o s st).map (fun x => (x.1, x.2.1, withoutReported o o2 x.2.2)) := by
  unfold parseString
  rw [withoutReported_advance, withoutReported_parseStringLoop o o2 h]
  rfl

theorem withoutReported_dupIssue (o o2 : ParsingOptions) (h : ReportsMore o o2) (c : Prop)
    [Decidable c] (st : ParserImpl) (p : Nat) :
    (if c ∧ o2.duplicateObjectKeys ≠ .Ignore then
        (withoutReported o o2 st).addIssueAt p "JSON object contains duplicate keys"
          .DuplicateKeys
      else withoutReported o o2 st) =
    withoutReported o o2 (if c ∧ o.duplicateObjectKeys ≠ .Ignore then
        st.addIssueAt p "JSON object contains duplicate keys" .DuplicateKeys
      else st) := by
  rcases h.2.2.1 with he | ⟨h1, h2⟩
  · rw [he]
    split_ifs
    · rw [withoutReported_addIssueAt _ _ _ _ _ _ (by simp [onlyReported, he])]
    · rfl
  · simp only [h1, h2, ne_eq, not_true_eq_false, and_false, if_false, reduceCtorEq,
      not_false_eq_true, and_true]
    split_ifs
    · rw [withoutReported_dropped _ _ _ _ _ _ (by simp [onlyReported, h1, h2])]
    · rfl

theorem ReportsMore.fail_iff {o o2 : ParsingOptions} (h : ReportsMore o o2) :
    o2.duplicateObjectKeys = .Fail ↔ o.duplicateObjectKeys = .Fail := by
  rcases h.2.2.1 with he | ⟨h1, h2⟩
  · rw [he]
  · simp [h1, h2]

theorem parser_withoutReported (o o2 : ParsingOptions) (h : ReportsMore o o2) (fuel : Nat) :
    HomAll o o2 fuel := by
  induction fuel with
  | zero => exact ⟨fun _ _ => rfl, fun _ _ => rfl, fun _ _ _ _ => rfl, fun _ _ => rfl,
      fun _ _ => rfl, fun _ _ => rfl⟩
  | succ f ih =>
    obtain ⟨ihImpl, ihArr, ihRec, ihLoop, ihObj, ihMem⟩ := ih
    refine ⟨?_, ?_, ?_, ?_, ?_, ?_⟩
    · -- parseImpl
      intro v st
      rw [parseImpl, parseImpl]
      simp only [withoutReported_i]
      cases st.i.rest with
      | nil => rfl
      | cons b t =>
        simp only [withoutReported_parseLiteral, withoutReported_parseString o o2 h, ihArr,
          ihObj, withoutReported_parseNumber]
        split_ifs
        · rfl
        · rfl
        · rfl
        · cases parseString o [] st with
          | none => rfl
          | some x => rfl
        · rfl
        · rfl
        · rfl
    · -- parseArray
      intro v st
      rw [parseArray, parseArray]
      simp only [withoutReported_advance, withoutReported_endWs]
      split_ifs
      · rfl
      · simp only [withoutReported_i]
        cases st.advance.detectEndOfInputAfterSkippingWhitespaces.2.i.rest with
        | nil => rfl
        | cons b t =>
          simp only [ihRec]
          split_ifs
          · rfl
          · cases parseArrayMembersRecursion o f [] .null 1
                st.advance.detectEndOfInputAfterSkippingWhitespaces.2 with
            | none => rfl
            | some x => obtain ⟨r, a, u, s⟩ := x; cases r <;> rfl
    · -- parseArrayMembersRecursion
      intro a v size st
      rw [parseArrayMembersRecursion, parseArrayMembersRecursion]
      simp only [ihImpl]
      cases parseImpl o f v st with
      | none => rfl
      | some x =>
        obtain ⟨r, v1, s1⟩ := x
        cases r
        · rfl
        · simp only [Option.map_some', withoutReported_endWs, withoutReported_i,
            withoutReported_advance, ihLoop, ihRec, withoutReported_addInvalid]
          by_cases he : s1.detectEndOfInputAfterSkippingWhitespaces.1 = true
          · simp only [he, if_true]; rfl
          · simp only [he, Bool.false_eq_true, if_false]
            cases s1.detectEndOfInputAfterSkippingWhitespaces.2.i.rest with
            | nil => rfl
            | cons b t =>
              simp only
              split_ifs
              · rfl
              · rfl
              · cases parseArrayMembersLoop o f (resize a (size + 1))
                    s1.detectEndOfInputAfterSkippingWhitespaces.2.advance.detectEndOfInputAfterSkippingWhitespaces.2 with
                | none => rfl
                | some x => rfl
              · cases parseArrayMembersRecursion o f a .null (size + 1)
                    s1.detectEndOfInputAfterSkippingWhitespaces.2.advance.detectEndOfInputAfterSkippingWhitespaces.2 with
                | none => rfl
                | some x => obtain ⟨r, a2, u, s⟩ := x; cases r <;> rfl
              · rfl
    · -- parseArrayMembersLoop
      intro a st
      rw [parseArrayMembersLoop, parseArrayMembersLoop]
      simp only [ihImpl]
      cases parseImpl o f (a.getLastD .null) st with
      | none => rfl
      | some x =>
        obtain ⟨r, v1, s1⟩ := x
        cases r
        · rfl
        · simp only [Option.map_some', withoutReported_endWs, withoutReported_i,
            withoutReported_advance, ihLoop, withoutReported_addInvalid]
          by_cases he : s1.detectEndOfInputAfterSkippingWhitespaces.1 = true
          · simp only [he, if_true]; rfl
          · simp only [he, Bool.false_eq_true, if_false]
            cases s1.detectEndOfInputAfterSkippingWhitespaces.2.i.rest with
            | nil => rfl
            | cons b t =>
              simp only
              split_ifs <;> rfl
    · -- parseObject
      intro v st
      rw [parseObject, parseObject]
      simp only [withoutReported_advance, withoutReported_endWs]
      split_ifs
      · rfl
      · simp only [withoutReported_i]
        cases st.advance.detectEndOfInputAfterSkippingWhitespaces.2.i.rest with
        | nil => rfl
        | cons b t =>
          simp only [ihMem]
          split_ifs
          · rfl
          · cases parseObjectMembers o f []
                st.advance.detectEndOfInputAfterSkippingWhitespaces.2 with
            | none => rfl
            | some x => rfl
    · -- parseObjectMembers
      intro ob st
      rw [parseObjectMembers, parseObjectMembers]
      simp only [withoutReported_i]
      cases st.i.rest with
      | nil => rfl
      | cons b t =>
        simp only [withoutReported_parseString o o2 h, withoutReported_addInvalid]
        by_cases hb : b.val ≠ 34
        · rw [if_pos hb, if_pos hb]; rfl
        · rw [if_neg hb, if_neg hb]
          cases parseString o [] st with
          | none => rfl
          | some x =>
            obtain ⟨r, key, s1⟩ := x
            cases r
            · rfl
            · simp only [Option.map_some', withoutReported_endWs, withoutReported_i,
                withoutReported_advance, withoutReported_addInvalid,
                withoutReported_dupIssue o o2 h, h.fail_iff, ihImpl, ihMem]
              by_cases he : s1.detectEndOfInputAfterSkippingWhitespaces.1 = true
              · simp only [he, if_true]; rfl
              · simp only [he, Bool.false_eq_true, if_false]
                cases s1.detectEndOfInputAfterSkippingWhitespaces.2.i.rest with
                | nil => rfl
                | cons c u =>
                  simp only
                  by_cases hc : c.val ≠ 58
                  · rw [if_pos hc, if_pos hc]; rfl
                  · rw [if_neg hc, if_neg hc]
                    by_cases he2 : s1.detectEndOfInputAfterSkippingWhitespaces.2.advance.detectEndOfInputAfterSkippingWhitespaces.1 = true
                    · simp only [he2, if_true]; rfl
                    · simp only [he2, Bool.false_eq_true, if_false]
                      by_cases hf : (!(tryEmplace ob key).2) = true ∧
                          o.duplicateObjectKeys = .Fail
                      · simp only [hf, and_self, if_true]; rfl
                      · simp only [hf, if_false]
                        cases parseImpl o f
                            ((Object.find key (tryEmplace ob key).1).getD .null)
                            (if (!(tryEmplace ob key).2) = true ∧
                                o.duplicateObjectKeys ≠ .Ignore then
                              s1.detectEndOfInputAfterSkippingWhitespaces.2.advance.detectEndOfInputAfterSkippingWhitespaces.2.addIssueAt
                                st.i.pos "JSON object contains duplicate keys" .DuplicateKeys
                            else
                              s1.detectEndOfInputAfterSkippingWhitespaces.2.advance.detectEndOfInputAfterSkippingWhitespaces.2) with
                        | none => rfl
                        | some y =>
                          obtain ⟨r2, w, s2⟩ := y
                          cases r2
                          · rfl
                          · simp only [Option.map_some', withoutReported_endWs,
                              withoutReported_i, withoutReported_advance,
                              withoutReported_addInvalid, ihMem]
                            by_cases he3 : s2.detectEndOfInputAfterSkippingWhitespaces.1 = true
                            · simp only [he3, if_true]; rfl
                            · simp only [he3, Bool.false_eq_true, if_false]
                              cases s2.detectEndOfInputAfterSkippingWhitespaces.2.i.rest with
                              | nil => rfl
                              | cons d u2 =>
                                simp only
                                split_ifs <;> rfl

theorem parserParse_withoutReported (o o2 : ParsingOptions) (h : ReportsMore o o2)
    (fuel : Nat) (v : Value) (st : ParserImpl) :
    ParserImpl.parse o2 fuel v (withoutReported o o2 st) =
      (ParserImpl.parse o fuel v st).map (fun x => (x.1, x.2.1, withoutReported o o2 x.2.2)) := by
  unfold ParserImpl.parse
  rw [withoutReported_endWs]
  simp only [(parser_withoutReported o o2 h _).1]
  split_ifs <;> rfl

theorem implParse_withoutReported (o o2 : ParsingOptions) (h : ReportsMore o o2)
    (input : Bytes) :
    impl.parse input o2 = (impl.parse input o).map (ParsingResult.withoutReported o o2) := by
  have key := parserParse_withoutReported o o2 h (3 * input.length + 1) .null
    ⟨⟨0, input⟩, []⟩
  have e0 : withoutReported o o2 ⟨⟨0, input⟩, []⟩ = ⟨⟨0, input⟩, []⟩ := rfl
  rw [e0] at key
  unfold impl.parse
  rw [key]
  cases ParserImpl.parse o (3 * input.length + 1) .null ⟨⟨0, input⟩, []⟩ with
  | none => rfl
  | some x => rfl

theorem parse_withoutReported (o o2 : ParsingOptions) (h : ReportsMore o o2)
    (input : Bytes) (mode : ParsingMode) :
    parse input o2 mode = (parse input o mode).map (ParsingResult.withoutReported o o2) := by
  unfold parse
  rw [implParse_withoutReported o o2 h]
  cases impl.parse input o with
  | none => rfl
  | some r =>
    simp only [Option.map_some']
    have e1 : (ParsingResult.withoutReported o o2 r).status = r.status := rfl
    have e2 : (ParsingResult.withoutReported o o2 r).parsedSize = r.parsedSize := rfl
    rw [e1, e2]
    split_ifs
    · simp only [Option.map_some', ParsingResult.withoutReported, List.filter_append]
      congr 2
    · rfl
    · rfl

theorem parse_isSome (input : Bytes) (o : ParsingOptions) (mode : ParsingMode) :
    ∃ r, parse input o mode = some r := by
  unfold parse
  have := implParse_isSome input o
  cases h : impl.parse input o with
  | none => rw [h] at this; simp at this
  | some r =>
    simp only
    split_ifs <;> exact ⟨_, rfl⟩

/-- C14: with `unpairedUtf16Surrogates = Report`, `parse` returns for every input the same
value, status and `parsedSize` as with the policy `Ignore`, and the issues with the policy
`Ignore` are those with `Report` without the issues of the two codes for unpaired surrogates;
and for a string literal given by its pieces (after whitespace, and whatever follows it) the
issues with `Report` are one issue for each surrogate escape without partner, in the order of
the text, with the code of its kind and the offset of its backslash, while the string holds
for each of them its three bytes or the replacement. -/
theorem parse_report_unpaired_surrogates (o : ParsingOptions)
    (ho : o.unpairedUtf16Surrogates = .Report) (input : Bytes) (mode : ParsingMode)
    (hrep : ValidReplacement (optionsReplacement o))
    (w : Bytes) (hw : ∀ c ∈ w, isWhitespace c) (toks : List Piece)
    (hwf : ∀ t ∈ toks, t.WellFormed .Strict) (s2 : Bytes) :
    (∃ r, parse input o mode = some r ∧
      parse input { o with unpairedUtf16Surrogates := .Ignore } mode =
        some { r with issues := r.issues.filter (fun x =>
          x.code ≠ .StringContainsUnpairedUtf16HighSurrogate ∧
          x.code ≠ .StringContainsUnpairedUtf16LowSurrogate) }) ∧
    (∃ r, parse (w ++ (stringLiteral toks ++ s2)) o .StopAfterValueEnds = some r ∧
      r.status = .Success ∧
      r.value = .string (unescapedPieces (optionsReplacement o) toks) ∧
      r.parsedSize = w.length + (stringLiteral toks).length ∧
      r.issues = unpairedIssues (w.length + 1) toks) := by
  constructor
  · obtain ⟨r, hr⟩ := parse_isSome input o mode
    refine ⟨r, hr, ?_⟩
    have hm : ReportsMore o { o with unpairedUtf16Surrogates := .Ignore } :=
      ⟨rfl, rfl, Or.inl rfl, Or.inr ⟨ho, rfl⟩⟩
    rw [parse_withoutReported o _ hm, hr]
    simp only [Option.map_some', ParsingResult.withoutReported, Option.some.injEq]
    congr 1
    apply List.filter_congr
    intro x _
    simp only [onlyReported, ho]
    cases x.code <;> simp
  · obtain ⟨res, hres, hp⟩ := implParse_stringLiteral o hrep toks hwf w hw s2
    unfold StringResult at hres
    rw [if_neg (by rw [ho]; simp)] at hres
    subst hres
    rw [parse_stop_eq, hp]
    refine ⟨_, rfl, rfl, rfl, ?_, ?_⟩
    · simp [stringLiteral]; omega
    · simp [ho]

/-- C14 at the literal `"\uDC00a\uD800"` after a space: two issues, at the offsets 2 and 9. -/
theorem parse_report_unpaired_surrogates_witness :
    (∃ r, parse [32, 34, 92, 117, 68, 67, 48, 48, 34] { unpairedUtf16Surrogates := .Report }
        .VerifyTrailingWhitespace = some r ∧
      parse [32, 34, 92, 117, 68, 67, 48, 48, 34]
          { ({ unpairedUtf16Surrogates := .Report } : ParsingOptions) with
            unpairedUtf16Surrogates := .Ignore } .VerifyTrailingWhitespace =
        some { r with issues := r.issues.filter (fun x =>
          x.code ≠ .StringContainsUnpairedUtf16HighSurrogate ∧
          x.code ≠ .StringContainsUnpairedUtf16LowSurrogate) }) ∧
    (∃ r, parse ([32] ++ (stringLiteral
          [.unicode 68 67 48 48, .plain 97, .unicode 68 56 48 48] ++ []))
        { unpairedUtf16Surrogates := .Report } .StopAfterValueEnds = some r ∧
      r.status = .Success ∧
      r.value = .string [0xED, 0xB0, 0x80, 97, 0xED, 0xA0, 0x80] ∧
      r.parsedSize = ([32] : Bytes).length +
        (stringLiteral [.unicode 68 67 48 48, .plain 97, .unicode 68 56 48 48]).length ∧
      r.issues = [lowSurrogateIssue 2, highSurrogateIssue 9]) :=
  parse_report_unpaired_surrogates { unpairedUtf16Surrogates := .Report } rfl
    [32, 34, 92, 117, 68, 67, 48, 48, 34] .VerifyTrailingWhitespace
    (by intro r h; simp [optionsReplacement] at h) [32] (by decide!)
    [.unicode 68 67 48 48, .plain 97, .unicode 68 56 48 48] (by decide!) []

theorem runsAs_of_implParse (o : ParsingOptions) (t : Bytes) (v : Value)
    (iss : List ParsingIssue)
    (h : impl.parse t o = some
      { value := v, status := .Success, parsedSize := t.length, issues := iss })
    (hh : ∀ b, t.head? = some b → ¬ isWhitespace b) (s2 : Bytes) (hs2 : InertEnd s2) :
    RunsAs o t s2 v iss := by
  intro p iss0 fuel v0 hf
  have hne := implParse_nonempty t o _ h rfl
  obtain ⟨he, -, hrun⟩ := implParse_inv t o _ h rfl
  have hws := endWs_run (⟨⟨0, t⟩, []⟩ : ParserImpl) [] t rfl (by simp) hh hne
  rw [hws] at hrun
  simp only [List.length_nil, Nat.add_zero, List.drop_length] at hrun
  let F : Frame := ⟨p, [], s2, [], iss0⟩
  have hsim : F.Sim (⟨⟨0, t⟩, []⟩ : ParserImpl) ⟨⟨p, t ++ s2⟩, iss0⟩ :=
    ⟨⟨t, by simp [F], rfl, by simp [F]⟩, [], rfl, by simp [F]⟩
  obtain ⟨st2', e2, ⟨c, hc1, hc2, hc3⟩, new, hn1, hn2⟩ :=
    (parser_local F (Or.inr hs2) o _).1 _ _ _ _ hrun
      ⟨⟨p, t ++ s2⟩, iss0⟩ v0 fuel hsim (by simp [F]) (by simp only [F, List.length_nil]; omega)
  rw [e2]
  simp only [F, List.append_nil, List.nil_append] at hc1 hc2 hc3 hn1 hn2
  obtain ⟨⟨q, r⟩, is2⟩ := st2'
  simp only at hc2 hc3 hn2
  subst hc1 hn1
  rw [hc2, hc3, hn2, Nat.add_comm]
  rfl

theorem keyRunsAs_of_implParse (o : ParsingOptions) (kt k : Bytes) (iss : List ParsingIssue)
    (h : impl.parse kt o = some
      { value := .string k, status := .Success, parsedSize := kt.length, issues := iss })
    (hq : kt.head? = some 34) : KeyRunsAs o kt k iss := by
  refine ⟨hq, ?_⟩
  intro p iss0 s2
  have hne := implParse_nonempty kt o _ h rfl
  obtain ⟨he, -, hrun⟩ := implParse_inv kt o _ h rfl
  have hws := endWs_run (⟨⟨0, kt⟩, []⟩ : ParserImpl) [] kt rfl (by simp)
    (fun b hb => by
      rw [hq] at hb
      obtain rfl := Option.some.inj hb
      decide) hne
  rw [hws] at hrun
  simp only [List.length_nil, Nat.add_zero, List.drop_length] at hrun
  obtain ⟨b, t, rfl⟩ := List.exists_cons_of_ne_nil hne
  simp only [List.head?_cons, Option.some.injEq] at hq
  subst hq
  unfold parseImpl at hrun
  simp only [Byte.val_lit] at hrun
  norm_num at hrun
  cases hp : parseString o [] (⟨⟨0, 34 :: t⟩, []⟩ : ParserImpl) with
  | none => simp [hp] at hrun
  | some x =>
    obtain ⟨r, sk, sf⟩ := x
    simp only [hp, Option.some.injEq, Prod.mk.injEq, Value.string.injEq] at hrun
    obtain ⟨rfl, rfl, rfl⟩ := hrun
    let F : Frame := ⟨p, [], s2, [], iss0⟩
    have hsim : F.Sim (⟨⟨0, 34 :: t⟩, []⟩ : ParserImpl) ⟨⟨p, (34 :: t) ++ s2⟩, iss0⟩ :=
      ⟨⟨34 :: t, by simp [F], rfl, by simp [F]⟩, [], rfl, by simp [F]⟩
    obtain ⟨st2', e2, ⟨c, hc1, hc2, hc3⟩, new, hn1, hn2⟩ :=
      parseString_sim F o [] _ ⟨⟨p, (34 :: t) ++ s2⟩, iss0⟩ _ _ hp hsim (by simp) (by simp [F])
    rw [e2]
    simp only [F, List.append_nil, List.nil_append] at hc1 hc2 hc3 hn1 hn2
    obtain ⟨⟨q, r⟩, is2⟩ := st2'
    simp only at hc2 hc3 hn2
    subst hc1 hn1
    rw [hc2, hc3, hn2, Nat.add_comm]
    rfl

theorem endWs_at (p : Nat) (w X : Bytes) (iss : List ParsingIssue)
    (hw : ∀ b ∈ w, isWhitespace b) (c : Byte) (rest : Bytes) (hX : X = c :: rest)
    (hc : ¬ isWhitespace c) :
    (⟨⟨p, w ++ X⟩, iss⟩ : ParserImpl).detectEndOfInputAfterSkippingWhitespaces =
      (false, ⟨⟨p + w.length, X⟩, iss⟩) := by
  have := endWs_run (⟨⟨p, w ++ X⟩, iss⟩ : ParserImpl) w X rfl hw
    (by intro b hb; rw [hX] at hb; simp at hb; subst hb; exact hc) (by rw [hX]; simp)
  rw [this]

theorem keyRunsAs_cons {o : ParsingOptions} {kt k : Bytes} {ki : List ParsingIssue}
    (h : KeyRunsAs o kt k ki) : ∃ kt', kt = 34 :: kt' := by
  obtain ⟨hq, -⟩ := h
  cases kt with
  | nil => simp at hq
  | cons b t =>
    simp only [List.head?_cons, Option.some.injEq] at hq
    exact ⟨t, by rw [hq]⟩

/-- The loop of `parseObject` at a member whose key the object has already, with the policy
`Fail`: it stops at the first byte after the colon and the whitespace. -/
theorem members_duplicate_fail (o : ParsingOptions) (fuel : Nat) (ob : List (Bytes × Value))
    (p : Nat) (iss0 : List ParsingIssue) (kt k : Bytes) (ki : List ParsingIssue)
    (hk : KeyRunsAs o kt k ki) (w1 w2 : Bytes) (hw1 : ∀ b ∈ w1, isWhitespace b)
    (hw2 : ∀ b ∈ w2, isWhitespace b) (c : Byte) (rest : Bytes) (hc : ¬ isWhitespace c)
    (hdup : (tryEmplace ob k).2 = false) (hfail : o.duplicateObjectKeys = .Fail) :
    parseObjectMembers o (fuel + 1) ob ⟨⟨p, kt ++ (w1 ++ 58 :: (w2 ++ c :: rest))⟩, iss0⟩ =
      some (false, (tryEmplace ob k).1,
        ⟨⟨p + kt.length + w1.length + 1 + w2.length, c :: rest⟩,
          iss0 ++ ki.map (ParsingIssue.shift p) ++ [duplicateKeyIssue p]⟩) := by
  obtain ⟨kt', rfl⟩ := keyRunsAs_cons hk
  have hks := hk.2 p iss0 (w1 ++ 58 :: (w2 ++ c :: rest))
  rw [parseObjectMembers]
  have e34 : ((34 : Byte)).val = 34 := rfl
  simp only [List.cons_append, e34, ne_eq, not_true_eq_false, if_false] at hks ⊢
  rw [hks]
  simp only
  rw [endWs_at _ w1 _ _ hw1 58 _ rfl (by decide)]
  have e58 : ((58 : Byte)).val = 58 := rfl
  simp only [Bool.false_eq_true, if_false, e58, ne_eq, not_true_eq_false]
  have hadv : (⟨⟨p + (34 :: kt').length + w1.length, 58 :: (w2 ++ c :: rest)⟩,
      iss0 ++ ki.map (ParsingIssue.shift p)⟩ : ParserImpl).advance =
      ⟨⟨p + (34 :: kt').length + w1.length + 1, w2 ++ c :: rest⟩,
        iss0 ++ ki.map (ParsingIssue.shift p)⟩ := rfl
  rw [hadv, endWs_at _ w2 _ _ hw2 c rest rfl hc]
  simp only [Bool.false_eq_true, if_false, hdup, Bool.not_false, hfail, ne_eq, reduceCtorEq,
    not_false_eq_true, and_self, if_true]
  rfl

/-- The loop of `parseObject` over one member, up to the byte after the member. -/
theorem members_core (o : ParsingOptions) (fuel : Nat) (ob : List (Bytes × Value))
    (p : Nat) (iss0 : List ParsingIssue) (kt k : Bytes) (ki : List ParsingIssue)
    (hk : KeyRunsAs o kt k ki) (w1 w2 w3 : Bytes) (hw1 : ∀ b ∈ w1, isWhitespace b)
    (hw2 : ∀ b ∈ w2, isWhitespace b) (hw3 : ∀ b ∈ w3, isWhitespace b)
    (vt : Bytes) (v : Value) (vi : List ParsingIssue) (c : Byte) (rest : Bytes)
    (hvh : ∃ b t, vt = b :: t ∧ ¬ isWhitespace b)
    (hv : RunsAs o vt (w3 ++ c :: rest) v vi) (hc : ¬ isWhitespace c)
    (hf : 3 * vt.length + 1 ≤ fuel)
    (hdup : ¬ ((tryEmplace ob k).2 = false ∧ o.duplicateObjectKeys = .Fail)) :
    parseObjectMembers o (fuel + 1) ob
        ⟨⟨p, kt ++ (w1 ++ 58 :: (w2 ++ (vt ++ (w3 ++ c :: rest))))⟩, iss0⟩ =
      if c.val = 125 then
        some (true, Object.assign k v (tryEmplace ob k).1,
          ⟨⟨p + kt.length + w1.length + 1 + w2.length + vt.length + w3.length + 1, rest⟩,
            iss0 ++ memberIssues o p ki (!(tryEmplace ob k).2)
              (p + kt.length + w1.length + 1 + w2.length) vi⟩)
      else if c.val = 44 then
        if (detectEndOfInputAfterSkippingWhitespaces
            ⟨⟨p + kt.length + w1.length + 1 + w2.length + vt.length + w3.length + 1, rest⟩,
              iss0 ++ memberIssues o p ki (!(tryEmplace ob k).2)
                (p + kt.length + w1.length + 1 + w2.length) vi⟩).1 then
          some (false, Object.assign k v (tryEmplace ob k).1,
            (detectEndOfInputAfterSkippingWhitespaces
              ⟨⟨p + kt.length + w1.length + 1 + w2.length + vt.length + w3.length + 1, rest⟩,
                iss0 ++ memberIssues o p ki (!(tryEmplace ob k).2)
                  (p + kt.length + w1.length + 1 + w2.length) vi⟩).2)
        else parseObjectMembers o fuel (Object.assign k v (tryEmplace ob k).1)
          (detectEndOfInputAfterSkippingWhitespaces
            ⟨⟨p + kt.length + w1.length + 1 + w2.length + vt.length + w3.length + 1, rest⟩,
              iss0 ++ memberIssues o p ki (!(tryEmplace ob k).2)
                (p + kt.length + w1.length + 1 + w2.length) vi⟩).2
      else
        some (false, Object.assign k v (tryEmplace ob k).1,
          addInvalidCharacterIssue
            ⟨⟨p + kt.length + w1.length + 1 + w2.length + vt.length + w3.length, c :: rest⟩,
              iss0 ++ memberIssues o p ki (!(tryEmplace ob k).2)
                (p + kt.length + w1.length + 1 + w2.length) vi⟩
            "invalid character, ',' or '\x7d' expected") := by
  obtain ⟨kt', rfl⟩ := keyRunsAs_cons hk
  obtain ⟨vb, vt', hvt, hvb⟩ := hvh
  have hks := hk.2 p iss0 (w1 ++ 58 :: (w2 ++ (vt ++ (w3 ++ c :: rest))))
  rw [parseObjectMembers]
  have e34 : ((34 : Byte)).val = 34 := rfl
  simp only [List.cons_append, e34, ne_eq, not_true_eq_false, if_false] at hks ⊢
  rw [hks]
  simp only
  rw [endWs_at _ w1 _ _ hw1 58 _ rfl (by decide)]
  have e58 : ((58 : Byte)).val = 58 := rfl
  simp only [Bool.false_eq_true, if_false, e58, ne_eq, not_true_eq_false]
  have hadv : (⟨⟨p + (34 :: kt').length + w1.length, 58 :: (w2 ++ (vt ++ (w3 ++ c :: rest)))⟩,
      iss0 ++ ki.map (ParsingIssue.shift p)⟩ : ParserImpl).advance =
      ⟨⟨p + (34 :: kt').length + w1.length + 1, w2 ++ (vt ++ (w3 ++ c :: rest))⟩,
        iss0 ++ ki.map (ParsingIssue.shift p)⟩ := rfl
  rw [hadv, endWs_at _ w2 _ _ hw2 vb (vt' ++ (w3 ++ c :: rest)) (by rw [hvt]; rfl) hvb]
  simp only [Bool.false_eq_true, if_false]
  have hnf : ¬ ((!(tryEmplace ob k).2) = true ∧ o.duplicateObjectKeys = .Fail) := by
    intro h
    exact hdup ⟨by simpa using h.1, h.2⟩
  rw [if_neg hnf]
  have hst : (if (!(tryEmplace ob k).2) = true ∧ o.duplicateObjectKeys ≠ .Ignore then
        addIssueAt ⟨⟨p + (34 :: kt').length + w1.length + 1 + w2.length,
            vt ++ (w3 ++ c :: rest)⟩, iss0 ++ ki.map (ParsingIssue.shift p)⟩ p
          "JSON object contains duplicate keys" .DuplicateKeys
      else ⟨⟨p + (34 :: kt').length + w1.length + 1 + w2.length, vt ++ (w3 ++ c :: rest)⟩,
        iss0 ++ ki.map (ParsingIssue.shift p)⟩) =
      (⟨⟨p + (34 :: kt').length + w1.length + 1 + w2.length, vt ++ (w3 ++ c :: rest)⟩,
        iss0 ++ ki.map (ParsingIssue.shift p) ++
          (if (!(tryEmplace ob k).2) = true ∧ o.duplicateObjectKeys ≠ .Ignore then
            [duplicateKeyIssue p] else [])⟩ : ParserImpl) := by
    split_ifs
    · rfl
    · simp
  rw [hst, hv _ _ fuel _ hf]
  simp only
  rw [endWs_at _ w3 _ _ hw3 c rest rfl hc]
  simp only [Bool.false_eq_true, if_false, memberIssues, List.append_assoc]
  rfl

/-- The loop of `parseArrayMembers<Recursion>` over one member, up to the byte after it. -/
theorem elements_core_recursion (o : ParsingOptions) (fuel : Nat) (a : List Value) (v0 : Value)
    (size : Nat) (p : Nat) (iss0 : List ParsingIssue) (w1 : Bytes)
    (hw1 : ∀ b ∈ w1, isWhitespace b) (t : Bytes) (v : Value) (vi : List ParsingIssue)
    (c : Byte) (rest : Bytes) (hv : RunsAs o t (w1 ++ c :: rest) v vi) (hc : ¬ isWhitespace c)
    (hf : 3 * t.length + 1 ≤ fuel) :
    parseArrayMembersRecursion o (fuel + 1) a v0 size ⟨⟨p, t ++ (w1 ++ c :: rest)⟩, iss0⟩ =
      if c.val = 93 then
        some (true, resize a size, v,
          ⟨⟨p + t.length + w1.length + 1, rest⟩, iss0 ++ vi.map (ParsingIssue.shift p)⟩)
      else if c.val = 44 then
        if (detectEndOfInputAfterSkippingWhitespaces
            ⟨⟨p + t.length + w1.length + 1, rest⟩, iss0 ++ vi.map (ParsingIssue.shift p)⟩).1 then
          some (false, a, v, (detectEndOfInputAfterSkippingWhitespaces
            ⟨⟨p + t.length + w1.length + 1, rest⟩, iss0 ++ vi.map (ParsingIssue.shift p)⟩).2)
        else if size > 42 then
          match parseArrayMembersLoop o fuel (resize a (size + 1))
            (detectEndOfInputAfterSkippingWhitespaces
              ⟨⟨p + t.length + w1.length + 1, rest⟩,
                iss0 ++ vi.map (ParsingIssue.shift p)⟩).2 with
          | none => none
          | some (r, a, st) => some (r, a, v, st)
        else
          match parseArrayMembersRecursion o fuel a .null (size + 1)
            (detectEndOfInputAfterSkippingWhitespaces
              ⟨⟨p + t.length + w1.length + 1, rest⟩,
                iss0 ++ vi.map (ParsingIssue.shift p)⟩).2 with
          | none => none
          | some (true, a, u, st) => some (true, a.set size u, v, st)
          | some (false, a, _, st) => some (false, a, v, st)
      else
        some (false, a, v, addInvalidCharacterIssue
          ⟨⟨p + t.length + w1.length, c :: rest⟩, iss0 ++ vi.map (ParsingIssue.shift p)⟩
          "invalid character, ',' or ']' expected") := by
  rw [parseArrayMembersRecursion, hv _ _ fuel _ hf]
  simp only
  rw [endWs_at _ w1 _ _ hw1 c rest rfl hc]
  simp only [Bool.false_eq_true, if_false]
  rfl

/-- The loop of `parseArrayMembers<Loop>` over one member, up to the byte after it. -/
theorem elements_core_loop (o : ParsingOptions) (fuel : Nat) (a : List Value)
    (p : Nat) (iss0 : List ParsingIssue) (w1 : Bytes)
    (hw1 : ∀ b ∈ w1, isWhitespace b) (t : Bytes) (v : Value) (vi : List ParsingIssue)
    (c : Byte) (rest : Bytes) (hv : RunsAs o t (w1 ++ c :: rest) v vi) (hc : ¬ isWhitespace c)
    (hf : 3 * t.length + 1 ≤ fuel) :
    parseArrayMembersLoop o (fuel + 1) a ⟨⟨p, t ++ (w1 ++ c :: rest)⟩, iss0⟩ =
      if c.val = 93 then
        some (true, a.dropLast ++ [v],
          ⟨⟨p + t.length + w1.length + 1, rest⟩, iss0 ++ vi.map (ParsingIssue.shift p)⟩)
      else if c.val = 44 then
        if (detectEndOfInputAfterSkippingWhitespaces
            ⟨⟨p + t.length + w1.length + 1, rest⟩, iss0 ++ vi.map (ParsingIssue.shift p)⟩).1 then
          some (false, a.dropLast ++ [v], (detectEndOfInputAfterSkippingWhitespaces
            ⟨⟨p + t.length + w1.length + 1, rest⟩, iss0 ++ vi.map (ParsingIssue.shift p)⟩).2)
        else
          parseArrayMembersLoop o fuel (a.dropLast ++ [v] ++ [.null])
            (detectEndOfInputAfterSkippingWhitespaces
              ⟨⟨p + t.length + w1.length + 1, rest⟩,
                iss0 ++ vi.map (ParsingIssue.shift p)⟩).2
      else
        some (false, a.dropLast ++ [v], addInvalidCharacterIssue
          ⟨⟨p + t.length + w1.length, c :: rest⟩, iss0 ++ vi.map (ParsingIssue.shift p)⟩
          "invalid character, ',' or ']' expected") := by
  rw [parseArrayMembersLoop, hv _ _ fuel _ hf]
  simp only
  rw [endWs_at _ w1 _ _ hw1 c rest rfl hc]
  simp only [Bool.false_eq_true, if_false]
  rfl

theorem Element.WellFormed.text_cons {o : ParsingOptions} {e : Element}
    (h : e.WellFormed o) : ∃ b t, e.text = b :: t ∧ ¬ isWhitespace b := by
  obtain ⟨-, -, hvh, iv, hv⟩ := h
  rw [parse_stop_eq] at hv
  obtain ⟨b, t, e⟩ := List.exists_cons_of_ne_nil (implParse_nonempty _ _ _ hv rfl)
  exact ⟨b, t, e, hvh b (by rw [e]; rfl)⟩

theorem Element.WellFormed.runs {o : ParsingOptions} {e : Element}
    (h : e.WellFormed o) (s2 : Bytes) (hs2 : InertEnd s2) :
    RunsAs o e.text s2 e.value (parsedIssues o e.text) := by
  obtain ⟨-, -, hvh, iv, hv⟩ := h
  have hi : parsedIssues o e.text = iv := by
    unfold parsedIssues
    rw [hv]
  rw [hi]
  rw [parse_stop_eq] at hv
  exact runsAs_of_implParse o _ _ _ hv hvh s2 hs2

theorem elementsTail_cons (rest : List Element) (s2 : Bytes) :
    ∃ c r, elementsTail rest ++ s2 = c :: r ∧ (c.val = 93 ∨ c.val = 44) := by
  cases rest with
  | nil => exact ⟨93, s2, rfl, Or.inl rfl⟩
  | cons e r => exact ⟨44, _, rfl, Or.inr rfl⟩

theorem inertEnd_after (w : Bytes) (hw : ∀ b ∈ w, isWhitespace b) (c : Byte) (r : Bytes)
    (hc : c.val = 125 ∨ c.val = 44 ∨ c.val = 93) : InertEnd (w ++ c :: r) := by
  apply inertEnd_of_head
  intro b hb
  cases w with
  | nil =>
    simp only [List.nil_append, List.head?_cons, Option.some.injEq] at hb
    subst hb
    exact Or.inr hc
  | cons x t =>
    simp only [List.cons_append, List.head?_cons, Option.some.injEq] at hb
    subst hb
    exact Or.inl (hw _ (List.mem_cons_self _ _))

/-- The iterative strategy on the members of an array literal: it puts the values, in order,
from the last place of the array on. -/
theorem loop_run (o : ParsingOptions) : ∀ (rest : List Element) (e : Element)
    (a0 : List Value) (x : Value) (p : Nat) (iss0 : List ParsingIssue) (fuel : Nat)
    (s2 : Bytes), e.WellFormed o → (∀ y ∈ rest, y.WellFormed o) →
    3 * (e.text ++ (e.after ++ elementsTail rest)).length + 2 ≤ fuel →
    parseArrayMembersLoop o fuel (a0 ++ [x])
        ⟨⟨p + e.before.length, e.text ++ (e.after ++ (elementsTail rest ++ s2))⟩, iss0⟩ =
      some (true, a0 ++ (e :: rest).map (fun y => y.value),
        ⟨⟨p + (e.before ++ (e.text ++ (e.after ++ elementsTail rest))).length, s2⟩,
          iss0 ++ elementsIssues o p (e :: rest)⟩) := by
  intro rest
  induction rest with
  | nil =>
    intro e a0 x p iss0 fuel s2 he _ hf
    obtain ⟨f, rfl⟩ : ∃ f, fuel = f + 1 := ⟨fuel - 1, by omega⟩
    have hv := he.runs (e.after ++ 93 :: s2) (inertEnd_after _ he.2.1 93 s2 (by decide))
    have e1 : elementsTail [] ++ s2 = 93 :: s2 := rfl
    rw [e1, elements_core_loop o f _ _ _ _ he.2.1 _ _ _ 93 s2 hv (by decide)
      (by simp only [List.length_append] at hf; omega)]
    have e93 : ((93 : Byte)).val = 93 := rfl
    simp only [e93, if_true, List.dropLast_concat, List.map_cons, List.map_nil, elementsIssues,
      List.append_nil, elementsTail, List.length_append, List.length_cons, List.length_nil]
    have hp : p + e.before.length + e.text.length + e.after.length + 1 =
        p + (e.before.length + (e.text.length + (e.after.length + (0 + 1)))) := by omega
    rw [hp]
  | cons e2 r ih =>
    intro e a0 x p iss0 fuel s2 he hr hf
    obtain ⟨f, rfl⟩ : ∃ f, fuel = f + 1 := ⟨fuel - 1, by omega⟩
    have he2 := hr e2 (List.mem_cons_self _ _)
    obtain ⟨b2, t2, ht2, hb2⟩ := he2.text_cons
    have hv := he.runs (e.after ++ 44 :: (e2.before ++ (e2.text ++ (e2.after ++
      (elementsTail r ++ s2))))) (inertEnd_after _ he.2.1 44 _ (by decide))
    have e1 : elementsTail (e2 :: r) ++ s2 =
        44 :: (e2.before ++ (e2.text ++ (e2.after ++ (elementsTail r ++ s2)))) := by
      simp [elementsTail]
    have hlen : (e.text ++ (e.after ++ elementsTail (e2 :: r))).length =
        e.text.length + (e.after.length + (1 + (e2.before.length +
          (e2.text ++ (e2.after ++ elementsTail r)).length))) := by
      simp [elementsTail]
      omega
    rw [e1, elements_core_loop o f _ _ _ _ he.2.1 _ _ _ 44 _ hv (by decide) (by omega)]
    have e44 : ((44 : Byte)).val = 44 := rfl
    have n93 : ¬ ((44 : Byte)).val = 93 := by decide
    rw [if_neg n93, if_pos e44]
    have hx : e2.text ++ (e2.after ++ (elementsTail r ++ s2)) =
        b2 :: (t2 ++ (e2.after ++ (elementsTail r ++ s2))) := by rw [ht2]; rfl
    rw [endWs_at _ e2.before _ _ he2.1 b2 _ hx hb2]
    simp only [Bool.false_eq_true, if_false, List.dropLast_concat]
    rw [ih e2 (a0 ++ [e.value]) .null _ _ f s2 he2
      (fun y hy => hr y (List.mem_cons_of_mem _ hy)) (by omega)]
    simp only [List.map_cons, List.append_assoc, List.singleton_append, elementsIssues,
      elementsTail, List.length_append, List.length_cons]
    have hp : p + e.before.length + e.text.length + e.after.length + 1 +
        (e2.before.length + (e2.text.length + (e2.after.length + (elementsTail r).length))) =
        p + (e.before.length + (e.text.length + (e.after.length + (e2.before.length +
          (e2.text.length + (e2.after.length + (elementsTail r).length)) + 1)))) := by omega
    rw [hp]

theorem set_replicate_null (n : Nat) (u : Value) (l : List Value) :
    (List.replicate (n + 1) Value.null ++ l).set n u = List.replicate n Value.null ++ u :: l := by
  induction n with
  | zero => rfl
  | succ k ih =>
    rw [List.replicate_succ, List.cons_append, List.set_cons_succ, ih]
    rfl

theorem resize_nil (n : Nat) : resize [] n = List.replicate n Value.null := by
  simp [resize]

/-- The recursive strategy on the members of an array literal, which the iterative one takes
over from after the member 43: the array that it leaves has the values of the members after the
first in their places, and the value of the first member is handed back to the caller. -/
theorem recursion_run (o : ParsingOptions) : ∀ (rest : List Element) (e : Element)
    (size : Nat) (v0 : Value) (p : Nat) (iss0 : List ParsingIssue) (fuel : Nat)
    (s2 : Bytes), e.WellFormed o → (∀ y ∈ rest, y.WellFormed o) → size ≤ 43 →
    3 * (e.text ++ (e.after ++ elementsTail rest)).length + 2 ≤ fuel →
    parseArrayMembersRecursion o fuel [] v0 size
        ⟨⟨p + e.before.length, e.text ++ (e.after ++ (elementsTail rest ++ s2))⟩, iss0⟩ =
      some (true, List.replicate size Value.null ++ rest.map (fun y => y.value), e.value,
        ⟨⟨p + (e.before ++ (e.text ++ (e.after ++ elementsTail rest))).length, s2⟩,
          iss0 ++ elementsIssues o p (e :: rest)⟩) := by
  intro rest
  induction rest with
  | nil =>
    intro e size v0 p iss0 fuel s2 he _ _ hf
    obtain ⟨f, rfl⟩ : ∃ f, fuel = f + 1 := ⟨fuel - 1, by omega⟩
    have hv := he.runs (e.after ++ 93 :: s2) (inertEnd_after _ he.2.1 93 s2 (by decide))
    have e1 : elementsTail [] ++ s2 = 93 :: s2 := rfl
    rw [e1, elements_core_recursion o f _ _ _ _ _ _ he.2.1 _ _ _ 93 s2 hv (by decide)
      (by simp only [List.length_append] at hf; omega)]
    have e93 : ((93 : Byte)).val = 93 := rfl
    simp only [e93, if_true, List.map_nil, elementsIssues, resize_nil,
      List.append_nil, elementsTail, List.length_append, List.length_cons, List.length_nil]
    have hp : p + e.before.length + e.text.length + e.after.length + 1 =
        p + (e.before.length + (e.text.length + (e.after.length + (0 + 1)))) := by omega
    rw [hp]
  | cons e2 r ih =>
    intro e size v0 p iss0 fuel s2 he hr hs hf
    obtain ⟨f, rfl⟩ : ∃ f, fuel = f + 1 := ⟨fuel - 1, by omega⟩
    have he2 := hr e2 (List.mem_cons_self _ _)
    obtain ⟨b2, t2, ht2, hb2⟩ := he2.text_cons
    have hv := he.runs (e.after ++ 44 :: (e2.before ++ (e2.text ++ (e2.after ++
      (elementsTail r ++ s2))))) (inertEnd_after _ he.2.1 44 _ (by decide))
    have e1 : elementsTail (e2 :: r) ++ s2 =
        44 :: (e2.before ++ (e2.text ++ (e2.after ++ (elementsTail r ++ s2)))) := by
      simp [elementsTail]
    have hlen : (e.text ++ (e.after ++ elementsTail (e2 :: r))).length =
        e.text.length + (e.after.length + (1 + (e2.before.length +
          (e2.text ++ (e2.after ++ elementsTail r)).length))) := by
      simp [elementsTail]
      omega
    rw [e1, elements_core_recursion o f _ _ _ _ _ _ he.2.1 _ _ _ 44 _ hv (by decide)
      (by omega)]
    have e44 : ((44 : Byte)).val = 44 := rfl
    have n93 : ¬ ((44 : Byte)).val = 93 := by decide
    rw [if_neg n93, if_pos e44]
    have hx : e2.text ++ (e2.after ++ (elementsTail r ++ s2)) =
        b2 :: (t2 ++ (e2.after ++ (elementsTail r ++ s2))) := by rw [ht2]; rfl
    rw [endWs_at _ e2.before _ _ he2.1 b2 _ hx hb2]
    simp only [Bool.false_eq_true, if_false]
    have hp : p + e.before.length + e.text.length + e.after.length + 1 +
        (e2.before.length + (e2.text.length + (e2.after.length + (elementsTail r).length))) =
        p + (e.before.length + (e.text.length + (e.after.length + (e2.before.length +
          (e2.text.length + (e2.after.length + (elementsTail r).length)) + 1)))) := by omega
    by_cases h42 : size > 42
    · rw [if_pos h42, resize_nil, List.replicate_succ',
        loop_run o r e2 (List.replicate size Value.null) .null _ _ f s2 he2
          (fun y hy => hr y (List.mem_cons_of_mem _ hy)) (by omega)]
      simp only [List.map_cons, List.append_assoc, elementsIssues,
        elementsTail, List.length_append, List.length_cons]
      rw [hp]
    · rw [if_neg h42, ih e2 (size + 1) .null _ _ f s2 he2
        (fun y hy => hr y (List.mem_cons_of_mem _ hy)) (by omega) (by omega)]
      simp only [List.map_cons, List.append_assoc, elementsIssues, set_replicate_null,
        elementsTail, List.length_append, List.length_cons]
      rw [hp]

/-- The member `parseImpl` at a closing bracket or brace: it is no value. -/
theorem parseImpl_closer (o : ParsingOptions) (fuel : Nat) (v : Value) (p : Nat) (b : Byte)
    (t : Bytes) (iss : List ParsingIssue) (hb : b.val = 93 ∨ b.val = 125) :
    parseImpl o (fuel + 1) v ⟨⟨p, b :: t⟩, iss⟩ =
      some (false, v, addInvalidCharacterIssue ⟨⟨p, b :: t⟩, iss⟩) := by
  rcases hb with hb | hb
  · rw [parseImpl]
    simp only [hb]
    norm_num
    unfold parseNumber
    simp only [hb]
    norm_num
    unfold parseNumberBody parseNumberInteger
    simp only [hb]
    norm_num
  · rw [parseImpl]
    simp only [hb]
    norm_num
    unfold parseNumber
    simp only [hb]
    norm_num
    unfold parseNumberBody parseNumberInteger
    simp only [hb]
    norm_num

theorem runsAs_head {o : ParsingOptions} {t s2 : Bytes} {v : Value} {iss : List ParsingIssue}
    (h : RunsAs o t s2 v iss) (b : Byte) (t2 : Bytes) (ht : t = b :: t2) :
    b.val ≠ 93 ∧ b.val ≠ 125 := by
  have h1 := h 0 [] (3 * t.length + 1) .null (Nat.le_refl _)
  subst ht
  by_contra hc
  rw [List.cons_append, parseImpl_closer o _ _ _ _ _ _ (by omega)] at h1
  simp at h1

/-- The member `parseImpl` on an array literal given by its members. -/
theorem array_run (o : ParsingOptions) (e : Element) (rest : List Element)
    (hwf : ∀ x ∈ e :: rest, x.WellFormed o) (p : Nat) (iss0 : List ParsingIssue) (fuel : Nat)
    (v0 : Value) (s2 : Bytes) (hf : 3 * (arrayText e rest).length + 1 ≤ fuel) :
    parseImpl o fuel v0 ⟨⟨p, arrayText e rest ++ s2⟩, iss0⟩ =
      some (true, .array ((e :: rest).map (fun y => y.value)),
        ⟨⟨p + (arrayText e rest).length, s2⟩, iss0 ++ elementsIssues o (p + 1) (e :: rest)⟩) := by
  have he := hwf e (List.mem_cons_self _ _)
  have hr : ∀ y ∈ rest, y.WellFormed o := fun y hy => hwf y (List.mem_cons_of_mem _ hy)
  obtain ⟨b, t, ht, hb⟩ := he.text_cons
  obtain ⟨c, r, hcr, hc⟩ := elementsTail_cons rest s2
  have hv := he.runs (e.after ++ (elementsTail rest ++ s2)) (by
    rw [hcr]
    exact inertEnd_after _ he.2.1 c r (by omega))
  have hb93 := (runsAs_head hv b t ht).1
  have hlen : (arrayText e rest).length =
      1 + (e.before.length + (e.text ++ (e.after ++ elementsTail rest)).length) := by
    simp [arrayText]
    omega
  obtain ⟨f, rfl⟩ : ∃ f, fuel = f + 2 := ⟨fuel - 2, by omega⟩
  have e0 : arrayText e rest ++ s2 =
      91 :: (e.before ++ (e.text ++ (e.after ++ (elementsTail rest ++ s2)))) := by
    simp [arrayText]
  have e91 : ((91 : Byte)).val = 91 := rfl
  rw [e0, parseImpl]
  simp only [e91]
  rw [if_neg (by omega), if_neg (by omega), if_neg (by omega), if_neg (by omega),
    if_pos trivial, parseArray]
  have hadv : (⟨⟨p, 91 :: (e.before ++ (e.text ++ (e.after ++ (elementsTail rest ++ s2))))⟩,
      iss0⟩ : ParserImpl).advance =
      ⟨⟨p + 1, e.before ++ (e.text ++ (e.after ++ (elementsTail rest ++ s2)))⟩, iss0⟩ := rfl
  have hx : e.text ++ (e.after ++ (elementsTail rest ++ s2)) =
      b :: (t ++ (e.after ++ (elementsTail rest ++ s2))) := by rw [ht]; rfl
  rw [hadv, endWs_at _ e.before _ _ he.1 b _ hx hb]
  simp only [Bool.false_eq_true, if_false]
  rw [hx]
  simp only
  rw [if_neg hb93, ← hx, recursion_run o rest e 1 .null (p + 1) iss0 f s2 he hr (by omega)
    (by omega)]
  simp only [List.map_cons, hlen, List.length_append]
  have hp : p + 1 + (e.before.length + (e.text.length +
      (e.after.length + (elementsTail rest).length))) =
      p + (1 + (e.before.length + (e.text.length +
        (e.after.length + (elementsTail rest).length)))) := by omega
  rw [hp]
  rfl

/-- The function `impl::parse` from the run of `parseImpl` after the leading whitespace. -/
theorem implParse_of_run (o : ParsingOptions) (w Y : Bytes) (hw : ∀ b ∈ w, isWhitespace b)
    (b : Byte) (t : Bytes) (hY : Y = b :: t) (hb : ¬ isWhitespace b) (r : Bool) (v : Value)
    (st' : ParserImpl)
    (h : parseImpl o (3 * (w ++ Y).length + 1) .null ⟨⟨0 + w.length, Y⟩, []⟩ = some (r, v, st')) :
    impl.parse (w ++ Y) o = some
      { value := v, status := if r then .Success else .Failure, parsedSize := st'.i.pos,
        issues := st'.issues } := by
  unfold impl.parse ParserImpl.parse
  simp only
  rw [endWs_at 0 w Y [] hw b t hY hb]
  simp only [Bool.false_eq_true, if_false]
  rw [h]
  rfl

/-- The function `impl::parse` on an array literal given by its members. -/
theorem implParse_arrayText (o : ParsingOptions) (e : Element) (rest : List Element)
    (hwf : ∀ x ∈ e :: rest, x.WellFormed o) :
    impl.parse (arrayText e rest) o = some
      { value := .array ((e :: rest).map (fun y => y.value))
        status := .Success
        parsedSize := (arrayText e rest).length
        issues := elementsIssues o 1 (e :: rest) } := by
  have h := array_run o e rest hwf (0 + ([] : Bytes).length) [] (3 * ([] ++ arrayText e rest).length + 1)
    .null [] (by simp)
  rw [List.append_nil] at h
  have h2 := implParse_of_run o [] (arrayText e rest) (by simp) 91 _ rfl (by decide) _ _ _ h
  simp only [List.nil_append, List.length_nil, Nat.add_zero, Nat.zero_add, if_true] at h2
  rw [h2]

theorem nestedArrayText_succ (d : Nat) :
    nestedArrayText (d + 1) = arrayText ⟨[], nestedArrayText d, nestedArray d, []⟩ [] := by
  unfold nestedArrayText arrayText elementsTail
  simp only [List.nil_append, List.replicate_succ (n := d + 1) (a := (91 : Byte)),
    List.replicate_succ' (n := d + 1) (a := (93 : Byte)), List.cons_append, List.append_assoc]

theorem implParse_nestedArrayText (o : ParsingOptions) (d : Nat) :
    impl.parse (nestedArrayText d) o = some
      { value := nestedArray d, status := .Success, parsedSize := 2 * (d + 1), issues := [] } := by
  induction d with
  | zero => rfl
  | succ d ih =>
    have hlen : ∀ k, (nestedArrayText k).length = 2 * (k + 1) := by
      intro k
      simp [nestedArrayText]
      omega
    have hwf : ∀ x ∈ [(⟨[], nestedArrayText d, nestedArray d, []⟩ : Element)],
        x.WellFormed o := by
      intro x hx
      simp only [List.mem_singleton] at hx
      subst hx
      refine ⟨by simp, by simp, fun b hb => ?_, [], ?_⟩
      · simp only [nestedArrayText, List.replicate_succ, List.cons_append, List.head?_cons,
          Option.some.injEq] at hb
        subst hb
        decide
      · rw [parse_stop_eq, ih, hlen]
    have h := implParse_arrayText o _ [] hwf
    rw [← nestedArrayText_succ] at h
    rw [h, hlen]
    simp only [List.map_cons, List.map_nil, elementsIssues, parsedIssues, parse_stop_eq, ih,
      List.map_nil, List.append_nil]
    rfl

/-- C16: for all options and both modes, the array literal written from the members
`e :: rest` (one or more texts that each parse alone as a value, with any whitespace before and
after each) parses with `Success` to the array of the values of the members, in their order,
with `parsedSize` the length of the literal and the issues of the members as the issues.  No
bound on the number of members is assumed, so this is the result of the recursive strategy
(which `parseArray` starts with, and which places up to 43 members) as well as of the iterative
strategy that it hands over to; and the iterative strategy, run from the first member on,
leaves the same array, cursor and issues. -/
theorem parse_array_members (o : ParsingOptions) (mode : ParsingMode) (e : Element)
    (rest : List Element) (hwf : ∀ x ∈ e :: rest, x.WellFormed o) :
    parse (arrayText e rest) o mode = some
      { value := .array ((e :: rest).map (fun y => y.value))
        status := .Success
        parsedSize := (arrayText e rest).length
        issues := elementsIssues o 1 (e :: rest) } ∧
    ∀ fuel, 3 * (arrayText e rest).length ≤ fuel →
      parseArrayMembersLoop o fuel [.null]
          ⟨⟨1 + e.before.length, e.text ++ (e.after ++ elementsTail rest)⟩, []⟩ =
        some (true, (e :: rest).map (fun y => y.value),
          ⟨⟨(arrayText e rest).length, []⟩, elementsIssues o 1 (e :: rest)⟩) := by
  refine ⟨parse_of_implParse_all _ o mode _ (implParse_arrayText o e rest hwf) rfl (by simp), ?_⟩
  intro fuel hf
  have h := loop_run o rest e [] .null 1 [] fuel [] (hwf e (List.mem_cons_self _ _))
    (fun y hy => hwf y (List.mem_cons_of_mem _ hy)) (by
      simp only [arrayText, List.length_cons, List.length_append] at hf ⊢
      omega)
  simp only [List.append_nil, List.nil_append] at h
  rw [h]
  simp only [arrayText, List.length_cons, List.length_append, Nat.add_comm 1]

/-- C16 at the array literal of 45 members `[1, 2, 2, ..., 2]`, which the recursive strategy
starts and the iterative strategy ends. -/
theorem parse_array_members_witness :
    parse (arrayText ⟨[], [49], .int64 ⟨1, by decide⟩, []⟩
        (List.replicate 44 ⟨[32], [50], .int64 ⟨2, by decide⟩, []⟩)) {}
        .VerifyTrailingWhitespace = some
      { value := .array (.int64 ⟨1, by decide⟩ :: List.replicate 44 (.int64 ⟨2, by decide⟩))
        status := .Success
        parsedSize := 135
        issues := [] } := by
  have hwf : ∀ x ∈ (⟨[], [49], .int64 ⟨1, by decide⟩, []⟩ : Element) ::
      List.replicate 44 ⟨[32], [50], .int64 ⟨2, by decide⟩, []⟩, x.WellFormed {} := by
    intro x hx
    rcases List.mem_cons.mp hx with rfl | hx
    · exact ⟨by simp, by simp, fun b hb => by simp at hb; subst hb; decide, [], by decide!⟩
    · obtain rfl := List.eq_of_mem_replicate hx
      exact ⟨fun b hb => by simp at hb; subst hb; decide, by simp,
        fun b hb => by simp at hb; subst hb; decide, [], by decide!⟩
  have h := (parse_array_members {} .VerifyTrailingWhitespace _ _ hwf).1
  rw [h]
  decide!

/-- C17: for every `d`, all options and both modes, the input of `d + 1` bytes `[` followed by
`d + 1` bytes `]` parses with `Success`, no issue and `parsedSize = 2 * (d + 1)`, to the array
nested `d + 1` levels deep, each level of which holds exactly one array and the innermost of
which is empty: the parser has no maximum depth of nesting. -/
theorem parse_nested_arrays (d : Nat) (o : ParsingOptions) (mode : ParsingMode) :
    parse (List.replicate (d + 1) 91 ++ List.replicate (d + 1) 93) o mode = some
      { value := nestedArray d, status := .Success, parsedSize := 2 * (d + 1), issues := [] } := by
  have h := implParse_nestedArrayText o d
  have hlen : (nestedArrayText d).length = 2 * (d + 1) := by
    simp [nestedArrayText]
    omega
  exact parse_of_implParse_all (nestedArrayText d) o mode _ h hlen.symm (by simp)

theorem tryEmplace_flag (ob : List (Bytes × Value)) (k : Bytes) :
    (tryEmplace ob k).2 = !(Object.find k ob).isSome := by
  unfold tryEmplace
  cases Object.find k ob <;> rfl

theorem KeysOf.flag {ob : List (Bytes × Value)} {seen : List Bytes} (h : KeysOf ob seen)
    (k : Bytes) : (!(tryEmplace ob k).2) = decide (k ∈ seen) := by
  rw [tryEmplace_flag, Bool.not_not]
  by_cases hk : k ∈ seen
  · simp [hk, (h k).mpr hk]
  · have : ¬ (Object.find k ob).isSome = true := fun hh => hk ((h k).mp hh)
    simp [hk, this]

theorem KeysOf.insert {ob : List (Bytes × Value)} {seen : List Bytes} (h : KeysOf ob seen)
    (k : Bytes) (v : Value) : KeysOf (Object.assign k v (tryEmplace ob k).1) (k :: seen) := by
  intro k2
  have e := find_insertMember k2 ob ⟨[], [], k, [], [], [], v, []⟩
  unfold insertMember at e
  simp only at e
  rw [e, List.mem_cons]
  by_cases hk : k = k2
  · simp [hk]
  · rw [if_neg hk, h k2]
    constructor
    · exact fun hh => Or.inr hh
    · rintro (hh | hh)
      · exact absurd hh.symm hk
      · exact hh

theorem keysOf_nil : KeysOf [] [] := by
  intro k
  simp [Object.find]

theorem Member.WellFormed.keyRuns {o : ParsingOptions} {m : Member} (h : m.WellFormed o) :
    KeyRunsAs o m.keyText m.key (parsedIssues o m.keyText) := by
  obtain ⟨-, -, -, -, hq, -, ⟨ik, hk⟩, -⟩ := h
  have hi : parsedIssues o m.keyText = ik := by
    unfold parsedIssues
    rw [hk]
  rw [hi]
  rw [parse_stop_eq] at hk
  exact keyRunsAs_of_implParse o _ _ _ hk hq

theorem Member.WellFormed.valueRuns {o : ParsingOptions} {m : Member} (h : m.WellFormed o)
    (s2 : Bytes) (hs2 : InertEnd s2) :
    RunsAs o m.valueText s2 m.value (parsedIssues o m.valueText) := by
  obtain ⟨-, -, -, -, -, hvh, -, ⟨iv, hv⟩⟩ := h
  have hi : parsedIssues o m.valueText = iv := by
    unfold parsedIssues
    rw [hv]
  rw [hi]
  rw [parse_stop_eq] at hv
  exact runsAs_of_implParse o _ _ _ hv hvh s2 hs2

theorem membersTail_cons (rest : List Member) (s2 : Bytes) :
    ∃ c r, membersTail rest ++ s2 = c :: r ∧ (c.val = 125 ∨ c.val = 44) := by
  cases rest with
  | nil => exact ⟨125, s2, rfl, Or.inl rfl⟩
  | cons e r => exact ⟨44, _, rfl, Or.inr rfl⟩

/-- The loop of `parseObject` on the members of an object literal, with the issues.  With the
policy `Fail`, no key is there twice. -/
theorem members_run_issues (o : ParsingOptions) : ∀ (rest : List Member) (m : Member)
    (ob : List (Bytes × Value)) (seen : List Bytes) (p : Nat) (iss0 : List ParsingIssue)
    (fuel : Nat) (s2 : Bytes), m.WellFormed o → (∀ y ∈ rest, y.WellFormed o) →
    KeysOf ob seen →
    (o.duplicateObjectKeys = .Fail →
      ((m :: rest).map (fun y => y.key)).Nodup ∧ ∀ y ∈ m :: rest, y.key ∉ seen) →
    3 * (m.body ++ membersTail rest).length + 2 ≤ fuel →
    parseObjectMembers o fuel ob
        ⟨⟨p + m.before.length, m.body ++ (membersTail rest ++ s2)⟩, iss0⟩ =
      some (true, (m :: rest).foldl insertMember ob,
        ⟨⟨p + (m.before ++ (m.body ++ membersTail rest)).length, s2⟩,
          iss0 ++ membersIssues o p seen (m :: rest)⟩) := by
  intro rest
  induction rest with
  | nil =>
    intro m ob seen p iss0 fuel s2 hm _ hkeys hnd hf
    obtain ⟨f, rfl⟩ : ∃ f, fuel = f + 1 := ⟨fuel - 1, by omega⟩
    have hv := hm.valueRuns (m.afterValue ++ 125 :: s2)
      (inertEnd_after _ hm.2.2.2.1 125 s2 (by decide))
    have hlen : (m.body ++ membersTail []).length = m.keyText.length + (m.afterKey.length +
        (1 + (m.beforeValue.length + (m.valueText.length + (m.afterValue.length + 1))))) := by
      simp [Member.body, membersTail]
      omega
    have e1 : m.body ++ (membersTail [] ++ s2) = m.keyText ++ (m.afterKey ++ 58 ::
        (m.beforeValue ++ (m.valueText ++ (m.afterValue ++ 125 :: s2)))) := by
      simp [Member.body, membersTail]
    have hdup : ¬ ((tryEmplace ob m.key).2 = false ∧ o.duplicateObjectKeys = .Fail) := by
      rintro ⟨h1, h2⟩
      have := hkeys.flag m.key
      rw [h1] at this
      have hn := (hnd h2).2 m (List.mem_cons_self _ _)
      simp [hn] at this
    rw [e1, members_core o f ob _ iss0 _ _ _ hm.keyRuns _ _ _ hm.2.1 hm.2.2.1 hm.2.2.2.1
      _ _ _ 125 s2 hm.valueText_cons hv (by decide) (by omega) hdup]
    have e125 : ((125 : Byte)).val = 125 := rfl
    rw [if_pos e125, hkeys.flag]
    simp only [membersIssues, List.append_nil, List.foldl_cons, List.foldl_nil, insertMember,
      List.length_append, hlen]
    have hp : p + m.before.length + m.keyText.length + m.afterKey.length + 1 +
        m.beforeValue.length + m.valueText.length + m.afterValue.length + 1 =
        p + (m.before.length + (m.keyText.length + (m.afterKey.length + (1 +
          (m.beforeValue.length + (m.valueText.length + (m.afterValue.length + 1))))))) := by
      omega
    rw [hp]
  | cons m2 r ih =>
    intro m ob seen p iss0 fuel s2 hm hr hkeys hnd hf
    obtain ⟨f, rfl⟩ : ∃ f, fuel = f + 1 := ⟨fuel - 1, by omega⟩
    have hm2 := hr m2 (List.mem_cons_self _ _)
    obtain ⟨kt2, hkt2⟩ := hm2.keyText_cons
    have hv := hm.valueRuns (m.afterValue ++ 44 :: (m2.before ++ (m2.body ++
      (membersTail r ++ s2)))) (inertEnd_after _ hm.2.2.2.1 44 _ (by decide))
    have hlen : (m.body ++ membersTail (m2 :: r)).length = m.keyText.length +
        (m.afterKey.length + (1 + (m.beforeValue.length + (m.valueText.length +
          (m.afterValue.length + (1 + (m2.before.length +
            (m2.body ++ membersTail r).length))))))) := by
      simp [Member.body, membersTail]
      omega
    have e1 : m.body ++ (membersTail (m2 :: r) ++ s2) = m.keyText ++ (m.afterKey ++ 58 ::
        (m.beforeValue ++ (m.valueText ++ (m.afterValue ++ 44 ::
          (m2.before ++ (m2.body ++ (membersTail r ++ s2))))))) := by
      simp [Member.body, membersTail]
    have hdup : ¬ ((tryEmplace ob m.key).2 = false ∧ o.duplicateObjectKeys = .Fail) := by
      rintro ⟨h1, h2⟩
      have := hkeys.flag m.key
      rw [h1] at this
      have hn := (hnd h2).2 m (List.mem_cons_self _ _)
      simp [hn] at this
    rw [e1, members_core o f ob _ iss0 _ _ _ hm.keyRuns _ _ _ hm.2.1 hm.2.2.1 hm.2.2.2.1
      _ _ _ 44 _ hm.valueText_cons hv (by decide) (by omega) hdup]
    have e44 : ((44 : Byte)).val = 44 := rfl
    have n125 : ¬ ((44 : Byte)).val = 125 := by decide
    rw [if_neg n125, if_pos e44, hkeys.flag]
    have hx : m2.body ++ (membersTail r ++ s2) = 34 :: (kt2 ++ (m2.afterKey ++ 58 ::
        (m2.beforeValue ++ (m2.valueText ++ m2.afterValue))) ++ (membersTail r ++ s2)) := by
      rw [Member.body, hkt2]
      simp
    rw [endWs_at _ m2.before _ _ hm2.1 34 _ hx (by decide)]
    simp only [Bool.false_eq_true, if_false]
    have hq : p + m.before.length + m.keyText.length + m.afterKey.length + 1 +
        m.beforeValue.length + m.valueText.length + m.afterValue.length + 1 =
        p + m.before.length + m.body.length + 1 := by
      simp [Member.body]
      omega
    rw [hq, ih m2 _ (m.key :: seen) _ _ f s2 hm2
      (fun y hy => hr y (List.mem_cons_of_mem _ hy)) (hkeys.insert m.key m.value) (by
        intro hF
        obtain ⟨h1, h2⟩ := hnd hF
        rw [List.map_cons, List.nodup_cons] at h1
        refine ⟨h1.2, fun y hy => ?_⟩
        rw [List.mem_cons, not_or]
        refine ⟨fun hh => h1.1 ?_, h2 y (List.mem_cons_of_mem _ hy)⟩
        rw [← hh]
        exact List.mem_map_of_mem _ hy) (by omega)]
    simp only [membersIssues, List.foldl_cons, insertMember, List.append_assoc,
      List.length_append, membersTail, List.length_cons]
    have hp : p + m.before.length + m.body.length + 1 + (m2.before.length +
        (m2.body.length + (membersTail r).length)) =
        p + (m.before.length + (m.body.length + (m2.before.length +
          (m2.body.length + (membersTail r).length) + 1))) := by omega
    rw [hp]

/-- The member `parseImpl` on an object literal given by its members. -/
theorem object_run (o : ParsingOptions) (m : Member) (rest : List Member)
    (hwf : ∀ x ∈ m :: rest, x.WellFormed o)
    (hnd : o.duplicateObjectKeys = .Fail → ((m :: rest).map (fun y => y.key)).Nodup)
    (p : Nat) (iss0 : List ParsingIssue) (fuel : Nat)
    (v0 : Value) (s2 : Bytes) (hf : 3 * (objectText m rest).length + 1 ≤ fuel) :
    parseImpl o fuel v0 ⟨⟨p, objectText m rest ++ s2⟩, iss0⟩ =
      some (true, .object ((m :: rest).foldl insertMember []),
        ⟨⟨p + (objectText m rest).length, s2⟩,
          iss0 ++ membersIssues o (p + 1) [] (m :: rest)⟩) := by
  have hm := hwf m (List.mem_cons_self _ _)
  have hr : ∀ y ∈ rest, y.WellFormed o := fun y hy => hwf y (List.mem_cons_of_mem _ hy)
  obtain ⟨kt, hkt⟩ := hm.keyText_cons
  have hlen : (objectText m rest).length =
      1 + (m.before.length + (m.body ++ membersTail rest).length) := by
    simp [objectText]
    omega
  obtain ⟨f, rfl⟩ : ∃ f, fuel = f + 2 := ⟨fuel - 2, by omega⟩
  have e0 : objectText m rest ++ s2 =
      123 :: (m.before ++ (m.body ++ (membersTail rest ++ s2))) := by
    simp [objectText]
  have e123 : ((123 : Byte)).val = 123 := rfl
  rw [e0, parseImpl]
  simp only [e123]
  rw [if_neg (by omega), if_neg (by omega), if_neg (by omega), if_neg (by omega),
    if_neg (by omega), if_pos trivial, parseObject]
  have hadv : (⟨⟨p, 123 :: (m.before ++ (m.body ++ (membersTail rest ++ s2)))⟩,
      iss0⟩ : ParserImpl).advance =
      ⟨⟨p + 1, m.before ++ (m.body ++ (membersTail rest ++ s2))⟩, iss0⟩ := rfl
  have hx : m.body ++ (membersTail rest ++ s2) = 34 :: (kt ++ (m.afterKey ++ 58 ::
      (m.beforeValue ++ (m.valueText ++ m.afterValue))) ++ (membersTail rest ++ s2)) := by
    rw [Member.body, hkt]
    simp
  rw [hadv, endWs_at _ m.before _ _ hm.1 34 _ hx (by decide)]
  simp only [Bool.false_eq_true, if_false]
  rw [hx]
  simp only
  have e34 : ¬ ((34 : Byte)).val = 125 := by decide
  rw [if_neg e34, ← hx, members_run_issues o rest m [] [] (p + 1) iss0 f s2 hm hr keysOf_nil
    (fun hF => ⟨hnd hF, fun y _ => List.not_mem_nil _⟩) (by omega)]
  simp only [hlen, List.length_append]
  have hp : p + 1 + (m.before.length + (m.body.length + (membersTail rest).length)) =
      p + (1 + (m.before.length + (m.body.length + (membersTail rest).length))) := by omega
  rw [hp]

/-- The function `impl::parse` on an object literal given by its members, with the issues. -/
theorem implParse_objectText_issues (o : ParsingOptions) (m : Member) (rest : List Member)
    (hwf : ∀ x ∈ m :: rest, x.WellFormed o)
    (hnd : o.duplicateObjectKeys = .Fail → ((m :: rest).map (fun y => y.key)).Nodup) :
    impl.parse (objectText m rest) o = some
      { value := .object ((m :: rest).foldl insertMember [])
        status := .Success
        parsedSize := (objectText m rest).length
        issues := membersIssues o 1 [] (m :: rest) } := by
  have h := object_run o m rest hwf hnd (0 + ([] : Bytes).length) []
    (3 * ([] ++ objectText m rest).length + 1) .null [] (by simp)
  rw [List.append_nil] at h
  have h2 := implParse_of_run o [] (objectText m rest) (by simp) 123 _ rfl (by decide) _ _ _ h
  simp only [List.nil_append, List.length_nil, Nat.add_zero, Nat.zero_add, if_true] at h2
  rw [h2]

/-- C12: with `duplicateObjectKeys = Report`, `parse` returns for every input the same value,
status and `parsedSize` as with the policy `Ignore`, and the issues with the policy `Ignore`
are those with `Report` without the issues of code `DuplicateKeys`; and for an object literal
given by its members, `parse` returns `Success` with `parsedSize` the length of the literal,
and the issues are, member after member in the order of the input, the issues of the key, one
issue `DuplicateKeys` at the offset of the opening quotation mark of the key if the key is the
key of a member before it in this object, and the issues of the value. -/
theorem parse_report_duplicate_keys (o : ParsingOptions)
    (ho : o.duplicateObjectKeys = .Report) (input : Bytes) (mode : ParsingMode)
    (m : Member) (rest : List Member) (hwf : ∀ x ∈ m :: rest, x.WellFormed o) :
    (∃ r, parse input o mode = some r ∧
      parse input { o with duplicateObjectKeys := .Ignore } mode =
        some { r with issues := r.issues.filter (fun x => x.code ≠ .DuplicateKeys) }) ∧
    parse (objectText m rest) o mode = some
      { value := .object ((m :: rest).foldl insertMember [])
        status := .Success
        parsedSize := (objectText m rest).length
        issues := membersIssues o 1 [] (m :: rest) } := by
  constructor
  · obtain ⟨r, hr⟩ := parse_isSome input o mode
    refine ⟨r, hr, ?_⟩
    have hm : ReportsMore o { o with duplicateObjectKeys := .Ignore } :=
      ⟨rfl, rfl, Or.inr ⟨ho, rfl⟩, Or.inl rfl⟩
    rw [parse_withoutReported o _ hm, hr]
    simp only [Option.map_some', ParsingResult.withoutReported, Option.some.injEq]
    congr 1
    apply List.filter_congr
    intro x _
    simp only [onlyReported, ho]
    cases x.code <;> simp
  · exact parse_of_implParse_all _ o mode _
      (implParse_objectText_issues o m rest hwf (fun hF => by rw [ho] at hF; cases hF)) rfl
      (by simp)

/-- C12 at the literal `{"a":1,"b":2,"a":3,"a":4}`: the issues are two issues `DuplicateKeys`,
at the offsets 13 and 19 of the second and the third key `"a"`. -/
theorem parse_report_duplicate_keys_witness :
    (∃ r, parse [123, 34, 97, 34, 58, 49, 44, 34, 97, 34, 58, 50, 125]
        { duplicateObjectKeys := .Report } .VerifyTrailingWhitespace = some r ∧
      parse [123, 34, 97, 34, 58, 49, 44, 34, 97, 34, 58, 50, 125]
          { ({ duplicateObjectKeys := .Report } : ParsingOptions) with
            duplicateObjectKeys := .Ignore } .VerifyTrailingWhitespace =
        some { r with issues := r.issues.filter (fun x => x.code ≠ .DuplicateKeys) }) ∧
    parse (objectText ⟨[], [34, 97, 34], [97], [], [], [49], .int64 ⟨1, by decide⟩, []⟩
        [⟨[], [34, 98, 34], [98], [], [], [50], .int64 ⟨2, by decide⟩, []⟩,
          ⟨[], [34, 97, 34], [97], [], [], [51], .int64 ⟨3, by decide⟩, []⟩,
          ⟨[], [34, 97, 34], [97], [], [], [52], .int64 ⟨4, by decide⟩, []⟩])
      { duplicateObjectKeys := .Report } .VerifyTrailingWhitespace = some
      { value := .object [([97], .int64 ⟨4, by decide⟩), ([98], .int64 ⟨2, by decide⟩)]
        status := .Success
        parsedSize := 25
        issues := [duplicateKeyIssue 13, duplicateKeyIssue 19] } := by
  have h := parse_report_duplicate_keys { duplicateObjectKeys := .Report } rfl
    [123, 34, 97, 34, 58, 49, 44, 34, 97, 34, 58, 50, 125] .VerifyTrailingWhitespace
    ⟨[], [34, 97, 34], [97], [], [], [49], .int64 ⟨1, by decide⟩, []⟩
    [⟨[], [34, 98, 34], [98], [], [], [50], .int64 ⟨2, by decide⟩, []⟩,
      ⟨[], [34, 97, 34], [97], [], [], [51], .int64 ⟨3, by decide⟩, []⟩,
      ⟨[], [34, 97, 34], [97], [], [], [52], .int64 ⟨4, by decide⟩, []⟩]
    (by
      intro x hx
      simp only [List.mem_cons, List.mem_singleton, List.not_mem_nil, or_false] at hx
      rcases hx with rfl | rfl | rfl | rfl <;>
        exact ⟨by simp, by simp, by simp, by simp, rfl,
          fun b hb => by simp at hb; subst hb; decide, ⟨[], by decide!⟩, ⟨[], by decide!⟩⟩)
  refine ⟨h.1, ?_⟩
  rw [h.2]
  decide!

theorem ValueText.runsAs {o : ParsingOptions} {t : Bytes} (h : ValueText o t) (s2 : Bytes)
    (hs2 : InertEnd s2) : ∃ v vi, RunsAs o t s2 v vi := by
  obtain ⟨hh, v, iss, hv⟩ := h
  rw [parse_stop_eq] at hv
  exact ⟨v, iss, runsAs_of_implParse o _ _ _ hv hh s2 hs2⟩

theorem ValueText.opensValue {o : ParsingOptions} {t : Bytes} (h : ValueText o t) (s : Bytes) :
    Opens (t ++ s) := by
  obtain ⟨v, vi, hr⟩ := h.runsAs [] (by intro b hb; simp at hb)
  obtain ⟨hh, v2, iss, hv⟩ := h
  rw [parse_stop_eq] at hv
  obtain ⟨b, t2, e⟩ := List.exists_cons_of_ne_nil (implParse_nonempty _ _ _ hv rfl)
  have := runsAs_head hr b t2 e
  exact ⟨b, t2 ++ s, by rw [e]; rfl, hh b (by rw [e]; rfl), this.1, this.2⟩

theorem KeyText.keyRunsAs {o : ParsingOptions} {t k : Bytes} (h : KeyText o t k) :
    ∃ ki, KeyRunsAs o t k ki := by
  obtain ⟨hq, iss, hv⟩ := h
  rw [parse_stop_eq] at hv
  exact ⟨iss, keyRunsAs_of_implParse o _ _ _ hv hq⟩

theorem KeyText.opensKey {o : ParsingOptions} {t k : Bytes} (h : KeyText o t k) (s : Bytes) :
    Opens (t ++ s) := by
  obtain ⟨ki, hr⟩ := h.keyRunsAs
  obtain ⟨t2, rfl⟩ := keyRunsAs_cons hr
  exact ⟨34, t2 ++ s, rfl, by decide, by decide, by decide⟩

theorem stuck_arrayValue (o : ParsingOptions) (p : Nat) (Y : Bytes) (q : Nat) (x : ParsingIssue)
    (h : Stuck o .value p Y q x) : Stuck o .element p Y q x := by
  intro iss fuel hf
  obtain ⟨f, rfl⟩ : ∃ f, fuel = f + 1 := ⟨fuel - 1, by omega⟩
  constructor
  · intro a v0 size
    obtain ⟨v, s, pre, e⟩ := h iss f v0 (by omega)
    rw [parseArrayMembersRecursion, e]
    exact ⟨_, _, _, _, rfl⟩
  · intro a
    obtain ⟨v, s, pre, e⟩ := h iss f (a.getLastD .null) (by omega)
    rw [parseArrayMembersLoop, e]
    exact ⟨_, _, _, rfl⟩

theorem stuck_arrayOpen (o : ParsingOptions) (p : Nat) (w Y : Bytes) (q : Nat)
    (x : ParsingIssue) (hw : ∀ b ∈ w, isWhitespace b) (hY : Opens Y)
    (h : Stuck o .element (p + 1 + w.length) Y q x) : Stuck o .value p (91 :: (w ++ Y)) q x := by
  intro iss fuel v0 hf
  obtain ⟨b, t, rfl, hb, hb93, -⟩ := hY
  simp only [List.length_cons, List.length_append] at hf
  obtain ⟨f, rfl⟩ : ∃ f, fuel = f + 2 := ⟨fuel - 2, by omega⟩
  obtain ⟨a2, v, s, pre, e⟩ := (h iss f (by simp only [List.length_cons]; omega)).1 [] .null 1
  have e91 : ((91 : Byte)).val = 91 := rfl
  rw [parseImpl]
  simp only [e91]
  rw [if_neg (by omega), if_neg (by omega), if_neg (by omega), if_neg (by omega),
    if_pos trivial, parseArray]
  have hadv : (⟨⟨p, 91 :: (w ++ b :: t)⟩, iss⟩ : ParserImpl).advance =
      ⟨⟨p + 1, w ++ b :: t⟩, iss⟩ := rfl
  rw [hadv, endWs_at _ w _ _ hw b t rfl hb]
  simp only [Bool.false_eq_true, if_false]
  rw [if_neg hb93, e]
  exact ⟨_, _, _, rfl⟩

theorem stuck_objectOpen (o : ParsingOptions) (p : Nat) (w Y : Bytes) (q : Nat)
    (x : ParsingIssue) (hw : ∀ b ∈ w, isWhitespace b) (hY : Opens Y)
    (h : Stuck o (.member []) (p + 1 + w.length) Y q x) :
    Stuck o .value p (123 :: (w ++ Y)) q x := by
  intro iss fuel v0 hf
  obtain ⟨b, t, rfl, hb, -, hb125⟩ := hY
  simp only [List.length_cons, List.length_append] at hf
  obtain ⟨f, rfl⟩ : ∃ f, fuel = f + 2 := ⟨fuel - 2, by omega⟩
  obtain ⟨a2, s, pre, e⟩ := h iss f [] keysOf_nil (by simp only [List.length_cons]; omega)
  have e123 : ((123 : Byte)).val = 123 := rfl
  rw [parseImpl]
  simp only [e123]
  rw [if_neg (by omega), if_neg (by omega), if_neg (by omega), if_neg (by omega),
    if_neg (by omega), if_pos trivial, parseObject]
  have hadv : (⟨⟨p, 123 :: (w ++ b :: t)⟩, iss⟩ : ParserImpl).advance =
      ⟨⟨p + 1, w ++ b :: t⟩, iss⟩ := rfl
  rw [hadv, endWs_at _ w _ _ hw b t rfl hb]
  simp only [Bool.false_eq_true, if_false]
  rw [if_neg hb125, e]
  exact ⟨_, _, _, rfl⟩

theorem stuck_arrayNext (o : ParsingOptions) (p : Nat) (t w1 w2 Y : Bytes) (q : Nat)
    (x : ParsingIssue) (ht : ValueText o t) (hw1 : ∀ b ∈ w1, isWhitespace b)
    (hw2 : ∀ b ∈ w2, isWhitespace b) (hY : Opens Y)
    (h : Stuck o .element (p + t.length + w1.length + 1 + w2.length) Y q x) :
    Stuck o .element p (t ++ (w1 ++ 44 :: (w2 ++ Y))) q x := by
  intro iss fuel hf
  obtain ⟨v, vi, hv⟩ := ht.runsAs (w1 ++ 44 :: (w2 ++ Y)) (inertEnd_after _ hw1 44 _ (by decide))
  obtain ⟨b, y, rfl, hb, -, -⟩ := hY
  simp only [List.length_cons, List.length_append] at hf
  obtain ⟨f, rfl⟩ : ∃ f, fuel = f + 1 := ⟨fuel - 1, by omega⟩
  have hS := h (iss ++ vi.map (ParsingIssue.shift p)) f (by
    simp only [List.length_cons]
    omega)
  have e44 : ((44 : Byte)).val = 44 := rfl
  have n93 : ¬ ((44 : Byte)).val = 93 := by decide
  constructor
  · intro a v0 size
    rw [elements_core_recursion o f a v0 size p iss w1 hw1 t v vi 44 _ hv (by decide) (by omega),
      if_neg n93, if_pos e44, endWs_at _ w2 _ _ hw2 b y rfl hb]
    simp only [Bool.false_eq_true, if_false]
    by_cases h42 : size > 42
    · obtain ⟨a2, s, pre, e⟩ := hS.2 (resize a (size + 1))
      rw [if_pos h42, e]
      exact ⟨_, _, _, _, rfl⟩
    · obtain ⟨a2, v2, s, pre, e⟩ := hS.1 a .null (size + 1)
      rw [if_neg h42, e]
      exact ⟨_, _, _, _, rfl⟩
  · intro a
    rw [elements_core_loop o f a p iss w1 hw1 t v vi 44 _ hv (by decide) (by omega),
      if_neg n93, if_pos e44, endWs_at _ w2 _ _ hw2 b y rfl hb]
    simp only [Bool.false_eq_true, if_false]
    exact hS.2 _

theorem stuck_objectNext (o : ParsingOptions) (p : Nat) (seen : List Bytes)
    (kt k w1 w2 vt w3 w4 Y : Bytes) (q : Nat) (x : ParsingIssue)
    (hk : KeyText o kt k) (hw1 : ∀ b ∈ w1, isWhitespace b) (hw2 : ∀ b ∈ w2, isWhitespace b)
    (hvt : ValueText o vt) (hw3 : ∀ b ∈ w3, isWhitespace b) (hw4 : ∀ b ∈ w4, isWhitespace b)
    (hnew : o.duplicateObjectKeys = .Fail → k ∉ seen) (hY : Opens Y)
    (h : Stuck o (.member (k :: seen))
      (p + kt.length + w1.length + 1 + w2.length + vt.length + w3.length + 1 + w4.length)
      Y q x) :
    Stuck o (.member seen) p
      (kt ++ (w1 ++ 58 :: (w2 ++ (vt ++ (w3 ++ 44 :: (w4 ++ Y)))))) q x := by
  intro iss fuel ob hkeys hf
  obtain ⟨v, vi, hv⟩ := hvt.runsAs (w3 ++ 44 :: (w4 ++ Y)) (inertEnd_after _ hw3 44 _ (by decide))
  obtain ⟨ki, hkr⟩ := hk.keyRunsAs
  obtain ⟨vb, vt2, hvb, hvb2, -, -⟩ := hvt.opensValue []
  rw [List.append_nil] at hvb
  obtain ⟨b, y, rfl, hb, -, -⟩ := hY
  simp only [List.length_cons, List.length_append] at hf
  obtain ⟨f, rfl⟩ : ∃ f, fuel = f + 1 := ⟨fuel - 1, by omega⟩
  have hdup : ¬ ((tryEmplace ob k).2 = false ∧ o.duplicateObjectKeys = .Fail) := by
    rintro ⟨h1, h2⟩
    have := hkeys.flag k
    rw [h1] at this
    simp [hnew h2] at this
  have e44 : ((44 : Byte)).val = 44 := rfl
  have n125 : ¬ ((44 : Byte)).val = 125 := by decide
  rw [members_core o f ob p iss kt k ki hkr w1 w2 w3 hw1 hw2 hw3 vt v vi 44 _
    ⟨vb, vt2, hvb, hvb2⟩ hv (by decide) (by omega) hdup, if_neg n125, if_pos e44,
    endWs_at _ w4 _ _ hw4 b y rfl hb]
  simp only [Bool.false_eq_true, if_false]
  exact h _ f _ (hkeys.insert k v) (by
    simp only [List.length_cons]
    omega)

/-- The loop of `parseObject` at a member whose value fails. -/
theorem stuck_objectValue (o : ParsingOptions) (p : Nat) (seen : List Bytes)
    (kt k w1 w2 Y : Bytes) (q : Nat) (x : ParsingIssue)
    (hk : KeyText o kt k) (hw1 : ∀ b ∈ w1, isWhitespace b) (hw2 : ∀ b ∈ w2, isWhitespace b)
    (hnew : o.duplicateObjectKeys = .Fail → k ∉ seen) (hY : Opens Y)
    (h : Stuck o .value (p + kt.length + w1.length + 1 + w2.length) Y q x) :
    Stuck o (.member seen) p (kt ++ (w1 ++ 58 :: (w2 ++ Y))) q x := by
  intro iss0 fuel ob hkeys hf
  obtain ⟨ki, hkr⟩ := hk.keyRunsAs
  obtain ⟨c, rest, rfl, hc, -, -⟩ := hY
  simp only [List.length_cons, List.length_append] at hf
  obtain ⟨f, rfl⟩ : ∃ f, fuel = f + 1 := ⟨fuel - 1, by omega⟩
  have hdup : ¬ ((tryEmplace ob k).2 = false ∧ o.duplicateObjectKeys = .Fail) := by
    rintro ⟨h1, h2⟩
    have := hkeys.flag k
    rw [h1] at this
    simp [hnew h2] at this
  obtain ⟨kt', rfl⟩ := keyRunsAs_cons hkr
  have hks := hkr.2 p iss0 (w1 ++ 58 :: (w2 ++ c :: rest))
  rw [parseObjectMembers]
  have e34 : ((34 : Byte)).val = 34 := rfl
  simp only [List.cons_append, e34, ne_eq, not_true_eq_false, if_false] at hks ⊢
  rw [hks]
  simp only
  rw [endWs_at _ w1 _ _ hw1 58 _ rfl (by decide)]
  have e58 : ((58 : Byte)).val = 58 := rfl
  simp only [Bool.false_eq_true, if_false, e58, ne_eq, not_true_eq_false]
  have hadv : (⟨⟨p + (34 :: kt').length + w1.length, 58 :: (w2 ++ c :: rest)⟩,
      iss0 ++ ki.map (ParsingIssue.shift p)⟩ : ParserImpl).advance =
      ⟨⟨p + (34 :: kt').length + w1.length + 1, w2 ++ c :: rest⟩,
        iss0 ++ ki.map (ParsingIssue.shift p)⟩ := rfl
  rw [hadv, endWs_at _ w2 _ _ hw2 c rest rfl hc]
  simp only [Bool.false_eq_true, if_false]
  have hnf : ¬ ((!(tryEmplace ob k).2) = true ∧ o.duplicateObjectKeys = .Fail) := by
    intro h
    exact hdup ⟨by simpa using h.1, h.2⟩
  rw [if_neg hnf]
  have hst : ∃ iss1, (if (!(tryEmplace ob k).2) = true ∧ o.duplicateObjectKeys ≠ .Ignore then
        addIssueAt ⟨⟨p + (34 :: kt').length + w1.length + 1 + w2.length,
            c :: rest⟩, iss0 ++ ki.map (ParsingIssue.shift p)⟩ p
          "JSON object contains duplicate keys" .DuplicateKeys
      else ⟨⟨p + (34 :: kt').length + w1.length + 1 + w2.length, c :: rest⟩,
        iss0 ++ ki.map (ParsingIssue.shift p)⟩) =
      (⟨⟨p + (34 :: kt').length + w1.length + 1 + w2.length, c :: rest⟩, iss1⟩ :
        ParserImpl) := by
    split_ifs
    · exact ⟨_, rfl⟩
    · exact ⟨_, rfl⟩
  obtain ⟨iss1, e1⟩ := hst
  obtain ⟨v, s, pre, e⟩ := h iss1 f ((Object.find k (tryEmplace ob k).1).getD .null)
    (by simp only [List.length_cons]; omega)
  rw [e1, e]
  exact ⟨_, _, _, rfl⟩

/-- A text that is valid up to a place where the function of the parser for the place fails:
`impl::parse` fails there, with the same last issue. -/
theorem ctx_stuck (o : ParsingOptions) {k : Place} {P : Bytes} (h : Ctx o k P) :
    ∀ (Y : Bytes) (q : Nat) (x : ParsingIssue), Opens Y → Stuck o k P.length Y q x →
      ∃ v pre, impl.parse (P ++ Y) o = some
        { value := v, status := .Failure, parsedSize := q, issues := pre ++ [x] } := by
  induction h with
  | top w hw =>
    intro Y q x hY hS
    obtain ⟨b, t, rfl, hb, -, -⟩ := hY
    obtain ⟨v, s, pre, e⟩ := hS [] (3 * (w ++ b :: t).length + 1) .null (by
      simp only [List.length_append]
      omega)
    rw [← Nat.zero_add w.length] at e
    exact ⟨v, pre, implParse_of_run o w _ hw b t rfl hb _ _ _ e⟩
  | @arrayOpen P w hw _ ih =>
    intro Y q x hY hS
    rw [List.append_assoc, List.cons_append]
    refine ih _ q x ⟨91, _, rfl, by decide, by decide, by decide⟩
      (stuck_arrayOpen o _ w Y q x hw hY ?_)
    rw [List.length_append, List.length_cons, Nat.add_comm w.length 1, ← Nat.add_assoc] at hS
    exact hS
  | @arrayNext P t w1 w2 ht hw1 hw2 _ ih =>
    intro Y q x hY hS
    have e : P ++ (t ++ (w1 ++ 44 :: w2)) ++ Y = P ++ (t ++ (w1 ++ 44 :: (w2 ++ Y))) := by simp
    rw [e]
    refine ih _ q x (ht.opensValue _) (stuck_arrayNext o _ t w1 w2 Y q x ht hw1 hw2 hY ?_)
    have hl : (P ++ (t ++ (w1 ++ 44 :: w2))).length =
        P.length + t.length + w1.length + 1 + w2.length := by
      simp only [List.length_append, List.length_cons]
      omega
    rw [hl] at hS
    exact hS
  | @arrayValue P _ ih =>
    intro Y q x hY hS
    exact ih Y q x hY (stuck_arrayValue o _ Y q x hS)
  | @objectOpen P w hw _ ih =>
    intro Y q x hY hS
    rw [List.append_assoc, List.cons_append]
    refine ih _ q x ⟨123, _, rfl, by decide, by decide, by decide⟩
      (stuck_objectOpen o _ w Y q x hw hY ?_)
    rw [List.length_append, List.length_cons, Nat.add_comm w.length 1, ← Nat.add_assoc] at hS
    exact hS
  | @objectNext P seen kt k w1 w2 vt w3 w4 hk hw1 hw2 hv hw3 hw4 hnew _ ih =>
    intro Y q x hY hS
    have e : P ++ (kt ++ (w1 ++ 58 :: (w2 ++ (vt ++ (w3 ++ 44 :: w4))))) ++ Y =
        P ++ (kt ++ (w1 ++ 58 :: (w2 ++ (vt ++ (w3 ++ 44 :: (w4 ++ Y)))))) := by simp
    rw [e]
    refine ih _ q x (hk.opensKey _)
      (stuck_objectNext o _ seen kt k w1 w2 vt w3 w4 Y q x hk hw1 hw2 hv hw3 hw4 hnew hY ?_)
    have hl : (P ++ (kt ++ (w1 ++ 58 :: (w2 ++ (vt ++ (w3 ++ 44 :: w4)))))).length =
        P.length + kt.length + w1.length + 1 + w2.length + vt.length + w3.length + 1 +
          w4.length := by
      simp only [List.length_append, List.length_cons]
      omega
    rw [hl] at hS
    exact hS
  | @objectValue P seen kt k w1 w2 hk hw1 hw2 hnew _ ih =>
    intro Y q x hY hS
    have e : P ++ (kt ++ (w1 ++ 58 :: w2)) ++ Y = P ++ (kt ++ (w1 ++ 58 :: (w2 ++ Y))) := by
      simp
    rw [e]
    refine ih _ q x (hk.opensKey _)
      (stuck_objectValue o _ seen kt k w1 w2 Y q x hk hw1 hw2 hnew hY ?_)
    have hl : (P ++ (kt ++ (w1 ++ 58 :: w2))).length =
        P.length + kt.length + w1.length + 1 + w2.length := by
      simp only [List.length_append, List.length_cons]
      omega
    rw [hl] at hS
    exact hS

/-- The issues before the last one of a parse that fails are reports. -/
theorem failure_reports (input : Bytes) (o : ParsingOptions) (v : Value) (q : Nat)
    (pre : List ParsingIssue) (x : ParsingIssue)
    (h : impl.parse input o = some
      { value := v, status := .Failure, parsedSize := q, issues := pre ++ [x] }) :
    ∀ y ∈ pre, ReportKind o y := by
  obtain ⟨-, r, hr, hpost⟩ := implParse_post input o _ h
  cases r with
  | true => simp at hr
  | false =>
    obtain ⟨-, rep, x2, e, hrep, -⟩ := hpost.2 rfl
    simp only [List.nil_append] at e
    obtain ⟨e1, -⟩ := List.append_inj' e rfl
    intro y hy
    rw [e1] at hy
    exact (hrep y hy).1

/-- The loop of `parseObject` fails at a member whose key the object has already, with the
policy `Fail`. -/
theorem stuck_duplicate (o : ParsingOptions) (ho : o.duplicateObjectKeys = .Fail) (p : Nat)
    (seen : List Bytes) (kt k w1 w2 : Bytes) (c : Byte) (rest : Bytes) (hk : KeyText o kt k)
    (hseen : k ∈ seen) (hw1 : ∀ b ∈ w1, isWhitespace b) (hw2 : ∀ b ∈ w2, isWhitespace b)
    (hc : ¬ isWhitespace c) :
    Stuck o (.member seen) p (kt ++ (w1 ++ 58 :: (w2 ++ c :: rest)))
      (p + kt.length + w1.length + 1 + w2.length) (duplicateKeyIssue p) := by
  intro iss fuel ob hkeys hf
  obtain ⟨ki, hkr⟩ := hk.keyRunsAs
  obtain ⟨f, rfl⟩ : ∃ f, fuel = f + 1 := ⟨fuel - 1, by omega⟩
  have hdup : (tryEmplace ob k).2 = false := by
    have := hkeys.flag k
    simpa [hseen] using this
  rw [members_duplicate_fail o f ob p iss kt k ki hkr w1 w2 hw1 hw2 c rest hc hdup ho]
  exact ⟨_, _, _, rfl⟩

/-- C11: with `duplicateObjectKeys = Fail`, for every input that is valid up to a member of an
object (the text `P` before it) whose key `k`, written `kt`, is the key of a member before it
in the same object, and whose colon is followed, after the whitespace, by one more byte that is
not whitespace: `parse` returns `Failure`; `parsedSize` is the offset of that byte, the first
of the value of the member; the last issue is the issue `DuplicateKeys` at the offset of the
opening quotation mark of the key, the issues before it are reports, and unless unpaired
surrogates are reported (as with the default options) it is the only issue. -/
theorem parse_duplicate_key_fails (o : ParsingOptions) (ho : o.duplicateObjectKeys = .Fail)
    (mode : ParsingMode) (P : Bytes) (seen : List Bytes) (hP : Ctx o (.member seen) P)
    (kt k : Bytes) (hk : KeyText o kt k) (hseen : k ∈ seen) (w1 w2 : Bytes)
    (hw1 : ∀ b ∈ w1, isWhitespace b) (hw2 : ∀ b ∈ w2, isWhitespace b) (c : Byte)
    (rest : Bytes) (hc : ¬ isWhitespace c) :
    ∃ v pre, parse (P ++ (kt ++ (w1 ++ 58 :: (w2 ++ c :: rest)))) o mode = some
        { value := v
          status := .Failure
          parsedSize := P.length + kt.length + w1.length + 1 + w2.length
          issues := pre ++ [duplicateKeyIssue P.length] } ∧
      (∀ y ∈ pre, ReportKind o y) ∧
      (o.unpairedUtf16Surrogates ≠ .Report → pre = []) := by
  obtain ⟨v, pre, h⟩ := ctx_stuck o hP _ _ _ (hk.opensKey _)
    (stuck_duplicate o ho P.length seen kt k w1 w2 c rest hk hseen hw1 hw2 hc)
  have hrep := failure_reports _ o _ _ _ _ h
  refine ⟨v, pre, parse_of_implParse_failure _ o mode _ h rfl, hrep, fun hs => ?_⟩
  cases pre with
  | nil => rfl
  | cons y t =>
    rcases hrep y (List.mem_cons_self _ _) with ⟨-, h2⟩ | ⟨-, h2⟩
    · rw [ho] at h2
      cases h2
    · exact absurd h2 hs

/-- C11 at the input `{"a":1, "b":[], "a":2}`, with the default options: the second `"a"`
is at offset 16 and its value at offset 20. -/
theorem parse_duplicate_key_fails_witness :
    ∃ v pre, parse [123, 34, 97, 34, 58, 49, 44, 32, 34, 98, 34, 58, 91, 93, 44, 32,
          34, 97, 34, 58, 50, 125] {} .VerifyTrailingWhitespace = some
        { value := v
          status := .Failure
          parsedSize := 20
          issues := pre ++ [duplicateKeyIssue 16] } ∧
      (∀ y ∈ pre, ReportKind {} y) ∧
      (({} : ParsingOptions).unpairedUtf16Surrogates ≠ .Report → pre = []) :=
  parse_duplicate_key_fails {} rfl .VerifyTrailingWhitespace
    ([] ++ 123 :: [] ++ ([34, 97, 34] ++ ([] ++ 58 :: ([] ++ ([49] ++ ([] ++ 44 :: [32]))))) ++
      ([34, 98, 34] ++ ([] ++ 58 :: ([] ++ ([91, 93] ++ ([] ++ 44 :: [32])))))) [[98], [97]]
    (Ctx.objectNext [34, 98, 34] [98] [] [] [91, 93] [] [32]
      ⟨rfl, [], by decide!⟩ (by simp) (by simp)
      ⟨fun b hb => by simp at hb; subst hb; decide, .array [], [], by decide!⟩ (by simp)
      (fun b hb => by simp at hb; subst hb; decide) (fun _ => by decide)
      (Ctx.objectNext [34, 97, 34] [97] [] [] [49] [] [32]
        ⟨rfl, [], by decide!⟩ (by simp) (by simp)
        ⟨fun b hb => by simp at hb; subst hb; decide, .int64 ⟨1, by decide⟩, [], by decide!⟩
        (by simp) (fun b hb => by simp at hb; subst hb; decide) (fun _ => by simp)
        (Ctx.objectOpen [] (by simp) (Ctx.top [] (by simp)))))
    [34, 97, 34] [97] ⟨rfl, [], by decide!⟩ (by simp) [] [] (by simp) (by simp) 50 [125]
    (by decide)

theorem digit_not_exponent : ∀ d : Byte, isDecimalDigit d = true →
    ¬ (d.val ||| 0x20 = 101) ∧ ¬ (d.val = 46) := by
  decide!

/-- The member `parseNumber` on `0` or `-0` followed by a digit: the number ends after the
`0`. -/
theorem zero_runs (o : ParsingOptions) (neg : Bool) (d : Byte) (hd : isDecimalDigit d = true)
    (rest : Bytes) :
    RunsAs o (intLiteral neg [48]) (d :: rest) (.int64 ⟨0, by decide⟩) [] := by
  intro p iss0 fuel v0 hf
  obtain ⟨f, rfl⟩ : ∃ f, fuel = f + 1 := ⟨fuel - 1, by omega⟩
  obtain ⟨hx, hdot⟩ := digit_not_exponent d hd
  have hconv := (parseNumberConvert_intLiteral neg v0 p [48] (d :: rest) iss0 (by simp)
    (by intro c hc; simp at hc; subst hc; rfl) (by simp)).1
  cases neg with
  | false =>
    have hc := hconv (by decide)
    rw [parseImpl_number o f v0 _ 48 (d :: rest) rfl (Or.inr (by decide))]
    simp only [intLiteral, Bool.false_eq_true, if_false, List.nil_append, List.singleton_append,
      List.length_singleton] at hc ⊢
    unfold parseNumber
    simp only
    have e48 : ((48 : Byte)).val = 48 := rfl
    simp only [e48]
    norm_num
    unfold parseNumberBody parseNumberInteger
    simp only [e48, if_true]
    have hadv : (⟨⟨p, 48 :: d :: rest⟩, iss0⟩ : ParserImpl).advance =
      ⟨⟨p + 1, d :: rest⟩, iss0⟩ := rfl
    rw [hadv]
    unfold parseNumberFraction parseNumberExponent
    simp only [hdot, hx, if_false, Bool.or_self]
    rw [hc]
    rfl
  | true =>
    have hc := hconv (by decide)
    rw [parseImpl_number o f v0 _ 45 (48 :: d :: rest) rfl (Or.inl rfl)]
    simp only [intLiteral, if_true, List.singleton_append, List.cons_append, List.nil_append,
      List.length_cons, List.length_nil] at hc ⊢
    unfold parseNumber
    simp only
    have e45 : ((45 : Byte)).val = 45 := rfl
    have e48 : ((48 : Byte)).val = 48 := rfl
    simp only [e45]
    norm_num
    have hadv0 : (⟨⟨p, 45 :: 48 :: d :: rest⟩, iss0⟩ : ParserImpl).advanceAndDetectEndOfInput =
      (false, ⟨⟨p + 1, 48 :: d :: rest⟩, iss0⟩) := rfl
    rw [hadv0]
    simp only [Bool.false_eq_true, if_false]
    unfold parseNumberBody parseNumberInteger
    simp only [e48, if_true]
    have hadv : (⟨⟨p + 1, 48 :: d :: rest⟩, iss0⟩ : ParserImpl).advance =
      ⟨⟨p + 1 + 1, d :: rest⟩, iss0⟩ := rfl
    rw [hadv]
    unfold parseNumberFraction parseNumberExponent
    simp only [hdot, hx, if_false, Bool.or_self]
    rw [hc]
    rfl

theorem zero_cons (neg : Bool) : ∃ b t, intLiteral neg [48] = b :: t ∧ ¬ isWhitespace b ∧
    b.val ≠ 93 ∧ b.val ≠ 125 := by
  cases neg
  · exact ⟨48, [], rfl, by decide, by decide, by decide⟩
  · exact ⟨45, [48], rfl, by decide, by decide, by decide⟩

theorem stuck_zero_element (o : ParsingOptions) (p : Nat) (neg : Bool) (d : Byte)
    (hd : isDecimalDigit d = true) (rest : Bytes) :
    Stuck o .element p (intLiteral neg [48] ++ d :: rest) (p + (intLiteral neg [48]).length)
      (arrayEndExpected (p + (intLiteral neg [48]).length)) := by
  intro iss fuel hf
  simp only [List.length_append, List.length_cons] at hf
  obtain ⟨f, rfl⟩ : ∃ f, fuel = f + 1 := ⟨fuel - 1, by omega⟩
  have hv := zero_runs o neg d hd rest
  have hd2 := (isDecimalDigit_iff d).mp hd
  have hc : ¬ isWhitespace d := by unfold isWhitespace; omega
  constructor
  · intro a v0 size
    have h := elements_core_recursion o f a v0 size p iss [] (by simp) _ _ _ d rest hv hc
      (by omega)
    simp only [List.nil_append, List.length_nil, Nat.add_zero] at h
    rw [h, if_neg (by omega), if_neg (by omega)]
    exact ⟨_, _, _, _, rfl⟩
  · intro a
    have h := elements_core_loop o f a p iss [] (by simp) _ _ _ d rest hv hc (by omega)
    simp only [List.nil_append, List.length_nil, Nat.add_zero] at h
    rw [h, if_neg (by omega), if_neg (by omega)]
    exact ⟨_, _, _, rfl⟩

theorem stuck_zero_member (o : ParsingOptions) (p : Nat) (seen : List Bytes)
    (kt k w1 w2 : Bytes) (hk : KeyText o kt k) (hw1 : ∀ b ∈ w1, isWhitespace b)
    (hw2 : ∀ b ∈ w2, isWhitespace b) (hnew : o.duplicateObjectKeys = .Fail → k ∉ seen)
    (neg : Bool) (d : Byte) (hd : isDecimalDigit d = true) (rest : Bytes) :
    Stuck o (.member seen) p (kt ++ (w1 ++ 58 :: (w2 ++ (intLiteral neg [48] ++ d :: rest))))
      (p + kt.length + w1.length + 1 + w2.length + (intLiteral neg [48]).length)
      (objectEndExpected
        (p + kt.length + w1.length + 1 + w2.length + (intLiteral neg [48]).length)) := by
  intro iss fuel ob hkeys hf
  simp only [List.length_append, List.length_cons] at hf
  obtain ⟨f, rfl⟩ : ∃ f, fuel = f + 1 := ⟨fuel - 1, by omega⟩
  have hv := zero_runs o neg d hd rest
  have hd2 := (isDecimalDigit_iff d).mp hd
  have hc : ¬ isWhitespace d := by unfold isWhitespace; omega
  obtain ⟨ki, hkr⟩ := hk.keyRunsAs
  obtain ⟨zb, zt, hz, hzb, -, -⟩ := zero_cons neg
  have hdup : ¬ ((tryEmplace ob k).2 = false ∧ o.duplicateObjectKeys = .Fail) := by
    rintro ⟨h1, h2⟩
    have := hkeys.flag k
    rw [h1] at this
    simp [hnew h2] at this
  have h := members_core o f ob p iss kt k ki hkr w1 w2 [] hw1 hw2 (by simp) _ _ _ d rest
    ⟨zb, zt, hz, hzb⟩ hv hc (by omega) hdup
  simp only [List.nil_append, List.length_nil, Nat.add_zero] at h
  rw [h, if_neg (by omega), if_neg (by omega)]
  exact ⟨_, _, _, rfl⟩

/-- The function `parse` in the mode `VerifyTrailingWhitespace`, when `impl::parse` has stopped
before a byte that is not whitespace. -/
theorem parse_verify_trailing (input : Bytes) (o : ParsingOptions) (r : ParsingResult)
    (h : impl.parse input o = some r) (hs : r.status = .Success) (c : Byte) (rest : Bytes)
    (hdrop : input.drop r.parsedSize = c :: rest) (hc : ¬ isWhitespace c) :
    parse input o .VerifyTrailingWhitespace = some
      { r with status := .PartialSuccess,
               issues := r.issues ++ [trailingIssue r.parsedSize] } := by
  unfold parse
  rw [h]
  simp only [hs, true_and, if_true, hdrop, skipWhitespaces, skipWhitespacesFrom]
  unfold isWhitespace at hc
  rw [if_neg hc]
  rfl

/-- C15 as the code has it: the text `01` at the top is the number `0` followed by a byte that
is not whitespace.  In the mode `VerifyTrailingWhitespace` the result is `PartialSuccess` with
one issue, of code `Other`, and in the mode `StopAfterValueEnds` it is `Success` without an
issue; no issue `InvalidCharacter` is reported. -/
theorem parse_leading_zero_at_top :
    (parse [48, 49] {} .VerifyTrailingWhitespace).map
        (fun r => (r.value, r.status, r.parsedSize, r.issues.map (fun x => (x.offset, x.code)))) =
      some (.int64 ⟨0, by decide⟩, .PartialSuccess, 1, [(1, .Other)]) ∧
    (parse [48, 49] {} .StopAfterValueEnds).map
        (fun r => (r.value, r.status, r.parsedSize, r.issues.map (fun x => (x.offset, x.code)))) =
      some (.int64 ⟨0, by decide⟩, .Success, 1, []) := by
  constructor
  · decide!
  · decide!

/-- C15, amended: a number that starts (after an optional `-`) with `0` followed by a decimal
digit `d` ends after the `0`.  As a member of an array or as the value of a member of an
object (in a text `P` that is valid up to there), `parse` fails, `parsedSize` is the offset of
the digit after the `0`, and the last issue is an issue `InvalidCharacter` at that offset.  At
the top (after whitespace `w`), the value is the number `0` and `parsedSize` is the offset of
the digit after the `0`: in the mode `StopAfterValueEnds` the result is `Success` without an
issue, and in the mode `VerifyTrailingWhitespace` it is `PartialSuccess` with the one issue of
code `Other` at that offset. -/
theorem parse_leading_zero (o : ParsingOptions) (neg : Bool) (d : Byte)
    (hd : isDecimalDigit d = true) (rest : Bytes) :
    (∀ (mode : ParsingMode) (P : Bytes), Ctx o .element P →
      ∃ v pre, parse (P ++ (intLiteral neg [48] ++ d :: rest)) o mode = some
        { value := v
          status := .Failure
          parsedSize := P.length + (intLiteral neg [48]).length
          issues := pre ++ [arrayEndExpected (P.length + (intLiteral neg [48]).length)] }) ∧
    (∀ (mode : ParsingMode) (P : Bytes) (seen : List Bytes) (kt k w1 w2 : Bytes),
      Ctx o (.member seen) P → KeyText o kt k → (o.duplicateObjectKeys = .Fail → k ∉ seen) →
      (∀ b ∈ w1, isWhitespace b) → (∀ b ∈ w2, isWhitespace b) →
      ∃ v pre, parse (P ++ (kt ++ (w1 ++ 58 :: (w2 ++ (intLiteral neg [48] ++ d :: rest)))))
          o mode = some
        { value := v
          status := .Failure
          parsedSize := P.length + kt.length + w1.length + 1 + w2.length +
            (intLiteral neg [48]).length
          issues := pre ++ [objectEndExpected (P.length + kt.length + w1.length + 1 +
            w2.length + (intLiteral neg [48]).length)] }) ∧
    (∀ w : Bytes, (∀ b ∈ w, isWhitespace b) →
      parse (w ++ (intLiteral neg [48] ++ d :: rest)) o .StopAfterValueEnds = some
        { value := .int64 ⟨0, by decide⟩
          status := .Success
          parsedSize := w.length + (intLiteral neg [48]).length
          issues := [] } ∧
      parse (w ++ (intLiteral neg [48] ++ d :: rest)) o .VerifyTrailingWhitespace = some
        { value := .int64 ⟨0, by decide⟩
          status := .PartialSuccess
          parsedSize := w.length + (intLiteral neg [48]).length
          issues := [trailingIssue (w.length + (intLiteral neg [48]).length)] }) := by
  obtain ⟨zb, zt, hz, hzb, hz93, hz125⟩ := zero_cons neg
  have hopen : Opens (intLiteral neg [48] ++ d :: rest) :=
    ⟨zb, zt ++ d :: rest, by rw [hz]; rfl, hzb, hz93, hz125⟩
  refine ⟨fun mode P hP => ?_, fun mode P seen kt k w1 w2 hP hk hnew hw1 hw2 => ?_,
    fun w hw => ?_⟩
  · obtain ⟨v, pre, h⟩ := ctx_stuck o hP _ _ _ hopen (stuck_zero_element o P.length neg d hd rest)
    exact ⟨v, pre, parse_of_implParse_failure _ o mode _ h rfl⟩
  · obtain ⟨v, pre, h⟩ := ctx_stuck o hP _ _ _ (hk.opensKey _)
      (stuck_zero_member o P.length seen kt k w1 w2 hk hw1 hw2 hnew neg d hd rest)
    exact ⟨v, pre, parse_of_implParse_failure _ o mode _ h rfl⟩
  · have hrun := zero_runs o neg d hd rest (0 + w.length) []
      (3 * (w ++ (intLiteral neg [48] ++ d :: rest)).length + 1) .null (by
        simp only [List.length_append]
        omega)
    have h := implParse_of_run o w _ hw zb (zt ++ d :: rest) (by rw [hz]; rfl) hzb _ _ _ hrun
    simp only [Nat.zero_add, if_true, List.map_nil, List.append_nil] at h
    have hd2 := (isDecimalDigit_iff d).mp hd
    refine ⟨by rw [parse_stop_eq, h], ?_⟩
    rw [parse_verify_trailing _ o _ h rfl d rest (by simp) (by unfold isWhitespace; omega)]
    rfl

/-- C15, amended, at the input `[01]` with the default options. -/
theorem parse_leading_zero_witness :
    ∃ v pre, parse [91, 48, 49, 93] {} .VerifyTrailingWhitespace = some
      { value := v, status := .Failure, parsedSize := 2,
        issues := pre ++ [arrayEndExpected 2] } :=
  (parse_leading_zero {} false 49 (by decide) [93]).1 .VerifyTrailingWhitespace ([] ++ 91 :: [])
    (Ctx.arrayOpen [] (by simp) (Ctx.top [] (by simp)))

theorem implEscape_default (s : Bytes) :
    ∃ n frags, impl.escape s .Default .IgnoreInvalidUtf8CodeUnits .Lower = some (n, frags) ∧
      frags.flatten = s.flatMap (escapedByte .Lower) := by
  by_cases hs : s = []
  · subst hs
    exact ⟨0, [], rfl, rfl⟩
  · obtain ⟨out2, e1, e2⟩ := writeImplFrom_default .Lower (s.length + 1) [] ⟨0, s⟩ ⟨0, s⟩
      (Ptr.Reach.refl _) hs (by simp)
    have d1 : (decide (Escape.Default = Escape.NonAscii)) = false := by decide
    have d2 : (decide (Utf8Validation.IgnoreInvalidUtf8CodeUnits =
      Utf8Validation.FailOnInvalidUtf8CodeUnits)) = false := by decide
    refine ⟨0 + s.length, out2, ?_, ?_⟩
    · simp only [impl.escape, EscapedStringWriter.write, hs, if_false, d1, d2, e1]
    · simp [e2, range_self]

theorem writeString_default (s : Bytes) (out : List Bytes) :
    ∃ out2, SerializingVisitor.writeString defaultVisitor s out = .ok out2 ∧
      out2.flatten = out.flatten ++ stringText s := by
  obtain ⟨n, frags, e1, e2⟩ := implEscape_default s
  refine ⟨out ++ [[34]] ++ frags ++ [[34]], ?_, ?_⟩
  · unfold SerializingVisitor.writeString
    have : defaultVisitor.options = {} := rfl
    simp only [this, e1]
    rw [if_neg (by rintro ⟨h, -⟩; cases h)]
  · simp [e2, stringText]

theorem writeNewlineAndIndentation_default (ind : Nat) (b : Bool) (out : List Bytes) :
    SerializingVisitor.writeNewlineAndIndentation defaultVisitor ind b out = out := by
  unfold SerializingVisitor.writeNewlineAndIndentation
  rw [if_neg (by rintro ⟨h, -⟩; cases h)]

theorem writeArrayMembersRest_default (f : Value → List Bytes → Written) (ind : Nat) :
    ∀ (rest : List Value) (out : List Bytes), (∀ x ∈ rest, WritesText f x) →
      ∃ out2, SerializingVisitor.writeArrayMembersRest defaultVisitor f ind rest out = .ok out2 ∧
        out2.flatten ++ [93] = out.flatten ++ Value.textElements rest := by
  intro rest
  induction rest with
  | nil =>
    intro out _
    exact ⟨out, rfl, by rw [Value.textElements]⟩
  | cons v rest ih =>
    intro out h
    obtain ⟨o2, e2, f2⟩ := h v (List.mem_cons_self _ _) (out ++ [[44]])
    obtain ⟨o3, e3, f3⟩ := ih o2 (fun x hx => h x (List.mem_cons_of_mem _ hx))
    refine ⟨o3, ?_, ?_⟩
    · unfold SerializingVisitor.writeArrayMembersRest
      simp only [writeNewlineAndIndentation_default]
      have : defaultVisitor.options.arrayMemberSeparator = [44] := rfl
      rw [this, e2]
      exact e3
    · rw [f3, f2, Value.textElements]
      simp

theorem writeObjectMember_default (f : Value → List Bytes → Written) (ind : Nat)
    (i : Bytes × Value) (out : List Bytes) (h : WritesText f i.2) :
    ∃ out2, SerializingVisitor.writeObjectMember defaultVisitor f ind i out = .ok out2 ∧
      out2.flatten = out.flatten ++ (stringText i.1 ++ 58 :: i.2.text) := by
  obtain ⟨o1, e1, f1⟩ := writeString_default i.1 out
  obtain ⟨o2, e2, f2⟩ := h (o1 ++ [[58]])
  refine ⟨o2, ?_, ?_⟩
  · unfold SerializingVisitor.writeObjectMember
    rw [e1]
    simp only [Written.andThen, writeNewlineAndIndentation_default]
    have : defaultVisitor.options.objectKeyValueSeparator = [58] := rfl
    rw [this, e2]
  · rw [f2]
    simp [f1]

theorem writeObjectMembersRest_default (f : Value → List Bytes → Written) (ind : Nat) :
    ∀ (rest : List (Bytes × Value)) (out : List Bytes), (∀ x ∈ rest, WritesText f x.2) →
      ∃ out2, SerializingVisitor.writeObjectMembersRest defaultVisitor f ind rest out
          = .ok out2 ∧
        out2.flatten ++ [125] = out.flatten ++ Value.textMembers rest := by
  intro rest
  induction rest with
  | nil =>
    intro out _
    exact ⟨out, rfl, by rw [Value.textMembers]⟩
  | cons v rest ih =>
    intro out h
    obtain ⟨k, x⟩ := v
    obtain ⟨o2, e2, f2⟩ := writeObjectMember_default f ind (k, x) (out ++ [[44]])
      (h (k, x) (List.mem_cons_self _ _))
    obtain ⟨o3, e3, f3⟩ := ih o2 (fun x hx => h x (List.mem_cons_of_mem _ hx))
    refine ⟨o3, ?_, ?_⟩
    · unfold SerializingVisitor.writeObjectMembersRest
      simp only [writeNewlineAndIndentation_default]
      have : defaultVisitor.options.objectMemberSeparator = [44] := rfl
      rw [this, e2]
      exact e3
    · rw [f3, f2, Value.textMembers]
      simp

theorem height_pos (v : Value) : 1 ≤ v.height := by
  cases v <;> simp [Value.height]

theorem height_le_heightArray (a : List Value) : ∀ x ∈ a, x.height ≤ Value.heightArray a := by
  induction a with
  | nil => intro x hx; cases hx
  | cons y rest ih =>
    intro x hx
    rw [Value.heightArray]
    rcases List.mem_cons.mp hx with rfl | h
    · exact Nat.le_max_left _ _
    · exact Nat.le_trans (ih x h) (Nat.le_max_right _ _)

theorem height_le_heightObject (o : List (Bytes × Value)) :
    ∀ x ∈ o, x.2.height ≤ Value.heightObject o := by
  induction o with
  | nil => intro x hx; cases hx
  | cons y rest ih =>
    intro x hx
    obtain ⟨k, w⟩ := y
    rw [Value.heightObject]
    rcases List.mem_cons.mp hx with rfl | h
    · exact Nat.le_max_left _ _
    · exact Nat.le_trans (ih x h) (Nat.le_max_right _ _)

/-- The visit of a value with the default options writes the text of the value. -/
theorem visit_default : ∀ (fuel : Nat) (v : Value) (ind : Nat), v.height ≤ fuel →
    WritesText (SerializingVisitor.visit defaultVisitor fuel ind) v := by
  intro fuel
  induction fuel with
  | zero =>
    intro v ind h
    have := height_pos v
    omega
  | succ fuel ih =>
    intro v ind h out
    cases v with
    | null => exact ⟨_, rfl, by simp [Value.text]; rfl⟩
    | boolean b => exact ⟨_, rfl, by cases b <;> simp [Value.text] <;> rfl⟩
    | int64 i => exact ⟨_, rfl, by simp [Value.text, SerializingVisitor.writeNumberInt64]⟩
    | double d => exact ⟨_, rfl, by simp [Value.text, SerializingVisitor.writeNumberDouble]⟩
    | string s =>
      obtain ⟨o2, e2, f2⟩ := writeString_default s out
      exact ⟨o2, e2, by rw [f2, Value.text]⟩
    | array a =>
      cases a with
      | nil => exact ⟨_, rfl, by simp [Value.text, Value.textArray]; rfl⟩
      | cons i rest =>
        rw [Value.height, Value.heightArray] at h
        have hi : i.height ≤ fuel := by have := Nat.le_max_left i.height (Value.heightArray rest); omega
        have hrest : ∀ x ∈ rest, x.height ≤ fuel := fun x hx => by
          have := height_le_heightArray rest x hx
          have := Nat.le_max_right i.height (Value.heightArray rest)
          omega
        obtain ⟨o1, e1, f1⟩ := ih i ind hi (out ++ [[91]])
        obtain ⟨o2, e2, f2⟩ := writeArrayMembersRest_default
          (SerializingVisitor.visit defaultVisitor fuel ind) ind rest o1
          (fun x hx => ih x ind (hrest x hx))
        refine ⟨o2 ++ [[93]], ?_, ?_⟩
        · rw [SerializingVisitor.visit]
          simp only [List.isEmpty_cons, Bool.false_eq_true, false_and, if_false,
            writeNewlineAndIndentation_default]
          have e91 : defaultVisitor.options.arrayOpeningBracket = [91] := rfl
          have e93 : defaultVisitor.options.arrayClosingBracket = [93] := rfl
          have em : (if defaultVisitor.serializationMode = .WithIndentation then
              (ind + defaultVisitor.options.indent) % 2 ^ 64 else ind) = ind := by
            rw [if_neg (by intro h; cases h)]
          rw [em, e91, e1]
          simp only [Written.andThen]
          rw [e2, e93]
        · have e : [[(93 : Byte)]].flatten = [93] := rfl
          rw [List.flatten_append, e, f2, f1, Value.text, Value.textArray]
          simp
    | object o =>
      cases o with
      | nil => exact ⟨_, rfl, by simp [Value.text, Value.textObject]; rfl⟩
      | cons i rest =>
        obtain ⟨k, x⟩ := i
        rw [Value.height, Value.heightObject] at h
        have hi : x.height ≤ fuel := by have := Nat.le_max_left x.height (Value.heightObject rest); omega
        have hrest : ∀ y ∈ rest, y.2.height ≤ fuel := fun y hy => by
          have := height_le_heightObject rest y hy
          have := Nat.le_max_right x.height (Value.heightObject rest)
          omega
        obtain ⟨o1, e1, f1⟩ := writeObjectMember_default
          (SerializingVisitor.visit defaultVisitor fuel ind) ind (k, x) (out ++ [[123]])
          (ih x ind hi)
        obtain ⟨o2, e2, f2⟩ := writeObjectMembersRest_default
          (SerializingVisitor.visit defaultVisitor fuel ind) ind rest o1
          (fun y hy => ih y.2 ind (hrest y hy))
        refine ⟨o2 ++ [[125]], ?_, ?_⟩
        · rw [SerializingVisitor.visit]
          simp only [List.isEmpty_cons, Bool.false_eq_true, false_and, if_false,
            writeNewlineAndIndentation_default, Bool.not_false, if_true]
          have e123 : defaultVisitor.options.objectOpeningBrace = [123] := rfl
          have e125 : defaultVisitor.options.objectClosingBrace = [125] := rfl
          have es : defaultVisitor.options.sortObjectKeys = false := rfl
          have em : (if defaultVisitor.serializationMode = .WithIndentation then
              (ind + defaultVisitor.options.indent) % 2 ^ 64 else ind) = ind := by
            rw [if_neg (by intro h; cases h)]
          rw [em, e123, e125, es]
          cases rest with
          | nil =>
            simp only [List.length_singleton, if_true, List.headD_cons]
            rw [e1]
            simp only [SerializingVisitor.writeObjectMembersRest, Written.ok.injEq] at e2
            rw [e2]
            rfl
          | cons j rest2 =>
            have hl : ¬ ((k, x) :: j :: rest2).length = 1 := by simp
            rw [if_neg hl]
            simp only [Bool.false_eq_true, if_false]
            rw [SerializingVisitor.writeObjectMembers, e1]
            simp only [Written.andThen]
            rw [e2]
        · have e : [[(125 : Byte)]].flatten = [125] := rfl
          rw [List.flatten_append, e, f2, f1, Value.text, Value.textObject]
          simp

/-- The function `serializeToString` with the default options returns the text of the
value. -/
theorem serializeToString_default (v : Value) : serializeToString v = some (.ok v.text) := by
  obtain ⟨o2, e2, f2⟩ := visit_default v.height v 0 (Nat.le_refl _) []
  unfold serializeToString impl.serialize
  rw [if_neg (by simp)]
  have : ({ serializationMode := .WithoutIndentation, options := {}, newlineSeparator := [] } :
      SerializingVisitor) = defaultVisitor := rfl
  rw [this, e2]
  simp only [f2, List.flatten_nil, List.nil_append]

theorem byte_ofNat_val (n : Nat) (h : n < 256) : ((Fin.ofNat n : Byte)).val = n := by
  show n % 256 = n
  exact Nat.mod_eq_of_lt h

theorem digitsValue_append_one (ds : Bytes) (d : Byte) :
    digitsValue (ds ++ [d]) = 10 * digitsValue ds + (d.val - 48) := by
  unfold digitsValue
  rw [List.foldl_append]
  rfl

/-- The digits that `std::to_chars` writes for a number are its decimal digits: at least one,
no zero in front of another digit, and the number is their value. -/
theorem decimalDigits_spec : ∀ (fuel n : Nat), n < 10 ^ (fuel + 1) →
    decimalDigits (fuel + 1) n ≠ [] ∧
    (∀ d ∈ decimalDigits (fuel + 1) n, isDecimalDigit d = true) ∧
    ((decimalDigits (fuel + 1) n).head? = some 48 → decimalDigits (fuel + 1) n = [48]) ∧
    digitsValue (decimalDigits (fuel + 1) n) = n := by
  intro fuel
  induction fuel with
  | zero =>
    intro n hn
    have h10 : n < 10 := by simpa using hn
    have hv := byte_ofNat_val (48 + n) (by omega)
    rw [decimalDigits, if_pos h10]
    refine ⟨by simp, ?_, ?_, ?_⟩
    · intro d hd
      simp only [List.mem_singleton] at hd
      subst hd
      rw [isDecimalDigit_iff, hv]
      omega
    · intro h
      simp only [List.head?_cons, Option.some.injEq] at h
      rw [h]
    · simp [digitsValue, hv]
  | succ fuel ih =>
    intro n hn
    by_cases h10 : n < 10
    · have hv := byte_ofNat_val (48 + n) (by omega)
      rw [decimalDigits, if_pos h10]
      refine ⟨by simp, ?_, ?_, ?_⟩
      · intro d hd
        simp only [List.mem_singleton] at hd
        subst hd
        rw [isDecimalDigit_iff, hv]
        omega
      · intro h
        simp only [List.head?_cons, Option.some.injEq] at h
        rw [h]
      · simp [digitsValue, hv]
    · have hq : n / 10 < 10 ^ (fuel + 1) := by
        rw [Nat.div_lt_iff_lt_mul (by decide)]
        rw [pow_succ] at hn
        exact hn
      obtain ⟨h1, h2, h3, h4⟩ := ih (n / 10) hq
      have hv := byte_ofNat_val (48 + n % 10) (by omega)
      rw [decimalDigits, if_neg h10]
      refine ⟨by simp, ?_, ?_, ?_⟩
      · intro d hd
        rcases List.mem_append.mp hd with hd | hd
        · exact h2 d hd
        · simp only [List.mem_singleton] at hd
          subst hd
          rw [isDecimalDigit_iff, hv]
          omega
      · intro h
        rw [List.head?_append_of_ne_nil _ h1] at h
        have := h3 h
        rw [this] at h4
        have : digitsValue [48] = 0 := rfl
        omega
      · rw [digitsValue_append_one, h4, hv]
        omega

theorem to_chars_int64_eq (n : Int64) :
    to_chars_int64 n = intLiteral (decide (n.val < 0)) (decimalDigits 20 n.val.natAbs) := by
  unfold to_chars_int64 intLiteral
  by_cases h : n.val < 0
  · simp [h]
  · simp [h]

theorem natAbs_int64_lt (n : Int64) : n.val.natAbs < 10 ^ 20 := by
  have := n.property
  omega

/-- The text that `std::to_chars` writes for an `int64_t` is parsed as that number. -/
theorem parse_to_chars_int64 (n : Int64) (o : ParsingOptions) :
    parse (to_chars_int64 n) o .StopAfterValueEnds = some
      { value := .int64 n, status := .Success, parsedSize := (to_chars_int64 n).length,
        issues := [] } := by
  obtain ⟨h1, h2, h3, h4⟩ := decimalDigits_spec 19 n.val.natAbs (natAbs_int64_lt n)
  have hval : intLiteralValue (decide (n.val < 0)) (decimalDigits 20 n.val.natAbs) = n.val := by
    unfold intLiteralValue
    rw [h4]
    by_cases h : n.val < 0
    · simp only [h, decide_True, if_true]
      omega
    · simp only [h, decide_False, Bool.false_eq_true, if_false]
      omega
  have hrange : -9223372036854775808 ≤
      intLiteralValue (decide (n.val < 0)) (decimalDigits 20 n.val.natAbs) ∧
      intLiteralValue (decide (n.val < 0)) (decimalDigits 20 n.val.natAbs) ≤
        9223372036854775807 := by
    rw [hval]
    exact n.property
  have hi := implParse_intLiteral (decide (n.val < 0)) _ o h1 h2 h3
  have hc := (parseNumberConvert_intLiteral (decide (n.val < 0)) .null 0 _ [] [] h1 h2 h3).1
    hrange
  rw [List.append_nil] at hc
  rw [hc] at hi
  rw [parse_stop_eq, to_chars_int64_eq, hi]
  simp only [if_true, parsedSize, Nat.zero_add]
  have hsub : (⟨intLiteralValue (decide (n.val < 0)) (decimalDigits 20 n.val.natAbs),
      hrange⟩ : Int64) = n := Subtype.ext hval
  rw [hsub]

theorem escapedPiece_text : ∀ b : Byte, (escapedPiece b).text = escapedByte .Lower b := by
  decide!

theorem escapedPiece_wellFormed : ∀ b : Byte, (escapedPiece b).WellFormed .Strict := by
  decide!

theorem escapedPiece_value : ∀ b : Byte, unescapedPieces none [escapedPiece b] = [b] := by
  decide!

theorem escapedPiece_not_high : ∀ b : Byte, ¬ (escapedPiece b).isHigh := by
  decide!

theorem escapedPiece_issues : ∀ b : Byte, unpairedIssues 0 [escapedPiece b] = [] := by
  decide!

theorem piecesText_escaped (s : Bytes) :
    piecesText (s.map escapedPiece) = s.flatMap (escapedByte .Lower) := by
  induction s with
  | nil => rfl
  | cons b t ih =>
    rw [List.map_cons, List.flatMap_cons, ← ih, ← escapedPiece_text]
    rfl

theorem noPairAcross_escaped (b : Byte) (rest : List Piece) :
    NoPairAcross [escapedPiece b] rest := by
  intro p q hp _ hpq
  simp only [List.getLast?_singleton, Option.some.injEq] at hp
  subst hp
  exact escapedPiece_not_high b hpq.1

theorem unescapedPieces_escaped (s : Bytes) :
    unescapedPieces none (s.map escapedPiece) = s := by
  induction s with
  | nil => rfl
  | cons b t ih =>
    have h := unescapedPieces_append none 1 [escapedPiece b] (t.map escapedPiece) (by simp)
      (noPairAcross_escaped b _)
    rw [List.map_cons, ← List.singleton_append, h, ih, escapedPiece_value]
    rfl

theorem unpairedIssues_escaped (s : Bytes) (pos : Nat) :
    unpairedIssues pos (s.map escapedPiece) = [] := by
  induction s generalizing pos with
  | nil => rfl
  | cons b t ih =>
    have h := unpairedIssues_append 1 [escapedPiece b] (t.map escapedPiece) pos (by simp)
      (noPairAcross_escaped b _)
    rw [List.map_cons, ← List.singleton_append, h, ih,
      unpairedIssues_eq_nil _ pos (escapedPiece_issues b)]
    rfl

theorem stringText_eq (s : Bytes) : stringText s = stringLiteral (s.map escapedPiece) := by
  rw [stringText, stringLiteral, piecesText_escaped]

/-- The text that the serializer writes for a string is parsed as that string. -/
theorem parse_stringText (s : Bytes) :
    parse (stringText s) {} .StopAfterValueEnds = some
      { value := .string s, status := .Success, parsedSize := (stringText s).length,
        issues := [] } := by
  obtain ⟨res, hres, hp⟩ := implParse_stringLiteral {} (by intro r h; cases h)
    (s.map escapedPiece) (fun t ht => by
      obtain ⟨b, -, rfl⟩ := List.mem_map.mp ht
      exact escapedPiece_wellFormed b) [] (by simp) []
  unfold StringResult at hres
  rw [if_neg (by rintro ⟨h, -⟩; cases h)] at hres
  subst hres
  rw [parse_stop_eq, stringText_eq]
  simp only [List.nil_append, List.append_nil] at hp
  rw [hp]
  have e : optionsReplacement {} = none := rfl
  simp only [e, unescapedPieces_escaped, if_true, stringLiteral, List.length_cons,
    List.length_append, List.length_nil, List.length_singleton]
  have e2 : (({} : ParsingOptions).unpairedUtf16Surrogates = .Report) = False := by
    simp
  simp only [e2, if_false]
  have hl : 0 + 1 + (piecesText (s.map escapedPiece)).length + 1 =
      (piecesText (s.map escapedPiece)).length + (0 + 1) + 1 := by omega
  rw [hl]

theorem noDoubleArray_mem (a : List Value) (h : Value.noDoubleArray a = true) :
    ∀ x ∈ a, x.noDouble = true := by
  induction a with
  | nil => intro x hx; cases hx
  | cons y t ih =>
    rw [Value.noDoubleArray, Bool.and_eq_true] at h
    intro x hx
    rcases List.mem_cons.mp hx with rfl | hx
    · exact h.1
    · exact ih h.2 x hx

theorem noDoubleObject_mem (o : List (Bytes × Value)) (h : Value.noDoubleObject o = true) :
    ∀ x ∈ o, x.2.noDouble = true := by
  induction o with
  | nil => intro x hx; cases hx
  | cons y t ih =>
    obtain ⟨k, w⟩ := y
    rw [Value.noDoubleObject, Bool.and_eq_true] at h
    intro x hx
    rcases List.mem_cons.mp hx with rfl | hx
    · exact h.1
    · exact ih h.2 x hx

theorem keysDistinctArray_mem (a : List Value) (h : Value.keysDistinctArray a = true) :
    ∀ x ∈ a, x.keysDistinct = true := by
  induction a with
  | nil => intro x hx; cases hx
  | cons y t ih =>
    rw [Value.keysDistinctArray, Bool.and_eq_true] at h
    intro x hx
    rcases List.mem_cons.mp hx with rfl | hx
    · exact h.1
    · exact ih h.2 x hx

theorem keysDistinctObject_mem (o : List (Bytes × Value))
    (h : Value.keysDistinctObject o = true) : ∀ x ∈ o, x.2.keysDistinct = true := by
  induction o with
  | nil => intro x hx; cases hx
  | cons y t ih =>
    obtain ⟨k, w⟩ := y
    rw [Value.keysDistinctObject, Bool.and_eq_true] at h
    intro x hx
    rcases List.mem_cons.mp hx with rfl | hx
    · exact h.1
    · exact ih h.2 x hx

theorem elementsTail_text (xs : List Value) :
    elementsTail (xs.map elementOf) = Value.textElements xs := by
  induction xs with
  | nil => rw [Value.textElements]; rfl
  | cons x t ih =>
    rw [List.map_cons, elementsTail, ih, Value.textElements]
    simp [elementOf]

theorem arrayText_text (x : Value) (xs : List Value) :
    arrayText (elementOf x) (xs.map elementOf) = (Value.array (x :: xs)).text := by
  rw [arrayText, elementsTail_text, Value.text, Value.textArray]
  simp [elementOf]

theorem membersTail_text (ms : List (Bytes × Value)) :
    membersTail (ms.map memberOf) = Value.textMembers ms := by
  induction ms with
  | nil => rw [Value.textMembers]; rfl
  | cons e t ih =>
    obtain ⟨k, x⟩ := e
    rw [List.map_cons, membersTail, ih, Value.textMembers]
    simp [memberOf, Member.body]

theorem objectText_text (e : Bytes × Value) (ms : List (Bytes × Value)) :
    objectText (memberOf e) (ms.map memberOf) = (Value.object (e :: ms)).text := by
  obtain ⟨k, x⟩ := e
  rw [objectText, membersTail_text, Value.text, Value.textObject]
  simp [memberOf, Member.body]

theorem elementsIssues_nil (o : ParsingOptions) (xs : List Value)
    (h : ∀ x ∈ xs, parsedIssues o x.text = []) (p : Nat) :
    elementsIssues o p (xs.map elementOf) = [] := by
  induction xs generalizing p with
  | nil => rfl
  | cons x t ih =>
    rw [List.map_cons, elementsIssues, ih (fun y hy => h y (List.mem_cons_of_mem _ hy))]
    have : parsedIssues o (elementOf x).text = [] := h x (List.mem_cons_self _ _)
    rw [this]
    rfl

theorem membersIssues_nil (o : ParsingOptions) (ms : List (Bytes × Value))
    (hk : ∀ e ∈ ms, parsedIssues o (stringText e.1) = [])
    (hv : ∀ e ∈ ms, parsedIssues o e.2.text = []) :
    ∀ (seen : List Bytes) (p : Nat), (ms.map (fun e => e.1)).Nodup →
      (∀ e ∈ ms, e.1 ∉ seen) → membersIssues o p seen (ms.map memberOf) = [] := by
  induction ms with
  | nil => intro seen p _ _; rfl
  | cons e t ih =>
    intro seen p hnd hseen
    rw [List.map_cons, List.nodup_cons] at hnd
    have h1 : parsedIssues o (memberOf e).keyText = [] := hk e (List.mem_cons_self _ _)
    have h2 : parsedIssues o (memberOf e).valueText = [] := hv e (List.mem_cons_self _ _)
    have h3 : decide ((memberOf e).key ∈ seen) = false := by
      simp only [decide_eq_false_iff_not]
      exact hseen e (List.mem_cons_self _ _)
    rw [List.map_cons, membersIssues, h1, h2, h3,
      ih (fun y hy => hk y (List.mem_cons_of_mem _ hy))
        (fun y hy => hv y (List.mem_cons_of_mem _ hy)) _ _ hnd.2 (fun y hy => by
          rw [List.mem_cons, not_or]
          refine ⟨fun hh => hnd.1 ?_, hseen y (List.mem_cons_of_mem _ hy)⟩
          have : (memberOf e).key = e.1 := rfl
          rw [this] at hh
          rw [← hh]
          exact List.mem_map_of_mem _ hy)]
    simp [memberIssues]

theorem assign_append_new (key : Bytes) (v w : Value) (ob : List (Bytes × Value))
    (h : Object.find key ob = none) :
    Object.assign key v (ob ++ [(key, w)]) = ob ++ [(key, v)] := by
  induction ob with
  | nil => simp [Object.assign]
  | cons e t ih =>
    obtain ⟨k1, v1⟩ := e
    rw [Object.find] at h
    by_cases hk : k1 = key
    · simp [hk] at h
    · simp only [hk, if_false] at h
      simp only [List.cons_append, Object.assign, hk, if_false]
      exact congrArg _ (ih h)

theorem foldl_insertMember_new (ms : List (Bytes × Value)) :
    ∀ ob : List (Bytes × Value), (ms.map (fun e => e.1)).Nodup →
      (∀ e ∈ ms, Object.find e.1 ob = none) →
      (ms.map memberOf).foldl insertMember ob = ob ++ ms := by
  induction ms with
  | nil => intro ob _ _; simp
  | cons e t ih =>
    intro ob hnd hnew
    obtain ⟨k, x⟩ := e
    rw [List.map_cons, List.nodup_cons] at hnd
    have h0 : Object.find k ob = none := hnew (k, x) (List.mem_cons_self _ _)
    have h1 : insertMember ob (memberOf (k, x)) = ob ++ [(k, x)] := by
      unfold insertMember tryEmplace
      simp only [memberOf, h0]
      exact assign_append_new k x .null ob h0
    rw [List.map_cons, List.foldl_cons, h1, ih _ hnd.2 (fun y hy => by
      rw [find_append_one, hnew y (List.mem_cons_of_mem _ hy)]
      simp only
      rw [if_neg]
      intro hh
      have : y.1 ∈ t.map (fun e => e.1) :=
        List.mem_map_of_mem (fun e : Bytes × Value => e.1) hy
      rw [← hh] at this
      exact hnd.1 this)]
    simp

theorem text_head (v : Value) (h : v.noDouble = true) :
    ∀ b, v.text.head? = some b → ¬ isWhitespace b := by
  intro b hb
  cases v with
  | null => cases hb; decide
  | boolean c => cases c <;> cases hb <;> decide
  | int64 i =>
    rw [Value.text, to_chars_int64_eq] at hb
    obtain ⟨h1, h2, -, -⟩ := decimalDigits_spec 19 i.val.natAbs (natAbs_int64_lt i)
    obtain ⟨c, rest, e, hc⟩ := intLiteral_head (decide (i.val < 0)) _ h1 h2
    rw [e] at hb
    simp only [List.head?_cons, Option.some.injEq] at hb
    subst hb
    unfold isWhitespace
    rcases hc with hc | hc
    · omega
    · have := (isDecimalDigit_iff c).mp hc
      omega
  | double d => simp [Value.noDouble] at h
  | string s => cases hb; decide
  | array a =>
    cases a with
    | nil => cases hb; decide
    | cons x xs =>
      rw [Value.text, Value.textArray] at hb
      cases hb
      decide
  | object o =>
    cases o with
    | nil => cases hb; decide
    | cons e ms =>
      obtain ⟨k, x⟩ := e
      rw [Value.text, Value.textObject] at hb
      cases hb
      decide

theorem parsedIssues_of_parse (o : ParsingOptions) (t : Bytes) (r : ParsingResult)
    (h : parse t o .StopAfterValueEnds = some r) : parsedIssues o t = r.issues := by
  unfold parsedIssues
  rw [h]

/-- The text that the serializer writes for a value without a `Double` is parsed, with the
default options, as that value. -/
theorem parse_text : ∀ (n : Nat) (v : Value), v.height ≤ n → v.noDouble = true →
    v.keysDistinct = true →
    parse v.text {} .StopAfterValueEnds = some
      { value := v, status := .Success, parsedSize := v.text.length, issues := [] } := by
  intro n
  induction n with
  | zero =>
    intro v h
    have := height_pos v
    omega
  | succ n ih =>
    intro v hh hnd hkd
    cases v with
    | null => rw [Value.text]; decide!
    | boolean b => cases b <;> rw [Value.text] <;> decide!
    | int64 i => rw [Value.text]; exact parse_to_chars_int64 i {}
    | double d => simp [Value.noDouble] at hnd
    | string s => rw [Value.text]; exact parse_stringText s
    | array a =>
      cases a with
      | nil => rw [Value.text, Value.textArray]; decide!
      | cons x xs =>
        rw [Value.height] at hh
        rw [Value.noDouble] at hnd
        rw [Value.keysDistinct] at hkd
        have hall : ∀ y ∈ x :: xs, parse y.text {} .StopAfterValueEnds = some
            { value := y, status := .Success, parsedSize := y.text.length, issues := [] } ∧
            y.noDouble = true := by
          intro y hy
          have h1 := height_le_heightArray _ y hy
          have h2 := noDoubleArray_mem _ hnd y hy
          exact ⟨ih y (by omega) h2 (keysDistinctArray_mem _ hkd y hy), h2⟩
        have hwf : ∀ el ∈ elementOf x :: xs.map elementOf, el.WellFormed {} := by
          intro el hel
          rw [← List.map_cons] at hel
          obtain ⟨y, hy, rfl⟩ := List.mem_map.mp hel
          exact ⟨by simp [elementOf], by simp [elementOf], text_head y (hall y hy).2, [],
            (hall y hy).1⟩
        have h := implParse_arrayText {} (elementOf x) (xs.map elementOf) hwf
        have hi : elementsIssues {} 1 (elementOf x :: xs.map elementOf) = [] := by
          rw [← List.map_cons]
          exact elementsIssues_nil {} (x :: xs)
            (fun y hy => parsedIssues_of_parse _ _ _ (hall y hy).1) 1
        have hv : (elementOf x :: xs.map elementOf).map (fun y => y.value) = x :: xs := by
          simp [elementOf, Function.comp_def]
        rw [arrayText_text, hi, hv] at h
        rw [parse_stop_eq, h]
    | object o =>
      cases o with
      | nil => rw [Value.text, Value.textObject]; decide!
      | cons e ms =>
        rw [Value.height] at hh
        rw [Value.noDouble] at hnd
        rw [Value.keysDistinct, Bool.and_eq_true, decide_eq_true_eq] at hkd
        have hall : ∀ y ∈ e :: ms, parse y.2.text {} .StopAfterValueEnds = some
            { value := y.2, status := .Success, parsedSize := y.2.text.length, issues := [] } ∧
            y.2.noDouble = true := by
          intro y hy
          have h1 := height_le_heightObject _ y hy
          have h2 := noDoubleObject_mem _ hnd y hy
          exact ⟨ih y.2 (by omega) h2 (keysDistinctObject_mem _ hkd.2 y hy), h2⟩
        have hwf : ∀ m ∈ memberOf e :: ms.map memberOf, m.WellFormed {} := by
          intro m hm
          rw [← List.map_cons] at hm
          obtain ⟨y, hy, rfl⟩ := List.mem_map.mp hm
          exact ⟨by simp [memberOf], by simp [memberOf], by simp [memberOf],
            by simp [memberOf], rfl, text_head y.2 (hall y hy).2,
            ⟨[], parse_stringText y.1⟩, ⟨[], (hall y hy).1⟩⟩
        have hkeys : ((memberOf e :: ms.map memberOf).map (fun y => y.key)) =
            (e :: ms).map (fun y => y.1) := by
          simp [memberOf, Function.comp_def]
        have h := implParse_objectText_issues {} (memberOf e) (ms.map memberOf) hwf
          (fun _ => by rw [hkeys]; exact hkd.1)
        have hi : membersIssues {} 1 [] (memberOf e :: ms.map memberOf) = [] := by
          rw [← List.map_cons]
          exact membersIssues_nil {} (e :: ms)
            (fun y _ => parsedIssues_of_parse _ _ _ (parse_stringText y.1))
            (fun y hy => parsedIssues_of_parse _ _ _ (hall y hy).1) [] 1 hkd.1
            (fun _ _ => List.not_mem_nil _)
        have hv : (memberOf e :: ms.map memberOf).foldl insertMember [] = e :: ms := by
          rw [← List.map_cons, foldl_insertMember_new (e :: ms) [] hkd.1 (fun _ _ => rfl)]
          rfl
        rw [objectText_text, hi, hv] at h
        rw [parse_stop_eq, h]

theorem eqArray_self (a : List Value) (h : ∀ x ∈ a, Value.eq x x = true) :
    Value.eqArray a a = true := by
  induction a with
  | nil => rw [Value.eqArray]
  | cons x t ih =>
    rw [Value.eqArray, h x (List.mem_cons_self _ _),
      ih (fun y hy => h y (List.mem_cons_of_mem _ hy))]
    rfl

theorem eqObject_sub (b : List (Bytes × Value)) : ∀ a : List (Bytes × Value),
    (∀ e ∈ a, Object.find e.1 b = some e.2 ∧ Value.eq e.2 e.2 = true) →
    Value.eqObject a b = true := by
  intro a
  induction a with
  | nil => intro _; rw [Value.eqObject]
  | cons e t ih =>
    intro h
    obtain ⟨k, x⟩ := e
    obtain ⟨h1, h2⟩ := h (k, x) (List.mem_cons_self _ _)
    rw [Value.eqObject, ih (fun y hy => h y (List.mem_cons_of_mem _ hy))]
    simp only at h1 h2
    rw [h1]
    simp only [h2, Bool.and_self]

theorem find_of_mem (o : List (Bytes × Value)) (hnd : (o.map (fun e => e.1)).Nodup) :
    ∀ e ∈ o, Object.find e.1 o = some e.2 := by
  induction o with
  | nil => intro e he; cases he
  | cons y t ih =>
    obtain ⟨k, x⟩ := y
    rw [List.map_cons, List.nodup_cons] at hnd
    intro e he
    rw [Object.find]
    rcases List.mem_cons.mp he with rfl | he
    · simp
    · have hne : ¬ k = e.1 := by
        intro hh
        have : e.1 ∈ t.map (fun e => e.1) := List.mem_map_of_mem (fun e : Bytes × Value => e.1) he
        rw [← hh] at this
        exact hnd.1 this
      rw [if_neg hne]
      exact ih hnd.2 e he

/-- A value without a `Double` is equal to itself under `operator==`. -/
theorem eq_self : ∀ (n : Nat) (v : Value), v.height ≤ n → v.noDouble = true →
    v.keysDistinct = true → Value.eq v v = true := by
  intro n
  induction n with
  | zero =>
    intro v h
    have := height_pos v
    omega
  | succ n ih =>
    intro v hh hnd hkd
    cases v with
    | null => rw [Value.eq]
    | boolean b => rw [Value.eq]; simp
    | int64 i => rw [Value.eq]; simp
    | double d => simp [Value.noDouble] at hnd
    | string s => rw [Value.eq]; simp
    | array a =>
      rw [Value.height] at hh
      rw [Value.noDouble] at hnd
      rw [Value.keysDistinct] at hkd
      rw [Value.eq]
      exact eqArray_self a (fun y hy => by
        have h1 := height_le_heightArray _ y hy
        exact ih y (by omega) (noDoubleArray_mem _ hnd y hy) (keysDistinctArray_mem _ hkd y hy))
    | object o =>
      rw [Value.height] at hh
      rw [Value.noDouble] at hnd
      rw [Value.keysDistinct, Bool.and_eq_true, decide_eq_true_eq] at hkd
      rw [Value.eq, eqObject_sub o o (fun y hy => by
        have h1 := height_le_heightObject _ y hy
        exact ⟨find_of_mem o hkd.1 y hy,
          ih y.2 (by omega) (noDoubleObject_mem _ hnd y hy)
            (keysDistinctObject_mem _ hkd.2 y hy)⟩)]
      simp

/-- C1 as the code has it: the `Double` `1.0` is written as `1`, which is parsed as the
`Int64` `1`; the value that comes back is another alternative of the variant and is not equal
to the value that was written. -/
theorem roundTrip_double_one :
    (roundTrip (.double ⟨false, 1023, 0⟩)).map
      (fun r => (r.value, r.status, Value.eq r.value (.double ⟨false, 1023, 0⟩))) =
    some (.int64 ⟨1, by decide⟩, .Success, false) := by
  decide!

theorem ScanEnd.stop_next (p : Ptr) (b : Byte) (t : Bytes) (h : p.rest = b :: t) (e : ScanEnd) :
    e.next.stop p = e.stop p.next := by
  cases e with
  | complete => simp [ScanEnd.next, ScanEnd.stop, Ptr.next, h]; omega
  | invalid k => simp [ScanEnd.next, ScanEnd.stop, Ptr.next]; omega
  | truncated => rfl

theorem hexDigit_test : ∀ b : Byte,
    (isDecimalDigit b = true → hexDigitValue b ≠ none) ∧
    (isDecimalDigit b ≠ true → (97 ≤ (b.val ||| 0x20) ∧ (b.val ||| 0x20) ≤ 102) →
      hexDigitValue b ≠ none) ∧
    (isDecimalDigit b ≠ true → ¬ (97 ≤ (b.val ||| 0x20) ∧ (b.val ||| 0x20) ≤ 102) →
      hexDigitValue b = none) := by
  decide!

theorem parseEscapeHex_scan (mode : UnescapeMode) (n c : Nat) (p : Ptr) :
    match (EscapedStringParser.parseEscapeHex n c p).1.result with
    | .InvalidCharacter =>
      (if n = 0 then scanEscapes mode .text p.rest else scanEscapes mode (.hex n) p.rest).stop p
        = some (EscapedStringParser.parseEscapeHex n c p).2.pos
    | .UnexpectedEndOfInput =>
      (if n = 0 then scanEscapes mode .text p.rest else scanEscapes mode (.hex n) p.rest).stop p
        = none
    | _ =>
      (if n = 0 then scanEscapes mode .text p.rest else scanEscapes mode (.hex n) p.rest).stop p
        = stopAt mode (EscapedStringParser.parseEscapeHex n c p).2 := by
  induction n generalizing c p with
  | zero =>
    unfold EscapedStringParser.parseEscapeHex
    simp only [if_true]
    split_ifs <;> simp [stopAt]
  | succ n ih =>
    unfold EscapedStringParser.parseEscapeHex
    cases hr : p.rest with
    | nil => simp [scanEscapes, ScanEnd.stop]
    | cons b r =>
      have hb := hexDigit_test b
      simp only
      have e0 : (if n + 1 = 0 then scanEscapes mode .text (b :: r)
          else scanEscapes mode (.hex (n + 1)) (b :: r)) = scanEscapes mode (.hex (n + 1)) (b :: r) :=
        if_neg (Nat.succ_ne_zero n)
      rw [e0]
      have key : hexDigitValue b ≠ none →
          (scanEscapes mode (.hex (n + 1)) (b :: r)).stop p =
          (if n = 0 then scanEscapes mode .text p.next.rest
            else scanEscapes mode (.hex n) p.next.rest).stop p.next := by
        intro hd
        have hnr : p.next.rest = r := by simp [Ptr.next, hr]
        rw [scanEscapes, if_pos hd, ScanEnd.stop_next p b r hr, hnr]
        by_cases hn : n = 0
        · subst hn; simp
        · have : ¬ n + 1 ≤ 1 := by omega
          simp [hn, this]
      by_cases h1 : isDecimalDigit b = true
      · have := ih (c <<< 4 % 2 ^ 32 ||| (b.val - 48)) p.next
        rw [if_pos h1, key (hb.1 h1)]
        exact this
      · rw [if_neg h1]
        by_cases h2 : 97 ≤ (b.val ||| 0x20) ∧ (b.val ||| 0x20) ≤ 102
        · have := ih (c <<< 4 % 2 ^ 32 ||| ((b.val ||| 0x20) - 87)) p.next
          rw [if_pos h2, key (hb.2.1 h1 h2)]
          exact this
        · have hd := hb.2.2 h1 h2
          rw [if_neg h2]
          simp [scanEscapes, hd, ScanEnd.stop]

theorem simpleEscape_test : ∀ b : Byte,
    simpleEscapeValue b ≠ none ↔
      (b.val = 34 ∨ b.val = 92 ∨ b.val = 47 ∨ b.val = 98 ∨ b.val = 102 ∨ b.val = 110 ∨
        b.val = 114 ∨ b.val = 116) := by
  decide!

theorem parseEscape_scan (mode : UnescapeMode) (p : Ptr) (r : EscapedStringParser.Result)
    (j : Ptr) (h : EscapedStringParser.parseEscape p = some (r, j)) :
    match r.result with
    | .InvalidCharacter => (scanEscapes mode .escape p.rest).stop p = some j.pos
    | .UnexpectedEndOfInput => (scanEscapes mode .escape p.rest).stop p = none
    | _ => (scanEscapes mode .escape p.rest).stop p = stopAt mode j := by
  unfold EscapedStringParser.parseEscape at h
  cases hr : p.rest with
  | nil => simp [hr] at h
  | cons b rest =>
    have hs := simpleEscape_test b
    have hnr : p.next.rest = rest := by simp [Ptr.next, hr]
    simp only [hr] at h
    by_cases hsimple : simpleEscapeValue b ≠ none
    · have hu : ¬ b.val = 117 := by
        rcases hs.1 hsimple with h | h | h | h | h | h | h | h <;> omega
      have e : (scanEscapes mode .escape (b :: rest)).stop p = stopAt mode p.next := by
        rw [scanEscapes, if_pos hsimple, ScanEnd.stop_next p b rest hr, stopAt, hnr]
      rw [e]
      rcases hs.1 hsimple with h1 | h1 | h1 | h1 | h1 | h1 | h1 | h1 <;>
        simp [h1] at h <;> obtain ⟨rfl, rfl⟩ := h <;> rfl
    · have hn : ¬ (b.val = 34 ∨ b.val = 92 ∨ b.val = 47 ∨ b.val = 98 ∨ b.val = 102 ∨
          b.val = 110 ∨ b.val = 114 ∨ b.val = 116) := fun x => hsimple (hs.2 x)
      simp only [not_or] at hn
      obtain ⟨n1, n2, n3, n4, n5, n6, n7, n8⟩ := hn
      simp only [n1, n2, n3, n4, n5, n6, n7, n8, if_false] at h
      simp only [ne_eq, not_not] at hsimple
      by_cases hu : b.val = 117
      · simp only [hu, if_true, Option.some.injEq] at h
        have h1 : r = (EscapedStringParser.parseEscapeHex 4 0 p.next).1 := by rw [h]
        have h2 : j = (EscapedStringParser.parseEscapeHex 4 0 p.next).2 := by rw [h]
        have := parseEscapeHex_scan mode 4 0 p.next
        rw [← h1, ← h2] at this
        have e : (scanEscapes mode .escape (b :: rest)).stop p =
            (scanEscapes mode (.hex 4) p.next.rest).stop p.next := by
          rw [scanEscapes, if_neg (by simp [hsimple]), if_pos hu, ScanEnd.stop_next p b rest hr, hnr]
        rw [e]
        simpa using this
      · simp only [hu, if_false, Option.some.injEq, Prod.mk.injEq] at h
        obtain ⟨rfl, rfl⟩ := h
        simp [scanEscapes, hsimple, hu, ScanEnd.stop]

theorem controlCharacter_test : ∀ b : Byte, isControlCharacter b = true ↔ b.val < 32 := by
  decide!

theorem parseMore_scan (mode : UnescapeMode) (i : Ptr) (r : EscapedStringParser.Result)
    (j : Ptr) (h : EscapedStringParser.parseMore mode i = some (r, j)) :
    match r.result with
    | .InvalidCharacter => stopAt mode i = some j.pos
    | .UnexpectedEndOfInput => stopAt mode i = none
    | .JsonStringEnd =>
      if mode = .Strict then stopAt mode i = some j.pos else stopAt mode i = stopAt mode j.next
    | _ => stopAt mode i = stopAt mode j := by
  unfold EscapedStringParser.parseMore at h
  cases hr : i.rest with
  | nil => simp [hr] at h
  | cons b rest =>
    have hnr : i.next.rest = rest := by simp [Ptr.next, hr]
    have hc := controlCharacter_test b
    simp only [hr] at h
    by_cases h92 : b.val = 92
    · have e : stopAt mode i = (scanEscapes mode .escape i.next.rest).stop i.next := by
        rw [stopAt, hr, scanEscapes, if_pos h92, ScanEnd.stop_next i b rest hr, hnr]
      rw [e]
      simp only [h92, if_true] at h
      by_cases hend : i.next.rest = []
      · simp only [hend, if_true, Option.some.injEq, Prod.mk.injEq] at h
        obtain ⟨rfl, rfl⟩ := h
        simp [hend, scanEscapes, ScanEnd.stop]
      · simp only [hend, if_false] at h
        have := parseEscape_scan mode i.next r j h
        have hsp := (parseEscape_spec _ r j h).2
        cases hres : r.result <;> simp only [hres] at this hsp ⊢ <;>
          first | exact this | exact hsp.elim
    · simp only [h92, if_false] at h
      by_cases h34 : b.val = 34
      · simp only [h34, if_true, Option.some.injEq, Prod.mk.injEq] at h
        obtain ⟨rfl, rfl⟩ := h
        simp only
        by_cases hm : mode = .Strict
        · simp [hm, stopAt, hr, scanEscapes, h92, h34, ScanEnd.stop]
        · rw [if_neg hm, stopAt, hr, scanEscapes, if_neg h92, if_neg (by simp [hm]),
            ScanEnd.stop_next i b rest hr, stopAt, hnr]
      · simp only [h34, if_false] at h
        by_cases hctl : mode = .Strict ∧ isControlCharacter b
        · simp only [hctl, and_self, if_true, Option.some.injEq, Prod.mk.injEq] at h
          obtain ⟨rfl, rfl⟩ := h
          have := hc.1 hctl.2
          simp [stopAt, hr, scanEscapes, h92, hctl.1, this, ScanEnd.stop]
        · rw [if_neg hctl] at h
          simp only [Option.some.injEq, Prod.mk.injEq] at h
          obtain ⟨rfl, rfl⟩ := h
          have hn : ¬ (mode = .Strict ∧ (b.val = 34 ∨ b.val < 32)) := by
            rintro ⟨hm, h | h⟩
            · exact h34 h
            · exact hctl ⟨hm, hc.2 h⟩
          simp only
          rw [stopAt, hr, scanEscapes, if_neg h92, if_neg hn, ScanEnd.stop_next i b rest hr,
            stopAt, hnr]

theorem encode123_ne_nil (c : Nat) : Utf8Encoder.encode123 c ≠ [] := by
  unfold Utf8Encoder.encode123
  split_ifs <;> simp [Utf8Encoder.encodeCodePoint]

theorem encodeSurrogateCodeUnit_ne_nil (u sr : Nat) :
    Utf8Encoder.encodeSurrogateCodeUnitAsCodePoint u sr ≠ [] := by
  unfold Utf8Encoder.encodeSurrogateCodeUnitAsCodePoint
  split_ifs
  · exact encode123_ne_nil _
  · simp [Utf8Encoder.encode4, Utf8Encoder.encodeCodePoint]
  · exact encode123_ne_nil _

theorem encodePair_ne_nil (a b : Nat) : Utf8Encoder.encode a b ≠ [] := by
  simp [Utf8Encoder.encode, Utf8Encoder.encode4, Utf8Encoder.encodeCodePoint]

theorem parseEscapeHex_unescaped (n c : Nat) (p : Ptr)
    (h : (EscapedStringParser.parseEscapeHex n c p).1.result = .Unescaped) :
    (EscapedStringParser.parseEscapeHex n c p).1.unescaped ≠ [] := by
  induction n generalizing c p with
  | zero =>
    unfold EscapedStringParser.parseEscapeHex at h ⊢
    split_ifs at h ⊢ <;> first | exact encode123_ne_nil _ | simp at h
  | succ n ih =>
    unfold EscapedStringParser.parseEscapeHex at h ⊢
    cases hr : p.rest with
    | nil => simp [hr] at h
    | cons b r =>
      simp only [hr] at h ⊢
      split_ifs at h ⊢ with h1 h2
      · exact ih _ _ h
      · exact ih _ _ h

theorem parseMore_unescaped (mode : UnescapeMode) (i : Ptr) (r : EscapedStringParser.Result)
    (j : Ptr) (h : EscapedStringParser.parseMore mode i = some (r, j))
    (hk : r.result = .Unescaped) : r.unescaped ≠ [] := by
  unfold EscapedStringParser.parseMore at h
  cases hr : i.rest with
  | nil => simp [hr] at h
  | cons b rest =>
    simp only [hr] at h
    split_ifs at h with h1 h2 h3 h4
    · simp at h; obtain ⟨rfl, rfl⟩ := h; simp at hk
    · unfold EscapedStringParser.parseEscape at h
      cases hr2 : i.next.rest with
      | nil => exact absurd hr2 h2
      | cons b2 rest2 =>
        simp only [hr2] at h
        split_ifs at h <;> simp only [Option.some.injEq, Prod.mk.injEq] at h <;>
          first
          | (obtain ⟨rfl, rfl⟩ := h; first | (simp at hk; done) | (simp; done))
          | (have h1 : r = (EscapedStringParser.parseEscapeHex 4 0 i.next.next).1 := by rw [h]
             rw [h1] at hk ⊢
             exact parseEscapeHex_unescaped 4 0 _ hk)
    · simp at h; obtain ⟨rfl, rfl⟩ := h; simp at hk
    · simp at h; obtain ⟨rfl, rfl⟩ := h; simp at hk
    · simp at h; obtain ⟨rfl, rfl⟩ := h; simp at hk

theorem range_ne_nil (pb i : Ptr) (hr : pb.Reach i) (hp : pb.pos ≠ i.pos) : pb.range i ≠ [] := by
  obtain ⟨c, h1, h2⟩ := hr
  have hc : c ≠ [] := by
    rintro rfl
    simp at h2
    exact hp h2.symm
  have e : i.pos - pb.pos = c.length := by omega
  simp only [Ptr.range, h1, e, List.take_left', ne_eq]
  exact hc

theorem stopAt_end (mode : UnescapeMode) (i : Ptr) (h : i.rest = []) :
    stopAt mode i = some i.pos := by
  simp [stopAt, h, scanEscapes, ScanEnd.stop]

theorem unescapeSurrogates_scan (mode : UnescapeMode) (sr : Nat) :
    ∀ (fuel : Nat) (out : List Bytes) (s : Nat) (i : Ptr), i.rest.length < fuel →
      ∃ e, UnescapeParser.unescapeSurrogates mode sr fuel out s i = some e ∧
        match e with
        | .returned p out2 =>
          p.map Ptr.pos = stopAt mode i ∧
            ∀ q, p = some q → i.Reach q ∧ (q.rest = [] → out2.flatten ≠ [])
        | .broke out2 pb i2 =>
          stopAt mode i2 = stopAt mode i ∧ i2.rest.length < i.rest.length ∧ pb.Reach i2 ∧
            i.Reach i2 ∧ out2.flatten ≠ [] := by
  intro fuel
  induction fuel with
  | zero => intro out s i h; omega
  | succ fuel ih =>
    intro out s i hf
    rw [UnescapeParser.unescapeSurrogates]
    have henc := encodeSurrogateCodeUnit_ne_nil s sr
    by_cases hend : i.rest = []
    · refine ⟨_, if_pos hend, ?_, ?_⟩
      · simp [stopAt_end mode i hend]
      · intro q hq
        simp only [Option.some.injEq] at hq
        subst hq
        exact ⟨Ptr.Reach.refl _, fun _ => by simp [henc]⟩
    · rw [if_neg hend]
      have hsome := parseMore_isSome mode i hend
      cases hpm : EscapedStringParser.parseMore mode i with
      | none => simp [hpm] at hsome
      | some x =>
        obtain ⟨r2, j⟩ := x
        have hspec := parseMore_spec mode i r2 j hpm
        have hscan := parseMore_scan mode i r2 j hpm
        have hunesc := parseMore_unescaped mode i r2 j hpm
        obtain ⟨hreach, hspec⟩ := hspec
        have hsize := hreach.size_eq
        have hnl := Ptr.next_length hend
        simp only
        cases hres : r2.result <;> simp only [hres] at hscan hspec ⊢
        · -- Skip
          obtain ⟨rfl, _⟩ := hspec
          exact ⟨_, rfl, hscan.symm, by omega, Ptr.reach_next hend, Ptr.reach_next hend,
            by simp [henc]⟩
        · -- Unescaped
          exact ⟨_, rfl, hscan.symm, by omega, Ptr.Reach.refl _, hreach, by simp [henc]⟩
        · -- HighSurrogate
          obtain ⟨e, he, hprop⟩ := ih (out ++
            [Utf8Encoder.encodeSurrogateCodeUnitAsCodePoint s sr]) r2.surrogate j (by omega)
          refine ⟨e, he, ?_⟩
          cases e with
          | returned p out2 =>
            simp only at hprop ⊢
            refine ⟨by rw [hprop.1, hscan], fun q hq => ?_⟩
            exact ⟨hreach.trans (hprop.2 q hq).1, (hprop.2 q hq).2⟩
          | broke out2 pb i2 =>
            simp only at hprop ⊢
            obtain ⟨h1, h2, h3, h4, h5⟩ := hprop
            exact ⟨by rw [h1, hscan], by omega, h3, hreach.trans h4, h5⟩
        · -- LowSurrogate
          exact ⟨_, rfl, hscan.symm, by omega, Ptr.Reach.refl _, hreach,
            by simp [encodePair_ne_nil]⟩
        · -- JsonStringEnd
          obtain ⟨rfl, _⟩ := hspec
          by_cases hm : mode = .Strict
          · rw [if_pos hm] at hscan
            refine ⟨_, if_pos hm, by simp [hscan], fun q hq => ?_⟩
            simp only [Option.some.injEq] at hq
            subst hq
            exact ⟨Ptr.Reach.refl _, fun h => absurd h hend⟩
          · rw [if_neg hm] at hscan
            exact ⟨_, if_neg hm, hscan.symm, by omega, Ptr.reach_next hend,
              Ptr.reach_next hend, by simp [henc]⟩
        · -- InvalidCharacter
          refine ⟨_, rfl, by simp [hscan], fun q hq => ?_⟩
          simp only [Option.some.injEq] at hq
          subst hq
          exact ⟨hreach, fun h => absurd h hspec⟩
        · -- UnexpectedEndOfInput
          exact ⟨_, rfl, by simp [hscan], fun q hq => by simp at hq⟩

theorem unescapeLoop_scan (mode : UnescapeMode) (sr : Nat) :
    ∀ (fuel : Nat) (out : List Bytes) (pb i : Ptr), pb.Reach i → i.rest ≠ [] →
      i.rest.length < fuel →
      ∃ p out2, UnescapeParser.unescapeLoop mode sr fuel out pb i = some (p, out2) ∧
        p.map Ptr.pos = stopAt mode i ∧
        ∀ q, p = some q → i.Reach q ∧ (q.rest = [] → out2.flatten ≠ []) := by
  intro fuel
  induction fuel with
  | zero => intro out pb i _ _ h; omega
  | succ fuel ih =>
    intro out pb i hpb hend hf
    rw [UnescapeParser.unescapeLoop]
    have hsome := parseMore_isSome mode i hend
    cases hpm : EscapedStringParser.parseMore mode i with
    | none => simp [hpm] at hsome
    | some x =>
      obtain ⟨r, j⟩ := x
      have hspec := parseMore_spec mode i r j hpm
      have hscan := parseMore_scan mode i r j hpm
      have hunesc := parseMore_unescaped mode i r j hpm
      obtain ⟨hreach, hspec⟩ := hspec
      have hsize := hreach.size_eq
      have hnl := Ptr.next_length hend
      -- the test of the loop, from a state that has gone forward
      have again : ∀ (out1 : List Bytes) (pb1 i1 : Ptr), pb1.Reach i1 → i.Reach i1 →
          i1.rest.length < i.rest.length → stopAt mode i1 = stopAt mode i →
          (out1.flatten ≠ [] ∨ pb1.pos ≠ i1.pos) →
          ∃ p out2,
            (if i1.rest = [] then some (some i1, UnescapeParser.writePending out1 pb1 i1)
              else UnescapeParser.unescapeLoop mode sr fuel out1 pb1 i1) = some (p, out2) ∧
            p.map Ptr.pos = stopAt mode i ∧
            ∀ q, p = some q → i.Reach q ∧ (q.rest = [] → out2.flatten ≠ []) := by
        intro out1 pb1 i1 hr1 hr2 hl hst hne
        by_cases he : i1.rest = []
        · refine ⟨_, _, if_pos he, by simp [← hst, stopAt_end mode i1 he], fun q hq => ?_⟩
          simp only [Option.some.injEq] at hq
          subst hq
          refine ⟨hr2, fun _ => ?_⟩
          rw [unescape_writePending_flatten]
          rcases hne with h | h
          · simp [h]
          · have := range_ne_nil pb1 i1 hr1 h
            simp [this]
        · obtain ⟨p, out2, h1, h2, h3⟩ := ih out1 pb1 i1 hr1 he (by omega)
          refine ⟨p, out2, by rw [if_neg he]; exact h1, by rw [h2, hst], fun q hq => ?_⟩
          exact ⟨hr2.trans (h3 q hq).1, (h3 q hq).2⟩
      simp only
      cases hres : r.result <;> simp only [hres] at hscan hspec ⊢
      · -- Skip
        obtain ⟨rfl, _⟩ := hspec
        have hr1 := hpb.trans hreach
        exact again out pb i.next hr1 hreach (by omega) hscan.symm
          (Or.inr (by have := hpb.pos_le; simp [Ptr.next]; omega))
      · -- Unescaped
        exact again _ j j (Ptr.Reach.refl _) hreach (by omega) hscan.symm
          (Or.inl (by simp [hunesc hres]))
      · -- HighSurrogate
        obtain ⟨e, he, hprop⟩ := unescapeSurrogates_scan mode sr fuel
          (UnescapeParser.writePending out pb i) r.surrogate j (by omega)
        rw [he]
        cases e with
        | returned p out2 =>
          simp only at hprop ⊢
          refine ⟨p, out2, rfl, by rw [hprop.1, hscan], fun q hq => ?_⟩
          exact ⟨hreach.trans (hprop.2 q hq).1, (hprop.2 q hq).2⟩
        | broke out2 pb2 i2 =>
          simp only at hprop ⊢
          obtain ⟨h1, h2, h3, h4, h5⟩ := hprop
          exact again out2 pb2 i2 h3 (hreach.trans h4) (by omega) (by rw [h1, hscan])
            (Or.inl h5)
      · -- LowSurrogate
        exact again _ j j (Ptr.Reach.refl _) hreach (by omega) hscan.symm
          (Or.inl (by simp [encodeSurrogateCodeUnit_ne_nil]))
      · -- JsonStringEnd
        obtain ⟨rfl, _⟩ := hspec
        by_cases hm : mode = .Strict
        · rw [if_pos hm] at hscan
          refine ⟨_, _, if_pos hm, by simp [hscan], fun q hq => ?_⟩
          simp only [Option.some.injEq] at hq
          subst hq
          exact ⟨Ptr.Reach.refl _, fun h => absurd h hend⟩
        · rw [if_neg hm] at hscan ⊢
          have hr1 := hpb.trans (Ptr.reach_next hend)
          exact again out pb j.next hr1 (Ptr.reach_next hend) (by omega) hscan.symm
            (Or.inr (by have := hpb.pos_le; simp [Ptr.next]; omega))
      · -- InvalidCharacter
        refine ⟨_, _, rfl, by simp [hscan], fun q hq => ?_⟩
        simp only [Option.some.injEq] at hq
        subst hq
        exact ⟨hreach, fun h => absurd h hspec⟩
      · -- UnexpectedEndOfInput
        exact ⟨_, _, rfl, by simp [hscan], fun q hq => by simp at hq⟩

theorem scanEscapes_invalid_lt (mode : UnescapeMode) :
    ∀ (t : Bytes) (st : ScanState) (k : Nat), scanEscapes mode st t = .invalid k → k < t.length := by
  intro t
  induction t with
  | nil => intro st k h; cases st <;> simp [scanEscapes] at h
  | cons b t ih =>
    intro st k h
    have step : ∀ (st2 : ScanState), (scanEscapes mode st2 t).next = .invalid k →
        k < (b :: t).length := by
      intro st2 h2
      cases hs : scanEscapes mode st2 t with
      | complete => simp [hs, ScanEnd.next] at h2
      | truncated => simp [hs, ScanEnd.next] at h2
      | invalid m =>
        simp only [hs, ScanEnd.next, ScanEnd.invalid.injEq] at h2
        have := ih st2 m hs
        simp only [List.length_cons]
        omega
    have zero : ScanEnd.invalid 0 = .invalid k → k < (b :: t).length := by
      intro h2
      simp only [ScanEnd.invalid.injEq] at h2
      simp only [List.length_cons]
      omega
    cases st with
    | text =>
      rw [scanEscapes] at h
      split_ifs at h
      · exact step _ h
      · exact zero h
      · exact step _ h
    | escape =>
      rw [scanEscapes] at h
      split_ifs at h
      · exact step _ h
      · exact step _ h
      · exact zero h
    | hex n =>
      rw [scanEscapes] at h
      split_ifs at h
      · exact step _ h
      · exact step _ h
      · exact zero h

theorem implUnescape_scan (input : Bytes) (mode : UnescapeMode) (sr : Nat) :
    ∃ frags, impl.unescape input mode sr =
        some ((scanEscapes mode .text input).result input.length, frags) ∧
      (input ≠ [] → scanEscapes mode .text input = .complete → frags.flatten ≠ []) := by
  unfold impl.unescape
  by_cases he : input = []
  · subst he
    exact ⟨[], by simp [scanEscapes, ScanEnd.result], fun h => absurd rfl h⟩
  · rw [if_neg he]
    obtain ⟨p, out, h1, h2, h3⟩ := unescapeLoop_scan mode sr (input.length + 1) []
      ⟨0, input⟩ ⟨0, input⟩ (Ptr.Reach.refl _) he (by simp)
    unfold UnescapeParser.unescape
    rw [h1]
    simp only [stopAt] at h2
    cases hs : scanEscapes mode .text input with
    | complete =>
      simp only [hs, ScanEnd.stop, Nat.zero_add] at h2
      cases p with
      | none => simp at h2
      | some q =>
        simp only [Option.map_some', Option.some.injEq] at h2
        refine ⟨out, by simp [ScanEnd.result, h2], fun _ _ => ?_⟩
        have := (h3 q rfl).1.size_eq
        simp only at this
        exact (h3 q rfl).2 (List.length_eq_zero.1 (by omega))
    | invalid k =>
      simp only [hs, ScanEnd.stop, Nat.zero_add] at h2
      cases p with
      | none => simp at h2
      | some q =>
        simp only [Option.map_some', Option.some.injEq] at h2
        exact ⟨out, by simp [ScanEnd.result, h2], fun _ h => by simp at h⟩
    | truncated =>
      simp only [hs, ScanEnd.stop] at h2
      cases p with
      | none => exact ⟨out, by simp [ScanEnd.result], fun _ h => by simp at h⟩
      | some q => simp at h2

theorem unescapeLoop_plain (mode : UnescapeMode) (sr : Nat) :
    ∀ (fuel : Nat) (out : List Bytes) (pb i : Ptr), pb.Reach i → i.rest ≠ [] →
      i.rest.length < fuel →
      (∀ b ∈ i.rest, b.val ≠ 92 ∧ (mode = .Strict → ¬ (b.val < 32 ∨ b.val = 34))) →
      UnescapeParser.unescapeLoop mode sr fuel out pb i =
        some (some ⟨i.pos + i.rest.length, []⟩, out ++ [pb.rest.take (i.pos + i.rest.length - pb.pos)]) := by
  intro fuel
  induction fuel with
  | zero => intro out pb i _ _ h; omega
  | succ fuel ih =>
    intro out pb i hpb hend hf hplain
    cases hr : i.rest with
    | nil => exact absurd hr hend
    | cons b rest =>
      have hb := hplain b (by simp [hr])
      have hc := controlCharacter_test b
      have hnr : i.next = ⟨i.pos + 1, rest⟩ := by simp [Ptr.next, hr]
      have hreach : pb.Reach i.next := hpb.trans (Ptr.reach_next hend)
      have hpos := hpb.pos_le
      -- the test of the loop at the next byte
      have again : (if i.next.rest = [] then
            some (some i.next, UnescapeParser.writePending out pb i.next)
          else UnescapeParser.unescapeLoop mode sr fuel out pb i.next) =
          some (some ⟨i.pos + (b :: rest).length, []⟩,
            out ++ [pb.rest.take (i.pos + (b :: rest).length - pb.pos)]) := by
        by_cases he : i.next.rest = []
        · rw [if_pos he]
          have hrest : rest = [] := by rw [hnr] at he; exact he
          subst hrest
          have hne : ¬ pb.pos = i.pos + 1 := by omega
          simp [UnescapeParser.writePending, hne, hnr, Ptr.range]
        · rw [if_neg he]
          have := ih out pb i.next hreach he (by rw [hnr]; rw [hr] at hf; simp at hf ⊢; omega)
            (fun x hx => hplain x (by rw [hr]; rw [hnr] at hx; simp at hx; simp [hx]))
          rw [this, hnr]
          simp only [List.length_cons]
          have e : i.pos + 1 + rest.length = i.pos + (rest.length + 1) := by omega
          rw [e]
      rw [UnescapeParser.unescapeLoop]
      have hpm : EscapedStringParser.parseMore mode i =
          if b.val = 34 then some (⟨.JsonStringEnd, [], 0⟩, i) else some (⟨.Skip, [], 0⟩, i.next) := by
        unfold EscapedStringParser.parseMore
        simp only [hr, hb.1, if_false]
        by_cases h34 : b.val = 34
        · simp [h34]
        · have : ¬ (mode = .Strict ∧ isControlCharacter b = true) := by
            rintro ⟨hm, h⟩
            exact hb.2 hm (Or.inl (hc.1 h))
          simp [h34, this]
      rw [hpm]
      by_cases h34 : b.val = 34
      · have hm : mode ≠ .Strict := fun hm => hb.2 hm (Or.inr h34)
        simp only [h34, if_true, hm, if_false]
        exact again
      · simp only [h34, if_false]
        exact again

/-- C21: `impl::unescape` returns a result for every input shorter than `NPos` (a
`string_view` always is): `input.size()` when the scan of the escapes reaches the end of the
input, the offset of the byte at which the scan stops when that byte is not allowed where it
stands (after a backslash a byte that is none of `" \ / b f n r t u`, among the four digits
after `\u` a byte that is no hexadecimal digit), an offset inside the input, and `NPos`
exactly when the input ends right after a backslash or inside the four digits of a `\u`
escape. -/
theorem implUnescape_result (input : Bytes) (mode : UnescapeMode) (sr : Nat)
    (hsize : input.length < impl.NPos) :
    ∃ n frags, impl.unescape input mode sr = some (n, frags) ∧
      (scanEscapes mode .text input = .complete → n = input.length) ∧
      (∀ k, scanEscapes mode .text input = .invalid k → n = k ∧ k < input.length) ∧
      (n = impl.NPos ↔ scanEscapes mode .text input = .truncated) := by
  obtain ⟨frags, h, _⟩ := implUnescape_scan input mode sr
  refine ⟨_, frags, h, fun hc => by simp [hc, ScanEnd.result],
    fun k hk => ⟨by simp [hk, ScanEnd.result], scanEscapes_invalid_lt mode input _ k hk⟩, ?_⟩
  cases hs : scanEscapes mode .text input with
  | complete => simp only [ScanEnd.result]; constructor
                · intro h2; omega
                · intro h2; cases h2
  | invalid k =>
    have := scanEscapes_invalid_lt mode input _ k hs
    simp only [ScanEnd.result]
    constructor
    · intro h2; omega
    · intro h2; cases h2
  | truncated => simp [ScanEnd.result]

/-- C21 at the input `a\u0`, which ends inside the four digits, and in the mode `Relaxed`. -/
theorem implUnescape_result_witness :
    ∃ n frags, impl.unescape [97, 92, 117, 48] .Relaxed DoNotReplaceSurrogates = some (n, frags) ∧
      (scanEscapes .Relaxed .text [97, 92, 117, 48] = .complete →
        n = ([97, 92, 117, 48] : Bytes).length) ∧
      (∀ k, scanEscapes .Relaxed .text [97, 92, 117, 48] = .invalid k →
        n = k ∧ k < ([97, 92, 117, 48] : Bytes).length) ∧
      (n = impl.NPos ↔ scanEscapes .Relaxed .text [97, 92, 117, 48] = .truncated) :=
  implUnescape_result [97, 92, 117, 48] .Relaxed DoNotReplaceSurrogates (by decide)

theorem scanEscapes_plain_strict : ∀ (t : Bytes), (∀ b ∈ t, b.val ≠ 92) →
    scanEscapes .Strict .text t =
      if t.findIdx (fun b => decide (b.val < 32 ∨ b.val = 34)) < t.length then
        .invalid (t.findIdx (fun b => decide (b.val < 32 ∨ b.val = 34)))
      else .complete := by
  intro t
  induction t with
  | nil => intro _; simp [scanEscapes]
  | cons b t ih =>
    intro h
    have hb := h b (by simp)
    have iht := ih (fun x hx => h x (by simp [hx]))
    rw [scanEscapes, if_neg hb, List.findIdx_cons]
    by_cases hstop : b.val < 32 ∨ b.val = 34
    · have h2 : (b.val = 34 ∨ b.val < 32) := hstop.symm
      simp [hstop, h2]
    · have h2 : ¬ (b.val = 34 ∨ b.val < 32) := fun x => hstop x.symm
      simp only [h2, and_false, if_false, hstop, decide_False, cond_false, List.length_cons,
        Nat.add_lt_add_iff_right]
      rw [iht]
      split_ifs <;> simp [ScanEnd.next]

/-- C22: in the mode `Strict`, for every input without a backslash, `impl::unescape` returns
the offset of the first byte that is a control byte (`0x00` to `0x1F`) or a quotation mark;
when there is no such byte it returns `input.size()` (the offset that `findIdx` gives then) and
what it sends to the sink is the input. -/
theorem implUnescape_strict_plain (input : Bytes) (sr : Nat) (hplain : ∀ b ∈ input, b.val ≠ 92) :
    ∃ frags, impl.unescape input .Strict sr =
        some (input.findIdx (fun b => decide (b.val < 32 ∨ b.val = 34)), frags) ∧
      ((∀ b ∈ input, ¬ (b.val < 32 ∨ b.val = 34)) →
        input.findIdx (fun b => decide (b.val < 32 ∨ b.val = 34)) = input.length ∧
        frags.flatten = input) := by
  obtain ⟨frags, h, _⟩ := implUnescape_scan input .Strict sr
  have hidx : (scanEscapes .Strict .text input).result input.length =
      input.findIdx (fun b => decide (b.val < 32 ∨ b.val = 34)) := by
    rw [scanEscapes_plain_strict input hplain]
    have : input.findIdx (fun b => decide (b.val < 32 ∨ b.val = 34)) ≤ input.length :=
      List.findIdx_le_length _
    split_ifs with hlt
    · rfl
    · simp only [ScanEnd.result]; omega
  rw [hidx] at h
  refine ⟨frags, h, fun hno => ?_⟩
  have hlen : input.findIdx (fun b => decide (b.val < 32 ∨ b.val = 34)) = input.length := by
    apply List.findIdx_eq_length.2
    intro x hx
    simpa using hno x hx
  refine ⟨hlen, ?_⟩
  by_cases he : input = []
  · subst he
    simp [impl.unescape] at h
    simp [h]
  · have hrun := unescapeLoop_plain .Strict sr (input.length + 1) [] ⟨0, input⟩ ⟨0, input⟩
      (Ptr.Reach.refl _) he (by simp) (fun b hb => ⟨hplain b hb, fun _ => hno b hb⟩)
    unfold impl.unescape UnescapeParser.unescape at h
    rw [if_neg he, hrun] at h
    simp only [Option.some.injEq, Prod.mk.injEq] at h
    rw [← h.2]
    simp

/-- C22 at the input `ab`. -/
theorem implUnescape_strict_plain_witness :
    ∃ frags, impl.unescape [97, 98] .Strict DoNotReplaceSurrogates =
        some (([97, 98] : Bytes).findIdx (fun b => decide (b.val < 32 ∨ b.val = 34)), frags) ∧
      ((∀ b ∈ ([97, 98] : Bytes), ¬ (b.val < 32 ∨ b.val = 34)) →
        ([97, 98] : Bytes).findIdx (fun b => decide (b.val < 32 ∨ b.val = 34)) =
          ([97, 98] : Bytes).length ∧
        frags.flatten = [97, 98]) :=
  implUnescape_strict_plain [97, 98] DoNotReplaceSurrogates
    (fun b hb => by simp at hb; rcases hb with rfl | rfl <;> decide)

/-- C23: in the mode `Relaxed`, for every input without a backslash, `impl::unescape` consumes
the whole input and sends it to the sink unchanged, and `unescape` returns it unchanged; raw
control bytes and quotation marks are bytes like the others. -/
theorem unescape_relaxed_plain (input : Bytes) (sr : Nat) (hplain : ∀ b ∈ input, b.val ≠ 92) :
    (∃ frags, impl.unescape input .Relaxed sr = some (input.length, frags) ∧
      frags.flatten = input) ∧
    unescape input .Relaxed = some input ∧
    unescapeReplacing input .Relaxed sr = some input := by
  have key : ∀ sr2, ∃ frags, impl.unescape input .Relaxed sr2 = some (input.length, frags) ∧
      frags.flatten = input := by
    intro sr2
    by_cases he : input = []
    · subst he
      exact ⟨[], by simp [impl.unescape], rfl⟩
    · have hrun := unescapeLoop_plain .Relaxed sr2 (input.length + 1) [] ⟨0, input⟩ ⟨0, input⟩
        (Ptr.Reach.refl _) he (by simp) (fun b hb => ⟨hplain b hb, fun h => by cases h⟩)
      refine ⟨[input], ?_, ?_⟩
      · unfold impl.unescape UnescapeParser.unescape
        rw [if_neg he, hrun]
        simp
      · simp
  refine ⟨key sr, ?_, ?_⟩
  · obtain ⟨frags, h1, h2⟩ := key DoNotReplaceSurrogates
    unfold unescape
    rw [h1]
    simp [h2]
  · obtain ⟨frags, h1, h2⟩ := key sr
    unfold unescapeReplacing
    rw [h1]
    simp [h2]

/-- C23 at the input of a line feed, a quotation mark and the letter `a`. -/
theorem unescape_relaxed_plain_witness :
    (∃ frags, impl.unescape [10, 34, 97] .Relaxed DoNotReplaceSurrogates =
        some (([10, 34, 97] : Bytes).length, frags) ∧ frags.flatten = [10, 34, 97]) ∧
    unescape [10, 34, 97] .Relaxed = some [10, 34, 97] ∧
    unescapeReplacing [10, 34, 97] .Relaxed DoNotReplaceSurrogates = some [10, 34, 97] :=
  unescape_relaxed_plain [10, 34, 97] DoNotReplaceSurrogates
    (fun b hb => by simp at hb; rcases hb with rfl | rfl | rfl <;> decide)

/-- C24: `unescape` called without a mode runs in the mode `Relaxed`, the value of
`UnescapeMode{}`: on the input of one line feed, and on the input of one quotation mark, it
returns the input, where `unescape(input, UnescapeMode::Strict)` returns the empty string. -/
theorem unescape_default_mode :
    unescape [10] = some [10] ∧ unescape [10] .Strict = some [] ∧
    unescape [34] = some [34] ∧ unescape [34] .Strict = some [] := by
  refine ⟨?_, ?_, ?_, ?_⟩ <;> decide!

theorem expectedSize_range : ∀ b : Byte,
    1 ≤ getExpectedUtf8CodePointSize b ∧ getExpectedUtf8CodePointSize b ≤ 4 := by
  decide!

theorem detect_cases (text : Bytes) (hne : text ≠ []) :
    detectUtf8CodePointSize ⟨0, text⟩ = some 0 ∨
    ∃ n, detectUtf8CodePointSize ⟨0, text⟩ = some n ∧ 2 ≤ n ∧ n ≤ 4 ∧ n ≤ text.length := by
  cases text with
  | nil => exact absurd rfl hne
  | cons b t =>
    unfold detectUtf8CodePointSize
    simp only
    have := expectedSize_range b
    split_ifs with hc
    · right
      exact ⟨_, rfl, by omega, by omega, by simpa using hc.2.1⟩
    · left; rfl

theorem escapeSequence_ne_nil (h : HexDigitsCase) (n : Nat) (i : Ptr) :
    EscapedStringWriter.escapeSequence h n i ≠ [] := by
  unfold EscapedStringWriter.escapeSequence
  simp only
  split_ifs <;> simp [EscapedChar.get, EscapedChar.getSurrogates, EscapedChar.write]

theorem escapeStep_size (na vu : Bool) (h : HexDigitsCase) (text : Bytes) (hne : text ≠ []) :
    match escapeStep na vu h text with
    | .copy n => 1 ≤ n ∧ n ≤ text.length
    | .emit seq n => 1 ≤ n ∧ n ≤ text.length ∧ seq ≠ []
    | .stop => True := by
  cases text with
  | nil => exact absurd rfl hne
  | cons b t =>
    unfold escapeStep
    simp only
    by_cases h1 : matchCommonCharacterToEscape b ≠ 0
    · rw [if_pos h1]; simp [EscapedChar.decorate]
    · rw [if_neg h1]
      by_cases h2 : isControlCharacter b = true
      · rw [if_pos h2]; simp [EscapedChar.getChar]
      · rw [if_neg h2]
        by_cases h3 : (na = true ∨ vu = true) ∧ b.val &&& 0x80 ≠ 0
        · rw [if_pos h3]
          rcases detect_cases (b :: t) hne with hd | ⟨n, hd, hn1, hn2, hn3⟩
          · rw [hd]
            cases na <;> cases vu <;> simp
          · rw [hd]
            have hn0 : n ≠ 0 := by omega
            cases na
            · simp only [Bool.false_eq_true, if_false, hn0]
              exact ⟨by omega, hn3⟩
            · simp only [if_true, hn0, ne_eq, not_false_eq_true]
              exact ⟨by omega, hn3, escapeSequence_ne_nil _ _ _⟩
        · rw [if_neg h3]; simp

theorem escapeChunks_fuel (na vu : Bool) (h : HexDigitsCase) :
    ∀ (fuel1 fuel2 : Nat) (text : Bytes), text.length ≤ fuel1 → text.length ≤ fuel2 →
      escapeChunks na vu h fuel1 text = escapeChunks na vu h fuel2 text := by
  intro fuel1
  induction fuel1 with
  | zero =>
    intro fuel2 text h1 _
    have : text = [] := List.length_eq_zero.1 (by omega)
    subst this
    cases fuel2 <;> simp [escapeChunks]
  | succ fuel1 ih =>
    intro fuel2 text h1 h2
    cases fuel2 with
    | zero =>
      have : text = [] := List.length_eq_zero.1 (by omega)
      subst this
      simp [escapeChunks]
    | succ fuel2 =>
      rw [escapeChunks, escapeChunks]
      by_cases he : text = []
      · simp [he]
      · rw [if_neg he, if_neg he]
        have hs := escapeStep_size na vu h text he
        cases hstep : escapeStep na vu h text with
        | copy n =>
          simp only [hstep] at hs ⊢
          rw [ih fuel2 (text.drop n) (by simp; omega) (by simp; omega)]
        | emit seq n =>
          simp only [hstep] at hs ⊢
          rw [ih fuel2 (text.drop n) (by simp; omega) (by simp; omega)]
        | stop => rfl

theorem writeImplFrom_step (na vu : Bool) (h : HexDigitsCase) (fuel : Nat) (out : List Bytes)
    (pb i : Ptr) (hne : i.rest ≠ []) :
    EscapedStringWriter.writeImplFrom na vu h (fuel + 1) out pb i =
      match escapeStep na vu h i.rest with
      | .copy n =>
        if i.rest.drop n = [] then
          some (⟨i.pos + n, i.rest.drop n⟩,
            EscapedStringWriter.writePending out pb ⟨i.pos + n, i.rest.drop n⟩)
        else EscapedStringWriter.writeImplFrom na vu h fuel out pb ⟨i.pos + n, i.rest.drop n⟩
      | .emit seq n =>
        if i.rest.drop n = [] then
          some (⟨i.pos + n, i.rest.drop n⟩, EscapedStringWriter.writeAndAdvance out pb i seq)
        else EscapedStringWriter.writeImplFrom na vu h fuel
          (EscapedStringWriter.writeAndAdvance out pb i seq)
          ⟨i.pos + n, i.rest.drop n⟩ ⟨i.pos + n, i.rest.drop n⟩
      | .stop => some (i, out) := by
  obtain ⟨pos, rest0⟩ := i
  cases rest0 with
  | nil => exact absurd rfl hne
  | cons b rest =>
    have hnext : (⟨pos, b :: rest⟩ : Ptr).next = ⟨pos + 1, (b :: rest).drop 1⟩ := rfl
    have hdet : detectUtf8CodePointSize ⟨pos, b :: rest⟩ =
        detectUtf8CodePointSize ⟨0, b :: rest⟩ := rfl
    have hseq : ∀ n, EscapedStringWriter.escapeSequence h n ⟨pos, b :: rest⟩ =
        EscapedStringWriter.escapeSequence h n ⟨0, b :: rest⟩ := fun _ => rfl
    rw [EscapedStringWriter.writeImplFrom]
    simp only [hnext, hdet, hseq, escapeStep]
    by_cases h1 : matchCommonCharacterToEscape b ≠ 0
    · rw [if_pos h1, if_pos h1]
    · rw [if_neg h1, if_neg h1]
      by_cases h2 : isControlCharacter b = true
      · rw [if_pos h2, if_pos h2]
      · rw [if_neg h2, if_neg h2]
        by_cases h3 : (na = true ∨ vu = true) ∧ b.val &&& 0x80 ≠ 0
        · rw [if_pos h3, if_pos h3]
          have hsome : ∃ n, detectUtf8CodePointSize ⟨0, b :: rest⟩ = some n := by
            rcases detect_cases (b :: rest) (by simp) with hd | ⟨n, hd, _⟩
            · exact ⟨_, hd⟩
            · exact ⟨_, hd⟩
          obtain ⟨n, hd⟩ := hsome
          rw [hd]
          · simp only
            by_cases hna : na = true
            · rw [if_pos hna, if_pos hna]
              by_cases hn : n ≠ 0
              · rw [if_pos hn, if_pos hn]
              · rw [if_neg hn, if_neg hn]
                by_cases hvu : vu = true
                · rw [if_pos hvu, if_pos hvu]
                · rw [if_neg hvu, if_neg hvu]
            · rw [if_neg hna, if_neg hna]
              by_cases hn : n = 0
              · rw [if_pos hn, if_pos hn]
              · rw [if_neg hn, if_neg hn]
        · rw [if_neg h3, if_neg h3]

theorem reach_advance (i : Ptr) (n : Nat) (hn : n ≤ i.rest.length) :
    i.Reach ⟨i.pos + n, i.rest.drop n⟩ :=
  ⟨i.rest.take n, by simp [Ptr.Moved, List.length_take, hn]⟩

theorem range_advance (pb i : Ptr) (n : Nat) (hr : pb.Reach i) (hn : n ≤ i.rest.length) :
    pb.range ⟨i.pos + n, i.rest.drop n⟩ = pb.range i ++ i.rest.take n := by
  obtain ⟨c, h1, h2⟩ := hr
  simp only [Ptr.range, h1, h2]
  have e1 : pb.pos + c.length + n - pb.pos = c.length + n := by omega
  have e2 : pb.pos + c.length - pb.pos = c.length := by omega
  rw [e1, e2, List.take_append, List.take_left']
  rfl

theorem range_eq_nil_iff (pb i : Ptr) (hr : pb.Reach i) : pb.range i = [] ↔ pb.pos = i.pos := by
  constructor
  · intro h
    by_contra hp
    exact range_ne_nil pb i hr hp h
  · intro h
    simp [Ptr.range, h]

theorem escapeChunks_nil (na vu : Bool) (h : HexDigitsCase) (fuel : Nat) :
    escapeChunks na vu h fuel [] = ([], none) := by
  cases fuel <;> simp [escapeChunks]

theorem writeImplFrom_chunks (na vu : Bool) (h : HexDigitsCase) :
    ∀ (fuel : Nat) (out : List Bytes) (pb i : Ptr), pb.Reach i → i.rest ≠ [] →
      i.rest.length ≤ fuel →
      ∃ p out2, EscapedStringWriter.writeImplFrom na vu h fuel out pb i = some (p, out2) ∧
        p.pos = i.pos + (escapeChunks na vu h fuel i.rest).2.getD i.rest.length ∧
        ((escapeChunks na vu h fuel i.rest).2 = none →
          out2 = out ++ batchesFrom (pb.range i) (escapeChunks na vu h fuel i.rest).1) := by
  intro fuel
  induction fuel with
  | zero =>
    intro out pb i _ hne hf
    exact absurd (List.length_eq_zero.1 (by omega)) hne
  | succ fuel ih =>
    intro out pb i hr hne hf
    rw [writeImplFrom_step na vu h fuel out pb i hne, escapeChunks, if_neg hne]
    have hs := escapeStep_size na vu h i.rest hne
    cases hstep : escapeStep na vu h i.rest with
    | copy n =>
      simp only [hstep] at hs ⊢
      have hrj := hr.trans (reach_advance i n hs.2)
      have hrange := range_advance pb i n hr hs.2
      have htake : i.rest.take n ≠ [] := by
        intro h0
        have := congrArg List.length h0
        simp [List.length_take] at this
        rcases this with h | h
        · omega
        · exact hne h
      by_cases hd : i.rest.drop n = []
      · have hc : escapeChunks na vu h fuel (i.rest.drop n) = ([], none) := by
          rw [hd]; exact escapeChunks_nil na vu h fuel
        rw [if_pos hd, hc]
        have hlen : i.rest.length = n := by
          have := congrArg List.length hd
          simp at this
          omega
        refine ⟨_, _, rfl, by simp [hlen], fun _ => ?_⟩
        simp only [EscapedStringWriter.writePending, batchesFrom]
        rw [hrange]
        simp [htake]
      · rw [if_neg hd]
        obtain ⟨p, out2, e1, e2, e3⟩ := ih out pb ⟨i.pos + n, i.rest.drop n⟩ hrj hd
          (by simp only [List.length_drop]; omega)
        refine ⟨p, out2, e1, ?_, fun hnone => ?_⟩
        · rw [e2]
          simp only [List.length_drop]
          cases hst : (escapeChunks na vu h fuel (i.rest.drop n)).2 with
          | none => simp; omega
          | some k => simp; omega
        · have hn2 : (escapeChunks na vu h fuel (i.rest.drop n)).2 = none := by
            simpa using hnone
          rw [e3 hn2, hrange]
          simp [batchesFrom]
    | emit seq n =>
      simp only [hstep] at hs ⊢
      have hesc : EscapedStringWriter.writeAndAdvance out pb i seq =
          out ++ ((if pb.range i = [] then [] else [pb.range i]) ++ [seq]) := by
        unfold EscapedStringWriter.writeAndAdvance EscapedStringWriter.writePending
        by_cases hp : pb.pos = i.pos
        · simp [hp, (range_eq_nil_iff pb i hr).2 hp]
        · have := mt (range_eq_nil_iff pb i hr).1 hp
          simp [hp, this]
      by_cases hd : i.rest.drop n = []
      · have hc : escapeChunks na vu h fuel (i.rest.drop n) = ([], none) := by
          rw [hd]; exact escapeChunks_nil na vu h fuel
        rw [if_pos hd, hc]
        have hlen : i.rest.length = n := by
          have := congrArg List.length hd
          simp at this
          omega
        refine ⟨_, _, rfl, by simp [hlen], fun _ => ?_⟩
        rw [hesc]
        simp [batchesFrom]
      · rw [if_neg hd]
        obtain ⟨p, out2, e1, e2, e3⟩ := ih (EscapedStringWriter.writeAndAdvance out pb i seq)
          ⟨i.pos + n, i.rest.drop n⟩ ⟨i.pos + n, i.rest.drop n⟩ (Ptr.Reach.refl _) hd
          (by simp only [List.length_drop]; omega)
        refine ⟨p, out2, e1, ?_, fun hnone => ?_⟩
        · rw [e2]
          simp only [List.length_drop]
          cases hst : (escapeChunks na vu h fuel (i.rest.drop n)).2 with
          | none => simp; omega
          | some k => simp; omega
        · have hn2 : (escapeChunks na vu h fuel (i.rest.drop n)).2 = none := by
            simpa using hnone
          rw [e3 hn2, hesc, range_self]
          simp [batchesFrom]
    | stop =>
      exact ⟨_, _, rfl, by simp, fun hnone => by simp at hnone⟩

theorem implEscape_chunks (s : Bytes) (m : Escape) (v : Utf8Validation) (h : HexDigitsCase) :
    ∃ frags, impl.escape s m v h = some ((escapeStop m v h s).getD s.length, frags) ∧
      (escapeStop m v h s = none → frags = batches (escapeUnits m v h s)) := by
  unfold impl.escape EscapedStringWriter.write escapeStop escapeUnits
  by_cases he : s = []
  · subst he
    exact ⟨[], by simp [escapeChunks], fun _ => by simp [escapeChunks, batches, batchesFrom]⟩
  · simp only [he, if_false]
    obtain ⟨p, out2, e1, e2, e3⟩ := writeImplFrom_chunks (decide (m = .NonAscii))
      (decide (v = .FailOnInvalidUtf8CodeUnits)) h (s.length + 1) [] ⟨0, s⟩ ⟨0, s⟩
      (Ptr.Reach.refl _) he (by simp)
    simp only at e1 e2 e3
    rw [escapeChunks_fuel _ _ h (s.length + 1) s.length s (by omega) (by omega)] at e2 e3
    rw [e1]
    refine ⟨out2, by simp [e2], fun hn => ?_⟩
    rw [e3 hn, range_self]
    simp [batches]

theorem escapeStep_ne_stop (na : Bool) (h : HexDigitsCase) (text : Bytes) (hne : text ≠ []) :
    escapeStep na false h text ≠ .stop := by
  cases text with
  | nil => exact absurd rfl hne
  | cons b t =>
    unfold escapeStep
    simp only
    by_cases h1 : matchCommonCharacterToEscape b ≠ 0
    · rw [if_pos h1]; simp
    · rw [if_neg h1]
      by_cases h2 : isControlCharacter b = true
      · rw [if_pos h2]; simp
      · rw [if_neg h2]
        by_cases h3 : (na = true ∨ false = true) ∧ b.val &&& 0x80 ≠ 0
        · rw [if_pos h3]
          have hna : na = true := by simpa using h3.1
          rcases detect_cases (b :: t) hne with hd | ⟨n, hd, hn1, _⟩
          · rw [hd]; simp [hna]
          · rw [hd]
            have hn0 : n ≠ 0 := by omega
            simp [hna, hn0]
        · rw [if_neg h3]; simp

theorem escapeChunks_no_stop (na : Bool) (h : HexDigitsCase) :
    ∀ (fuel : Nat) (text : Bytes), (escapeChunks na false h fuel text).2 = none := by
  intro fuel
  induction fuel with
  | zero => intro text; rfl
  | succ fuel ih =>
    intro text
    rw [escapeChunks]
    by_cases he : text = []
    · simp [he]
    · rw [if_neg he]
      have := escapeStep_ne_stop na h text he
      cases hstep : escapeStep na false h text with
      | copy n => simp [ih]
      | emit seq n => simp [ih]
      | stop => exact absurd hstep this

theorem escapeChunks_escaped_ne_nil (na vu : Bool) (h : HexDigitsCase) :
    ∀ (fuel : Nat) (text : Bytes), ∀ c ∈ (escapeChunks na vu h fuel text).1, c.bytes ≠ [] := by
  intro fuel
  induction fuel with
  | zero => intro text c hc; simp [escapeChunks] at hc
  | succ fuel ih =>
    intro text c hc
    rw [escapeChunks] at hc
    by_cases he : text = []
    · simp [he] at hc
    · rw [if_neg he] at hc
      have hs := escapeStep_size na vu h text he
      cases hstep : escapeStep na vu h text with
      | copy n =>
        simp only [hstep] at hs hc
        rcases List.mem_cons.1 hc with rfl | hc
        · simp only [Chunk.bytes, ne_eq, List.take_eq_nil_iff, not_or]
          exact ⟨by omega, he⟩
        · exact ih _ c hc
      | emit seq n =>
        simp only [hstep] at hs hc
        rcases List.mem_cons.1 hc with rfl | hc
        · exact hs.2.2
        · exact ih _ c hc
      | stop => simp [hstep] at hc

theorem escapeChunks_ne_nil (na vu : Bool) (h : HexDigitsCase) (fuel : Nat) (text : Bytes)
    (hne : text ≠ []) (hf : text.length ≤ fuel)
    (hstop : (escapeChunks na vu h fuel text).2 = none) :
    (escapeChunks na vu h fuel text).1 ≠ [] := by
  cases fuel with
  | zero => exact absurd (List.length_eq_zero.1 (by omega)) hne
  | succ fuel =>
    rw [escapeChunks, if_neg hne] at hstop ⊢
    cases hstep : escapeStep na vu h text with
    | copy n => simp
    | emit seq n => simp
    | stop => simp [hstep] at hstop

theorem batchesFrom_flatten : ∀ (chunks : List Chunk) (pending : Bytes),
    (batchesFrom pending chunks).flatten = pending ++ chunks.flatMap Chunk.bytes := by
  intro chunks
  induction chunks with
  | nil => intro pending; by_cases hp : pending = [] <;> simp [batchesFrom, hp]
  | cons c rest ih =>
    intro pending
    cases c with
    | copied bytes => simp [batchesFrom, ih, Chunk.bytes]
    | escaped seq =>
      by_cases hp : pending = [] <;> simp [batchesFrom, ih, hp, Chunk.bytes]

theorem batchesFrom_ne_nil : ∀ (chunks : List Chunk) (pending : Bytes),
    (∀ c ∈ chunks, c.bytes ≠ []) → ∀ f ∈ batchesFrom pending chunks, f ≠ [] := by
  intro chunks
  induction chunks with
  | nil =>
    intro pending _ f hf
    by_cases hp : pending = []
    · simp [batchesFrom, hp] at hf
    · simp [batchesFrom, hp] at hf; rw [hf]; exact hp
  | cons c rest ih =>
    intro pending hall f hf
    have hrest : ∀ c ∈ rest, c.bytes ≠ [] := fun c hc => hall c (by simp [hc])
    cases c with
    | copied bytes => exact ih _ hrest f (by simpa [batchesFrom] using hf)
    | escaped seq =>
      have hseq : seq ≠ [] := hall (.escaped seq) (by simp)
      by_cases hp : pending = []
      · simp only [batchesFrom, hp, if_true, List.nil_append, List.mem_cons] at hf
        rcases hf with rfl | hf
        · exact hseq
        · exact ih _ hrest f hf
      · simp only [batchesFrom, hp, if_false, List.singleton_append, List.mem_cons] at hf
        rcases hf with rfl | rfl | hf
        · exact hp
        · exact hseq
        · exact ih _ hrest f hf

theorem batchesFrom_length : ∀ (chunks : List Chunk) (pending : Bytes),
    (batchesFrom pending chunks).length ≤ 2 * chunks.countP Chunk.isEscaped + 1 := by
  intro chunks
  induction chunks with
  | nil => intro pending; by_cases hp : pending = [] <;> simp [batchesFrom, hp]
  | cons c rest ih =>
    intro pending
    cases c with
    | copied bytes =>
      have := ih (pending ++ bytes)
      simpa [batchesFrom, Chunk.isEscaped] using this
    | escaped seq =>
      have := ih []
      by_cases hp : pending = []
      · simp [batchesFrom, hp, Chunk.isEscaped]; omega
      · simp [batchesFrom, hp, Chunk.isEscaped]; omega

/-- C30: with `IgnoreInvalidUtf8CodeUnits` and either escape mode the escaper consumes the
whole text, and the fragments it sends to the sink are, in the order of the text, one fragment
for each maximal run of bytes that its loop leaves unchanged and one fragment for each escape
sequence that its loop makes; no fragment is empty, and there are at most `2k + 1` of them
when `k` characters are escaped. -/
theorem implEscape_batches (text : Bytes) (m : Escape) (h : HexDigitsCase) :
    ∃ frags, impl.escape text m .IgnoreInvalidUtf8CodeUnits h = some (text.length, frags) ∧
      frags = batches (escapeUnits m .IgnoreInvalidUtf8CodeUnits h text) ∧
      (∀ f ∈ frags, f ≠ []) ∧
      frags.length ≤
        2 * (escapeUnits m .IgnoreInvalidUtf8CodeUnits h text).countP Chunk.isEscaped + 1 := by
  obtain ⟨frags, h1, h2⟩ := implEscape_chunks text m .IgnoreInvalidUtf8CodeUnits h
  have hstop : escapeStop m .IgnoreInvalidUtf8CodeUnits h text = none := by
    unfold escapeStop
    simpa using escapeChunks_no_stop (decide (m = .NonAscii)) h text.length text
  rw [hstop] at h1
  have hf := h2 hstop
  refine ⟨frags, by simpa using h1, hf, ?_, ?_⟩
  · rw [hf]
    exact batchesFrom_ne_nil _ [] (escapeChunks_escaped_ne_nil _ _ h _ _)
  · rw [hf]
    exact batchesFrom_length _ []

theorem announcedSize_eq : ∀ b : Byte, getExpectedUtf8CodePointSize b = announcedSize b := by
  decide!

theorem continuation_test : ∀ c : Byte, isUtf8CodeUnit 1 c = decide (c.val / 64 = 2) := by
  decide!

theorem high_byte_test : ∀ b : Byte,
    (b.val < 0x80 → b.val &&& 0x80 = 0) ∧
    (¬ b.val < 0x80 → b.val &&& 0x80 ≠ 0 ∧ matchCommonCharacterToEscape b = 0 ∧
      isControlCharacter b = false) := by
  decide!

theorem detect_eq_sequenceSize (b : Byte) (t : Bytes) :
    detectUtf8CodePointSize ⟨0, b :: t⟩ = some ((sequenceSize (b :: t)).getD 0) := by
  unfold detectUtf8CodePointSize sequenceSize
  simp only [announcedSize_eq]
  have hall : (t.take (announcedSize b - 1)).all (isUtf8CodeUnit 1) =
      (t.take (announcedSize b - 1)).all (fun c => decide (c.val / 64 = 2)) := by
    congr 1
    funext c
    exact continuation_test c
  rw [hall]
  have hlen : (b :: t).length ≥ announcedSize b ↔ announcedSize b - 1 ≤ t.length := by
    simp only [List.length_cons]
    omega
  by_cases hc : announcedSize b ≠ 1 ∧ announcedSize b - 1 ≤ t.length ∧
      (t.take (announcedSize b - 1)).all (fun c => decide (c.val / 64 = 2)) = true
  · rw [if_pos ⟨hc.1, hlen.2 hc.2.1, hc.2.2⟩, if_pos hc]
    rfl
  · rw [if_neg (fun x => hc ⟨x.1, hlen.1 x.2.1, x.2.2⟩), if_neg hc]
    rfl

theorem sequenceSize_range (text : Bytes) (n : Nat) (h : sequenceSize text = some n) :
    2 ≤ n ∧ n ≤ 4 ∧ n ≤ text.length := by
  cases text with
  | nil => simp [sequenceSize] at h
  | cons a t =>
    unfold sequenceSize at h
    simp only at h
    split_ifs at h with hc
    simp only [Option.some.injEq] at h
    subst h
    have : 1 ≤ announcedSize a ∧ announcedSize a ≤ 4 := by
      unfold announcedSize
      split_ifs <;> omega
    simp only [List.length_cons]
    omega

/-- The turn of the loop at an ASCII byte. -/
theorem escapeStep_ascii (na vu : Bool) (h : HexDigitsCase) (a : Byte) (t : Bytes)
    (ha : a.val < 0x80) :
    escapeStep na vu h (a :: t) =
      if matchCommonCharacterToEscape a ≠ 0 ∨ isControlCharacter a = true then
        .emit (escapedByte h a) 1
      else .copy 1 := by
  have h0 := (high_byte_test a).1 ha
  unfold escapeStep escapedByte
  simp only
  by_cases h1 : matchCommonCharacterToEscape a ≠ 0
  · simp [h1]
  · by_cases h2 : isControlCharacter a = true
    · simp [h1, h2]
    · simp [h1, h2, h0]

/-- The turn of the loop at a byte from `0x80` on. -/
theorem escapeStep_high (na vu : Bool) (h : HexDigitsCase) (a : Byte) (t : Bytes)
    (ha : ¬ a.val < 0x80) :
    escapeStep na vu h (a :: t) =
      if na = false ∧ vu = false then .copy 1
      else
        match sequenceSize (a :: t) with
        | some n =>
          if na then .emit (EscapedStringWriter.escapeSequence h n ⟨0, a :: t⟩) n else .copy n
        | none => if vu then .stop else .copy 1 := by
  obtain ⟨h0, h1, h2⟩ := (high_byte_test a).2 ha
  unfold escapeStep
  simp only [h1, h2, ne_eq, not_true_eq_false, if_false, Bool.false_eq_true]
  rw [detect_eq_sequenceSize]
  cases hs : sequenceSize (a :: t) with
  | none =>
    cases na <;> cases vu <;> simp [h0]
  | some n =>
    have := sequenceSize_range _ n hs
    have hn0 : n ≠ 0 := by omega
    cases na <;> cases vu <;> simp [h0, hn0]

theorem escapeChunks_stop (na : Bool) (h : HexDigitsCase) :
    ∀ (fuel : Nat) (text : Bytes),
      (escapeChunks na true h fuel text).2 = firstMalformedFrom fuel text := by
  intro fuel
  induction fuel with
  | zero => intro text; rfl
  | succ fuel ih =>
    intro text
    cases text with
    | nil => simp [escapeChunks, firstMalformedFrom]
    | cons a t =>
      rw [escapeChunks, if_neg (by simp), firstMalformedFrom]
      simp only
      by_cases ha : a.val < 0x80
      · rw [escapeStep_ascii na true h a t ha, if_pos ha]
        split_ifs <;> simp [ih]
      · rw [escapeStep_high na true h a t ha, if_neg ha]
        cases hs : sequenceSize (a :: t) with
        | none => simp
        | some n => cases na <;> simp [ih]

theorem firstMalformedFrom_fuel (fuel : Nat) (text : Bytes) (hf : text.length ≤ fuel) :
    firstMalformedFrom fuel text = firstMalformed text := by
  unfold firstMalformed
  rw [← escapeChunks_stop false .Lower, ← escapeChunks_stop false .Lower]
  rw [escapeChunks_fuel false true .Lower fuel text.length text hf (Nat.le_refl _)]

theorem firstMalformedFrom_spec :
    ∀ (fuel : Nat) (text : Bytes) (k : Nat), firstMalformedFrom fuel text = some k →
      k < text.length ∧ ∃ a t, text.drop k = a :: t ∧ ¬ a.val < 0x80 ∧
        sequenceSize (a :: t) = none := by
  intro fuel
  induction fuel with
  | zero => intro text k h; simp [firstMalformedFrom] at h
  | succ fuel ih =>
    intro text k h
    cases text with
    | nil => simp [firstMalformedFrom] at h
    | cons a t =>
      rw [firstMalformedFrom] at h
      by_cases ha : a.val < 0x80
      · rw [if_pos ha] at h
        simp only [Option.map_eq_some'] at h
        obtain ⟨k2, hk2, rfl⟩ := h
        obtain ⟨h1, h2⟩ := ih t k2 hk2
        exact ⟨by simp only [List.length_cons]; omega, by simpa using h2⟩
      · rw [if_neg ha] at h
        cases hs : sequenceSize (a :: t) with
        | none =>
          simp only [hs, Option.some.injEq] at h
          subst h
          exact ⟨by simp, a, t, rfl, ha, hs⟩
        | some n =>
          simp only [hs, Option.map_eq_some'] at h
          obtain ⟨k2, hk2, rfl⟩ := h
          have hr := sequenceSize_range _ n hs
          obtain ⟨h1, h2⟩ := ih _ k2 hk2
          simp only [List.length_drop] at h1
          refine ⟨by omega, ?_⟩
          rw [List.drop_drop] at h2
          rw [Nat.add_comm k2 n]
          exact h2

/-- C28: for every text, in either escape mode, `impl::escape` with
`FailOnInvalidUtf8CodeUnits` returns `text.size()` when the scan from left to right meets no
byte from `0x80` on that fails to start a well-formed sequence (a lead byte `110xxxxx`,
`1110xxxx` or `11110xxx` followed in the text by 1, 2 or 3 bytes `10xxxxxx`); otherwise it
returns the offset of the first such byte, which is less than `text.size()`, and at that
offset stands a byte from `0x80` on that starts no well-formed sequence. -/
theorem implEscape_validation (text : Bytes) (m : Escape) (h : HexDigitsCase) :
    ∃ frags, impl.escape text m .FailOnInvalidUtf8CodeUnits h =
        some ((firstMalformed text).getD text.length, frags) ∧
      ∀ k, firstMalformed text = some k →
        k < text.length ∧ ∃ a t, text.drop k = a :: t ∧ 0x80 ≤ a.val ∧
          sequenceSize (a :: t) = none := by
  obtain ⟨frags, h1, _⟩ := implEscape_chunks text m .FailOnInvalidUtf8CodeUnits h
  have hstop : escapeStop m .FailOnInvalidUtf8CodeUnits h text = firstMalformed text := by
    unfold escapeStop firstMalformed
    simpa using escapeChunks_stop (decide (m = .NonAscii)) h text.length text
  rw [hstop] at h1
  refine ⟨frags, h1, fun k hk => ?_⟩
  obtain ⟨h2, a, t, h3, h4, h5⟩ := firstMalformedFrom_spec text.length text k hk
  exact ⟨h2, a, t, h3, by omega, h5⟩

theorem unescapeReplacing_empty_iff (input : Bytes) (hne : input ≠ [])
    (hsize : input.length < impl.NPos) (mode : UnescapeMode) (sr : Nat) :
    unescapeReplacing input mode sr = some [] ↔
      ∃ n frags, impl.unescape input mode sr = some (n, frags) ∧ n ≠ input.length := by
  obtain ⟨frags, h1, h2⟩ := implUnescape_scan input mode sr
  unfold unescapeReplacing
  rw [h1]
  simp only [Option.some.injEq, Prod.mk.injEq, exists_and_left, exists_eq_left']
  cases hs : scanEscapes mode .text input with
  | complete =>
    have := h2 hne hs
    simp [ScanEnd.result, this]
  | invalid k =>
    have := scanEscapes_invalid_lt mode input _ k hs
    have hk : k ≠ input.length := by omega
    simp [ScanEnd.result, hk]
  | truncated =>
    have hk : impl.NPos ≠ input.length := by omega
    simp [ScanEnd.result, hk]

theorem firstMalformed_lt (text : Bytes) (k : Nat) (h : firstMalformed text = some k) :
    k < text.length :=
  (firstMalformedFrom_spec text.length text k h).1

theorem escape_empty_iff (text : Bytes) (hne : text ≠ []) (m : Escape) (v : Utf8Validation)
    (h : HexDigitsCase) :
    escape text m v h = some [] ↔
      v = .FailOnInvalidUtf8CodeUnits ∧ firstMalformed text ≠ none := by
  obtain ⟨frags, h1, h2⟩ := implEscape_chunks text m v h
  have hstop : escapeStop m v h text =
      if v = .FailOnInvalidUtf8CodeUnits then firstMalformed text else none := by
    unfold escapeStop firstMalformed
    cases v with
    | IgnoreInvalidUtf8CodeUnits =>
      simpa using escapeChunks_no_stop (decide (m = .NonAscii)) h text.length text
    | FailOnInvalidUtf8CodeUnits =>
      simpa using escapeChunks_stop (decide (m = .NonAscii)) h text.length text
  unfold escape
  rw [if_pos hne, h1]
  simp only
  cases hst : escapeStop m v h text with
  | none =>
    have hfr := h2 hst
    have hflat : frags.flatten ≠ [] := by
      rw [hfr, batches, batchesFrom_flatten]
      unfold escapeUnits
      unfold escapeStop at hst
      have hcs := escapeChunks_ne_nil _ _ h text.length text hne (Nat.le_refl _) hst
      have hall := escapeChunks_escaped_ne_nil (decide (m = .NonAscii))
        (decide (v = .FailOnInvalidUtf8CodeUnits)) h text.length text
      cases hc : (escapeChunks (decide (m = .NonAscii))
          (decide (v = .FailOnInvalidUtf8CodeUnits)) h text.length text).1 with
      | nil => exact absurd hc hcs
      | cons c cs =>
        have := hall c (by rw [hc]; simp)
        simp [this]
    rw [hst] at hstop
    have hno : ¬ (v = .FailOnInvalidUtf8CodeUnits ∧ firstMalformed text ≠ none) := by
      rintro ⟨hv, hm⟩
      rw [if_pos hv] at hstop
      exact hm hstop.symm
    simp [hflat, hno]
  | some k =>
    rw [hst] at hstop
    have hv : v = .FailOnInvalidUtf8CodeUnits := by
      by_contra hv
      rw [if_neg hv] at hstop
      cases hstop
    rw [if_pos hv] at hstop
    have hk := firstMalformed_lt text k hstop.symm
    have hk2 : k ≠ text.length := by omega
    simp [hk2, hv, ← hstop]

/-- C25: the wrappers return the empty string on failure and only then.  For every non-empty
input (shorter than `NPos`, as a `string_view` always is), `unescape(input, mode)` and
`unescape(input, mode, replacement)` return the empty string if and only if `impl::unescape`
does not return `input.size()`, and `escape(input, escapeMode, validation, hexCase)` returns
the empty string if and only if the validation is `FailOnInvalidUtf8CodeUnits` and the input
has a malformed UTF-8 unit; for the empty input all three return the empty string. -/
theorem wrappers_empty_on_failure (input : Bytes) (hne : input ≠ [])
    (hsize : input.length < impl.NPos) :
    (∀ mode, unescape input mode = some [] ↔
      ∃ n frags, impl.unescape input mode = some (n, frags) ∧ n ≠ input.length) ∧
    (∀ mode sr, unescapeReplacing input mode sr = some [] ↔
      ∃ n frags, impl.unescape input mode sr = some (n, frags) ∧ n ≠ input.length) ∧
    (∀ m v h, escape input m v h = some [] ↔
      v = .FailOnInvalidUtf8CodeUnits ∧ firstMalformed input ≠ none) ∧
    (∀ mode sr m v h, unescape [] mode = some [] ∧ unescapeReplacing [] mode sr = some [] ∧
      escape [] m v h = some []) := by
  refine ⟨fun mode => ?_, fun mode sr => unescapeReplacing_empty_iff input hne hsize mode sr,
    fun m v h => escape_empty_iff input hne m v h, fun mode sr m v h => ?_⟩
  · exact unescapeReplacing_empty_iff input hne hsize mode DoNotReplaceSurrogates
  · refine ⟨?_, ?_, ?_⟩
    · simp [unescape, impl.unescape]
    · simp [unescapeReplacing, impl.unescape]
    · simp [escape]

/-- C25 at the input of the one byte `0x80`. -/
theorem wrappers_empty_on_failure_witness :
    (∀ mode, unescape [0x80] mode = some [] ↔
      ∃ n frags, impl.unescape [0x80] mode = some (n, frags) ∧ n ≠ ([0x80] : Bytes).length) ∧
    (∀ mode sr, unescapeReplacing [0x80] mode sr = some [] ↔
      ∃ n frags, impl.unescape [0x80] mode sr = some (n, frags) ∧
        n ≠ ([0x80] : Bytes).length) ∧
    (∀ m v h, escape [0x80] m v h = some [] ↔
      v = .FailOnInvalidUtf8CodeUnits ∧ firstMalformed [0x80] ≠ none) ∧
    (∀ mode sr m v h, unescape [] mode = some [] ∧ unescapeReplacing [] mode sr = some [] ∧
      escape [] m v h = some []) :=
  wrappers_empty_on_failure [0x80] (by simp) (by decide)

theorem escapedByte_eq_image (h : HexDigitsCase) : ∀ b : Byte,
    escapedByte h b = escapeImage h b := by
  cases h <;> decide!

theorem escapeImage_high (h : HexDigitsCase) : ∀ b : Byte, ¬ b.val < 0x80 →
    escapeImage h b = [b] := by
  cases h <;> decide!

theorem escapedByte_plain (h : HexDigitsCase) (b : Byte)
    (hb : ¬ (matchCommonCharacterToEscape b ≠ 0 ∨ isControlCharacter b = true)) :
    escapedByte h b = [b] := by
  simp only [not_or] at hb
  simp [escapedByte, hb.1, hb.2]

theorem or_shift (x y k : Nat) (h : y < 2 ^ k) : (x <<< k) ||| y = x * 2 ^ k + y := by
  rw [Nat.shiftLeft_eq, Nat.mul_comm, ← Nat.mul_add_lt_is_or h]

theorem and_31 (x : Nat) : x &&& 31 = x % 32 := Nat.and_pow_two_sub_one_eq_mod x 5
theorem and_63 (x : Nat) : x &&& 63 = x % 64 := Nat.and_pow_two_sub_one_eq_mod x 6
theorem and_15 (x : Nat) : x &&& 15 = x % 16 := Nat.and_pow_two_sub_one_eq_mod x 4
theorem and_7 (x : Nat) : x &&& 7 = x % 8 := Nat.and_pow_two_sub_one_eq_mod x 3
theorem and_1023 (x : Nat) : x &&& 1023 = x % 1024 := Nat.and_pow_two_sub_one_eq_mod x 10

theorem gatherBits_two (x y : Nat) :
    gatherBits [(5, x), (6, y)] = x % 32 * 64 + y % 64 := by
  have m5 : LowerBitsMask 5 = 31 := by decide
  have m6 : LowerBitsMask 6 = 63 := by decide
  simp only [gatherBits, m5, m6, and_31, and_63, List.map, List.sum_cons, List.sum_nil,
    Nat.add_zero]
  rw [or_shift (x % 32) (y % 64) 6 (by have := Nat.mod_lt y (show 64 > 0 by norm_num)
                                       norm_num; omega)]
  norm_num

theorem gatherBits_three (x y z : Nat) :
    gatherBits [(4, x), (6, y), (6, z)] = x % 16 * 4096 + y % 64 * 64 + z % 64 := by
  have m4 : LowerBitsMask 4 = 15 := by decide
  have m6 : LowerBitsMask 6 = 63 := by decide
  simp only [gatherBits, m4, m6, and_15, and_63, List.map, List.sum_cons, List.sum_nil,
    Nat.add_zero]
  have hy := Nat.mod_lt y (show 64 > 0 by norm_num)
  have hz := Nat.mod_lt z (show 64 > 0 by norm_num)
  rw [or_shift (y % 64) (z % 64) 6 (by norm_num; omega),
    or_shift (x % 16) _ (6 + 6) (by norm_num; omega)]
  norm_num
  omega

theorem gatherBits_four (x y z w : Nat) :
    gatherBits [(3, x), (6, y), (6, z), (6, w)] =
      x % 8 * 262144 + y % 64 * 4096 + z % 64 * 64 + w % 64 := by
  have m3 : LowerBitsMask 3 = 7 := by decide
  have m6 : LowerBitsMask 6 = 63 := by decide
  simp only [gatherBits, m3, m6, and_7, and_63, List.map, List.sum_cons, List.sum_nil,
    Nat.add_zero]
  have hy := Nat.mod_lt y (show 64 > 0 by norm_num)
  have hz := Nat.mod_lt z (show 64 > 0 by norm_num)
  have hw := Nat.mod_lt w (show 64 > 0 by norm_num)
  rw [or_shift (z % 64) (w % 64) 6 (by norm_num; omega),
    or_shift (y % 64) _ (6 + 6) (by norm_num; omega),
    or_shift (x % 8) _ (6 + (6 + 6)) (by norm_num; omega)]
  norm_num
  omega

theorem hexDigit_eq (h : HexDigitsCase) : ∀ d : Fin 16,
    EscapedChar.hexDigit h d.val = hexChar h d.val := by
  cases h <;> decide!

theorem write_eq_unicodeEscape (h : HexDigitsCase) (u : Nat) (hu : u < 65536) :
    EscapedChar.write h u = unicodeEscape h u := by
  unfold EscapedChar.write unicodeEscape
  simp only [Nat.shiftRight_eq_div_pow, and_15]
  have h1 : u / 2 ^ 12 < 16 := by norm_num; omega
  have e1 := hexDigit_eq h ⟨u / 2 ^ 12, h1⟩
  have e2 := hexDigit_eq h ⟨u / 2 ^ 8 % 16, Nat.mod_lt _ (by norm_num)⟩
  have e3 := hexDigit_eq h ⟨u / 2 ^ 4 % 16, Nat.mod_lt _ (by norm_num)⟩
  have e4 := hexDigit_eq h ⟨u % 16, Nat.mod_lt _ (by norm_num)⟩
  simp only at e1 e2 e3 e4
  rw [e1, e2, e3, e4]
  have e5 : u / 4096 % 16 = u / 2 ^ 12 := by norm_num; omega
  rw [e5]
  norm_num

theorem getSurrogates_eq (h : HexDigitsCase) (c : Nat) (h1 : 0x10000 ≤ c) (h2 : c ≤ 0x10FFFF) :
    EscapedChar.getSurrogates h c =
      unicodeEscape h (highSurrogate c) ++ unicodeEscape h (lowSurrogate c) := by
  unfold EscapedChar.getSurrogates highSurrogate lowSurrogate
  have m10 : LowerBitsMask 10 = 1023 := by decide
  have e0 : (c + 2 ^ 32 - 0x10000) % 2 ^ 32 = c - 0x10000 := by omega
  simp only [e0, m10, and_1023, Nat.shiftRight_eq_div_pow]
  have hd : (c - 0x10000) / 2 ^ 10 < 2 ^ 10 := by norm_num; omega
  have hm : (c - 0x10000) % 1024 < 2 ^ 10 := by norm_num; omega
  have eh : (c - 0x10000) / 2 ^ 10 ||| 0xd800 = 0xD800 + (c - 0x10000) / 2 ^ 10 := by
    have := Nat.mul_add_lt_is_or hd 54
    rw [Nat.or_comm]
    norm_num at this ⊢
    omega
  have el : (c - 0x10000) % 1024 ||| 0xdc00 = 0xDC00 + (c - 0x10000) % 1024 := by
    have := Nat.mul_add_lt_is_or hm 55
    rw [Nat.or_comm]
    norm_num at this ⊢
    omega
  rw [eh, el]
  have b1 : 0xD800 + (c - 0x10000) / 2 ^ 10 < 2 ^ 16 := by norm_num at hd ⊢; omega
  have b2 : 0xDC00 + (c - 0x10000) % 1024 < 2 ^ 16 := by norm_num; omega
  rw [Nat.mod_eq_of_lt b1, Nat.mod_eq_of_lt b2, write_eq_unicodeEscape h _ (by simpa using b1),
    write_eq_unicodeEscape h _ (by simpa using b2)]

theorem escapeStop_fail (text : Bytes) (m : Escape) (h : HexDigitsCase) :
    escapeStop m .FailOnInvalidUtf8CodeUnits h text = firstMalformed text := by
  unfold escapeStop firstMalformed
  simpa using escapeChunks_stop (decide (m = .NonAscii)) h text.length text

theorem escapeStop_ignore (text : Bytes) (m : Escape) (h : HexDigitsCase) :
    escapeStop m .IgnoreInvalidUtf8CodeUnits h text = none := by
  unfold escapeStop
  simpa using escapeChunks_no_stop (decide (m = .NonAscii)) h text.length text

theorem firstMalformed_of_valid (text : Bytes) (h : HexDigitsCase)
    (hvalid : ∃ m f, impl.escape text m .FailOnInvalidUtf8CodeUnits h = some (text.length, f)) :
    firstMalformed text = none := by
  obtain ⟨m, f, hv⟩ := hvalid
  obtain ⟨frags, h1, _⟩ := implEscape_chunks text m .FailOnInvalidUtf8CodeUnits h
  rw [escapeStop_fail] at h1
  rw [h1] at hv
  simp only [Option.some.injEq, Prod.mk.injEq] at hv
  cases hf : firstMalformed text with
  | none => rfl
  | some k =>
    have := firstMalformed_lt text k hf
    rw [hf] at hv
    simp at hv
    omega

theorem escapeSequence_unit (h : HexDigitsCase) (a : Byte) (t : Bytes) (n : Nat)
    (hs : sequenceSize (a :: t) = some n)
    (hrange : n = 4 → 0x10000 ≤ codePoint ((a :: t).take n) ∧
      codePoint ((a :: t).take n) ≤ 0x10FFFF) :
    EscapedStringWriter.escapeSequence h n ⟨0, a :: t⟩ = nonAsciiUnit h ((a :: t).take n) := by
  have hr := sequenceSize_range _ n hs
  simp only [List.length_cons] at hr
  have hn : n = 2 ∨ n = 3 ∨ n = 4 := by omega
  have ha := Nat.mod_lt a.val (show 32 > 0 by norm_num)
  rcases hn with rfl | rfl | rfl
  · match t, hr with
    | b :: t2, _ =>
      have hb := Nat.mod_lt b.val (show 64 > 0 by norm_num)
      simp only [EscapedStringWriter.escapeSequence, EscapedChar.get, List.getD_cons_zero,
        List.getD_cons_succ, List.take, nonAsciiUnit, codePoint, gatherBits_two]
      norm_num
      exact write_eq_unicodeEscape h _ (by omega)
  · match t, hr with
    | b :: c :: t2, _ =>
      have ha := Nat.mod_lt a.val (show 16 > 0 by norm_num)
      have hb := Nat.mod_lt b.val (show 64 > 0 by norm_num)
      have hc := Nat.mod_lt c.val (show 64 > 0 by norm_num)
      simp only [EscapedStringWriter.escapeSequence, EscapedChar.get, List.getD_cons_zero,
        List.getD_cons_succ, List.take, nonAsciiUnit, codePoint, gatherBits_three]
      norm_num
      exact write_eq_unicodeEscape h _ (by omega)
  · match t, hr with
    | b :: c :: d :: t2, _ =>
      have hx := hrange rfl
      simp only [List.take, codePoint] at hx
      simp only [EscapedStringWriter.escapeSequence, List.getD_cons_zero,
        List.getD_cons_succ, List.take, nonAsciiUnit, codePoint, gatherBits_four]
      norm_num
      exact getSurrogates_eq h _ hx.1 hx.2

theorem escapeChunks_nonAscii (vu : Bool) (h : HexDigitsCase) :
    ∀ (fuel : Nat) (text : Bytes), (escapeChunks true vu h fuel text).2 = none →
      (∀ u ∈ utf8Units fuel text, u.length = 4 →
        0x10000 ≤ codePoint u ∧ codePoint u ≤ 0x10FFFF) →
      (escapeChunks true vu h fuel text).1.flatMap Chunk.bytes =
        (utf8Units fuel text).flatMap (nonAsciiUnit h) := by
  intro fuel
  induction fuel with
  | zero => intro text _ _; rfl
  | succ fuel ih =>
    intro text hstop hrange
    cases text with
    | nil => simp [escapeChunks, utf8Units]
    | cons a t =>
      rw [escapeChunks, if_neg (by simp)] at hstop ⊢
      rw [utf8Units] at hrange ⊢
      simp only at hrange ⊢
      by_cases ha : a.val < 0x80
      · rw [escapeStep_ascii true vu h a t ha] at hstop ⊢
        rw [if_pos ha] at hrange ⊢
        have hunit : nonAsciiUnit h [a] = escapedByte h a := by
          simp [nonAsciiUnit, escapedByte_eq_image]
        by_cases hc : matchCommonCharacterToEscape a ≠ 0 ∨ isControlCharacter a = true
        · rw [if_pos hc] at hstop ⊢
          simp only [List.drop_succ_cons, List.drop_zero, Option.map_eq_none'] at hstop
          simp only [List.drop_succ_cons, List.drop_zero, List.flatMap_cons, Chunk.bytes, hunit]
          rw [ih t hstop (fun u hu => hrange u (by simp [hu]))]
        · rw [if_neg hc] at hstop ⊢
          simp only [List.drop_succ_cons, List.drop_zero, Option.map_eq_none'] at hstop
          simp only [List.drop_succ_cons, List.drop_zero, List.flatMap_cons, Chunk.bytes, hunit,
            escapedByte_plain h a hc, List.take_succ_cons, List.take_zero]
          rw [ih t hstop (fun u hu => hrange u (by simp [hu]))]
      · rw [escapeStep_high true vu h a t ha] at hstop ⊢
        rw [if_neg ha] at hrange ⊢
        rw [if_neg (by simp)] at hstop ⊢
        cases hs : sequenceSize (a :: t) with
        | none =>
          simp only [hs] at hstop hrange ⊢
          cases vu with
          | true => simp at hstop
          | false =>
            simp only [Bool.false_eq_true, if_false, List.drop_succ_cons, List.drop_zero,
              Option.map_eq_none'] at hstop
            have hunit : nonAsciiUnit h [a] = [a] := by
              simp [nonAsciiUnit, escapeImage_high h a ha]
            simp only [Bool.false_eq_true, if_false, List.drop_succ_cons, List.drop_zero,
              List.flatMap_cons, Chunk.bytes, hunit, List.take_succ_cons, List.take_zero]
            rw [ih t hstop (fun u hu => hrange u (by simp [hu]))]
        | some n =>
          simp only [hs, if_true, Option.map_eq_none'] at hstop hrange ⊢
          have hr := sequenceSize_range _ n hs
          have hu := escapeSequence_unit h a t n hs (fun hn => by
            apply hrange _ (by simp)
            simp only [List.length_take]
            omega)
          simp only [List.flatMap_cons, Chunk.bytes, hu]
          rw [ih _ hstop (fun u hu => hrange u (by simp [hu]))]

theorem utf8Units_flatten : ∀ (fuel : Nat) (text : Bytes), text.length ≤ fuel →
    (utf8Units fuel text).flatten = text := by
  intro fuel
  induction fuel with
  | zero =>
    intro text hf
    have := List.length_eq_zero.1 (Nat.le_zero.1 hf)
    subst this
    rfl
  | succ fuel ih =>
    intro text hf
    cases text with
    | nil => rfl
    | cons a t =>
      rw [utf8Units]
      simp only [List.length_cons] at hf
      by_cases ha : a.val < 0x80
      · rw [if_pos ha]
        simp [ih t (by omega)]
      · rw [if_neg ha]
        cases hs : sequenceSize (a :: t) with
        | none => simp [ih t (by omega)]
        | some n =>
          have hr := sequenceSize_range _ n hs
          simp only [List.flatten_cons]
          rw [ih _ (by simp only [List.length_drop, List.length_cons]; omega)]
          exact List.take_append_drop n (a :: t)

theorem sequenceSize_take (a : Byte) (t : Bytes) (n : Nat)
    (hs : sequenceSize (a :: t) = some n) :
    sequenceSize ((a :: t).take n) = some ((a :: t).take n).length := by
  have hr := sequenceSize_range _ n hs
  unfold sequenceSize at hs
  simp only at hs
  split_ifs at hs with hc
  simp only [Option.some.injEq] at hs
  subst hs
  have hpos : 1 ≤ announcedSize a := hr.1.trans' (by norm_num)
  have e : (a :: t).take (announcedSize a) = a :: t.take (announcedSize a - 1) := by
    obtain ⟨k, hk⟩ : ∃ k, announcedSize a = k + 1 := ⟨announcedSize a - 1, by omega⟩
    rw [hk]
    simp
  rw [e]
  unfold sequenceSize
  simp only [List.length_cons, List.length_take, List.take_take, Nat.min_self]
  have hmin : min (announcedSize a - 1) t.length = announcedSize a - 1 := Nat.min_eq_left hc.2.1
  rw [if_pos ⟨hc.1, by omega, hc.2.2⟩, hmin]
  congr 1
  omega

theorem utf8Units_wellFormed : ∀ (fuel : Nat) (text : Bytes),
    firstMalformedFrom fuel text = none →
    ∀ u ∈ utf8Units fuel text, (∃ a, u = [a] ∧ a.val < 0x80) ∨ sequenceSize u = some u.length := by
  intro fuel
  induction fuel with
  | zero => intro text _ u hu; simp [utf8Units] at hu
  | succ fuel ih =>
    intro text hm u hu
    cases text with
    | nil => simp [utf8Units] at hu
    | cons a t =>
      rw [firstMalformedFrom] at hm
      rw [utf8Units] at hu
      by_cases ha : a.val < 0x80
      · rw [if_pos ha] at hm hu
        simp only [Option.map_eq_none'] at hm
        rcases List.mem_cons.1 hu with rfl | hu
        · exact Or.inl ⟨a, rfl, ha⟩
        · exact ih t hm u hu
      · rw [if_neg ha] at hm hu
        cases hs : sequenceSize (a :: t) with
        | none => simp [hs] at hm
        | some n =>
          simp only [hs, Option.map_eq_none'] at hm hu
          rcases List.mem_cons.1 hu with rfl | hu
          · exact Or.inr (sequenceSize_take a t n hs)
          · exact ih _ hm u hu

theorem surrogates_range (c : Nat) (h1 : 0x10000 ≤ c) (h2 : c ≤ 0x10FFFF) :
    0xD800 ≤ highSurrogate c ∧ highSurrogate c ≤ 0xDBFF ∧
    0xDC00 ≤ lowSurrogate c ∧ lowSurrogate c ≤ 0xDFFF := by
  unfold highSurrogate lowSurrogate
  have e : (0x3FF : Nat) = 1023 := by norm_num
  rw [Nat.shiftRight_eq_div_pow, e, and_1023]
  norm_num
  omega

/-- C26: for every byte string `s` and hex case `h`, `impl::escape` with `Escape::Default`
and `IgnoreInvalidUtf8CodeUnits` returns `s.size()`, and the fragments it sends to the sink,
concatenated, are the image of `s` byte by byte: `\b`, `\t`, `\n`, `\f`, `\r`, `\"`, `\\`
for the bytes `0x08`, `0x09`, `0x0A`, `0x0C`, `0x0D`, `"` and `\`, the escape `\u00XX` with the
two hexadecimal digits in the case `h` for every other byte below `0x20`, and every other byte
itself, `0x7F` and the bytes from `0x80` on included. -/
theorem implEscape_image (s : Bytes) (h : HexDigitsCase) :
    ∃ frags, impl.escape s .Default .IgnoreInvalidUtf8CodeUnits h = some (s.length, frags) ∧
      frags.flatten = s.flatMap (escapeImage h) := by
  have himg : s.flatMap (escapedByte h) = s.flatMap (escapeImage h) := by
    congr 1
    funext b
    exact escapedByte_eq_image h b
  by_cases hs : s = []
  · subst hs
    exact ⟨[], rfl, rfl⟩
  · obtain ⟨out2, e1, e2⟩ := writeImplFrom_default h (s.length + 1) [] ⟨0, s⟩ ⟨0, s⟩
      (Ptr.Reach.refl _) hs (by simp)
    have d1 : (decide (Escape.Default = Escape.NonAscii)) = false := by decide
    have d2 : (decide (Utf8Validation.IgnoreInvalidUtf8CodeUnits =
      Utf8Validation.FailOnInvalidUtf8CodeUnits)) = false := by decide
    refine ⟨out2, ?_, ?_⟩
    · simp only [impl.escape, EscapedStringWriter.write, hs, if_false, d1, d2, e1]
      simp
    · rw [e2, range_self, ← himg]
      simp

/-- C27, with the code points of the four-byte sequences in their range: for every text that
passes the validity check of the escaper (`impl::escape` with `FailOnInvalidUtf8CodeUnits`
returns `text.size()`) and in which every sequence of four bytes encodes a code point from
`0x10000` to `0x10FFFF`, escaping with `Escape::NonAscii` takes the whole text and what it
sends to the sink is, unit by unit, the escape `\uXXXX` of the code point for a sequence of two
or three bytes, and for a sequence of four bytes with the code point `c` the pair
`\uHHHH\uLLLL` with `HHHH = 0xD800 + ((c - 0x10000) >> 10)` in `D800..DBFF` and
`LLLL = 0xDC00 + ((c - 0x10000) & 0x3FF)` in `DC00..DFFF`; the units of such a text are its
ASCII bytes and its well-formed sequences. -/
theorem implEscape_nonAscii (text : Bytes) (h : HexDigitsCase)
    (hvalid : ∃ m f,
      impl.escape text m .FailOnInvalidUtf8CodeUnits h = some (text.length, f))
    (hrange : ∀ u ∈ textUnits text, u.length = 4 →
      0x10000 ≤ codePoint u ∧ codePoint u ≤ 0x10FFFF)
    (v : Utf8Validation) :
    ∃ frags, impl.escape text .NonAscii v h = some (text.length, frags) ∧
      frags.flatten = (textUnits text).flatMap (nonAsciiUnit h) ∧
      (textUnits text).flatten = text ∧
      (∀ u ∈ textUnits text,
        (∃ a, u = [a] ∧ a.val < 0x80) ∨ sequenceSize u = some u.length) ∧
      (∀ u ∈ textUnits text, u.length = 4 →
        0xD800 ≤ highSurrogate (codePoint u) ∧ highSurrogate (codePoint u) ≤ 0xDBFF ∧
        0xDC00 ≤ lowSurrogate (codePoint u) ∧ lowSurrogate (codePoint u) ≤ 0xDFFF) := by
  have hfm := firstMalformed_of_valid text h hvalid
  obtain ⟨frags, h1, h2⟩ := implEscape_chunks text .NonAscii v h
  have hstop : escapeStop .NonAscii v h text = none := by
    cases v with
    | IgnoreInvalidUtf8CodeUnits => exact escapeStop_ignore text _ h
    | FailOnInvalidUtf8CodeUnits => rw [escapeStop_fail, hfm]
  rw [hstop] at h1
  refine ⟨frags, by simpa using h1, ?_, utf8Units_flatten _ _ (Nat.le_refl _),
    utf8Units_wellFormed _ _ hfm, fun u hu h4 => ?_⟩
  · rw [h2 hstop, batches, batchesFrom_flatten]
    unfold escapeStop at hstop
    unfold escapeUnits
    have d : decide (Escape.NonAscii = Escape.NonAscii) = true := by decide
    rw [d] at hstop ⊢
    simpa using escapeChunks_nonAscii _ h text.length text hstop hrange
  · exact surrogates_range _ (hrange u hu h4).1 (hrange u hu h4).2

/-- C27, amended, at the text `F0 9F 98 80`, which becomes `\ud83d\ude00`. -/
theorem implEscape_nonAscii_witness :
    ∃ frags, impl.escape [0xF0, 0x9F, 0x98, 0x80] .NonAscii .FailOnInvalidUtf8CodeUnits .Lower =
        some (([0xF0, 0x9F, 0x98, 0x80] : Bytes).length, frags) ∧
      frags.flatten = (textUnits [0xF0, 0x9F, 0x98, 0x80]).flatMap (nonAsciiUnit .Lower) ∧
      (textUnits [0xF0, 0x9F, 0x98, 0x80]).flatten = [0xF0, 0x9F, 0x98, 0x80] ∧
      (∀ u ∈ textUnits [0xF0, 0x9F, 0x98, 0x80],
        (∃ a, u = [a] ∧ a.val < 0x80) ∨ sequenceSize u = some u.length) ∧
      (∀ u ∈ textUnits [0xF0, 0x9F, 0x98, 0x80], u.length = 4 →
        0xD800 ≤ highSurrogate (codePoint u) ∧ highSurrogate (codePoint u) ≤ 0xDBFF ∧
        0xDC00 ≤ lowSurrogate (codePoint u) ∧ lowSurrogate (codePoint u) ≤ 0xDFFF) :=
  implEscape_nonAscii [0xF0, 0x9F, 0x98, 0x80] .Lower
    ⟨.NonAscii, [[92, 117, 100, 56, 51, 100, 92, 117, 100, 101, 48, 48]], by decide!⟩
    (by decide!) .FailOnInvalidUtf8CodeUnits

theorem nonAsciiUnit_example :
    nonAsciiUnit .Lower [0xF0, 0x9F, 0x98, 0x80] =
      [92, 117, 100, 56, 51, 100, 92, 117, 100, 101, 48, 48] := by
  decide!

/-- C27 as the code has it: the texts `F4 90 80 80` (the code point `0x110000`) and
`F0 80 80 80` (the code point `0`) pass the validity check of the escaper, which looks at the
bit patterns only, and `Escape::NonAscii` turns them into `\udc00\udc00` and `\uffc0\udc00`,
whose first escapes are not in `D800..DBFF`. -/
theorem implEscape_nonAscii_out_of_range :
    impl.escape [0xF4, 0x90, 0x80, 0x80] .NonAscii .FailOnInvalidUtf8CodeUnits .Lower =
      some (4, [[92, 117, 100, 99, 48, 48, 92, 117, 100, 99, 48, 48]]) ∧
    codePoint [0xF4, 0x90, 0x80, 0x80] = 0x110000 ∧
    impl.escape [0xF0, 0x80, 0x80, 0x80] .NonAscii .FailOnInvalidUtf8CodeUnits .Lower =
      some (4, [[92, 117, 102, 102, 99, 48, 92, 117, 100, 99, 48, 48]]) ∧
    codePoint [0xF0, 0x80, 0x80, 0x80] = 0 := by
  refine ⟨?_, ?_, ?_, ?_⟩ <;> decide!

theorem outcome_andThen {r1 r2 : Option InvalidUtf8CodeUnitsError} {w : Written}
    {f : List Bytes → Written} (h1 : Outcome r1 w) (h2 : ∀ out, Outcome r2 (f out)) :
    Outcome (r1.or r2) (w.andThen f) := by
  cases r1 with
  | some e =>
    obtain ⟨out, rfl⟩ := h1
    exact ⟨out, rfl⟩
  | none =>
    obtain ⟨out, rfl⟩ := h1
    simpa [Written.andThen] using h2 out

theorem outcome_andThen_ok {r : Option InvalidUtf8CodeUnitsError} {w : Written}
    {f : List Bytes → Written} (h1 : Outcome r w) (h2 : ∀ out, ∃ out2, f out = .ok out2) :
    Outcome r (w.andThen f) := by
  cases r with
  | some e =>
    obtain ⟨out, rfl⟩ := h1
    exact ⟨out, rfl⟩
  | none =>
    obtain ⟨out, rfl⟩ := h1
    obtain ⟨out2, h⟩ := h2 out
    exact ⟨out2, by simp [Written.andThen, h]⟩

theorem outcome_ok (out : List Bytes) : Outcome none (Written.ok out) := ⟨out, rfl⟩

theorem writeString_outcome (c : SerializingVisitor)
    (hv : c.options.validation = .FailOnInvalidUtf8CodeUnits) (s : Bytes) (out : List Bytes) :
    Outcome (utf8Error s) (SerializingVisitor.writeString c s out) := by
  obtain ⟨frags, h1, _⟩ := implEscape_chunks s c.options.escape c.options.validation
    c.options.hexDigitsCase
  rw [hv, escapeStop_fail] at h1
  unfold SerializingVisitor.writeString
  rw [hv, h1]
  unfold utf8Error
  cases hf : firstMalformed s with
  | none => simp [Outcome]
  | some k =>
    have hk := firstMalformed_lt s k hf
    have hne : k ≠ s.length := by omega
    simp [Outcome, hne, announcedSize_eq]

theorem writeString_ignore (c : SerializingVisitor)
    (hv : c.options.validation = .IgnoreInvalidUtf8CodeUnits) (s : Bytes) (out : List Bytes) :
    Outcome none (SerializingVisitor.writeString c s out) := by
  obtain ⟨frags, h1, _⟩ := implEscape_chunks s c.options.escape c.options.validation
    c.options.hexDigitsCase
  unfold SerializingVisitor.writeString
  rw [h1, hv]
  simp [Outcome]

theorem findSome_cons_or {α β : Type} (f : α → Option β) (a : α) (l : List α) :
    (a :: l).findSome? f = (f a).or (l.findSome? f) := by
  rw [List.findSome?_cons]
  cases f a <;> rfl

theorem findSome_flatMap_cons {α β γ : Type} (f : β → Option γ) (g : α → List β) (a : α)
    (l : List α) :
    ((a :: l).flatMap g).findSome? f = ((g a).findSome? f).or ((l.flatMap g).findSome? f) := by
  rw [List.flatMap_cons, List.findSome?_append]

theorem writeArrayMembersRest_outcome (c : SerializingVisitor)
    (err : Bytes → Option InvalidUtf8CodeUnitsError) (vis : Value → List Bytes → Written)
    (strs : Value → List Bytes) (ind : Nat) :
    ∀ (rest : List Value) (out : List Bytes),
      (∀ x ∈ rest, ∀ out, Outcome ((strs x).findSome? err) (vis x out)) →
      Outcome ((rest.flatMap strs).findSome? err)
        (SerializingVisitor.writeArrayMembersRest c vis ind rest out) := by
  intro rest
  induction rest with
  | nil => intro out _; exact outcome_ok out
  | cons v rest ih =>
    intro out hall
    rw [SerializingVisitor.writeArrayMembersRest, findSome_flatMap_cons]
    exact outcome_andThen (hall v (by simp) _) (fun out2 => ih out2 (fun x hx => hall x (by simp [hx])))

theorem writeObjectMember_outcome (c : SerializingVisitor)
    (err : Bytes → Option InvalidUtf8CodeUnitsError)
    (hw : ∀ s out, Outcome (err s) (SerializingVisitor.writeString c s out))
    (vis : Value → List Bytes → Written) (strs : Value → List Bytes) (ind : Nat)
    (i : Bytes × Value) (out : List Bytes)
    (hvis : ∀ out, Outcome ((strs i.2).findSome? err) (vis i.2 out)) :
    Outcome ((i.1 :: strs i.2).findSome? err)
      (SerializingVisitor.writeObjectMember c vis ind i out) := by
  rw [SerializingVisitor.writeObjectMember, findSome_cons_or]
  exact outcome_andThen (hw i.1 out) (fun out2 => hvis _)

theorem writeObjectMembersRest_outcome (c : SerializingVisitor)
    (err : Bytes → Option InvalidUtf8CodeUnitsError)
    (hw : ∀ s out, Outcome (err s) (SerializingVisitor.writeString c s out))
    (vis : Value → List Bytes → Written) (strs : Value → List Bytes) (ind : Nat) :
    ∀ (rest : List (Bytes × Value)) (out : List Bytes),
      (∀ x ∈ rest, ∀ out, Outcome ((strs x.2).findSome? err) (vis x.2 out)) →
      Outcome ((rest.flatMap (fun i => i.1 :: strs i.2)).findSome? err)
        (SerializingVisitor.writeObjectMembersRest c vis ind rest out) := by
  intro rest
  induction rest with
  | nil => intro out _; exact outcome_ok out
  | cons i rest ih =>
    intro out hall
    rw [SerializingVisitor.writeObjectMembersRest, findSome_flatMap_cons]
    exact outcome_andThen
      (writeObjectMember_outcome c err hw vis strs ind i _ (hall i (by simp)))
      (fun out2 => ih out2 (fun x hx => hall x (by simp [hx])))

theorem writeObjectMembers_outcome (c : SerializingVisitor)
    (err : Bytes → Option InvalidUtf8CodeUnitsError)
    (hw : ∀ s out, Outcome (err s) (SerializingVisitor.writeString c s out))
    (vis : Value → List Bytes → Written) (strs : Value → List Bytes) (ind : Nat)
    (items : List (Bytes × Value)) (hne : items ≠ []) (out : List Bytes)
    (hall : ∀ x ∈ items, ∀ out, Outcome ((strs x.2).findSome? err) (vis x.2 out)) :
    Outcome ((items.flatMap (fun i => i.1 :: strs i.2)).findSome? err)
      (SerializingVisitor.writeObjectMembers c vis ind items out) := by
  cases items with
  | nil => exact absurd rfl hne
  | cons i rest =>
    rw [SerializingVisitor.writeObjectMembers, findSome_flatMap_cons]
    exact outcome_andThen
      (writeObjectMember_outcome c err hw vis strs ind i _ (hall i (by simp)))
      (fun out2 => writeObjectMembersRest_outcome c err hw vis strs ind rest out2
        (fun x hx => hall x (by simp [hx])))

theorem mem_insertSorted (x y : Bytes × Value) :
    ∀ l : List (Bytes × Value), y ∈ SerializingVisitor.insertSorted x l → y = x ∨ y ∈ l := by
  intro l
  induction l with
  | nil => intro h; simpa [SerializingVisitor.insertSorted] using h
  | cons z rest ih =>
    intro h
    rw [SerializingVisitor.insertSorted] at h
    split_ifs at h
    · rcases List.mem_cons.1 h with rfl | h
      · simp
      · rcases ih h with h | h
        · exact Or.inl h
        · exact Or.inr (by simp [h])
    · rcases List.mem_cons.1 h with rfl | h
      · simp
      · exact Or.inr h

theorem mem_sortItems (y : Bytes × Value) :
    ∀ l : List (Bytes × Value), y ∈ SerializingVisitor.sortItems l → y ∈ l := by
  intro l
  induction l with
  | nil => intro h; simpa [SerializingVisitor.sortItems] using h
  | cons x rest ih =>
    intro h
    rw [SerializingVisitor.sortItems] at h
    rcases mem_insertSorted x y _ h with rfl | h
    · simp
    · exact List.mem_cons_of_mem _ (ih h)

theorem insertSorted_ne_nil (x : Bytes × Value) (l : List (Bytes × Value)) :
    SerializingVisitor.insertSorted x l ≠ [] := by
  cases l with
  | nil => simp [SerializingVisitor.insertSorted]
  | cons z rest =>
    rw [SerializingVisitor.insertSorted]
    split_ifs <;> simp

theorem sortItems_ne_nil (l : List (Bytes × Value)) (h : l ≠ []) :
    SerializingVisitor.sortItems l ≠ [] := by
  cases l with
  | nil => exact absurd rfl h
  | cons x rest =>
    rw [SerializingVisitor.sortItems]
    exact insertSorted_ne_nil _ _

theorem visit_outcome (c : SerializingVisitor)
    (err : Bytes → Option InvalidUtf8CodeUnitsError)
    (hw : ∀ s out, Outcome (err s) (SerializingVisitor.writeString c s out)) :
    ∀ (fuel : Nat) (ind : Nat) (v : Value) (out : List Bytes), v.height ≤ fuel →
      Outcome ((writtenStrings c.options.sortObjectKeys fuel v).findSome? err)
        (SerializingVisitor.visit c fuel ind v out) := by
  intro fuel
  induction fuel with
  | zero =>
    intro ind v out h
    have := height_pos v
    omega
  | succ fuel ih =>
    intro ind v out hh
    cases v with
    | null => exact ⟨_, rfl⟩
    | boolean b => exact ⟨_, rfl⟩
    | int64 i => exact ⟨_, rfl⟩
    | double d => exact ⟨_, rfl⟩
    | string t =>
      rw [SerializingVisitor.visit, writtenStrings]
      simpa [findSome_cons_or] using hw t out
    | array a =>
      rw [SerializingVisitor.visit, writtenStrings]
      cases a with
      | nil =>
        simp only [List.flatMap_nil, List.findSome?_nil]
        split_ifs <;> exact ⟨_, rfl⟩
      | cons i rest =>
        have hne1 : ¬ ((i :: rest).isEmpty = true ∧ c.options.emptyArray ≠ []) := by simp
        rw [if_neg hne1]
        simp only
        rw [Value.height] at hh
        have hall : ∀ x ∈ i :: rest, x.height ≤ fuel := fun x hx =>
          Nat.le_trans (height_le_heightArray _ x hx) (by omega)
        rw [findSome_flatMap_cons]
        have key : ∀ (ind2 : Nat) (out2 : List Bytes), Outcome
            (((writtenStrings c.options.sortObjectKeys fuel i).findSome? err).or
              ((rest.flatMap (writtenStrings c.options.sortObjectKeys fuel)).findSome? err))
            ((SerializingVisitor.visit c fuel ind2 i out2).andThen
              (SerializingVisitor.writeArrayMembersRest c (SerializingVisitor.visit c fuel ind2)
                ind2 rest)) :=
          fun ind2 out2 => outcome_andThen (ih ind2 i out2 (hall i (by simp)))
            (fun out3 => writeArrayMembersRest_outcome c err
              (SerializingVisitor.visit c fuel ind2)
              (writtenStrings c.options.sortObjectKeys fuel)
              ind2 rest out3 (fun x hx out4 => ih ind2 x out4 (hall x (by simp [hx]))))
        exact outcome_andThen_ok (key _ _) (fun out2 => ⟨_, rfl⟩)
    | object o =>
      rw [SerializingVisitor.visit, writtenStrings]
      cases o with
      | nil =>
        have e : (if c.options.sortObjectKeys = true then SerializingVisitor.sortItems []
            else ([] : List (Bytes × Value))) = [] := by
          split_ifs <;> rfl
        rw [e]
        simp only [List.flatMap_nil, List.findSome?_nil]
        split_ifs <;> first | exact ⟨_, rfl⟩ | simp_all
      | cons i rest =>
        have hne1 : ¬ ((i :: rest).isEmpty = true ∧ c.options.emptyObject ≠ []) := by simp
        have hne2 : (!(i :: rest).isEmpty) = true := rfl
        rw [if_neg hne1]
        simp only
        rw [if_pos hne2]
        rw [Value.height] at hh
        have hall : ∀ x ∈ i :: rest, x.2.height ≤ fuel := fun x hx =>
          Nat.le_trans (height_le_heightObject _ x hx) (by omega)
        have hvis : ∀ (ind2 : Nat) (items : List (Bytes × Value)),
            (∀ x ∈ items, x ∈ i :: rest) →
            ∀ x ∈ items, ∀ out, Outcome
              ((writtenStrings c.options.sortObjectKeys fuel x.2).findSome? err)
              (SerializingVisitor.visit c fuel ind2 x.2 out) :=
          fun ind2 items hsub x hx out3 => ih ind2 x.2 out3 (hall x (hsub x hx))
        have key : ∀ (ind2 : Nat) (out2 : List Bytes), Outcome
            (((if c.options.sortObjectKeys = true then SerializingVisitor.sortItems (i :: rest)
                else i :: rest).flatMap
              (fun i => i.1 :: writtenStrings c.options.sortObjectKeys fuel i.2)).findSome? err)
            (if (i :: rest).length = 1 then
              SerializingVisitor.writeObjectMember c (SerializingVisitor.visit c fuel ind2) ind2
                ((i :: rest).headD ([], .null)) out2
            else if c.options.sortObjectKeys = true then
              SerializingVisitor.writeObjectMembers c (SerializingVisitor.visit c fuel ind2) ind2
                (SerializingVisitor.sortItems (i :: rest)) out2
            else SerializingVisitor.writeObjectMembers c (SerializingVisitor.visit c fuel ind2)
              ind2 (i :: rest) out2) := by
          intro ind2 out2
          by_cases h1 : (i :: rest).length = 1
          · have hr : rest = [] := by
              simpa using h1
            subst hr
            have e : (if c.options.sortObjectKeys = true then SerializingVisitor.sortItems [i]
                else [i]) = [i] := by
              split_ifs <;> rfl
            rw [if_pos h1, e]
            have := writeObjectMember_outcome c err hw (SerializingVisitor.visit c fuel ind2)
              (writtenStrings c.options.sortObjectKeys fuel) ind2 i out2
              (fun out3 => ih ind2 i.2 out3 (hall i (by simp)))
            simpa using this
          · rw [if_neg h1]
            by_cases hs : c.options.sortObjectKeys = true
            · rw [if_pos hs, if_pos hs]
              exact writeObjectMembers_outcome c err hw _ _ ind2 _
                (sortItems_ne_nil _ (by simp)) out2
                (hvis ind2 _ (fun x hx => mem_sortItems x _ hx))
            · rw [if_neg hs, if_neg hs]
              exact writeObjectMembers_outcome c err hw _ _ ind2 _ (by simp) out2
                (hvis ind2 _ (fun x hx => hx))
        exact outcome_andThen_ok (key _ _) (fun out2 => ⟨_, rfl⟩)

theorem serialize_outcome (v : Value) (o : SerializationOptions)
    (err : Bytes → Option InvalidUtf8CodeUnitsError)
    (hw : ∀ c : SerializingVisitor, c.options = o →
      ∀ s out, Outcome (err s) (SerializingVisitor.writeString c s out)) :
    Outcome ((v.strings o.sortObjectKeys).findSome? err) (impl.serialize v o) := by
  have key : ∀ c : SerializingVisitor, c.options = o → ∀ ind,
      Outcome ((writtenStrings o.sortObjectKeys v.height v).findSome? err)
        (SerializingVisitor.visit c v.height ind v []) := by
    intro c hc ind
    have := visit_outcome c err (hw c hc) v.height ind v [] (Nat.le_refl _)
    rw [hc] at this
    exact this
  unfold impl.serialize Value.strings
  by_cases h : o.indent ≠ 0 ∨ o.newline.separator ≠ []
  · rw [if_pos h]
    exact key _ rfl _
  · rw [if_neg h]
    exact key _ rfl _

theorem findSome_of_find (err : Bytes → Option InvalidUtf8CodeUnitsError) :
    ∀ (l : List Bytes) (s : Bytes), l.find? (fun s => (err s).isSome) = some s →
      l.findSome? err = err s := by
  intro l
  induction l with
  | nil => intro s h; simp at h
  | cons x rest ih =>
    intro s h
    rw [List.find?_cons] at h
    rw [List.findSome?_cons]
    cases hx : err x with
    | none =>
      simp only [hx, Option.isSome_none] at h
      exact ih s h
    | some e =>
      simp only [hx, Option.isSome_some, Option.some.injEq] at h
      subst h
      rw [hx]

theorem findSome_none {α β : Type} : ∀ l : List α, l.findSome? (fun _ => (none : Option β)) = none := by
  intro l
  induction l with
  | nil => rfl
  | cons x rest ih => simpa [List.findSome?_cons] using ih

/-- C29, for the first malformed string: when `s` is the first of the Strings and keys of a
value, in the order in which the serializer writes them, that has a malformed UTF-8 unit,
serialization with `validation = FailOnInvalidUtf8CodeUnits` ends with the exception
`InvalidUtf8CodeUnitsError` whose offset is the offset in `s` of the first invalid byte and
whose code units are the bytes of `s` from that offset on, `min(n, remaining)` of them, where
`n` is the size that the byte announces (2, 3 or 4 for a lead byte, 1 otherwise); with
`validation = IgnoreInvalidUtf8CodeUnits` the serialization of the same value returns a
text. -/
theorem serialize_invalid_utf8 (v : Value) (o : SerializationOptions)
    (hv : o.validation = .FailOnInvalidUtf8CodeUnits) (s : Bytes) (k : Nat)
    (hfirst : (v.strings o.sortObjectKeys).find? (fun s => (firstMalformed s).isSome) = some s)
    (hk : firstMalformed s = some k) :
    serializeToString v o = some (.error
      { codeUnits := (s.drop k).take (min (announcedSize (s.getD k 0)) (s.length - k))
        offset := k }) ∧
    ∀ o2 : SerializationOptions, o2.validation = .IgnoreInvalidUtf8CodeUnits →
      ∃ text, serializeToString v o2 = some (.ok text) := by
  constructor
  · have h := serialize_outcome v o utf8Error
      (fun c hc s out => writeString_outcome c (by rw [hc]; exact hv) s out)
    have hfirst2 : (v.strings o.sortObjectKeys).find? (fun s => (utf8Error s).isSome) =
        some s := by
      simpa [utf8Error] using hfirst
    rw [findSome_of_find utf8Error _ s hfirst2] at h
    simp only [utf8Error, hk, Option.map_some'] at h
    obtain ⟨out, h⟩ := h
    unfold serializeToString
    rw [h]
  · intro o2 hv2
    have h := serialize_outcome v o2 (fun _ => none)
      (fun c hc s out => writeString_ignore c (by rw [hc]; exact hv2) s out)
    rw [findSome_none] at h
    obtain ⟨out, h⟩ := h
    unfold serializeToString
    rw [h]
    exact ⟨_, rfl⟩

/-- C29, amended, at the value `{"k":["a", s]}` with `s` the bytes `61 E2 82`: the lead byte
`E2` announces three bytes and two are left. -/
theorem serialize_invalid_utf8_witness :
    serializeToString (.object [([107], .array [.string [97], .string [97, 0xE2, 0x82]])])
      { validation := .FailOnInvalidUtf8CodeUnits } = some (.error
      { codeUnits := (([97, 0xE2, 0x82] : Bytes).drop 1).take
          (min (announcedSize (([97, 0xE2, 0x82] : Bytes).getD 1 0))
            (([97, 0xE2, 0x82] : Bytes).length - 1))
        offset := 1 }) ∧
    ∀ o2 : SerializationOptions, o2.validation = .IgnoreInvalidUtf8CodeUnits →
      ∃ text, serializeToString
        (.object [([107], .array [.string [97], .string [97, 0xE2, 0x82]])]) o2 =
          some (.ok text) :=
  serialize_invalid_utf8 (.object [([107], .array [.string [97], .string [97, 0xE2, 0x82]])])
    { validation := .FailOnInvalidUtf8CodeUnits } rfl [97, 0xE2, 0x82] 1 (by decide!)
    (by decide!)

/-- C29 as the code has it: in the array of the strings `80` and `61 80` the second string
has its first invalid byte at the offset 1, and the serialization ends with the exception for
the first string, with the offset 0 and the code unit `80`. -/
theorem serialize_invalid_utf8_second :
    firstMalformed [97, 0x80] = some 1 ∧
    serializeError (.array [.string [0x80], .string [97, 0x80]])
      { validation := .FailOnInvalidUtf8CodeUnits } =
        some { codeUnits := [0x80], offset := 0 } := by
  constructor <;> decide!

/-- The result of `parse` from the result of `impl::parse`: it is that result, or, after a
success in the mode `VerifyTrailingWhitespace`, that result with `parsedSize` moved over the
whitespace, and with the status `PartialSuccess` and one more issue, of code `Other`, when a
byte is left. -/
theorem parse_shape (input : Bytes) (o : ParsingOptions) (mode : ParsingMode) :
    ∃ res, impl.parse input o = some res ∧
      (parse input o mode = some res ∨
        (res.status = .Success ∧ ∃ q, res.parsedSize ≤ q ∧ q ≤ input.length ∧
          (parse input o mode = some { res with parsedSize := q } ∨
            parse input o mode = some
              { value := res.value
                status := .PartialSuccess
                parsedSize := q
                issues := res.issues ++
                  [{ offset := q
                     description := "non-whitespace characters after a valid JSON value"
                     code := .Other }] }))) := by
  have hsome := implParse_isSome input o
  cases hp : impl.parse input o with
  | none => simp [hp] at hsome
  | some res =>
    refine ⟨res, rfl, ?_⟩
    have hle := (implParse_post input o res hp).1
    unfold parse
    rw [hp]
    simp only
    by_cases hc : res.status = .Success ∧ mode = .VerifyTrailingWhitespace
    · rw [if_pos hc]
      right
      have hr := skipWhitespaces_reach ⟨res.parsedSize, input.drop res.parsedSize⟩
      have h1 := hr.pos_le
      have h2 := hr.size_eq
      simp only [List.length_drop] at h1 h2
      refine ⟨hc.1, (skipWhitespaces ⟨res.parsedSize, input.drop res.parsedSize⟩).2.pos, h1,
        by omega, ?_⟩
      by_cases hw : (skipWhitespaces ⟨res.parsedSize, input.drop res.parsedSize⟩).1 = true
      · left
        simp [hw]
      · right
        simp [hw]
    · rw [if_neg hc]
      exact Or.inl rfl

theorem stops_offset_le (o : ParsingOptions) (x : ParsingIssue) (i : Ptr) (h : Stops o x i) :
    x.offset ≤ i.pos := by
  unfold Stops at h
  cases hc : x.code <;> simp only [hc] at h <;>
    first | exact h | exact Nat.le_of_lt h | exact Nat.le_of_eq h.1 | exact Nat.le_of_lt h.2

/-- C39: for every input, all options and both modes `parse` returns a result; when the status
is `Failure` the issues are not empty, and when the last of them has the code
`InvalidCharacter` or `UnexpectedEndOfInput`, `parsedSize` is its offset, which for
`UnexpectedEndOfInput` is the input length; an issue with one of these two codes is the last
issue of a `Failure` only; in every case `parsedSize` and the offset of every issue are at
most the input length. -/
theorem parse_issue_offsets (input : Bytes) (o : ParsingOptions) (mode : ParsingMode) :
    ∃ r, parse input o mode = some r ∧
      (r.status = .Failure → ∃ rep x, r.issues = rep ++ [x] ∧
        (x.code = .InvalidCharacter ∨ x.code = .UnexpectedEndOfInput →
          r.parsedSize = x.offset) ∧
        (x.code = .UnexpectedEndOfInput → x.offset = input.length)) ∧
      (∀ rep x, r.issues = rep ++ [x] →
        x.code = .InvalidCharacter ∨ x.code = .UnexpectedEndOfInput → r.status = .Failure) ∧
      r.parsedSize ≤ input.length ∧
      ∀ y ∈ r.issues, y.offset ≤ input.length := by
  obtain ⟨res, hi, hshape⟩ := parse_shape input o mode
  obtain ⟨hle, b, hst, hpost⟩ := implParse_post input o res hi
  -- the result of `impl::parse`
  have hres : (res.status = .Failure → ∃ rep x, res.issues = rep ++ [x] ∧
        (x.code = .InvalidCharacter ∨ x.code = .UnexpectedEndOfInput →
          res.parsedSize = x.offset) ∧
        (x.code = .UnexpectedEndOfInput → x.offset = input.length)) ∧
      (∀ rep x, res.issues = rep ++ [x] →
        x.code = .InvalidCharacter ∨ x.code = .UnexpectedEndOfInput →
          res.status = .Failure) ∧
      ∀ y ∈ res.issues, y.offset ≤ res.parsedSize := by
    cases b with
    | true =>
      have hs2 : res.status = .Success := by simpa using hst
      obtain ⟨-, rep, hrep, hall⟩ := hpost.ok
      simp only [List.nil_append] at hrep hall
      refine ⟨fun hf => absurd (hs2.symm.trans hf) (by decide), fun rep2 x hx hc => ?_,
        fun y hy => ?_⟩
      · exfalso
        have hmem : x ∈ rep := by
          have : x ∈ res.issues := by rw [hx]; simp
          rwa [hrep] at this
        have hk := (hall x hmem).1
        unfold ReportKind at hk
        rcases hc with hc | hc <;> rw [hc] at hk <;> simp at hk
      · rw [hrep] at hy
        exact Nat.le_of_lt (hall y hy).2
    | false =>
      obtain ⟨-, rep, x, hrep, hall, hstop⟩ := hpost.failed
      simp only [List.nil_append] at hrep hall hstop
      refine ⟨fun _ => ⟨rep, x, hrep, ?_, ?_⟩, fun _ _ _ _ => by simpa using hst,
        fun y hy => ?_⟩
      · intro hc
        unfold Stops at hstop
        rcases hc with hc | hc <;> simp only [hc] at hstop <;> exact hstop.1.symm
      · intro hc
        unfold Stops at hstop
        simp only [hc] at hstop
        have h2 := congrArg List.length hstop.2
        simp only [List.length_drop, List.length_nil] at h2
        omega
      · rw [hrep] at hy
        rcases List.mem_append.1 hy with hy | hy
        · exact Nat.le_of_lt (hall y hy).2
        · simp only [List.mem_singleton] at hy
          subst hy
          exact stops_offset_le o _ _ hstop
  rcases hshape with h | ⟨hs, q, hq1, hq2, h | h⟩
  · exact ⟨res, h, hres.1, hres.2.1, hle, fun y hy => Nat.le_trans (hres.2.2 y hy) hle⟩
  · refine ⟨_, h, fun hf => ?_, fun rep x hx hc => ?_, hq2,
      fun y hy => Nat.le_trans (hres.2.2 y hy) hle⟩
    · exact absurd (hs.symm.trans hf) (by decide)
    · exact hres.2.1 rep x hx hc
  · refine ⟨_, h, fun hf => by simp at hf, fun rep x hx hc => ?_, hq2, fun y hy => ?_⟩
    · exfalso
      simp only at hx
      obtain ⟨-, hx2⟩ := List.append_inj' hx rfl
      simp only [List.cons.injEq, and_true] at hx2
      subst hx2
      rcases hc with hc | hc <;> simp at hc
    · rcases List.mem_append.1 hy with hy | hy
      · exact Nat.le_trans (hres.2.2 y hy) hle
      · simp only [List.mem_singleton] at hy
        subst hy
        exact hq2

/-- C40: with the default options, for every input and both modes, `parse` returns a result
with at most one issue: none when the status is `Success`, and only then; one when the status
is `Failure`; and one, of code `Other`, when the status is `PartialSuccess`. -/
theorem parse_default_issues (input : Bytes) (mode : ParsingMode) :
    ∃ r, parse input {} mode = some r ∧
      r.issues.length ≤ 1 ∧
      (r.issues = [] ↔ r.status = .Success) ∧
      (r.status = .Failure → r.issues.length = 1) ∧
      (r.status = .PartialSuccess → ∃ x, r.issues = [x] ∧ x.code = .Other) := by
  obtain ⟨res, hi, hshape⟩ := parse_shape input {} mode
  obtain ⟨hle, b, hst, hpost⟩ := implParse_post input {} res hi
  have hnorep : ∀ rep : List ParsingIssue, (∀ y ∈ rep, ReportKind {} y ∧ True) → rep = [] := by
    intro rep hall
    cases rep with
    | nil => rfl
    | cons x t =>
      have := (hall x (List.mem_cons_self _ _)).1
      simp [ReportKind] at this
  have hres : (res.status = .Success → res.issues = []) ∧
      (res.status = .Failure → res.issues.length = 1) ∧
      (res.status = .Success ∨ res.status = .Failure) := by
    cases b with
    | true =>
      have hs2 : res.status = .Success := by simpa using hst
      obtain ⟨-, rep, hrep, hall⟩ := hpost.ok
      simp only [List.nil_append] at hrep
      have := hnorep rep (fun y hy => ⟨(hall y hy).1, trivial⟩)
      refine ⟨fun _ => by rw [hrep, this], fun hf => absurd (hs2.symm.trans hf) (by decide),
        Or.inl hs2⟩
    | false =>
      have hs2 : res.status = .Failure := by simpa using hst
      obtain ⟨-, rep, x, hrep, hall, -⟩ := hpost.failed
      simp only [List.nil_append] at hrep
      have := hnorep rep (fun y hy => ⟨(hall y hy).1, trivial⟩)
      refine ⟨fun hf => absurd (hs2.symm.trans hf) (by decide), fun _ => by rw [hrep, this]; rfl,
        Or.inr hs2⟩
  rcases hshape with h | ⟨hs, q, hq1, hq2, h | h⟩
  · refine ⟨res, h, ?_, ?_, hres.2.1, ?_⟩
    · rcases hres.2.2 with h1 | h1
      · simp [hres.1 h1]
      · simp [hres.2.1 h1]
    · constructor
      · intro he
        rcases hres.2.2 with h1 | h1
        · exact h1
        · have := hres.2.1 h1
          simp [he] at this
      · exact hres.1
    · intro hp
      rcases hres.2.2 with h1 | h1 <;> exact absurd (h1.symm.trans hp) (by decide)
  · refine ⟨_, h, by simp [hres.1 hs], ?_, fun hf => absurd (hs.symm.trans hf) (by decide),
      fun hp => absurd (hs.symm.trans hp) (by decide)⟩
    simp [hres.1 hs, hs]
  · refine ⟨_, h, by simp [hres.1 hs], ?_, fun hf => by simp at hf,
      fun _ => ⟨{ offset := q
                  description := "non-whitespace characters after a valid JSON value"
                  code := .Other }, by simp [hres.1 hs], rfl⟩⟩
    simp

/-- C37: for every value without a `Double` (the keys of each `Object` differ pairwise, as
the keys of a map do; the strings and the keys are any bytes), `serializeToString` with the
default options returns a text, and `parse` of that text with the default options returns, in
either mode, the status `Success`, no issues, `parsedSize` the length of the text and a value
that is `v` and compares equal to `v`. -/
theorem roundTrip_without_double (v : Value) (hnd : v.noDouble = true)
    (hkd : v.keysDistinct = true) (mode : ParsingMode) :
    ∃ text r, serializeToString v {} = some (.ok text) ∧ parse text {} mode = some r ∧
      r.status = .Success ∧ r.issues = [] ∧ r.parsedSize = text.length ∧
      r.value = v ∧ Value.eq r.value v = true := by
  have h := parse_text v.height v (Nat.le_refl _) hnd hkd
  rw [parse_stop_eq] at h
  exact ⟨v.text, _, serializeToString_default v,
    parse_of_implParse_all _ {} mode _ h rfl (by simp), rfl, rfl, rfl, rfl,
    eq_self v.height v (Nat.le_refl _) hnd hkd⟩

/-- C37 at the value `[{"a\x80":[]},"\u0001",-7,false]`, whose key is not valid UTF-8. -/
theorem roundTrip_without_double_witness :
    ∃ text r, serializeToString (.array [.object [([97, 0x80], .array [])], .string [1],
        .int64 ⟨-7, by decide⟩, .boolean false]) {} = some (.ok text) ∧
      parse text {} .VerifyTrailingWhitespace = some r ∧
      r.status = .Success ∧ r.issues = [] ∧ r.parsedSize = text.length ∧
      r.value = .array [.object [([97, 0x80], .array [])], .string [1],
        .int64 ⟨-7, by decide⟩, .boolean false] ∧
      Value.eq r.value (.array [.object [([97, 0x80], .array [])], .string [1],
        .int64 ⟨-7, by decide⟩, .boolean false]) = true :=
  roundTrip_without_double _ (by decide!) (by decide!) .VerifyTrailingWhitespace

theorem find_eq_find (k : Bytes) : ∀ o : List (Bytes × Value),
    Object.find k o = (o.find? (fun e => e.1 = k)).map (fun e => e.2) := by
  intro o
  induction o with
  | nil => rfl
  | cons e t ih =>
    obtain ⟨k2, x⟩ := e
    rw [Object.find, List.find?_cons]
    by_cases h : k2 = k
    · simp [h]
    · simp [h, ih]

theorem resolveImpl_eq_lookup (v : Value) (t : RefToken) : v.resolveImpl t = lookupToken v t := by
  cases t with
  | index i =>
    cases v <;> simp only [Value.resolveImpl, lookupToken]
    rename_i a
    by_cases h : i < a.length
    · simp [h, List.getElem?_eq_getElem]
    · simp [h, List.getElem?_eq_none (Nat.le_of_not_lt h)]
  | key k =>
    cases v <;> simp only [Value.resolveImpl, lookupToken]
    exact find_eq_find k _

theorem lookupTokens_none (tokens : List RefToken) : lookupTokens none tokens = none := by
  induction tokens with
  | nil => rfl
  | cons t rest ih => simpa [lookupTokens] using ih

theorem resolveFold_eq_lookup : ∀ (tokens : List RefToken) (v : Value),
    v.resolveFold tokens = lookupTokens (some v) tokens := by
  intro tokens
  induction tokens with
  | nil => intro v; rfl
  | cons t rest ih =>
    intro v
    rw [Value.resolveFold, resolveImpl_eq_lookup]
    cases h : lookupToken v t with
    | none =>
      have := lookupTokens_none rest
      simp only [lookupTokens, List.foldl_cons, Option.some_bind, h] at this ⊢
      exact this.symm
    | some w =>
      simp only [lookupTokens, List.foldl_cons, Option.some_bind, h]
      exact ih w

theorem lookupTokens_append (start : Option Value) (a b : List RefToken) :
    lookupTokens start (a ++ b) = lookupTokens (lookupTokens start a) b := by
  simp [lookupTokens, List.foldl_append]

/-- C35: for every value and every sequence of at least one token, `resolve` returns what the
lookups of the tokens one after the other return, where the lookup of one token in a node is
the element at the index for an `Array` and an index below its size, the value of the key for
an `Object` that has the key, and not-found in every other case; and the result is not-found
as soon as the lookups of the first tokens end with not-found.  The member takes the value by
a `const` pointer; here it is a function of the value. -/
theorem resolve_eq_lookups (v : Value) (token : RefToken) (rest : List RefToken) :
    v.resolve token rest = lookupTokens (some v) (token :: rest) ∧
    (∀ a b, token :: rest = a ++ b → lookupTokens (some v) a = none →
      v.resolve token rest = none) ∧
    (∀ t, lookupToken (.null) t = none ∧ (∀ b, lookupToken (.boolean b) t = none) ∧
      (∀ i, lookupToken (.int64 i) t = none) ∧ (∀ d, lookupToken (.double d) t = none) ∧
      (∀ s, lookupToken (.string s) t = none)) ∧
    (∀ a k, lookupToken (.array a) (.key k) = none) ∧
    (∀ o i, lookupToken (.object o) (.index i) = none) ∧
    (∀ a i, a.length ≤ i → lookupToken (.array a) (.index i) = none) ∧
    (∀ a i (h : i < a.length), lookupToken (.array a) (.index i) = some (a.get ⟨i, h⟩)) ∧
    (∀ o k, (∀ e ∈ o, e.1 ≠ k) → lookupToken (.object o) (.key k) = none) ∧
    (∀ o k x, (k, x) ∈ o → (o.map (fun e => e.1)).Nodup →
      lookupToken (.object o) (.key k) = some x) := by
  have h1 : v.resolve token rest = lookupTokens (some v) (token :: rest) :=
    resolveFold_eq_lookup _ v
  refine ⟨h1, ?_, ?_, ?_, ?_, ?_, ?_, ?_, ?_⟩
  · intro a b hab hnone
    rw [h1, hab, lookupTokens_append, hnone, lookupTokens_none]
  · intro t
    refine ⟨?_, ?_, ?_, ?_, ?_⟩ <;> intros <;> cases t <;> rfl
  · intro a k; rfl
  · intro o i; rfl
  · intro a i h
    simp [lookupToken, List.getElem?_eq_none h]
  · intro a i h
    simp [lookupToken, List.getElem?_eq_getElem h]
  · intro o k h
    simp only [lookupToken, Option.map_eq_none', List.find?_eq_none]
    intro e he
    simpa using h e he
  · intro o k x hx hnd
    simp only [lookupToken]
    induction o with
    | nil => cases hx
    | cons e t ih =>
      rw [List.map_cons, List.nodup_cons] at hnd
      rw [List.find?_cons]
      rcases List.mem_cons.1 hx with rfl | hx
      · simp
      · have hne : e.1 ≠ k := by
          intro he
          apply hnd.1
          rw [he]
          exact List.mem_map_of_mem (fun e : Bytes × Value => e.1) hx
        simp only [hne, decide_False]
        exact ih hx hnd.2

theorem indentationFragments_flatten (ch : Byte) : ∀ (fuel indent : Nat), indent ≤ fuel →
    (SerializingVisitor.indentationFragments (List.replicate 100 ch) fuel indent).flatten =
      List.replicate indent ch := by
  intro fuel
  induction fuel with
  | zero =>
    intro indent h
    have : indent = 0 := by omega
    subst this
    rfl
  | succ fuel ih =>
    intro indent h
    rw [SerializingVisitor.indentationFragments]
    by_cases h0 : indent = 0
    · subst h0; rfl
    · rw [if_neg h0]
      simp only [List.length_replicate, List.flatten_cons, List.take_replicate]
      rw [ih _ (by omega), ← List.replicate_add]
      congr 1
      omega

theorem writeNewlineAndIndentation_flatten (c : SerializingVisitor) (ind : Nat) (doWrite : Bool)
    (out : List Bytes) :
    (SerializingVisitor.writeNewlineAndIndentation c ind doWrite out).flatten =
      out.flatten ++ newlineText c ind doWrite := by
  unfold SerializingVisitor.writeNewlineAndIndentation newlineText
  by_cases h : c.serializationMode = .WithIndentation ∧ doWrite = true
  · rw [if_pos h, if_pos h]
    have hc : c.indentationChars = List.replicate 100 (indentationByte c.options) := by
      unfold SerializingVisitor.indentationChars indentationByte
      rw [if_pos h.1]
      split_ifs <;> rfl
    rw [hc]
    simp only [List.flatten_append, List.flatten_cons, List.flatten_nil, List.append_nil,
      indentationFragments_flatten _ ind ind (Nat.le_refl _), List.append_assoc]
  · rw [if_neg h, if_neg h]
    simp

theorem andThen_ok {w : Written} {f : List Bytes → Written} {out2 : List Bytes}
    (h : w.andThen f = .ok out2) : ∃ out1, w = .ok out1 ∧ f out1 = .ok out2 := by
  cases w with
  | ok out1 => exact ⟨out1, rfl, h⟩
  | thrown e out1 => simp [Written.andThen] at h
  | stopped => simp [Written.andThen] at h

theorem implEscape_result_le (s : Bytes) (m : Escape) (v : Utf8Validation) (h : HexDigitsCase) :
    ∃ n frags, impl.escape s m v h = some (n, frags) ∧
      (v = .IgnoreInvalidUtf8CodeUnits → n = s.length) := by
  obtain ⟨frags, h1, _⟩ := implEscape_chunks s m v h
  refine ⟨_, frags, h1, fun hv => ?_⟩
  subst hv
  rw [escapeStop_ignore]
  rfl

theorem writeString_text (c : SerializingVisitor) (s : Bytes) (out out2 : List Bytes)
    (h : SerializingVisitor.writeString c s out = .ok out2) :
    out2.flatten = out.flatten ++ quotedText c.options s := by
  obtain ⟨n, frags, h1, h2⟩ := implEscape_result_le s c.options.escape c.options.validation
    c.options.hexDigitsCase
  unfold SerializingVisitor.writeString at h
  rw [h1] at h
  simp only at h
  have hn : n = s.length := by
    cases hv : c.options.validation with
    | IgnoreInvalidUtf8CodeUnits => exact h2 hv
    | FailOnInvalidUtf8CodeUnits =>
      by_contra hne
      rw [if_pos ⟨hv, hne⟩] at h
      cases h
  subst hn
  rw [if_neg (fun x => x.2 rfl)] at h
  simp only [Written.ok.injEq] at h
  subst h
  unfold quotedText escape
  by_cases hs : s = []
  · subst hs
    have : frags = [] := by
      have := h1
      simp [impl.escape, EscapedStringWriter.write] at this
      exact this
    subst this
    simp
  · rw [if_pos hs, h1]
    simp

theorem writeArrayMembersRest_text (c : SerializingVisitor)
    (vis : Value → List Bytes → Written) (lay : Value → Bytes) (ind : Nat) :
    ∀ (rest : List Value) (out out2 : List Bytes),
      (∀ x ∈ rest, ∀ out out2, vis x out = .ok out2 → out2.flatten = out.flatten ++ lay x) →
      SerializingVisitor.writeArrayMembersRest c vis ind rest out = .ok out2 →
      out2.flatten = out.flatten ++ rest.flatMap (fun x =>
        newlineText c ind c.options.newline.beforeArrayMemberSeparator ++
        c.options.arrayMemberSeparator ++
        newlineText c ind c.options.newline.afterArrayMemberSeparator ++ lay x) := by
  intro rest
  induction rest with
  | nil =>
    intro out out2 _ h
    simp only [SerializingVisitor.writeArrayMembersRest, Written.ok.injEq] at h
    subst h
    simp
  | cons v rest ih =>
    intro out out2 hall h
    rw [SerializingVisitor.writeArrayMembersRest] at h
    obtain ⟨out1, h1, h2⟩ := andThen_ok h
    have e1 := hall v (by simp) _ _ h1
    have e2 := ih out1 out2 (fun x hx => hall x (by simp [hx])) h2
    rw [e2, e1]
    simp only [List.flatten_append, writeNewlineAndIndentation_flatten, List.flatMap_cons,
      List.flatten_cons, List.flatten_nil, List.append_nil, List.append_assoc]

theorem writeObjectMember_text (c : SerializingVisitor)
    (vis : Value → List Bytes → Written) (lay : Value → Bytes) (ind : Nat)
    (i : Bytes × Value) (out out2 : List Bytes)
    (hvis : ∀ out out2, vis i.2 out = .ok out2 → out2.flatten = out.flatten ++ lay i.2)
    (h : SerializingVisitor.writeObjectMember c vis ind i out = .ok out2) :
    out2.flatten = out.flatten ++ (quotedText c.options i.1 ++
      newlineText c ind c.options.newline.afterObjectMemberKey ++
      c.options.objectKeyValueSeparator ++
      newlineText c ind (c.options.newline.beforeObjectMemberValue ||
        (c.options.newline.beforeObjectMemberCollectionValue &&
          SerializingVisitor.isCollection i.2)) ++ lay i.2) := by
  rw [SerializingVisitor.writeObjectMember] at h
  obtain ⟨out1, h1, h2⟩ := andThen_ok h
  have e1 := writeString_text c i.1 out out1 h1
  have e2 := hvis _ _ h2
  rw [e2]
  simp only [List.flatten_append, writeNewlineAndIndentation_flatten, e1,
    List.flatten_cons, List.flatten_nil, List.append_nil, List.append_assoc]

theorem writeObjectMembersRest_text (c : SerializingVisitor)
    (vis : Value → List Bytes → Written) (lay : Value → Bytes) (ind : Nat) :
    ∀ (rest : List (Bytes × Value)) (out out2 : List Bytes),
      (∀ x ∈ rest, ∀ out out2, vis x.2 out = .ok out2 →
        out2.flatten = out.flatten ++ lay x.2) →
      SerializingVisitor.writeObjectMembersRest c vis ind rest out = .ok out2 →
      out2.flatten = out.flatten ++ rest.flatMap (fun m =>
        newlineText c ind c.options.newline.beforeObjectMemberSeparator ++
        c.options.objectMemberSeparator ++
        newlineText c ind c.options.newline.afterObjectMemberSeparator ++
        (quotedText c.options m.1 ++
          newlineText c ind c.options.newline.afterObjectMemberKey ++
          c.options.objectKeyValueSeparator ++
          newlineText c ind (c.options.newline.beforeObjectMemberValue ||
            (c.options.newline.beforeObjectMemberCollectionValue &&
              SerializingVisitor.isCollection m.2)) ++ lay m.2)) := by
  intro rest
  induction rest with
  | nil =>
    intro out out2 _ h
    simp only [SerializingVisitor.writeObjectMembersRest, Written.ok.injEq] at h
    subst h
    simp
  | cons v rest ih =>
    intro out out2 hall h
    rw [SerializingVisitor.writeObjectMembersRest] at h
    obtain ⟨out1, h1, h2⟩ := andThen_ok h
    have e1 := writeObjectMember_text c vis lay ind v _ _ (hall v (by simp)) h1
    have e2 := ih out1 out2 (fun x hx => hall x (by simp [hx])) h2
    rw [e2, e1]
    simp only [List.flatten_append, writeNewlineAndIndentation_flatten, List.flatMap_cons,
      List.flatten_cons, List.flatten_nil, List.append_nil, List.append_assoc]

theorem writeObjectMembers_text (c : SerializingVisitor)
    (vis : Value → List Bytes → Written) (lay : Value → Bytes) (ind : Nat)
    (i : Bytes × Value) (rest : List (Bytes × Value)) (out out2 : List Bytes)
    (hall : ∀ x ∈ i :: rest, ∀ out out2, vis x.2 out = .ok out2 →
      out2.flatten = out.flatten ++ lay x.2)
    (h : SerializingVisitor.writeObjectMembers c vis ind (i :: rest) out = .ok out2) :
    out2.flatten = out.flatten ++ ((quotedText c.options i.1 ++
        newlineText c ind c.options.newline.afterObjectMemberKey ++
        c.options.objectKeyValueSeparator ++
        newlineText c ind (c.options.newline.beforeObjectMemberValue ||
          (c.options.newline.beforeObjectMemberCollectionValue &&
            SerializingVisitor.isCollection i.2)) ++ lay i.2) ++
      rest.flatMap (fun m =>
        newlineText c ind c.options.newline.beforeObjectMemberSeparator ++
        c.options.objectMemberSeparator ++
        newlineText c ind c.options.newline.afterObjectMemberSeparator ++
        (quotedText c.options m.1 ++
          newlineText c ind c.options.newline.afterObjectMemberKey ++
          c.options.objectKeyValueSeparator ++
          newlineText c ind (c.options.newline.beforeObjectMemberValue ||
            (c.options.newline.beforeObjectMemberCollectionValue &&
              SerializingVisitor.isCollection m.2)) ++ lay m.2))) := by
  rw [SerializingVisitor.writeObjectMembers] at h
  obtain ⟨out1, h1, h2⟩ := andThen_ok h
  have e1 := writeObjectMember_text c vis lay ind i _ _ (hall i (by simp)) h1
  have e2 := writeObjectMembersRest_text c vis lay ind rest out1 out2
    (fun x hx => hall x (by simp [hx])) h2
  rw [e2, e1]
  simp only [List.append_assoc]

theorem visit_layout (c : SerializingVisitor) :
    ∀ (fuel ind : Nat) (v : Value) (out out2 : List Bytes),
      SerializingVisitor.visit c fuel ind v out = .ok out2 →
      out2.flatten = out.flatten ++ layout c fuel ind v := by
  intro fuel
  induction fuel with
  | zero => intro ind v out out2 h; simp [SerializingVisitor.visit] at h
  | succ fuel ih =>
    intro ind v out out2 h
    cases v with
    | null =>
      simp only [SerializingVisitor.visit, Written.ok.injEq] at h
      subst h; simp [layout]
    | boolean b =>
      simp only [SerializingVisitor.visit, Written.ok.injEq] at h
      subst h; simp [layout]
    | int64 i =>
      simp only [SerializingVisitor.visit, Written.ok.injEq,
        SerializingVisitor.writeNumberInt64] at h
      subst h; simp [layout]
    | double d =>
      simp only [SerializingVisitor.visit, Written.ok.injEq,
        SerializingVisitor.writeNumberDouble] at h
      subst h; simp [layout]
    | string t =>
      rw [SerializingVisitor.visit] at h
      unfold layout
      simp only
      exact writeString_text c t out out2 h
    | array a =>
      rw [SerializingVisitor.visit] at h
      unfold layout
      simp only
      cases a with
      | nil =>
        by_cases he : ([] : List Value).isEmpty = true ∧ c.options.emptyArray ≠ []
        · rw [if_pos he] at h ⊢
          simp only [Written.ok.injEq] at h
          subst h; simp
        · rw [if_neg he] at h ⊢
          simp only [Written.ok.injEq] at h
          subst h
          simp only [List.flatten_append, writeNewlineAndIndentation_flatten,
            List.flatten_cons, List.flatten_nil, List.append_nil, List.append_assoc]
      | cons i rest =>
        have hne1 : ¬ ((i :: rest).isEmpty = true ∧ c.options.emptyArray ≠ []) := by simp
        rw [if_neg hne1] at h ⊢
        simp only at h ⊢
        obtain ⟨out1, h1, h2⟩ := andThen_ok h
        obtain ⟨out0, h0, h3⟩ := andThen_ok h1
        simp only [Written.ok.injEq] at h2
        subst h2
        have e0 := ih _ i _ _ h0
        have e3 := writeArrayMembersRest_text c _ (layout c fuel _) _ rest out0 out1
          (fun x _ o1 o2 hx => ih _ x o1 o2 hx) h3
        simp only [List.flatten_append, writeNewlineAndIndentation_flatten, e3, e0,
          List.flatten_cons, List.flatten_nil, List.append_nil, List.append_assoc]
    | object o =>
      rw [SerializingVisitor.visit] at h
      unfold layout
      simp only
      cases o with
      | nil =>
        have e : (if c.options.sortObjectKeys = true then SerializingVisitor.sortItems []
            else ([] : List (Bytes × Value))) = [] := by
          split_ifs <;> rfl
        by_cases he : ([] : List (Bytes × Value)).isEmpty = true ∧ c.options.emptyObject ≠ []
        · rw [if_pos he] at h ⊢
          simp only [Written.ok.injEq] at h
          subst h; simp
        · rw [if_neg he] at h ⊢
          simp only [e]
          have hne2 : ¬ ((!([] : List (Bytes × Value)).isEmpty) = true) := by simp
          simp only at h
          rw [if_neg hne2] at h
          simp only [Written.ok.injEq] at h
          subst h
          simp only [List.flatten_append, writeNewlineAndIndentation_flatten,
            List.flatten_cons, List.flatten_nil, List.append_nil, List.append_assoc]
      | cons i rest =>
        have hne1 : ¬ ((i :: rest).isEmpty = true ∧ c.options.emptyObject ≠ []) := by simp
        have hne2 : (!(i :: rest).isEmpty) = true := rfl
        rw [if_neg hne1] at h ⊢
        simp only at h ⊢
        rw [if_pos hne2] at h
        obtain ⟨out1, h1, h2⟩ := andThen_ok h
        simp only [Written.ok.injEq] at h2
        subst h2
        -- the members in the order in which they are written
        have key : ∀ (ind2 : Nat) (out0 : List Bytes),
            (if (i :: rest).length = 1 then
              SerializingVisitor.writeObjectMember c (SerializingVisitor.visit c fuel ind2) ind2
                ((i :: rest).headD ([], .null)) out0
            else if c.options.sortObjectKeys = true then
              SerializingVisitor.writeObjectMembers c (SerializingVisitor.visit c fuel ind2) ind2
                (SerializingVisitor.sortItems (i :: rest)) out0
            else SerializingVisitor.writeObjectMembers c (SerializingVisitor.visit c fuel ind2)
              ind2 (i :: rest) out0) = .ok out1 →
            ∃ j tail, (if c.options.sortObjectKeys = true then
                SerializingVisitor.sortItems (i :: rest) else i :: rest) = j :: tail ∧
              out1.flatten = out0.flatten ++ ((quotedText c.options j.1 ++
                  newlineText c ind2 c.options.newline.afterObjectMemberKey ++
                  c.options.objectKeyValueSeparator ++
                  newlineText c ind2 (c.options.newline.beforeObjectMemberValue ||
                    (c.options.newline.beforeObjectMemberCollectionValue &&
                      SerializingVisitor.isCollection j.2)) ++ layout c fuel ind2 j.2) ++
                tail.flatMap (fun m =>
                  newlineText c ind2 c.options.newline.beforeObjectMemberSeparator ++
                  c.options.objectMemberSeparator ++
                  newlineText c ind2 c.options.newline.afterObjectMemberSeparator ++
                  (quotedText c.options m.1 ++
                    newlineText c ind2 c.options.newline.afterObjectMemberKey ++
                    c.options.objectKeyValueSeparator ++
                    newlineText c ind2 (c.options.newline.beforeObjectMemberValue ||
                      (c.options.newline.beforeObjectMemberCollectionValue &&
                        SerializingVisitor.isCollection m.2)) ++ layout c fuel ind2 m.2))) := by
          intro ind2 out0 hk
          by_cases hl : (i :: rest).length = 1
          · have hr : rest = [] := by simpa using hl
            subst hr
            have e : (if c.options.sortObjectKeys = true then SerializingVisitor.sortItems [i]
                else [i]) = [i] := by
              split_ifs <;> rfl
            rw [if_pos hl] at hk
            refine ⟨i, [], e, ?_⟩
            have := writeObjectMember_text c _ (layout c fuel ind2) ind2 i out0 out1
              (fun o1 o2 hx => ih ind2 i.2 o1 o2 hx) hk
            simpa using this
          · rw [if_neg hl] at hk
            by_cases hs : c.options.sortObjectKeys = true
            · rw [if_pos hs] at hk ⊢
              cases hsort : SerializingVisitor.sortItems (i :: rest) with
              | nil => rw [hsort] at hk; simp [SerializingVisitor.writeObjectMembers] at hk
              | cons j tail =>
                rw [hsort] at hk
                exact ⟨j, tail, rfl, writeObjectMembers_text c _ (layout c fuel ind2) ind2 j tail
                  out0 out1 (fun x _ o1 o2 hx => ih ind2 x.2 o1 o2 hx) hk⟩
            · rw [if_neg hs] at hk ⊢
              exact ⟨i, rest, rfl, writeObjectMembers_text c _ (layout c fuel ind2) ind2 i rest
                out0 out1 (fun x _ o1 o2 hx => ih ind2 x.2 o1 o2 hx) hk⟩
        obtain ⟨j, tail, hj, e1⟩ := key _ _ h1
        rw [hj]
        simp only [List.flatten_append, writeNewlineAndIndentation_flatten, e1,
          List.flatten_cons, List.flatten_nil, List.append_nil, List.append_assoc]

theorem serialize_eq_visit (v : Value) (o : SerializationOptions) :
    impl.serialize v o = SerializingVisitor.visit (visitorOf o) v.height 0 v [] := by
  unfold impl.serialize visitorOf
  by_cases h : o.indent ≠ 0 ∨ o.newline.separator ≠ []
  · rw [if_pos h, if_pos h]
  · rw [if_neg h, if_neg h]

theorem visitorOf_options (o : SerializationOptions) : (visitorOf o).options = o := by
  unfold visitorOf
  split_ifs <;> rfl

theorem serializeToString_layout (v : Value) (o : SerializationOptions) (text : Bytes)
    (h : serializeToString v o = some (.ok text)) :
    text = layout (visitorOf o) v.height 0 v := by
  unfold serializeToString at h
  rw [serialize_eq_visit] at h
  cases hv : SerializingVisitor.visit (visitorOf o) v.height 0 v [] with
  | ok out =>
    rw [hv] at h
    simp only [Option.some.injEq, Except.ok.injEq] at h
    have := visit_layout (visitorOf o) v.height 0 v [] out hv
    simp only [List.flatten_nil, List.nil_append] at this
    rw [← h, this]
  | thrown e out => rw [hv] at h; simp at h
  | stopped => rw [hv] at h; simp at h

theorem serializeToString_returns (v : Value) (o : SerializationOptions)
    (hok : o.validation = .IgnoreInvalidUtf8CodeUnits ∨
      ∀ s ∈ v.strings o.sortObjectKeys, firstMalformed s = none) :
    ∃ text, serializeToString v o = some (.ok text) := by
  have key : Outcome none (impl.serialize v o) := by
    cases hval : o.validation with
    | IgnoreInvalidUtf8CodeUnits =>
      have h := serialize_outcome v o (fun _ => none)
        (fun c hc s out => writeString_ignore c (by rw [hc]; exact hval) s out)
      rwa [findSome_none] at h
    | FailOnInvalidUtf8CodeUnits =>
      have hall : ∀ s ∈ v.strings o.sortObjectKeys, firstMalformed s = none := by
        rcases hok with h | h
        · rw [hval] at h; cases h
        · exact h
      have h := serialize_outcome v o utf8Error
        (fun c hc s out => writeString_outcome c (by rw [hc]; exact hval) s out)
      have hn : (v.strings o.sortObjectKeys).findSome? utf8Error = none := by
        rw [List.findSome?_eq_none_iff]
        intro s hs
        simp [utf8Error, hall s hs]
      rwa [hn] at h
  obtain ⟨out, h⟩ := key
  exact ⟨out.flatten, by unfold serializeToString; rw [h]⟩

theorem joined_cons_map {α : Type} (sep : Bytes) (f : α → Bytes) (x : α) (rest : List α) :
    joined sep ((x :: rest).map f) = f x ++ rest.flatMap (fun y => sep ++ f y) := by
  unfold joined
  induction rest generalizing x with
  | nil => simp
  | cons y t ih =>
    have := ih y
    simp only [List.map_cons, List.intersperse_cons_cons, List.flatten_cons,
      List.flatMap_cons] at this ⊢
    rw [this]
    simp

theorem newlineText_compact (c : SerializingVisitor)
    (hc : c.serializationMode = .WithoutIndentation) (ind : Nat) (b : Bool) :
    newlineText c ind b = [] := by
  simp [newlineText, hc]

theorem layout_compact (c : SerializingVisitor)
    (hc : c.serializationMode = .WithoutIndentation) :
    ∀ (fuel ind : Nat) (v : Value), layout c fuel ind v = compactText c.options fuel v := by
  intro fuel
  induction fuel with
  | zero => intro ind v; rfl
  | succ fuel ih =>
    intro ind v
    have hmode : ¬ c.serializationMode = .WithIndentation := by rw [hc]; decide
    cases v with
    | null => simp [layout, compactText]
    | boolean b => simp [layout, compactText]
    | int64 i => simp [layout, compactText]
    | double d => simp [layout, compactText]
    | string s => simp [layout, compactText]
    | array a =>
      unfold layout compactText
      simp only [newlineText_compact c hc, List.append_nil, if_neg hmode]
      cases a with
      | nil =>
        by_cases he : c.options.emptyArray ≠ []
        · simp [he]
        · simp [he]
      | cons i rest =>
        have hne1 : ¬ ((i :: rest).isEmpty = true ∧ c.options.emptyArray ≠ []) := by simp
        have hne2 : ¬ ((i :: rest).isEmpty = true) := by simp
        rw [if_neg hne1, if_neg hne2, joined_cons_map]
        simp only [ih, List.nil_append, List.append_assoc]
    | object m =>
      unfold layout compactText
      simp only [newlineText_compact c hc, List.append_nil, if_neg hmode]
      cases m with
      | nil =>
        have e : (if c.options.sortObjectKeys = true then SerializingVisitor.sortItems []
            else ([] : List (Bytes × Value))) = [] := by
          split_ifs <;> rfl
        simp only [e]
        by_cases he : c.options.emptyObject ≠ []
        · simp [he]
        · simp [he]
      | cons i rest =>
        have hne1 : ¬ ((i :: rest).isEmpty = true ∧ c.options.emptyObject ≠ []) := by simp
        have hne2 : ¬ ((i :: rest).isEmpty = true) := by simp
        rw [if_neg hne1, if_neg hne2]
        cases hl : (if c.options.sortObjectKeys = true then
            SerializingVisitor.sortItems (i :: rest) else i :: rest) with
        | nil =>
          exfalso
          by_cases hs : c.options.sortObjectKeys = true
          · rw [if_pos hs] at hl
            exact sortItems_ne_nil _ (by simp) hl
          · rw [if_neg hs] at hl
            cases hl
        | cons j tail =>
          simp only
          rw [joined_cons_map]
          simp only [ih, List.nil_append, List.append_assoc]

theorem newlineText_indented (c : SerializingVisitor)
    (hc : c.serializationMode = .WithIndentation) (hsep : c.newlineSeparator = [10])
    (d : Nat) :
    newlineText c (d * c.options.indent) true = lineBreak c.options d ∧
    ∀ ind, newlineText c ind false = [] := by
  constructor
  · simp [newlineText, hc, hsep, lineBreak]
  · intro ind; simp [newlineText]

theorem inner_indentation (d k h : Nat) (hh : 1 ≤ h) (hfit : (d + h) * k < 2 ^ 64) :
    (d * k + k) % 2 ^ 64 = (d + 1) * k := by
  have h1 : (d + 1) * k ≤ (d + h) * k := Nat.mul_le_mul_right k (by omega)
  have h2 : d * k + k = (d + 1) * k := by rw [Nat.add_mul, Nat.one_mul]
  rw [h2]
  exact Nat.mod_eq_of_lt (Nat.lt_of_le_of_lt h1 hfit)

theorem child_fits (d k h x : Nat) (hx : x ≤ h) (hfit : (d + h) * k < 2 ^ 64) :
    (d + 1 + x - 1) * k < 2 ^ 64 := by
  have h1 : (d + 1 + x - 1) * k ≤ (d + h) * k := Nat.mul_le_mul_right k (by omega)
  exact Nat.lt_of_le_of_lt h1 hfit

theorem heightArray_pos (i : Value) (rest : List Value) : 1 ≤ Value.heightArray (i :: rest) := by
  rw [Value.heightArray]
  exact Nat.le_trans (height_pos i) (Nat.le_max_left _ _)

theorem heightObject_pos (i : Bytes × Value) (rest : List (Bytes × Value)) :
    1 ≤ Value.heightObject (i :: rest) := by
  obtain ⟨k, x⟩ := i
  rw [Value.heightObject]
  exact Nat.le_trans (height_pos x) (Nat.le_max_left _ _)

theorem layout_indented (c : SerializingVisitor)
    (hc : c.serializationMode = .WithIndentation) (hsep : c.newlineSeparator = [10])
    (hnl : c.options.newline = {}) :
    ∀ (fuel d : Nat) (v : Value), (d + v.height - 1) * c.options.indent < 2 ^ 64 →
      layout c fuel (d * c.options.indent) v = indentedText c.options fuel d v := by
  intro fuel
  induction fuel with
  | zero => intro d v _; rfl
  | succ fuel ih =>
    intro d v hfit
    have hline := fun d => (newlineText_indented c hc hsep d).1
    have hnone := (newlineText_indented c hc hsep 0).2
    cases v with
    | null => simp [layout, indentedText]
    | boolean b => simp [layout, indentedText]
    | int64 i => simp [layout, indentedText]
    | double x => simp [layout, indentedText]
    | string s => simp [layout, indentedText]
    | array a =>
      unfold layout indentedText
      simp only [hnl, hc, if_true, Bool.or_true, Bool.true_or, hline, hnone, List.nil_append,
        List.append_nil]
      cases a with
      | nil =>
        by_cases he : c.options.emptyArray ≠ []
        · simp [he]
        · simp [he]
      | cons i rest =>
        have hne1 : ¬ ((i :: rest).isEmpty = true ∧ c.options.emptyArray ≠ []) := by simp
        have hne2 : ¬ ((i :: rest).isEmpty = true) := by simp
        rw [Value.height] at hfit
        have hfit2 : (d + Value.heightArray (i :: rest)) * c.options.indent < 2 ^ 64 := by
          have e : d + (Value.heightArray (i :: rest) + 1) - 1 =
              d + Value.heightArray (i :: rest) := by omega
          rwa [e] at hfit
        have hin := inner_indentation d c.options.indent _ (heightArray_pos i rest) hfit2
        have hchild : ∀ x ∈ i :: rest,
            layout c fuel ((d + 1) * c.options.indent) x =
              indentedText c.options fuel (d + 1) x := fun x hx =>
          ih (d + 1) x (child_fits d _ _ _ (height_le_heightArray _ x hx) hfit2)
        rw [if_neg hne1, if_neg hne2, joined_cons_map]
        simp only [hin, hline, hchild i (by simp), List.append_assoc]
        congr 3
        have : rest.flatMap (fun x => c.options.arrayMemberSeparator ++
              (lineBreak c.options (d + 1) ++ layout c fuel ((d + 1) * c.options.indent) x)) =
            rest.flatMap (fun y => c.options.arrayMemberSeparator ++
              (lineBreak c.options (d + 1) ++ indentedText c.options fuel (d + 1) y)) := by
          apply List.flatMap_congr
          intro x hx
          rw [hchild x (by simp [hx])]
        rw [this]
    | object m =>
      unfold layout indentedText
      simp only [hnl, hc, if_true, Bool.or_true, Bool.true_or, hline, hnone, List.nil_append,
        List.append_nil, Bool.false_and, Bool.or_self]
      cases m with
      | nil =>
        have e : (if c.options.sortObjectKeys = true then SerializingVisitor.sortItems []
            else ([] : List (Bytes × Value))) = [] := by
          split_ifs <;> rfl
        simp only [e]
        by_cases he : c.options.emptyObject ≠ []
        · simp [he]
        · simp [he]
      | cons i rest =>
        have hne1 : ¬ ((i :: rest).isEmpty = true ∧ c.options.emptyObject ≠ []) := by simp
        have hne2 : ¬ ((i :: rest).isEmpty = true) := by simp
        rw [Value.height] at hfit
        have hfit2 : (d + Value.heightObject (i :: rest)) * c.options.indent < 2 ^ 64 := by
          have e : d + (Value.heightObject (i :: rest) + 1) - 1 =
              d + Value.heightObject (i :: rest) := by omega
          rwa [e] at hfit
        have hin := inner_indentation d c.options.indent _ (heightObject_pos i rest) hfit2
        have hmem : ∀ x ∈ (if c.options.sortObjectKeys = true then
            SerializingVisitor.sortItems (i :: rest) else i :: rest), x ∈ i :: rest := by
          intro x hx
          by_cases hs : c.options.sortObjectKeys = true
          · rw [if_pos hs] at hx
            exact mem_sortItems x _ hx
          · rw [if_neg hs] at hx
            exact hx
        have hchild : ∀ x ∈ (if c.options.sortObjectKeys = true then
            SerializingVisitor.sortItems (i :: rest) else i :: rest),
            layout c fuel ((d + 1) * c.options.indent) x.2 =
              indentedText c.options fuel (d + 1) x.2 := fun x hx =>
          ih (d + 1) x.2 (child_fits d _ _ _ (height_le_heightObject _ x (hmem x hx)) hfit2)
        rw [if_neg hne1, if_neg hne2]
        cases hl : (if c.options.sortObjectKeys = true then
            SerializingVisitor.sortItems (i :: rest) else i :: rest) with
        | nil =>
          exfalso
          by_cases hs : c.options.sortObjectKeys = true
          · rw [if_pos hs] at hl
            exact sortItems_ne_nil _ (by simp) hl
          · rw [if_neg hs] at hl
            cases hl
        | cons j tail =>
          rw [hl] at hchild
          simp only
          rw [joined_cons_map]
          simp only [hin, hline, hchild j (by simp), List.append_assoc]
          congr 5
          have : tail.flatMap (fun x => c.options.objectMemberSeparator ++
                (lineBreak c.options (d + 1) ++ (quotedText c.options x.1 ++
                  (c.options.objectKeyValueSeparator ++
                    layout c fuel ((d + 1) * c.options.indent) x.2)))) =
              tail.flatMap (fun y => c.options.objectMemberSeparator ++
                (lineBreak c.options (d + 1) ++ (quotedText c.options y.1 ++
                  (c.options.objectKeyValueSeparator ++
                    indentedText c.options fuel (d + 1) y.2)))) := by
            apply List.flatMap_congr
            intro x hx
            rw [hchild x (by simp [hx])]
          rw [this]

theorem visitorOf_compact (o : SerializationOptions) (hi : o.indent = 0)
    (hs : o.newline.separator = []) :
    (visitorOf o).serializationMode = .WithoutIndentation := by
  unfold visitorOf
  rw [if_neg (by simp [hi, hs])]

theorem visitorOf_indented (o : SerializationOptions) (hk : 0 < o.indent)
    (hs : o.newline.separator = []) :
    (visitorOf o).serializationMode = .WithIndentation ∧
      (visitorOf o).newlineSeparator = [10] := by
  unfold visitorOf
  rw [if_pos (Or.inl (by omega))]
  simp [hs]

/-- C31, amended: in compact mode (`indent = 0` and an empty newline separator), when
`validation` is `IgnoreInvalidUtf8CodeUnits` or no String and no key of the value has a
malformed UTF-8 unit, `serializeToString(v, o)` returns the compact rendering of `v` from the
strings of the options: the literals for `Null`, `true` and `false`, the decimal text of a
number, a String as the opening quotation, its escaped text and the closing quotation, an
empty collection as its empty literal when that is not empty and as the opening and the
closing string otherwise, and the members of a collection joined by the separator between the
opening and the closing string, a member of an `Object` being its key string, the key-value
separator and its value.  The members of an `Object` come in its iteration order, or in the
order of their keys when `sortObjectKeys` is set. -/
theorem serializeToString_compact (v : Value) (o : SerializationOptions)
    (hi : o.indent = 0) (hs : o.newline.separator = [])
    (hok : o.validation = .IgnoreInvalidUtf8CodeUnits ∨
      ∀ s ∈ v.strings o.sortObjectKeys, firstMalformed s = none) :
    serializeToString v o = some (.ok (v.compact o)) := by
  obtain ⟨text, h⟩ := serializeToString_returns v o hok
  have h2 := serializeToString_layout v o text h
  rw [layout_compact _ (visitorOf_compact o hi hs), visitorOf_options] at h2
  rw [h, h2]
  rfl

/-- C31, amended, at the value `{"b":[null,true,-1,"x"],"a":[]}` with the literal `nil` for
`Null`, the separators `, ` and ` = `, the empty array `()` and sorted keys: the text is
`{"a" = (), "b" = [nil, true, -1, "x"]}`. -/
theorem serializeToString_compact_witness :
    serializeToString
        (.object [([98], .array [.null, .boolean true, .int64 ⟨-1, by decide⟩, .string [120]]),
          ([97], .array [])])
        { sortObjectKeys := true, nullLiteral := [110, 105, 108],
          arrayMemberSeparator := [44, 32], objectMemberSeparator := [44, 32],
          objectKeyValueSeparator := [32, 61, 32], emptyArray := [40, 41] } =
      some (.ok (Value.compact
        (.object [([98], .array [.null, .boolean true, .int64 ⟨-1, by decide⟩, .string [120]]),
          ([97], .array [])])
        { sortObjectKeys := true, nullLiteral := [110, 105, 108],
          arrayMemberSeparator := [44, 32], objectMemberSeparator := [44, 32],
          objectKeyValueSeparator := [32, 61, 32], emptyArray := [40, 41] })) :=
  serializeToString_compact _ _ rfl rfl (Or.inl rfl)

/-- C31 as the code has it: for the String with the single byte `80` and
`validation = FailOnInvalidUtf8CodeUnits`, in compact mode, `escape` gives the empty text,
the rendering of the String is `""`, and `serializeToString` returns no text: it ends with
the exception `InvalidUtf8CodeUnitsError`. -/
theorem serializeToString_compact_throws :
    escape [0x80] .Default .FailOnInvalidUtf8CodeUnits .Lower = some [] ∧
    Value.compact (.string [0x80]) { validation := .FailOnInvalidUtf8CodeUnits } = [34, 34] ∧
    serializedText (.string [0x80]) { validation := .FailOnInvalidUtf8CodeUnits } = none ∧
    serializeError (.string [0x80]) { validation := .FailOnInvalidUtf8CodeUnits } =
      some { codeUnits := [0x80], offset := 0 } := by
  refine ⟨?_, ?_, ?_, ?_⟩ <;> decide!

/-- C32, amended: with `indent = k > 0` and the default newline options, when `validation`
is `IgnoreInvalidUtf8CodeUnits` or no String and no key of the value has a malformed UTF-8
unit, and the indentation of the deepest line fits `size_t`, `serializeToString(v, o)` returns
the indented rendering of `v`: a collection at the depth `d` that is not empty is written as
its opening string, then each member after a line feed and `(d + 1) * k` indentation
characters, the separator right after the member before it, then a line feed, `d * k`
indentation characters and the closing string; a scalar is written as in compact mode,
without a line feed or indentation. -/
theorem serializeToString_indented (v : Value) (o : SerializationOptions)
    (hk : 0 < o.indent) (hnl : o.newline = {})
    (hfit : (v.height - 1) * o.indent < 2 ^ 64)
    (hok : o.validation = .IgnoreInvalidUtf8CodeUnits ∨
      ∀ s ∈ v.strings o.sortObjectKeys, firstMalformed s = none) :
    serializeToString v o = some (.ok (v.indented o)) := by
  obtain ⟨text, h⟩ := serializeToString_returns v o hok
  have h2 := serializeToString_layout v o text h
  have hs : o.newline.separator = [] := by rw [hnl]
  obtain ⟨hm, hsep⟩ := visitorOf_indented o hk hs
  have h3 := layout_indented (visitorOf o) hm hsep (by rw [visitorOf_options]; exact hnl)
    v.height 0 v (by rw [visitorOf_options, Nat.zero_add]; exact hfit)
  rw [Nat.zero_mul, visitorOf_options] at h3
  rw [h, h2, h3]
  rfl

/-- C32, amended, at `Array{1,2,3}` with `indent = 3`: the text is `[`, then `1,`, `2,` and
`3`, each after a line feed and three spaces, then a line feed and `]`. -/
theorem serializeToString_indented_witness :
    serializeToString
        (.array [.int64 ⟨1, by decide⟩, .int64 ⟨2, by decide⟩, .int64 ⟨3, by decide⟩])
        { indent := 3 } =
      some (.ok (Value.indented
        (.array [.int64 ⟨1, by decide⟩, .int64 ⟨2, by decide⟩, .int64 ⟨3, by decide⟩])
        { indent := 3 })) ∧
    Value.indented
        (.array [.int64 ⟨1, by decide⟩, .int64 ⟨2, by decide⟩, .int64 ⟨3, by decide⟩])
        { indent := 3 } =
      [91, 10, 32, 32, 32, 49, 44, 10, 32, 32, 32, 50, 44, 10, 32, 32, 32, 51, 10, 93] :=
  ⟨serializeToString_indented _ _ (by decide) rfl (by decide) (Or.inl rfl), by decide!⟩

/-- C32 as the code has it: for the array of the String with the single byte `80`, with
`indent = 1` and `validation = FailOnInvalidUtf8CodeUnits`, the indented rendering is `[`, a
line feed, a space, the String, a line feed and `]`, and `serializeToString` returns no text:
it ends with the exception `InvalidUtf8CodeUnitsError`. -/
theorem serializeToString_indented_throws :
    Value.indented (.array [.string [0x80]])
      { indent := 1, validation := .FailOnInvalidUtf8CodeUnits } = [91, 10, 32, 34, 34, 10, 93] ∧
    serializedText (.array [.string [0x80]])
      { indent := 1, validation := .FailOnInvalidUtf8CodeUnits } = none ∧
    serializeError (.array [.string [0x80]])
      { indent := 1, validation := .FailOnInvalidUtf8CodeUnits } =
      some { codeUnits := [0x80], offset := 0 } := by
  refine ⟨?_, ?_, ?_⟩ <;> decide!

theorem layout_empty_array (c : SerializingVisitor) (fuel ind : Nat) :
    layout c (fuel + 1) ind (.array []) =
      emptyCollectionText c ind c.options.emptyArray c.options.arrayOpeningBracket
        c.options.arrayClosingBracket c.options.newline.afterArrayOpeningBracket
        c.options.newline.beforeArrayClosingBracket := by
  unfold layout emptyCollectionText newlineText
  by_cases he : c.options.emptyArray ≠ []
  · simp [he]
  · simp [he]

theorem layout_empty_object (c : SerializingVisitor) (fuel ind : Nat) :
    layout c (fuel + 1) ind (.object []) =
      emptyCollectionText c ind c.options.emptyObject c.options.objectOpeningBrace
        c.options.objectClosingBrace c.options.newline.afterObjectOpeningBrace
        c.options.newline.beforeObjectClosingBrace := by
  unfold layout emptyCollectionText newlineText
  have e : (if c.options.sortObjectKeys = true then SerializingVisitor.sortItems []
      else ([] : List (Bytes × Value))) = [] := by
    split_ifs <;> rfl
  simp only [e]
  by_cases he : c.options.emptyObject ≠ []
  · simp [he]
  · simp [he]

theorem visit_empty_returns (c : SerializingVisitor) (fuel ind : Nat) (out : List Bytes) :
    (∃ out2, SerializingVisitor.visit c (fuel + 1) ind (.array []) out = .ok out2) ∧
    ∃ out2, SerializingVisitor.visit c (fuel + 1) ind (.object []) out = .ok out2 := by
  constructor
  · unfold SerializingVisitor.visit
    by_cases he : c.options.emptyArray ≠ []
    · simp [he]
    · simp [he]
  · unfold SerializingVisitor.visit
    by_cases he : c.options.emptyObject ≠ []
    · simp [he]
    · simp [he]

/-- C33: the visit of an empty `Array` or `Object`, with any options, in either mode, at any
indentation and after any output, returns, and what it sends to the sink is the empty literal
of the collection kind (`emptyArray`, `emptyObject`) and nothing else when that literal is not
empty; when it is empty, it is the opening string, then, only in the mode `WithIndentation`
and only when the flag after the opening or the flag before the closing of that collection
kind is set, one newline separator and the current indentation, then the closing string.  So
`serializeToString` of an empty collection returns that text at the indentation 0; with
`indent = 2` and empty literals it gives the open brace, a line feed and the closing brace
for an `Object`, and the same with brackets for an `Array`. -/
theorem visit_empty_collection (c : SerializingVisitor) (fuel ind : Nat) (out : List Bytes) :
    (∃ out2, SerializingVisitor.visit c (fuel + 1) ind (.array []) out = .ok out2 ∧
      out2.flatten = out.flatten ++
        emptyCollectionText c ind c.options.emptyArray c.options.arrayOpeningBracket
          c.options.arrayClosingBracket c.options.newline.afterArrayOpeningBracket
          c.options.newline.beforeArrayClosingBracket) ∧
    (∃ out2, SerializingVisitor.visit c (fuel + 1) ind (.object []) out = .ok out2 ∧
      out2.flatten = out.flatten ++
        emptyCollectionText c ind c.options.emptyObject c.options.objectOpeningBrace
          c.options.objectClosingBrace c.options.newline.afterObjectOpeningBrace
          c.options.newline.beforeObjectClosingBrace) ∧
    (∀ o : SerializationOptions,
      serializeToString (.array []) o = some (.ok (emptyArrayText o)) ∧
      serializeToString (.object []) o = some (.ok (emptyObjectText o))) ∧
    emptyObjectText { indent := 2, emptyObject := [] } = [123, 10, 125] ∧
    emptyArrayText { indent := 2, emptyArray := [] } = [91, 10, 93] := by
  refine ⟨?_, ?_, ?_, by decide, by decide⟩
  · obtain ⟨out2, h⟩ := (visit_empty_returns c fuel ind out).1
    refine ⟨out2, h, ?_⟩
    rw [visit_layout c _ _ _ _ _ h, layout_empty_array]
  · obtain ⟨out2, h⟩ := (visit_empty_returns c fuel ind out).2
    refine ⟨out2, h, ?_⟩
    rw [visit_layout c _ _ _ _ _ h, layout_empty_object]
  · intro o
    constructor
    · obtain ⟨out2, h⟩ := (visit_empty_returns (visitorOf o) 0 0 []).1
      have h2 := visit_layout _ _ _ _ _ _ h
      rw [layout_empty_array, visitorOf_options, List.flatten_nil, List.nil_append] at h2
      unfold serializeToString
      rw [serialize_eq_visit]
      have hh : (Value.array []).height = 1 := by simp [Value.height, Value.heightArray]
      rw [hh, h]
      simp only [h2]
      rfl
    · obtain ⟨out2, h⟩ := (visit_empty_returns (visitorOf o) 0 0 []).2
      have h2 := visit_layout _ _ _ _ _ _ h
      rw [layout_empty_object, visitorOf_options, List.flatten_nil, List.nil_append] at h2
      unfold serializeToString
      rw [serialize_eq_visit]
      have hh : (Value.object []).height = 1 := by simp [Value.height, Value.heightObject]
      rw [hh, h]
      simp only [h2]
      rfl

theorem stringLt_iff : ∀ a b : Bytes, SerializingVisitor.stringLt a b = true ↔ bytesLess a b := by
  intro a
  induction a with
  | nil =>
    intro b
    cases b with
    | nil => simp [SerializingVisitor.stringLt, bytesLess]
    | cons y t => simp [SerializingVisitor.stringLt, bytesLess, List.Lex.nil]
  | cons x s ih =>
    intro b
    cases b with
    | nil => simp [SerializingVisitor.stringLt, bytesLess]
    | cons y t =>
      rw [SerializingVisitor.stringLt]
      unfold bytesLess
      by_cases h1 : x.val < y.val
      · rw [if_pos h1]
        exact ⟨fun _ => List.Lex.rel h1, fun _ => rfl⟩
      · rw [if_neg h1]
        by_cases h2 : y.val < x.val
        · rw [if_pos h2]
          constructor
          · intro h; cases h
          · intro h
            cases h with
            | cons h => exact absurd h2 (Nat.lt_irrefl _)
            | rel h => exact absurd h h1
        · rw [if_neg h2]
          have hxy : x = y := Fin.ext (by omega)
          subst hxy
          rw [ih t]
          constructor
          · intro h; exact List.Lex.cons h
          · intro h
            cases h with
            | cons h => exact h
            | rel h => exact absurd h h1

theorem stringLt_irrefl : ∀ a : Bytes, SerializingVisitor.stringLt a a = false := by
  intro a
  induction a with
  | nil => rfl
  | cons x s ih => simp [SerializingVisitor.stringLt, ih]

theorem stringLt_trans : ∀ a b c : Bytes, SerializingVisitor.stringLt a b = true →
    SerializingVisitor.stringLt b c = true → SerializingVisitor.stringLt a c = true := by
  intro a
  induction a with
  | nil =>
    intro b c h1 h2
    cases c with
    | nil => cases b <;> simp [SerializingVisitor.stringLt] at h2
    | cons z u => rfl
  | cons x s ih =>
    intro b c h1 h2
    cases b with
    | nil => simp [SerializingVisitor.stringLt] at h1
    | cons y t =>
      cases c with
      | nil => simp [SerializingVisitor.stringLt] at h2
      | cons z u =>
        rw [SerializingVisitor.stringLt] at h1 h2 ⊢
        by_cases a1 : x.val < y.val
        · by_cases b1 : y.val < z.val
          · rw [if_pos (by omega)]
          · rw [if_neg b1] at h2
            by_cases b2 : z.val < y.val
            · rw [if_pos b2] at h2; cases h2
            · rw [if_pos (by omega)]
        · rw [if_neg a1] at h1
          by_cases a2 : y.val < x.val
          · rw [if_pos a2] at h1; cases h1
          · rw [if_neg a2] at h1
            by_cases b1 : y.val < z.val
            · rw [if_pos (by omega)]
            · rw [if_neg b1] at h2
              by_cases b2 : z.val < y.val
              · rw [if_pos b2] at h2; cases h2
              · rw [if_neg b2] at h2
                rw [if_neg (by omega), if_neg (by omega)]
                exact ih t u h1 h2

theorem stringLt_total : ∀ a b : Bytes, a ≠ b →
    SerializingVisitor.stringLt a b = true ∨ SerializingVisitor.stringLt b a = true := by
  intro a
  induction a with
  | nil =>
    intro b h
    cases b with
    | nil => exact absurd rfl h
    | cons y t => exact Or.inl rfl
  | cons x s ih =>
    intro b h
    cases b with
    | nil => exact Or.inr rfl
    | cons y t =>
      rw [SerializingVisitor.stringLt, SerializingVisitor.stringLt]
      by_cases a1 : x.val < y.val
      · exact Or.inl (by rw [if_pos a1])
      · by_cases a2 : y.val < x.val
        · exact Or.inr (by rw [if_pos a2])
        · rw [if_neg a1, if_neg a2, if_neg a2, if_neg a1]
          have hxy : x = y := Fin.ext (by omega)
          subst hxy
          exact ih t (fun e => h (by rw [e]))

theorem insertSorted_perm (x : Bytes × Value) : ∀ l : List (Bytes × Value),
    (SerializingVisitor.insertSorted x l).Perm (x :: l) := by
  intro l
  induction l with
  | nil => exact List.Perm.refl _
  | cons y rest ih =>
    rw [SerializingVisitor.insertSorted]
    by_cases h : SerializingVisitor.stringLt y.1 x.1 = true
    · rw [if_pos h]
      exact (List.Perm.cons y ih).trans (List.Perm.swap x y rest)
    · rw [if_neg h]

theorem sortItems_perm : ∀ l : List (Bytes × Value), (SerializingVisitor.sortItems l).Perm l := by
  intro l
  induction l with
  | nil => exact List.Perm.refl _
  | cons x rest ih =>
    rw [SerializingVisitor.sortItems]
    exact (insertSorted_perm x _).trans (List.Perm.cons x ih)

theorem insertSorted_pairwise (x : Bytes × Value) : ∀ l : List (Bytes × Value),
    (∀ y ∈ l, y.1 ≠ x.1) →
    l.Pairwise (fun a b => SerializingVisitor.stringLt a.1 b.1 = true) →
    (SerializingVisitor.insertSorted x l).Pairwise
      (fun a b => SerializingVisitor.stringLt a.1 b.1 = true) := by
  intro l
  induction l with
  | nil => intro _ _; simp [SerializingVisitor.insertSorted]
  | cons y rest ih =>
    intro hne hp
    rw [SerializingVisitor.insertSorted]
    rw [List.pairwise_cons] at hp
    by_cases h : SerializingVisitor.stringLt y.1 x.1 = true
    · rw [if_pos h, List.pairwise_cons]
      refine ⟨fun z hz => ?_, ih (fun z hz => hne z (List.mem_cons_of_mem _ hz)) hp.2⟩
      rcases mem_insertSorted x z rest hz with rfl | hz
      · exact h
      · exact hp.1 z hz
    · rw [if_neg h, List.pairwise_cons, List.pairwise_cons]
      have hxy : SerializingVisitor.stringLt x.1 y.1 = true := by
        rcases stringLt_total x.1 y.1 (fun e => hne y (by simp) e.symm) with h2 | h2
        · exact h2
        · exact absurd h2 h
      refine ⟨fun z hz => ?_, hp⟩
      rcases List.mem_cons.1 hz with rfl | hz
      · exact hxy
      · exact stringLt_trans _ _ _ hxy (hp.1 z hz)

theorem sortItems_pairwise : ∀ l : List (Bytes × Value), (l.map (fun e => e.1)).Nodup →
    (SerializingVisitor.sortItems l).Pairwise (fun a b => bytesLess a.1 b.1) := by
  have key : ∀ l : List (Bytes × Value), (l.map (fun e => e.1)).Nodup →
      (SerializingVisitor.sortItems l).Pairwise
        (fun a b => SerializingVisitor.stringLt a.1 b.1 = true) := by
    intro l
    induction l with
    | nil => intro _; simp [SerializingVisitor.sortItems]
    | cons x rest ih =>
      intro hnd
      rw [List.map_cons, List.nodup_cons] at hnd
      rw [SerializingVisitor.sortItems]
      refine insertSorted_pairwise x _ (fun y hy e => ?_) (ih hnd.2)
      exact hnd.1 (by rw [← e]; exact List.mem_map_of_mem _ (mem_sortItems y rest hy))
  intro l hnd
  exact (key l hnd).imp (fun h => (stringLt_iff _ _).1 h)

theorem insertSorted_map (g : Value → Value) (x : Bytes × Value) :
    ∀ l : List (Bytes × Value),
      SerializingVisitor.insertSorted (x.1, g x.2) (l.map (fun e => (e.1, g e.2))) =
        (SerializingVisitor.insertSorted x l).map (fun e => (e.1, g e.2)) := by
  intro l
  induction l with
  | nil => rfl
  | cons y rest ih =>
    rw [List.map_cons, SerializingVisitor.insertSorted, SerializingVisitor.insertSorted]
    by_cases h : SerializingVisitor.stringLt y.1 x.1 = true
    · rw [if_pos h, if_pos h, ih]
      rfl
    · rw [if_neg h, if_neg h]
      rfl

theorem sortItems_map (g : Value → Value) : ∀ l : List (Bytes × Value),
    SerializingVisitor.sortItems (l.map (fun e => (e.1, g e.2))) =
      (SerializingVisitor.sortItems l).map (fun e => (e.1, g e.2)) := by
  intro l
  induction l with
  | nil => rfl
  | cons x rest ih =>
    rw [List.map_cons, SerializingVisitor.sortItems, SerializingVisitor.sortItems, ih]
    exact insertSorted_map g x _

theorem heightObject_insertSorted (x : Bytes × Value) : ∀ l : List (Bytes × Value),
    Value.heightObject (SerializingVisitor.insertSorted x l) =
      max x.2.height (Value.heightObject l) := by
  intro l
  induction l with
  | nil =>
    obtain ⟨k, v⟩ := x
    simp [SerializingVisitor.insertSorted, Value.heightObject]
  | cons y rest ih =>
    obtain ⟨k, v⟩ := x
    obtain ⟨k2, v2⟩ := y
    rw [SerializingVisitor.insertSorted]
    by_cases h : SerializingVisitor.stringLt k2 k = true
    · simp only [h, if_true]
      rw [Value.heightObject, ih, Value.heightObject]
      simp only
      omega
    · simp only [h]
      rw [if_neg (by simp), Value.heightObject, Value.heightObject]

theorem heightObject_sortItems : ∀ l : List (Bytes × Value),
    Value.heightObject (SerializingVisitor.sortItems l) = Value.heightObject l := by
  intro l
  induction l with
  | nil => rfl
  | cons x rest ih =>
    obtain ⟨k, v⟩ := x
    rw [SerializingVisitor.sortItems, heightObject_insertSorted, ih, Value.heightObject]

theorem heightArray_map (g : Value → Value) : ∀ a : List Value,
    (∀ x ∈ a, (g x).height = x.height) → Value.heightArray (a.map g) = Value.heightArray a := by
  intro a
  induction a with
  | nil => intro _; rfl
  | cons x rest ih =>
    intro h
    rw [List.map_cons, Value.heightArray, Value.heightArray, h x (by simp),
      ih (fun y hy => h y (by simp [hy]))]

theorem heightObject_map (g : Value → Value) : ∀ m : List (Bytes × Value),
    (∀ e ∈ m, (g e.2).height = e.2.height) →
      Value.heightObject (m.map (fun e => (e.1, g e.2))) = Value.heightObject m := by
  intro m
  induction m with
  | nil => intro _; rfl
  | cons x rest ih =>
    intro h
    obtain ⟨k, v⟩ := x
    rw [List.map_cons, Value.heightObject, Value.heightObject, h (k, v) (by simp),
      ih (fun y hy => h y (by simp [hy]))]

theorem height_sortedTo : ∀ (fuel : Nat) (v : Value), (v.sortedTo fuel).height = v.height := by
  intro fuel
  induction fuel with
  | zero => intro v; rfl
  | succ fuel ih =>
    intro v
    cases v with
    | array a =>
      rw [Value.sortedTo, Value.height, Value.height, heightArray_map _ a (fun x _ => ih x)]
    | object m =>
      rw [Value.sortedTo, Value.height, Value.height,
        heightObject_map _ _ (fun e _ => ih e.2), heightObject_sortItems]
    | null => rfl
    | boolean b => rfl
    | int64 i => rfl
    | double d => rfl
    | string s => rfl

theorem andThen_congr {w1 w2 : Written} {f1 f2 : List Bytes → Written} (hw : w1 = w2)
    (hf : ∀ out, f1 out = f2 out) : w1.andThen f1 = w2.andThen f2 := by
  subst hw
  cases w1 with
  | ok out => exact hf out
  | thrown e out => rfl
  | stopped => rfl

theorem isCollection_sortedTo (fuel : Nat) (v : Value) :
    SerializingVisitor.isCollection (v.sortedTo fuel) = SerializingVisitor.isCollection v := by
  cases fuel with
  | zero => rfl
  | succ fuel => cases v <;> rfl

theorem writeArrayMembersRest_sorted (c : SerializingVisitor)
    (vis1 vis2 : Value → List Bytes → Written) (g : Value → Value) (ind : Nat) :
    ∀ (rest : List Value) (out : List Bytes),
      (∀ x ∈ rest, ∀ out, vis1 x out = vis2 (g x) out) →
      SerializingVisitor.writeArrayMembersRest (withSortObjectKeys c true) vis1 ind rest out =
        SerializingVisitor.writeArrayMembersRest (withSortObjectKeys c false) vis2 ind
          (rest.map g) out := by
  intro rest
  induction rest with
  | nil => intro out _; rfl
  | cons x t ih =>
    intro out h
    rw [List.map_cons, SerializingVisitor.writeArrayMembersRest,
      SerializingVisitor.writeArrayMembersRest]
    exact andThen_congr (h x (by simp) _) (fun out2 => ih out2 (fun y hy => h y (by simp [hy])))

theorem writeObjectMember_sorted (c : SerializingVisitor)
    (vis1 vis2 : Value → List Bytes → Written) (g : Value → Value) (ind : Nat)
    (e : Bytes × Value) (out : List Bytes)
    (hc : SerializingVisitor.isCollection (g e.2) = SerializingVisitor.isCollection e.2)
    (hv : ∀ out, vis1 e.2 out = vis2 (g e.2) out) :
    SerializingVisitor.writeObjectMember (withSortObjectKeys c true) vis1 ind e out =
      SerializingVisitor.writeObjectMember (withSortObjectKeys c false) vis2 ind
        (e.1, g e.2) out := by
  unfold SerializingVisitor.writeObjectMember
  refine andThen_congr rfl (fun out2 => ?_)
  simp only [hc]
  exact hv _

theorem writeObjectMembersRest_sorted (c : SerializingVisitor)
    (vis1 vis2 : Value → List Bytes → Written) (g : Value → Value) (ind : Nat)
    (hc : ∀ x, SerializingVisitor.isCollection (g x) = SerializingVisitor.isCollection x) :
    ∀ (rest : List (Bytes × Value)) (out : List Bytes),
      (∀ e ∈ rest, ∀ out, vis1 e.2 out = vis2 (g e.2) out) →
      SerializingVisitor.writeObjectMembersRest (withSortObjectKeys c true) vis1 ind rest out =
        SerializingVisitor.writeObjectMembersRest (withSortObjectKeys c false) vis2 ind
          (rest.map (fun e => (e.1, g e.2))) out := by
  intro rest
  induction rest with
  | nil => intro out _; rfl
  | cons x t ih =>
    intro out h
    rw [List.map_cons, SerializingVisitor.writeObjectMembersRest,
      SerializingVisitor.writeObjectMembersRest]
    exact andThen_congr
      (writeObjectMember_sorted c vis1 vis2 g ind x _ (hc _) (h x (by simp)))
      (fun out2 => ih out2 (fun y hy => h y (by simp [hy])))

theorem writeObjectMembers_sorted (c : SerializingVisitor)
    (vis1 vis2 : Value → List Bytes → Written) (g : Value → Value) (ind : Nat)
    (hc : ∀ x, SerializingVisitor.isCollection (g x) = SerializingVisitor.isCollection x)
    (l : List (Bytes × Value)) (out : List Bytes)
    (h : ∀ e ∈ l, ∀ out, vis1 e.2 out = vis2 (g e.2) out) :
    SerializingVisitor.writeObjectMembers (withSortObjectKeys c true) vis1 ind l out =
      SerializingVisitor.writeObjectMembers (withSortObjectKeys c false) vis2 ind
        (l.map (fun e => (e.1, g e.2))) out := by
  cases l with
  | nil => rfl
  | cons x t =>
    rw [List.map_cons, SerializingVisitor.writeObjectMembers,
      SerializingVisitor.writeObjectMembers]
    exact andThen_congr
      (writeObjectMember_sorted c vis1 vis2 g ind x _ (hc _) (h x (by simp)))
      (fun out2 => writeObjectMembersRest_sorted c vis1 vis2 g ind hc t out2
        (fun y hy => h y (by simp [hy])))

theorem visit_sorted (c : SerializingVisitor) :
    ∀ (fuel ind : Nat) (v : Value) (out : List Bytes),
      SerializingVisitor.visit (withSortObjectKeys c true) fuel ind v out =
        SerializingVisitor.visit (withSortObjectKeys c false) fuel ind (v.sortedTo fuel) out := by
  intro fuel
  induction fuel with
  | zero => intro ind v out; rfl
  | succ fuel ih =>
    intro ind v out
    cases v with
    | null => rfl
    | boolean b => rfl
    | int64 i => rfl
    | double d => rfl
    | string s => rfl
    | array a =>
      rw [Value.sortedTo, SerializingVisitor.visit, SerializingVisitor.visit]
      cases a with
      | nil => rfl
      | cons i rest =>
        have hne1 : ¬ ((i :: rest).isEmpty = true ∧
            (withSortObjectKeys c true).options.emptyArray ≠ []) := by simp
        have hne2 : ¬ (((i :: rest).map (Value.sortedTo fuel)).isEmpty = true ∧
            (withSortObjectKeys c false).options.emptyArray ≠ []) := by simp
        rw [if_neg hne1, if_neg hne2]
        exact andThen_congr
          (andThen_congr (ih _ i _)
            (fun out2 => writeArrayMembersRest_sorted c _ _ _ _ rest out2
              (fun x _ out3 => ih _ x out3)))
          (fun _ => rfl)
    | object m =>
      rw [Value.sortedTo, SerializingVisitor.visit, SerializingVisitor.visit]
      cases m with
      | nil => rfl
      | cons i rest =>
        have hne : SerializingVisitor.sortItems (i :: rest) ≠ [] :=
          sortItems_ne_nil _ (by simp)
        have hlen : (SerializingVisitor.sortItems (i :: rest)).length = rest.length + 1 := by
          rw [(sortItems_perm (i :: rest)).length_eq]; rfl
        have hne1 : ¬ ((i :: rest).isEmpty = true ∧
            (withSortObjectKeys c true).options.emptyObject ≠ []) := by simp
        have hne2 : ¬ (((SerializingVisitor.sortItems (i :: rest)).map
            (fun e => (e.1, Value.sortedTo fuel e.2))).isEmpty = true ∧
            (withSortObjectKeys c false).options.emptyObject ≠ []) := by simp [hne]
        have hne3 : (!(i :: rest).isEmpty) = true := rfl
        have hne4 : (!((SerializingVisitor.sortItems (i :: rest)).map
            (fun e => (e.1, Value.sortedTo fuel e.2))).isEmpty) = true := by simp [hne]
        rw [if_neg hne1, if_neg hne2]
        simp only
        rw [if_pos hne3, if_pos hne4]
        refine andThen_congr ?_ (fun _ => rfl)
        by_cases hl : rest = []
        · subst hl
          have e1 : SerializingVisitor.sortItems [i] = [i] := rfl
          rw [e1]
          simp only [List.map_cons, List.map_nil, List.length_singleton, if_true,
            List.headD_cons]
          exact writeObjectMember_sorted c _ _ _ _ i _ (isCollection_sortedTo _ _)
            (fun out3 => ih _ i.2 out3)
        · have hl1 : (i :: rest).length ≠ 1 := by simpa using hl
          have hl2 : ((SerializingVisitor.sortItems (i :: rest)).map
              (fun e => (e.1, Value.sortedTo fuel e.2))).length ≠ 1 := by
            rw [List.length_map, hlen]; simpa using hl
          have hs1 : (withSortObjectKeys c true).options.sortObjectKeys = true := rfl
          have hs2 : ¬ (withSortObjectKeys c false).options.sortObjectKeys = true := by
            simp [withSortObjectKeys]
          rw [if_neg hl1, if_neg hl2, if_pos hs1, if_neg hs2]
          exact writeObjectMembers_sorted c _ _ _ _ (isCollection_sortedTo _) _ _
            (fun e _ out3 => ih _ e.2 out3)

theorem keysAscending_sortedTo : ∀ (fuel : Nat) (v : Value), v.keysDistinct = true →
    KeysAscending fuel (v.sortedTo fuel) := by
  intro fuel
  induction fuel with
  | zero => intro v _; trivial
  | succ fuel ih =>
    intro v hkd
    cases v with
    | array a =>
      rw [Value.keysDistinct] at hkd
      rw [Value.sortedTo, KeysAscending]
      intro x hx
      obtain ⟨y, hy, rfl⟩ := List.mem_map.1 hx
      exact ih y (keysDistinctArray_mem a hkd y hy)
    | object m =>
      rw [Value.keysDistinct, Bool.and_eq_true, decide_eq_true_iff] at hkd
      rw [Value.sortedTo, KeysAscending]
      constructor
      · rw [List.pairwise_map]
        exact sortItems_pairwise m hkd.1
      · intro e he
        obtain ⟨y, hy, rfl⟩ := List.mem_map.1 he
        exact ih y.2 (keysDistinctObject_mem m hkd.2 y (mem_sortItems y m hy))
    | null => simp [Value.sortedTo, KeysAscending]
    | boolean b => simp [Value.sortedTo, KeysAscending]
    | int64 i => simp [Value.sortedTo, KeysAscending]
    | double d => simp [Value.sortedTo, KeysAscending]
    | string s => simp [Value.sortedTo, KeysAscending]

theorem rearranged_sortedTo : ∀ (fuel : Nat) (v : Value), Rearranged fuel v (v.sortedTo fuel) := by
  intro fuel
  induction fuel with
  | zero => intro v; rfl
  | succ fuel ih =>
    intro v
    cases v with
    | array a =>
      rw [Value.sortedTo, Rearranged, List.forall₂_map_right_iff, List.forall₂_same]
      exact fun x _ => ih x
    | object m =>
      rw [Value.sortedTo, Rearranged]
      refine ⟨SerializingVisitor.sortItems m, sortItems_perm m, ?_⟩
      rw [List.forall₂_map_right_iff, List.forall₂_same]
      exact fun x _ => ⟨rfl, ih x.2⟩
    | null => simp [Value.sortedTo, Rearranged]
    | boolean b => simp [Value.sortedTo, Rearranged]
    | int64 i => simp [Value.sortedTo, Rearranged]
    | double d => simp [Value.sortedTo, Rearranged]
    | string s => simp [Value.sortedTo, Rearranged]

theorem visitorOf_withSortObjectKeys (o : SerializationOptions) (b : Bool) :
    visitorOf { o with sortObjectKeys := b } = withSortObjectKeys (visitorOf o) b := by
  unfold visitorOf withSortObjectKeys
  by_cases h : o.indent ≠ 0 ∨ o.newline.separator ≠ []
  · rw [if_pos h, if_pos h]
  · rw [if_neg h, if_neg h]

/-- C34: with `sortObjectKeys = true` the result of `serializeToString` for a value is the
result, without the option, for the value in which every `Object`, at every nesting level,
lists its members in the order of the sort; that value is the given one with the members of
its `Object`s listed in another order, each member exactly once, and the keys of each of its
`Object`s are in strictly ascending byte-wise order, the bytes compared as unsigned numbers.
The keys of an `Object` differ pairwise, as the keys of a map do.  The value is passed by
reference to const and the visitor sorts pointers to the members, so the `Object` is as it
was. -/
theorem serialize_sorted_keys (v : Value) (o : SerializationOptions)
    (hkd : v.keysDistinct = true) :
    serializeToString v { o with sortObjectKeys := true } =
      serializeToString v.sorted { o with sortObjectKeys := false } ∧
    Rearranged v.height v v.sorted ∧
    KeysAscending v.height v.sorted := by
  refine ⟨?_, rearranged_sortedTo _ v, keysAscending_sortedTo _ v hkd⟩
  have e1 : impl.serialize v { o with sortObjectKeys := true } =
      SerializingVisitor.visit (withSortObjectKeys (visitorOf o) true) v.height 0 v [] := by
    rw [serialize_eq_visit, visitorOf_withSortObjectKeys o true]
  have e2 : impl.serialize v.sorted { o with sortObjectKeys := false } =
      SerializingVisitor.visit (withSortObjectKeys (visitorOf o) false) v.height 0
        (v.sortedTo v.height) [] := by
    rw [serialize_eq_visit, visitorOf_withSortObjectKeys o false]
    unfold Value.sorted
    rw [height_sortedTo]
  unfold serializeToString
  rw [e1, e2, visit_sorted]

/-- C34 at the value `{"b":{"z":1,"a":2},"a":[{"y":null,"x":null}]}`, whose text with
`sortObjectKeys = true` is `{"a":[{"x":null,"y":null}],"b":{"a":2,"z":1}}`. -/
theorem serialize_sorted_keys_witness :
    (serializeToString
        (.object [([98], .object [([122], .int64 ⟨1, by decide⟩), ([97], .int64 ⟨2, by decide⟩)]),
          ([97], .array [.object [([121], .null), ([120], .null)]])])
        { ({} : SerializationOptions) with sortObjectKeys := true } =
      serializeToString
        (Value.sorted
          (.object [([98], .object [([122], .int64 ⟨1, by decide⟩),
              ([97], .int64 ⟨2, by decide⟩)]),
            ([97], .array [.object [([121], .null), ([120], .null)]])]))
        { ({} : SerializationOptions) with sortObjectKeys := false } ∧
      Rearranged
        (Value.height
          (.object [([98], .object [([122], .int64 ⟨1, by decide⟩),
              ([97], .int64 ⟨2, by decide⟩)]),
            ([97], .array [.object [([121], .null), ([120], .null)]])]))
        (.object [([98], .object [([122], .int64 ⟨1, by decide⟩),
            ([97], .int64 ⟨2, by decide⟩)]),
          ([97], .array [.object [([121], .null), ([120], .null)]])])
        (Value.sorted
          (.object [([98], .object [([122], .int64 ⟨1, by decide⟩),
              ([97], .int64 ⟨2, by decide⟩)]),
            ([97], .array [.object [([121], .null), ([120], .null)]])])) ∧
      KeysAscending
        (Value.height
          (.object [([98], .object [([122], .int64 ⟨1, by decide⟩),
              ([97], .int64 ⟨2, by decide⟩)]),
            ([97], .array [.object [([121], .null), ([120], .null)]])]))
        (Value.sorted
          (.object [([98], .object [([122], .int64 ⟨1, by decide⟩),
              ([97], .int64 ⟨2, by decide⟩)]),
            ([97], .array [.object [([121], .null), ([120], .null)]])]))) ∧
    serializedText
        (.object [([98], .object [([122], .int64 ⟨1, by decide⟩), ([97], .int64 ⟨2, by decide⟩)]),
          ([97], .array [.object [([121], .null), ([120], .null)]])])
        { sortObjectKeys := true } =
      some [123, 34, 97, 34, 58, 91, 123, 34, 120, 34, 58, 110, 117, 108, 108, 44, 34, 121, 34,
        58, 110, 117, 108, 108, 125, 93, 44, 34, 98, 34, 58, 123, 34, 97, 34, 58, 50, 44, 34,
        122, 34, 58, 49, 125, 125] :=
  ⟨serialize_sorted_keys _ _ (by decide!), by decide!⟩

theorem imagePiece_text (h : HexDigitsCase) : ∀ b : Byte,
    (imagePiece h b).text = escapeImage h b := by
  cases h <;> decide!

theorem imagePiece_wellFormed (h : HexDigitsCase) (mode : UnescapeMode) : ∀ b : Byte,
    b.val < 0x80 → (imagePiece h b).WellFormed mode := by
  cases h <;> cases mode <;> decide!

theorem imagePiece_cases (h : HexDigitsCase) : ∀ b : Byte,
    (match imagePiece h b with
      | .plain x => decide (x = b)
      | .simple c => decide (simpleEscapeValue c = some b)
      | .unicode d1 d2 d3 d4 => decide (codeUnit d1 d2 d3 d4 = b.val ∧ b.val < 0x20)) = true := by
  cases h <;> decide!

theorem utf8Encoding_byte : ∀ b : Byte, b.val < 0x80 → utf8Encoding b.val = [b] := by
  decide!

theorem imagePiece_unescaped (h : HexDigitsCase) (rep : Option Nat) (b : Byte)
    (hb : b.val < 0x80) (r : List Piece) :
    unescapedPieces rep (imagePiece h b :: r) = b :: unescapedPieces rep r := by
  have hc := imagePiece_cases h b
  cases hp : imagePiece h b with
  | plain x =>
    rw [hp] at hc
    simp only [decide_eq_true_eq] at hc
    subst hc
    simp [unescapedPieces]
  | simple c =>
    rw [hp] at hc
    simp only [decide_eq_true_eq] at hc
    simp [unescapedPieces, hc]
  | unicode d1 d2 d3 d4 =>
    rw [hp] at hc
    simp only [decide_eq_true_eq] at hc
    have hh : ¬ isHighSurrogate (codeUnit d1 d2 d3 d4) := by
      unfold isHighSurrogate; omega
    have hl : ¬ isLowSurrogate (codeUnit d1 d2 d3 d4) := by
      unfold isLowSurrogate; omega
    rw [unescapedPieces_scalar rep d1 d2 d3 d4 r hh hl, hc.1, utf8Encoding_byte b hb]
    rfl

theorem hexDigitValue_hexChar (h : HexDigitsCase) : ∀ d : Fin 16,
    hexDigitValue (hexChar h d.val) = some d.val := by
  cases h <;> decide!

theorem codeUnit_unicodePiece (h : HexDigitsCase) (u : Nat) (hu : u < 65536) :
    codeUnit (hexChar h (u / 4096 % 16)) (hexChar h (u / 256 % 16)) (hexChar h (u / 16 % 16))
      (hexChar h (u % 16)) = u := by
  have e1 := hexDigitValue_hexChar h ⟨u / 4096 % 16, Nat.mod_lt _ (by norm_num)⟩
  have e2 := hexDigitValue_hexChar h ⟨u / 256 % 16, Nat.mod_lt _ (by norm_num)⟩
  have e3 := hexDigitValue_hexChar h ⟨u / 16 % 16, Nat.mod_lt _ (by norm_num)⟩
  have e4 := hexDigitValue_hexChar h ⟨u % 16, Nat.mod_lt _ (by norm_num)⟩
  simp only at e1 e2 e3 e4
  unfold codeUnit
  rw [e1, e2, e3, e4]
  simp only [Option.getD_some]
  omega

theorem unicodePiece_wellFormed (h : HexDigitsCase) (mode : UnescapeMode) (u : Nat) :
    (unicodePiece h u).WellFormed mode := by
  have e1 := hexDigitValue_hexChar h ⟨u / 4096 % 16, Nat.mod_lt _ (by norm_num)⟩
  have e2 := hexDigitValue_hexChar h ⟨u / 256 % 16, Nat.mod_lt _ (by norm_num)⟩
  have e3 := hexDigitValue_hexChar h ⟨u / 16 % 16, Nat.mod_lt _ (by norm_num)⟩
  have e4 := hexDigitValue_hexChar h ⟨u % 16, Nat.mod_lt _ (by norm_num)⟩
  simp only at e1 e2 e3 e4
  unfold unicodePiece Piece.WellFormed
  simp only [e1, e2, e3, e4]
  simp

theorem lead_two : ∀ a : Byte, announcedSize a = 2 →
    (Fin.ofNat (0xC0 ||| (a.val % 32)) : Byte) = a := by
  decide!

theorem lead_three : ∀ a : Byte, announcedSize a = 3 →
    (Fin.ofNat (0xE0 ||| (a.val % 16)) : Byte) = a := by
  decide!

theorem lead_four : ∀ a : Byte, announcedSize a = 4 →
    (Fin.ofNat (0xF0 ||| (a.val % 8)) : Byte) = a := by
  decide!

theorem continuation : ∀ b : Byte, b.val / 64 = 2 →
    (Fin.ofNat (0x80 ||| (b.val % 64)) : Byte) = b := by
  decide!

theorem sequenceSize_whole (a : Byte) (t : Bytes)
    (h : sequenceSize (a :: t) = some (a :: t).length) :
    announcedSize a = t.length + 1 ∧ ∀ c ∈ t, c.val / 64 = 2 := by
  unfold sequenceSize at h
  simp only at h
  split_ifs at h with hc
  simp only [Option.some.injEq, List.length_cons] at h
  refine ⟨h, fun c hcm => ?_⟩
  have h3 := hc.2.2
  rw [h, Nat.add_sub_cancel, List.take_length, List.all_eq_true] at h3
  simpa using h3 c hcm

theorem shift_6 (x : Nat) : x >>> 6 = x / 64 := Nat.shiftRight_eq_div_pow x 6

theorem shift_12 (x : Nat) : x >>> 12 = x / 4096 := Nat.shiftRight_eq_div_pow x 12

theorem shift_18 (x : Nat) : x >>> 18 = x / 262144 := Nat.shiftRight_eq_div_pow x 18

theorem utf8Encoding_two (a b : Byte) (hs : sequenceSize [a, b] = some 2)
    (hr : 0x80 ≤ codePoint [a, b]) : utf8Encoding (codePoint [a, b]) = [a, b] := by
  obtain ⟨h1, h2⟩ := sequenceSize_whole a [b] hs
  have hb := h2 b (by simp)
  have e : (0x3F : Nat) = 63 := by norm_num
  have cp : codePoint [a, b] = a.val % 32 * 64 + b.val % 64 := rfl
  rw [cp] at hr ⊢
  unfold utf8Encoding
  rw [if_neg (by omega), if_pos (by omega), e, shift_6, and_63]
  have e1 : (a.val % 32 * 64 + b.val % 64) / 64 = a.val % 32 := by omega
  have e2 : (a.val % 32 * 64 + b.val % 64) % 64 = b.val % 64 := by omega
  rw [e1, e2, lead_two a h1, continuation b hb]

theorem utf8Encoding_three (a b c : Byte) (hs : sequenceSize [a, b, c] = some 3)
    (hr : 0x800 ≤ codePoint [a, b, c]) : utf8Encoding (codePoint [a, b, c]) = [a, b, c] := by
  obtain ⟨h1, h2⟩ := sequenceSize_whole a [b, c] hs
  have hb := h2 b (by simp)
  have hc := h2 c (by simp)
  have e : (0x3F : Nat) = 63 := by norm_num
  have cp : codePoint [a, b, c] = a.val % 16 * 4096 + b.val % 64 * 64 + c.val % 64 := rfl
  rw [cp] at hr ⊢
  unfold utf8Encoding
  rw [if_neg (by omega), if_neg (by omega), if_pos (by omega), e, shift_6, shift_12, and_63,
    and_63]
  have e1 : (a.val % 16 * 4096 + b.val % 64 * 64 + c.val % 64) / 4096 = a.val % 16 := by omega
  have e2 : (a.val % 16 * 4096 + b.val % 64 * 64 + c.val % 64) / 64 % 64 = b.val % 64 := by
    omega
  have e3 : (a.val % 16 * 4096 + b.val % 64 * 64 + c.val % 64) % 64 = c.val % 64 := by omega
  rw [e1, e2, e3, lead_three a h1, continuation b hb, continuation c hc]

theorem utf8Encoding_four (a b c d : Byte) (hs : sequenceSize [a, b, c, d] = some 4)
    (hr : 0x10000 ≤ codePoint [a, b, c, d]) :
    utf8Encoding (codePoint [a, b, c, d]) = [a, b, c, d] := by
  obtain ⟨h1, h2⟩ := sequenceSize_whole a [b, c, d] hs
  have hb := h2 b (by simp)
  have hc := h2 c (by simp)
  have hd := h2 d (by simp)
  have e : (0x3F : Nat) = 63 := by norm_num
  have cp : codePoint [a, b, c, d] =
      a.val % 8 * 262144 + b.val % 64 * 4096 + c.val % 64 * 64 + d.val % 64 := rfl
  rw [cp] at hr ⊢
  unfold utf8Encoding
  rw [if_neg (by omega), if_neg (by omega), if_neg (by omega), e, shift_6, shift_12, shift_18,
    and_63, and_63, and_63]
  have e1 : (a.val % 8 * 262144 + b.val % 64 * 4096 + c.val % 64 * 64 + d.val % 64) / 262144 =
      a.val % 8 := by omega
  have e2 : (a.val % 8 * 262144 + b.val % 64 * 4096 + c.val % 64 * 64 + d.val % 64) / 4096 % 64 =
      b.val % 64 := by omega
  have e3 : (a.val % 8 * 262144 + b.val % 64 * 4096 + c.val % 64 * 64 + d.val % 64) / 64 % 64 =
      c.val % 64 := by omega
  have e4 : (a.val % 8 * 262144 + b.val % 64 * 4096 + c.val % 64 * 64 + d.val % 64) % 64 =
      d.val % 64 := by omega
  rw [e1, e2, e3, e4, lead_four a h1, continuation b hb, continuation c hc, continuation d hd]

theorem surrogatePair_surrogates (c : Nat) (h1 : 0x10000 ≤ c) (h2 : c ≤ 0x10FFFF) :
    surrogatePair (highSurrogate c) (lowSurrogate c) = c := by
  unfold surrogatePair highSurrogate lowSurrogate
  have e : (0x3FF : Nat) = 1023 := by norm_num
  rw [e, and_1023, Nat.shiftRight_eq_div_pow, Nat.add_sub_cancel_left, Nat.add_sub_cancel_left,
    or_shift _ _ 10 (by norm_num; omega)]
  norm_num
  omega

theorem codePoint_lt (u : Bytes) (h : u.length ≤ 3) : codePoint u < 65536 := by
  match u, h with
  | [], _ => simp [codePoint]
  | [a], _ => simp [codePoint]
  | [a, b], _ => simp only [codePoint]; omega
  | [a, b, c], _ => simp only [codePoint]; omega

theorem unitPieces_text (h : HexDigitsCase) (u : Bytes) (hu : GoodUnit u) :
    piecesText (unitPieces h u) = nonAsciiUnit h u := by
  match u, hu with
  | [], hu => simp [GoodUnit, scalarUnit] at hu
  | [a], _ =>
    simp only [unitPieces, nonAsciiUnit, piecesText_cons, imagePiece_text]
    simp [piecesText]
  | [a, b], _ =>
    simp [unitPieces, nonAsciiUnit, piecesText, unicodePiece, Piece.text, unicodeEscape]
  | [a, b, c], _ =>
    simp [unitPieces, nonAsciiUnit, piecesText, unicodePiece, Piece.text, unicodeEscape]
  | [a, b, c, d], _ =>
    simp [unitPieces, nonAsciiUnit, piecesText, unicodePiece, Piece.text, unicodeEscape]
  | _ :: _ :: _ :: _ :: _ :: _, hu => simp [GoodUnit, scalarUnit] at hu

theorem unitPieces_wellFormed (h : HexDigitsCase) (mode : UnescapeMode) (u : Bytes)
    (hu : GoodUnit u) : ∀ t ∈ unitPieces h u, t.WellFormed mode := by
  match u, hu with
  | [], hu => simp [GoodUnit, scalarUnit] at hu
  | [a], hu =>
    have ha : a.val < 0x80 := by simpa [GoodUnit, scalarUnit] using hu.2
    intro t ht
    simp only [unitPieces, List.mem_singleton] at ht
    subst ht
    exact imagePiece_wellFormed h mode a ha
  | [a, b], _ =>
    intro t ht
    simp only [unitPieces, List.mem_singleton] at ht
    subst ht
    exact unicodePiece_wellFormed h mode _
  | [a, b, c], _ =>
    intro t ht
    simp only [unitPieces, List.mem_singleton] at ht
    subst ht
    exact unicodePiece_wellFormed h mode _
  | [a, b, c, d], _ =>
    intro t ht
    simp only [unitPieces, List.mem_cons, List.mem_singleton, List.mem_nil_iff, or_false] at ht
    rcases ht with rfl | rfl <;> exact unicodePiece_wellFormed h mode _
  | _ :: _ :: _ :: _ :: _ :: _, hu => simp [GoodUnit, scalarUnit] at hu

theorem unitPieces_unescaped (h : HexDigitsCase) (rep : Option Nat) (u : Bytes)
    (hu : GoodUnit u) (r : List Piece) :
    unescapedPieces rep (unitPieces h u ++ r) = u ++ unescapedPieces rep r := by
  match u, hu with
  | [], hu => simp [GoodUnit, scalarUnit] at hu
  | [a], hu =>
    have ha : a.val < 0x80 := by simpa [GoodUnit, scalarUnit] using hu.2
    simp only [unitPieces, List.singleton_append]
    exact imagePiece_unescaped h rep a ha r
  | [a, b], hu =>
    have hs : sequenceSize [a, b] = some 2 := by
      rcases hu.1 with ⟨x, hx, _⟩ | hs
      · simp at hx
      · exact hs
    have hr : 0x80 ≤ codePoint [a, b] := by simpa [scalarUnit] using hu.2
    have hlt : codePoint [a, b] < 2048 := by
      have cp : codePoint [a, b] = a.val % 32 * 64 + b.val % 64 := rfl
      rw [cp]; omega
    have hcu := codeUnit_unicodePiece h (codePoint [a, b]) (by omega)
    simp only [unitPieces, unicodePiece, List.singleton_append]
    rw [unescapedPieces_scalar rep _ _ _ _ r
      (by rw [hcu]; unfold isHighSurrogate; omega)
      (by rw [hcu]; unfold isLowSurrogate; omega), hcu,
      utf8Encoding_two a b hs hr]
  | [a, b, c], hu =>
    have hs : sequenceSize [a, b, c] = some 3 := by
      rcases hu.1 with ⟨x, hx, _⟩ | hs
      · simp at hx
      · exact hs
    have hr : 0x800 ≤ codePoint [a, b, c] ∧
        ¬ (0xD800 ≤ codePoint [a, b, c] ∧ codePoint [a, b, c] ≤ 0xDFFF) := by
      have := hu.2
      simp only [scalarUnit, decide_eq_true_eq] at this
      exact this
    have hlt := codePoint_lt [a, b, c] (by simp)
    have hcu := codeUnit_unicodePiece h (codePoint [a, b, c]) hlt
    simp only [unitPieces, unicodePiece, List.singleton_append]
    rw [unescapedPieces_scalar rep _ _ _ _ r
      (by rw [hcu]; unfold isHighSurrogate; omega)
      (by rw [hcu]; unfold isLowSurrogate; omega), hcu,
      utf8Encoding_three a b c hs hr.1]
  | [a, b, c, d], hu =>
    have hs : sequenceSize [a, b, c, d] = some 4 := by
      rcases hu.1 with ⟨x, hx, _⟩ | hs
      · simp at hx
      · exact hs
    have hr : 0x10000 ≤ codePoint [a, b, c, d] ∧ codePoint [a, b, c, d] ≤ 0x10FFFF := by
      simpa [scalarUnit] using hu.2
    obtain ⟨s1, s2, s3, s4⟩ := surrogates_range _ hr.1 hr.2
    have hcu1 := codeUnit_unicodePiece h (highSurrogate (codePoint [a, b, c, d])) (by omega)
    have hcu2 := codeUnit_unicodePiece h (lowSurrogate (codePoint [a, b, c, d])) (by omega)
    simp only [unitPieces, unicodePiece, List.cons_append, List.nil_append]
    rw [unescapedPieces_pair rep _ _ _ _ _ _ _ _ r
      (by rw [hcu1]; exact ⟨s1, s2⟩) (by rw [hcu2]; exact ⟨s3, s4⟩), hcu1, hcu2,
      surrogatePair_surrogates _ hr.1 hr.2, utf8Encoding_four a b c d hs hr.1]
    rfl
  | _ :: _ :: _ :: _ :: _ :: _, hu => simp [GoodUnit, scalarUnit] at hu

theorem units_pieces (h : HexDigitsCase) (mode : UnescapeMode) (rep : Option Nat) :
    ∀ units : List Bytes, (∀ u ∈ units, GoodUnit u) →
      piecesText (units.flatMap (unitPieces h)) = units.flatMap (nonAsciiUnit h) ∧
      (∀ t ∈ units.flatMap (unitPieces h), t.WellFormed mode) ∧
      unescapedPieces rep (units.flatMap (unitPieces h)) = units.flatten := by
  intro units
  induction units with
  | nil => intro _; exact ⟨rfl, fun t ht => by simp at ht, rfl⟩
  | cons u rest ih =>
    intro hall
    obtain ⟨i1, i2, i3⟩ := ih (fun x hx => hall x (by simp [hx]))
    have hu := hall u (by simp)
    refine ⟨?_, ?_, ?_⟩
    · rw [List.flatMap_cons, List.flatMap_cons, piecesText_append, i1, unitPieces_text h u hu]
    · intro t ht
      rw [List.flatMap_cons, List.mem_append] at ht
      rcases ht with ht | ht
      · exact unitPieces_wellFormed h mode u hu t ht
      · exact i2 t ht
    · rw [List.flatMap_cons, unitPieces_unescaped h rep u hu, i3, List.flatten_cons]

theorem goodUnits_of_wellFormed (s : Bytes) (hwf : wellFormedUtf8 s = true) :
    firstMalformed s = none ∧ ∀ u ∈ textUnits s, GoodUnit u := by
  unfold wellFormedUtf8 at hwf
  rw [Bool.and_eq_true, Option.isNone_iff_eq_none, List.all_eq_true] at hwf
  exact ⟨hwf.1, fun u hu => ⟨utf8Units_wellFormed _ _ hwf.1 u hu, hwf.2 u hu⟩⟩

/-- C38: for every text `s` that is well-formed UTF-8 (every sequence whole, no overlong form,
no encoded surrogate, no code point above `U+10FFFF`; these are the encodings of the
sequences of Unicode scalar values, `wellFormedUtf8_iff`), every validation mode and every
case of the hexadecimal digits, `escape(s, Escape::NonAscii, validation, hexCase)` returns a
text and `unescape` of that text returns `s`, in the mode `Relaxed` and in the mode
`Strict`. -/
theorem unescape_escape_nonAscii (s : Bytes) (hwf : wellFormedUtf8 s = true)
    (validation : Utf8Validation) (h : HexDigitsCase) (mode : UnescapeMode) :
    ∃ t, escape s .NonAscii validation h = some t ∧ unescape t mode = some s := by
  obtain ⟨hfm, hgood⟩ := goodUnits_of_wellFormed s hwf
  obtain ⟨p1, p2, p3⟩ := units_pieces h mode none (textUnits s) hgood
  have hflat : (textUnits s).flatten = s := utf8Units_flatten _ _ (Nat.le_refl _)
  have hun : unescape ((textUnits s).flatMap (nonAsciiUnit h)) mode = some s := by
    rw [← p1, unescape_pieces mode _ p2, p3, hflat]
  by_cases hne : s = []
  · subst hne
    exact ⟨[], by simp [escape], by simpa [textUnits, utf8Units] using hun⟩
  · obtain ⟨f0, hv0, _⟩ := implEscape_validation s .NonAscii h
    rw [hfm] at hv0
    obtain ⟨frags, e1, e2, _⟩ := implEscape_nonAscii s h ⟨.NonAscii, f0, hv0⟩
      (fun u hu h4 => by
        have hs := (hgood u hu).2
        match u, h4 with
        | [a, b, c, d], _ =>
          simp only [scalarUnit, decide_eq_true_eq] at hs
          exact hs)
      validation
    refine ⟨frags.flatten, ?_, by rw [e2]; exact hun⟩
    unfold escape
    rw [if_pos hne, e1]
    simp

/-- C38 at the text of `a`, a quotation mark, `U+00E9`, `U+20AC`, `U+1F600` and a line feed,
whose escape with upper-case digits has the escapes `\u00E9`, `\u20AC`, `\uD83D`, `\uDE00`
and `\n`, in the mode `Strict`. -/
theorem unescape_escape_nonAscii_witness :
    (∃ t, escape [97, 34, 0xC3, 0xA9, 0xE2, 0x82, 0xAC, 0xF0, 0x9F, 0x98, 0x80, 10] .NonAscii
        .FailOnInvalidUtf8CodeUnits .Upper = some t ∧
      unescape t .Strict =
        some [97, 34, 0xC3, 0xA9, 0xE2, 0x82, 0xAC, 0xF0, 0x9F, 0x98, 0x80, 10]) ∧
    escape [97, 34, 0xC3, 0xA9, 0xE2, 0x82, 0xAC, 0xF0, 0x9F, 0x98, 0x80, 10] .NonAscii
        .FailOnInvalidUtf8CodeUnits .Upper =
      some [97, 92, 34, 92, 117, 48, 48, 69, 57, 92, 117, 50, 48, 65, 67, 92, 117, 68, 56, 51,
        68, 92, 117, 68, 69, 48, 48, 92, 110] :=
  ⟨unescape_escape_nonAscii _ (by decide!) .FailOnInvalidUtf8CodeUnits .Upper .Strict,
    by decide!⟩

theorem quoted_sim (i : Ptr) : Frame.PtrSim ⟨1, [], [34], [], []⟩ i i.quoted :=
  ⟨i.rest, by simp, rfl, rfl⟩

theorem quoted_of_sim (i j : Ptr) (h : Frame.PtrSim ⟨1, [], [34], [], []⟩ i j) :
    j = i.quoted := by
  obtain ⟨c, h1, h2, h3⟩ := h
  simp only [List.append_nil] at h1
  obtain ⟨jp, jr⟩ := j
  simp only at h2 h3
  subst h1 h2 h3
  rfl

theorem quoted_next (i : Ptr) (h : i.rest ≠ []) : i.quoted.next = i.next.quoted := by
  cases hr : i.rest with
  | nil => exact absurd hr h
  | cons b t => simp [Ptr.quoted, Ptr.next, hr]

theorem quoted_rest_ne (i : Ptr) : i.quoted.rest ≠ [] := by
  simp [Ptr.quoted]

theorem parseMore_quoted (i : Ptr) (r : EscapedStringParser.Result) (j : Ptr)
    (h : EscapedStringParser.parseMore .Strict i = some (r, j)) (hg : GoodKind r.result)
    (hne : i.rest ≠ []) :
    EscapedStringParser.parseMore .Strict i.quoted = some (r, j.quoted) := by
  obtain ⟨q2, e, hq⟩ := parseMore_sim ⟨1, [], [34], [], []⟩ .Strict i i.quoted r j
    (quoted_sim i) h hg (by simpa using List.length_pos.mpr hne) (by simp)
  rw [e, quoted_of_sim j q2 hq]

theorem parseEscapeHex_quoted : ∀ (n c : Nat) (p : Ptr),
    ((EscapedStringParser.parseEscapeHex n c p).1.result = .InvalidCharacter ∨
      (EscapedStringParser.parseEscapeHex n c p).1.result = .UnexpectedEndOfInput) →
    (EscapedStringParser.parseEscapeHex n c p.quoted).1.result = .InvalidCharacter := by
  intro n
  induction n with
  | zero =>
    intro c p h
    rw [EscapedStringParser.parseEscapeHex] at h
    split_ifs at h <;> simp at h
  | succ n ih =>
    intro c p h
    rw [EscapedStringParser.parseEscapeHex] at h ⊢
    cases hr : p.rest with
    | nil =>
      have hq : p.quoted.rest = [34] := by simp [Ptr.quoted, hr]
      simp only [hq]
      have hd : isDecimalDigit (34 : Byte) = false := by decide
      have hx : ¬ (97 ≤ ((34 : Byte).val ||| 0x20) ∧ ((34 : Byte).val ||| 0x20) ≤ 102) := by
        decide
      simp only [hd, Bool.false_eq_true, if_false, hx]
    | cons b t =>
      have hq : p.quoted.rest = b :: (t ++ [34]) := by simp [Ptr.quoted, hr]
      have hn : p.quoted.next = p.next.quoted := quoted_next p (by simp [hr])
      simp only [hr] at h
      simp only [hq, hn]
      by_cases hd : isDecimalDigit b = true
      · simp only [hd, if_true] at h ⊢
        exact ih _ _ h
      · simp only [hd, Bool.false_eq_true, if_false] at h ⊢
        by_cases hx : 97 ≤ (b.val ||| 0x20) ∧ (b.val ||| 0x20) ≤ 102
        · simp only [hx, and_self, if_true] at h ⊢
          exact ih _ _ h
        · simp only [hx, if_false]

theorem simpleEscape_none : ∀ b : Byte, simpleEscapeValue b = none →
    ¬ b.val = 34 ∧ ¬ b.val = 92 ∧ ¬ b.val = 47 ∧ ¬ b.val = 98 ∧ ¬ b.val = 102 ∧
      ¬ b.val = 110 ∧ ¬ b.val = 114 ∧ ¬ b.val = 116 := by
  decide!

theorem parseEscape_other (p : Ptr) (b : Byte) (t : Bytes) (hr : p.rest = b :: t)
    (hu : ¬ b.val = 117) :
    EscapedStringParser.parseEscape p =
      some (if simpleEscapeValue b ≠ none then
        (EscapedStringParser.Result.mk .Unescaped [(simpleEscapeValue b).getD 0] 0, p.next)
        else (EscapedStringParser.Result.mk .InvalidCharacter [] 0, p)) := by
  by_cases hs : simpleEscapeValue b ≠ none
  · rw [if_pos hs]
    unfold EscapedStringParser.parseEscape
    simp only [hr]
    rcases simpleEscape_cases b hs with h | h | h | h | h | h | h | h <;> subst h <;> rfl
  · rw [if_neg hs]
    have hn := simpleEscape_none b (by simpa using hs)
    unfold EscapedStringParser.parseEscape
    simp only [hr, if_neg hn.1, if_neg hn.2.1, if_neg hn.2.2.1, if_neg hn.2.2.2.1,
      if_neg hn.2.2.2.2.1, if_neg hn.2.2.2.2.2.1, if_neg hn.2.2.2.2.2.2.1,
      if_neg hn.2.2.2.2.2.2.2, if_neg hu]

theorem parseEscape_quoted_stop (p : Ptr) (r : EscapedStringParser.Result) (j : Ptr)
    (hne : p.rest ≠ [])
    (h : EscapedStringParser.parseEscape p = some (r, j))
    (hk : r.result = .InvalidCharacter ∨ r.result = .UnexpectedEndOfInput) :
    ∃ r2 j2, EscapedStringParser.parseEscape p.quoted = some (r2, j2) ∧
      r2.result = .InvalidCharacter := by
  cases hr : p.rest with
  | nil => exact absurd hr hne
  | cons b t =>
    have hq : p.quoted.rest = b :: (t ++ [34]) := by simp [Ptr.quoted, hr]
    have hn : p.quoted.next = p.next.quoted := quoted_next p hne
    by_cases hu : b.val = 117
    · unfold EscapedStringParser.parseEscape at h ⊢
      simp only [hr] at h
      simp only [hq, hn]
      have h34 : ¬ b.val = 34 := by omega
      have h92 : ¬ b.val = 92 := by omega
      have h47 : ¬ b.val = 47 := by omega
      have h98 : ¬ b.val = 98 := by omega
      have h102 : ¬ b.val = 102 := by omega
      have h110 : ¬ b.val = 110 := by omega
      have h114 : ¬ b.val = 114 := by omega
      have h116 : ¬ b.val = 116 := by omega
      simp only [if_neg h34, if_neg h92, if_neg h47, if_neg h98, if_neg h102, if_neg h110,
        if_neg h114, if_neg h116, if_pos hu] at h ⊢
      have hx := Option.some.inj h
      have hs := parseEscapeHex_quoted 4 0 p.next (by rw [hx]; exact hk)
      generalize EscapedStringParser.parseEscapeHex 4 0 p.next.quoted = X at hs ⊢
      obtain ⟨r2, q2⟩ := X
      exact ⟨r2, q2, rfl, hs⟩
    · rw [parseEscape_other p b t hr hu] at h
      rw [parseEscape_other p.quoted b _ hq hu]
      by_cases hs : simpleEscapeValue b ≠ none
      · rw [if_pos hs] at h
        simp only [Option.some.injEq, Prod.mk.injEq] at h
        obtain ⟨rfl, rfl⟩ := h
        rcases hk with hk | hk <;> cases hk
      · rw [if_neg hs]
        exact ⟨_, _, rfl, rfl⟩

theorem parseMore_quoted_stop (i : Ptr) (r : EscapedStringParser.Result) (j : Ptr)
    (h : EscapedStringParser.parseMore .Strict i = some (r, j)) :
    (r.result = .InvalidCharacter →
      ∃ r2 j2, EscapedStringParser.parseMore .Strict i.quoted = some (r2, j2) ∧
        r2.result = .InvalidCharacter) ∧
    (r.result = .UnexpectedEndOfInput →
      ∃ r2 j2, EscapedStringParser.parseMore .Strict i.quoted = some (r2, j2) ∧
        (r2.result = .InvalidCharacter ∨ (r2.result = .Unescaped ∧ j2.rest = []))) := by
  unfold EscapedStringParser.parseMore at h ⊢
  cases hr : i.rest with
  | nil => simp [hr] at h
  | cons b t =>
    have hne : i.rest ≠ [] := by simp [hr]
    have hq : i.quoted.rest = b :: (t ++ [34]) := by simp [Ptr.quoted, hr]
    have hn : i.quoted.next = i.next.quoted := quoted_next i hne
    have hnr : i.next.rest = t := by simp [Ptr.next, hr]
    simp only [hr] at h
    simp only [hq, hn]
    by_cases h92 : b.val = 92
    · simp only [h92, if_true] at h ⊢
      have hqn : ¬ i.next.quoted.rest = [] := quoted_rest_ne _
      simp only [hqn, if_false]
      by_cases he : i.next.rest = []
      · simp only [he, if_true, Option.some.injEq, Prod.mk.injEq] at h
        obtain ⟨rfl, rfl⟩ := h
        have ht : t = [] := by rw [← hnr]; exact he
        subst ht
        have hqq : i.next.quoted = ⟨i.pos + 1 + 1, [34]⟩ := by
          simp [Ptr.quoted, Ptr.next, hr]
        refine ⟨fun hk => by simp at hk, fun _ => ?_⟩
        rw [hqq]
        exact ⟨_, _, rfl, Or.inr ⟨rfl, rfl⟩⟩
      · simp only [he, if_false] at h
        constructor
        · intro hk
          obtain ⟨r2, j2, e, hk2⟩ := parseEscape_quoted_stop i.next r j he h (Or.inl hk)
          exact ⟨r2, j2, e, hk2⟩
        · intro hk
          obtain ⟨r2, j2, e, hk2⟩ := parseEscape_quoted_stop i.next r j he h (Or.inr hk)
          exact ⟨r2, j2, e, Or.inl hk2⟩
    · simp only [h92, if_false] at h ⊢
      split_ifs at h ⊢ <;> simp only [Option.some.injEq, Prod.mk.injEq] at h <;>
        obtain ⟨rfl, rfl⟩ := h <;>
        first
        | (refine ⟨fun hk => ?_, fun hk => ?_⟩ <;> (simp at hk; done))
        | (refine ⟨fun _ => ⟨_, _, rfl, rfl⟩, fun hk => ?_⟩; simp at hk; done)

theorem check_ignore (o : ParsingOptions) (hign : o.unpairedUtf16Surrogates = .Ignore)
    (s : Bytes) (sur p : Nat) (d : String) (code : ParsingIssue.Code) (st : ParserImpl) :
    checkInvalidUtf16SurrogateOptionAndEncode o s sur p d code st =
      (true, s ++ Utf8Encoder.encodeSurrogateCodeUnitAsCodePoint sur (surrogateReplacement o),
        st) := by
  unfold checkInvalidUtf16SurrogateOptionAndEncode
  rw [if_neg (by simp [hign])]

theorem quoted_advance (i : Ptr) (iss : List ParsingIssue) (hend : i.rest = []) :
    (⟨i.quoted, iss⟩ : ParserImpl).advance = ⟨⟨i.pos + 2, []⟩, iss⟩ := by
  simp [ParserImpl.advance, Ptr.quoted, Ptr.next, hend]

theorem parseMore_quoted_end (i : Ptr) (hend : i.rest = []) :
    EscapedStringParser.parseMore .Strict i.quoted =
      some ({ result := .JsonStringEnd }, i.quoted) := by
  have : i.quoted = ⟨i.pos + 1, 34 :: []⟩ := by simp [Ptr.quoted, hend]
  rw [this]
  exact parseMore_quote .Strict _ _

theorem unescapeSurrogates_quoted (o : ParsingOptions)
    (hign : o.unpairedUtf16Surrogates = .Ignore) :
    ∀ (fU fP : Nat) (out : List Bytes) (sur : Nat) (i : Ptr) (iss : List ParsingIssue)
      (eU : UnescapeLoopExit) (eP : SurrogateLoopExit),
      UnescapeParser.unescapeSurrogates .Strict (surrogateReplacement o) fU out sur i =
        some eU →
      parseStringSurrogates o fP out.flatten sur ⟨i.quoted, iss⟩ = some eP →
      SurrogateExits iss eU eP := by
  intro fU
  induction fU with
  | zero => intro fP out sur i iss eU eP hU; simp [UnescapeParser.unescapeSurrogates] at hU
  | succ fU ih =>
    intro fP out sur i iss eU eP hU hP
    cases fP with
    | zero => simp [parseStringSurrogates] at hP
    | succ fP =>
      rw [UnescapeParser.unescapeSurrogates] at hU
      rw [parseStringSurrogates] at hP
      have hq : ¬ (⟨i.quoted, iss⟩ : ParserImpl).i.rest = [] := quoted_rest_ne i
      simp only [if_neg hq, checkInvalidUtf16HighSurrogateOptionAndEncode,
        check_ignore o hign] at hP
      by_cases hend : i.rest = []
      · rw [if_pos hend] at hU
        simp only [Option.some.injEq] at hU
        subst hU
        rw [parseMore_quoted_end i hend] at hP
        simp only [Option.some.injEq] at hP
        subst hP
        simp only [SurrogateExits, hend, if_true]
        have := quoted_advance i iss hend
        simp only [ParserImpl.advance] at this
        simp [this, ParserImpl.advance]
      · rw [if_neg hend] at hU
        cases hpm : EscapedStringParser.parseMore .Strict i with
        | none => simp [hpm] at hU
        | some rj =>
          obtain ⟨r, j⟩ := rj
          simp only [hpm] at hU
          have hspec := parseMore_spec .Strict i r j hpm
          have hstop := parseMore_quoted_stop i r j hpm
          have hgood := parseMore_quoted i r j hpm
          unfold MoreSpec at hspec
          cases hk : r.result with
          | Skip =>
            simp only [hk] at hU hspec
            rw [hgood (by simp [GoodKind, hk]) hend] at hP
            simp only [hk, if_true, Option.some.injEq] at hP hU
            subst hU hP
            exact ⟨hspec.1, by simp⟩
          | Unescaped =>
            simp only [hk] at hU hspec
            rw [hgood (by simp [GoodKind, hk]) hend] at hP
            simp only [hk, if_true, Option.some.injEq] at hP hU
            subst hU hP
            exact ⟨Ptr.Reach.refl _, by simp⟩
          | HighSurrogate =>
            simp only [hk] at hU hspec
            rw [hgood (by simp [GoodKind, hk]) hend] at hP
            simp only [hk, if_true] at hP
            have e : out.flatten ++ Utf8Encoder.encodeSurrogateCodeUnitAsCodePoint sur
                (surrogateReplacement o) =
                (out ++ [Utf8Encoder.encodeSurrogateCodeUnitAsCodePoint sur
                  (surrogateReplacement o)]).flatten := by simp
            rw [e] at hP
            exact ih fP _ _ j iss eU eP hU hP
          | LowSurrogate =>
            simp only [hk] at hU hspec
            rw [hgood (by simp [GoodKind, hk]) hend] at hP
            simp only [hk, Option.some.injEq] at hP hU
            subst hU hP
            exact ⟨Ptr.Reach.refl _, by simp⟩
          | JsonStringEnd =>
            simp only [hk, if_true, Option.some.injEq] at hU hspec
            rw [hgood (by simp [GoodKind, hk]) hend] at hP
            simp only [hk, Option.some.injEq] at hP
            subst hU hP
            obtain ⟨rfl, hne⟩ := hspec.2
            simp only [SurrogateExits, if_neg hne]
            refine ⟨_, _, _, rfl, fun _ => ?_⟩
            simp only [ParserImpl.advance]
            rw [quoted_next j hne]
            exact quoted_rest_ne _
          | InvalidCharacter =>
            simp only [hk, Option.some.injEq] at hU hspec
            obtain ⟨r2, j2, e2, hk2⟩ := hstop.1 hk
            rw [e2] at hP
            simp only [hk2, Option.some.injEq] at hP
            subst hU hP
            simp only [SurrogateExits, if_neg hspec.2]
            exact ⟨_, _, _, rfl, fun h => by simp at h⟩
          | UnexpectedEndOfInput =>
            simp only [hk, Option.some.injEq] at hU hspec
            obtain ⟨r2, j2, e2, hk2⟩ := hstop.2 hk
            rw [e2] at hP
            subst hU
            rcases hk2 with hk2 | ⟨hk2, hj2⟩
            · simp only [hk2, Option.some.injEq] at hP
              subst hP
              exact Or.inl ⟨_, _, rfl⟩
            · simp only [hk2, if_true, Option.some.injEq] at hP
              subst hP
              exact Or.inr ⟨_, _, _, rfl, hj2⟩

theorem detectEndOfInput_quoted (i : Ptr) (iss : List ParsingIssue) :
    (⟨i.quoted, iss⟩ : ParserImpl).detectEndOfInput = (false, ⟨i.quoted, iss⟩) := by
  unfold detectEndOfInput ParserImpl.isEmpty
  simp [Ptr.quoted]

theorem detectEndOfInput_end (st : ParserImpl) (h : st.i.rest = []) :
    st.detectEndOfInput.1 = true := by
  unfold detectEndOfInput ParserImpl.isEmpty
  simp [h]

theorem range_quoted (pb i : Ptr) (h : pb.Reach i) : pb.quoted.range i.quoted = pb.range i :=
  range_sim ⟨1, [], [34], [], []⟩ pb pb.quoted i i.quoted (quoted_sim pb) (quoted_sim i) h

theorem parseStringLoop_end (o : ParsingOptions) (fP : Nat) (s : Bytes) (pb : Ptr)
    (st : ParserImpl) (h : st.i.rest = []) (resP : Bool × Bytes × ParserImpl)
    (hP : parseStringLoop o fP s pb st = some resP) : resP.1 = false := by
  cases fP with
  | zero => simp [parseStringLoop] at hP
  | succ fP =>
    rw [parseStringLoop] at hP
    simp only [detectEndOfInput_end st h, if_true, Option.some.injEq] at hP
    subst hP
    rfl

theorem unescapeLoop_quoted (o : ParsingOptions)
    (hign : o.unpairedUtf16Surrogates = .Ignore) :
    ∀ (fU fP : Nat) (out : List Bytes) (pb i : Ptr) (iss : List ParsingIssue)
      (resU : Option Ptr × List Bytes) (resP : Bool × Bytes × ParserImpl),
      i.rest ≠ [] → pb.Reach i →
      UnescapeParser.unescapeLoop .Strict (surrogateReplacement o) fU out pb i = some resU →
      parseStringLoop o fP out.flatten pb.quoted ⟨i.quoted, iss⟩ = some resP →
      LoopResults iss resU resP := by
  intro fU
  induction fU with
  | zero =>
    intro fP out pb i iss resU resP _ _ hU
    simp [UnescapeParser.unescapeLoop] at hU
  | succ fU ih =>
    have again : ∀ (fP : Nat) (out : List Bytes) (pb i2 : Ptr) (iss : List ParsingIssue)
        (resU : Option Ptr × List Bytes) (resP : Bool × Bytes × ParserImpl), pb.Reach i2 →
        (if i2.rest = [] then some (some i2, UnescapeParser.writePending out pb i2)
          else UnescapeParser.unescapeLoop .Strict (surrogateReplacement o) fU out pb i2) =
            some resU →
        parseStringLoop o fP out.flatten pb.quoted ⟨i2.quoted, iss⟩ = some resP →
        LoopResults iss resU resP := by
      intro fP out pb i2 iss resU resP hr hU hP
      by_cases hend : i2.rest = []
      · rw [if_pos hend] at hU
        simp only [Option.some.injEq] at hU
        subst hU
        cases fP with
        | zero => simp [parseStringLoop] at hP
        | succ fP =>
          rw [parseStringLoop] at hP
          simp only [detectEndOfInput_quoted, Bool.false_eq_true, if_false,
            parseMore_quoted_end i2 hend, Option.some.injEq] at hP
          subst hP
          simp only [LoopResults, hend, if_true, unescape_writePending_flatten,
            range_quoted pb i2 hr, quoted_advance i2 iss hend]
      · rw [if_neg hend] at hU
        exact ih fP out pb i2 iss resU resP hend hr hU hP
    intro fP out pb i iss resU resP hne hr hU hP
    cases fP with
    | zero => simp [parseStringLoop] at hP
    | succ fP =>
      rw [UnescapeParser.unescapeLoop] at hU
      rw [parseStringLoop] at hP
      simp only [detectEndOfInput_quoted, Bool.false_eq_true, if_false,
        checkInvalidUtf16LowSurrogateOptionAndEncode, check_ignore o hign] at hP
      cases hpm : EscapedStringParser.parseMore .Strict i with
      | none => simp [hpm] at hU
      | some rj =>
        obtain ⟨r, j⟩ := rj
        simp only [hpm] at hU
        have hspec := parseMore_spec .Strict i r j hpm
        have hstop := parseMore_quoted_stop i r j hpm
        have hgood := parseMore_quoted i r j hpm
        have hrj : pb.Reach j := hr.trans hspec.1
        have hrange := range_quoted pb i hr
        unfold MoreSpec at hspec
        cases hk : r.result with
        | Skip =>
          simp only [hk] at hU hspec
          rw [hgood (by simp [GoodKind, hk]) hne] at hP
          simp only [hk] at hP
          exact again fP out pb j iss resU resP hrj hU hP
        | Unescaped =>
          simp only [hk] at hU hspec
          rw [hgood (by simp [GoodKind, hk]) hne] at hP
          simp only [hk, hrange] at hP
          have e : out.flatten ++ pb.range i ++ r.unescaped =
              (UnescapeParser.writePending out pb i ++ [r.unescaped]).flatten := by
            simp [unescape_writePending_flatten]
          rw [e] at hP
          exact again fP _ j j iss resU resP (Ptr.Reach.refl _) hU hP
        | HighSurrogate =>
          simp only [hk] at hU hspec
          rw [hgood (by simp [GoodKind, hk]) hne] at hP
          simp only [hk, hrange] at hP
          have e : out.flatten ++ pb.range i =
              (UnescapeParser.writePending out pb i).flatten := by
            simp [unescape_writePending_flatten]
          rw [e] at hP
          cases hsU : UnescapeParser.unescapeSurrogates .Strict (surrogateReplacement o) fU
              (UnescapeParser.writePending out pb i) r.surrogate j with
          | none => simp [hsU] at hU
          | some eU =>
            cases hsP : parseStringSurrogates o fP
                (UnescapeParser.writePending out pb i).flatten r.surrogate
                ⟨j.quoted, iss⟩ with
            | none => simp [hsP] at hP
            | some eP =>
              have hex := unescapeSurrogates_quoted o hign fU fP _ _ j iss eU eP hsU hsP
              simp only [hsU] at hU
              simp only [hsP] at hP
              cases eU with
              | broke outB pbB iB =>
                obtain ⟨hrB, rfl⟩ := hex
                simp only at hU hP
                exact again fP outB pbB iB iss resU resP hrB hU hP
              | returned p outR =>
                simp only [Option.some.injEq] at hU
                subst hU
                cases p with
                | none =>
                  simp only [LoopResults]
                  rcases hex with ⟨s1, st1, rfl⟩ | ⟨s1, pb1, st1, rfl, hend1⟩
                  · simp only [Option.some.injEq] at hP
                    subst hP
                    intro h; simp at h
                  · simp only at hP
                    have := parseStringLoop_end o fP _ _ _ hend1 resP hP
                    intro h
                    rw [this] at h
                    simp at h
                | some q =>
                  simp only [SurrogateExits] at hex
                  simp only [LoopResults]
                  by_cases hq : q.rest = []
                  · rw [if_pos hq] at hex ⊢
                    subst hex
                    simp only [Option.some.injEq] at hP
                    exact hP.symm
                  · rw [if_neg hq] at hex ⊢
                    obtain ⟨ok, s1, st1, rfl, hok⟩ := hex
                    simp only [Option.some.injEq] at hP
                    subst hP
                    exact hok
        | LowSurrogate =>
          simp only [hk] at hU hspec
          rw [hgood (by simp [GoodKind, hk]) hne] at hP
          simp only [hk, hrange, if_true] at hP
          have e : out.flatten ++ pb.range i ++
              Utf8Encoder.encodeSurrogateCodeUnitAsCodePoint r.surrogate
                (surrogateReplacement o) =
              (UnescapeParser.writePending out pb i ++
                [Utf8Encoder.encodeSurrogateCodeUnitAsCodePoint r.surrogate
                  (surrogateReplacement o)]).flatten := by
            simp [unescape_writePending_flatten]
          rw [e] at hP
          exact again fP _ j j iss resU resP (Ptr.Reach.refl _) hU hP
        | JsonStringEnd =>
          simp only [hk, if_true, Option.some.injEq] at hU hspec
          rw [hgood (by simp [GoodKind, hk]) hne] at hP
          simp only [hk, Option.some.injEq] at hP
          subst hU hP
          obtain ⟨rfl, hne2⟩ := hspec.2
          simp only [LoopResults, if_neg hne2]
          intro _
          simp only [ParserImpl.advance]
          rw [quoted_next j hne2]
          exact quoted_rest_ne _
        | InvalidCharacter =>
          simp only [hk, Option.some.injEq] at hU hspec
          obtain ⟨r2, j2, e2, hk2⟩ := hstop.1 hk
          rw [e2] at hP
          simp only [hk2, Option.some.injEq] at hP
          subst hU hP
          simp only [LoopResults, if_neg hspec.2]
          intro h; simp at h
        | UnexpectedEndOfInput =>
          simp only [hk, Option.some.injEq] at hU hspec
          obtain ⟨r2, j2, e2, hk2⟩ := hstop.2 hk
          rw [e2] at hP
          subst hU
          simp only [LoopResults]
          rcases hk2 with hk2 | ⟨hk2, hj2⟩
          · simp only [hk2, Option.some.injEq] at hP
            subst hP
            intro h; simp at h
          · simp only [hk2] at hP
            have := parseStringLoop_end o fP _ _ _ hj2 resP hP
            intro h
            rw [this] at h
            simp at h

theorem implParse_quoted (o : ParsingOptions) (t : Bytes) (res : Bool × Bytes × ParserImpl)
    (e : parseString o [] ⟨⟨0, 34 :: t⟩, []⟩ = some res) :
    impl.parse (34 :: t) o = some
      { value := .string res.2.1
        status := if res.1 then .Success else .Failure
        parsedSize := res.2.2.i.pos
        issues := res.2.2.issues } := by
  unfold impl.parse ParserImpl.parse
  have hws := endWs_run (⟨⟨0, 34 :: t⟩, []⟩ : ParserImpl) [] (34 :: t) rfl
    (by intro b hb; cases hb)
    (by intro b hb; simp at hb; subst hb; decide) (by simp)
  rw [hws]
  simp only [Bool.false_eq_true, if_false, Nat.zero_add, List.length_nil]
  rw [parseImpl]
  have e34 : ((34 : Byte)).val = 34 := rfl
  simp only [e34]
  norm_num
  rw [e]
  obtain ⟨r1, s1, st1⟩ := res
  rfl

theorem suffix_quote (b c rest : Bytes) (h : b ++ [34] = c ++ rest) (hne : rest ≠ []) :
    (34 : Byte) ∈ rest := by
  have h1 : (b ++ [34]).getLast (by simp) = 34 := by simp
  have h2 : (c ++ rest).getLast (by simp [hne]) = rest.getLast hne :=
    List.getLast_append_of_ne_nil hne
  have h3 : (b ++ [34]).getLast (by simp) = (c ++ rest).getLast (by simp [hne]) := by
    congr 1
  rw [← h1, h3, h2]
  exact List.getLast_mem hne

/-- What `parseString` returns on the input `"` ++ b ++ `"` next to what the loop of the
unescaper returns on `b`. -/
theorem parseString_quoted (o : ParsingOptions) (hign : o.unpairedUtf16Surrogates = .Ignore)
    (b : Bytes) (hne : b ≠ []) :
    ∃ resU resP,
      UnescapeParser.unescapeLoop .Strict (surrogateReplacement o) (b.length + 1) [] ⟨0, b⟩
        ⟨0, b⟩ = some resU ∧
      parseString o [] ⟨⟨0, 34 :: (b ++ [34])⟩, []⟩ = some resP ∧
      LoopResults [] resU resP ∧
      (∀ q, resU.1 = some q → q.pos + q.rest.length = b.length) ∧
      (resP.1 = true → ∃ c, b ++ [34] = c ++ resP.2.2.i.rest ∧
        resP.2.2.i.pos = 1 + c.length) := by
  obtain ⟨p, outU, hU, _, hq⟩ := unescapeLoop_scan .Strict (surrogateReplacement o)
    (b.length + 1) [] ⟨0, b⟩ ⟨0, b⟩ (Ptr.Reach.refl _) hne (by simp)
  have hadv : (⟨⟨0, 34 :: (b ++ [34])⟩, []⟩ : ParserImpl).advance =
      ⟨(⟨0, b⟩ : Ptr).quoted, []⟩ := by
    simp [ParserImpl.advance, Ptr.next, Ptr.quoted]
  have hsome := parseString_isSome o [] ⟨⟨0, 34 :: (b ++ [34])⟩, []⟩
  cases hP : parseString o [] ⟨⟨0, 34 :: (b ++ [34])⟩, []⟩ with
  | none => simp [hP] at hsome
  | some resP =>
    refine ⟨(p, outU), resP, hU, rfl, ?_, ?_, ?_⟩
    · unfold parseString at hP
      rw [hadv] at hP
      exact unescapeLoop_quoted o hign _ _ [] ⟨0, b⟩ ⟨0, b⟩ [] (p, outU) resP hne
        (Ptr.Reach.refl _) hU hP
    · intro q hpq
      have := (hq q hpq).1.size_eq
      simpa using this
    · intro hok
      unfold parseString at hP
      rw [hadv] at hP
      obtain ⟨r1, s1, st1⟩ := resP
      simp only at hok
      subst hok
      obtain ⟨⟨c, hc1, hc2⟩, _⟩ := ((parseStringLoop_post o _ _ _ _ _ _ _ hP).1 rfl).1
      exact ⟨c, by simpa [Ptr.quoted] using hc1, by simpa [Ptr.quoted] using hc2⟩

theorem implParse_empty_string (o : ParsingOptions) :
    impl.parse [34, 34] o = some
      { value := .string [], status := .Success, parsedSize := 2, issues := [] } := by
  rfl

theorem success_of_status (ok : Bool)
    (h : (if ok = true then ParsingResultStatus.Success else ParsingResultStatus.Failure) =
      .Success) : ok = true := by
  cases ok with
  | true => rfl
  | false => simp at h

/-- C36: for every text `b` (shorter than `NPos`, as every `string_view` is), every surrogate
replacement `r` and the parsing options that stand for it (`unpairedUtf16Surrogates = Ignore`
and either `replaceInvalidUtf16Surrogates` with the replacement `r`, or no replacement for
`r = DoNotReplaceSurrogates`), `impl::unescape(sink, b, Strict, r)` and the parse of the input
`"` ++ b ++ `"` both return, and `impl::unescape` returns `b.size()` with the fragments sent to
the sink making up `s` if and only if the parse, in either parsing mode, returns `Success` with
the String `s`, `parsedSize = b.size() + 2` and no issue. -/
theorem unescape_strict_iff_parse (b : Bytes) (o : ParsingOptions) (r : Nat) (s : Bytes)
    (mode : ParsingMode) (hign : o.unpairedUtf16Surrogates = .Ignore)
    (hr : surrogateReplacement o = r) (hsize : b.length < impl.NPos) :
    (∃ n frags, impl.unescape b .Strict r = some (n, frags)) ∧
    (∃ res, parse (34 :: (b ++ [34])) o mode = some res) ∧
    ((∃ frags, impl.unescape b .Strict r = some (b.length, frags) ∧ frags.flatten = s) ↔
      parse (34 :: (b ++ [34])) o mode = some
        { value := .string s, status := .Success, parsedSize := b.length + 2, issues := [] }) := by
  subst hr
  have hlen : (34 :: (b ++ [34])).length = b.length + 2 := by simp
  by_cases hne : b = []
  · subst hne
    have hp : parse [34, 34] o mode = some
        { value := .string [], status := .Success, parsedSize := 2, issues := [] } :=
      parse_of_implParse_all _ o mode _ (implParse_empty_string o) rfl (by simp)
    have hu : impl.unescape [] .Strict (surrogateReplacement o) = some (0, []) := by
      simp [impl.unescape]
    refine ⟨⟨_, _, hu⟩, ⟨_, hp⟩, ?_⟩
    simp only [List.nil_append, List.length_nil, Nat.zero_add, hu, hp, Option.some.injEq,
      Prod.mk.injEq, true_and]
    constructor
    · rintro ⟨frags, rfl, rfl⟩
      rfl
    · intro h
      have hs : s = [] := by
        have := congrArg ParsingResult.value h
        simpa using this.symm
      exact ⟨[], rfl, by simp [hs]⟩
  · obtain ⟨⟨p, outU⟩, resP, hU, hP, hrel, hpos, hreach⟩ := parseString_quoted o hign b hne
    have himpl := implParse_quoted o (b ++ [34]) resP hP
    have hun : impl.unescape b .Strict (surrogateReplacement o) =
        some ((p.map Ptr.pos).getD impl.NPos, outU) := by
      unfold impl.unescape UnescapeParser.unescape
      rw [if_neg hne, hU]
      cases p <;> rfl
    obtain ⟨resX, hresX⟩ : ∃ res, parse (34 :: (b ++ [34])) o mode = some res := by
      have := parse_isSome (34 :: (b ++ [34])) o mode
      cases hx : parse (34 :: (b ++ [34])) o mode with
      | none => simp [hx] at this
      | some res => exact ⟨res, rfl⟩
    refine ⟨⟨_, _, hun⟩, ⟨_, hresX⟩, ?_⟩
    obtain ⟨ok, sP, stP⟩ := resP
    simp only [LoopResults] at hrel
    simp only at himpl hreach
    constructor
    · rintro ⟨frags, hf, rfl⟩
      rw [hun] at hf
      simp only [Option.some.injEq, Prod.mk.injEq] at hf
      obtain ⟨hn, rfl⟩ := hf
      cases p with
      | none => simp only [Option.map_none', Option.getD_none] at hn; omega
      | some q =>
        simp only [Option.map_some', Option.getD_some] at hn
        simp only at hrel
        have hq := hpos q rfl
        have hqr : q.rest = [] := List.length_eq_zero.mp (by omega)
        rw [if_pos hqr] at hrel
        simp only [Prod.mk.injEq] at hrel
        obtain ⟨rfl, rfl, rfl⟩ := hrel
        refine parse_of_implParse_all _ o mode _ ?_ (by simp) (by simp)
        rw [himpl, hn]
        rfl
    · intro h
      -- the result of `impl::parse` is a success that is followed by whitespace only
      have key : ok = true ∧ sP = s ∧ stP.issues = [] ∧
          ∀ x ∈ stP.i.rest, isWhitespace x := by
        cases mode with
        | StopAfterValueEnds =>
          rw [parse_stop_eq, himpl] at h
          simp only [Option.some.injEq, ParsingResult.mk.injEq, Value.string.injEq] at h
          obtain ⟨h1, h2, h3, h4⟩ := h
          have hok := success_of_status ok h2
          obtain ⟨c, hc1, hc2⟩ := hreach hok
          have hl := congrArg List.length hc1
          simp only [List.length_append, List.length_singleton] at hl
          have hnil : stP.i.rest = [] := List.length_eq_zero.mp (by omega)
          exact ⟨hok, h1, h4, by rw [hnil]; intro x hx; cases hx⟩
        | VerifyTrailingWhitespace =>
          obtain ⟨res, e1, e2, e3, e4⟩ := parse_verify_inv _ o _ h rfl
          rw [himpl] at e1
          simp only [Option.some.injEq] at e1
          subst e1
          simp only at e2 e3 e4
          have hok := success_of_status ok e2
          obtain ⟨c, hc1, hc2⟩ := hreach hok
          simp only [ParsingResult.mk.injEq, Value.string.injEq] at e3
          have hd : (34 :: (b ++ [34])).drop stP.i.pos = stP.i.rest := by
            rw [hc2, hc1, Nat.add_comm]
            simp
          rw [hd] at e4
          exact ⟨hok, e3.1.symm, e3.2.2.2.symm, e4⟩
      obtain ⟨hok, rfl, hiss, hws⟩ := key
      obtain ⟨c, hc1, hc2⟩ := hreach hok
      have hnil : stP.i.rest = [] := by
        by_contra hx
        exact quote_not_whitespace (hws _ (suffix_quote b c _ hc1 hx))
      cases p with
      | none => exact absurd hnil (hrel hok)
      | some q =>
        simp only at hrel
        by_cases hqr : q.rest = []
        · rw [if_pos hqr] at hrel
          simp only [Prod.mk.injEq] at hrel
          have hq := hpos q rfl
          refine ⟨outU, ?_, hrel.2.1.symm⟩
          rw [hun]
          simp only [Option.some.injEq, Prod.mk.injEq, and_true]
          rw [hqr] at hq
          simpa using hq
        · rw [if_neg hqr] at hrel
          exact absurd hnil (hrel hok)

/-- C36 at the text `a\n\ud800`, whose last escape is a high surrogate without its partner,
with the replacement `U+FFFD`: both sides hold, and the String is `a`, a line feed and the
bytes `EF BF BD`. -/
theorem unescape_strict_iff_parse_witness :
    ((∃ n frags, impl.unescape [97, 92, 110, 92, 117, 100, 56, 48, 48] .Strict 0xFFFD =
        some (n, frags)) ∧
      (∃ res, parse (34 :: ([97, 92, 110, 92, 117, 100, 56, 48, 48] ++ [34]))
        { replaceInvalidUtf16Surrogates := true, replacement := 0xFFFD }
        .VerifyTrailingWhitespace = some res) ∧
      ((∃ frags, impl.unescape [97, 92, 110, 92, 117, 100, 56, 48, 48] .Strict 0xFFFD =
          some (([97, 92, 110, 92, 117, 100, 56, 48, 48] : Bytes).length, frags) ∧
          frags.flatten = [97, 10, 0xEF, 0xBF, 0xBD]) ↔
        parse (34 :: ([97, 92, 110, 92, 117, 100, 56, 48, 48] ++ [34]))
          { replaceInvalidUtf16Surrogates := true, replacement := 0xFFFD }
          .VerifyTrailingWhitespace = some
          { value := .string [97, 10, 0xEF, 0xBF, 0xBD], status := .Success,
            parsedSize := ([97, 92, 110, 92, 117, 100, 56, 48, 48] : Bytes).length + 2,
            issues := [] })) ∧
    parse (34 :: ([97, 92, 110, 92, 117, 100, 56, 48, 48] ++ [34]))
      { replaceInvalidUtf16Surrogates := true, replacement := 0xFFFD }
      .VerifyTrailingWhitespace = some
      { value := .string [97, 10, 0xEF, 0xBF, 0xBD], status := .Success, parsedSize := 11,
        issues := [] } :=
  ⟨unescape_strict_iff_parse [97, 92, 110, 92, 117, 100, 56, 48, 48]
    { replaceInvalidUtf16Surrogates := true, replacement := 0xFFFD } 0xFFFD
    [97, 10, 0xEF, 0xBF, 0xBD] .VerifyTrailingWhitespace rfl rfl (by decide), by decide!⟩

theorem lead2_val : ∀ x : Fin 32, (Fin.ofNat (0xC0 ||| x.val) : Byte).val = 192 + x.val := by
  decide!

theorem lead3_val : ∀ x : Fin 16, (Fin.ofNat (0xE0 ||| x.val) : Byte).val = 224 + x.val := by
  decide!

theorem lead4_val : ∀ x : Fin 8, (Fin.ofNat (0xF0 ||| x.val) : Byte).val = 240 + x.val := by
  decide!

theorem cont_val : ∀ x : Fin 64, (Fin.ofNat (0x80 ||| x.val) : Byte).val = 128 + x.val := by
  decide!

theorem ascii_val : ∀ x : Fin 128, (Fin.ofNat x.val : Byte).val = x.val := by
  decide!

theorem announcedSize_two (a : Byte) (h1 : 192 ≤ a.val) (h2 : a.val < 224) :
    announcedSize a = 2 := by
  unfold announcedSize
  rw [if_pos (by omega)]

theorem announcedSize_three (a : Byte) (h1 : 224 ≤ a.val) (h2 : a.val < 240) :
    announcedSize a = 3 := by
  unfold announcedSize
  rw [if_neg (by omega), if_pos (by omega)]

theorem announcedSize_four (a : Byte) (h1 : 240 ≤ a.val) (h2 : a.val < 248) :
    announcedSize a = 4 := by
  unfold announcedSize
  rw [if_neg (by omega), if_neg (by omega), if_pos (by omega)]

/-- The encoding of a scalar value at the head of a text is one unit of the scan. -/
theorem utf8Encoding_unit (c : Nat) (hc : isScalarValue c) (rest : Bytes) :
    scalarUnit (utf8Encoding c) = true ∧
    ((∃ a : Byte, utf8Encoding c = [a] ∧ a.val < 0x80) ∨
      (∃ a t, utf8Encoding c = a :: t ∧ ¬ a.val < 0x80 ∧
        sequenceSize (a :: (t ++ rest)) = some (t.length + 1))) := by
  unfold isScalarValue at hc
  have e63 : (0x3F : Nat) = 63 := by norm_num
  by_cases h1 : c < 0x80
  · have hv := ascii_val ⟨c, h1⟩
    simp only at hv
    have he : utf8Encoding c = [Fin.ofNat c] := by
      unfold utf8Encoding
      rw [if_pos h1]
    rw [he]
    refine ⟨by simp [scalarUnit, hv]; omega, Or.inl ⟨_, rfl, by rw [hv]; exact h1⟩⟩
  · by_cases h2 : c < 0x800
    · have he : utf8Encoding c =
          [Fin.ofNat (0xC0 ||| (c / 64)), Fin.ofNat (0x80 ||| (c % 64))] := by
        unfold utf8Encoding
        rw [if_neg h1, if_pos h2, e63, shift_6, and_63]
      have v1 := lead2_val ⟨c / 64, by omega⟩
      have v2 := cont_val ⟨c % 64, by omega⟩
      simp only at v1 v2
      rw [he]
      have hcp : codePoint [Fin.ofNat (0xC0 ||| (c / 64)), Fin.ofNat (0x80 ||| (c % 64))] = c := by
        simp only [codePoint, v1, v2]
        omega
      refine ⟨by simp only [scalarUnit, hcp, decide_eq_true_eq]; omega,
        Or.inr ⟨_, _, rfl, by rw [v1]; omega, ?_⟩⟩
      unfold sequenceSize
      have ha := announcedSize_two _ (by rw [v1]; omega) (by rw [v1]; omega)
      simp only [ha]
      rw [if_pos]
      · rfl
      · refine ⟨by decide, by simp, ?_⟩
        simp [v2]
        omega
    · by_cases h3 : c < 0x10000
      · have he : utf8Encoding c =
            [Fin.ofNat (0xE0 ||| (c / 4096)), Fin.ofNat (0x80 ||| (c / 64 % 64)),
              Fin.ofNat (0x80 ||| (c % 64))] := by
          unfold utf8Encoding
          rw [if_neg h1, if_neg h2, if_pos h3, e63, shift_6, shift_12, and_63, and_63]
        have v1 := lead3_val ⟨c / 4096, by omega⟩
        have v2 := cont_val ⟨c / 64 % 64, by omega⟩
        have v3 := cont_val ⟨c % 64, by omega⟩
        simp only at v1 v2 v3
        rw [he]
        have hcp : codePoint [Fin.ofNat (0xE0 ||| (c / 4096)),
            Fin.ofNat (0x80 ||| (c / 64 % 64)), Fin.ofNat (0x80 ||| (c % 64))] = c := by
          simp only [codePoint, v1, v2, v3]
          omega
        refine ⟨by simp only [scalarUnit, hcp, decide_eq_true_eq]; omega,
          Or.inr ⟨_, _, rfl, by rw [v1]; omega, ?_⟩⟩
        unfold sequenceSize
        have ha := announcedSize_three _ (by rw [v1]; omega) (by rw [v1]; omega)
        simp only [ha]
        rw [if_pos]
        · rfl
        · refine ⟨by decide, by simp, ?_⟩
          simp [v2, v3]
          omega
      · have he : utf8Encoding c =
            [Fin.ofNat (0xF0 ||| (c / 262144)), Fin.ofNat (0x80 ||| (c / 4096 % 64)),
              Fin.ofNat (0x80 ||| (c / 64 % 64)), Fin.ofNat (0x80 ||| (c % 64))] := by
          unfold utf8Encoding
          rw [if_neg h1, if_neg h2, if_neg h3, e63, shift_6, shift_12, shift_18, and_63,
            and_63, and_63]
        have v1 := lead4_val ⟨c / 262144, by omega⟩
        have v2 := cont_val ⟨c / 4096 % 64, by omega⟩
        have v3 := cont_val ⟨c / 64 % 64, by omega⟩
        have v4 := cont_val ⟨c % 64, by omega⟩
        simp only at v1 v2 v3 v4
        rw [he]
        have hcp : codePoint [Fin.ofNat (0xF0 ||| (c / 262144)),
            Fin.ofNat (0x80 ||| (c / 4096 % 64)), Fin.ofNat (0x80 ||| (c / 64 % 64)),
            Fin.ofNat (0x80 ||| (c % 64))] = c := by
          simp only [codePoint, v1, v2, v3, v4]
          omega
        refine ⟨by simp only [scalarUnit, hcp, decide_eq_true_eq]; omega,
          Or.inr ⟨_, _, rfl, by rw [v1]; omega, ?_⟩⟩
        unfold sequenceSize
        have ha := announcedSize_four _ (by rw [v1]; omega) (by rw [v1]; omega)
        simp only [ha]
        rw [if_pos]
        · rfl
        · refine ⟨by decide, by simp, ?_⟩
          simp [v2, v3, v4]
          omega

theorem utf8Encoding_scan : ∀ (cs : List Nat), (∀ c ∈ cs, isScalarValue c) →
    ∀ fuel, (cs.flatMap utf8Encoding).length ≤ fuel →
      utf8Units fuel (cs.flatMap utf8Encoding) = cs.map utf8Encoding ∧
      firstMalformedFrom fuel (cs.flatMap utf8Encoding) = none := by
  intro cs
  induction cs with
  | nil =>
    intro _ fuel _
    cases fuel <;> simp [utf8Units, firstMalformedFrom]
  | cons c rest ih =>
    intro hall fuel hf
    have hc := hall c (by simp)
    have ih2 := ih (fun x hx => hall x (by simp [hx]))
    obtain ⟨_, hu⟩ := utf8Encoding_unit c hc (rest.flatMap utf8Encoding)
    rw [List.flatMap_cons] at hf ⊢
    rw [List.length_append] at hf
    rcases hu with ⟨a, he, ha⟩ | ⟨a, t, he, ha, hs⟩
    · rw [he] at hf ⊢
      simp only [List.length_singleton, List.singleton_append] at hf ⊢
      obtain ⟨fuel2, rfl⟩ : ∃ f, fuel = f + 1 := ⟨fuel - 1, by omega⟩
      obtain ⟨i1, i2⟩ := ih2 fuel2 (by omega)
      rw [utf8Units, firstMalformedFrom]
      simp only [if_pos ha, i1, i2, List.map_cons, he, Option.map_none', and_self]
    · rw [he] at hf ⊢
      simp only [List.length_cons, List.cons_append] at hf ⊢
      obtain ⟨fuel2, rfl⟩ : ∃ f, fuel = f + 1 := ⟨fuel - 1, by omega⟩
      obtain ⟨i1, i2⟩ := ih2 fuel2 (by omega)
      have htake : (a :: (t ++ rest.flatMap utf8Encoding)).take (t.length + 1) = a :: t := by
        simp
      have hdrop : (a :: (t ++ rest.flatMap utf8Encoding)).drop (t.length + 1) =
          rest.flatMap utf8Encoding := by
        simp
      rw [utf8Units, firstMalformedFrom]
      simp only [if_neg ha, hs, htake, hdrop, i1, i2, List.map_cons, he, Option.map_none',
        and_self]

theorem unitValue_encoding (u : Bytes) (hu : GoodUnit u) :
    isScalarValue (unitValue u) ∧ utf8Encoding (unitValue u) = u := by
  unfold isScalarValue
  match u, hu with
  | [], hu => simp [GoodUnit, scalarUnit] at hu
  | [a], hu =>
    have ha : a.val < 0x80 := by simpa [GoodUnit, scalarUnit] using hu.2
    exact ⟨by simp only [unitValue]; omega, utf8Encoding_byte a ha⟩
  | [a, b], hu =>
    have hs : sequenceSize [a, b] = some 2 := by
      rcases hu.1 with ⟨x, hx, _⟩ | hs
      · simp at hx
      · exact hs
    have hr : 0x80 ≤ codePoint [a, b] := by simpa [scalarUnit] using hu.2
    have hlt : codePoint [a, b] < 2048 := by
      have cp : codePoint [a, b] = a.val % 32 * 64 + b.val % 64 := rfl
      rw [cp]; omega
    exact ⟨by simp only [unitValue]; omega, utf8Encoding_two a b hs hr⟩
  | [a, b, c], hu =>
    have hs : sequenceSize [a, b, c] = some 3 := by
      rcases hu.1 with ⟨x, hx, _⟩ | hs
      · simp at hx
      · exact hs
    have hr : 0x800 ≤ codePoint [a, b, c] ∧
        ¬ (0xD800 ≤ codePoint [a, b, c] ∧ codePoint [a, b, c] ≤ 0xDFFF) := by
      have := hu.2
      simp only [scalarUnit, decide_eq_true_eq] at this
      exact this
    have hlt := codePoint_lt [a, b, c] (by simp)
    exact ⟨⟨by simp only [unitValue]; omega, hr.2⟩, utf8Encoding_three a b c hs hr.1⟩
  | [a, b, c, d], hu =>
    have hs : sequenceSize [a, b, c, d] = some 4 := by
      rcases hu.1 with ⟨x, hx, _⟩ | hs
      · simp at hx
      · exact hs
    have hr : 0x10000 ≤ codePoint [a, b, c, d] ∧ codePoint [a, b, c, d] ≤ 0x10FFFF := by
      simpa [scalarUnit] using hu.2
    exact ⟨⟨by simp only [unitValue]; exact hr.2, by simp only [unitValue]; omega⟩,
      utf8Encoding_four a b c d hs hr.1⟩
  | _ :: _ :: _ :: _ :: _ :: _, hu => simp [GoodUnit, scalarUnit] at hu

/-- A text is well-formed UTF-8 in the sense of `wellFormedUtf8` exactly when it is the UTF-8
encoding, in the shortest form, of a sequence of Unicode scalar values. -/
theorem wellFormedUtf8_iff (s : Bytes) :
    wellFormedUtf8 s = true ↔
      ∃ cs : List Nat, (∀ c ∈ cs, isScalarValue c) ∧ s = cs.flatMap utf8Encoding := by
  constructor
  · intro h
    obtain ⟨_, hgood⟩ := goodUnits_of_wellFormed s h
    have hflat : (textUnits s).flatten = s := utf8Units_flatten _ _ (Nat.le_refl _)
    refine ⟨(textUnits s).map unitValue, ?_, ?_⟩
    · intro c hc
      obtain ⟨u, hu, rfl⟩ := List.mem_map.1 hc
      exact (unitValue_encoding u (hgood u hu)).1
    · have : ∀ l : List Bytes, (∀ u ∈ l, GoodUnit u) →
          (l.map unitValue).flatMap utf8Encoding = l.flatten := by
        intro l
        induction l with
        | nil => intro _; rfl
        | cons u t ih =>
          intro hl
          rw [List.map_cons, List.flatMap_cons, (unitValue_encoding u (hl u (by simp))).2,
            ih (fun x hx => hl x (by simp [hx])), List.flatten_cons]
      rw [this _ hgood, hflat]
  · rintro ⟨cs, hcs, rfl⟩
    obtain ⟨h1, h2⟩ := utf8Encoding_scan cs hcs _ (Nat.le_refl _)
    unfold wellFormedUtf8 firstMalformed textUnits
    rw [h1, h2]
    simp only [Option.isNone_none, Bool.true_and, List.all_eq_true, List.mem_map]
    rintro u ⟨c, hc, rfl⟩
    exact (utf8Encoding_unit c (hcs c hc) []).1

/-! ## Cursor movement -/

theorem Ptr.Moved.none_moved (p : Ptr) : p.Moved [] p := by simp [Ptr.Moved]

theorem Ptr.Moved.append_moved {p q r : Ptr} {c d : Bytes} (h1 : p.Moved c q) (h2 : q.Moved d r) :
    p.Moved (c ++ d) r := by
  obtain ⟨h1a, h1b⟩ := h1
  obtain ⟨h2a, h2b⟩ := h2
  exact ⟨by simp [h1a, h2a], by simp [h1b, h2b, Nat.add_assoc]⟩

theorem Ptr.Moved.reach {p q : Ptr} {c : Bytes} (h : p.Moved c q) : p.Reach q := ⟨c, h⟩

theorem moved_next {p : Ptr} {b : Byte} {t : Bytes} (h : p.rest = b :: t) :
    p.Moved [b] p.next := by
  simp [Ptr.Moved, Ptr.next, h]

theorem moved_advance {st : ParserImpl} {b : Byte} {t : Bytes} (h : st.i.rest = b :: t) :
    st.i.Moved [b] st.advance.i := moved_next h

theorem takeWhile_whitespace (l : Bytes) : ∀ b ∈ l.takeWhile isWhitespaceB, isWhitespace b := by
  intro b hb
  have := List.mem_takeWhile_imp hb
  simpa [isWhitespaceB, isWhitespace] using this

theorem moved_skipWhitespaces (p : Ptr) :
    ∃ w, p.Moved w (skipWhitespaces p).2 ∧ ∀ b ∈ w, isWhitespace b := by
  refine ⟨p.rest.takeWhile isWhitespaceB, ⟨?_, ?_⟩, takeWhile_whitespace _⟩
  · simp [skipWhitespaces, skipWhitespacesFrom_eq]
  · simp [skipWhitespaces, skipWhitespacesFrom_eq]

theorem endWs_i (st : ParserImpl) :
    st.detectEndOfInputAfterSkippingWhitespaces.2.i = (skipWhitespaces st.i).2 := by
  unfold detectEndOfInputAfterSkippingWhitespaces
  by_cases h : (skipWhitespaces st.i).1 = true
  · simp only [h, if_true]
    rfl
  · simp only [h, if_false]
    rfl

theorem moved_endWs (st : ParserImpl) :
    ∃ w, st.i.Moved w st.detectEndOfInputAfterSkippingWhitespaces.2.i ∧
      ∀ b ∈ w, isWhitespace b := by
  rw [endWs_i]
  exact moved_skipWhitespaces st.i

theorem takeWhile_digits (l : Bytes) : ∀ b ∈ l.takeWhile isDecimalDigit,
    isDecimalDigit b = true := fun _ hb => List.mem_takeWhile_imp hb

theorem moved_skipDigits (st : ParserImpl) :
    ∃ ds, st.i.Moved ds st.skipDigits.i ∧ ∀ b ∈ ds, isDecimalDigit b = true := by
  refine ⟨st.i.rest.takeWhile isDecimalDigit, ⟨?_, ?_⟩, takeWhile_digits _⟩
  · simp [skipDigits, skipDigitsFrom_eq]
  · simp [skipDigits, skipDigitsFrom_eq]

/-! ## Literals -/

theorem matchLoop_gram (ps : Bytes) (p : Byte) (st : ParserImpl) :
    ∃ m, st.i.Moved m (matchLoop p ps st).2.i ∧
      ((matchLoop p ps st).1 = true → m = p :: ps) ∧
      ((matchLoop p ps st).1 = false → ∃ ext, m ++ ext = p :: ps) := by
  induction ps generalizing p st with
  | nil =>
    unfold matchLoop
    cases hr : st.i.rest with
    | nil => exact ⟨[], Ptr.Moved.none_moved _, by simp, fun _ => ⟨[p], rfl⟩⟩
    | cons b r =>
      by_cases hb : b = p
      · subst hb
        simp only [ne_eq, not_true_eq_false, if_false]
        exact ⟨[b], moved_advance hr, fun _ => rfl, by simp⟩
      · simp only [ne_eq, hb, not_false_eq_true, if_true]
        exact ⟨[], Ptr.Moved.none_moved _, by simp, fun _ => ⟨[p], rfl⟩⟩
  | cons q qs ih =>
    unfold matchLoop
    cases hr : st.i.rest with
    | nil => exact ⟨[], Ptr.Moved.none_moved _, by simp, fun _ => ⟨p :: q :: qs, rfl⟩⟩
    | cons b r =>
      by_cases hb : b = p
      · subst hb
        simp only [ne_eq, not_true_eq_false, if_false]
        obtain ⟨m, hm, h1, h2⟩ := ih q st.advance
        refine ⟨b :: m, (moved_advance hr).append_moved hm, fun h => by rw [h1 h], fun h => ?_⟩
        obtain ⟨ext, e⟩ := h2 h
        exact ⟨ext, by rw [List.cons_append, e]⟩
      · simp only [ne_eq, hb, not_false_eq_true, if_true]
        exact ⟨[], Ptr.Moved.none_moved _, by simp, fun _ => ⟨p :: q :: qs, rfl⟩⟩

theorem parseLiteral_gram (lit : Value) (c p : Byte) (ps : Bytes) (v : Value)
    (st : ParserImpl) (t : Bytes) (hr : st.i.rest = c :: t) :
    ∃ m, st.i.Moved m (parseLiteral lit (c :: p :: ps) v st).2.2.i ∧
      ((parseLiteral lit (c :: p :: ps) v st).1 = true → m = c :: p :: ps) ∧
      ((parseLiteral lit (c :: p :: ps) v st).1 = false → ∃ ext, m ++ ext = c :: p :: ps) := by
  obtain ⟨m, hm, h1, h2⟩ := matchLoop_gram ps p st.advance
  unfold parseLiteral matchPattern
  by_cases h : (matchLoop p ps st.advance).1 = true
  · simp only [h, if_true]
    exact ⟨c :: m, (moved_advance hr).append_moved hm, fun _ => by rw [h1 h], by simp⟩
  · simp only [h, Bool.false_eq_true, if_false]
    refine ⟨c :: m, (moved_advance hr).append_moved hm, by simp, fun _ => ?_⟩
    obtain ⟨ext, e⟩ := h2 (by simpa using h)
    exact ⟨ext, by rw [List.cons_append, e]⟩

/-! ## Strings -/

theorem parseEscapeHex_gram (n c : Nat) (p : Ptr) :
    ∃ ds, p.Moved ds (EscapedStringParser.parseEscapeHex n c p).2 ∧
      (∀ d ∈ ds, hexDigitValue d ≠ none) ∧
      (GoodKind (EscapedStringParser.parseEscapeHex n c p).1.result →
        ds.length = n ∧
        (EscapedStringParser.parseEscapeHex n c p).1.result ≠ .JsonStringEnd) ∧
      (¬ GoodKind (EscapedStringParser.parseEscapeHex n c p).1.result → ds.length < n) := by
  induction n generalizing c p with
  | zero =>
    refine ⟨[], ?_, by simp, ?_, ?_⟩
    · unfold EscapedStringParser.parseEscapeHex
      split_ifs <;> exact Ptr.Moved.none_moved _
    · intro _
      refine ⟨rfl, ?_⟩
      unfold EscapedStringParser.parseEscapeHex
      split_ifs <;> simp
    · intro h
      exfalso
      apply h
      unfold EscapedStringParser.parseEscapeHex GoodKind
      split_ifs <;> simp
  | succ n ih =>
    unfold EscapedStringParser.parseEscapeHex
    cases hr : p.rest with
    | nil =>
      simp only
      exact ⟨[], Ptr.Moved.none_moved _, by simp, fun h => absurd rfl h.2, fun _ => by simp⟩
    | cons b t =>
      simp only
      have ht := hexDigit_test b
      by_cases hd : isDecimalDigit b = true
      · simp only [hd, if_true]
        obtain ⟨ds, hm, hh, h1, h2⟩ := ih (c <<< 4 % 2 ^ 32 ||| (b.val - 48)) p.next
        refine ⟨b :: ds, (moved_next hr).append_moved hm, ?_, ?_, ?_⟩
        · intro d hd2
          rcases List.mem_cons.mp hd2 with rfl | hd2
          · exact ht.1 hd
          · exact hh d hd2
        · intro hg
          exact ⟨by simp [(h1 hg).1], (h1 hg).2⟩
        · intro hg
          have := h2 hg
          simp only [List.length_cons]
          omega
      · simp only [hd, Bool.false_eq_true, if_false]
        by_cases hx : 97 ≤ (b.val ||| 0x20) ∧ (b.val ||| 0x20) ≤ 102
        · simp only [hx, and_self, if_true]
          obtain ⟨ds, hm, hh, h1, h2⟩ := ih (c <<< 4 % 2 ^ 32 ||| ((b.val ||| 0x20) - 87)) p.next
          refine ⟨b :: ds, (moved_next hr).append_moved hm, ?_, ?_, ?_⟩
          · intro d hd2
            rcases List.mem_cons.mp hd2 with rfl | hd2
            · exact ht.2.1 hd hx
            · exact hh d hd2
          · intro hg
            exact ⟨by simp [(h1 hg).1], (h1 hg).2⟩
          · intro hg
            have := h2 hg
            simp only [List.length_cons]
            omega
        · simp only [hx, if_false]
          exact ⟨[], Ptr.Moved.none_moved _, by simp, fun h => absurd rfl h.1, fun _ => by simp⟩

theorem hexDigitValue_zero : hexDigitValue 48 ≠ none := by decide

/-- Hexadecimal digits, at most four, begin the text of an escape of a code unit. -/
theorem unicode_begins (ds : Bytes) (hh : ∀ d ∈ ds, hexDigitValue d ≠ none)
    (hl : ds.length ≤ 4) :
    ∃ ext p, Piece.WellFormed .Strict p ∧ (92 :: 117 :: ds) ++ ext = p.text := by
  match ds, hh, hl with
  | [], _, _ =>
    exact ⟨[48, 48, 48, 48], .unicode 48 48 48 48,
      ⟨hexDigitValue_zero, hexDigitValue_zero, hexDigitValue_zero, hexDigitValue_zero⟩, rfl⟩
  | [a], hh, _ =>
    exact ⟨[48, 48, 48], .unicode a 48 48 48,
      ⟨hh a (by simp), hexDigitValue_zero, hexDigitValue_zero, hexDigitValue_zero⟩, rfl⟩
  | [a, b], hh, _ =>
    exact ⟨[48, 48], .unicode a b 48 48,
      ⟨hh a (by simp), hh b (by simp), hexDigitValue_zero, hexDigitValue_zero⟩, rfl⟩
  | [a, b, c], hh, _ =>
    exact ⟨[48], .unicode a b c 48,
      ⟨hh a (by simp), hh b (by simp), hh c (by simp), hexDigitValue_zero⟩, rfl⟩
  | [a, b, c, d], hh, _ =>
    exact ⟨[], .unicode a b c d,
      ⟨hh a (by simp), hh b (by simp), hh c (by simp), hh d (by simp)⟩, rfl⟩
  | _ :: _ :: _ :: _ :: _ :: _, _, hl => simp at hl

/-- What `parseMore` has read in the mode `Strict`: nothing before a quotation mark, the text
of a piece when the string goes on, the beginning of the text of a piece otherwise. -/
theorem parseMore_gram (i : Ptr) (r : EscapedStringParser.Result) (j : Ptr)
    (h : EscapedStringParser.parseMore .Strict i = some (r, j)) :
    (r.result = .JsonStringEnd ∧ j = i ∧ ∃ t, i.rest = 34 :: t) ∨
    (GoodKind r.result ∧ r.result ≠ .JsonStringEnd ∧
      ∃ p : Piece, p.WellFormed .Strict ∧ i.Moved p.text j) ∨
    (¬ GoodKind r.result ∧
      ∃ c ext, ∃ p : Piece, p.WellFormed .Strict ∧ c ++ ext = p.text ∧ i.Moved c j) := by
  unfold EscapedStringParser.parseMore at h
  cases hr : i.rest with
  | nil => simp [hr] at h
  | cons b t =>
    simp only [hr] at h
    by_cases h92 : b.val = 92
    · have hb : b = 92 := Fin.ext h92
      subst hb
      simp only [h92, if_true] at h
      by_cases he : i.next.rest = []
      · simp only [he, if_true, Option.some.injEq, Prod.mk.injEq] at h
        obtain ⟨rfl, rfl⟩ := h
        exact Or.inr (Or.inr ⟨fun hg => absurd rfl hg.2, [92], [110], .simple 110,
          by decide, rfl, moved_next hr⟩)
      · simp only [he, if_false] at h
        unfold EscapedStringParser.parseEscape at h
        cases hr2 : i.next.rest with
        | nil => exact absurd hr2 he
        | cons e t2 =>
          simp only [hr2] at h
          have hm2 : i.Moved [92, e] i.next.next := (moved_next hr).append_moved (moved_next hr2)
          by_cases hu : e.val = 117
          · have h34 : ¬ e.val = 34 := by omega
            have h92' : ¬ e.val = 92 := by omega
            have h47 : ¬ e.val = 47 := by omega
            have h98 : ¬ e.val = 98 := by omega
            have h102 : ¬ e.val = 102 := by omega
            have h110 : ¬ e.val = 110 := by omega
            have h114 : ¬ e.val = 114 := by omega
            have h116 : ¬ e.val = 116 := by omega
            simp only [if_neg h34, if_neg h92', if_neg h47, if_neg h98, if_neg h102, if_neg h110,
              if_neg h114, if_neg h116, if_pos hu, Option.some.injEq] at h
            have he117 : e = 117 := Fin.ext hu
            subst he117
            obtain ⟨ds, hm, hh, h1, h2⟩ := parseEscapeHex_gram 4 0 i.next.next
            rw [h] at hm h1 h2
            simp only at hm h1 h2
            have hmm : i.Moved (92 :: 117 :: ds) j := by
              have := hm2.append_moved hm
              simpa using this
            by_cases hg : GoodKind r.result
            · obtain ⟨hl, hne⟩ := h1 hg
              obtain ⟨ext, p, hp, e⟩ := unicode_begins ds hh (by omega)
              have hext : ext = [] := by
                have := congrArg List.length e
                cases p with
                | plain x =>
                  simp only [Piece.text, List.length_append, List.length_cons, List.length_nil,
                    hl] at this
                  omega
                | simple x =>
                  simp only [Piece.text, List.length_append, List.length_cons, List.length_nil,
                    hl] at this
                  omega
                | unicode a b c d =>
                  simp only [Piece.text, List.length_append, List.length_cons, List.length_nil,
                    hl] at this
                  exact List.length_eq_zero.mp (by omega)
              subst hext
              rw [List.append_nil] at e
              rw [e] at hmm
              exact Or.inr (Or.inl ⟨hg, hne, p, hp, hmm⟩)
            · obtain ⟨ext, p, hp, e⟩ := unicode_begins ds hh (by have := h2 hg; omega)
              exact Or.inr (Or.inr ⟨hg, _, ext, p, hp, e, hmm⟩)
          · by_cases hs : simpleEscapeValue e ≠ none
            · have hres : r.result = .Unescaped ∧ j = i.next.next := by
                rcases simpleEscape_cases e hs with h' | h' | h' | h' | h' | h' | h' | h' <;>
                  subst h' <;> simp at h <;> obtain ⟨rfl, rfl⟩ := h <;> exact ⟨rfl, rfl⟩
              obtain ⟨h1, rfl⟩ := hres
              refine Or.inr (Or.inl ⟨?_, ?_, .simple e, hs, hm2⟩)
              · rw [h1]; exact ⟨by decide, by decide⟩
              · rw [h1]; decide
            · have hnone : simpleEscapeValue e = none := by simpa using hs
              have hres : r.result = .InvalidCharacter ∧ j = i.next := by
                unfold simpleEscapeValue at hnone
                split_ifs at hnone h <;> simp at h <;> obtain ⟨rfl, rfl⟩ := h <;>
                  exact ⟨rfl, rfl⟩
              obtain ⟨h1, rfl⟩ := hres
              refine Or.inr (Or.inr ⟨?_, [92], [110], .simple 110, by decide, rfl, moved_next hr⟩)
              rw [h1]
              exact fun hg => absurd rfl hg.1
    · simp only [h92, if_false] at h
      by_cases h34 : b.val = 34
      · have hb : b = 34 := Fin.ext h34
        subst hb
        simp only [h34, if_true, Option.some.injEq, Prod.mk.injEq] at h
        obtain ⟨rfl, rfl⟩ := h
        exact Or.inl ⟨rfl, rfl, t, rfl⟩
      · simp only [h34, if_false, true_and] at h
        by_cases hc : isControlCharacter b = true
        · simp only [hc, if_true, Option.some.injEq, Prod.mk.injEq] at h
          obtain ⟨rfl, rfl⟩ := h
          exact Or.inr (Or.inr ⟨fun hg => absurd rfl hg.1, [], [97], .plain 97, by decide, rfl,
            Ptr.Moved.none_moved _⟩)
        · simp only [hc, Bool.false_eq_true, if_false, Option.some.injEq, Prod.mk.injEq] at h
          obtain ⟨rfl, rfl⟩ := h
          refine Or.inr (Or.inl ⟨⟨by decide, by decide⟩, by decide, .plain b, ?_, moved_next hr⟩)
          exact ⟨h92, fun _ => ⟨h34, by simpa using hc⟩⟩

theorem parseMore_cases (i : Ptr) (r : EscapedStringParser.Result) (j : Ptr)
    (h : EscapedStringParser.parseMore .Strict i = some (r, j)) :
    match r.result with
    | .Skip => ∃ p : Piece, p.WellFormed .Strict ∧ i.Moved p.text j
    | .Unescaped => ∃ p : Piece, p.WellFormed .Strict ∧ i.Moved p.text j
    | .HighSurrogate => ∃ p : Piece, p.WellFormed .Strict ∧ i.Moved p.text j
    | .LowSurrogate => ∃ p : Piece, p.WellFormed .Strict ∧ i.Moved p.text j
    | .JsonStringEnd => j = i ∧ ∃ t, i.rest = 34 :: t
    | .InvalidCharacter =>
      ∃ c ext, ∃ p : Piece, p.WellFormed .Strict ∧ c ++ ext = p.text ∧ i.Moved c j
    | .UnexpectedEndOfInput =>
      ∃ c ext, ∃ p : Piece, p.WellFormed .Strict ∧ c ++ ext = p.text ∧ i.Moved c j := by
  rcases parseMore_gram i r j h with ⟨h1, h2, h3⟩ | ⟨hg, hne, hp⟩ | ⟨hg, hp⟩
  · rw [h1]
    exact ⟨h2, h3⟩
  · cases hres : r.result <;> simp only
    · exact hp
    · exact hp
    · exact hp
    · exact hp
    · exact absurd hres hne
    · exact absurd hres hg.1
    · exact absurd hres hg.2
  · cases hres : r.result <;> simp only
    · exact absurd ⟨by rw [hres]; decide, by rw [hres]; decide⟩ hg
    · exact absurd ⟨by rw [hres]; decide, by rw [hres]; decide⟩ hg
    · exact absurd ⟨by rw [hres]; decide, by rw [hres]; decide⟩ hg
    · exact absurd ⟨by rw [hres]; decide, by rw [hres]; decide⟩ hg
    · exact absurd ⟨by rw [hres]; decide, by rw [hres]; decide⟩ hg
    · exact hp
    · exact hp

theorem StringTail.piece {p : Piece} {u : Bytes} (hp : p.WellFormed .Strict)
    (h : StringTail u) : StringTail (p.text ++ u) := by
  obtain ⟨ps, hps, rfl⟩ := h
  refine ⟨p :: ps, ?_, by simp [piecesText_cons]⟩
  intro q hq
  rcases List.mem_cons.mp hq with rfl | hq
  · exact hp
  · exact hps q hq

theorem stringTail_quote : StringTail [34] := ⟨[], by simp, rfl⟩

theorem StrPost.piece_first {i k j : Ptr} {r : Bool} {p : Piece} (hp : p.WellFormed .Strict)
    (hm : i.Moved p.text k) (h : StrPost k r j) : StrPost i r j := by
  obtain ⟨c, hc, h1, h2⟩ := h
  refine ⟨p.text ++ c, hm.append_moved hc, fun hr => (h1 hr).piece hp, fun hr => ?_⟩
  obtain ⟨ext, he⟩ := h2 hr
  exact ⟨ext, by rw [List.append_assoc]; exact he.piece hp⟩

theorem StrPost.pieces {i k j : Ptr} {r : Bool} {ps : List Piece}
    (hps : ∀ p ∈ ps, p.WellFormed .Strict)
    (hm : i.Moved (piecesText ps) k) (h : StrPost k r j) : StrPost i r j := by
  induction ps generalizing i with
  | nil =>
    have e : k = i := by
      obtain ⟨h1, h2⟩ := hm
      simp only [piecesText, List.flatMap_nil, List.nil_append, List.length_nil,
        Nat.add_zero] at h1 h2
      cases k; cases i
      simp_all
    rw [← e]
    exact h
  | cons p ps ih =>
    rw [piecesText_cons] at hm
    obtain ⟨h1, h2⟩ := hm
    have hm1 : i.Moved p.text ⟨i.pos + p.text.length, piecesText ps ++ k.rest⟩ :=
      ⟨by rw [h1, List.append_assoc], rfl⟩
    have hm2 : (⟨i.pos + p.text.length, piecesText ps ++ k.rest⟩ : Ptr).Moved (piecesText ps) k :=
      ⟨rfl, by simp only [h2, List.length_append]; omega⟩
    exact StrPost.piece_first (hps p (List.mem_cons_self _ _)) hm1
      (ih (fun q hq => hps q (List.mem_cons_of_mem _ hq)) hm2)

theorem StrPost.begins {i j : Ptr} {c ext : Bytes} {p : Piece} (hp : p.WellFormed .Strict)
    (e : c ++ ext = p.text) (hm : i.Moved c j) : StrPost i false j := by
  refine ⟨c, hm, by simp, fun _ => ⟨ext ++ [34], ?_⟩⟩
  rw [← List.append_assoc, e]
  exact stringTail_quote.piece hp

theorem StrPost.stay (i : Ptr) : StrPost i false i :=
  ⟨[], Ptr.Moved.none_moved _, by simp, fun _ => ⟨[34], stringTail_quote⟩⟩

theorem StrPost.quote {i : Ptr} {t : Bytes} (r : Bool) (h : i.rest = 34 :: t) :
    StrPost i r i.next :=
  ⟨[34], moved_next h, fun _ => stringTail_quote, fun _ => ⟨[], stringTail_quote⟩⟩

theorem parseStringSurrogates_gram (o : ParsingOptions) (fuel : Nat) (s : Bytes) (sur : Nat)
    (st : ParserImpl) (e : SurrogateLoopExit)
    (h : parseStringSurrogates o fuel s sur st = some e) : SurrogatesGram st.i e := by
  induction fuel generalizing s sur st e with
  | zero => simp [parseStringSurrogates] at h
  | succ fuel ih =>
    unfold parseStringSurrogates at h
    by_cases he : st.i.rest = []
    · simp only [he, if_true, Option.some.injEq] at h
      subst h
      exact StrPost.stay _
    · simp only [he, if_false] at h
      cases hm : EscapedStringParser.parseMore .Strict st.i with
      | none => simp [hm] at h
      | some x =>
        obtain ⟨r2, i2⟩ := x
        have hcase := parseMore_cases _ _ _ hm
        simp only [hm] at h
        cases hres : r2.result <;> simp only [hres] at h hcase
        · -- Skip
          obtain ⟨p, hp, hmv⟩ := hcase
          split_ifs at h with hc1
          · simp only [Option.some.injEq] at h; subst h
            refine ⟨[p], by simpa using hp, ?_⟩
            rw [checkHigh_cursor]
            simpa [piecesText] using hmv
          · simp only [Option.some.injEq] at h; subst h
            show StrPost _ _ _
            rw [checkHigh_cursor]
            exact StrPost.piece_first hp hmv (StrPost.stay _)
        · -- Unescaped
          obtain ⟨p, hp, hmv⟩ := hcase
          split_ifs at h with hc1
          · simp only [Option.some.injEq] at h; subst h
            refine ⟨[p], by simpa using hp, ?_⟩
            rw [checkHigh_cursor]
            simpa [piecesText] using hmv
          · simp only [Option.some.injEq] at h; subst h
            show StrPost _ _ _
            rw [checkHigh_cursor]
            exact StrPost.piece_first hp hmv (StrPost.stay _)
        · -- HighSurrogate
          obtain ⟨p, hp, hmv⟩ := hcase
          split_ifs at h with hc1
          · have := ih _ _ _ _ h
            rw [checkHigh_cursor] at this
            cases e with
            | returned b s' st' => exact StrPost.piece_first hp hmv this
            | broke s' pb st' =>
              obtain ⟨ps, hps, hm2⟩ := this
              refine ⟨p :: ps, ?_, ?_⟩
              · intro q hq
                rcases List.mem_cons.mp hq with rfl | hq
                · exact hp
                · exact hps q hq
              · rw [piecesText_cons]
                exact hmv.append_moved hm2
          · simp only [Option.some.injEq] at h; subst h
            show StrPost _ _ _
            rw [checkHigh_cursor]
            exact StrPost.piece_first hp hmv (StrPost.stay _)
        · -- LowSurrogate
          obtain ⟨p, hp, hmv⟩ := hcase
          simp only [Option.some.injEq] at h; subst h
          exact ⟨[p], by simpa using hp, by simpa [piecesText] using hmv⟩
        · -- JsonStringEnd
          obtain ⟨hj, t, ht⟩ := hcase
          subst hj
          simp only [Option.some.injEq] at h; subst h
          show StrPost _ _ _
          rw [checkHigh_cursor]
          exact StrPost.quote _ ht
        · -- InvalidCharacter
          obtain ⟨c, ext, p, hp, hce, hmv⟩ := hcase
          simp only [Option.some.injEq] at h; subst h
          exact StrPost.begins hp hce hmv
        · -- UnexpectedEndOfInput
          obtain ⟨c, ext, p, hp, hce, hmv⟩ := hcase
          simp only [Option.some.injEq] at h; subst h
          exact StrPost.begins hp hce hmv

theorem parseStringLoop_gram (o : ParsingOptions) (fuel : Nat) (s : Bytes) (pb : Ptr)
    (st : ParserImpl) (r : Bool) (s' : Bytes) (st' : ParserImpl)
    (h : parseStringLoop o fuel s pb st = some (r, s', st')) : StrPost st.i r st'.i := by
  induction fuel generalizing s pb st r s' st' with
  | zero => simp [parseStringLoop] at h
  | succ fuel ih =>
    unfold parseStringLoop at h
    by_cases he : st.detectEndOfInput.1 = true
    · simp only [he, if_true, Option.some.injEq, Prod.mk.injEq] at h
      obtain ⟨rfl, rfl, rfl⟩ := h
      have hi : st.detectEndOfInput.2.i = st.i := by
        unfold detectEndOfInput
        split_ifs <;> rfl
      rw [hi]
      exact StrPost.stay _
    · have he' : st.detectEndOfInput.1 = false := by simpa using he
      obtain ⟨heq, hne⟩ := detectEndOfInput_false st he'
      simp only [he', heq] at h
      simp only [Bool.false_eq_true, if_false] at h
      cases hm : EscapedStringParser.parseMore .Strict st.i with
      | none => simp [hm] at h
      | some x =>
        obtain ⟨r1, i1⟩ := x
        have hcase := parseMore_cases _ _ _ hm
        simp only [hm] at h
        cases hres : r1.result <;> simp only [hres] at h hcase
        · -- Skip
          obtain ⟨p, hp, hmv⟩ := hcase
          exact StrPost.piece_first hp hmv (ih _ _ _ _ _ _ h)
        · -- Unescaped
          obtain ⟨p, hp, hmv⟩ := hcase
          exact StrPost.piece_first hp hmv (ih _ _ _ _ _ _ h)
        · -- HighSurrogate
          obtain ⟨p, hp, hmv⟩ := hcase
          cases hsur : parseStringSurrogates o fuel (s ++ pb.range st.i) r1.surrogate
              { st with i := i1 } with
          | none => simp [hsur] at h
          | some e =>
            have hg := parseStringSurrogates_gram o _ _ _ _ _ hsur
            simp only [hsur] at h
            cases e with
            | returned b s2 st2 =>
              simp only [Option.some.injEq, Prod.mk.injEq] at h
              obtain ⟨rfl, rfl, rfl⟩ := h
              exact StrPost.piece_first hp hmv hg
            | broke s2 pb2 st2 =>
              simp only at h
              obtain ⟨ps, hps, hm2⟩ := hg
              exact StrPost.piece_first hp hmv (StrPost.pieces hps hm2 (ih _ _ _ _ _ _ h))
        · -- LowSurrogate
          obtain ⟨p, hp, hmv⟩ := hcase
          split_ifs at h with hc1
          · have := ih _ _ _ _ _ _ h
            rw [checkLow_cursor] at this
            exact StrPost.piece_first hp hmv this
          · simp only [Option.some.injEq, Prod.mk.injEq] at h
            obtain ⟨rfl, rfl, rfl⟩ := h
            rw [checkLow_cursor]
            exact StrPost.piece_first hp hmv (StrPost.stay _)
        · -- JsonStringEnd
          obtain ⟨hj, t, ht⟩ := hcase
          subst hj
          simp only [Option.some.injEq, Prod.mk.injEq] at h
          obtain ⟨rfl, rfl, rfl⟩ := h
          exact StrPost.quote _ ht
        · -- InvalidCharacter
          obtain ⟨c, ext, p, hp, hce, hmv⟩ := hcase
          simp only [Option.some.injEq, Prod.mk.injEq] at h
          obtain ⟨rfl, rfl, rfl⟩ := h
          exact StrPost.begins hp hce hmv
        · -- UnexpectedEndOfInput
          obtain ⟨c, ext, p, hp, hce, hmv⟩ := hcase
          simp only [Option.some.injEq, Prod.mk.injEq] at h
          obtain ⟨rfl, rfl, rfl⟩ := h
          exact StrPost.begins hp hce hmv

/-- What `parseString` has read, from the opening quotation mark on: a string on success, the
beginning of a string on failure. -/
theorem parseString_gram (o : ParsingOptions) (s : Bytes) (st : ParserImpl) (r : Bool)
    (s' : Bytes) (st' : ParserImpl) (t : Bytes) (hr : st.i.rest = 34 :: t)
    (h : parseString o s st = some (r, s', st')) :
    ∃ c, st.i.Moved c st'.i ∧ (r = true → StringText c) ∧
      (r = false → ∃ ext, StringText (c ++ ext)) := by
  unfold parseString at h
  obtain ⟨c, hc, h1, h2⟩ := parseStringLoop_gram o _ _ _ _ _ _ _ h
  refine ⟨34 :: c, (moved_advance hr).append_moved hc, fun hr => ?_, fun hr => ?_⟩
  · obtain ⟨ps, hps, e⟩ := h1 hr
    exact ⟨ps, hps, by rw [e]; rfl⟩
  · obtain ⟨ext, ps, hps, e⟩ := h2 hr
    exact ⟨ext, ps, hps, by rw [List.cons_append, e]; rfl⟩

/-! ## Numbers -/

theorem digits_zero : Digits [48] := ⟨by simp, by intro c hc; simp at hc; subst hc; rfl⟩

theorem integerPart_zero : IntegerPart [48] := ⟨digits_zero, fun _ => rfl⟩

theorem numberText_of_body {u : Bytes} (neg : Bool) (h : NumberBody u) :
    NumberText (intLiteral neg [] ++ u) := by
  obtain ⟨ip, fp, ep, rfl, h1, h2, h3⟩ := h
  refine ⟨neg, ip, fp, ep, ?_, h1, h2, h3⟩
  cases neg <;> simp [intLiteral]

theorem cursor_addIssueAt (st : ParserImpl) (p : Nat) (d : String) (c : ParsingIssue.Code) :
    (st.addIssueAt p d c).i = st.i := rfl

theorem detectDigits_gram (st : ParserImpl) (r : Bool) (st' : ParserImpl)
    (h : detectDigits st = some (r, st')) :
    (r = true → ∃ ds, Digits ds ∧ st.i.Moved ds st'.i) ∧ (r = false → st'.i = st.i) := by
  unfold detectDigits at h
  cases hr : st.i.rest with
  | nil => simp [hr] at h
  | cons b t =>
    simp only [hr] at h
    by_cases hd : isDecimalDigit b = true
    · simp only [hd, Bool.not_true, Bool.false_eq_true, if_false, Option.some.injEq,
        Prod.mk.injEq] at h
      obtain ⟨rfl, rfl⟩ := h
      obtain ⟨ds, hm, hds⟩ := moved_skipDigits st.advance
      refine ⟨fun _ => ⟨b :: ds, ⟨by simp, ?_⟩, (moved_advance hr).append_moved hm⟩, by simp⟩
      intro c hc
      rcases List.mem_cons.mp hc with rfl | hc
      · exact hd
      · exact hds c hc
    · simp only [hd, Bool.not_false, if_true, Option.some.injEq, Prod.mk.injEq] at h
      obtain ⟨rfl, rfl⟩ := h
      exact ⟨by simp, fun _ => rfl⟩

theorem parseNumberInteger_gram (st : ParserImpl) (r : Bool) (st' : ParserImpl)
    (h : parseNumberInteger st = some (r, st')) :
    (r = true → ∃ ip, IntegerPart ip ∧ st.i.Moved ip st'.i) ∧ (r = false → st'.i = st.i) := by
  unfold parseNumberInteger at h
  cases hr : st.i.rest with
  | nil => simp [hr] at h
  | cons b t =>
    simp only [hr] at h
    by_cases h0 : b.val = 48
    · have hb : b = 48 := Fin.ext h0
      subst hb
      simp only [h0, if_true, Option.some.injEq, Prod.mk.injEq] at h
      obtain ⟨rfl, rfl⟩ := h
      exact ⟨fun _ => ⟨[48], integerPart_zero, moved_advance hr⟩, by simp⟩
    · simp only [h0, if_false] at h
      by_cases h1 : 49 ≤ b.val ∧ b.val ≤ 57
      · simp only [h1, and_self, if_true, Option.some.injEq, Prod.mk.injEq] at h
        obtain ⟨rfl, rfl⟩ := h
        obtain ⟨ds, hm, hds⟩ := moved_skipDigits st.advance
        refine ⟨fun _ => ⟨b :: ds, ⟨⟨by simp, ?_⟩, ?_⟩, (moved_advance hr).append_moved hm⟩, by simp⟩
        · intro c hc
          rcases List.mem_cons.mp hc with rfl | hc
          · rw [isDecimalDigit_iff]; omega
          · exact hds c hc
        · intro hh
          simp only [List.head?_cons, Option.some.injEq] at hh
          subst hh
          exact absurd rfl h0
      · simp only [h1, if_false, Option.some.injEq, Prod.mk.injEq] at h
        obtain ⟨rfl, rfl⟩ := h
        exact ⟨by simp, fun _ => rfl⟩

theorem advanceAndDetectEndOfInput_i (st : ParserImpl) :
    st.advanceAndDetectEndOfInput.2.i = st.advance.i := by
  unfold advanceAndDetectEndOfInput detectEndOfInput
  split_ifs <;> rfl

theorem parseNumberFraction_gram (st : ParserImpl) (go d : Bool) (st' : ParserImpl)
    (h : parseNumberFraction st = some (go, d, st')) :
    (go = true → ∃ fp, FractionPart fp ∧ st.i.Moved fp st'.i) ∧
    (go = false → ∃ c ext, FractionPart (c ++ ext) ∧ st.i.Moved c st'.i) := by
  unfold parseNumberFraction at h
  cases hr : st.i.rest with
  | nil =>
    simp only [hr, Option.some.injEq, Prod.mk.injEq] at h
    obtain ⟨rfl, rfl, rfl⟩ := h
    exact ⟨fun _ => ⟨[], Or.inl rfl, Ptr.Moved.none_moved _⟩, by simp⟩
  | cons b t =>
    simp only [hr] at h
    by_cases h46 : b.val = 46
    · have hb : b = 46 := Fin.ext h46
      subst hb
      simp only [h46, if_true] at h
      have hdot : FractionPart ([46] ++ [48]) := Or.inr ⟨[48], rfl, digits_zero⟩
      by_cases he : st.advanceAndDetectEndOfInput.1 = true
      · simp only [he, if_true, Option.some.injEq, Prod.mk.injEq] at h
        obtain ⟨rfl, rfl, rfl⟩ := h
        refine ⟨by simp, fun _ => ⟨[46], [48], hdot, ?_⟩⟩
        rw [advanceAndDetectEndOfInput_i]
        exact moved_advance hr
      · simp only [Bool.not_eq_true] at he
        obtain ⟨hne, heq⟩ := advanceAndDetectEndOfInput_inv st he
        simp only [heq, Bool.false_eq_true, if_false] at h
        cases hd : detectDigits st.advance with
        | none => simp [hd] at h
        | some x =>
          obtain ⟨rd, sd⟩ := x
          have hg := detectDigits_gram _ _ _ hd
          simp only [hd] at h
          cases rd
          · simp only [Option.some.injEq, Prod.mk.injEq] at h
            obtain ⟨rfl, rfl, rfl⟩ := h
            refine ⟨by simp, fun _ => ⟨[46], [48], hdot, ?_⟩⟩
            rw [hg.2 rfl]
            exact moved_advance hr
          · simp only [Option.some.injEq, Prod.mk.injEq] at h
            obtain ⟨rfl, rfl, rfl⟩ := h
            obtain ⟨ds, hds, hm⟩ := hg.1 rfl
            exact ⟨fun _ => ⟨46 :: ds, Or.inr ⟨ds, rfl, hds⟩, (moved_advance hr).append_moved hm⟩,
              by simp⟩
    · simp only [h46, if_false, Option.some.injEq, Prod.mk.injEq] at h
      obtain ⟨rfl, rfl, rfl⟩ := h
      exact ⟨fun _ => ⟨[], Or.inl rfl, Ptr.Moved.none_moved _⟩, by simp⟩

theorem parseNumberExponent_gram (st : ParserImpl) (go d : Bool) (st' : ParserImpl)
    (h : parseNumberExponent st = some (go, d, st')) :
    (go = true → ∃ ep, ExponentPart ep ∧ st.i.Moved ep st'.i) ∧
    (go = false → ∃ c ext, ExponentPart (c ++ ext) ∧ st.i.Moved c st'.i) := by
  unfold parseNumberExponent at h
  cases hr : st.i.rest with
  | nil =>
    simp only [hr, Option.some.injEq, Prod.mk.injEq] at h
    obtain ⟨rfl, rfl, rfl⟩ := h
    exact ⟨fun _ => ⟨[], Or.inl rfl, Ptr.Moved.none_moved _⟩, by simp⟩
  | cons b t =>
    simp only [hr] at h
    by_cases hE : b.val ||| 0x20 = 101
    · have hb := (or_0x20_eq b).mp hE
      simp only [hE, if_true] at h
      have hexp : ExponentPart ([b] ++ [48]) := Or.inr ⟨b, [], [48], rfl, hb, Or.inl rfl,
        digits_zero⟩
      by_cases he : st.advanceAndDetectEndOfInput.1 = true
      · simp only [he, if_true, Option.some.injEq, Prod.mk.injEq] at h
        obtain ⟨rfl, rfl, rfl⟩ := h
        refine ⟨by simp, fun _ => ⟨[b], [48], hexp, ?_⟩⟩
        rw [advanceAndDetectEndOfInput_i]
        exact moved_advance hr
      · simp only [Bool.not_eq_true] at he
        obtain ⟨hne, heq⟩ := advanceAndDetectEndOfInput_inv st he
        simp only [heq, Bool.false_eq_true, if_false] at h
        cases hr2 : st.advance.i.rest with
        | nil => exact absurd hr2 hne
        | cons c t' =>
          simp only [hr2] at h
          by_cases hsign : c.val = 43 ∨ c.val = 45
          · have hsg : [c] = [43] ∨ [c] = [45] := by
              rcases hsign with h' | h'
              · exact Or.inl (by rw [show c = 43 from Fin.ext h'])
              · exact Or.inr (by rw [show c = 45 from Fin.ext h'])
            have hexp2 : ExponentPart ([b, c] ++ [48]) :=
              Or.inr ⟨b, [c], [48], rfl, hb, Or.inr hsg, digits_zero⟩
            have hm2 : st.i.Moved [b, c] st.advance.advance.i :=
              (moved_advance hr).append_moved (moved_advance hr2)
            simp only [hsign, if_true] at h
            by_cases he2 : st.advance.advanceAndDetectEndOfInput.1 = true
            · simp only [he2, if_true, Option.some.injEq, Prod.mk.injEq] at h
              obtain ⟨rfl, rfl, rfl⟩ := h
              refine ⟨by simp, fun _ => ⟨[b, c], [48], hexp2, ?_⟩⟩
              rw [advanceAndDetectEndOfInput_i]
              exact hm2
            · simp only [Bool.not_eq_true] at he2
              obtain ⟨hne2, heq2⟩ := advanceAndDetectEndOfInput_inv st.advance he2
              simp only [heq2, Bool.false_eq_true, if_false] at h
              cases hd : detectDigits st.advance.advance with
              | none => simp [hd] at h
              | some x =>
                obtain ⟨rd, sd⟩ := x
                have hg := detectDigits_gram _ _ _ hd
                simp only [hd] at h
                cases rd
                · simp only [Option.some.injEq, Prod.mk.injEq] at h
                  obtain ⟨rfl, rfl, rfl⟩ := h
                  refine ⟨by simp, fun _ => ⟨[b, c], [48], hexp2, ?_⟩⟩
                  rw [hg.2 rfl]
                  exact hm2
                · simp only [Option.some.injEq, Prod.mk.injEq] at h
                  obtain ⟨rfl, rfl, rfl⟩ := h
                  obtain ⟨ds, hds, hm⟩ := hg.1 rfl
                  refine ⟨fun _ => ⟨b :: ([c] ++ ds), Or.inr ⟨b, [c], ds, rfl, hb, Or.inr hsg,
                    hds⟩, ?_⟩, by simp⟩
                  have := hm2.append_moved hm
                  simpa using this
          · simp only [hsign, if_false, Bool.false_eq_true] at h
            cases hd : detectDigits st.advance with
            | none => simp [hd] at h
            | some x =>
              obtain ⟨rd, sd⟩ := x
              have hg := detectDigits_gram _ _ _ hd
              simp only [hd] at h
              cases rd
              · simp only [Option.some.injEq, Prod.mk.injEq] at h
                obtain ⟨rfl, rfl, rfl⟩ := h
                refine ⟨by simp, fun _ => ⟨[b], [48], hexp, ?_⟩⟩
                rw [hg.2 rfl]
                exact moved_advance hr
              · simp only [Option.some.injEq, Prod.mk.injEq] at h
                obtain ⟨rfl, rfl, rfl⟩ := h
                obtain ⟨ds, hds, hm⟩ := hg.1 rfl
                refine ⟨fun _ => ⟨b :: ([] ++ ds), Or.inr ⟨b, [], ds, rfl, hb, Or.inl rfl,
                  hds⟩, ?_⟩, by simp⟩
                have := (moved_advance hr).append_moved hm
                simpa using this
    · simp only [hE, if_false, Option.some.injEq, Prod.mk.injEq] at h
      obtain ⟨rfl, rfl, rfl⟩ := h
      exact ⟨fun _ => ⟨[], Or.inl rfl, Ptr.Moved.none_moved _⟩, by simp⟩

theorem parseNumberConvert_i (begin : Ptr) (n : Nat) (d : Bool) (v : Value) (st : ParserImpl) :
    (parseNumberConvert begin n d v st).2.2.i = st.i := by
  unfold parseNumberConvert
  simp only
  split_ifs
  · cases from_chars_int64 (begin.range st.i) <;> rfl
  · cases from_chars_double (begin.range st.i) <;> rfl

theorem parseNumberBody_gram (begin : Ptr) (neg : Nat) (v : Value) (st : ParserImpl)
    (r : Bool) (v' : Value) (st' : ParserImpl)
    (h : parseNumberBody begin neg v st = some (r, v', st')) :
    ∃ c, st.i.Moved c st'.i ∧ (r = true → NumberBody c) ∧
      (r = false → ∃ ext, NumberBody (c ++ ext)) := by
  unfold parseNumberBody at h
  cases hi : parseNumberInteger st with
  | none => simp [hi] at h
  | some x =>
    obtain ⟨ri, si⟩ := x
    have hgi := parseNumberInteger_gram _ _ _ hi
    simp only [hi] at h
    cases ri
    · simp only [Option.some.injEq, Prod.mk.injEq] at h
      obtain ⟨rfl, rfl, rfl⟩ := h
      refine ⟨[], ?_, by simp, fun _ => ⟨[48], [48], [], [], rfl, integerPart_zero, Or.inl rfl,
        Or.inl rfl⟩⟩
      rw [hgi.2 rfl]
      exact Ptr.Moved.none_moved _
    · simp only at h
      obtain ⟨ip, hip, hmi⟩ := hgi.1 rfl
      cases hfr : parseNumberFraction si with
      | none => simp [hfr] at h
      | some x =>
        obtain ⟨gf, df, sf⟩ := x
        have hgf := parseNumberFraction_gram _ _ _ _ hfr
        simp only [hfr] at h
        cases gf
        · simp only [Option.some.injEq, Prod.mk.injEq] at h
          obtain ⟨rfl, rfl, rfl⟩ := h
          obtain ⟨c, ext, hfp, hm⟩ := hgf.2 rfl
          exact ⟨ip ++ c, hmi.append_moved hm, by simp, fun _ => ⟨ext, ip, c ++ ext, [],
            by simp, hip, hfp, Or.inl rfl⟩⟩
        · simp only at h
          obtain ⟨fp, hfp, hmf⟩ := hgf.1 rfl
          cases hex : parseNumberExponent sf with
          | none => simp [hex] at h
          | some x =>
            obtain ⟨ge, de, se⟩ := x
            have hge := parseNumberExponent_gram _ _ _ _ hex
            simp only [hex] at h
            cases ge
            · simp only [Option.some.injEq, Prod.mk.injEq] at h
              obtain ⟨rfl, rfl, rfl⟩ := h
              obtain ⟨c, ext, hep, hm⟩ := hge.2 rfl
              exact ⟨ip ++ (fp ++ c), hmi.append_moved (hmf.append_moved hm), by simp,
                fun _ => ⟨ext, ip, fp, c ++ ext, by simp, hip, hfp, hep⟩⟩
            · simp only [Option.some.injEq] at h
              obtain ⟨ep, hep, hme⟩ := hge.1 rfl
              have hci := parseNumberConvert_i begin neg (df || de) v se
              rw [h] at hci
              simp only at hci
              have hbody : NumberBody (ip ++ (fp ++ ep)) := ⟨ip, fp, ep, rfl, hip, hfp, hep⟩
              refine ⟨ip ++ (fp ++ ep), ?_, fun _ => hbody, fun _ => ⟨[], by simpa using hbody⟩⟩
              rw [hci]
              exact hmi.append_moved (hmf.append_moved hme)

/-- What `parseNumber` has read: a number on success, the beginning of a number on
failure. -/
theorem parseNumber_gram (v : Value) (st : ParserImpl) (r : Bool) (v' : Value)
    (st' : ParserImpl) (h : parseNumber v st = some (r, v', st')) :
    ∃ c, st.i.Moved c st'.i ∧ (r = true → NumberText c) ∧
      (r = false → ∃ ext, NumberText (c ++ ext)) := by
  unfold parseNumber at h
  cases hr : st.i.rest with
  | nil => simp [hr] at h
  | cons b t =>
    simp only [hr] at h
    by_cases hm : b.val = 45
    · have hb : b = 45 := Fin.ext hm
      subst hb
      simp only [hm, if_true, ne_eq, one_ne_zero, not_false_eq_true] at h
      by_cases h1 : st.advanceAndDetectEndOfInput.1 = true
      · simp only [h1, if_true, Option.some.injEq, Prod.mk.injEq] at h
        obtain ⟨rfl, rfl, rfl⟩ := h
        refine ⟨[45], ?_, by simp, fun _ => ⟨[48], ?_⟩⟩
        · rw [advanceAndDetectEndOfInput_i]
          exact moved_advance hr
        · exact ⟨true, [48], [], [], rfl, integerPart_zero, Or.inl rfl, Or.inl rfl⟩
      · simp only [Bool.not_eq_true] at h1
        obtain ⟨hne, heq⟩ := advanceAndDetectEndOfInput_inv st h1
        simp only [heq, Bool.false_eq_true, if_false] at h
        obtain ⟨c, hc, h2, h3⟩ := parseNumberBody_gram _ _ _ _ _ _ _ h
        refine ⟨45 :: c, (moved_advance hr).append_moved hc, fun hr => ?_, fun hr => ?_⟩
        · exact numberText_of_body true (h2 hr)
        · obtain ⟨ext, he⟩ := h3 hr
          exact ⟨ext, numberText_of_body true he⟩
    · simp only [hm, if_false, ne_eq, not_true_eq_false, Bool.false_eq_true] at h
      obtain ⟨c, hc, h2, h3⟩ := parseNumberBody_gram _ _ _ _ _ _ _ h
      refine ⟨c, hc, fun hr => ?_, fun hr => ?_⟩
      · exact numberText_of_body false (h2 hr)
      · obtain ⟨ext, he⟩ := h3 hr
        exact ⟨ext, numberText_of_body false he⟩

/-! ## The parser reads JSON -/

theorem GramPost.ok_of {k : Sym} {i j : Ptr} {c : Bytes} (hm : i.Moved c j) (h : Json k c) :
    GramPost k i true j := ⟨c, hm, fun _ => h, by simp⟩

theorem GramPost.fail_of {k : Sym} {i j : Ptr} {c : Bytes} (hm : i.Moved c j) (ext : Bytes)
    (h : Json k (c ++ ext)) : GramPost k i false j := ⟨c, hm, by simp, fun _ => ⟨ext, h⟩⟩

/-- A function that reads `c0` and then ends with a call for the symbol `k`. -/
theorem GramPost.following {k k2 : Sym} {i a j : Ptr} {r : Bool} {c0 : Bytes} (hm : i.Moved c0 a)
    (f : ∀ c, Json k c → Json k2 (c0 ++ c)) (h : GramPost k a r j) : GramPost k2 i r j := by
  obtain ⟨c, hc, h1, h2⟩ := h
  refine ⟨c0 ++ c, hm.append_moved hc, fun hr => f c (h1 hr), fun hr => ?_⟩
  obtain ⟨ext, he⟩ := h2 hr
  exact ⟨ext, by rw [List.append_assoc]; exact f _ he⟩

theorem numberText_zero : NumberText [48] :=
  ⟨false, [48], [], [], rfl, integerPart_zero, Or.inl rfl, Or.inl rfl⟩

theorem json_zero : Json .value [48] := Json.number numberText_zero

theorem stringText_empty : StringText [34, 34] := ⟨[], by simp, rfl⟩

theorem not_mem_nil_ws : ∀ b ∈ ([] : Bytes), isWhitespace b := by simp

theorem literal_null : NullLiteral = [110, 117, 108, 108] := by decide

theorem literal_false : FalseLiteral = [102, 97, 108, 115, 101] := by decide

theorem literal_true : TrueLiteral = [116, 114, 117, 101] := by decide

theorem parseLiteral_gramPost (lit : Value) (c p : Byte) (ps : Bytes) (v : Value)
    (st : ParserImpl) (t : Bytes) (hr : st.i.rest = c :: t) (hj : Json .value (c :: p :: ps)) :
    GramPost .value st.i (parseLiteral lit (c :: p :: ps) v st).1
      (parseLiteral lit (c :: p :: ps) v st).2.2.i := by
  obtain ⟨m, hm, h1, h2⟩ := parseLiteral_gram lit c p ps v st t hr
  refine ⟨m, hm, fun h => by rw [h1 h]; exact hj, fun h => ?_⟩
  obtain ⟨ext, e⟩ := h2 h
  exact ⟨ext, by rw [e]; exact hj⟩

theorem byte_eq_of_val {b : Byte} {n : Nat} (hn : n < 256) (h : b.val = n) :
    b = Fin.ofNat n := by
  apply Fin.ext
  rw [h]
  exact (byte_ofNat_val n hn).symm

theorem parser_gram (o : ParsingOptions) (fuel : Nat) : GramAll o fuel := by
  induction fuel with
  | zero =>
    refine ⟨?_, ?_, ?_, ?_, ?_, ?_⟩ <;> intros <;> simp_all [parseImpl, parseArray,
      parseArrayMembersRecursion, parseArrayMembersLoop, parseObject, parseObjectMembers]
  | succ fuel ih =>
    obtain ⟨ihImpl, ihArr, ihRec, ihLoop, ihObj, ihMem⟩ := ih
    refine ⟨?_, ?_, ?_, ?_, ?_, ?_⟩
    · -- parseImpl
      intro v st r v' st' h
      unfold parseImpl at h
      rcases st.i.rest_cases with hr | ⟨b, rest, hr⟩
      · simp [hr] at h
      · simp only [hr] at h
        split_ifs at h with h1 h2 h3 h4 h5 h6
        · simp only [Option.some.injEq] at h
          have hb : b = 110 := Fin.ext h1
          subst hb
          have := parseLiteral_gramPost .null 110 117 [108, 108] v st rest hr
            (by rw [← literal_null]; exact Json.nullText)
          rw [literal_null] at h; rw [h] at this; exact this
        · simp only [Option.some.injEq] at h
          have hb : b = 102 := Fin.ext h2
          subst hb
          have := parseLiteral_gramPost (.boolean false) 102 97 [108, 115, 101] v st rest hr
            (by rw [← literal_false]; exact Json.falseText)
          rw [literal_false] at h; rw [h] at this; exact this
        · simp only [Option.some.injEq] at h
          have hb : b = 116 := Fin.ext h3
          subst hb
          have := parseLiteral_gramPost (.boolean true) 116 114 [117, 101] v st rest hr
            (by rw [← literal_true]; exact Json.trueText)
          rw [literal_true] at h; rw [h] at this; exact this
        · cases hs : parseString o [] st with
          | none => simp [hs] at h
          | some x =>
            obtain ⟨rs, ss, sts⟩ := x
            simp only [hs, Option.some.injEq, Prod.mk.injEq] at h
            obtain ⟨rfl, rfl, rfl⟩ := h
            have hb : b = 34 := Fin.ext h4
            subst hb
            obtain ⟨c, hc, j1, j2⟩ := parseString_gram o _ _ _ _ _ rest hr hs
            refine ⟨c, hc, fun hr => Json.string (j1 hr), fun hr => ?_⟩
            obtain ⟨ext, he⟩ := j2 hr
            exact ⟨ext, Json.string he⟩
        · have hb : b = 91 := Fin.ext h5
          subst hb
          exact ihArr _ _ _ _ _ ⟨rest, hr⟩ h
        · have hb : b = 123 := Fin.ext h6
          subst hb
          exact ihObj _ _ _ _ _ ⟨rest, hr⟩ h
        · obtain ⟨c, hc, j1, j2⟩ := parseNumber_gram _ _ _ _ _ h
          refine ⟨c, hc, fun hr => Json.number (j1 hr), fun hr => ?_⟩
          obtain ⟨ext, he⟩ := j2 hr
          exact ⟨ext, Json.number he⟩
    · -- parseArray
      intro v st r v' st' hne h
      obtain ⟨t0, hr0⟩ := hne
      unfold parseArray at h
      have hadv := moved_advance hr0
      obtain ⟨w, hw, hws⟩ := moved_endWs st.advance
      have hm0 : st.i.Moved (91 :: w) st.advance.detectEndOfInputAfterSkippingWhitespaces.2.i :=
        hadv.append_moved hw
      by_cases he : st.advance.detectEndOfInputAfterSkippingWhitespaces.1 = true
      · simp only [he, if_true, Option.some.injEq, Prod.mk.injEq] at h
        obtain ⟨rfl, rfl, rfl⟩ := h
        exact GramPost.fail_of hm0 [93] (Json.emptyArray w hws)
      · have he' : st.advance.detectEndOfInputAfterSkippingWhitespaces.1 = false := by
          simpa using he
        simp only [he', Bool.false_eq_true, if_false] at h
        rcases st.advance.detectEndOfInputAfterSkippingWhitespaces.2.i.rest_cases with
          hr | ⟨b, rest, hr⟩
        · simp [hr] at h
        · simp only [hr] at h
          split_ifs at h with h1
          · simp only [Option.some.injEq, Prod.mk.injEq] at h
            obtain ⟨rfl, rfl, rfl⟩ := h
            have hb : b = 93 := Fin.ext h1
            subst hb
            have := hm0.append_moved (moved_advance hr)
            exact GramPost.ok_of this (by simpa using Json.emptyArray w hws)
          · cases hm : parseArrayMembersRecursion o fuel [] .null 1
                st.advance.detectEndOfInputAfterSkippingWhitespaces.2 with
            | none => simp [hm] at h
            | some x =>
              obtain ⟨rm, am, um, sm⟩ := x
              have hp := ihRec _ _ _ _ _ _ _ _ hm
              simp only [hm] at h
              cases rm <;> simp only [Option.some.injEq, Prod.mk.injEq] at h <;>
                obtain ⟨rfl, rfl, rfl⟩ := h <;>
                exact GramPost.following hm0 (fun c hc => Json.array w hws hc) hp
    · -- parseArrayMembersRecursion
      intro a v size st r a' v' st' h
      unfold parseArrayMembersRecursion at h
      cases hi : parseImpl o fuel v st with
      | none => simp [hi] at h
      | some x =>
        obtain ⟨ri, vi, si⟩ := x
        have hp := ihImpl _ _ _ _ _ hi
        simp only [hi] at h
        cases ri
        · simp only [Option.some.injEq, Prod.mk.injEq] at h
          obtain ⟨rfl, rfl, rfl, rfl⟩ := h
          obtain ⟨c, hc, -, j2⟩ := hp
          obtain ⟨ext, he⟩ := j2 rfl
          exact GramPost.fail_of hc (ext ++ [93])
            (by simpa using Json.lastElement [] he not_mem_nil_ws)
        · simp only at h
          obtain ⟨c1, hc1, j1, -⟩ := hp
          have hv1 := j1 rfl
          obtain ⟨w, hw, hws⟩ := moved_endWs si
          have hm1 := hc1.append_moved hw
          by_cases he : si.detectEndOfInputAfterSkippingWhitespaces.1 = true
          · simp only [he, if_true, Option.some.injEq, Prod.mk.injEq] at h
            obtain ⟨rfl, rfl, rfl, rfl⟩ := h
            exact GramPost.fail_of hm1 [93] (by simpa using Json.lastElement w hv1 hws)
          · have he' : si.detectEndOfInputAfterSkippingWhitespaces.1 = false := by
              simpa using he
            simp only [he', Bool.false_eq_true, if_false] at h
            rcases si.detectEndOfInputAfterSkippingWhitespaces.2.i.rest_cases with
              hr | ⟨b, rest, hr⟩
            · simp [hr] at h
            · simp only [hr] at h
              have hadv := moved_advance hr
              obtain ⟨w2, hw2, hws2⟩ := moved_endWs
                si.detectEndOfInputAfterSkippingWhitespaces.2.advance
              have hm2 := hm1.append_moved (hadv.append_moved hw2)
              have hnext : ∀ c, Json .elements c → b = 44 →
                  Json .elements (c1 ++ w ++ ([b] ++ w2) ++ c) := by
                intro c hc hb
                subst hb
                simpa using Json.nextElement w w2 hv1 hws hws2 hc
              split_ifs at h with h1 h2 h3 h4
              · simp only [Option.some.injEq, Prod.mk.injEq] at h
                obtain ⟨rfl, rfl, rfl, rfl⟩ := h
                have hb : b = 93 := Fin.ext h1
                subst hb
                exact GramPost.ok_of (hm1.append_moved hadv) (by simpa using Json.lastElement w hv1 hws)
              · simp only [Option.some.injEq, Prod.mk.injEq] at h
                obtain ⟨rfl, rfl, rfl, rfl⟩ := h
                exact GramPost.fail_of hm2 ([48] ++ [93])
                  (hnext _ (by simpa using Json.lastElement [] json_zero not_mem_nil_ws)
                    (Fin.ext h2))
              · cases hm : parseArrayMembersLoop o fuel (resize a (size + 1))
                    si.detectEndOfInputAfterSkippingWhitespaces.2.advance.detectEndOfInputAfterSkippingWhitespaces.2 with
                | none => simp [hm] at h
                | some x =>
                  obtain ⟨rm, am, sm⟩ := x
                  have hq := ihLoop _ _ _ _ _ hm
                  simp only [hm, Option.some.injEq, Prod.mk.injEq] at h
                  obtain ⟨rfl, rfl, rfl, rfl⟩ := h
                  exact GramPost.following hm2 (fun c hc => hnext c hc (Fin.ext h2)) hq
              · cases hm : parseArrayMembersRecursion o fuel a .null (size + 1)
                    si.detectEndOfInputAfterSkippingWhitespaces.2.advance.detectEndOfInputAfterSkippingWhitespaces.2 with
                | none => simp [hm] at h
                | some x =>
                  obtain ⟨rm, am, um, sm⟩ := x
                  have hq := ihRec _ _ _ _ _ _ _ _ hm
                  simp only [hm] at h
                  cases rm <;> simp only [Option.some.injEq, Prod.mk.injEq] at h <;>
                    obtain ⟨rfl, rfl, rfl, rfl⟩ := h <;>
                    exact GramPost.following hm2 (fun c hc => hnext c hc (Fin.ext h2)) hq
              · simp only [Option.some.injEq, Prod.mk.injEq] at h
                obtain ⟨rfl, rfl, rfl, rfl⟩ := h
                exact GramPost.fail_of hm1 [93] (by simpa using Json.lastElement w hv1 hws)
    · -- parseArrayMembersLoop
      intro a st r a' st' h
      unfold parseArrayMembersLoop at h
      cases hi : parseImpl o fuel (a.getLastD .null) st with
      | none => rw [hi] at h; exact absurd h (by simp)
      | some x =>
        obtain ⟨ri, vi, si⟩ := x
        have hp := ihImpl _ _ _ _ _ hi
        simp only [hi] at h
        cases ri
        · simp only [Option.some.injEq, Prod.mk.injEq] at h
          obtain ⟨rfl, rfl, rfl⟩ := h
          obtain ⟨c, hc, -, j2⟩ := hp
          obtain ⟨ext, he⟩ := j2 rfl
          exact GramPost.fail_of hc (ext ++ [93])
            (by simpa using Json.lastElement [] he not_mem_nil_ws)
        · simp only at h
          obtain ⟨c1, hc1, j1, -⟩ := hp
          have hv1 := j1 rfl
          obtain ⟨w, hw, hws⟩ := moved_endWs si
          have hm1 := hc1.append_moved hw
          by_cases he : si.detectEndOfInputAfterSkippingWhitespaces.1 = true
          · simp only [he, if_true, Option.some.injEq, Prod.mk.injEq] at h
            obtain ⟨rfl, rfl, rfl⟩ := h
            exact GramPost.fail_of hm1 [93] (by simpa using Json.lastElement w hv1 hws)
          · have he' : si.detectEndOfInputAfterSkippingWhitespaces.1 = false := by
              simpa using he
            simp only [he', Bool.false_eq_true, if_false] at h
            rcases si.detectEndOfInputAfterSkippingWhitespaces.2.i.rest_cases with
              hr | ⟨b, rest, hr⟩
            · simp [hr] at h
            · simp only [hr] at h
              have hadv := moved_advance hr
              obtain ⟨w2, hw2, hws2⟩ := moved_endWs
                si.detectEndOfInputAfterSkippingWhitespaces.2.advance
              have hm2 := hm1.append_moved (hadv.append_moved hw2)
              have hnext : ∀ c, Json .elements c → b = 44 →
                  Json .elements (c1 ++ w ++ ([b] ++ w2) ++ c) := by
                intro c hc hb
                subst hb
                simpa using Json.nextElement w w2 hv1 hws hws2 hc
              split_ifs at h with h1 h2 h3
              · simp only [Option.some.injEq, Prod.mk.injEq] at h
                obtain ⟨rfl, rfl, rfl⟩ := h
                have hb : b = 93 := Fin.ext h1
                subst hb
                exact GramPost.ok_of (hm1.append_moved hadv) (by simpa using Json.lastElement w hv1 hws)
              · simp only [Option.some.injEq, Prod.mk.injEq] at h
                obtain ⟨rfl, rfl, rfl⟩ := h
                exact GramPost.fail_of hm2 ([48] ++ [93])
                  (hnext _ (by simpa using Json.lastElement [] json_zero not_mem_nil_ws)
                    (Fin.ext h2))
              · exact GramPost.following hm2 (fun c hc => hnext c hc (Fin.ext h2))
                  (ihLoop _ _ _ _ _ h)
              · simp only [Option.some.injEq, Prod.mk.injEq] at h
                obtain ⟨rfl, rfl, rfl⟩ := h
                exact GramPost.fail_of hm1 [93] (by simpa using Json.lastElement w hv1 hws)
    · -- parseObject
      intro v st r v' st' hne h
      obtain ⟨t0, hr0⟩ := hne
      unfold parseObject at h
      have hadv := moved_advance hr0
      obtain ⟨w, hw, hws⟩ := moved_endWs st.advance
      have hm0 : st.i.Moved (123 :: w) st.advance.detectEndOfInputAfterSkippingWhitespaces.2.i :=
        hadv.append_moved hw
      by_cases he : st.advance.detectEndOfInputAfterSkippingWhitespaces.1 = true
      · simp only [he, if_true, Option.some.injEq, Prod.mk.injEq] at h
        obtain ⟨rfl, rfl, rfl⟩ := h
        exact GramPost.fail_of hm0 [125] (Json.emptyObject w hws)
      · have he' : st.advance.detectEndOfInputAfterSkippingWhitespaces.1 = false := by
          simpa using he
        simp only [he', Bool.false_eq_true, if_false] at h
        rcases st.advance.detectEndOfInputAfterSkippingWhitespaces.2.i.rest_cases with
          hr | ⟨b, rest, hr⟩
        · simp [hr] at h
        · simp only [hr] at h
          split_ifs at h with h1
          · simp only [Option.some.injEq, Prod.mk.injEq] at h
            obtain ⟨rfl, rfl, rfl⟩ := h
            have hb : b = 125 := Fin.ext h1
            subst hb
            have := hm0.append_moved (moved_advance hr)
            exact GramPost.ok_of this (by simpa using Json.emptyObject w hws)
          · cases hm : parseObjectMembers o fuel []
                st.advance.detectEndOfInputAfterSkippingWhitespaces.2 with
            | none => simp [hm] at h
            | some x =>
              obtain ⟨rm, om, sm⟩ := x
              have hp := ihMem _ _ _ _ _ hm
              simp only [hm, Option.some.injEq, Prod.mk.injEq] at h
              obtain ⟨rfl, rfl, rfl⟩ := h
              exact GramPost.following hm0 (fun c hc => Json.object w hws hc) hp
    · -- parseObjectMembers
      intro ob st r o'' st' h
      unfold parseObjectMembers at h
      rcases st.i.rest_cases with hr | ⟨b, rest, hr⟩
      · simp [hr] at h
      · simp only [hr] at h
        have hmember : ∀ {k t : Bytes} (w1 w2 : Bytes), StringText k → Json .value t →
            (∀ b ∈ w1, isWhitespace b) → (∀ b ∈ w2, isWhitespace b) →
            Json .members (k ++ (w1 ++ 58 :: (w2 ++ (t ++ [125])))) := by
          intro k t w1 w2 hk ht hw1 hw2
          simpa using Json.lastMember w1 w2 [] hk ht hw1 hw2 not_mem_nil_ws
        split_ifs at h with h1
        · simp only [Option.some.injEq, Prod.mk.injEq] at h
          obtain ⟨rfl, rfl, rfl⟩ := h
          exact GramPost.fail_of (Ptr.Moved.none_moved _)
            ([34, 34] ++ ([] ++ 58 :: ([] ++ ([48] ++ [125]))))
            (hmember [] [] stringText_empty json_zero not_mem_nil_ws not_mem_nil_ws)
        · have hb : b = 34 := Fin.ext (by simpa using h1)
          subst hb
          cases hs : parseString o [] st with
          | none => simp [hs] at h
          | some x =>
            obtain ⟨rs, key, s1⟩ := x
            obtain ⟨ck, hck, jk1, jk2⟩ := parseString_gram o _ _ _ _ _ rest hr hs
            simp only [hs] at h
            cases rs
            · simp only [Option.some.injEq, Prod.mk.injEq] at h
              obtain ⟨rfl, rfl, rfl⟩ := h
              obtain ⟨ext, he⟩ := jk2 rfl
              exact GramPost.fail_of hck (ext ++ [58, 48, 125])
                (by simpa using hmember [] [] he json_zero not_mem_nil_ws not_mem_nil_ws)
            · simp only at h
              have hk := jk1 rfl
              obtain ⟨w1, hw1, hws1⟩ := moved_endWs s1
              have hm1 := hck.append_moved hw1
              by_cases he : s1.detectEndOfInputAfterSkippingWhitespaces.1 = true
              · simp only [he, if_true, Option.some.injEq, Prod.mk.injEq] at h
                obtain ⟨rfl, rfl, rfl⟩ := h
                exact GramPost.fail_of hm1 [58, 48, 125]
                  (by simpa using hmember w1 [] hk json_zero hws1 not_mem_nil_ws)
              · have he' : s1.detectEndOfInputAfterSkippingWhitespaces.1 = false := by
                  simpa using he
                simp only [he', Bool.false_eq_true, if_false] at h
                rcases s1.detectEndOfInputAfterSkippingWhitespaces.2.i.rest_cases with
                  hr2 | ⟨c, rest2, hr2⟩
                · simp [hr2] at h
                · simp only [hr2] at h
                  by_cases h2 : c.val = 58
                  swap
                  · simp only [ne_eq, h2, not_false_eq_true, if_true, Option.some.injEq,
                      Prod.mk.injEq] at h
                    obtain ⟨rfl, rfl, rfl⟩ := h
                    exact GramPost.fail_of hm1 [58, 48, 125]
                      (by simpa using hmember w1 [] hk json_zero hws1 not_mem_nil_ws)
                  have hc : c = 58 := Fin.ext h2
                  subst hc
                  simp only [ne_eq, h2, not_true_eq_false, if_false] at h
                  have hadv := moved_advance hr2
                  obtain ⟨w2, hw2, hws2⟩ := moved_endWs
                    s1.detectEndOfInputAfterSkippingWhitespaces.2.advance
                  have hm2 := hm1.append_moved (hadv.append_moved hw2)
                  by_cases h3 : s1.detectEndOfInputAfterSkippingWhitespaces.2.advance.detectEndOfInputAfterSkippingWhitespaces.1 = true
                  · simp only [h3, if_true, Option.some.injEq, Prod.mk.injEq] at h
                    obtain ⟨rfl, rfl, rfl⟩ := h
                    exact GramPost.fail_of hm2 [48, 125]
                      (by simpa using hmember w1 w2 hk json_zero hws1 hws2)
                  simp only [h3, Bool.false_eq_true, if_false] at h
                  by_cases h4 : (!(tryEmplace ob key).2) = true ∧ o.duplicateObjectKeys = .Fail
                  · rw [if_pos h4] at h
                    simp only [Option.some.injEq, Prod.mk.injEq] at h
                    obtain ⟨rfl, rfl, rfl⟩ := h
                    rw [dupIssue_cursor]
                    exact GramPost.fail_of hm2 [48, 125]
                      (by simpa using hmember w1 w2 hk json_zero hws1 hws2)
                  · rw [if_neg h4] at h
                    cases hv : parseImpl o fuel
                        ((Object.find key (tryEmplace ob key).1).getD Value.null)
                        (if (!(tryEmplace ob key).2) = true ∧ o.duplicateObjectKeys ≠ .Ignore then
                          s1.detectEndOfInputAfterSkippingWhitespaces.2.advance.detectEndOfInputAfterSkippingWhitespaces.2.addIssueAt
                            st.i.pos "JSON object contains duplicate keys" .DuplicateKeys
                        else s1.detectEndOfInputAfterSkippingWhitespaces.2.advance.detectEndOfInputAfterSkippingWhitespaces.2) with
                    | none => rw [hv] at h; exact absurd h (by simp)
                    | some x =>
                      obtain ⟨rv, wv, sv⟩ := x
                      have hq := ihImpl _ _ _ _ _ hv
                      rw [dupIssue_cursor] at hq
                      rw [hv] at h
                      cases rv
                      · simp only [Option.some.injEq, Prod.mk.injEq] at h
                        obtain ⟨rfl, rfl, rfl⟩ := h
                        obtain ⟨cv, hcv, -, jv2⟩ := hq
                        obtain ⟨ext, he⟩ := jv2 rfl
                        exact GramPost.fail_of (hm2.append_moved hcv) (ext ++ [125])
                          (by simpa using hmember w1 w2 hk he hws1 hws2)
                      · simp only at h
                        obtain ⟨cv, hcv, jv1, -⟩ := hq
                        have hvv := jv1 rfl
                        obtain ⟨w3, hw3, hws3⟩ := moved_endWs sv
                        have hm3 := hm2.append_moved (hcv.append_moved hw3)
                        have hlast : Json .members
                            (ck ++ w1 ++ ([58] ++ w2) ++ (cv ++ w3) ++ [125]) := by
                          simpa using Json.lastMember w1 w2 w3 hk hvv hws1 hws2 hws3
                        by_cases he3 : sv.detectEndOfInputAfterSkippingWhitespaces.1 = true
                        · simp only [he3, if_true, Option.some.injEq, Prod.mk.injEq] at h
                          obtain ⟨rfl, rfl, rfl⟩ := h
                          exact GramPost.fail_of hm3 [125] hlast
                        · have he3' : sv.detectEndOfInputAfterSkippingWhitespaces.1 = false := by
                            simpa using he3
                          simp only [he3', Bool.false_eq_true, if_false] at h
                          rcases sv.detectEndOfInputAfterSkippingWhitespaces.2.i.rest_cases with
                            hr3 | ⟨d, rest3, hr3⟩
                          · simp [hr3] at h
                          · simp only [hr3] at h
                            have hadv3 := moved_advance hr3
                            obtain ⟨w4, hw4, hws4⟩ := moved_endWs
                              sv.detectEndOfInputAfterSkippingWhitespaces.2.advance
                            have hm4 := hm3.append_moved (hadv3.append_moved hw4)
                            have hnext : ∀ c, Json .members c → d = 44 → Json .members
                                (ck ++ w1 ++ ([58] ++ w2) ++ (cv ++ w3) ++ ([d] ++ w4) ++ c) := by
                              intro c hc hd
                              subst hd
                              simpa using Json.nextMember w1 w2 w3 w4 hk hvv hws1 hws2 hws3 hws4 hc
                            split_ifs at h with h5 h6 h7
                            · simp only [Option.some.injEq, Prod.mk.injEq] at h
                              obtain ⟨rfl, rfl, rfl⟩ := h
                              have hd : d = 125 := Fin.ext h5
                              subst hd
                              exact GramPost.ok_of (hm3.append_moved hadv3) hlast
                            · simp only [Option.some.injEq, Prod.mk.injEq] at h
                              obtain ⟨rfl, rfl, rfl⟩ := h
                              exact GramPost.fail_of hm4 _
                                (hnext _ (hmember [] [] stringText_empty json_zero
                                  not_mem_nil_ws not_mem_nil_ws) (Fin.ext h6))
                            · exact GramPost.following hm4 (fun c hc => hnext c hc (Fin.ext h6))
                                (ihMem _ _ _ _ _ h)
                            · simp only [Option.some.injEq, Prod.mk.injEq] at h
                              obtain ⟨rfl, rfl, rfl⟩ := h
                              exact GramPost.fail_of hm3 [125] hlast

theorem AgreeTo.split_head {k : Nat} {B T : Bytes} {c : Byte} (h : AgreeTo (k + 1) B (c :: T)) :
    ∃ B', B = c :: B' ∧ AgreeTo k B' T := by
  cases B with
  | nil => simp [AgreeTo] at h
  | cons b B' =>
    simp only [AgreeTo, List.take_succ_cons, List.cons.injEq] at h
    exact ⟨B', by rw [h.1], h.2⟩

theorem AgreeTo.nil {k : Nat} {B : Bytes} (h : AgreeTo (k + 1) B []) : B = [] := by
  cases B with
  | nil => rfl
  | cons b B' => simp [AgreeTo] at h

theorem AgreeTo.append {k : Nat} {B T : Bytes} (t : Bytes) (h : AgreeTo k B (t ++ T))
    (hk : t.length ≤ k) : ∃ B', B = t ++ B' ∧ AgreeTo (k - t.length) B' T := by
  induction t generalizing k B with
  | nil => exact ⟨B, rfl, by simpa using h⟩
  | cons c t ih =>
    obtain ⟨k', rfl⟩ : ∃ k', k = k' + 1 := ⟨k - 1, by simp at hk; omega⟩
    obtain ⟨B1, rfl, h1⟩ := AgreeTo.split_head h
    obtain ⟨B2, rfl, h2⟩ := ih h1 (by simp at hk; omega)
    exact ⟨B2, rfl, by simpa using h2⟩

theorem AgreeTo.drop_moved {k : Nat} {i j : Ptr} {c t T : Bytes} (hm : i.Moved c j)
    (h : AgreeTo k i.rest (t ++ T)) (hl : c.length = t.length) (hk : t.length ≤ k) :
    AgreeTo (k - t.length) j.rest T := by
  obtain ⟨B', hB, h2⟩ := AgreeTo.append t h hk
  have := hm.1
  rw [hB] at this
  have := (List.append_inj this hl.symm).2
  rw [← this]
  exact h2

theorem Ptr.Moved.le {i j : Ptr} {c : Bytes} (h : i.Moved c j) : i.pos ≤ j.pos := by
  rw [h.2]
  omega

theorem GramPost.le_pos {k : Sym} {i j : Ptr} {r : Bool} (h : GramPost k i r j) :
    i.pos ≤ j.pos := by
  obtain ⟨c, hc, -⟩ := h
  exact hc.le

theorem Lock.of_past {target e : Nat} {r : Bool} {st' : ParserImpl} {p : Nat}
    (h : target ≤ e ∧ target ≤ p) (hp : p ≤ st'.i.pos) : Lock target e r st' :=
  Or.inr (Or.inl ⟨h.1, le_trans h.2 hp⟩)

theorem Inv.past {target e : Nat} {s : Ptr} (τ X : Bytes) {p : Nat}
    (h : target ≤ e ∧ target ≤ p) (hp : p ≤ s.pos) : Inv target e s τ X :=
  Or.inl ⟨h.1, le_trans h.2 hp⟩

/-- The run has read the bytes `c`, as many as the next part `t1` of the text. -/
theorem Inv.moved {target e : Nat} {s s1 : Ptr} {c t1 τ X : Bytes}
    (h : Inv target e s (t1 ++ τ) X) (hm : s.Moved c s1) (hl : c.length = t1.length) :
    Inv target e s1 τ X := by
  have hp := hm.2
  rcases h with hd | ⟨h1, h2, h3⟩
  · exact Inv.past τ X hd hm.le
  · simp only [List.length_append] at h2
    by_cases hlt : s1.pos < target
    · refine Or.inr ⟨hlt, by omega, ?_⟩
      rw [List.append_assoc] at h3
      have := AgreeTo.drop_moved hm h3 hl (by omega)
      have e1 : target - s1.pos = target - s.pos - t1.length := by omega
      rw [e1]
      exact this
    · exact Or.inl ⟨by omega, by omega⟩

/-- The run has read one byte; when the buffer follows the text there it is the byte of the
text. -/
theorem Inv.char {target e : Nat} {st : ParserImpl} {b c : Byte} {rest τ X : Bytes}
    (h : Inv target e st.i (c :: τ) X) (hr : st.i.rest = b :: rest) :
    Inv target e st.advance.i τ X ∧ (st.i.pos < target → b = c) := by
  have hm : st.i.Moved [b] st.advance.i := moved_advance hr
  have h0 : Inv target e st.i ([c] ++ τ) X := by simpa using h
  refine ⟨Inv.moved h0 hm rfl, fun hlt => ?_⟩
  rcases h with hd | ⟨h1, h2, h3⟩
  · omega
  · obtain ⟨k, hk⟩ : ∃ k, target - st.i.pos = k + 1 := ⟨target - st.i.pos - 1, by omega⟩
    rw [hk, hr] at h3
    obtain ⟨B', hB, -⟩ := AgreeTo.split_head h3
    exact (List.cons.inj hB).1

theorem Inv.at_end {target e : Nat} {s : Ptr} {c : Byte} {τ X : Bytes}
    (h : Inv target e s (c :: τ) X) (hr : s.rest = []) : target ≤ e ∧ target ≤ s.pos := by
  rcases h with hd | ⟨h1, h2, h3⟩
  · exact hd
  · obtain ⟨k, hk⟩ : ∃ k, target - s.pos = k + 1 := ⟨target - s.pos - 1, by omega⟩
    rw [hk, hr] at h3
    simp [AgreeTo] at h3

theorem Inv.head_ne {target e : Nat} {s : Ptr} {b c : Byte} {rest τ X : Bytes}
    (h : Inv target e s (c :: τ) X) (hr : s.rest = b :: rest) (hne : b ≠ c) :
    target ≤ e ∧ target ≤ s.pos := by
  rcases h with hd | ⟨h1, h2, h3⟩
  · exact hd
  · obtain ⟨k, hk⟩ : ∃ k, target - s.pos = k + 1 := ⟨target - s.pos - 1, by omega⟩
    rw [hk, hr] at h3
    obtain ⟨B', hB, -⟩ := AgreeTo.split_head h3
    exact absurd (List.cons.inj hB).1 hne

/-- The head of the buffer where it follows the text, when the text has ended and the bytes
`X` stand there. -/
theorem Inv.head_end {target e : Nat} {s : Ptr} {X : Bytes}
    (h : Inv target e s [] X) (hlt : s.pos < target) : s.rest.head? = X.head? := by
  rcases h with hd | ⟨h1, h2, h3⟩
  · omega
  · obtain ⟨k, hk⟩ : ∃ k, target - s.pos = k + 1 := ⟨target - s.pos - 1, by omega⟩
    rw [hk] at h3
    simp only [List.nil_append] at h3
    cases X with
    | nil => rw [AgreeTo.nil h3]
    | cons x X' =>
      obtain ⟨B', hB, -⟩ := AgreeTo.split_head h3
      rw [hB]
      rfl

theorem Inv.first {target e : Nat} {s : Ptr} {c : Byte} {τ X : Bytes}
    (h : Inv target e s (c :: τ) X) (hlt : s.pos < target) : ∃ B', s.rest = c :: B' := by
  rcases h with hd | ⟨h1, h2, h3⟩
  · omega
  · obtain ⟨k, hk⟩ : ∃ k, target - s.pos = k + 1 := ⟨target - s.pos - 1, by omega⟩
    rw [hk] at h3
    obtain ⟨B', hB, -⟩ := AgreeTo.split_head h3
    exact ⟨B', hB⟩

theorem Inv.part {target e : Nat} {s : Ptr} {t1 τ X : Bytes}
    (h : Inv target e s (t1 ++ τ) X) : Inv target (s.pos + t1.length) s t1 (τ ++ X) := by
  rcases h with hd | ⟨h1, h2, h3⟩
  · exact Or.inl ⟨by omega, hd.2⟩
  · exact Or.inr ⟨h1, rfl, by rw [← List.append_assoc]; exact h3⟩

/-- After a call that has read the part `t1` of the text with success. -/
theorem Inv.of_lock {target e : Nat} {s : Ptr} {st1 : ParserImpl} {c t1 τ X : Bytes}
    (h : Inv target e s (t1 ++ τ) X) (hm : s.Moved c st1.i)
    (hl : Lock target (s.pos + t1.length) true st1) : Inv target e st1.i τ X := by
  rcases hl with ⟨hf, -⟩ | ⟨h1, h2⟩ | ⟨h1, -, h3⟩
  · exact absurd hf (by decide)
  · rcases h with hd | ⟨g1, g2, g3⟩
    · exact Inv.past τ X hd hm.le
    · simp only [List.length_append] at g2
      exact Or.inl ⟨by omega, h2⟩
  · have := hm.2
    exact Inv.moved h hm (by omega)

/-- A call that fails in the part `t1` of the text. -/
theorem Lock.fail_sub {target e : Nat} {s : Ptr} {st' : ParserImpl} {t1 τ X : Bytes}
    (h : Inv target e s (t1 ++ τ) X) (hl : Lock target (s.pos + t1.length) false st')
    (hp : s.pos ≤ st'.i.pos) : Lock target e false st' := by
  rcases hl with hf | ⟨h1, h2⟩ | ⟨-, h2, -⟩
  · exact Or.inl hf
  · rcases h with hd | ⟨g1, g2, g3⟩
    · exact Lock.of_past hd hp
    · simp only [List.length_append] at g2
      exact Or.inr (Or.inl ⟨by omega, h2⟩)
  · exact absurd h2 (by decide)

/-- A call that reads all the rest of the text. -/
theorem Lock.whole {target e : Nat} {s : Ptr} {st' : ParserImpl} {r : Bool} {τ X : Bytes}
    (h : Inv target e s τ X) (hl : Lock target (s.pos + τ.length) r st')
    (hp : s.pos ≤ st'.i.pos) : Lock target e r st' := by
  rcases h with hd | ⟨g1, g2, g3⟩
  · exact Lock.of_past hd hp
  · rw [g2] at hl
    exact hl

theorem Lock.of_inv {target e : Nat} {st' : ParserImpl} {X : Bytes}
    (h : Inv target e st'.i [] X) : Lock target e true st' := by
  rcases h with hd | ⟨g1, g2, g3⟩
  · exact Or.inr (Or.inl hd)
  · simp only [List.length_nil, Nat.add_zero] at g2
    exact Or.inr (Or.inr ⟨by omega, rfl, g2⟩)

theorem agree_takeWhile (p : Byte → Bool) (w T : Bytes) (hw : ∀ b ∈ w, p b = true) :
    ∀ (k : Nat) (B : Bytes), AgreeTo k B (w ++ T) →
      (k ≤ w.length → k ≤ (B.takeWhile p).length) ∧
      (w.length < k → (∀ b, T.head? = some b → p b = false) → B.takeWhile p = w) := by
  induction w with
  | nil =>
    intro k B h
    refine ⟨fun hk => by simp at hk; omega, fun hk hT => ?_⟩
    obtain ⟨k', rfl⟩ : ∃ k', k = k' + 1 := ⟨k - 1, by simp at hk; omega⟩
    simp only [List.nil_append] at h
    cases T with
    | nil => rw [AgreeTo.nil h]; rfl
    | cons x T' =>
      obtain ⟨B', rfl, -⟩ := AgreeTo.split_head h
      simp [List.takeWhile_cons, hT x rfl]
  | cons c w ih =>
    intro k B h
    have hc : p c = true := hw c (List.mem_cons_self _ _)
    have hw' : ∀ b ∈ w, p b = true := fun b hb => hw b (List.mem_cons_of_mem _ hb)
    cases k with
    | zero => exact ⟨fun _ => Nat.zero_le _, fun hk => by simp at hk⟩
    | succ k =>
      obtain ⟨B', rfl, h1⟩ := AgreeTo.split_head h
      obtain ⟨i1, i2⟩ := ih hw' k B' h1
      refine ⟨fun hk => ?_, fun hk hT => ?_⟩
      · simp only [List.length_cons] at hk
        simp only [List.takeWhile_cons, hc, if_true, List.length_cons]
        have := i1 (by omega)
        omega
      · simp only [List.length_cons] at hk
        simp only [List.takeWhile_cons, hc, if_true]
        rw [i2 (by omega) hT]

theorem moved_scan (p : Byte → Bool) (i : Ptr) :
    i.Moved (i.rest.takeWhile p) (i.scan p) :=
  ⟨by simp [Ptr.scan], rfl⟩

/-- The run has read the longest run of bytes with the property `p`, where the text has the
bytes `w` with that property before a byte without it. -/
theorem Inv.scan {target e : Nat} {s : Ptr} {w τ X : Bytes} (p : Byte → Bool)
    (h : Inv target e s (w ++ τ) X) (hw : ∀ b ∈ w, p b = true)
    (hT : ∀ b, (τ ++ X).head? = some b → p b = false) : Inv target e (s.scan p) τ X := by
  have hm := moved_scan p s
  rcases h with hd | ⟨h1, h2, h3⟩
  · exact Inv.past τ X hd hm.le
  · rw [List.append_assoc] at h3
    obtain ⟨i1, i2⟩ := agree_takeWhile p w (τ ++ X) hw _ _ h3
    by_cases hk : target - s.pos ≤ w.length
    · have := i1 hk
      simp only [List.length_append] at h2
      refine Or.inl ⟨by omega, ?_⟩
      show target ≤ s.pos + _
      omega
    · have := i2 (by omega) hT
      refine Inv.moved (Or.inr ⟨h1, h2, by rw [List.append_assoc]; exact h3⟩) hm ?_
      rw [this]

theorem skipWhitespaces_scan (i : Ptr) : (skipWhitespaces i).2 = i.scan isWhitespaceB := by
  simp [skipWhitespaces, skipWhitespacesFrom_eq, Ptr.scan]

theorem skipDigits_scan (st : ParserImpl) : st.skipDigits.i = st.i.scan isDecimalDigit := by
  simp [skipDigits, skipDigitsFrom_eq, Ptr.scan]

theorem Inv.ws {target e : Nat} {st : ParserImpl} {w τ X : Bytes}
    (h : Inv target e st.i (w ++ τ) X) (hw : ∀ b ∈ w, isWhitespace b)
    (hT : ∀ b, (τ ++ X).head? = some b → ¬ isWhitespace b) :
    Inv target e st.detectEndOfInputAfterSkippingWhitespaces.2.i τ X := by
  rw [endWs_i, skipWhitespaces_scan]
  refine Inv.scan isWhitespaceB h (fun b hb => ?_) (fun b hb => ?_)
  · have := hw b hb
    simpa [isWhitespaceB, isWhitespace] using this
  · have := hT b hb
    simpa [isWhitespaceB, isWhitespace] using this

theorem Inv.digits {target e : Nat} {st : ParserImpl} {w τ X : Bytes}
    (h : Inv target e st.i (w ++ τ) X) (hw : ∀ b ∈ w, isDecimalDigit b = true)
    (hT : ∀ b, (τ ++ X).head? = some b → isDecimalDigit b = false) :
    Inv target e st.skipDigits.i τ X := by
  rw [skipDigits_scan]
  exact Inv.scan isDecimalDigit h hw hT

theorem endWs_true (st : ParserImpl)
    (h : st.detectEndOfInputAfterSkippingWhitespaces.1 = true) :
    st.detectEndOfInputAfterSkippingWhitespaces.2.i.rest = [] := by
  rw [endWs_i]
  unfold detectEndOfInputAfterSkippingWhitespaces at h
  by_cases h1 : (skipWhitespaces st.i).1 = true
  · simp only [skipWhitespaces, skipWhitespacesFrom_eq] at h1 ⊢
    simpa using h1
  · simp [h1] at h

theorem Inv.first_not {target e : Nat} {s : Ptr} {b : Byte} {rest τ X : Bytes}
    (h : Inv target e s τ X) (hr : s.rest = b :: rest)
    (hne : ∀ c, (τ ++ X).head? = some c → c ≠ b) : target ≤ e ∧ target ≤ s.pos := by
  rcases h with hd | ⟨h1, h2, h3⟩
  · exact hd
  · obtain ⟨k, hk⟩ : ∃ k, target - s.pos = k + 1 := ⟨target - s.pos - 1, by omega⟩
    rw [hk, hr] at h3
    cases hT : τ ++ X with
    | nil =>
      rw [hT] at h3
      exact absurd (AgreeTo.nil h3) (by simp)
    | cons c T =>
      rw [hT] at h3
      obtain ⟨B', hB, -⟩ := AgreeTo.split_head h3
      exact absurd (List.cons.inj hB).1.symm (hne c (by rw [hT]; rfl))

/-! ## Literals -/

theorem matchLoop_lock (target e : Nat) (X : Bytes) (ps : Bytes) :
    ∀ (p : Byte) (st : ParserImpl), Inv target e st.i (p :: ps) X →
      Lock target e (matchLoop p ps st).1 (matchLoop p ps st).2 := by
  induction ps with
  | nil =>
    intro p st h
    unfold matchLoop
    cases hr : st.i.rest with
    | nil => exact Lock.of_past (h.at_end hr) (le_refl _)
    | cons b rest =>
      by_cases hb : b ≠ p
      · simp only [if_pos hb]
        exact Lock.of_past (h.head_ne hr hb) (le_refl _)
      · simp only [if_neg hb]
        exact Lock.of_inv (h.char hr).1
  | cons q qs ih =>
    intro p st h
    unfold matchLoop
    cases hr : st.i.rest with
    | nil => exact Lock.of_past (h.at_end hr) (le_refl _)
    | cons b rest =>
      by_cases hb : b ≠ p
      · simp only [if_pos hb]
        exact Lock.of_past (h.head_ne hr hb) (le_refl _)
      · simp only [if_neg hb]
        exact ih q st.advance (h.char hr).1

theorem parseLiteral_lock (target e : Nat) (X : Bytes) (lit : Value) (c p : Byte) (ps : Bytes)
    (v : Value) (st : ParserImpl) (b : Byte) (rest : Bytes) (hr : st.i.rest = b :: rest)
    (h : Inv target e st.i (c :: p :: ps) X) :
    Lock target e (parseLiteral lit (c :: p :: ps) v st).1
      (parseLiteral lit (c :: p :: ps) v st).2.2 := by
  have := matchLoop_lock target e X ps p st.advance (h.char hr).1
  unfold parseLiteral matchPattern
  simp only
  cases hm : (matchLoop p ps st.advance).1
  · rw [hm] at this
    simpa using this
  · rw [hm] at this
    simpa using this

/-! ## Numbers -/

theorem advanceEnd_true (st : ParserImpl) (h : st.advanceAndDetectEndOfInput.1 = true) :
    st.advance.i.rest = [] := by
  unfold advanceAndDetectEndOfInput detectEndOfInput at h
  by_cases he : st.advance.isEmpty = true
  · simpa [isEmpty] using he
  · simp [he] at h

theorem digit_head {ds : Bytes} (h : Digits ds) :
    ∃ d ds', ds = d :: ds' ∧ isDecimalDigit d = true ∧ ∀ c ∈ ds', isDecimalDigit c = true := by
  obtain ⟨hne, hd⟩ := h
  obtain ⟨d, ds', rfl⟩ := List.exists_cons_of_ne_nil hne
  exact ⟨d, ds', rfl, hd d (List.mem_cons_self _ _), fun c hc => hd c (List.mem_cons_of_mem _ hc)⟩

theorem detectDigits_lock {target e : Nat} {st : ParserImpl} {ds τ X : Bytes} {r : Bool}
    {st' : ParserImpl} (h : Inv target e st.i (ds ++ τ) X) (hds : Digits ds)
    (hT : ∀ b, (τ ++ X).head? = some b → isDecimalDigit b = false)
    (hrun : detectDigits st = some (r, st')) :
    (r = false → target ≤ e ∧ target ≤ st'.i.pos) ∧ (r = true → Inv target e st'.i τ X) := by
  obtain ⟨d, ds', rfl, hd, hds'⟩ := digit_head hds
  unfold detectDigits at hrun
  cases hr : st.i.rest with
  | nil => simp [hr] at hrun
  | cons b t =>
    simp only [hr] at hrun
    by_cases hb : isDecimalDigit b = true
    · simp only [hb, Bool.not_true, Bool.false_eq_true, if_false, Option.some.injEq,
        Prod.mk.injEq] at hrun
      obtain ⟨rfl, rfl⟩ := hrun
      exact ⟨by simp, fun _ => Inv.digits (h.char hr).1 hds' hT⟩
    · simp only [hb, Bool.not_false, if_true, Option.some.injEq, Prod.mk.injEq] at hrun
      obtain ⟨rfl, rfl⟩ := hrun
      refine ⟨fun _ => h.head_ne hr ?_, by simp⟩
      rintro rfl
      exact hb hd

theorem digit_val {d : Byte} (h : isDecimalDigit d = true) : 48 ≤ d.val ∧ d.val ≤ 57 := by
  simpa [isDecimalDigit] using h

theorem parseNumberInteger_lock {target e : Nat} {st : ParserImpl} {ip τ X : Bytes} {r : Bool}
    {st' : ParserImpl} (h : Inv target e st.i (ip ++ τ) X) (hip : IntegerPart ip)
    (hT : ∀ b, (τ ++ X).head? = some b → isDecimalDigit b = false)
    (hrun : parseNumberInteger st = some (r, st')) :
    (r = false → target ≤ e ∧ target ≤ st'.i.pos) ∧ (r = true → Inv target e st'.i τ X) := by
  obtain ⟨hds, hz⟩ := hip
  obtain ⟨d, ds', rfl, hd, hds'⟩ := digit_head hds
  have hdv := digit_val hd
  unfold parseNumberInteger at hrun
  cases hr : st.i.rest with
  | nil => simp [hr] at hrun
  | cons b t =>
    simp only [hr] at hrun
    obtain ⟨hc1, hc2⟩ := h.char hr
    split_ifs at hrun with h1 h2
    · simp only [Option.some.injEq, Prod.mk.injEq] at hrun
      obtain ⟨rfl, rfl⟩ := hrun
      refine ⟨by simp, fun _ => ?_⟩
      by_cases hlt : st.i.pos < target
      · have hbd := hc2 hlt
        subst hbd
        have hb48 : b = 48 := Fin.ext h1
        subst hb48
        have := hz rfl
        simp only [List.cons.injEq, true_and] at this
        subst this
        exact hc1
      · rcases h with hdn | ⟨g1, -⟩
        · exact Inv.past τ X hdn (moved_advance hr).le
        · omega
    · simp only [Option.some.injEq, Prod.mk.injEq] at hrun
      obtain ⟨rfl, rfl⟩ := hrun
      exact ⟨by simp, fun _ => Inv.digits hc1 hds' hT⟩
    · simp only [Option.some.injEq, Prod.mk.injEq] at hrun
      obtain ⟨rfl, rfl⟩ := hrun
      refine ⟨fun _ => h.head_ne hr ?_, by simp⟩
      rintro rfl
      omega

theorem parseNumberFraction_lock {target e : Nat} {st : ParserImpl} {fp τ X : Bytes}
    {go d : Bool} {st' : ParserImpl} (h : Inv target e st.i (fp ++ τ) X)
    (hfp : FractionPart fp)
    (hT : ∀ b, (τ ++ X).head? = some b → isDecimalDigit b = false ∧ b.val ≠ 46)
    (hrun : parseNumberFraction st = some (go, d, st')) :
    (go = false → target ≤ e ∧ target ≤ st'.i.pos) ∧ (go = true → Inv target e st'.i τ X) := by
  unfold parseNumberFraction at hrun
  cases hr : st.i.rest with
  | nil =>
    simp only [hr, Option.some.injEq, Prod.mk.injEq] at hrun
    obtain ⟨rfl, rfl, rfl⟩ := hrun
    refine ⟨by simp, fun _ => ?_⟩
    rcases hfp with rfl | ⟨ds, rfl, hds⟩
    · exact h
    · exact Inv.past τ X (Inv.at_end h hr) (le_refl _)
  | cons b t =>
    simp only [hr] at hrun
    by_cases hb : b.val = 46
    · simp only [hb, if_true] at hrun
      have hb46 : b = 46 := Fin.ext hb
      subst hb46
      -- the state after the point, against the digits of the text (or any, when the text has
      -- no fraction and the buffer has left it)
      have hnext : ∃ ds, Digits ds ∧ Inv target e st.advance.i (ds ++ τ) X := by
        rcases hfp with rfl | ⟨ds, rfl, hds⟩
        · refine ⟨[48], digits_zero, Inv.past _ X (h.first_not hr ?_)
            (moved_advance hr).le⟩
          intro c hc hc46
          subst hc46
          exact (hT _ hc).2 rfl
        · exact ⟨ds, hds, (h.char hr).1⟩
      obtain ⟨ds, hds, hinv⟩ := hnext
      by_cases he : st.advanceAndDetectEndOfInput.1 = true
      · simp only [he, if_true, Option.some.injEq, Prod.mk.injEq] at hrun
        obtain ⟨rfl, rfl, rfl⟩ := hrun
        refine ⟨fun _ => ?_, by simp⟩
        rw [advanceAndDetectEndOfInput_i]
        obtain ⟨d0, ds', rfl, -, -⟩ := digit_head hds
        exact Inv.at_end hinv (advanceEnd_true st he)
      · simp only [he, if_false] at hrun
        rw [← advanceAndDetectEndOfInput_i] at hinv
        cases hdd : detectDigits st.advanceAndDetectEndOfInput.2 with
        | none => simp [hdd] at hrun
        | some x =>
          obtain ⟨rd, sd⟩ := x
          obtain ⟨k1, k2⟩ := detectDigits_lock hinv hds (fun b hb => (hT b hb).1) hdd
          simp only [hdd] at hrun
          cases rd
          · simp only [Option.some.injEq, Prod.mk.injEq] at hrun
            obtain ⟨rfl, rfl, rfl⟩ := hrun
            exact ⟨fun _ => k1 rfl, by simp⟩
          · simp only [Option.some.injEq, Prod.mk.injEq] at hrun
            obtain ⟨rfl, rfl, rfl⟩ := hrun
            exact ⟨by simp, fun _ => k2 rfl⟩
    · simp only [hb, if_false, Option.some.injEq, Prod.mk.injEq] at hrun
      obtain ⟨rfl, rfl, rfl⟩ := hrun
      refine ⟨by simp, fun _ => ?_⟩
      rcases hfp with rfl | ⟨ds, rfl, hds⟩
      · exact h
      · refine Inv.past τ X (Inv.head_ne h hr ?_) (le_refl _)
        rintro rfl
        exact hb rfl

theorem parseNumberExponent_lock {target e : Nat} {st : ParserImpl} {ep X : Bytes}
    {go d : Bool} {st' : ParserImpl} (h : Inv target e st.i ep X)
    (hep : ExponentPart ep) (hX : InertEnd X)
    (hrun : parseNumberExponent st = some (go, d, st')) :
    (go = false → target ≤ e ∧ target ≤ st'.i.pos) ∧ (go = true → Inv target e st'.i [] X) := by
  have hXd : ∀ b, (([] : Bytes) ++ X).head? = some b → isDecimalDigit b = false :=
    fun b hb => (hX b hb).1
  unfold parseNumberExponent at hrun
  cases hr : st.i.rest with
  | nil =>
    simp only [hr, Option.some.injEq, Prod.mk.injEq] at hrun
    obtain ⟨rfl, rfl, rfl⟩ := hrun
    refine ⟨by simp, fun _ => ?_⟩
    rcases hep with rfl | ⟨c, sg, ds, rfl, -, -, -⟩
    · exact h
    · exact Inv.past [] X (Inv.at_end h hr) (le_refl _)
  | cons b t =>
    simp only [hr] at hrun
    by_cases hb : b.val ||| 0x20 = 101
    · simp only [hb, if_true] at hrun
      have hb2 := (or_0x20_eq b).mp hb
      have hnext : ∃ sg ds, (sg = [] ∨ sg = [43] ∨ sg = [45]) ∧ Digits ds ∧
          Inv target e st.advance.i ((sg ++ ds) ++ []) X := by
        rcases hep with rfl | ⟨c, sg, ds, rfl, -, hsg, hds⟩
        · refine ⟨[], [48], Or.inl rfl, digits_zero, Inv.past _ X (h.first_not hr ?_)
            (moved_advance hr).le⟩
          intro c hc hcb
          subst hcb
          have := hX c hc
          omega
        · exact ⟨sg, ds, hsg, hds, by simpa using (h.char hr).1⟩
      obtain ⟨sg, ds, hsg, hds, hinv⟩ := hnext
      obtain ⟨d0, ds', hdseq, hd0, -⟩ := digit_head hds
      have hd0v := digit_val hd0
      by_cases he : st.advanceAndDetectEndOfInput.1 = true
      · simp only [he, if_true, Option.some.injEq, Prod.mk.injEq] at hrun
        obtain ⟨rfl, rfl, rfl⟩ := hrun
        refine ⟨fun _ => ?_, by simp⟩
        rw [advanceAndDetectEndOfInput_i]
        have hend := advanceEnd_true st he
        rcases hsg with rfl | rfl | rfl
        · subst hdseq
          exact Inv.at_end (by simpa using hinv) hend
        · exact Inv.at_end (by simpa using hinv) hend
        · exact Inv.at_end (by simpa using hinv) hend
      · simp only [he, if_false] at hrun
        rw [← advanceAndDetectEndOfInput_i] at hinv
        cases hr2 : st.advanceAndDetectEndOfInput.2.i.rest with
        | nil => simp [hr2] at hrun
        | cons c t2 =>
          simp only [hr2] at hrun
          -- the state before the digits
          have hstep : ((if c.val = 43 ∨ c.val = 45 then
                st.advanceAndDetectEndOfInput.2.advanceAndDetectEndOfInput
              else (false, st.advanceAndDetectEndOfInput.2)).1 = true →
                target ≤ e ∧ target ≤ (if c.val = 43 ∨ c.val = 45 then
                  st.advanceAndDetectEndOfInput.2.advanceAndDetectEndOfInput
                else (false, st.advanceAndDetectEndOfInput.2)).2.i.pos) ∧
              Inv target e (if c.val = 43 ∨ c.val = 45 then
                  st.advanceAndDetectEndOfInput.2.advanceAndDetectEndOfInput
                else (false, st.advanceAndDetectEndOfInput.2)).2.i (ds ++ []) X := by
            by_cases hc : c.val = 43 ∨ c.val = 45
            · simp only [hc, if_true]
              rw [advanceAndDetectEndOfInput_i]
              have hinv2 : Inv target e st.advanceAndDetectEndOfInput.2.advance.i (ds ++ []) X := by
                rcases hsg with rfl | rfl | rfl
                · subst hdseq
                  refine Inv.past _ X (Inv.head_ne (by simpa using hinv) hr2 ?_)
                    (moved_advance hr2).le
                  rintro rfl
                  omega
                · exact (Inv.char (by simpa using hinv) hr2).1
                · exact (Inv.char (by simpa using hinv) hr2).1
              refine ⟨fun he2 => ?_, hinv2⟩
              subst hdseq
              exact Inv.at_end (by simpa using hinv2) (advanceEnd_true _ he2)
            · simp only [hc, if_false]
              refine ⟨by simp, ?_⟩
              rcases hsg with rfl | rfl | rfl
              · simpa using hinv
              · refine Inv.past _ X (Inv.head_ne (by simpa using hinv) hr2 ?_) (le_refl _)
                rintro rfl
                exact hc (Or.inl rfl)
              · refine Inv.past _ X (Inv.head_ne (by simpa using hinv) hr2 ?_) (le_refl _)
                rintro rfl
                exact hc (Or.inr rfl)
          generalize (if c.val = 43 ∨ c.val = 45 then
                  st.advanceAndDetectEndOfInput.2.advanceAndDetectEndOfInput
                else (false, st.advanceAndDetectEndOfInput.2)) = e2 at hrun hstep
          obtain ⟨hs1, hs2⟩ := hstep
          by_cases he2 : e2.1 = true
          · simp only [he2, if_true, Option.some.injEq, Prod.mk.injEq] at hrun
            obtain ⟨rfl, rfl, rfl⟩ := hrun
            exact ⟨fun _ => hs1 he2, by simp⟩
          · simp only [he2, if_false] at hrun
            cases hdd : detectDigits e2.2 with
            | none => simp [hdd] at hrun
            | some x =>
              obtain ⟨rd, sd⟩ := x
              obtain ⟨k1, k2⟩ := detectDigits_lock hs2 hds hXd hdd
              simp only [hdd] at hrun
              cases rd
              · simp only [Option.some.injEq, Prod.mk.injEq] at hrun
                obtain ⟨rfl, rfl, rfl⟩ := hrun
                exact ⟨fun _ => k1 rfl, by simp⟩
              · simp only [Option.some.injEq, Prod.mk.injEq] at hrun
                obtain ⟨rfl, rfl, rfl⟩ := hrun
                exact ⟨by simp, fun _ => k2 rfl⟩
    · simp only [hb, if_false, Option.some.injEq, Prod.mk.injEq] at hrun
      obtain ⟨rfl, rfl, rfl⟩ := hrun
      refine ⟨by simp, fun _ => ?_⟩
      rcases hep with rfl | ⟨c, sg, ds, rfl, hc, -, -⟩
      · exact h
      · refine Inv.past [] X (Inv.head_ne h hr ?_) (le_refl _)
        rintro rfl
        exact hb ((or_0x20_eq b).mpr hc)

theorem policyFail_addIssueAt (st : ParserImpl) (p : Nat) (d : String)
    (c : ParsingIssue.Code) (h1 : c ≠ .InvalidCharacter) (h2 : c ≠ .UnexpectedEndOfInput) :
    PolicyFail false (st.addIssueAt p d c) :=
  ⟨rfl, ⟨p, d, c⟩, by simp [addIssueAt], h1, h2⟩

theorem parseNumberConvert_lock (begin : Ptr) (n : Nat) (d : Bool) (v : Value)
    (st : ParserImpl) :
    (parseNumberConvert begin n d v st).1 = false →
      PolicyFail false (parseNumberConvert begin n d v st).2.2 := by
  unfold parseNumberConvert
  simp only
  split_ifs
  · cases from_chars_int64 (begin.range st.i) <;> simp only
    · simp
    · exact fun _ => policyFail_addIssueAt _ _ _ _ (by decide) (by decide)
    · exact fun _ => policyFail_addIssueAt _ _ _ _ (by decide) (by decide)
  · cases from_chars_double (begin.range st.i) <;> simp only
    · simp
    · exact fun _ => policyFail_addIssueAt _ _ _ _ (by decide) (by decide)
    · exact fun _ => policyFail_addIssueAt _ _ _ _ (by decide) (by decide)

theorem exponent_head {ep X : Bytes} (hep : ExponentPart ep) (hX : InertEnd X) :
    ∀ b, (ep ++ X).head? = some b → isDecimalDigit b = false ∧ b.val ≠ 46 := by
  intro b hb
  rcases hep with rfl | ⟨c, sg, ds, rfl, hc, -, -⟩
  · exact ⟨(hX b hb).1, (hX b hb).2.1⟩
  · simp only [List.cons_append, List.head?_cons, Option.some.injEq] at hb
    subst hb
    rcases hc with hc | hc <;> simp [isDecimalDigit, hc]

theorem fraction_head {fp ep X : Bytes} (hfp : FractionPart fp) (hep : ExponentPart ep)
    (hX : InertEnd X) :
    ∀ b, ((fp ++ ep) ++ X).head? = some b → isDecimalDigit b = false := by
  intro b hb
  rcases hfp with rfl | ⟨ds, rfl, -⟩
  · exact (exponent_head hep hX b (by simpa using hb)).1
  · simp only [List.cons_append, List.head?_cons, Option.some.injEq] at hb
    subst hb
    decide

theorem parseNumberBody_lock {target e : Nat} {st : ParserImpl} {ip fp ep X : Bytes}
    {begin : Ptr} {neg : Nat} {v v' : Value} {r : Bool} {st' : ParserImpl}
    (h : Inv target e st.i (ip ++ (fp ++ ep)) X) (hip : IntegerPart ip)
    (hfp : FractionPart fp) (hep : ExponentPart ep) (hX : InertEnd X)
    (hrun : parseNumberBody begin neg v st = some (r, v', st')) : Lock target e r st' := by
  unfold parseNumberBody at hrun
  cases h1 : parseNumberInteger st with
  | none => simp [h1] at hrun
  | some x =>
    obtain ⟨r1, s1⟩ := x
    obtain ⟨a1, a2⟩ := parseNumberInteger_lock h hip (fraction_head hfp hep hX) h1
    rw [h1] at hrun
    cases r1
    · simp only [Option.some.injEq, Prod.mk.injEq] at hrun
      obtain ⟨rfl, rfl, rfl⟩ := hrun
      exact Lock.of_past (a1 rfl) (le_refl _)
    · simp only at hrun
      cases h2 : parseNumberFraction s1 with
      | none => simp [h2] at hrun
      | some x =>
        obtain ⟨r2, d2, s2⟩ := x
        obtain ⟨b1, b2⟩ := parseNumberFraction_lock (a2 rfl) hfp (exponent_head hep hX) h2
        rw [h2] at hrun
        cases r2
        · simp only [Option.some.injEq, Prod.mk.injEq] at hrun
          obtain ⟨rfl, rfl, rfl⟩ := hrun
          exact Lock.of_past (b1 rfl) (le_refl _)
        · simp only at hrun
          cases h3 : parseNumberExponent s2 with
          | none => simp [h3] at hrun
          | some x =>
            obtain ⟨r3, d3, s3⟩ := x
            obtain ⟨c1, c2⟩ := parseNumberExponent_lock (b2 rfl) hep hX h3
            rw [h3] at hrun
            cases r3
            · simp only [Option.some.injEq, Prod.mk.injEq] at hrun
              obtain ⟨rfl, rfl, rfl⟩ := hrun
              exact Lock.of_past (c1 rfl) (le_refl _)
            · simp only [Option.some.injEq] at hrun
              have hi := parseNumberConvert_i begin neg (d2 || d3) v s3
              have hf := parseNumberConvert_lock begin neg (d2 || d3) v s3
              rw [hrun] at hi hf
              simp only at hi hf
              cases r
              · exact Or.inl (hf rfl)
              · exact Lock.of_inv (X := X) (by rw [hi]; exact c2 rfl)

theorem integerPart_cons {ip : Bytes} (h : IntegerPart ip) :
    ∃ d ds, ip = d :: ds ∧ 48 ≤ d.val ∧ d.val ≤ 57 := by
  obtain ⟨d, ds, rfl, hd, -⟩ := digit_head h.1
  exact ⟨d, ds, rfl, digit_val hd⟩

theorem parseNumber_lock {target e : Nat} {st : ParserImpl} {neg : Bool} {ip fp ep X : Bytes}
    {v v' : Value} {r : Bool} {st' : ParserImpl}
    (h : Inv target e st.i (intLiteral neg ip ++ (fp ++ ep)) X) (hip : IntegerPart ip)
    (hfp : FractionPart fp) (hep : ExponentPart ep) (hX : InertEnd X)
    (hrun : parseNumber v st = some (r, v', st')) : Lock target e r st' := by
  obtain ⟨d, ds, hipe, hd1, hd2⟩ := integerPart_cons hip
  unfold parseNumber at hrun
  cases hr : st.i.rest with
  | nil => simp [hr] at hrun
  | cons b t =>
    simp only [hr] at hrun
    by_cases hb : b.val = 45
    · simp only [hb, if_true, ne_eq, one_ne_zero, not_false_eq_true] at hrun
      have hinv : Inv target e st.advance.i (ip ++ (fp ++ ep)) X := by
        cases neg
        · have h0 : Inv target e st.i (d :: (ds ++ (fp ++ ep))) X := by
            simpa [intLiteral, hipe] using h
          refine Inv.past _ X (Inv.head_ne h0 hr ?_) (moved_advance hr).le
          rintro rfl
          omega
        · exact (Inv.char (by simpa [intLiteral] using h) hr).1
      by_cases he : st.advanceAndDetectEndOfInput.1 = true
      · simp only [he, if_true, Option.some.injEq, Prod.mk.injEq] at hrun
        obtain ⟨rfl, rfl, rfl⟩ := hrun
        rw [hipe] at hinv
        refine Lock.of_past (Inv.at_end hinv (advanceEnd_true st he)) ?_
        rw [advanceAndDetectEndOfInput_i]
      · simp only [he, if_false] at hrun
        rw [← advanceAndDetectEndOfInput_i] at hinv
        exact parseNumberBody_lock hinv hip hfp hep hX hrun
    · simp only [hb, if_false, ne_eq, not_true_eq_false, Bool.false_eq_true] at hrun
      have hinv : Inv target e st.i (ip ++ (fp ++ ep)) X := by
        cases neg
        · simpa [intLiteral] using h
        · have h0 : Inv target e st.i (45 :: (ip ++ (fp ++ ep))) X := by
            simpa [intLiteral] using h
          refine Inv.past _ X (Inv.head_ne h0 hr ?_) (le_refl _)
          rintro rfl
          exact hb rfl
      exact parseNumberBody_lock hinv hip hfp hep hX hrun

/-! ## Strings -/

theorem Inv.one_byte {target e : Nat} {s : Ptr} {b c : Byte} {rest τ X : Bytes}
    (h : Inv target e s (c :: τ) X) (hr : s.rest = b :: rest) :
    Inv target e s.next τ X ∧ (s.pos < target → b = c) :=
  @Inv.char target e ⟨s, []⟩ b c rest τ X h hr

theorem Inv.not_lt {target e : Nat} {s : Ptr} {τ X : Bytes} (h : Inv target e s τ X)
    (hlt : ¬ s.pos < target) : target ≤ e ∧ target ≤ s.pos := by
  rcases h with hd | ⟨h1, -⟩
  · exact hd
  · exact absurd h1 hlt

theorem MoreLock.of_done {target e : Nat} (X : Bytes) (res : EscapedStringParsingResult)
    {j : Ptr} {p : Nat} (h : target ≤ e ∧ target ≤ p) (hp : p ≤ j.pos) :
    MoreLock target e X res j := by
  cases res <;> simp only [MoreLock]
  · exact ⟨[], by simp, Inv.past _ X h hp⟩
  · exact ⟨[], by simp, Inv.past _ X h hp⟩
  · exact ⟨[], by simp, Inv.past _ X h hp⟩
  · exact ⟨[], by simp, Inv.past _ X h hp⟩
  · exact Inv.past _ X h (le_trans hp (Nat.le_succ _))
  · exact ⟨h.1, le_trans h.2 hp⟩
  · exact ⟨h.1, le_trans h.2 hp⟩

theorem parseMore_backslash (mode : UnescapeMode) (i : Ptr) (t : Bytes)
    (res : EscapedStringParser.Result) (j : Ptr) (hr : i.rest = 92 :: t)
    (h : EscapedStringParser.parseMore mode i = some (res, j)) : i.next.pos ≤ j.pos := by
  unfold EscapedStringParser.parseMore at h
  simp only [hr] at h
  have e92 : ((92 : Byte)).val = 92 := rfl
  simp only [e92, if_true] at h
  by_cases he : i.next.rest = []
  · simp only [he, if_true, Option.some.injEq, Prod.mk.injEq] at h
    rw [← h.2]
  · simp only [he, if_false] at h
    exact (parseEscape_spec _ _ _ h).1.pos_le

theorem parseMore_u (mode : UnescapeMode) (i : Ptr) (t : Bytes)
    (hr : i.rest = 92 :: 117 :: t) :
    EscapedStringParser.parseMore mode i =
      some (EscapedStringParser.parseEscapeHex 4 0 i.next.next) := by
  have hn : i.next.rest = 117 :: t := by simp [Ptr.next, hr]
  unfold EscapedStringParser.parseMore
  simp only [hr]
  have e92 : ((92 : Byte)).val = 92 := rfl
  simp only [e92, if_true, hn]
  unfold EscapedStringParser.parseEscape
  simp only [hn]
  have e117 : ((117 : Byte)).val = 117 := rfl
  simp only [e117]
  norm_num
  intro h
  exact absurd h (by simp)

theorem parseEscapeHex_lock (target e : Nat) (X τ : Bytes) (ds : Bytes)
    (hh : ∀ d ∈ ds, hexDigitValue d ≠ none) :
    ∀ (c : Nat) (p : Ptr), Inv target e p (ds ++ τ) X →
      HexLock target e X τ (EscapedStringParser.parseEscapeHex ds.length c p) := by
  induction ds with
  | nil =>
    intro c p h
    simp only [List.length_nil]
    unfold EscapedStringParser.parseEscapeHex HexLock
    split_ifs <;> simpa using h
  | cons d ds ih =>
    intro c p h
    have hd := hh d (List.mem_cons_self _ _)
    have hds : ∀ x ∈ ds, hexDigitValue x ≠ none := fun x hx => hh x (List.mem_cons_of_mem _ hx)
    simp only [List.length_cons]
    unfold EscapedStringParser.parseEscapeHex
    cases hr : p.rest with
    | nil =>
      simp only [HexLock]
      exact Inv.at_end h hr
    | cons b t =>
      simp only
      have hn := (Inv.one_byte h hr).1
      by_cases hdig : isDecimalDigit b = true
      · simp only [hdig, if_true]
        exact ih hds _ _ hn
      · simp only [hdig, Bool.false_eq_true, if_false]
        by_cases hx : 97 ≤ (b.val ||| 0x20) ∧ (b.val ||| 0x20) ≤ 102
        · simp only [hx, and_self, if_true]
          exact ih hds _ _ hn
        · simp only [hx, if_false, HexLock]
          refine Inv.head_ne h hr ?_
          rintro rfl
          exact hd ((hexDigit_test b).2.2 hdig hx)

theorem HexLock.more {target e : Nat} {X : Bytes} {ps : List Piece}
    (hps : ∀ p ∈ ps, p.WellFormed .Strict) {out : EscapedStringParser.Result × Ptr}
    (h : HexLock target e X (piecesText ps ++ [34]) out) :
    MoreLock target e X out.1.result out.2 := by
  unfold HexLock at h
  cases hres : out.1.result <;> simp only [hres] at h <;> simp only [MoreLock]
  · exact ⟨ps, hps, h⟩
  · exact ⟨ps, hps, h⟩
  · exact ⟨ps, hps, h⟩
  · exact h
  · exact h

theorem ptr_eta (i : Ptr) (r : Bytes) (h : i.rest = r) : i = ⟨i.pos, r⟩ := by
  cases i
  simp only at h
  rw [h]

theorem parseMore_lock {target e : Nat} {X : Bytes} {ps : List Piece}
    (hps : ∀ p ∈ ps, p.WellFormed .Strict) {i : Ptr}
    (h : Inv target e i (piecesText ps ++ [34]) X) {res : EscapedStringParser.Result}
    {j : Ptr} (hrun : EscapedStringParser.parseMore .Strict i = some (res, j)) :
    MoreLock target e X res.result j := by
  have hmono : i.pos ≤ j.pos := (parseMore_spec _ _ _ _ hrun).1.pos_le
  by_cases hlt : i.pos < target
  swap
  · exact MoreLock.of_done X _ (h.not_lt hlt) hmono
  cases ps with
  | nil =>
    have h0 : Inv target e i (34 :: []) X := by simpa [piecesText] using h
    obtain ⟨B, hB⟩ := h0.first hlt
    rw [ptr_eta i _ hB, parseMore_quote] at hrun
    simp only [Option.some.injEq, Prod.mk.injEq] at hrun
    obtain ⟨rfl, rfl⟩ := hrun
    simp only [MoreLock]
    have := (Inv.one_byte h0 hB).1
    rw [ptr_eta i _ hB] at this
    exact this
  | cons p ps =>
    have hp := hps p (List.mem_cons_self _ _)
    have hps' : ∀ q ∈ ps, q.WellFormed .Strict := fun q hq => hps q (List.mem_cons_of_mem _ hq)
    cases p with
    | plain b0 =>
      have h0 : Inv target e i (b0 :: (piecesText ps ++ [34])) X := by
        simpa [piecesText_cons, Piece.text] using h
      obtain ⟨B, hB⟩ := h0.first hlt
      have hn := (Inv.one_byte h0 hB).1
      rw [ptr_eta i _ hB, parseMore_plain _ _ _ _ hp.1 (hp.2 rfl).1 (fun _ => (hp.2 rfl).2)]
        at hrun
      simp only [Option.some.injEq, Prod.mk.injEq] at hrun
      obtain ⟨rfl, rfl⟩ := hrun
      simp only [MoreLock]
      refine ⟨ps, hps', ?_⟩
      simpa [Ptr.next, hB] using hn
    | simple c0 =>
      have h0 : Inv target e i (92 :: c0 :: (piecesText ps ++ [34])) X := by
        simpa [piecesText_cons, Piece.text] using h
      obtain ⟨B, hB⟩ := h0.first hlt
      have hn := (Inv.one_byte h0 hB).1
      by_cases hlt2 : i.next.pos < target
      swap
      · exact MoreLock.of_done X _ (hn.not_lt hlt2) (parseMore_backslash _ _ _ _ _ hB hrun)
      obtain ⟨B2, hB2⟩ := hn.first hlt2
      have hn2 := (Inv.one_byte hn hB2).1
      have hB' : i.rest = 92 :: c0 :: B2 := by
        rw [hB]
        simp only [Ptr.next, hB, List.tail_cons] at hB2
        rw [hB2]
      rw [ptr_eta i _ hB', parseMore_simple _ _ _ _ hp] at hrun
      simp only [Option.some.injEq, Prod.mk.injEq] at hrun
      obtain ⟨rfl, rfl⟩ := hrun
      simp only [MoreLock]
      refine ⟨ps, hps', ?_⟩
      simpa [Ptr.next, hB'] using hn2
    | unicode d1 d2 d3 d4 =>
      have h0 : Inv target e i (92 :: 117 :: ([d1, d2, d3, d4] ++ (piecesText ps ++ [34]))) X := by
        simpa [piecesText_cons, Piece.text] using h
      obtain ⟨B, hB⟩ := h0.first hlt
      have hn := (Inv.one_byte h0 hB).1
      by_cases hlt2 : i.next.pos < target
      swap
      · exact MoreLock.of_done X _ (hn.not_lt hlt2) (parseMore_backslash _ _ _ _ _ hB hrun)
      obtain ⟨B2, hB2⟩ := hn.first hlt2
      have hn2 := (Inv.one_byte hn hB2).1
      have hB' : i.rest = 92 :: 117 :: B2 := by
        rw [hB]
        simp only [Ptr.next, hB, List.tail_cons] at hB2
        rw [hB2]
      rw [parseMore_u _ _ _ hB'] at hrun
      have hl := parseEscapeHex_lock target e X (piecesText ps ++ [34]) [d1, d2, d3, d4]
        (by
          intro d hd
          simp only [List.mem_cons, List.mem_singleton, List.not_mem_nil, or_false] at hd
          rcases hd with rfl | rfl | rfl | rfl
          · exact hp.1
          · exact hp.2.1
          · exact hp.2.2.1
          · exact hp.2.2.2) 0 i.next.next hn2
      simp only [Option.some.injEq] at hrun
      have := HexLock.more hps' hl
      simp only [List.length_cons, List.length_nil] at this
      rw [hrun] at this
      exact this

theorem policyFail_check (o : ParsingOptions) (s : Bytes) (sur p : Nat) (d : String)
    (code : ParsingIssue.Code) (st : ParserImpl) (h1 : code ≠ .InvalidCharacter)
    (h2 : code ≠ .UnexpectedEndOfInput)
    (hc : (checkInvalidUtf16SurrogateOptionAndEncode o s sur p d code st).1 = false) :
    PolicyFail false (checkInvalidUtf16SurrogateOptionAndEncode o s sur p d code st).2.2 := by
  unfold checkInvalidUtf16SurrogateOptionAndEncode at hc ⊢
  split_ifs at hc ⊢ <;> simp only at hc ⊢
  · exact policyFail_addIssueAt _ _ _ _ h1 h2

theorem policyFail_checkHigh (o : ParsingOptions) (s : Bytes) (sur p : Nat) (st : ParserImpl)
    (hc : (checkInvalidUtf16HighSurrogateOptionAndEncode o s sur p st).1 = false) :
    PolicyFail false (checkInvalidUtf16HighSurrogateOptionAndEncode o s sur p st).2.2 :=
  policyFail_check o s sur p _ _ st (by decide) (by decide) hc

theorem policyFail_checkLow (o : ParsingOptions) (s : Bytes) (sur p : Nat) (st : ParserImpl)
    (hc : (checkInvalidUtf16LowSurrogateOptionAndEncode o s sur p st).1 = false) :
    PolicyFail false (checkInvalidUtf16LowSurrogateOptionAndEncode o s sur p st).2.2 :=
  policyFail_check o s sur p _ _ st (by decide) (by decide) hc

theorem pieces_quote_cons (ps : List Piece) : ∃ c τ, piecesText ps ++ [34] = c :: τ := by
  cases h : piecesText ps ++ [34] with
  | nil => simp at h
  | cons c τ => exact ⟨c, τ, rfl⟩

theorem parseStringSurrogates_lock (target e : Nat) (X : Bytes) (o : ParsingOptions)
    (fuel : Nat) :
    ∀ (ps : List Piece) (s : Bytes) (sur : Nat) (st : ParserImpl) (ex : SurrogateLoopExit),
      (∀ p ∈ ps, p.WellFormed .Strict) → Inv target e st.i (piecesText ps ++ [34]) X →
      parseStringSurrogates o fuel s sur st = some ex → SurLock target e X ex := by
  induction fuel with
  | zero =>
    intro ps s sur st ex _ _ h
    simp [parseStringSurrogates] at h
  | succ fuel ih =>
    intro ps s sur st ex hps hinv h
    unfold parseStringSurrogates at h
    by_cases he : st.i.rest = []
    · simp only [he, if_true, Option.some.injEq] at h
      subst h
      obtain ⟨c, τ, hc⟩ := pieces_quote_cons ps
      rw [hc] at hinv
      exact Lock.of_past (hinv.at_end he) (le_refl _)
    · simp only [he, if_false] at h
      cases hm : EscapedStringParser.parseMore .Strict st.i with
      | none => simp [hm] at h
      | some x =>
        obtain ⟨r2, i2⟩ := x
        have hml := parseMore_lock hps hinv hm
        simp only [hm] at h
        cases hres : r2.result <;> simp only [hres] at h <;> simp only [hres, MoreLock] at hml
        · -- Skip
          split_ifs at h with hc1
          · simp only [Option.some.injEq] at h; subst h
            show ∃ ps, _
            rw [checkHigh_cursor]
            exact hml
          · simp only [Option.some.injEq] at h; subst h
            exact Or.inl (policyFail_checkHigh _ _ _ _ _ (by simpa using hc1))
        · -- Unescaped
          split_ifs at h with hc1
          · simp only [Option.some.injEq] at h; subst h
            show ∃ ps, _
            rw [checkHigh_cursor]
            exact hml
          · simp only [Option.some.injEq] at h; subst h
            exact Or.inl (policyFail_checkHigh _ _ _ _ _ (by simpa using hc1))
        · -- HighSurrogate
          obtain ⟨ps2, hps2, hinv2⟩ := hml
          split_ifs at h with hc1
          · refine ih ps2 _ _ _ _ hps2 ?_ h
            rw [checkHigh_cursor]
            exact hinv2
          · simp only [Option.some.injEq] at h; subst h
            exact Or.inl (policyFail_checkHigh _ _ _ _ _ (by simpa using hc1))
        · -- LowSurrogate
          simp only [Option.some.injEq] at h; subst h
          exact hml
        · -- JsonStringEnd
          simp only [Option.some.injEq] at h; subst h
          show Lock _ _ _ _
          cases hc1 : (checkInvalidUtf16HighSurrogateOptionAndEncode o s sur (st.i.pos - 6)
              ({ st with i := i2 } : ParserImpl).advance).1
          · exact Or.inl (policyFail_checkHigh _ _ _ _ _ hc1)
          · refine Lock.of_inv (X := X) ?_
            rw [checkHigh_cursor]
            exact hml
        · -- InvalidCharacter
          simp only [Option.some.injEq] at h; subst h
          exact Lock.of_past hml (le_refl _)
        · -- UnexpectedEndOfInput
          simp only [Option.some.injEq] at h; subst h
          exact Lock.of_past hml (le_refl _)

theorem parseStringLoop_lock (target e : Nat) (X : Bytes) (o : ParsingOptions) (fuel : Nat) :
    ∀ (ps : List Piece) (s : Bytes) (pb : Ptr) (st : ParserImpl) (r : Bool) (s' : Bytes)
      (st' : ParserImpl),
      (∀ p ∈ ps, p.WellFormed .Strict) → Inv target e st.i (piecesText ps ++ [34]) X →
      parseStringLoop o fuel s pb st = some (r, s', st') → Lock target e r st' := by
  induction fuel with
  | zero =>
    intro ps s pb st r s' st' _ _ h
    simp [parseStringLoop] at h
  | succ fuel ih =>
    intro ps s pb st r s' st' hps hinv h
    unfold parseStringLoop at h
    by_cases he : st.detectEndOfInput.1 = true
    · simp only [he, if_true, Option.some.injEq, Prod.mk.injEq] at h
      obtain ⟨rfl, rfl, rfl⟩ := h
      have hi : st.detectEndOfInput.2.i = st.i := by
        unfold detectEndOfInput
        split_ifs <;> rfl
      have hend : st.i.rest = [] := by
        unfold detectEndOfInput at he
        by_cases hem : st.isEmpty = true
        · simpa [isEmpty] using hem
        · simp [hem] at he
      obtain ⟨c, τ, hc⟩ := pieces_quote_cons ps
      rw [hc] at hinv
      exact Lock.of_past (hinv.at_end hend) (by rw [hi])
    · have he' : st.detectEndOfInput.1 = false := by simpa using he
      obtain ⟨heq, hne⟩ := detectEndOfInput_false st he'
      simp only [he', heq] at h
      simp only [Bool.false_eq_true, if_false] at h
      cases hm : EscapedStringParser.parseMore .Strict st.i with
      | none => simp [hm] at h
      | some x =>
        obtain ⟨r1, i1⟩ := x
        have hml := parseMore_lock hps hinv hm
        simp only [hm] at h
        cases hres : r1.result <;> simp only [hres] at h <;> simp only [hres, MoreLock] at hml
        · -- Skip
          obtain ⟨ps2, hps2, hinv2⟩ := hml
          exact ih ps2 _ _ _ _ _ _ hps2 hinv2 h
        · -- Unescaped
          obtain ⟨ps2, hps2, hinv2⟩ := hml
          exact ih ps2 _ _ _ _ _ _ hps2 hinv2 h
        · -- HighSurrogate
          obtain ⟨ps2, hps2, hinv2⟩ := hml
          cases hsur : parseStringSurrogates o fuel (s ++ pb.range st.i) r1.surrogate
              { st with i := i1 } with
          | none => simp [hsur] at h
          | some ex =>
            have hg := parseStringSurrogates_lock target e X o fuel ps2 _ _ _ _ hps2 hinv2 hsur
            simp only [hsur] at h
            cases ex with
            | returned b s2 st2 =>
              simp only [Option.some.injEq, Prod.mk.injEq] at h
              obtain ⟨rfl, rfl, rfl⟩ := h
              exact hg
            | broke s2 pb2 st2 =>
              simp only at h
              obtain ⟨ps3, hps3, hinv3⟩ := hg
              exact ih ps3 _ _ _ _ _ _ hps3 hinv3 h
        · -- LowSurrogate
          obtain ⟨ps2, hps2, hinv2⟩ := hml
          split_ifs at h with hc1
          · refine ih ps2 _ _ _ _ _ _ hps2 ?_ h
            rw [checkLow_cursor]
            exact hinv2
          · simp only [Option.some.injEq, Prod.mk.injEq] at h
            obtain ⟨rfl, rfl, rfl⟩ := h
            exact Or.inl (policyFail_checkLow _ _ _ _ _ (by simpa using hc1))
        · -- JsonStringEnd
          simp only [Option.some.injEq, Prod.mk.injEq] at h
          obtain ⟨rfl, rfl, rfl⟩ := h
          exact Lock.of_inv (X := X) hml
        · -- InvalidCharacter
          simp only [Option.some.injEq, Prod.mk.injEq] at h
          obtain ⟨rfl, rfl, rfl⟩ := h
          exact Lock.of_past hml (le_refl _)
        · -- UnexpectedEndOfInput
          simp only [Option.some.injEq, Prod.mk.injEq] at h
          obtain ⟨rfl, rfl, rfl⟩ := h
          exact Lock.of_past hml (le_refl _)

theorem parseString_lock {target e : Nat} {X : Bytes} {o : ParsingOptions} {ps : List Piece}
    (hps : ∀ p ∈ ps, p.WellFormed .Strict) {s : Bytes} {st : ParserImpl} {r : Bool}
    {s' : Bytes} {st' : ParserImpl} {b : Byte} {t : Bytes} (hr : st.i.rest = b :: t)
    (hinv : Inv target e st.i (stringLiteral ps) X)
    (h : parseString o s st = some (r, s', st')) : Lock target e r st' := by
  unfold parseString at h
  exact parseStringLoop_lock target e X o _ ps _ _ _ _ _ _ hps
    (Inv.char (by simpa [stringLiteral] using hinv) hr).1 h

theorem ValueHead.not_ws {b : Byte} (h : ValueHead b) : ¬ isWhitespace b := by
  unfold ValueHead at h
  unfold isWhitespace
  omega

theorem stringText_head {t : Bytes} (h : StringText t) : ∃ t', t = 34 :: t' := by
  obtain ⟨ps, -, rfl⟩ := h
  exact ⟨_, rfl⟩

theorem numberText_head {t : Bytes} (h : NumberText t) :
    ∃ b t', t = b :: t' ∧ (b.val = 45 ∨ (48 ≤ b.val ∧ b.val ≤ 57)) := by
  obtain ⟨neg, ip, fp, ep, rfl, hip, -, -⟩ := h
  obtain ⟨d, ds, rfl, hd⟩ := integerPart_cons hip
  cases neg
  · exact ⟨d, _, rfl, Or.inr hd⟩
  · exact ⟨45, _, rfl, Or.inl rfl⟩

theorem json_head {k : Sym} {t : Bytes} (h : Json k t) :
    ∃ b t', t = b :: t' ∧ ValueHead b ∧ (k = .members → b = 34) := by
  induction h with
  | nullText => exact ⟨110, _, literal_null, Or.inl rfl, by simp⟩
  | falseText => exact ⟨102, _, literal_false, Or.inr (Or.inl rfl), by simp⟩
  | trueText => exact ⟨116, _, literal_true, Or.inr (Or.inr (Or.inl rfl)), by simp⟩
  | number h =>
    obtain ⟨b, t', rfl, hb⟩ := numberText_head h
    exact ⟨b, t', rfl, by unfold ValueHead; omega, by simp⟩
  | string h =>
    obtain ⟨t', rfl⟩ := stringText_head h
    exact ⟨34, t', rfl, Or.inr (Or.inr (Or.inr (Or.inl rfl))), by simp⟩
  | emptyArray w hw => exact ⟨91, _, rfl, by unfold ValueHead; decide, by simp⟩
  | array w hw h ih => exact ⟨91, _, rfl, by unfold ValueHead; decide, by simp⟩
  | emptyObject w hw => exact ⟨123, _, rfl, by unfold ValueHead; decide, by simp⟩
  | object w hw h ih => exact ⟨123, _, rfl, by unfold ValueHead; decide, by simp⟩
  | lastElement w h hw ih =>
    obtain ⟨b, t', rfl, hb, -⟩ := ih
    exact ⟨b, _, rfl, hb, by simp⟩
  | nextElement w1 w2 h hw1 hw2 hr ih1 ih2 =>
    obtain ⟨b, t', rfl, hb, -⟩ := ih1
    exact ⟨b, _, rfl, hb, by simp⟩
  | lastMember w1 w2 w3 hk h hw1 hw2 hw3 ih =>
    obtain ⟨t', rfl⟩ := stringText_head hk
    exact ⟨34, _, rfl, Or.inr (Or.inr (Or.inr (Or.inl rfl))), fun _ => rfl⟩
  | nextMember w1 w2 w3 w4 hk h hw1 hw2 hw3 hw4 hr ih1 ih2 =>
    obtain ⟨t', rfl⟩ := stringText_head hk
    exact ⟨34, _, rfl, Or.inr (Or.inr (Or.inr (Or.inl rfl))), fun _ => rfl⟩

theorem head_after_ws (c : Byte) (T : Bytes) (hc : ¬ isWhitespace c) :
    ∀ b, (c :: T).head? = some b → ¬ isWhitespace b := by
  intro b hb
  simp only [List.head?_cons, Option.some.injEq] at hb
  subst hb
  exact hc

theorem parseImpl_literal_n (o : ParsingOptions) (fuel : Nat) (v : Value) (st : ParserImpl)
    (B : Bytes) (h : st.i.rest = 110 :: B) :
    parseImpl o (fuel + 1) v st = some (parseLiteral .null NullLiteral v st) := by
  unfold parseImpl
  simp only [h]
  rfl

theorem parseImpl_literal_f (o : ParsingOptions) (fuel : Nat) (v : Value) (st : ParserImpl)
    (B : Bytes) (h : st.i.rest = 102 :: B) :
    parseImpl o (fuel + 1) v st = some (parseLiteral (.boolean false) FalseLiteral v st) := by
  unfold parseImpl
  simp only [h]
  rfl

theorem parseImpl_literal_t (o : ParsingOptions) (fuel : Nat) (v : Value) (st : ParserImpl)
    (B : Bytes) (h : st.i.rest = 116 :: B) :
    parseImpl o (fuel + 1) v st = some (parseLiteral (.boolean true) TrueLiteral v st) := by
  unfold parseImpl
  simp only [h]
  rfl

theorem parseImpl_quote (o : ParsingOptions) (fuel : Nat) (v : Value) (st : ParserImpl)
    (B : Bytes) (h : st.i.rest = 34 :: B) :
    parseImpl o (fuel + 1) v st =
      match parseString o [] st with
      | none => none
      | some (r, s, st) => some (r, .string s, st) := by
  unfold parseImpl
  simp only [h]
  rfl

theorem parseImpl_bracket (o : ParsingOptions) (fuel : Nat) (v : Value) (st : ParserImpl)
    (B : Bytes) (h : st.i.rest = 91 :: B) :
    parseImpl o (fuel + 1) v st = parseArray o fuel v st := by
  unfold parseImpl
  simp only [h]
  rfl

theorem parseImpl_brace (o : ParsingOptions) (fuel : Nat) (v : Value) (st : ParserImpl)
    (B : Bytes) (h : st.i.rest = 123 :: B) :
    parseImpl o (fuel + 1) v st = parseObject o fuel v st := by
  unfold parseImpl
  simp only [h]
  rfl

theorem parseImpl_digits (o : ParsingOptions) (fuel : Nat) (v : Value) (st : ParserImpl)
    (b : Byte) (B : Bytes) (h : st.i.rest = b :: B)
    (hb : b.val = 45 ∨ (48 ≤ b.val ∧ b.val ≤ 57)) :
    parseImpl o (fuel + 1) v st = parseNumber v st := by
  unfold parseImpl
  simp only [h]
  have h1 : ¬ b.val = 110 := by omega
  have h2 : ¬ b.val = 102 := by omega
  have h3 : ¬ b.val = 116 := by omega
  have h4 : ¬ b.val = 34 := by omega
  have h5 : ¬ b.val = 91 := by omega
  have h6 : ¬ b.val = 123 := by omega
  simp only [if_neg h1, if_neg h2, if_neg h3, if_neg h4, if_neg h5, if_neg h6]

theorem parseImpl_past {target e : Nat} {o : ParsingOptions} {fuel : Nat} {v v' : Value}
    {st st' : ParserImpl} {r : Bool} {t X : Bytes} (hinv : Inv target e st.i t X)
    (hlt : ¬ st.i.pos < target) (h : parseImpl o fuel v st = some (r, v', st')) :
    Lock target e r st' :=
  Lock.of_past (hinv.not_lt hlt) ((parser_gram o fuel).1 _ _ _ _ _ h).le_pos

theorem lock_null : LockAll .value NullLiteral := by
  intro o fuel v st r v' st' target e X hX hinv h
  by_cases hlt : st.i.pos < target
  swap
  · exact parseImpl_past hinv hlt h
  rw [literal_null] at hinv
  obtain ⟨B, hB⟩ := hinv.first hlt
  cases fuel with
  | zero => simp [parseImpl] at h
  | succ fuel =>
    rw [parseImpl_literal_n o fuel v st B hB, literal_null] at h
    simp only [Option.some.injEq] at h
    have := parseLiteral_lock target e X .null 110 117 [108, 108] v st 110 B hB hinv
    rw [h] at this
    exact this

theorem lock_false : LockAll .value FalseLiteral := by
  intro o fuel v st r v' st' target e X hX hinv h
  by_cases hlt : st.i.pos < target
  swap
  · exact parseImpl_past hinv hlt h
  rw [literal_false] at hinv
  obtain ⟨B, hB⟩ := hinv.first hlt
  cases fuel with
  | zero => simp [parseImpl] at h
  | succ fuel =>
    rw [parseImpl_literal_f o fuel v st B hB, literal_false] at h
    simp only [Option.some.injEq] at h
    have := parseLiteral_lock target e X (.boolean false) 102 97 [108, 115, 101] v st 102 B hB
      hinv
    rw [h] at this
    exact this

theorem lock_true : LockAll .value TrueLiteral := by
  intro o fuel v st r v' st' target e X hX hinv h
  by_cases hlt : st.i.pos < target
  swap
  · exact parseImpl_past hinv hlt h
  rw [literal_true] at hinv
  obtain ⟨B, hB⟩ := hinv.first hlt
  cases fuel with
  | zero => simp [parseImpl] at h
  | succ fuel =>
    rw [parseImpl_literal_t o fuel v st B hB, literal_true] at h
    simp only [Option.some.injEq] at h
    have := parseLiteral_lock target e X (.boolean true) 116 114 [117, 101] v st 116 B hB hinv
    rw [h] at this
    exact this

theorem lock_number {t : Bytes} (hn : NumberText t) : LockAll .value t := by
  intro o fuel v st r v' st' target e X hX hinv h
  by_cases hlt : st.i.pos < target
  swap
  · exact parseImpl_past hinv hlt h
  obtain ⟨b, t', ht, hb⟩ := numberText_head hn
  obtain ⟨neg, ip, fp, ep, rfl, hip, hfp, hep⟩ := hn
  have hinv' := hinv
  rw [ht] at hinv'
  obtain ⟨B, hB⟩ := hinv'.first hlt
  cases fuel with
  | zero => simp [parseImpl] at h
  | succ fuel =>
    rw [parseImpl_digits o fuel v st b B hB hb] at h
    exact parseNumber_lock hinv hip hfp hep hX h

theorem lock_string {t : Bytes} (hs : StringText t) : LockAll .value t := by
  intro o fuel v st r v' st' target e X hX hinv h
  by_cases hlt : st.i.pos < target
  swap
  · exact parseImpl_past hinv hlt h
  obtain ⟨ps, hps, rfl⟩ := hs
  have hinv' : Inv target e st.i (34 :: (piecesText ps ++ [34])) X := hinv
  obtain ⟨B, hB⟩ := hinv'.first hlt
  cases fuel with
  | zero => simp [parseImpl] at h
  | succ fuel =>
    rw [parseImpl_quote o fuel v st B hB] at h
    cases hrun : parseString o [] st with
    | none => simp [hrun] at h
    | some x =>
      obtain ⟨rs, ss, sts⟩ := x
      simp only [hrun, Option.some.injEq, Prod.mk.injEq] at h
      obtain ⟨rfl, rfl, rfl⟩ := h
      exact parseString_lock hps hB hinv hrun

theorem arrayTail_cons {τ : Bytes} (h : ArrayTail τ) :
    ∃ b t', τ = b :: t' ∧ ¬ isWhitespace b := by
  rcases h with rfl | ⟨-, b, t', rfl, hb⟩
  · exact ⟨93, [], rfl, by decide⟩
  · exact ⟨b, t', rfl, hb.not_ws⟩

theorem parseArray_lock {target e : Nat} {X : Bytes} {o : ParsingOptions} {fuel : Nat}
    {v v' : Value} {st st' : ParserImpl} {r : Bool} (w τ B : Bytes)
    (hw : ∀ b ∈ w, isWhitespace b) (hB : st.i.rest = 91 :: B)
    (hinv : Inv target e st.i (91 :: (w ++ τ)) X) (hτ : ArrayTail τ) (hX : InertEnd X)
    (h : parseArray o fuel v st = some (r, v', st')) : Lock target e r st' := by
  obtain ⟨c0, τ0, hτ0, hc0⟩ := arrayTail_cons hτ
  cases fuel with
  | zero => simp [parseArray] at h
  | succ fuel =>
    unfold parseArray at h
    have hinv1 := (Inv.char hinv hB).1
    have hinv2 : Inv target e st.advance.detectEndOfInputAfterSkippingWhitespaces.2.i τ X := by
      refine Inv.ws hinv1 hw ?_
      rw [hτ0]
      exact head_after_ws c0 _ hc0
    by_cases he : st.advance.detectEndOfInputAfterSkippingWhitespaces.1 = true
    · simp only [he, if_true, Option.some.injEq, Prod.mk.injEq] at h
      obtain ⟨rfl, rfl, rfl⟩ := h
      rw [hτ0] at hinv2
      exact Lock.of_past (hinv2.at_end (endWs_true _ he)) (le_refl _)
    · have he' : st.advance.detectEndOfInputAfterSkippingWhitespaces.1 = false := by
        simpa using he
      simp only [he', Bool.false_eq_true, if_false] at h
      rcases st.advance.detectEndOfInputAfterSkippingWhitespaces.2.i.rest_cases with
        hr | ⟨b, rest, hr⟩
      · simp [hr] at h
      · simp only [hr] at h
        split_ifs at h with h1
        · simp only [Option.some.injEq, Prod.mk.injEq] at h
          obtain ⟨rfl, rfl, rfl⟩ := h
          rcases hτ with rfl | ⟨-, b2, t2, rfl, hb2⟩
          · exact Lock.of_inv (Inv.char hinv2 hr).1
          · refine Lock.of_past (Inv.head_ne hinv2 hr ?_) (moved_advance hr).le
            rintro rfl
            unfold ValueHead at hb2
            omega
        · cases hm : parseArrayMembersRecursion o fuel [] .null 1
              st.advance.detectEndOfInputAfterSkippingWhitespaces.2 with
          | none => simp [hm] at h
          | some x =>
            obtain ⟨rm, am, um, sm⟩ := x
            have hmono := ((parser_gram o fuel).2.2.1 _ _ _ _ _ _ _ _ hm).le_pos
            have hl : Lock target e rm sm := by
              rcases hτ with rfl | ⟨hel, -⟩
              · refine Lock.of_past (Inv.head_ne hinv2 hr ?_) hmono
                rintro rfl
                exact h1 rfl
              · exact hel.1 o fuel _ _ _ _ _ _ _ _ target e X hX hinv2 hm
            simp only [hm] at h
            cases rm <;> simp only [Option.some.injEq, Prod.mk.injEq] at h <;>
              obtain ⟨rfl, rfl, rfl⟩ := h <;> exact hl

theorem objectTail_cons {τ : Bytes} (h : ObjectTail τ) :
    ∃ b t', τ = b :: t' ∧ ¬ isWhitespace b := by
  rcases h with rfl | ⟨-, t', rfl⟩
  · exact ⟨125, [], rfl, by decide⟩
  · exact ⟨34, t', rfl, by decide⟩

theorem parseObject_lock {target e : Nat} {X : Bytes} {o : ParsingOptions} {fuel : Nat}
    {v v' : Value} {st st' : ParserImpl} {r : Bool} (w τ B : Bytes)
    (hw : ∀ b ∈ w, isWhitespace b) (hB : st.i.rest = 123 :: B)
    (hinv : Inv target e st.i (123 :: (w ++ τ)) X) (hτ : ObjectTail τ) (hX : InertEnd X)
    (h : parseObject o fuel v st = some (r, v', st')) : Lock target e r st' := by
  obtain ⟨c0, τ0, hτ0, hc0⟩ := objectTail_cons hτ
  cases fuel with
  | zero => simp [parseObject] at h
  | succ fuel =>
    unfold parseObject at h
    have hinv1 := (Inv.char hinv hB).1
    have hinv2 : Inv target e st.advance.detectEndOfInputAfterSkippingWhitespaces.2.i τ X := by
      refine Inv.ws hinv1 hw ?_
      rw [hτ0]
      exact head_after_ws c0 _ hc0
    by_cases he : st.advance.detectEndOfInputAfterSkippingWhitespaces.1 = true
    · simp only [he, if_true, Option.some.injEq, Prod.mk.injEq] at h
      obtain ⟨rfl, rfl, rfl⟩ := h
      rw [hτ0] at hinv2
      exact Lock.of_past (hinv2.at_end (endWs_true _ he)) (le_refl _)
    · have he' : st.advance.detectEndOfInputAfterSkippingWhitespaces.1 = false := by
        simpa using he
      simp only [he', Bool.false_eq_true, if_false] at h
      rcases st.advance.detectEndOfInputAfterSkippingWhitespaces.2.i.rest_cases with
        hr | ⟨b, rest, hr⟩
      · simp [hr] at h
      · simp only [hr] at h
        split_ifs at h with h1
        · simp only [Option.some.injEq, Prod.mk.injEq] at h
          obtain ⟨rfl, rfl, rfl⟩ := h
          rcases hτ with rfl | ⟨-, t2, rfl⟩
          · exact Lock.of_inv (Inv.char hinv2 hr).1
          · refine Lock.of_past (Inv.head_ne hinv2 hr ?_) (moved_advance hr).le
            rintro rfl
            exact absurd h1 (by decide)
        · cases hm : parseObjectMembers o fuel []
              st.advance.detectEndOfInputAfterSkippingWhitespaces.2 with
          | none => simp [hm] at h
          | some x =>
            obtain ⟨rm, om, sm⟩ := x
            have hmono := ((parser_gram o fuel).2.2.2.2.2 _ _ _ _ _ hm).le_pos
            have hl : Lock target e rm sm := by
              rcases hτ with rfl | ⟨hel, -⟩
              · refine Lock.of_past (Inv.head_ne hinv2 hr ?_) hmono
                rintro rfl
                exact h1 rfl
              · exact hel o fuel _ _ _ _ _ target e X hX hinv2 hm
            simp only [hm, Option.some.injEq, Prod.mk.injEq] at h
            obtain ⟨rfl, rfl, rfl⟩ := h
            exact hl

theorem ElementsTail.head_byte {c : Byte} {τ : Bytes} (h : ElementsTail c τ) :
    c.val = 93 ∨ c.val = 44 := by
  rcases h with ⟨rfl, -⟩ | ⟨rfl, -⟩
  · exact Or.inl rfl
  · exact Or.inr rfl

theorem elementsRec_lock (t1 w : Bytes) (c : Byte) (τ : Bytes) (hv : LockAll .value t1)
    (hw : ∀ b ∈ w, isWhitespace b) (hc : ElementsTail c τ)
    (o : ParsingOptions) (fuel : Nat) (a : List Value) (v : Value) (size : Nat)
    (st : ParserImpl) (r : Bool) (a' : List Value) (v' : Value) (st' : ParserImpl)
    (target e : Nat) (X : Bytes) (hX : InertEnd X)
    (hinv : Inv target e st.i (t1 ++ (w ++ c :: τ)) X)
    (h : parseArrayMembersRecursion o fuel a v size st = some (r, a', v', st')) :
    Lock target e r st' := by
  have hcb := hc.head_byte
  have hcws : ¬ isWhitespace c := by unfold isWhitespace; omega
  cases fuel with
  | zero => simp [parseArrayMembersRecursion] at h
  | succ fuel =>
    unfold parseArrayMembersRecursion at h
    cases hi : parseImpl o fuel v st with
    | none => simp [hi] at h
    | some x =>
      obtain ⟨ri, vi, si⟩ := x
      obtain ⟨c1, hm1, -, -⟩ := (parser_gram o fuel).1 _ _ _ _ _ hi
      have hinert : InertEnd ((w ++ c :: τ) ++ X) := by
        rw [List.append_assoc]
        exact inertEnd_after w hw c _ (by omega)
      have hsub := hv o fuel v st ri vi si target (st.i.pos + t1.length) _ hinert
        (Inv.part hinv) hi
      simp only [hi] at h
      cases ri
      · simp only [Option.some.injEq, Prod.mk.injEq] at h
        obtain ⟨rfl, rfl, rfl, rfl⟩ := h
        exact Lock.fail_sub hinv hsub hm1.le
      · simp only at h
        have hinv1 := Inv.of_lock hinv hm1 hsub
        have hinv2 : Inv target e si.detectEndOfInputAfterSkippingWhitespaces.2.i (c :: τ) X :=
          Inv.ws hinv1 hw (head_after_ws c _ hcws)
        by_cases he : si.detectEndOfInputAfterSkippingWhitespaces.1 = true
        · simp only [he, if_true, Option.some.injEq, Prod.mk.injEq] at h
          obtain ⟨rfl, rfl, rfl, rfl⟩ := h
          exact Lock.of_past (hinv2.at_end (endWs_true _ he)) (le_refl _)
        · have he' : si.detectEndOfInputAfterSkippingWhitespaces.1 = false := by
            simpa using he
          simp only [he', Bool.false_eq_true, if_false] at h
          rcases si.detectEndOfInputAfterSkippingWhitespaces.2.i.rest_cases with
            hr | ⟨b, rest, hr⟩
          · simp [hr] at h
          · simp only [hr] at h
            have hadv := moved_advance hr
            obtain ⟨w2', hw2', -⟩ := moved_endWs
              si.detectEndOfInputAfterSkippingWhitespaces.2.advance
            have hmono4 := (hadv.append_moved hw2').le
            have hinv3 := (Inv.char hinv2 hr).1
            -- the state after the comma and the whitespace, against the next elements
            have hnext : b.val = 44 → ∃ τ4, Inv target e
                si.detectEndOfInputAfterSkippingWhitespaces.2.advance.detectEndOfInputAfterSkippingWhitespaces.2.i
                  τ4 X ∧ ((∃ b4 t4, τ4 = b4 :: t4) ∧ LockAll .elements τ4 ∨
                    (target ≤ e ∧ target ≤
                      si.detectEndOfInputAfterSkippingWhitespaces.2.i.pos)) := by
              intro hb
              rcases hc with ⟨rfl, rfl⟩ | ⟨rfl, w2, rest2, rfl, hw2, hel, b4, t4, rfl, hb4⟩
              · have hd := Inv.head_ne hinv2 hr (by rintro rfl; exact absurd hb (by decide))
                exact ⟨[], Inv.past _ X hd hmono4, Or.inr hd⟩
              · exact ⟨_, Inv.ws hinv3 hw2 (head_after_ws b4 _ hb4.not_ws),
                  Or.inl ⟨⟨b4, t4, rfl⟩, hel⟩⟩
            split_ifs at h with h1 h2 h3 h4
            · simp only [Option.some.injEq, Prod.mk.injEq] at h
              obtain ⟨rfl, rfl, rfl, rfl⟩ := h
              rcases hc with ⟨rfl, rfl⟩ | ⟨rfl, -⟩
              · exact Lock.of_inv hinv3
              · refine Lock.of_past (Inv.head_ne hinv2 hr ?_) hadv.le
                rintro rfl
                exact absurd h1 (by decide)
            · simp only [Option.some.injEq, Prod.mk.injEq] at h
              obtain ⟨rfl, rfl, rfl, rfl⟩ := h
              obtain ⟨τ4, hinv4, hcase⟩ := hnext h2
              rcases hcase with ⟨⟨b4, t4, rfl⟩, -⟩ | hd
              · exact Lock.of_past (hinv4.at_end (endWs_true _ h3)) (le_refl _)
              · exact Lock.of_past hd hmono4
            · cases hm : parseArrayMembersLoop o fuel (resize a (size + 1))
                  si.detectEndOfInputAfterSkippingWhitespaces.2.advance.detectEndOfInputAfterSkippingWhitespaces.2 with
              | none => simp [hm] at h
              | some x =>
                obtain ⟨rm, am, sm⟩ := x
                have hmono := ((parser_gram o fuel).2.2.2.1 _ _ _ _ _ hm).le_pos
                simp only [hm, Option.some.injEq, Prod.mk.injEq] at h
                obtain ⟨rfl, rfl, rfl, rfl⟩ := h
                obtain ⟨τ4, hinv4, hcase⟩ := hnext h2
                rcases hcase with ⟨-, hel⟩ | hd
                · exact hel.2 o fuel _ _ _ _ _ target e X hX hinv4 hm
                · exact Lock.of_past hd (le_trans hmono4 hmono)
            · cases hm : parseArrayMembersRecursion o fuel a .null (size + 1)
                  si.detectEndOfInputAfterSkippingWhitespaces.2.advance.detectEndOfInputAfterSkippingWhitespaces.2 with
              | none => simp [hm] at h
              | some x =>
                obtain ⟨rm, am, um, sm⟩ := x
                have hmono := ((parser_gram o fuel).2.2.1 _ _ _ _ _ _ _ _ hm).le_pos
                have hl : Lock target e rm sm := by
                  obtain ⟨τ4, hinv4, hcase⟩ := hnext h2
                  rcases hcase with ⟨-, hel⟩ | hd
                  · exact hel.1 o fuel _ _ _ _ _ _ _ _ target e X hX hinv4 hm
                  · exact Lock.of_past hd (le_trans hmono4 hmono)
                simp only [hm] at h
                cases rm <;> simp only [Option.some.injEq, Prod.mk.injEq] at h <;>
                  obtain ⟨rfl, rfl, rfl, rfl⟩ := h <;> exact hl
            · simp only [Option.some.injEq, Prod.mk.injEq] at h
              obtain ⟨rfl, rfl, rfl, rfl⟩ := h
              refine Lock.of_past (Inv.head_ne hinv2 hr ?_) (le_refl _)
              rintro rfl
              omega

theorem elementsLoop_lock (t1 w : Bytes) (c : Byte) (τ : Bytes) (hv : LockAll .value t1)
    (hw : ∀ b ∈ w, isWhitespace b) (hc : ElementsTail c τ)
    (o : ParsingOptions) (fuel : Nat) (a : List Value)
    (st : ParserImpl) (r : Bool) (a' : List Value) (st' : ParserImpl)
    (target e : Nat) (X : Bytes) (hX : InertEnd X)
    (hinv : Inv target e st.i (t1 ++ (w ++ c :: τ)) X)
    (h : parseArrayMembersLoop o fuel a st = some (r, a', st')) :
    Lock target e r st' := by
  have hcb := hc.head_byte
  have hcws : ¬ isWhitespace c := by unfold isWhitespace; omega
  cases fuel with
  | zero => simp [parseArrayMembersLoop] at h
  | succ fuel =>
    unfold parseArrayMembersLoop at h
    cases hi : parseImpl o fuel (a.getLastD .null) st with
    | none => rw [hi] at h; exact absurd h (by simp)
    | some x =>
      obtain ⟨ri, vi, si⟩ := x
      obtain ⟨c1, hm1, -, -⟩ := (parser_gram o fuel).1 _ _ _ _ _ hi
      have hinert : InertEnd ((w ++ c :: τ) ++ X) := by
        rw [List.append_assoc]
        exact inertEnd_after w hw c _ (by omega)
      have hsub := hv o fuel _ st ri vi si target (st.i.pos + t1.length) _ hinert
        (Inv.part hinv) hi
      simp only [hi] at h
      cases ri
      · simp only [Option.some.injEq, Prod.mk.injEq] at h
        obtain ⟨rfl, rfl, rfl⟩ := h
        exact Lock.fail_sub hinv hsub hm1.le
      · simp only at h
        have hinv1 := Inv.of_lock hinv hm1 hsub
        have hinv2 : Inv target e si.detectEndOfInputAfterSkippingWhitespaces.2.i (c :: τ) X :=
          Inv.ws hinv1 hw (head_after_ws c _ hcws)
        by_cases he : si.detectEndOfInputAfterSkippingWhitespaces.1 = true
        · simp only [he, if_true, Option.some.injEq, Prod.mk.injEq] at h
          obtain ⟨rfl, rfl, rfl⟩ := h
          exact Lock.of_past (hinv2.at_end (endWs_true _ he)) (le_refl _)
        · have he' : si.detectEndOfInputAfterSkippingWhitespaces.1 = false := by
            simpa using he
          simp only [he', Bool.false_eq_true, if_false] at h
          rcases si.detectEndOfInputAfterSkippingWhitespaces.2.i.rest_cases with
            hr | ⟨b, rest, hr⟩
          · simp [hr] at h
          · simp only [hr] at h
            have hadv := moved_advance hr
            obtain ⟨w2', hw2', -⟩ := moved_endWs
              si.detectEndOfInputAfterSkippingWhitespaces.2.advance
            have hmono4 := (hadv.append_moved hw2').le
            have hinv3 := (Inv.char hinv2 hr).1
            have hnext : b.val = 44 → ∃ τ4, Inv target e
                si.detectEndOfInputAfterSkippingWhitespaces.2.advance.detectEndOfInputAfterSkippingWhitespaces.2.i
                  τ4 X ∧ ((∃ b4 t4, τ4 = b4 :: t4) ∧ LockAll .elements τ4 ∨
                    (target ≤ e ∧ target ≤
                      si.detectEndOfInputAfterSkippingWhitespaces.2.i.pos)) := by
              intro hb
              rcases hc with ⟨rfl, rfl⟩ | ⟨rfl, w2, rest2, rfl, hw2, hel, b4, t4, rfl, hb4⟩
              · have hd := Inv.head_ne hinv2 hr (by rintro rfl; exact absurd hb (by decide))
                exact ⟨[], Inv.past _ X hd hmono4, Or.inr hd⟩
              · exact ⟨_, Inv.ws hinv3 hw2 (head_after_ws b4 _ hb4.not_ws),
                  Or.inl ⟨⟨b4, t4, rfl⟩, hel⟩⟩
            split_ifs at h with h1 h2 h3
            · simp only [Option.some.injEq, Prod.mk.injEq] at h
              obtain ⟨rfl, rfl, rfl⟩ := h
              rcases hc with ⟨rfl, rfl⟩ | ⟨rfl, -⟩
              · exact Lock.of_inv hinv3
              · refine Lock.of_past (Inv.head_ne hinv2 hr ?_) hadv.le
                rintro rfl
                exact absurd h1 (by decide)
            · simp only [Option.some.injEq, Prod.mk.injEq] at h
              obtain ⟨rfl, rfl, rfl⟩ := h
              obtain ⟨τ4, hinv4, hcase⟩ := hnext h2
              rcases hcase with ⟨⟨b4, t4, rfl⟩, -⟩ | hd
              · exact Lock.of_past (hinv4.at_end (endWs_true _ h3)) (le_refl _)
              · exact Lock.of_past hd hmono4
            · have hmono := ((parser_gram o fuel).2.2.2.1 _ _ _ _ _ h).le_pos
              obtain ⟨τ4, hinv4, hcase⟩ := hnext h2
              rcases hcase with ⟨-, hel⟩ | hd
              · exact hel.2 o fuel _ _ _ _ _ target e X hX hinv4 h
              · exact Lock.of_past hd (le_trans hmono4 hmono)
            · simp only [Option.some.injEq, Prod.mk.injEq] at h
              obtain ⟨rfl, rfl, rfl⟩ := h
              refine Lock.of_past (Inv.head_ne hinv2 hr ?_) (le_refl _)
              rintro rfl
              omega

theorem MembersTail.first_byte {c : Byte} {τ : Bytes} (h : MembersTail c τ) :
    c.val = 125 ∨ c.val = 44 := by
  rcases h with ⟨rfl, -⟩ | ⟨rfl, -⟩
  · exact Or.inl rfl
  · exact Or.inr rfl

theorem members_lock (k w1 w2 t w3 : Bytes) (c : Byte) (τ : Bytes) (hk : StringText k)
    (hjt : ∃ bt tt, t = bt :: tt ∧ ValueHead bt)
    (hv : LockAll .value t) (hw1 : ∀ b ∈ w1, isWhitespace b) (hw2 : ∀ b ∈ w2, isWhitespace b)
    (hw3 : ∀ b ∈ w3, isWhitespace b) (hc : MembersTail c τ)
    (o : ParsingOptions) (fuel : Nat) (ob : List (Bytes × Value))
    (st : ParserImpl) (r : Bool) (ob' : List (Bytes × Value)) (st' : ParserImpl)
    (target e : Nat) (X : Bytes) (hX : InertEnd X)
    (hinv : Inv target e st.i (k ++ (w1 ++ 58 :: (w2 ++ (t ++ (w3 ++ c :: τ))))) X)
    (h : parseObjectMembers o fuel ob st = some (r, ob', st')) :
    Lock target e r st' := by
  have hcb := hc.first_byte
  have hcws : ¬ isWhitespace c := by unfold isWhitespace; omega
  obtain ⟨bt, tt, htt, hbt⟩ := hjt
  obtain ⟨ps, hps, hkeq⟩ := hk
  cases fuel with
  | zero => simp [parseObjectMembers] at h
  | succ fuel =>
    unfold parseObjectMembers at h
    rcases st.i.rest_cases with hr | ⟨b, rest, hr⟩
    · simp [hr] at h
    · simp only [hr] at h
      split_ifs at h with h1
      · simp only [Option.some.injEq, Prod.mk.injEq] at h
        obtain ⟨rfl, rfl, rfl⟩ := h
        have hinv0 : Inv target e st.i
            (34 :: ((piecesText ps ++ [34]) ++ (w1 ++ 58 :: (w2 ++ (t ++ (w3 ++ c :: τ)))))) X := by
          rw [hkeq] at hinv
          exact hinv
        refine Lock.of_past (Inv.head_ne hinv0 hr ?_) (le_refl _)
        rintro rfl
        exact h1 rfl
      · cases hs : parseString o [] st with
        | none => simp [hs] at h
        | some x =>
          obtain ⟨rs, key, s1⟩ := x
          have hb34 : b = 34 := Fin.ext (by simpa using h1)
          subst hb34
          obtain ⟨ck, hck, -, -⟩ := parseString_gram o _ _ _ _ _ rest hr hs
          have hsub : Lock target (st.i.pos + k.length) rs s1 := by
            have := Inv.part hinv
            rw [hkeq] at this ⊢
            exact parseString_lock hps hr this hs
          simp only [hs] at h
          cases rs
          · simp only [Option.some.injEq, Prod.mk.injEq] at h
            obtain ⟨rfl, rfl, rfl⟩ := h
            exact Lock.fail_sub hinv hsub hck.le
          · simp only at h
            have hinv1 := Inv.of_lock hinv hck hsub
            have hinv2 : Inv target e s1.detectEndOfInputAfterSkippingWhitespaces.2.i
                (58 :: (w2 ++ (t ++ (w3 ++ c :: τ)))) X :=
              Inv.ws hinv1 hw1 (head_after_ws 58 _ (by decide))
            by_cases he : s1.detectEndOfInputAfterSkippingWhitespaces.1 = true
            · simp only [he, if_true, Option.some.injEq, Prod.mk.injEq] at h
              obtain ⟨rfl, rfl, rfl⟩ := h
              exact Lock.of_past (hinv2.at_end (endWs_true _ he)) (le_refl _)
            · have he' : s1.detectEndOfInputAfterSkippingWhitespaces.1 = false := by
                simpa using he
              simp only [he', Bool.false_eq_true, if_false] at h
              rcases s1.detectEndOfInputAfterSkippingWhitespaces.2.i.rest_cases with
                hr2 | ⟨c2, rest2, hr2⟩
              · simp [hr2] at h
              · simp only [hr2] at h
                by_cases h2 : c2.val = 58
                swap
                · simp only [ne_eq, h2, not_false_eq_true, if_true, Option.some.injEq,
                    Prod.mk.injEq] at h
                  obtain ⟨rfl, rfl, rfl⟩ := h
                  refine Lock.of_past (Inv.head_ne hinv2 hr2 ?_) (le_refl _)
                  rintro rfl
                  exact h2 rfl
                simp only [ne_eq, h2, not_true_eq_false, if_false] at h
                have hinv3 := (Inv.char hinv2 hr2).1
                have hinv4 : Inv target e
                    s1.detectEndOfInputAfterSkippingWhitespaces.2.advance.detectEndOfInputAfterSkippingWhitespaces.2.i
                    (t ++ (w3 ++ c :: τ)) X := by
                  refine Inv.ws hinv3 hw2 ?_
                  rw [htt]
                  exact head_after_ws bt _ hbt.not_ws
                by_cases h3 : s1.detectEndOfInputAfterSkippingWhitespaces.2.advance.detectEndOfInputAfterSkippingWhitespaces.1 = true
                · simp only [h3, if_true, Option.some.injEq, Prod.mk.injEq] at h
                  obtain ⟨rfl, rfl, rfl⟩ := h
                  rw [htt] at hinv4
                  exact Lock.of_past (Inv.at_end hinv4 (endWs_true _ h3)) (le_refl _)
                simp only [h3, Bool.false_eq_true, if_false] at h
                by_cases h4 : (!(tryEmplace ob key).2) = true ∧ o.duplicateObjectKeys = .Fail
                · rw [if_pos h4] at h
                  simp only [Option.some.injEq, Prod.mk.injEq] at h
                  obtain ⟨rfl, rfl, rfl⟩ := h
                  have hcond : (!(tryEmplace ob key).2) = true ∧
                      o.duplicateObjectKeys ≠ .Ignore := ⟨h4.1, by rw [h4.2]; decide⟩
                  rw [if_pos hcond]
                  exact Or.inl (policyFail_addIssueAt _ _ _ _ (by decide) (by decide))
                · rw [if_neg h4] at h
                  cases hvr : parseImpl o fuel
                      ((Object.find key (tryEmplace ob key).1).getD Value.null)
                      (if (!(tryEmplace ob key).2) = true ∧ o.duplicateObjectKeys ≠ .Ignore then
                        s1.detectEndOfInputAfterSkippingWhitespaces.2.advance.detectEndOfInputAfterSkippingWhitespaces.2.addIssueAt
                          st.i.pos "JSON object contains duplicate keys" .DuplicateKeys
                      else s1.detectEndOfInputAfterSkippingWhitespaces.2.advance.detectEndOfInputAfterSkippingWhitespaces.2) with
                  | none => rw [hvr] at h; exact absurd h (by simp)
                  | some x =>
                    obtain ⟨rv, wv, sv⟩ := x
                    obtain ⟨cv, hcv, -, -⟩ := (parser_gram o fuel).1 _ _ _ _ _ hvr
                    have hinert : InertEnd ((w3 ++ c :: τ) ++ X) := by
                      rw [List.append_assoc]
                      exact inertEnd_after w3 hw3 c _ (by omega)
                    have hsub2 := hv o fuel _ _ rv wv sv target _ _ hinert
                      (Inv.part (by rw [dupIssue_cursor]; exact hinv4)) hvr
                    rw [dupIssue_cursor] at hcv hsub2
                    rw [hvr] at h
                    cases rv
                    · simp only [Option.some.injEq, Prod.mk.injEq] at h
                      obtain ⟨rfl, rfl, rfl⟩ := h
                      exact Lock.fail_sub hinv4 hsub2 hcv.le
                    · simp only at h
                      have hinv5 := Inv.of_lock hinv4 hcv hsub2
                      have hinv6 : Inv target e sv.detectEndOfInputAfterSkippingWhitespaces.2.i
                          (c :: τ) X := Inv.ws hinv5 hw3 (head_after_ws c _ hcws)
                      by_cases he3 : sv.detectEndOfInputAfterSkippingWhitespaces.1 = true
                      · simp only [he3, if_true, Option.some.injEq, Prod.mk.injEq] at h
                        obtain ⟨rfl, rfl, rfl⟩ := h
                        exact Lock.of_past (hinv6.at_end (endWs_true _ he3)) (le_refl _)
                      · have he3' : sv.detectEndOfInputAfterSkippingWhitespaces.1 = false := by
                          simpa using he3
                        simp only [he3', Bool.false_eq_true, if_false] at h
                        rcases sv.detectEndOfInputAfterSkippingWhitespaces.2.i.rest_cases with
                          hr3 | ⟨d, rest3, hr3⟩
                        · simp [hr3] at h
                        · simp only [hr3] at h
                          have hadv := moved_advance hr3
                          obtain ⟨w4', hw4', -⟩ := moved_endWs
                            sv.detectEndOfInputAfterSkippingWhitespaces.2.advance
                          have hmono4 := (hadv.append_moved hw4').le
                          have hinv7 := (Inv.char hinv6 hr3).1
                          have hnext : d.val = 44 → ∃ τ4, Inv target e
                              sv.detectEndOfInputAfterSkippingWhitespaces.2.advance.detectEndOfInputAfterSkippingWhitespaces.2.i
                                τ4 X ∧ ((∃ b4 t4, τ4 = b4 :: t4) ∧ LockAll .members τ4 ∨
                                  (target ≤ e ∧ target ≤
                                    sv.detectEndOfInputAfterSkippingWhitespaces.2.i.pos)) := by
                            intro hb
                            rcases hc with ⟨rfl, rfl⟩ | ⟨rfl, w4, rest4, rfl, hw4, hel, t4, rfl⟩
                            · have hd := Inv.head_ne hinv6 hr3
                                (by rintro rfl; exact absurd hb (by decide))
                              exact ⟨[], Inv.past _ X hd hmono4, Or.inr hd⟩
                            · exact ⟨_, Inv.ws hinv7 hw4 (head_after_ws 34 _ (by decide)),
                                Or.inl ⟨⟨34, t4, rfl⟩, hel⟩⟩
                          split_ifs at h with h5 h6 h7
                          · simp only [Option.some.injEq, Prod.mk.injEq] at h
                            obtain ⟨rfl, rfl, rfl⟩ := h
                            rcases hc with ⟨rfl, rfl⟩ | ⟨rfl, -⟩
                            · exact Lock.of_inv hinv7
                            · refine Lock.of_past (Inv.head_ne hinv6 hr3 ?_) hadv.le
                              rintro rfl
                              exact absurd h5 (by decide)
                          · simp only [Option.some.injEq, Prod.mk.injEq] at h
                            obtain ⟨rfl, rfl, rfl⟩ := h
                            obtain ⟨τ4, hinv8, hcase⟩ := hnext h6
                            rcases hcase with ⟨⟨b4, t4, rfl⟩, -⟩ | hd
                            · exact Lock.of_past (hinv8.at_end (endWs_true _ h7)) (le_refl _)
                            · exact Lock.of_past hd hmono4
                          · have hmono := ((parser_gram o fuel).2.2.2.2.2 _ _ _ _ _ h).le_pos
                            obtain ⟨τ4, hinv8, hcase⟩ := hnext h6
                            rcases hcase with ⟨-, hel⟩ | hd
                            · exact hel o fuel _ _ _ _ _ target e X hX hinv8 h
                            · exact Lock.of_past hd (le_trans hmono4 hmono)
                          · simp only [Option.some.injEq, Prod.mk.injEq] at h
                            obtain ⟨rfl, rfl, rfl⟩ := h
                            refine Lock.of_past (Inv.head_ne hinv6 hr3 ?_) (le_refl _)
                            rintro rfl
                            omega

/-- The parser follows a JSON text: run on a buffer that follows the text up to the offset
`target`, the function that reads the text stops for a policy (a duplicate key, an unpaired
surrogate, a number out of range), or does not stop before `target` when the buffer leaves
the text before its end, or succeeds exactly at the end of the text when the buffer holds all
of it and one byte more that does not go on a number. -/
theorem parser_lock {k : Sym} {t : Bytes} (h : Json k t) : LockAll k t := by
  induction h with
  | nullText => exact lock_null
  | falseText => exact lock_false
  | trueText => exact lock_true
  | number h => exact lock_number h
  | string h => exact lock_string h
  | emptyArray w hw =>
    intro o fuel v st r v' st' target e X hX hinv h
    by_cases hlt : st.i.pos < target
    swap
    · exact parseImpl_past hinv hlt h
    obtain ⟨B, hB⟩ := hinv.first hlt
    cases fuel with
    | zero => simp [parseImpl] at h
    | succ fuel =>
      rw [parseImpl_bracket o fuel v st B hB] at h
      exact parseArray_lock w [93] B hw hB hinv (Or.inl rfl) hX h
  | array w hw hel ih =>
    intro o fuel v st r v' st' target e X hX hinv h
    by_cases hlt : st.i.pos < target
    swap
    · exact parseImpl_past hinv hlt h
    obtain ⟨B, hB⟩ := hinv.first hlt
    obtain ⟨b, t', ht, hb, -⟩ := json_head hel
    cases fuel with
    | zero => simp [parseImpl] at h
    | succ fuel =>
      rw [parseImpl_bracket o fuel v st B hB] at h
      exact parseArray_lock w _ B hw hB hinv (Or.inr ⟨ih, b, t', ht, hb⟩) hX h
  | emptyObject w hw =>
    intro o fuel v st r v' st' target e X hX hinv h
    by_cases hlt : st.i.pos < target
    swap
    · exact parseImpl_past hinv hlt h
    obtain ⟨B, hB⟩ := hinv.first hlt
    cases fuel with
    | zero => simp [parseImpl] at h
    | succ fuel =>
      rw [parseImpl_brace o fuel v st B hB] at h
      exact parseObject_lock w [125] B hw hB hinv (Or.inl rfl) hX h
  | object w hw hmem ih =>
    intro o fuel v st r v' st' target e X hX hinv h
    by_cases hlt : st.i.pos < target
    swap
    · exact parseImpl_past hinv hlt h
    obtain ⟨B, hB⟩ := hinv.first hlt
    obtain ⟨b, t', ht, -, hb⟩ := json_head hmem
    have hb34 := hb rfl
    subst hb34
    cases fuel with
    | zero => simp [parseImpl] at h
    | succ fuel =>
      rw [parseImpl_brace o fuel v st B hB] at h
      exact parseObject_lock w _ B hw hB hinv (Or.inr ⟨ih, t', ht⟩) hX h
  | lastElement w hv hw ih =>
    exact ⟨elementsRec_lock _ w 93 [] ih hw (Or.inl ⟨rfl, rfl⟩),
      elementsLoop_lock _ w 93 [] ih hw (Or.inl ⟨rfl, rfl⟩)⟩
  | nextElement w1 w2 hv hw1 hw2 hr ih1 ih2 =>
    obtain ⟨b, t', ht, hb, -⟩ := json_head hr
    exact ⟨elementsRec_lock _ w1 44 _ ih1 hw1 (Or.inr ⟨rfl, w2, _, rfl, hw2, ih2, b, t', ht, hb⟩),
      elementsLoop_lock _ w1 44 _ ih1 hw1 (Or.inr ⟨rfl, w2, _, rfl, hw2, ih2, b, t', ht, hb⟩)⟩
  | lastMember w1 w2 w3 hk hv hw1 hw2 hw3 ih =>
    obtain ⟨b, t', ht, hb, -⟩ := json_head hv
    exact members_lock _ w1 w2 _ w3 125 [] hk ⟨b, t', ht, hb⟩ ih hw1 hw2 hw3 (Or.inl ⟨rfl, rfl⟩)
  | nextMember w1 w2 w3 w4 hk hv hw1 hw2 hw3 hw4 hr ih1 ih2 =>
    obtain ⟨b, t', ht, hb, -⟩ := json_head hv
    obtain ⟨b2, t2, ht2, -, hb2⟩ := json_head hr
    have hb34 := hb2 rfl
    subst hb34
    exact members_lock _ w1 w2 _ w3 44 _ hk ⟨b, t', ht, hb⟩ ih1 hw1 hw2 hw3
      (Or.inr ⟨rfl, w4, _, rfl, hw4, ih2, t2, ht2⟩)

/-! ## The whole parse against the grammar -/

theorem implParse_run (input : Bytes) (o : ParsingOptions) (res : ParsingResult)
    (h : impl.parse input o = some res) :
    ∃ r v st', ParserImpl.parse o (3 * input.length + 1) .null
        { i := ⟨0, input⟩, issues := [] } = some (r, v, st') ∧
      res.status = (if r then .Success else .Failure) ∧ res.parsedSize = st'.i.pos ∧
      res.issues = st'.issues := by
  unfold impl.parse at h
  cases hp : ParserImpl.parse o (3 * input.length + 1) .null { i := ⟨0, input⟩, issues := [] } with
  | none => rw [hp] at h; simp at h
  | some x =>
    obtain ⟨r, v, st'⟩ := x
    rw [hp] at h
    simp only [Option.some.injEq] at h
    subst h
    exact ⟨r, v, st', rfl, rfl, rfl, rfl⟩

theorem parserParse_gram (o : ParsingOptions) (fuel : Nat) (v : Value) (st : ParserImpl)
    (r : Bool) (v' : Value) (st' : ParserImpl)
    (h : ParserImpl.parse o fuel v st = some (r, v', st')) :
    ∃ w c, st.i.Moved (w ++ c) st'.i ∧ (∀ b ∈ w, isWhitespace b) ∧
      (r = true → Json .value c) ∧ (r = false → ∃ ext, Json .value (c ++ ext)) := by
  unfold ParserImpl.parse at h
  simp only at h
  obtain ⟨w, hw, hws⟩ := moved_endWs st
  by_cases he : st.detectEndOfInputAfterSkippingWhitespaces.1 = true
  · simp only [he, if_true, Option.some.injEq, Prod.mk.injEq] at h
    obtain ⟨rfl, rfl, rfl⟩ := h
    exact ⟨w, [], by simpa using hw, hws, by simp, fun _ => ⟨[48], json_zero⟩⟩
  · simp only [he, Bool.false_eq_true, if_false] at h
    obtain ⟨c, hc, h1, h2⟩ := (parser_gram o fuel).1 _ _ _ _ _ h
    exact ⟨w, c, hw.append_moved hc, hws, h1, h2⟩

theorem inertEnd_ws (w : Bytes) (hw : ∀ b ∈ w, isWhitespace b) : InertEnd w := by
  apply inertEnd_of_head
  intro b hb
  cases w with
  | nil => simp at hb
  | cons x w' =>
    simp only [List.head?_cons, Option.some.injEq] at hb
    subst hb
    exact Or.inl (hw _ (List.mem_cons_self _ _))

theorem parserParse_lock {target e : Nat} {o : ParsingOptions} {fuel : Nat} {v v' : Value}
    {st st' : ParserImpl} {r : Bool} {w t w2 : Bytes} (ht : Json .value t)
    (hw : ∀ b ∈ w, isWhitespace b) (hw2 : ∀ b ∈ w2, isWhitespace b)
    (hinv : Inv target e st.i (w ++ t) w2)
    (h : ParserImpl.parse o fuel v st = some (r, v', st')) : Lock target e r st' := by
  obtain ⟨b, t', rfl, hb, -⟩ := json_head ht
  unfold ParserImpl.parse at h
  simp only at h
  have hinv1 : Inv target e st.detectEndOfInputAfterSkippingWhitespaces.2.i (b :: t') w2 :=
    Inv.ws hinv hw (head_after_ws b _ hb.not_ws)
  by_cases he : st.detectEndOfInputAfterSkippingWhitespaces.1 = true
  · simp only [he, if_true, Option.some.injEq, Prod.mk.injEq] at h
    obtain ⟨rfl, rfl, rfl⟩ := h
    exact Lock.of_past (hinv1.at_end (endWs_true _ he)) (le_refl _)
  · simp only [he, Bool.false_eq_true, if_false] at h
    exact parser_lock ht o fuel _ _ _ _ _ target e w2 (inertEnd_ws w2 hw2) hinv1 h

/-- What `impl::parse` has read is JSON: on success the bytes before `parsedSize` are
whitespace and the text of one value; on failure they are the beginning of a JSON document. -/
theorem implParse_gram (input : Bytes) (o : ParsingOptions) (res : ParsingResult)
    (h : impl.parse input o = some res) :
    (res.status = .Success → ∃ w t, input.take res.parsedSize = w ++ t ∧
      (∀ b ∈ w, isWhitespace b) ∧ Json .value t) ∧
    (res.status = .Failure → BeginsJson (input.take res.parsedSize)) := by
  obtain ⟨r, v, st', hp, hst, hps, -⟩ := implParse_run input o res h
  obtain ⟨w, c, hm, hw, h1, h2⟩ := parserParse_gram o _ _ _ _ _ _ hp
  have htake : input.take res.parsedSize = w ++ c := by
    have e1 : input = (w ++ c) ++ st'.i.rest := hm.1
    have e2 : st'.i.pos = (w ++ c).length := by
      have := hm.2
      simpa using this
    rw [hps, e2]
    conv_lhs => rw [e1]
    exact List.take_left' rfl
  constructor
  · intro hs
    cases r
    · simp [hs] at hst
    · exact ⟨w, c, htake, hw, h1 rfl⟩
  · intro hs
    cases r
    · obtain ⟨ext, hext⟩ := h2 rfl
      rw [htake]
      exact ⟨ext, w, c ++ ext, [], by simp, hw, by simp, hext⟩
    · simp [hs] at hst

/-- The parse of an input that follows a JSON document (whitespace `w`, the text `t` of a
value, whitespace `w2`) on its first `n` bytes: it fails for a policy; or the input leaves the
document within the value (or before it) and the parse does not stop before the place; or the
input holds the value and one byte more, and the parse succeeds at the end of the value. -/
theorem implParse_lock (input : Bytes) (o : ParsingOptions) (res : ParsingResult)
    (h : impl.parse input o = some res) (w t w2 : Bytes) (hw : ∀ b ∈ w, isWhitespace b)
    (hw2 : ∀ b ∈ w2, isWhitespace b) (ht : Json .value t) (n : Nat)
    (hag : AgreeTo n input (w ++ (t ++ w2))) :
    (res.status = .Failure ∧ ∃ x, res.issues.getLast? = some x ∧
      x.code ≠ .InvalidCharacter ∧ x.code ≠ .UnexpectedEndOfInput) ∨
    (n ≤ w.length + t.length ∧ n ≤ res.parsedSize) ∨
    (w.length + t.length < n ∧ res.status = .Success ∧
      res.parsedSize = w.length + t.length) := by
  obtain ⟨r, v, st', hp, hst, hps, hiss⟩ := implParse_run input o res h
  have hinv : Inv n (w.length + t.length) (⟨⟨0, input⟩, []⟩ : ParserImpl).i (w ++ t) w2 := by
    by_cases hn : 0 < n
    · refine Or.inr ⟨hn, by simp, ?_⟩
      simpa using hag
    · exact Or.inl ⟨by omega, by omega⟩
  rcases parserParse_lock ht hw hw2 hinv hp with ⟨hr, x, hx⟩ | h2 | ⟨h3, hr, h4⟩
  · refine Or.inl ⟨?_, x, ?_⟩
    · rw [hst, hr]
      rfl
    · rw [hiss]
      exact hx
  · exact Or.inr (Or.inl (by rw [hps]; exact h2))
  · refine Or.inr (Or.inr ⟨h3, ?_, by rw [hps]; exact h4⟩)
    rw [hst, hr]
    rfl

theorem agreeTo_take (input ext : Bytes) (n : Nat) (hn : n ≤ input.length) :
    AgreeTo n input (input.take n ++ ext) := by
  unfold AgreeTo
  rw [List.take_append_of_le_length (by simp [hn])]
  simp [List.take_take]

/-- A byte at which `impl::parse` stops with `InvalidCharacter` ends the beginnings of JSON
documents: no JSON document starts with the bytes up to and including it. -/
theorem implParse_invalid (input : Bytes) (o : ParsingOptions) (res : ParsingResult)
    (h : impl.parse input o = some res) (hs : res.status = .Failure)
    (x : ParsingIssue) (hx : res.issues.getLast? = some x) (hc : x.code = .InvalidCharacter)
    (hlt : res.parsedSize < input.length) :
    ¬ BeginsJson (input.take (res.parsedSize + 1)) := by
  rintro ⟨ext, w, t, w2, hdoc, hw, hw2, ht⟩
  have hag : AgreeTo (res.parsedSize + 1) input (w ++ (t ++ w2)) := by
    rw [← hdoc]
    exact agreeTo_take input ext _ (by omega)
  rcases implParse_lock input o res h w t w2 hw hw2 ht _ hag with
    ⟨-, y, hy, hy1, -⟩ | ⟨-, h2⟩ | ⟨-, h3, -⟩
  · rw [hx] at hy
    simp only [Option.some.injEq] at hy
    subst hy
    exact hy1 hc
  · omega
  · rw [hs] at h3
    exact absurd h3 (by decide)

/-- An input on which `impl::parse` stops with `UnexpectedEndOfInput` is not a JSON
document. -/
theorem implParse_unexpectedEnd (input : Bytes) (o : ParsingOptions) (res : ParsingResult)
    (h : impl.parse input o = some res) (hs : res.status = .Failure)
    (x : ParsingIssue) (hx : res.issues.getLast? = some x)
    (hc : x.code = .UnexpectedEndOfInput) : ¬ JsonDocument input := by
  rintro ⟨w, t, w2, hdoc, hw, hw2, ht⟩
  have hag : AgreeTo (input.length + 1) input (w ++ (t ++ w2)) := by
    rw [← hdoc]
    rfl
  have hlen : input.length = w.length + (t.length + w2.length) := by
    rw [hdoc]
    simp
  rcases implParse_lock input o res h w t w2 hw hw2 ht _ hag with
    ⟨-, y, hy, -, hy2⟩ | ⟨h1, -⟩ | ⟨-, h3, -⟩
  · rw [hx] at hy
    simp only [Option.some.injEq] at hy
    subst hy
    exact hy2 hc
  · omega
  · rw [hs] at h3
    exact absurd h3 (by decide)

/-- No longer beginning of the input than the one `impl::parse` has read with success is
whitespace and the text of a value. -/
theorem implParse_longest (input : Bytes) (o : ParsingOptions) (res : ParsingResult)
    (h : impl.parse input o = some res) (hs : res.status = .Success)
    (q : Nat) (w t : Bytes) (hq : res.parsedSize < q) (hle : q ≤ input.length)
    (htake : input.take q = w ++ t) (hw : ∀ b ∈ w, isWhitespace b) : ¬ Json .value t := by
  intro ht
  have hlen : q = w.length + t.length := by
    have := congrArg List.length htake
    simp only [List.length_take, List.length_append] at this
    omega
  have hag : AgreeTo q input (w ++ (t ++ [])) := by
    have := agreeTo_take input [] q hle
    rw [htake] at this
    simpa using this
  rcases implParse_lock input o res h w t [] hw (by simp) ht _ hag with
    ⟨h1, -⟩ | ⟨-, h2⟩ | ⟨h3, -⟩
  · rw [hs] at h1
    exact absurd h1 (by decide)
  · omega
  · omega

theorem Tok.of_noPolicy {i : Ptr} {st' : ParserImpl} (h : NoPolicy st') : Tok i st' :=
  fun x hx hp => absurd hp (h x hx)

theorem Tok.moved_first {i a : Ptr} {st' : ParserImpl} {c : Bytes} (hm : i.Moved c a)
    (h : Tok a st') : Tok i st' := by
  intro x hx hp
  obtain ⟨pre, tok, h1, h2, h3⟩ := h x hx hp
  refine ⟨c ++ pre, tok, ?_, ?_, h3⟩
  · rw [List.append_assoc]
    exact hm.append_moved h1
  · rw [h2, hm.2, List.length_append]
    omega

theorem getLast_addIssueAt (st : ParserImpl) (p : Nat) (d : String) (c : ParsingIssue.Code) :
    (st.addIssueAt p d c).issues.getLast? = some ⟨p, d, c⟩ := by
  simp [addIssueAt]

theorem noPolicy_addIssueAt (st : ParserImpl) (p : Nat) (d : String)
    (c : ParsingIssue.Code) (hc : ¬ PolicyCode c) : NoPolicy (st.addIssueAt p d c) := by
  intro x hx
  rw [getLast_addIssueAt] at hx
  obtain rfl := Option.some.inj hx
  exact hc

theorem not_policy_invalid : ¬ PolicyCode .InvalidCharacter := by
  unfold PolicyCode
  simp

theorem not_policy_end : ¬ PolicyCode .UnexpectedEndOfInput := by
  unfold PolicyCode
  simp

theorem not_policy_number : ¬ PolicyCode .FailedToParseNumber := by
  unfold PolicyCode
  simp

theorem noPolicy_invalid (st : ParserImpl) (msg : String) :
    NoPolicy (st.addInvalidCharacterIssue msg) :=
  noPolicy_addIssueAt _ _ _ _ not_policy_invalid

theorem noPolicy_end (st : ParserImpl) : NoPolicy st.addUnexpectedEndOfInputIssue :=
  noPolicy_addIssueAt _ _ _ _ not_policy_end

theorem noPolicy_endWs (st : ParserImpl)
    (h : st.detectEndOfInputAfterSkippingWhitespaces.1 = true) :
    NoPolicy st.detectEndOfInputAfterSkippingWhitespaces.2 := by
  unfold detectEndOfInputAfterSkippingWhitespaces at h ⊢
  simp only at h ⊢
  split_ifs at h ⊢ with hc
  exact noPolicy_end _

theorem noPolicy_detectEnd (st : ParserImpl) (h : st.detectEndOfInput.1 = true) :
    NoPolicy st.detectEndOfInput.2 := by
  unfold detectEndOfInput at h ⊢
  split_ifs at h ⊢ with hc
  exact noPolicy_end _

theorem noPolicy_advanceEnd (st : ParserImpl) (h : st.advanceAndDetectEndOfInput.1 = true) :
    NoPolicy st.advanceAndDetectEndOfInput.2 :=
  noPolicy_detectEnd st.advance h

theorem matchLoop_noPolicy (ps : Bytes) : ∀ (p : Byte) (st : ParserImpl),
    (matchLoop p ps st).1 = false → NoPolicy (matchLoop p ps st).2 := by
  induction ps with
  | nil =>
    intro p st h
    unfold matchLoop at h ⊢
    cases hr : st.i.rest with
    | nil => exact noPolicy_end _
    | cons b t =>
      simp only [hr] at h ⊢
      split_ifs at h ⊢
      exact noPolicy_invalid _ _
  | cons q qs ih =>
    intro p st h
    unfold matchLoop at h ⊢
    cases hr : st.i.rest with
    | nil => exact noPolicy_end _
    | cons b t =>
      simp only [hr] at h ⊢
      split_ifs at h ⊢
      · exact noPolicy_invalid _ _
      · exact ih _ _ h

theorem parseLiteral_noPolicy (lit : Value) (c p : Byte) (ps : Bytes) (v : Value)
    (st : ParserImpl) (h : (parseLiteral lit (c :: p :: ps) v st).1 = false) :
    NoPolicy (parseLiteral lit (c :: p :: ps) v st).2.2 := by
  unfold parseLiteral matchPattern at h ⊢
  simp only at h ⊢
  split_ifs at h ⊢ with hc
  exact matchLoop_noPolicy ps p st.advance (by simpa using hc)

/-! ## Numbers -/

theorem detectDigits_noPolicy (st st' : ParserImpl) (h : detectDigits st = some (false, st')) :
    NoPolicy st' := by
  unfold detectDigits at h
  cases hr : st.i.rest with
  | nil => simp [hr] at h
  | cons b t =>
    simp only [hr] at h
    by_cases hd : isDecimalDigit b = true
    · simp [hd] at h
    · simp only [hd, Bool.not_false, if_true, Option.some.injEq, Prod.mk.injEq, true_and,
        Bool.false_eq_true, not_false_eq_true] at h
      subst h
      exact noPolicy_invalid _ _

theorem parseNumberInteger_noPolicy (st st' : ParserImpl)
    (h : parseNumberInteger st = some (false, st')) : NoPolicy st' := by
  unfold parseNumberInteger at h
  cases hr : st.i.rest with
  | nil => simp [hr] at h
  | cons b t =>
    simp only [hr] at h
    by_cases h0 : b.val = 48
    · simp [h0] at h
    · simp only [h0, if_false] at h
      by_cases h1 : 49 ≤ b.val ∧ b.val ≤ 57
      · simp [h1] at h
      · simp only [h1, if_false, Option.some.injEq, Prod.mk.injEq, true_and] at h
        subst h
        exact noPolicy_invalid _ _

theorem parseNumberFraction_noPolicy (st : ParserImpl) (d : Bool) (st' : ParserImpl)
    (h : parseNumberFraction st = some (false, d, st')) : NoPolicy st' := by
  unfold parseNumberFraction at h
  cases hr : st.i.rest with
  | nil => simp [hr] at h
  | cons b t =>
    simp only [hr] at h
    by_cases h46 : b.val = 46
    · simp only [h46, if_true] at h
      by_cases he : st.advanceAndDetectEndOfInput.1 = true
      · simp only [he, if_true, Option.some.injEq, Prod.mk.injEq, true_and] at h
        rw [← h.2]
        exact noPolicy_advanceEnd st he
      · simp only [Bool.not_eq_true] at he
        obtain ⟨hne, heq⟩ := advanceAndDetectEndOfInput_inv st he
        simp only [heq, Bool.false_eq_true, if_false] at h
        cases hd : detectDigits st.advance with
        | none => simp [hd] at h
        | some x =>
          obtain ⟨rd, sd⟩ := x
          simp only [hd] at h
          cases rd
          · simp only [Option.some.injEq, Prod.mk.injEq, true_and] at h
            rw [← h.2]
            exact detectDigits_noPolicy _ _ hd
          · simp at h
    · simp [h46] at h

theorem parseNumberExponent_noPolicy (st : ParserImpl) (d : Bool) (st' : ParserImpl)
    (h : parseNumberExponent st = some (false, d, st')) : NoPolicy st' := by
  unfold parseNumberExponent at h
  cases hr : st.i.rest with
  | nil => simp [hr] at h
  | cons b t =>
    simp only [hr] at h
    by_cases hE : b.val ||| 0x20 = 101
    · simp only [hE, if_true] at h
      by_cases he : st.advanceAndDetectEndOfInput.1 = true
      · simp only [he, if_true, Option.some.injEq, Prod.mk.injEq, true_and] at h
        rw [← h.2]
        exact noPolicy_advanceEnd st he
      · simp only [Bool.not_eq_true] at he
        obtain ⟨hne, heq⟩ := advanceAndDetectEndOfInput_inv st he
        simp only [heq, Bool.false_eq_true, if_false] at h
        cases hr2 : st.advance.i.rest with
        | nil => exact absurd hr2 hne
        | cons c t' =>
          simp only [hr2] at h
          by_cases hs : c.val = 43 ∨ c.val = 45
          · simp only [hs, if_true] at h
            by_cases he2 : st.advance.advanceAndDetectEndOfInput.1 = true
            · simp only [he2, if_true, Option.some.injEq, Prod.mk.injEq, true_and] at h
              rw [← h.2]
              exact noPolicy_advanceEnd _ he2
            · simp only [Bool.not_eq_true] at he2
              obtain ⟨hne2, heq2⟩ := advanceAndDetectEndOfInput_inv _ he2
              simp only [heq2, Bool.false_eq_true, if_false] at h
              cases hd : detectDigits st.advance.advance with
              | none => simp [hd] at h
              | some x =>
                obtain ⟨rd, sd⟩ := x
                simp only [hd] at h
                cases rd
                · simp only [Option.some.injEq, Prod.mk.injEq, true_and] at h
                  rw [← h.2]
                  exact detectDigits_noPolicy _ _ hd
                · simp at h
          · simp only [hs, if_false, Bool.false_eq_true] at h
            cases hd : detectDigits st.advance with
            | none => simp [hd] at h
            | some x =>
              obtain ⟨rd, sd⟩ := x
              simp only [hd] at h
              cases rd
              · simp only [Option.some.injEq, Prod.mk.injEq, true_and] at h
                rw [← h.2]
                exact detectDigits_noPolicy _ _ hd
              · simp at h
    · simp [hE] at h

theorem parseNumberConvert_last (begin : Ptr) (n : Nat) (d : Bool) (v : Value)
    (st : ParserImpl) (h : (parseNumberConvert begin n d v st).1 = false) :
    NoPolicy (parseNumberConvert begin n d v st).2.2 ∨
    ∃ msg, (parseNumberConvert begin n d v st).2.2.issues.getLast? =
      some ⟨begin.pos, msg, .ParsedNumberOutOfRange⟩ := by
  unfold parseNumberConvert at h ⊢
  simp only at h ⊢
  by_cases hc : (!d) = true ∧ (st.i.pos - begin.pos - n < 19 ∨
      (st.i.pos - begin.pos - n = 19 ∧
        stringViewLe ((begin.rest.drop n).take 19) (maxValue n) = true))
  · rw [if_pos hc] at h ⊢
    cases hf : from_chars_int64 (begin.range st.i) with
    | ok p i => simp [hf] at h
    | invalid_argument p =>
      simp only [hf]
      exact Or.inl (noPolicy_addIssueAt _ _ _ _ not_policy_number)
    | result_out_of_range p =>
      simp only [hf]
      exact Or.inl (noPolicy_addIssueAt _ _ _ _ not_policy_number)
  · rw [if_neg hc] at h ⊢
    cases hf : from_chars_double (begin.range st.i) with
    | ok p i => simp [hf] at h
    | invalid_argument p =>
      simp only [hf]
      exact Or.inl (noPolicy_addIssueAt _ _ _ _ not_policy_number)
    | result_out_of_range p =>
      simp only [hf]
      exact Or.inr ⟨_, getLast_addIssueAt _ _ _ _⟩

theorem parseNumberBody_tok (begin : Ptr) (neg : Nat) (v : Value) (st : ParserImpl)
    (v' : Value) (st' : ParserImpl)
    (h : parseNumberBody begin neg v st = some (false, v', st')) :
    NoPolicy st' ∨
    ((∃ c, st.i.Moved c st'.i ∧ NumberBody c) ∧
      ∃ msg, st'.issues.getLast? = some ⟨begin.pos, msg, .ParsedNumberOutOfRange⟩) := by
  unfold parseNumberBody at h
  cases hi : parseNumberInteger st with
  | none => simp [hi] at h
  | some x =>
    obtain ⟨ri, si⟩ := x
    have hgi := parseNumberInteger_gram _ _ _ hi
    simp only [hi] at h
    cases ri
    · simp only [Option.some.injEq, Prod.mk.injEq, true_and] at h
      rw [← h.2]
      exact Or.inl (parseNumberInteger_noPolicy _ _ hi)
    · simp only at h
      obtain ⟨ip, hip, hmi⟩ := hgi.1 rfl
      cases hfr : parseNumberFraction si with
      | none => simp [hfr] at h
      | some x =>
        obtain ⟨gf, df, sf⟩ := x
        have hgf := parseNumberFraction_gram _ _ _ _ hfr
        simp only [hfr] at h
        cases gf
        · simp only [Option.some.injEq, Prod.mk.injEq, true_and] at h
          rw [← h.2]
          exact Or.inl (parseNumberFraction_noPolicy _ _ _ hfr)
        · simp only at h
          obtain ⟨fp, hfp, hmf⟩ := hgf.1 rfl
          cases hex : parseNumberExponent sf with
          | none => simp [hex] at h
          | some x =>
            obtain ⟨ge, de, se⟩ := x
            have hge := parseNumberExponent_gram _ _ _ _ hex
            simp only [hex] at h
            cases ge
            · simp only [Option.some.injEq, Prod.mk.injEq, true_and] at h
              rw [← h.2]
              exact Or.inl (parseNumberExponent_noPolicy _ _ _ hex)
            · simp only [Option.some.injEq] at h
              obtain ⟨ep, hep, hme⟩ := hge.1 rfl
              have hci := parseNumberConvert_i begin neg (df || de) v se
              have hl := parseNumberConvert_last begin neg (df || de) v se (by rw [h])
              rw [h] at hci hl
              simp only at hci hl
              rcases hl with hl | hl
              · exact Or.inl hl
              · refine Or.inr ⟨⟨ip ++ (fp ++ ep), ?_, ip, fp, ep, rfl, hip, hfp, hep⟩, hl⟩
                rw [hci]
                exact hmi.append_moved (hmf.append_moved hme)

/-- A failure of `parseNumber` with the code `ParsedNumberOutOfRange` is at the start of the
number, and the cursor is behind the number. -/
theorem parseNumber_tok (v : Value) (st : ParserImpl) (v' : Value) (st' : ParserImpl)
    (h : parseNumber v st = some (false, v', st')) : Tok st.i st' := by
  unfold parseNumber at h
  cases hr : st.i.rest with
  | nil => simp [hr] at h
  | cons b t =>
    simp only [hr] at h
    by_cases hm : b.val = 45
    · have hb : b = 45 := Fin.ext hm
      subst hb
      simp only [hm, if_true, ne_eq, one_ne_zero, not_false_eq_true] at h
      by_cases h1 : st.advanceAndDetectEndOfInput.1 = true
      · simp only [h1, if_true, Option.some.injEq, Prod.mk.injEq, true_and] at h
        rw [← h.2]
        exact Tok.of_noPolicy (noPolicy_advanceEnd st h1)
      · simp only [Bool.not_eq_true] at h1
        obtain ⟨hne, heq⟩ := advanceAndDetectEndOfInput_inv st h1
        simp only [heq, Bool.false_eq_true, if_false] at h
        rcases parseNumberBody_tok _ _ _ _ _ _ h with hl | ⟨⟨c, hc, hbody⟩, msg, hlast⟩
        · exact Tok.of_noPolicy hl
        · intro x hx _
          rw [hlast] at hx
          obtain rfl := Option.some.inj hx
          exact ⟨[], 45 :: c, (moved_advance hr).append_moved hc, by simp,
            numberText_of_body true hbody⟩
    · simp only [hm, if_false, ne_eq, not_true_eq_false, Bool.false_eq_true] at h
      rcases parseNumberBody_tok _ _ _ _ _ _ h with hl | ⟨⟨c, hc, hbody⟩, msg, hlast⟩
      · exact Tok.of_noPolicy hl
      · intro x hx _
        rw [hlast] at hx
        obtain rfl := Option.some.inj hx
        exact ⟨[], c, hc, by simp, numberText_of_body false hbody⟩

/-! ## Strings -/

theorem isHigh_length {p : Piece} (h : p.isHigh) : p.text.length = 6 := by
  cases p with
  | plain b => exact absurd h (by simp [Piece.isHigh])
  | simple c => exact absurd h (by simp [Piece.isHigh])
  | unicode a b c d => rfl

/-- The kind that `parseMore` returns for a piece that is the escape of a surrogate. -/
theorem parseMore_piece (i : Ptr) (r : EscapedStringParser.Result) (j : Ptr)
    (h : EscapedStringParser.parseMore .Strict i = some (r, j)) (p : Piece)
    (hp : p.WellFormed .Strict) (hm : i.Moved p.text j) :
    (r.result = .HighSurrogate → p.isHigh) ∧ (r.result = .LowSurrogate → p.isLow) ∧
    (p.isLow → r.result = .LowSurrogate) := by
  have hi : i = ⟨i.pos, p.text ++ j.rest⟩ := ptr_eta i _ hm.1
  rw [hi] at h
  cases p with
  | plain b =>
    have h1 := parseMore_plain .Strict b i.pos j.rest hp.1 (hp.2 rfl).1 (fun _ => (hp.2 rfl).2)
    simp only [Piece.text, List.singleton_append] at h
    rw [h1] at h
    simp only [Option.some.injEq, Prod.mk.injEq] at h
    rw [← h.1]
    simp [Piece.isHigh, Piece.isLow]
  | simple c =>
    have h1 := parseMore_simple .Strict c i.pos j.rest hp
    simp only [Piece.text, List.cons_append, List.nil_append] at h
    rw [h1] at h
    simp only [Option.some.injEq, Prod.mk.injEq] at h
    rw [← h.1]
    simp [Piece.isHigh, Piece.isLow]
  | unicode a b c d =>
    have h1 := parseMore_unicode .Strict i.pos a b c d j.rest hp.1 hp.2.1 hp.2.2.1 hp.2.2.2
    simp only [Piece.text, List.cons_append, List.nil_append] at h
    rw [h1] at h
    simp only [Option.some.injEq, Prod.mk.injEq] at h
    rw [← h.1]
    unfold codeUnitResult Piece.isHigh Piece.isLow
    by_cases hh : isHighSurrogate (codeUnit a b c d)
    · rw [if_pos hh]
      refine ⟨fun _ => hh, fun hx => absurd hx (by simp), fun hl => ?_⟩
      unfold isHighSurrogate at hh
      unfold isLowSurrogate at hl
      omega
    · rw [if_neg hh]
      by_cases hl : isLowSurrogate (codeUnit a b c d)
      · rw [if_pos hl]
        exact ⟨fun hx => absurd hx (by simp), fun _ => hl, fun _ => rfl⟩
      · rw [if_neg hl]
        exact ⟨fun hx => absurd hx (by simp), fun hx => absurd hx (by simp),
          fun hx => absurd hx hl⟩

theorem check_last (o : ParsingOptions) (sb : Bytes) (sur p : Nat) (d : String)
    (code : ParsingIssue.Code) (st : ParserImpl)
    (h : (checkInvalidUtf16SurrogateOptionAndEncode o sb sur p d code st).1 = false) :
    (checkInvalidUtf16SurrogateOptionAndEncode o sb sur p d code st).2.2.issues.getLast? =
      some ⟨p, d, code⟩ := by
  unfold checkInvalidUtf16SurrogateOptionAndEncode at h ⊢
  by_cases h1 : o.unpairedUtf16Surrogates ≠ .Ignore
  · rw [if_pos h1] at h ⊢
    simp only at h ⊢
    by_cases h2 : o.unpairedUtf16Surrogates = .Fail
    · rw [if_pos h2]
      exact getLast_addIssueAt _ _ _ _
    · rw [if_neg h2] at h
      simp at h
  · rw [if_neg h1] at h
    simp at h

theorem checkHigh_last (o : ParsingOptions) (sb : Bytes) (sur p : Nat) (st : ParserImpl)
    (h : (checkInvalidUtf16HighSurrogateOptionAndEncode o sb sur p st).1 = false) :
    ∃ d, (checkInvalidUtf16HighSurrogateOptionAndEncode o sb sur p st).2.2.issues.getLast? =
      some ⟨p, d, .StringContainsUnpairedUtf16HighSurrogate⟩ :=
  ⟨_, check_last o sb sur p _ _ st h⟩

theorem checkLow_last (o : ParsingOptions) (sb : Bytes) (sur p : Nat) (st : ParserImpl)
    (h : (checkInvalidUtf16LowSurrogateOptionAndEncode o sb sur p st).1 = false) :
    ∃ d, (checkInvalidUtf16LowSurrogateOptionAndEncode o sb sur p st).2.2.issues.getLast? =
      some ⟨p, d, .StringContainsUnpairedUtf16LowSurrogate⟩ :=
  ⟨_, check_last o sb sur p _ _ st h⟩

/-- The issue of a high surrogate without its partner: at the escape `p` of the high
surrogate, with the cursor behind what follows the escape. -/
theorem tok_high {i0 a j : Ptr} {p : Piece} {rest : Bytes} {st' : ParserImpl} {d : String}
    (hp : p.WellFormed .Strict) (hhigh : p.isHigh) (hm : i0.Moved p.text a)
    (hrest : a.Moved rest j) (hj : st'.i = j)
    (hlast : st'.issues.getLast? =
      some ⟨a.pos - 6, d, .StringContainsUnpairedUtf16HighSurrogate⟩)
    (hr : rest = [34] ∨ ∃ q : Piece, q.WellFormed .Strict ∧ ¬ q.isLow ∧ rest = q.text) :
    Tok i0 st' := by
  intro x hx _
  rw [hlast] at hx
  obtain rfl := Option.some.inj hx
  refine ⟨[], p.text ++ rest, ?_, ?_, p, rest, hp, hhigh, rfl, hr⟩
  · rw [hj]
    exact hm.append_moved hrest
  · have := hm.2
    rw [isHigh_length hhigh] at this
    simp only [List.length_nil]
    omega

theorem parseStringSurrogates_tok (o : ParsingOptions) (fuel : Nat) :
    ∀ (s : Bytes) (sur : Nat) (st : ParserImpl) (e : SurrogateLoopExit),
    parseStringSurrogates o fuel s sur st = some e →
    ∀ (i0 : Ptr) (p : Piece), p.WellFormed .Strict → p.isHigh → i0.Moved p.text st.i →
    ∀ s' st', e = .returned false s' st' → Tok i0 st' := by
  induction fuel with
  | zero => intro s sur st e h; simp [parseStringSurrogates] at h
  | succ fuel ih =>
    intro s sur st e h i0 p hp hhigh hm0 s' st' hE
    unfold parseStringSurrogates at h
    by_cases he : st.i.rest = []
    · simp only [he, if_true, Option.some.injEq] at h
      subst h
      simp only [SurrogateLoopExit.returned.injEq, true_and] at hE
      rw [← hE.2]
      exact Tok.of_noPolicy (noPolicy_end _)
    · simp only [he, if_false] at h
      cases hm : EscapedStringParser.parseMore .Strict st.i with
      | none => simp [hm] at h
      | some x =>
        obtain ⟨r2, i2⟩ := x
        have hcase := parseMore_cases _ _ _ hm
        simp only [hm] at h
        cases hres : r2.result <;> simp only [hres] at h hcase
        · -- Skip
          obtain ⟨q, hq, hmv⟩ := hcase
          have hkind := parseMore_piece _ _ _ hm q hq hmv
          split_ifs at h with hc1
          · simp only [Option.some.injEq] at h; subst h
            exact absurd hE (by simp)
          · simp only [Option.some.injEq] at h; subst h
            simp only [SurrogateLoopExit.returned.injEq, true_and] at hE
            rw [← hE.2]
            obtain ⟨d, hl⟩ := checkHigh_last o s sur (st.i.pos - 6) { st with i := i2 }
              (by simpa using hc1)
            exact tok_high hp hhigh hm0 hmv (checkHigh_cursor _ _ _ _ _) hl
              (Or.inr ⟨q, hq, fun hlow => by
                have := hkind.2.2 hlow
                rw [hres] at this
                exact absurd this (by decide), rfl⟩)
        · -- Unescaped
          obtain ⟨q, hq, hmv⟩ := hcase
          have hkind := parseMore_piece _ _ _ hm q hq hmv
          split_ifs at h with hc1
          · simp only [Option.some.injEq] at h; subst h
            exact absurd hE (by simp)
          · simp only [Option.some.injEq] at h; subst h
            simp only [SurrogateLoopExit.returned.injEq, true_and] at hE
            rw [← hE.2]
            obtain ⟨d, hl⟩ := checkHigh_last o s sur (st.i.pos - 6) { st with i := i2 }
              (by simpa using hc1)
            exact tok_high hp hhigh hm0 hmv (checkHigh_cursor _ _ _ _ _) hl
              (Or.inr ⟨q, hq, fun hlow => by
                have := hkind.2.2 hlow
                rw [hres] at this
                exact absurd this (by decide), rfl⟩)
        · -- HighSurrogate
          obtain ⟨q, hq, hmv⟩ := hcase
          have hkind := parseMore_piece _ _ _ hm q hq hmv
          split_ifs at h with hc1
          · have hcur := checkHigh_cursor o s sur (st.i.pos - 6) { st with i := i2 }
            have := ih _ _ _ _ h st.i q hq (hkind.1 hres) (by rw [hcur]; exact hmv) s' st' hE
            exact Tok.moved_first hm0 this
          · simp only [Option.some.injEq] at h; subst h
            simp only [SurrogateLoopExit.returned.injEq, true_and] at hE
            rw [← hE.2]
            obtain ⟨d, hl⟩ := checkHigh_last o s sur (st.i.pos - 6) { st with i := i2 }
              (by simpa using hc1)
            exact tok_high hp hhigh hm0 hmv (checkHigh_cursor _ _ _ _ _) hl
              (Or.inr ⟨q, hq, fun hlow => by
                have := hkind.2.2 hlow
                rw [hres] at this
                exact absurd this (by decide), rfl⟩)
        · -- LowSurrogate
          simp only [Option.some.injEq] at h; subst h
          exact absurd hE (by simp)
        · -- JsonStringEnd
          obtain ⟨hj, t, ht⟩ := hcase
          subst hj
          simp only [Option.some.injEq] at h; subst h
          simp only [SurrogateLoopExit.returned.injEq] at hE
          obtain ⟨hc1, -, hst⟩ := hE
          rw [← hst]
          obtain ⟨d, hl⟩ := checkHigh_last o s sur (st.i.pos - 6)
            (ParserImpl.advance { st with i := st.i }) hc1
          exact tok_high hp hhigh hm0 (moved_next ht) (checkHigh_cursor _ _ _ _ _) hl
            (Or.inl rfl)
        · -- InvalidCharacter
          simp only [Option.some.injEq] at h; subst h
          simp only [SurrogateLoopExit.returned.injEq, true_and] at hE
          rw [← hE.2]
          exact Tok.of_noPolicy (noPolicy_invalid _ _)
        · -- UnexpectedEndOfInput
          simp only [Option.some.injEq] at h; subst h
          simp only [SurrogateLoopExit.returned.injEq, true_and] at hE
          rw [← hE.2]
          exact Tok.of_noPolicy (noPolicy_end _)

theorem parseStringLoop_tok (o : ParsingOptions) (fuel : Nat) :
    ∀ (s : Bytes) (pb : Ptr) (st : ParserImpl) (s' : Bytes) (st' : ParserImpl),
    parseStringLoop o fuel s pb st = some (false, s', st') → Tok st.i st' := by
  induction fuel with
  | zero => intro s pb st s' st' h; simp [parseStringLoop] at h
  | succ fuel ih =>
    intro s pb st s' st' h
    unfold parseStringLoop at h
    by_cases he : st.detectEndOfInput.1 = true
    · simp only [he, if_true, Option.some.injEq, Prod.mk.injEq, true_and] at h
      rw [← h.2]
      exact Tok.of_noPolicy (noPolicy_detectEnd st he)
    · have he' : st.detectEndOfInput.1 = false := by simpa using he
      obtain ⟨heq, hne⟩ := detectEndOfInput_false st he'
      simp only [he', heq] at h
      simp only [Bool.false_eq_true, if_false] at h
      cases hm : EscapedStringParser.parseMore .Strict st.i with
      | none => simp [hm] at h
      | some x =>
        obtain ⟨r1, i1⟩ := x
        have hcase := parseMore_cases _ _ _ hm
        simp only [hm] at h
        cases hres : r1.result <;> simp only [hres] at h hcase
        · -- Skip
          obtain ⟨p, hp, hmv⟩ := hcase
          exact Tok.moved_first hmv (ih _ _ _ _ _ h)
        · -- Unescaped
          obtain ⟨p, hp, hmv⟩ := hcase
          exact Tok.moved_first hmv (ih _ _ _ _ _ h)
        · -- HighSurrogate
          obtain ⟨p, hp, hmv⟩ := hcase
          have hkind := parseMore_piece _ _ _ hm p hp hmv
          cases hsur : parseStringSurrogates o fuel (s ++ pb.range st.i) r1.surrogate
              { st with i := i1 } with
          | none => simp [hsur] at h
          | some e =>
            have hg := parseStringSurrogates_gram o _ _ _ _ _ hsur
            have ht := parseStringSurrogates_tok o _ _ _ _ _ hsur st.i p hp (hkind.1 hres) hmv
            simp only [hsur] at h
            cases e with
            | returned b s2 st2 =>
              simp only [Option.some.injEq, Prod.mk.injEq] at h
              obtain ⟨rfl, rfl, rfl⟩ := h
              exact ht _ _ rfl
            | broke s2 pb2 st2 =>
              simp only at h
              obtain ⟨ps, hps, hm2⟩ := hg
              exact Tok.moved_first (hmv.append_moved hm2) (ih _ _ _ _ _ h)
        · -- LowSurrogate
          obtain ⟨p, hp, hmv⟩ := hcase
          have hkind := parseMore_piece _ _ _ hm p hp hmv
          split_ifs at h with hc1
          · have := ih _ _ _ _ _ h
            rw [checkLow_cursor] at this
            exact Tok.moved_first hmv this
          · simp only [Option.some.injEq, Prod.mk.injEq, true_and] at h
            rw [← h.2]
            obtain ⟨d, hl⟩ := checkLow_last o (s ++ pb.range st.i) r1.surrogate st.i.pos
              { st with i := i1 } (by simpa using hc1)
            intro x hx _
            rw [hl] at hx
            obtain rfl := Option.some.inj hx
            refine ⟨[], p.text, ?_, by simp, p, hp, hkind.2.1 hres, rfl⟩
            rw [checkLow_cursor]
            exact hmv
        · -- JsonStringEnd
          simp at h
        · -- InvalidCharacter
          simp only [Option.some.injEq, Prod.mk.injEq, true_and] at h
          rw [← h.2]
          exact Tok.of_noPolicy (noPolicy_invalid _ _)
        · -- UnexpectedEndOfInput
          simp only [Option.some.injEq, Prod.mk.injEq, true_and] at h
          rw [← h.2]
          exact Tok.of_noPolicy (noPolicy_end _)

theorem parseString_tok (o : ParsingOptions) (s : Bytes) (st : ParserImpl)
    (s' : Bytes) (st' : ParserImpl) (t : Bytes) (hr : st.i.rest = 34 :: t)
    (h : parseString o s st = some (false, s', st')) : Tok st.i st' := by
  unfold parseString at h
  exact Tok.moved_first (moved_advance hr) (parseStringLoop_tok o _ _ _ _ _ _ h)

/-! ## The issue that stops the parser by a policy -/

theorem parseLiteral_tok (lit : Value) (c p : Byte) (ps : Bytes) (v : Value)
    (st : ParserImpl) (r : Bool) (v' : Value) (st' : ParserImpl)
    (h : parseLiteral lit (c :: p :: ps) v st = (r, v', st')) (hr : r = false) :
    Tok st.i st' := by
  have := parseLiteral_noPolicy lit c p ps v st (by rw [h]; exact hr)
  rw [h] at this
  exact Tok.of_noPolicy this

theorem parser_tok (o : ParsingOptions) (fuel : Nat) : TokAll o fuel := by
  induction fuel with
  | zero =>
    refine ⟨?_, ?_, ?_, ?_, ?_, ?_⟩ <;> intros <;> simp_all [parseImpl, parseArray,
      parseArrayMembersRecursion, parseArrayMembersLoop, parseObject, parseObjectMembers]
  | succ fuel ih =>
    obtain ⟨ihImpl, ihArr, ihRec, ihLoop, ihObj, ihMem⟩ := ih
    obtain ⟨gImpl, -, -, -, -, -⟩ := parser_gram o fuel
    refine ⟨?_, ?_, ?_, ?_, ?_, ?_⟩
    · -- parseImpl
      intro v st r v' st' h hf
      unfold parseImpl at h
      rcases st.i.rest_cases with hr | ⟨b, rest, hr⟩
      · simp [hr] at h
      · simp only [hr] at h
        split_ifs at h with h1 h2 h3 h4 h5 h6
        · simp only [Option.some.injEq] at h
          rw [literal_null] at h
          exact parseLiteral_tok _ _ _ _ _ _ _ _ _ h hf
        · simp only [Option.some.injEq] at h
          rw [literal_false] at h
          exact parseLiteral_tok _ _ _ _ _ _ _ _ _ h hf
        · simp only [Option.some.injEq] at h
          rw [literal_true] at h
          exact parseLiteral_tok _ _ _ _ _ _ _ _ _ h hf
        · cases hs : parseString o [] st with
          | none => simp [hs] at h
          | some x =>
            obtain ⟨rs, ss, sts⟩ := x
            simp only [hs, Option.some.injEq, Prod.mk.injEq] at h
            obtain ⟨rfl, rfl, rfl⟩ := h
            have hb : b = 34 := Fin.ext h4
            subst hb
            subst hf
            exact parseString_tok o _ _ _ _ rest hr hs
        · have hb : b = 91 := Fin.ext h5
          subst hb
          exact ihArr _ _ _ _ _ ⟨rest, hr⟩ h hf
        · have hb : b = 123 := Fin.ext h6
          subst hb
          exact ihObj _ _ _ _ _ ⟨rest, hr⟩ h hf
        · subst hf
          exact parseNumber_tok _ _ _ _ h
    · -- parseArray
      intro v st r v' st' hne h hf
      obtain ⟨t0, hr0⟩ := hne
      unfold parseArray at h
      have hadv := moved_advance hr0
      obtain ⟨w, hw, hws⟩ := moved_endWs st.advance
      have hm0 : st.i.Moved (91 :: w) st.advance.detectEndOfInputAfterSkippingWhitespaces.2.i :=
        hadv.append_moved hw
      by_cases he : st.advance.detectEndOfInputAfterSkippingWhitespaces.1 = true
      · simp only [he, if_true, Option.some.injEq, Prod.mk.injEq] at h
        obtain ⟨rfl, rfl, rfl⟩ := h
        exact Tok.of_noPolicy (noPolicy_endWs _ he)
      · have he' : st.advance.detectEndOfInputAfterSkippingWhitespaces.1 = false := by
          simpa using he
        simp only [he', Bool.false_eq_true, if_false] at h
        rcases st.advance.detectEndOfInputAfterSkippingWhitespaces.2.i.rest_cases with
          hr | ⟨b, rest, hr⟩
        · simp [hr] at h
        · simp only [hr] at h
          split_ifs at h with h1
          · simp only [Option.some.injEq, Prod.mk.injEq] at h
            obtain ⟨rfl, rfl, rfl⟩ := h
            exact absurd hf (by decide)
          · cases hm : parseArrayMembersRecursion o fuel [] .null 1
                st.advance.detectEndOfInputAfterSkippingWhitespaces.2 with
            | none => simp [hm] at h
            | some x =>
              obtain ⟨rm, am, um, sm⟩ := x
              have hp := ihRec _ _ _ _ _ _ _ _ hm
              simp only [hm] at h
              cases rm <;> simp only [Option.some.injEq, Prod.mk.injEq] at h <;>
                obtain ⟨rfl, rfl, rfl⟩ := h
              · exact Tok.moved_first hm0 (hp rfl)
              · exact absurd hf (by decide)
    · -- parseArrayMembersRecursion
      intro a v size st r a' v' st' h hf
      unfold parseArrayMembersRecursion at h
      cases hi : parseImpl o fuel v st with
      | none => simp [hi] at h
      | some x =>
        obtain ⟨ri, vi, si⟩ := x
        have hp := ihImpl _ _ _ _ _ hi
        have hg := gImpl _ _ _ _ _ hi
        simp only [hi] at h
        cases ri
        · simp only [Option.some.injEq, Prod.mk.injEq] at h
          obtain ⟨rfl, rfl, rfl, rfl⟩ := h
          exact hp rfl
        · simp only at h
          obtain ⟨c1, hc1, -, -⟩ := hg
          obtain ⟨w, hw, hws⟩ := moved_endWs si
          have hm1 := hc1.append_moved hw
          by_cases he : si.detectEndOfInputAfterSkippingWhitespaces.1 = true
          · simp only [he, if_true, Option.some.injEq, Prod.mk.injEq] at h
            obtain ⟨rfl, rfl, rfl, rfl⟩ := h
            exact Tok.of_noPolicy (noPolicy_endWs _ he)
          · have he' : si.detectEndOfInputAfterSkippingWhitespaces.1 = false := by
              simpa using he
            simp only [he', Bool.false_eq_true, if_false] at h
            rcases si.detectEndOfInputAfterSkippingWhitespaces.2.i.rest_cases with
              hr | ⟨b, rest, hr⟩
            · simp [hr] at h
            · simp only [hr] at h
              have hadv := moved_advance hr
              obtain ⟨w2, hw2, hws2⟩ := moved_endWs
                si.detectEndOfInputAfterSkippingWhitespaces.2.advance
              have hm2 := hm1.append_moved (hadv.append_moved hw2)
              split_ifs at h with h1 h2 h3 h4
              · simp only [Option.some.injEq, Prod.mk.injEq] at h
                obtain ⟨rfl, rfl, rfl, rfl⟩ := h
                exact absurd hf (by decide)
              · simp only [Option.some.injEq, Prod.mk.injEq] at h
                obtain ⟨rfl, rfl, rfl, rfl⟩ := h
                exact Tok.of_noPolicy (noPolicy_endWs _ h3)
              · cases hm : parseArrayMembersLoop o fuel (resize a (size + 1))
                    si.detectEndOfInputAfterSkippingWhitespaces.2.advance.detectEndOfInputAfterSkippingWhitespaces.2 with
                | none => simp [hm] at h
                | some x =>
                  obtain ⟨rm, am, sm⟩ := x
                  have hq := ihLoop _ _ _ _ _ hm
                  simp only [hm, Option.some.injEq, Prod.mk.injEq] at h
                  obtain ⟨rfl, rfl, rfl, rfl⟩ := h
                  exact Tok.moved_first hm2 (hq hf)
              · cases hm : parseArrayMembersRecursion o fuel a .null (size + 1)
                    si.detectEndOfInputAfterSkippingWhitespaces.2.advance.detectEndOfInputAfterSkippingWhitespaces.2 with
                | none => simp [hm] at h
                | some x =>
                  obtain ⟨rm, am, um, sm⟩ := x
                  have hq := ihRec _ _ _ _ _ _ _ _ hm
                  simp only [hm] at h
                  cases rm <;> simp only [Option.some.injEq, Prod.mk.injEq] at h <;>
                    obtain ⟨rfl, rfl, rfl, rfl⟩ := h
                  · exact Tok.moved_first hm2 (hq rfl)
                  · exact absurd hf (by decide)
              · simp only [Option.some.injEq, Prod.mk.injEq] at h
                obtain ⟨rfl, rfl, rfl, rfl⟩ := h
                exact Tok.of_noPolicy (noPolicy_invalid _ _)
    · -- parseArrayMembersLoop
      intro a st r a' st' h hf
      unfold parseArrayMembersLoop at h
      cases hi : parseImpl o fuel (a.getLastD .null) st with
      | none => rw [hi] at h; exact absurd h (by simp)
      | some x =>
        obtain ⟨ri, vi, si⟩ := x
        have hp := ihImpl _ _ _ _ _ hi
        have hg := gImpl _ _ _ _ _ hi
        simp only [hi] at h
        cases ri
        · simp only [Option.some.injEq, Prod.mk.injEq] at h
          obtain ⟨rfl, rfl, rfl⟩ := h
          exact hp rfl
        · simp only at h
          obtain ⟨c1, hc1, -, -⟩ := hg
          obtain ⟨w, hw, hws⟩ := moved_endWs si
          have hm1 := hc1.append_moved hw
          by_cases he : si.detectEndOfInputAfterSkippingWhitespaces.1 = true
          · simp only [he, if_true, Option.some.injEq, Prod.mk.injEq] at h
            obtain ⟨rfl, rfl, rfl⟩ := h
            exact Tok.of_noPolicy (noPolicy_endWs _ he)
          · have he' : si.detectEndOfInputAfterSkippingWhitespaces.1 = false := by
              simpa using he
            simp only [he', Bool.false_eq_true, if_false] at h
            rcases si.detectEndOfInputAfterSkippingWhitespaces.2.i.rest_cases with
              hr | ⟨b, rest, hr⟩
            · simp [hr] at h
            · simp only [hr] at h
              have hadv := moved_advance hr
              obtain ⟨w2, hw2, hws2⟩ := moved_endWs
                si.detectEndOfInputAfterSkippingWhitespaces.2.advance
              have hm2 := hm1.append_moved (hadv.append_moved hw2)
              split_ifs at h with h1 h2 h3
              · simp only [Option.some.injEq, Prod.mk.injEq] at h
                obtain ⟨rfl, rfl, rfl⟩ := h
                exact absurd hf (by decide)
              · simp only [Option.some.injEq, Prod.mk.injEq] at h
                obtain ⟨rfl, rfl, rfl⟩ := h
                exact Tok.of_noPolicy (noPolicy_endWs _ h3)
              · exact Tok.moved_first hm2 (ihLoop _ _ _ _ _ h hf)
              · simp only [Option.some.injEq, Prod.mk.injEq] at h
                obtain ⟨rfl, rfl, rfl⟩ := h
                exact Tok.of_noPolicy (noPolicy_invalid _ _)
    · -- parseObject
      intro v st r v' st' hne h hf
      obtain ⟨t0, hr0⟩ := hne
      unfold parseObject at h
      have hadv := moved_advance hr0
      obtain ⟨w, hw, hws⟩ := moved_endWs st.advance
      have hm0 : st.i.Moved (123 :: w) st.advance.detectEndOfInputAfterSkippingWhitespaces.2.i :=
        hadv.append_moved hw
      by_cases he : st.advance.detectEndOfInputAfterSkippingWhitespaces.1 = true
      · simp only [he, if_true, Option.some.injEq, Prod.mk.injEq] at h
        obtain ⟨rfl, rfl, rfl⟩ := h
        exact Tok.of_noPolicy (noPolicy_endWs _ he)
      · have he' : st.advance.detectEndOfInputAfterSkippingWhitespaces.1 = false := by
          simpa using he
        simp only [he', Bool.false_eq_true, if_false] at h
        rcases st.advance.detectEndOfInputAfterSkippingWhitespaces.2.i.rest_cases with
          hr | ⟨b, rest, hr⟩
        · simp [hr] at h
        · simp only [hr] at h
          split_ifs at h with h1
          · simp only [Option.some.injEq, Prod.mk.injEq] at h
            obtain ⟨rfl, rfl, rfl⟩ := h
            exact absurd hf (by decide)
          · cases hm : parseObjectMembers o fuel []
                st.advance.detectEndOfInputAfterSkippingWhitespaces.2 with
            | none => simp [hm] at h
            | some x =>
              obtain ⟨rm, om, sm⟩ := x
              have hp := ihMem _ _ _ _ _ hm
              simp only [hm, Option.some.injEq, Prod.mk.injEq] at h
              obtain ⟨rfl, rfl, rfl⟩ := h
              exact Tok.moved_first hm0 (hp hf)
    · -- parseObjectMembers
      intro ob st r o'' st' h hf
      unfold parseObjectMembers at h
      rcases st.i.rest_cases with hr | ⟨b, rest, hr⟩
      · simp [hr] at h
      · simp only [hr] at h
        split_ifs at h with h1
        · simp only [Option.some.injEq, Prod.mk.injEq] at h
          obtain ⟨rfl, rfl, rfl⟩ := h
          exact Tok.of_noPolicy (noPolicy_invalid _ _)
        · have hb : b = 34 := Fin.ext (by simpa using h1)
          subst hb
          cases hs : parseString o [] st with
          | none => simp [hs] at h
          | some x =>
            obtain ⟨rs, key, s1⟩ := x
            obtain ⟨ck, hck, jk1, jk2⟩ := parseString_gram o _ _ _ _ _ rest hr hs
            simp only [hs] at h
            cases rs
            · simp only [Option.some.injEq, Prod.mk.injEq] at h
              obtain ⟨rfl, rfl, rfl⟩ := h
              exact parseString_tok o _ _ _ _ rest hr hs
            · simp only at h
              have hk := jk1 rfl
              obtain ⟨w1, hw1, hws1⟩ := moved_endWs s1
              have hm1 := hck.append_moved hw1
              by_cases he : s1.detectEndOfInputAfterSkippingWhitespaces.1 = true
              · simp only [he, if_true, Option.some.injEq, Prod.mk.injEq] at h
                obtain ⟨rfl, rfl, rfl⟩ := h
                exact Tok.of_noPolicy (noPolicy_endWs _ he)
              · have he' : s1.detectEndOfInputAfterSkippingWhitespaces.1 = false := by
                  simpa using he
                simp only [he', Bool.false_eq_true, if_false] at h
                rcases s1.detectEndOfInputAfterSkippingWhitespaces.2.i.rest_cases with
                  hr2 | ⟨c, rest2, hr2⟩
                · simp [hr2] at h
                · simp only [hr2] at h
                  by_cases h2 : c.val = 58
                  swap
                  · simp only [ne_eq, h2, not_false_eq_true, if_true, Option.some.injEq,
                      Prod.mk.injEq] at h
                    obtain ⟨rfl, rfl, rfl⟩ := h
                    exact Tok.of_noPolicy (noPolicy_invalid _ _)
                  have hc : c = 58 := Fin.ext h2
                  subst hc
                  simp only [ne_eq, h2, not_true_eq_false, if_false] at h
                  have hadv := moved_advance hr2
                  obtain ⟨w2, hw2, hws2⟩ := moved_endWs
                    s1.detectEndOfInputAfterSkippingWhitespaces.2.advance
                  have hm2 := hm1.append_moved (hadv.append_moved hw2)
                  by_cases h3 : s1.detectEndOfInputAfterSkippingWhitespaces.2.advance.detectEndOfInputAfterSkippingWhitespaces.1 = true
                  · simp only [h3, if_true, Option.some.injEq, Prod.mk.injEq] at h
                    obtain ⟨rfl, rfl, rfl⟩ := h
                    exact Tok.of_noPolicy (noPolicy_endWs _ h3)
                  simp only [h3, Bool.false_eq_true, if_false] at h
                  by_cases h4 : (!(tryEmplace ob key).2) = true ∧ o.duplicateObjectKeys = .Fail
                  · rw [if_pos h4] at h
                    simp only [Option.some.injEq, Prod.mk.injEq] at h
                    obtain ⟨rfl, rfl, rfl⟩ := h
                    have hcond : (!(tryEmplace ob key).2) = true ∧
                        o.duplicateObjectKeys ≠ .Ignore := ⟨h4.1, by simp [h4.2]⟩
                    rw [if_pos hcond]
                    intro x hx _
                    rw [getLast_addIssueAt] at hx
                    obtain rfl := Option.some.inj hx
                    refine ⟨[], ck ++ w1 ++ ([58] ++ w2), hm2, by simp, ck, w1, w2, by simp,
                      hk, hws1, hws2⟩
                  · rw [if_neg h4] at h
                    cases hv : parseImpl o fuel
                        ((Object.find key (tryEmplace ob key).1).getD Value.null)
                        (if (!(tryEmplace ob key).2) = true ∧ o.duplicateObjectKeys ≠ .Ignore then
                          s1.detectEndOfInputAfterSkippingWhitespaces.2.advance.detectEndOfInputAfterSkippingWhitespaces.2.addIssueAt
                            st.i.pos "JSON object contains duplicate keys" .DuplicateKeys
                        else s1.detectEndOfInputAfterSkippingWhitespaces.2.advance.detectEndOfInputAfterSkippingWhitespaces.2) with
                    | none => rw [hv] at h; exact absurd h (by simp)
                    | some x =>
                      obtain ⟨rv, wv, sv⟩ := x
                      have hq := ihImpl _ _ _ _ _ hv
                      have hgq := gImpl _ _ _ _ _ hv
                      rw [dupIssue_cursor] at hq hgq
                      rw [hv] at h
                      cases rv
                      · simp only [Option.some.injEq, Prod.mk.injEq] at h
                        obtain ⟨rfl, rfl, rfl⟩ := h
                        exact Tok.moved_first hm2 (hq rfl)
                      · simp only at h
                        obtain ⟨cv, hcv, -, -⟩ := hgq
                        obtain ⟨w3, hw3, hws3⟩ := moved_endWs sv
                        have hm3 := hm2.append_moved (hcv.append_moved hw3)
                        by_cases he3 : sv.detectEndOfInputAfterSkippingWhitespaces.1 = true
                        · simp only [he3, if_true, Option.some.injEq, Prod.mk.injEq] at h
                          obtain ⟨rfl, rfl, rfl⟩ := h
                          exact Tok.of_noPolicy (noPolicy_endWs _ he3)
                        · have he3' : sv.detectEndOfInputAfterSkippingWhitespaces.1 = false := by
                            simpa using he3
                          simp only [he3', Bool.false_eq_true, if_false] at h
                          rcases sv.detectEndOfInputAfterSkippingWhitespaces.2.i.rest_cases with
                            hr3 | ⟨d, rest3, hr3⟩
                          · simp [hr3] at h
                          · simp only [hr3] at h
                            have hadv3 := moved_advance hr3
                            obtain ⟨w4, hw4, hws4⟩ := moved_endWs
                              sv.detectEndOfInputAfterSkippingWhitespaces.2.advance
                            have hm4 := hm3.append_moved (hadv3.append_moved hw4)
                            split_ifs at h with h5 h6 h7
                            · simp only [Option.some.injEq, Prod.mk.injEq] at h
                              obtain ⟨rfl, rfl, rfl⟩ := h
                              exact absurd hf (by decide)
                            · simp only [Option.some.injEq, Prod.mk.injEq] at h
                              obtain ⟨rfl, rfl, rfl⟩ := h
                              exact Tok.of_noPolicy (noPolicy_endWs _ h7)
                            · exact Tok.moved_first hm4 (ihMem _ _ _ _ _ h hf)
                            · simp only [Option.some.injEq, Prod.mk.injEq] at h
                              obtain ⟨rfl, rfl, rfl⟩ := h
                              exact Tok.of_noPolicy (noPolicy_invalid _ _)

theorem BeginsJson.take {u : Bytes} (h : BeginsJson u) (k : Nat) : BeginsJson (u.take k) := by
  obtain ⟨ext, hext⟩ := h
  refine ⟨u.drop k ++ ext, ?_⟩
  rw [← List.append_assoc, List.take_append_drop]
  exact hext

theorem beginsJson_take_le (input : Bytes) (p q : Nat) (hq : q ≤ p)
    (h : BeginsJson (input.take p)) : BeginsJson (input.take q) := by
  have := h.take q
  rwa [List.take_take, Nat.min_eq_left hq] at this

/-- The result of `impl::parse` behind a failure of `parse`. -/
theorem parse_failure_impl (input : Bytes) (o : ParsingOptions) (mode : ParsingMode)
    (r : ParsingResult) (h : parse input o mode = some r) (hs : r.status = .Failure) :
    impl.parse input o = some r := by
  obtain ⟨res, hi, hF, hV, hS⟩ := parse_cases input o mode r h
  rcases (implParse_codes input o res hi).1 with h1 | h1
  · cases mode with
    | StopAfterValueEnds =>
      have := hS h1 rfl
      subst this
      rw [hs] at h1
      exact absurd h1 (by decide)
    | VerifyTrailingWhitespace =>
      rcases (hV h1 rfl).1 with h2 | h2 <;> rw [hs] at h2 <;> exact absurd h2 (by decide)
  · rw [hF h1]
    exact hi

/-- The last issue of a failure of `impl::parse`, when it has a policy code: the text from
its offset to `parsedSize` is the text of the issue. -/
theorem implParse_tok (input : Bytes) (o : ParsingOptions) (res : ParsingResult)
    (h : impl.parse input o = some res) (hs : res.status = .Failure) :
    ∀ x, res.issues.getLast? = some x → PolicyCode x.code →
      IssueText x.code ((input.take res.parsedSize).drop x.offset) := by
  obtain ⟨r, v, st', hp, hst, hps, hiss⟩ := implParse_run input o res h
  have hr : r = false := by
    cases r
    · rfl
    · simp [hs] at hst
  subst hr
  have htok : Tok ⟨0, input⟩ st' := by
    unfold ParserImpl.parse at hp
    simp only at hp
    obtain ⟨w, hw, hws⟩ := moved_endWs { i := ⟨0, input⟩, issues := [] }
    by_cases he : (detectEndOfInputAfterSkippingWhitespaces
        { i := ⟨0, input⟩, issues := [] }).1 = true
    · simp only [he, if_true, Option.some.injEq, Prod.mk.injEq] at hp
      rw [← hp.2.2]
      exact Tok.of_noPolicy (noPolicy_endWs _ he)
    · simp only [he, Bool.false_eq_true, if_false] at hp
      exact Tok.moved_first hw ((parser_tok o _).1 _ _ _ _ _ hp rfl)
  intro x hx hpc
  rw [hiss] at hx
  obtain ⟨pre, tok, hm, hoff, htext⟩ := htok x hx hpc
  have e1 : input = (pre ++ tok) ++ st'.i.rest := hm.1
  have e2 : st'.i.pos = (pre ++ tok).length := by
    have := hm.2
    simpa using this
  have e3 : x.offset = pre.length := by simpa using hoff
  have htake : input.take res.parsedSize = pre ++ tok := by
    rw [hps, e2]
    conv_lhs => rw [e1]
    exact List.take_left' rfl
  rw [htake, e3, List.drop_left]
  exact htext

/-- C3, amended: when `parse` returns `Failure`, the bytes before `parsedSize` are the
beginning of a JSON document (RFC 8259), the issues end with the one that stopped the parse,
all issues before it are reports that lie before `parsedSize`, and the last one lies against
`parsedSize` by its code.  `InvalidCharacter`: the offset is `parsedSize`, inside the input,
and it is the offset of the first byte that makes the input invalid: the first `q` bytes of
the input are the beginning of a JSON document exactly when `q` is at most the offset.
`UnexpectedEndOfInput`: the offset is `parsedSize`, the input length, and the input is the
beginning of a JSON document but not a JSON document.  `DuplicateKeys`,
`ParsedNumberOutOfRange` and the two unpaired surrogate codes: the offset is before
`parsedSize`, at the first byte of the text that the issue is about, and that text ends at
`parsedSize`: the key, the colon and the whitespace around it; the number; the escape of the
high surrogate and the piece or quotation mark after it; the escape of the low surrogate.  The
code is never `Other`.  When `parse` in the mode `VerifyTrailingWhitespace` returns `Success`,
`parsedSize` is the input length. -/
theorem parse_failure_offset (input : Bytes) (o : ParsingOptions) (mode : ParsingMode)
    (r : ParsingResult) (h : parse input o mode = some r) :
    (r.status = .Failure →
      r.parsedSize ≤ input.length ∧
      BeginsJson (input.take r.parsedSize) ∧
      ∃ rep x, r.issues = rep ++ [x] ∧
        (∀ y ∈ rep, ReportKind o y ∧ y.offset < r.parsedSize) ∧
        x.offset ≤ r.parsedSize ∧
        x.code ≠ .Other ∧
        (x.code = .InvalidCharacter → x.offset = r.parsedSize ∧ r.parsedSize < input.length ∧
          ∀ q, q ≤ input.length → (BeginsJson (input.take q) ↔ q ≤ x.offset)) ∧
        (x.code = .UnexpectedEndOfInput →
          x.offset = r.parsedSize ∧ r.parsedSize = input.length ∧
          BeginsJson input ∧ ¬ JsonDocument input) ∧
        (x.code = .DuplicateKeys ∨ x.code = .ParsedNumberOutOfRange ∨
          x.code = .StringContainsUnpairedUtf16HighSurrogate ∨
          x.code = .StringContainsUnpairedUtf16LowSurrogate → x.offset < r.parsedSize ∧
            IssueText x.code ((input.take r.parsedSize).drop x.offset))) ∧
    (mode = .VerifyTrailingWhitespace → r.status = .Success → r.parsedSize = input.length) := by
  obtain ⟨hfail, hver⟩ := parse_failure_stops input o mode r h
  refine ⟨fun hs => ?_, hver⟩
  obtain ⟨hle, rep, x, hiss, hrep, hxle, hother, hinv, hend, hpol⟩ := hfail hs
  have hi := parse_failure_impl input o mode r h hs
  have hb := (implParse_gram input o r hi).2 hs
  have hlast : r.issues.getLast? = some x := by
    rw [hiss]
    simp
  refine ⟨hle, hb, rep, x, hiss, hrep, hxle, hother, ?_, ?_,
    fun hc => ⟨hpol hc, implParse_tok input o r hi hs x hlast hc⟩⟩
  · intro hc
    obtain ⟨h1, h2⟩ := hinv hc
    refine ⟨h1, h2, fun q hq => ⟨fun hbq => ?_, fun hqx => ?_⟩⟩
    · by_contra hcon
      have hq1 : r.parsedSize + 1 ≤ q := by omega
      exact implParse_invalid input o r hi hs x hlast hc h2
        (beginsJson_take_le input q _ hq1 hbq)
    · exact beginsJson_take_le input r.parsedSize q (by omega) hb
  · intro hc
    obtain ⟨h1, h2⟩ := hend hc
    refine ⟨h1, h2, ?_, implParse_unexpectedEnd input o r hi hs x hlast hc⟩
    have := hb
    rw [h2, List.take_length] at this
    exact this

/-- C8: `parse` in the mode `StopAfterValueEnds` never returns `PartialSuccess` and never adds
an issue with the code `Other`.  When it returns `Success`, `parsedSize = p` is the offset one
past the last byte of the text of the value: the first `p` bytes of the input are whitespace
followed by the text of one JSON value (RFC 8259), and no longer beginning of the input is; `p`
is positive and within the input, the byte at `p - 1` is not whitespace (no trailing
whitespace is taken), and the result is that of the first `p` bytes alone, whatever follows
them: `parse` returns the same result on the first `p` bytes followed by any bytes `s2` that
start like the bytes after `p` in the input, or by none, or by any bytes that do not go on a
number (a digit, `.`, `e` or `E`). -/
theorem parse_stop_after_value (input : Bytes) (o : ParsingOptions) (r : ParsingResult)
    (h : parse input o .StopAfterValueEnds = some r) :
    r.status ≠ .PartialSuccess ∧ (∀ x ∈ r.issues, x.code ≠ .Other) ∧
    (r.status = .Success →
      0 < r.parsedSize ∧ r.parsedSize ≤ input.length ∧
      (∃ b, input[r.parsedSize - 1]? = some b ∧ ¬ isWhitespace b) ∧
      (∀ s2, ((input.drop r.parsedSize).head? = s2.head? ∨ InertEnd s2) →
        parse (input.take r.parsedSize ++ s2) o .StopAfterValueEnds = some r) ∧
      (∃ w t, input.take r.parsedSize = w ++ t ∧ (∀ b ∈ w, isWhitespace b) ∧
        Json .value t) ∧
      (∀ q w t, r.parsedSize < q → q ≤ input.length → input.take q = w ++ t →
        (∀ b ∈ w, isWhitespace b) → ¬ Json .value t)) := by
  obtain ⟨h1, h2, h3⟩ := parse_stop_stable input o r h
  refine ⟨h1, h2, fun hs => ?_⟩
  obtain ⟨a1, a2, a3, a4⟩ := h3 hs
  rw [parse_stop_eq] at h
  exact ⟨a1, a2, a3, a4, (implParse_gram input o r h).1 hs,
    fun q w t hq hle htake hw => implParse_longest input o r h hs q w t hq hle htake hw⟩

/-- C8 at the input `12 x`, where the value ends at offset 2. -/
theorem parse_stop_after_value_witness :
    parse [49, 50, 32, 120] {} .StopAfterValueEnds = some
      { value := .int64 ⟨12, by decide⟩, status := .Success, parsedSize := 2, issues := [] } ∧
    0 < 2 ∧ 2 ≤ ([49, 50, 32, 120] : Bytes).length ∧
    (∃ b, ([49, 50, 32, 120] : Bytes)[2 - 1]? = some b ∧ ¬ isWhitespace b) ∧
    (∀ s2, ((([49, 50, 32, 120] : Bytes).drop 2).head? = s2.head? ∨ InertEnd s2) →
      parse (([49, 50, 32, 120] : Bytes).take 2 ++ s2) {} .StopAfterValueEnds = some
        { value := .int64 ⟨12, by decide⟩, status := .Success, parsedSize := 2, issues := [] }) ∧
    (∃ w t, ([49, 50, 32, 120] : Bytes).take 2 = w ++ t ∧ (∀ b ∈ w, isWhitespace b) ∧
      Json .value t) ∧
    (∀ q w t, 2 < q → q ≤ ([49, 50, 32, 120] : Bytes).length →
      ([49, 50, 32, 120] : Bytes).take q = w ++ t → (∀ b ∈ w, isWhitespace b) →
      ¬ Json .value t) :=
  ⟨by decide!,
    (parse_stop_after_value [49, 50, 32, 120] {}
      { value := .int64 ⟨12, by decide⟩, status := .Success, parsedSize := 2, issues := [] }
      (by decide!)).2.2 rfl⟩

/-- C3, amended, at the input `[1,]`, which fails at the byte `]` at offset 3. -/
theorem parse_failure_offset_witness :
    parse [91, 49, 44, 93] {} .VerifyTrailingWhitespace = some
      { value := .array []
        status := .Failure
        parsedSize := 3
        issues := [{ offset := 3, description := "invalid character",
                     code := .InvalidCharacter }] } ∧
    3 ≤ ([91, 49, 44, 93] : Bytes).length ∧
    BeginsJson (([91, 49, 44, 93] : Bytes).take 3) ∧
    ∃ rep x, [({ offset := 3, description := "invalid character",
                 code := .InvalidCharacter } : ParsingIssue)] = rep ++ [x] ∧
      (∀ y ∈ rep, ReportKind {} y ∧ y.offset < 3) ∧
      x.offset ≤ 3 ∧
      x.code ≠ .Other ∧
      (x.code = .InvalidCharacter → x.offset = 3 ∧ 3 < ([91, 49, 44, 93] : Bytes).length ∧
        ∀ q, q ≤ ([91, 49, 44, 93] : Bytes).length →
          (BeginsJson (([91, 49, 44, 93] : Bytes).take q) ↔ q ≤ x.offset)) ∧
      (x.code = .UnexpectedEndOfInput → x.offset = 3 ∧ 3 = ([91, 49, 44, 93] : Bytes).length ∧
        BeginsJson [91, 49, 44, 93] ∧ ¬ JsonDocument [91, 49, 44, 93]) ∧
      (x.code = .DuplicateKeys ∨ x.code = .ParsedNumberOutOfRange ∨
        x.code = .StringContainsUnpairedUtf16HighSurrogate ∨
        x.code = .StringContainsUnpairedUtf16LowSurrogate → x.offset < 3 ∧
          IssueText x.code ((([91, 49, 44, 93] : Bytes).take 3).drop x.offset)) :=
  ⟨by decide!,
    (parse_failure_offset [91, 49, 44, 93] {} .VerifyTrailingWhitespace
      { value := .array []
        status := .Failure
        parsedSize := 3
        issues := [{ offset := 3, description := "invalid character",
                     code := .InvalidCharacter }] }
      (by decide!)).1 rfl⟩

/-! ## The nearest double -/

theorem roundShift_eq (t q : Nat) (h1 : t < 2 ^ (53 + q)) (h2 : q = 0 ∨ 2 ^ (52 + q) ≤ t) :
    ∀ (n q0 : Nat), q0 ≤ q → q - q0 ≤ n → Double.roundShift t n q0 = q := by
  intro n
  induction n with
  | zero =>
    intro q0 h3 h4
    unfold Double.roundShift
    omega
  | succ n ih =>
    intro q0 h3 h4
    unfold Double.roundShift
    by_cases hq : q0 = q
    · subst hq
      rw [if_pos h1]
    · have hlt : q0 < q := by omega
      have : ¬ t < 2 ^ (53 + q0) := by
        rcases h2 with h2 | h2
        · omega
        · have : 2 ^ (53 + q0) ≤ 2 ^ (52 + q) := Nat.pow_le_pow_right (by decide) (by omega)
          omega
      rw [if_neg this]
      exact ih (q0 + 1) (by omega) (by omega)

/-- Rounding within the binade: a fraction `A / D0` whose value in units of `2 ^ -1074` lies
less than half a unit `2 ^ q` from `M * 2 ^ q`, and not below the binade of `M * 2 ^ q`, is
rounded to the double with the significand `M`. -/
theorem round_within (sign : Bool) (num den M q : Nat) (hden : 0 < den) (hM : M < 2 ^ 53)
    (hM1 : 1 ≤ M) (hq : q + 1 < 2047)
    (hlo : 2 * M * (2 ^ q * den) < 2 * (num * 2 ^ 1074) + 2 ^ q * den)
    (hhi : 2 * (num * 2 ^ 1074) < (2 * M + 1) * (2 ^ q * den))
    (hb : q = 0 ∨ 2 ^ (52 + q) * den ≤ num * 2 ^ 1074) :
    Double.round sign num den = some (Double.ofParts sign M q) := by
  unfold Double.round
  simp only
  have hD : 0 < den * 2 ^ q := Nat.mul_pos hden (Nat.pow_pos (by decide))
  have hpq : 0 < 2 ^ q := Nat.pow_pos (by decide)
  -- the shift
  have ht1 : num * 2 ^ 1074 / den < 2 ^ (53 + q) := by
    rw [Nat.div_lt_iff_lt_mul hden]
    have : (2 * M + 1) * (2 ^ q * den) ≤ (2 * 2 ^ 53) * (2 ^ q * den) :=
      Nat.mul_le_mul_right _ (by omega)
    have e : 2 ^ (53 + q) * den = 2 ^ 53 * (2 ^ q * den) := by
      rw [pow_add]
      ring
    rw [e]
    nlinarith
  have ht2 : q = 0 ∨ 2 ^ (52 + q) ≤ num * 2 ^ 1074 / den := by
    rcases hb with hb | hb
    · exact Or.inl hb
    · exact Or.inr ((Nat.le_div_iff_mul_le hden).mpr hb)
  rw [roundShift_eq _ q ht1 ht2 2048 0 (Nat.zero_le _) (by omega)]
  have hcomm : den * 2 ^ q = 2 ^ q * den := Nat.mul_comm _ _
  rw [hcomm]
  generalize hA : num * 2 ^ 1074 = A at hlo hhi
  generalize hDD : 2 ^ q * den = D at hlo hhi hD
  have hD' : 0 < D := by rw [← hDD]; exact Nat.mul_pos hpq hden
  have hdm := Nat.div_add_mod A D
  have hml := Nat.mod_lt A hD'
  -- the rounded significand
  have hm1 : (if 2 * (A % D) > D ∨ (2 * (A % D) = D ∧ A / D % 2 = 1) then A / D + 1 else A / D)
      = M := by
    by_cases hc : M * D ≤ A
    · have h0 : A / D = M := by
        apply Nat.div_eq_of_lt_le
        · exact hc
        · nlinarith
      have hr : A % D = A - M * D := by
        rw [h0] at hdm
        have : D * M = M * D := Nat.mul_comm _ _
        omega
      have : ¬ (2 * (A % D) > D ∨ (2 * (A % D) = D ∧ A / D % 2 = 1)) := by
        rw [hr]
        have : 2 * M * D = 2 * (M * D) := by ring
        have : (2 * M + 1) * D = 2 * (M * D) + D := by ring
        omega
      rw [if_neg this, h0]
    · have hc' : A < M * D := by omega
      obtain ⟨M', rfl⟩ : ∃ M', M = M' + 1 := ⟨M - 1, by omega⟩
      have e1 : 2 * (M' + 1) * D = 2 * (M' * D) + 2 * D := by ring
      have e2 : (M' + 1) * D = M' * D + D := by ring
      have h0 : A / D = M' := by
        apply Nat.div_eq_of_lt_le
        · omega
        · omega
      have hr : A % D = A - M' * D := by
        rw [h0] at hdm
        have : D * M' = M' * D := Nat.mul_comm _ _
        omega
      have : 2 * (A % D) > D := by
        rw [hr]
        omega
      rw [if_pos (Or.inl this), h0]
  rw [hm1]
  have hne : M ≠ 2 ^ 53 := by omega
  simp only [if_neg hne]
  unfold Double.ofParts
  by_cases hs : M < 2 ^ 52
  · rw [if_pos hs, if_pos hs]
  · rw [if_neg hs, if_neg hs, if_neg (by omega)]

/-- Rounding from below the binade: a fraction less than a quarter of the unit `2 ^ q` below
`2 ^ 52 * 2 ^ q` is rounded up to the double with the significand `2 ^ 52`. -/
theorem round_below (sign : Bool) (num den q : Nat) (hden : 0 < den) (hq1 : 1 ≤ q)
    (hq : q + 1 < 2047)
    (hlo : (2 ^ 54 - 1) * (2 ^ q * den) ≤ 4 * (num * 2 ^ 1074))
    (hhi : num * 2 ^ 1074 < 2 ^ 52 * (2 ^ q * den)) :
    Double.round sign num den = some (Double.ofParts sign (2 ^ 52) q) := by
  obtain ⟨q', rfl⟩ : ∃ q', q = q' + 1 := ⟨q - 1, by omega⟩
  unfold Double.round
  simp only
  have hpq : 0 < 2 ^ q' := Nat.pow_pos (by decide)
  have hD' : 0 < 2 ^ q' * den := Nat.mul_pos hpq hden
  have e2 : 2 ^ (q' + 1) * den = 2 * (2 ^ q' * den) := by
    rw [pow_succ]
    ring
  rw [e2] at hlo hhi
  have ht1 : num * 2 ^ 1074 / den < 2 ^ (53 + q') := by
    rw [Nat.div_lt_iff_lt_mul hden]
    have e : 2 ^ (53 + q') * den = 2 ^ 53 * (2 ^ q' * den) := by
      rw [pow_add]
      ring
    rw [e]
    omega
  have ht2 : q' = 0 ∨ 2 ^ (52 + q') ≤ num * 2 ^ 1074 / den := by
    refine Or.inr ((Nat.le_div_iff_mul_le hden).mpr ?_)
    have e : 2 ^ (52 + q') * den = 2 ^ 52 * (2 ^ q' * den) := by
      rw [pow_add]
      ring
    rw [e]
    omega
  rw [roundShift_eq _ q' ht1 ht2 2048 0 (Nat.zero_le _) (by omega)]
  have hcomm : den * 2 ^ q' = 2 ^ q' * den := Nat.mul_comm _ _
  rw [hcomm]
  generalize hA : num * 2 ^ 1074 = A at hlo hhi
  generalize hDD : 2 ^ q' * den = D at hlo hhi hD'
  have hdm := Nat.div_add_mod A D
  have hml := Nat.mod_lt A hD'
  have h0 : A / D = 2 ^ 53 - 1 := by
    apply Nat.div_eq_of_lt_le
    · omega
    · omega
  have hr : A % D = A - (2 ^ 53 - 1) * D := by
    rw [h0] at hdm
    have : D * (2 ^ 53 - 1) = (2 ^ 53 - 1) * D := Nat.mul_comm _ _
    omega
  have hc : 2 * (A % D) > D ∨ (2 * (A % D) = D ∧ A / D % 2 = 1) := by
    rw [hr, h0]
    have : (2 ^ 53 - 1) % 2 = 1 := by decide
    omega
  rw [if_pos hc, h0]
  have e53 : 2 ^ 53 - 1 + 1 = 2 ^ 53 := by decide
  simp only [e53, if_true]
  unfold Double.ofParts
  rw [if_neg (by omega), if_neg (by omega), if_neg (by omega)]

theorem magnitude_parts (d : Double) (h : d.exponent < 2047) :
    (Double.magnitude d).1 * 2 ^ 1074 =
      (Double.parts d).1 * (2 ^ (Double.parts d).2 * (Double.magnitude d).2) ∧
    0 < (Double.magnitude d).2 := by
  unfold Double.magnitude Double.parts
  by_cases h0 : d.exponent = 0
  · simp only [h0, if_true]
    exact ⟨by ring, Nat.pow_pos (by decide)⟩
  · simp only [h0, if_false]
    by_cases h1 : d.exponent ≥ 1075
    · simp only [h1, if_true, mul_one]
      refine ⟨?_, by decide⟩
      have e : d.exponent - 1 = (d.exponent - 1075) + 1074 := by omega
      rw [e, pow_add]
      ring
    · simp only [h1, if_false]
      refine ⟨?_, Nat.pow_pos (by decide)⟩
      have e : 1074 = (d.exponent - 1) + (1075 - d.exponent) := by omega
      rw [← pow_add, ← e]

theorem ofParts_parts (d : Double) (h : d.fraction < 2 ^ 52) :
    Double.ofParts d.sign (Double.parts d).1 (Double.parts d).2 = d := by
  obtain ⟨s, e, f⟩ := d
  simp only at h
  unfold Double.ofParts Double.parts
  by_cases h0 : e = 0
  · subst h0
    simp only [if_true]
    rw [if_pos h]
  · simp only [if_neg h0]
    have h1 : ¬ 2 ^ 52 + f < 2 ^ 52 := by omega
    rw [if_neg h1]
    have e1 : e - 1 + 1 = e := by omega
    have e2 : 2 ^ 52 + f - 2 ^ 52 = f := by omega
    rw [e1, e2]

theorem parts_bounds (d : Double) (h : d.exponent < 2047) (hf : d.fraction < 2 ^ 52)
    (hz : d.isZero = false) :
    1 ≤ (Double.parts d).1 ∧ (Double.parts d).1 < 2 ^ 53 ∧
    (2 ^ 52 ≤ (Double.parts d).1 ∨ (Double.parts d).2 = 0) ∧
    (Double.parts d).2 + 1 < 2047 := by
  unfold Double.parts
  by_cases h0 : d.exponent = 0
  · simp only [h0, if_true]
    have : d.fraction ≠ 0 := by
      intro hh
      simp [Double.isZero, h0, hh] at hz
    exact ⟨by omega, by omega, Or.inr trivial, by omega⟩
  · simp only [h0, if_false]
    exact ⟨by omega, by omega, Or.inl (by omega), by omega⟩

/-- Rounding near a double: a fraction that differs from the magnitude `M * 2 ^ (q - 1074)`
of a double by at most one part in `2 * 10 ^ 16` is rounded to that double. -/
theorem round_near (sign : Bool) (num den M q : Nat) (hden : 0 < den) (hM : M < 2 ^ 53)
    (hM1 : 1 ≤ M) (hq : q + 1 < 2047) (hn : 2 ^ 52 ≤ M ∨ q = 0)
    (h1 : 2 * 10 ^ 16 * (num * 2 ^ 1074) ≤ (2 * 10 ^ 16 + 1) * (M * (2 ^ q * den)))
    (h2 : (2 * 10 ^ 16 - 1) * (M * (2 ^ q * den)) ≤ 2 * 10 ^ 16 * (num * 2 ^ 1074)) :
    Double.round sign num den = some (Double.ofParts sign M q) := by
  have hD : 0 < 2 ^ q * den := Nat.mul_pos (Nat.pow_pos (by decide)) hden
  have hMD : M * (2 ^ q * den) < 2 ^ 53 * (2 ^ q * den) := Nat.mul_lt_mul_of_pos_right hM hD
  have hMD1 : 1 * (2 ^ q * den) ≤ M * (2 ^ q * den) := Nat.mul_le_mul_right _ hM1
  by_cases hb : q = 0 ∨ 2 ^ (52 + q) * den ≤ num * 2 ^ 1074
  · refine round_within sign num den M q hden hM hM1 hq ?_ ?_ hb
    · have e : 2 * M * (2 ^ q * den) = 2 * (M * (2 ^ q * den)) := by ring
      rw [e]
      generalize M * (2 ^ q * den) = P at *
      generalize num * 2 ^ 1074 = A at *
      generalize 2 ^ q * den = D at *
      omega
    · have e : (2 * M + 1) * (2 ^ q * den) = 2 * (M * (2 ^ q * den)) + 2 ^ q * den := by ring
      rw [e]
      generalize M * (2 ^ q * den) = P at *
      generalize num * 2 ^ 1074 = A at *
      generalize 2 ^ q * den = D at *
      omega
  · have hq0 : q ≠ 0 := fun h => hb (Or.inl h)
    have hlt : num * 2 ^ 1074 < 2 ^ (52 + q) * den := by omega
    have e52 : 2 ^ (52 + q) * den = 2 ^ 52 * (2 ^ q * den) := by
      rw [pow_add]
      ring
    rw [e52] at hlt
    have hM52 : 2 ^ 52 ≤ M := by
      rcases hn with h | h
      · exact h
      · exact absurd h hq0
    have hMeq : M = 2 ^ 52 := by
      by_contra hne
      have h3 : (2 ^ 52 + 1) * (2 ^ q * den) ≤ M * (2 ^ q * den) :=
        Nat.mul_le_mul_right _ (by omega)
      have e : (2 ^ 52 + 1) * (2 ^ q * den) = 2 ^ 52 * (2 ^ q * den) + 2 ^ q * den := by ring
      rw [e] at h3
      generalize M * (2 ^ q * den) = P at *
      generalize num * 2 ^ 1074 = A at *
      generalize 2 ^ q * den = D at *
      omega
    subst hMeq
    refine round_below sign num den q hden (by omega) hq ?_ hlt
    generalize num * 2 ^ 1074 = A at *
    generalize 2 ^ q * den = D at *
    omega

/-- The magnitude of a double is rounded to the double. -/
theorem round_magnitude (d : Double) (h : d.exponent < 2047) (hf : d.fraction < 2 ^ 52)
    (hz : d.isZero = false) :
    Double.round d.sign (Double.magnitude d).1 (Double.magnitude d).2 = some d := by
  obtain ⟨h1, h2, h3, h4⟩ := parts_bounds d h hf hz
  obtain ⟨hm, hden⟩ := magnitude_parts d h
  have := round_near d.sign (Double.magnitude d).1 (Double.magnitude d).2 (Double.parts d).1
    (Double.parts d).2 hden h2 h1 h4 h3 (by rw [hm]; omega) (by rw [hm]; omega)
  rw [this, ofParts_parts d hf]

/-! ## Decimals near a double -/

theorem scale10_ratio (num den : Nat) (s : Int) (hden : 0 < den) :
    0 < (scale10 num den s).2 ∧
    ((scale10 num den s).1 : ℚ) / ((scale10 num den s).2 : ℚ) =
      (num : ℚ) / den / (10 : ℚ) ^ s := by
  unfold scale10
  have hd : (den : ℚ) ≠ 0 := by exact_mod_cast hden.ne'
  by_cases hs : 0 ≤ s
  · simp only [hs, if_true]
    refine ⟨Nat.mul_pos hden (Nat.pow_pos (by decide)), ?_⟩
    obtain ⟨n, rfl⟩ := Int.eq_ofNat_of_zero_le hs
    simp only [Int.toNat_ofNat, zpow_natCast]
    push_cast
    rw [div_div]
  · simp only [hs, if_false]
    refine ⟨hden, ?_⟩
    obtain ⟨n, hn⟩ := Int.eq_ofNat_of_zero_le (show 0 ≤ -s by omega)
    have e : s = -(n : Int) := by omega
    rw [hn, e]
    simp only [Int.toNat_ofNat, zpow_neg, zpow_natCast]
    push_cast
    field_simp

theorem toRat_parts (d : Double) (h : d.exponent < 2047) :
    ((Double.parts d).1 : ℚ) * 2 ^ (Double.parts d).2 = d.toRat * 2 ^ 1074 := by
  obtain ⟨hm, hden⟩ := magnitude_parts d h
  have hd : ((Double.magnitude d).2 : ℚ) ≠ 0 := by exact_mod_cast hden.ne'
  have hq : (((Double.magnitude d).1 * 2 ^ 1074 : ℕ) : ℚ) =
      (((Double.parts d).1 * (2 ^ (Double.parts d).2 * (Double.magnitude d).2) : ℕ) : ℚ) := by
    rw [hm]
  push_cast at hq
  unfold Double.toRat
  field_simp
  linarith

theorem toRat_pos (d : Double) (h : d.exponent < 2047) (hf : d.fraction < 2 ^ 52)
    (hz : d.isZero = false) : 0 < d.toRat := by
  have h1 := (parts_bounds d h hf hz).1
  have h2 := toRat_parts d h
  have h3 : (0 : ℚ) < ((Double.parts d).1 : ℚ) * 2 ^ (Double.parts d).2 := by
    have : (0 : ℚ) < ((Double.parts d).1 : ℚ) := by exact_mod_cast h1
    positivity
  rw [h2] at h3
  exact pos_of_mul_pos_left h3 (by positivity)

/-- A decimal `g * 10 ^ s` that differs from the magnitude of a double by at most one part in
`2 * 10 ^ 16` converts to the double. -/
theorem roundsTo_near (d : Double) (h : d.exponent < 2047) (hf : d.fraction < 2 ^ 52)
    (hz : d.isZero = false) (g : Nat) (s : Int)
    (hnear : |(g : ℚ) * (10 : ℚ) ^ s - d.toRat| ≤ d.toRat / (2 * 10 ^ 16)) :
    Double.round d.sign (scale10 g 1 (-s)).1 (scale10 g 1 (-s)).2 = some d := by
  obtain ⟨b1, b2, b3, b4⟩ := parts_bounds d h hf hz
  obtain ⟨hx2, hxr⟩ := scale10_ratio g 1 (-s) (by decide)
  have hV := toRat_parts d h
  have hof := ofParts_parts d hf
  generalize (Double.parts d).1 = M at *
  generalize (Double.parts d).2 = q at *
  generalize (scale10 g 1 (-s)).1 = x1 at *
  generalize (scale10 g 1 (-s)).2 = x2 at *
  have hx2q : (0 : ℚ) < x2 := by exact_mod_cast hx2
  have hx : (x1 : ℚ) = g * (10 : ℚ) ^ s * x2 := by
    have : (x1 : ℚ) / x2 = g * (10 : ℚ) ^ s := by
      rw [hxr, zpow_neg]
      simp
    field_simp at this
    linarith
  obtain ⟨ha, hb⟩ := abs_le.mp hnear
  have key1 : (g : ℚ) * (10 : ℚ) ^ s * (2 * 10 ^ 16) ≤ d.toRat * (2 * 10 ^ 16 + 1) := by
    have : d.toRat / (2 * 10 ^ 16) * (2 * 10 ^ 16) = d.toRat := by field_simp
    nlinarith
  have key2 : d.toRat * (2 * 10 ^ 16 - 1) ≤ (g : ℚ) * (10 : ℚ) ^ s * (2 * 10 ^ 16) := by
    have : d.toRat / (2 * 10 ^ 16) * (2 * 10 ^ 16) = d.toRat := by field_simp
    nlinarith
  have hpos : (0 : ℚ) ≤ x2 * 2 ^ 1074 := by positivity
  have := round_near d.sign x1 x2 M q hx2 b2 b1 b4 b3 ?_ ?_
  · rw [this, hof]
  · have goal : ((2 * 10 ^ 16 * (x1 * 2 ^ 1074) : ℕ) : ℚ) ≤
        (((2 * 10 ^ 16 + 1) * (M * (2 ^ q * x2)) : ℕ) : ℚ) := by
      push_cast
      rw [hx]
      have e : (2 * 10 ^ 16 + 1 : ℚ) * ((M : ℚ) * (2 ^ q * (x2 : ℚ))) =
          (d.toRat * (2 * 10 ^ 16 + 1)) * ((x2 : ℚ) * 2 ^ 1074) := by
        have : (M : ℚ) * (2 ^ q * (x2 : ℚ)) = ((M : ℚ) * 2 ^ q) * x2 := by ring
        rw [this, hV]
        ring
      have e2 : (2 * 10 ^ 16 : ℚ) * ((g : ℚ) * (10 : ℚ) ^ s * (x2 : ℚ) * 2 ^ 1074) =
          ((g : ℚ) * (10 : ℚ) ^ s * (2 * 10 ^ 16)) * ((x2 : ℚ) * 2 ^ 1074) := by ring
      have h3 := mul_le_mul_of_nonneg_right key1 hpos
      rw [← e, ← e2] at h3
      linarith
    exact_mod_cast goal
  · have goal : (((2 * 10 ^ 16 - 1) * (M * (2 ^ q * x2)) : ℕ) : ℚ) ≤
        ((2 * 10 ^ 16 * (x1 * 2 ^ 1074) : ℕ) : ℚ) := by
      have e0 : ((2 * 10 ^ 16 - 1 : ℕ) : ℚ) = 2 * 10 ^ 16 - 1 := by norm_num
      rw [Nat.cast_mul, e0]
      push_cast
      rw [hx]
      have e : (2 * 10 ^ 16 - 1 : ℚ) * ((M : ℚ) * (2 ^ q * (x2 : ℚ))) =
          (d.toRat * (2 * 10 ^ 16 - 1)) * ((x2 : ℚ) * 2 ^ 1074) := by
        have : (M : ℚ) * (2 ^ q * (x2 : ℚ)) = ((M : ℚ) * 2 ^ q) * x2 := by ring
        rw [this, hV]
        ring
      have e2 : (2 * 10 ^ 16 : ℚ) * ((g : ℚ) * (10 : ℚ) ^ s * (x2 : ℚ) * 2 ^ 1074) =
          ((g : ℚ) * (10 : ℚ) ^ s * (2 * 10 ^ 16)) * ((x2 : ℚ) * 2 ^ 1074) := by ring
      have h3 := mul_le_mul_of_nonneg_right key2 hpos
      rw [← e, ← e2] at h3
      linarith
    exact_mod_cast goal

theorem roundsTo_of_round (d : Double) (g : Nat) (s : Int)
    (h : Double.round d.sign (scale10 g 1 (-s)).1 (scale10 g 1 (-s)).2 = some d) :
    roundsTo d g s = true := by
  unfold roundsTo
  simp only [h, beq_self_eq_true, Bool.and_self]

theorem round_of_roundsTo (d : Double) (g : Nat) (s : Int) (h : roundsTo d g s = true) :
    Double.round d.sign (scale10 g 1 (-s)).1 (scale10 g 1 (-s)).2 = some d := by
  unfold roundsTo at h
  simp only at h
  have hsign : ∀ (a b : Nat) (r : Double), Double.round d.sign a b = some r →
      r.sign = d.sign := by
    intro a b r hr
    unfold Double.round at hr
    simp only at hr
    split_ifs at hr <;> (obtain rfl := Option.some.inj hr; rfl)
  cases hr : Double.round d.sign (scale10 g 1 (-s)).1 (scale10 g 1 (-s)).2 with
  | none => rw [hr] at h; simp at h
  | some r =>
    rw [hr] at h
    simp only [Bool.and_eq_true, beq_iff_eq] at h
    have h3 := hsign _ _ r hr
    obtain ⟨rs, re, rf⟩ := r
    obtain ⟨ds, de, df⟩ := d
    simp only at h h3
    rw [h.1, h.2, h3]

theorem decimalExponent_spec (num den : Nat) (hden : 0 < den) :
    ∀ (n : Nat) (k0 : Int), (10 : ℚ) ^ k0 ≤ (num : ℚ) / den →
      (num : ℚ) / den < (10 : ℚ) ^ (k0 + n) →
      (10 : ℚ) ^ (decimalExponent num den n k0) ≤ (num : ℚ) / den ∧
      (num : ℚ) / den < (10 : ℚ) ^ (decimalExponent num den n k0 + 1) := by
  intro n
  induction n with
  | zero =>
    intro k0 h1 h2
    simp only [Nat.cast_zero, add_zero] at h2
    exact absurd h1 (not_le.mpr h2)
  | succ n ih =>
    intro k0 h1 h2
    unfold decimalExponent
    simp only
    obtain ⟨hp, hr⟩ := scale10_ratio num den (k0 + 1) hden
    have hpq : (0 : ℚ) < ((scale10 num den (k0 + 1)).2 : ℚ) := by exact_mod_cast hp
    have h10 : (0 : ℚ) < (10 : ℚ) ^ (k0 + 1) := by positivity
    have hiff : (scale10 num den (k0 + 1)).1 < (scale10 num den (k0 + 1)).2 ↔
        (num : ℚ) / den < (10 : ℚ) ^ (k0 + 1) := by
      rw [← div_lt_one h10, ← hr, div_lt_one hpq]
      exact Nat.cast_lt.symm
    by_cases hc : (scale10 num den (k0 + 1)).1 < (scale10 num den (k0 + 1)).2
    · rw [if_pos hc]
      exact ⟨h1, hiff.mp hc⟩
    · rw [if_neg hc]
      refine ih (k0 + 1) (not_lt.mp (fun hh => hc (hiff.mpr hh))) ?_
      have e : k0 + 1 + (n : Int) = k0 + ((n + 1 : ℕ) : Int) := by
        push_cast
        ring
      rw [e]
      exact h2

theorem toRat_bounds (d : Double) (h : d.exponent < 2047) (hf : d.fraction < 2 ^ 52)
    (hz : d.isZero = false) :
    (10 : ℚ) ^ (-340 : Int) ≤ d.toRat ∧ d.toRat < (10 : ℚ) ^ ((-340 : Int) + (700 : ℕ)) := by
  obtain ⟨b1, b2, b3, b4⟩ := parts_bounds d h hf hz
  have hV := toRat_parts d h
  generalize (Double.parts d).1 = M at *
  generalize (Double.parts d).2 = q at *
  have hM1 : (1 : ℚ) ≤ M := by exact_mod_cast b1
  have hM2 : (M : ℚ) < 2 ^ 53 := by exact_mod_cast b2
  have hq1 : (1 : ℚ) ≤ 2 ^ q := one_le_pow₀ (by norm_num)
  have hq2 : (2 : ℚ) ^ q ≤ 2 ^ 2045 := pow_le_pow_right₀ (by norm_num) (by omega)
  have h2p : (0 : ℚ) < 2 ^ 1074 := by positivity
  constructor
  · have e : (10 : ℚ) ^ (-340 : Int) = 1 / 10 ^ 340 := by
      rw [zpow_neg]
      norm_num
    rw [e, div_le_iff₀ (by positivity)]
    have h3 : (1 : ℚ) ≤ d.toRat * 2 ^ 1074 := by
      rw [← hV]
      nlinarith
    have h4 : (2 : ℚ) ^ 1074 ≤ 10 ^ 340 := by norm_num
    have h5 : 0 ≤ d.toRat := by
      by_contra hneg
      have : d.toRat * 2 ^ 1074 < 0 := mul_neg_of_neg_of_pos (not_le.mp hneg) h2p
      linarith
    nlinarith
  · have e : (10 : ℚ) ^ ((-340 : Int) + (700 : ℕ)) = 10 ^ 360 := by norm_num
    rw [e]
    have h3 : d.toRat * 2 ^ 1074 < 2 ^ 53 * 2 ^ 2045 := by
      rw [← hV]
      exact mul_lt_mul hM2 hq2 (by positivity) (by positivity)
    have h4 : (2 : ℚ) ^ 53 * 2 ^ 2045 ≤ 10 ^ 360 * 2 ^ 1074 := by norm_num
    have h5 : d.toRat * 2 ^ 1074 < 10 ^ 360 * 2 ^ 1074 := lt_of_lt_of_le h3 h4
    exact lt_of_mul_lt_mul_right h5 h2p.le

theorem decimalK_spec (d : Double) (h : d.exponent < 2047) (hf : d.fraction < 2 ^ 52)
    (hz : d.isZero = false) :
    (10 : ℚ) ^ d.decimalK ≤ d.toRat ∧ d.toRat < (10 : ℚ) ^ (d.decimalK + 1) := by
  obtain ⟨h1, h2⟩ := toRat_bounds d h hf hz
  exact decimalExponent_spec _ _ (magnitude_parts d h).2 700 (-340) h1 h2

/-- Seventeen digits are enough: of the two decimals of seventeen digits around the magnitude
of a double, one converts to the double. -/
theorem seventeen_digits (d : Double) (h : d.exponent < 2047) (hf : d.fraction < 2 ^ 52)
    (hz : d.isZero = false) (k : Int) (hk1 : (10 : ℚ) ^ k ≤ d.toRat) :
    roundsTo d ((scale10 (Double.magnitude d).1 (Double.magnitude d).2 (k - 17 + 1)).1 /
      (scale10 (Double.magnitude d).1 (Double.magnitude d).2 (k - 17 + 1)).2) (k - 17 + 1)
        = true ∨
    roundsTo d ((scale10 (Double.magnitude d).1 (Double.magnitude d).2 (k - 17 + 1)).1 /
      (scale10 (Double.magnitude d).1 (Double.magnitude d).2 (k - 17 + 1)).2 + 1) (k - 17 + 1)
        = true := by
  obtain ⟨hp, hr⟩ := scale10_ratio (Double.magnitude d).1 (Double.magnitude d).2 (k - 17 + 1)
    (magnitude_parts d h).2
  have hVpos := toRat_pos d h hf hz
  change _ = d.toRat / _ at hr
  generalize (scale10 (Double.magnitude d).1 (Double.magnitude d).2 (k - 17 + 1)).1 = a at *
  generalize (scale10 (Double.magnitude d).1 (Double.magnitude d).2 (k - 17 + 1)).2 = b at *
  have hbq : (0 : ℚ) < b := by exact_mod_cast hp
  have h10 : (0 : ℚ) < (10 : ℚ) ^ (k - 17 + 1) := by positivity
  -- the scaled magnitude `w` lies between `lo` and `lo + 1`
  have hlo1 : ((a / b : ℕ) : ℚ) ≤ (a : ℚ) / b := by
    rw [le_div_iff₀ hbq]
    exact_mod_cast Nat.div_mul_le_self a b
  have hlo2 : (a : ℚ) / b < ((a / b : ℕ) : ℚ) + 1 := by
    rw [div_lt_iff₀ hbq]
    have := Nat.lt_div_mul_add hp (a := a)
    have h' : a < (a / b + 1) * b := by
      rw [Nat.add_mul, Nat.one_mul]
      exact this
    exact_mod_cast h'
  -- the spacing of the decimals is small against the magnitude
  have hsp : (10 : ℚ) ^ (k - 17 + 1) * 10 ^ 16 ≤ d.toRat := by
    have e : (10 : ℚ) ^ (k - 17 + 1) * 10 ^ 16 = (10 : ℚ) ^ k := by
      have : (10 : ℚ) ^ (16 : ℕ) = (10 : ℚ) ^ (16 : Int) := by norm_cast
      rw [this, ← zpow_add₀ (by norm_num)]
      congr 1
      ring
    rw [e]
    exact hk1
  have hV : d.toRat = (a : ℚ) / b * (10 : ℚ) ^ (k - 17 + 1) := by
    rw [hr]
    field_simp
  have hgen : ∀ g : ℕ, |(g : ℚ) - (a : ℚ) / b| ≤ 1 / 2 →
      |(g : ℚ) * (10 : ℚ) ^ (k - 17 + 1) - d.toRat| ≤ d.toRat / (2 * 10 ^ 16) := by
    intro g hg
    have e : (g : ℚ) * (10 : ℚ) ^ (k - 17 + 1) - d.toRat =
        ((g : ℚ) - (a : ℚ) / b) * (10 : ℚ) ^ (k - 17 + 1) := by
      rw [hV]
      ring
    rw [e, abs_mul, abs_of_pos h10, le_div_iff₀ (by positivity)]
    have h1 : |(g : ℚ) - (a : ℚ) / b| * (10 : ℚ) ^ (k - 17 + 1) ≤
        1 / 2 * (10 : ℚ) ^ (k - 17 + 1) := mul_le_mul_of_nonneg_right hg h10.le
    nlinarith
  by_cases hc : (a : ℚ) / b - ((a / b : ℕ) : ℚ) ≤ 1 / 2
  · left
    refine roundsTo_of_round d _ _ (roundsTo_near d h hf hz _ _ (hgen _ ?_))
    rw [abs_le]
    constructor <;> linarith
  · right
    refine roundsTo_of_round d _ _ (roundsTo_near d h hf hz _ _ (hgen _ ?_))
    push_cast
    rw [abs_le]
    constructor <;> linarith

theorem round_scale (sign : Bool) (a b c : Nat) (hb : 0 < b) (hc : 0 < c) :
    Double.round sign (c * a) (c * b) = Double.round sign a b := by
  unfold Double.round
  simp only
  have e1 : c * a * 2 ^ 1074 = c * (a * 2 ^ 1074) := by ring
  have e2 : ∀ q, c * b * 2 ^ q = c * (b * 2 ^ q) := fun q => by ring
  rw [e1, Nat.mul_div_mul_left _ _ hc]
  generalize Double.roundShift (a * 2 ^ 1074 / b) 2048 0 = q
  rw [e2, Nat.mul_div_mul_left _ _ hc, Nat.mul_mod_mul_left]
  generalize a * 2 ^ 1074 / (b * 2 ^ q) = m0
  generalize a * 2 ^ 1074 % (b * 2 ^ q) = r
  generalize b * 2 ^ q = D
  have h1 : 2 * (c * r) > c * D ↔ 2 * r > D := by
    constructor
    · intro h
      by_contra hn
      have : c * (2 * r) ≤ c * D := Nat.mul_le_mul_left _ (by omega)
      have e : c * (2 * r) = 2 * (c * r) := by ring
      omega
    · intro h
      have : c * D < c * (2 * r) := Nat.mul_lt_mul_of_pos_left h hc
      have e : c * (2 * r) = 2 * (c * r) := by ring
      omega
  have h2 : 2 * (c * r) = c * D ↔ 2 * r = D := by
    have e : 2 * (c * r) = c * (2 * r) := by ring
    rw [e]
    exact Nat.mul_right_inj hc.ne'
  simp only [h1, h2]

theorem roundsTo_strip (d : Double) (g : Nat) (s : Int) :
    roundsTo d (10 * g) s = roundsTo d g (s + 1) := by
  unfold roundsTo
  have hx : Double.round d.sign (scale10 (10 * g) 1 (-s)).1 (scale10 (10 * g) 1 (-s)).2 =
      Double.round d.sign (scale10 g 1 (-(s + 1))).1 (scale10 g 1 (-(s + 1))).2 := by
    unfold scale10
    by_cases h1 : 0 ≤ -(s + 1)
    · have h2 : 0 ≤ -s := by omega
      simp only [h1, h2, if_true, one_mul]
      obtain ⟨n, hn⟩ := Int.eq_ofNat_of_zero_le h1
      have e : -s = ((n + 1 : ℕ) : Int) := by
        push_cast
        omega
      rw [hn, e]
      simp only [Int.toNat_ofNat]
      rw [pow_succ, Nat.mul_comm (10 ^ n) 10]
      exact round_scale d.sign g (10 ^ n) 10 (Nat.pow_pos (by decide)) (by decide)
    · by_cases h2 : 0 ≤ -s
      · have hs : s = 0 := by omega
        subst hs
        simp only [h1, if_false]
        norm_num
        rw [Nat.mul_comm]
      · simp only [h1, h2, if_false]
        obtain ⟨n, hn⟩ := Int.eq_ofNat_of_zero_le (show 0 ≤ s by omega)
        subst hn
        have e1 : (- -((n : Int))).toNat = n := by simp
        have e2 : (- -((n : Int) + 1)).toNat = n + 1 := by
          have : - -((n : Int) + 1) = ((n + 1 : ℕ) : Int) := by
            push_cast
            ring
          rw [this]
          simp
        rw [e1, e2, pow_succ]
        congr 1
        ring
  simp only [hx]

theorem stripZeros_rounds (d : Double) :
    ∀ (n g : Nat) (s : Int), roundsTo d g s = true → g ≠ 0 →
      roundsTo d (stripZeros n (g, s)).1 (stripZeros n (g, s)).2 = true ∧
      (stripZeros n (g, s)).1 ≠ 0 := by
  intro n
  induction n with
  | zero =>
    intro g s h hg
    exact ⟨h, hg⟩
  | succ n ih =>
    intro g s h hg
    unfold stripZeros
    by_cases hc : g ≠ 0 ∧ g % 10 = 0
    · rw [if_pos hc]
      have e : g = 10 * (g / 10) := by omega
      refine ih (g / 10) (s + 1) ?_ (by omega)
      rw [← roundsTo_strip, ← e]
      exact h
    · rw [if_neg hc]
      exact ⟨h, hg⟩

theorem roundsTo_zero (d : Double) (s : Int) (hz : d.isZero = false) :
    roundsTo d 0 s = false := by
  have hr : ∀ b : Nat, 0 < b → Double.round d.sign 0 b = some ⟨d.sign, 0, 0⟩ := by
    intro b hb
    unfold Double.round
    simp only [Nat.zero_mul, Nat.zero_div]
    have e : Double.roundShift 0 2048 0 = 0 := by
      unfold Double.roundShift
      simp
    rw [e]
    simp
  unfold roundsTo
  obtain ⟨hp, -⟩ := scale10_ratio 0 1 (-s) (by decide)
  have h0 : (scale10 0 1 (-s)).1 = 0 := by
    unfold scale10
    split_ifs <;> simp
  simp only [h0, hr _ hp]
  unfold Double.isZero at hz
  cases he : d.exponent == 0
  · have : ((0 : Nat) == d.exponent) = false := by
      rw [beq_eq_false_iff_ne] at he ⊢
      exact fun hh => he hh.symm
    simp [this]
  · rw [he, Bool.true_and] at hz
    have : ((0 : Nat) == d.fraction) = false := by
      rw [beq_eq_false_iff_ne] at hz ⊢
      exact fun hh => hz hh.symm
    simp [this]

set_option maxRecDepth 8192 in
/-- The decimal that `to_chars` finds for a double converts to the double. -/
theorem shortestDecimal_rounds (d : Double) (h : d.exponent < 2047)
    (hf : d.fraction < 2 ^ 52) (hz : d.isZero = false) (k : Int)
    (hk1 : (10 : ℚ) ^ k ≤ d.toRat) :
    ∀ (n p : Nat), p + n = 18 → 1 ≤ n →
      roundsTo d (shortestDecimal d k n p).1 (shortestDecimal d k n p).2 = true := by
  intro n
  induction n with
  | zero => intro p _ h1; omega
  | succ n ih =>
    intro p hp _
    unfold shortestDecimal
    simp only
    by_cases hlo : roundsTo d
        ((scale10 (Double.magnitude d).1 (Double.magnitude d).2 (k - p + 1)).1 /
          (scale10 (Double.magnitude d).1 (Double.magnitude d).2 (k - p + 1)).2) (k - p + 1)
          = true
    · by_cases hhi : roundsTo d
          ((scale10 (Double.magnitude d).1 (Double.magnitude d).2 (k - p + 1)).1 /
            (scale10 (Double.magnitude d).1 (Double.magnitude d).2 (k - p + 1)).2 + 1)
            (k - p + 1) = true
      · simp only [hlo, hhi, and_self, if_true]
        split_ifs
        · exact hhi
        · exact hlo
      · simp only [hlo, hhi, and_false, if_false, if_true, Bool.false_eq_true]
    · by_cases hhi : roundsTo d
          ((scale10 (Double.magnitude d).1 (Double.magnitude d).2 (k - p + 1)).1 /
            (scale10 (Double.magnitude d).1 (Double.magnitude d).2 (k - p + 1)).2 + 1)
            (k - p + 1) = true
      · simp only [hlo, hhi, false_and, if_false, if_true, Bool.false_eq_true]
      · simp only [hlo, hhi, false_and, if_false, Bool.false_eq_true]
        by_cases hn : n = 0
        · exfalso
          have hp17 : p = 17 := by omega
          subst hp17
          rcases seventeen_digits d h hf hz k hk1 with h1 | h1
          · exact hlo (by simpa using h1)
          · exact hhi (by simpa using h1)
        · exact ih (p + 1) (by omega) (by omega)

theorem decimalExponent_range (num den : Nat) : ∀ (n : Nat) (k0 : Int),
    k0 ≤ decimalExponent num den n k0 ∧ decimalExponent num den n k0 ≤ k0 + n := by
  intro n
  induction n with
  | zero => intro k0; simp [decimalExponent]
  | succ n ih =>
    intro k0
    unfold decimalExponent
    simp only
    split_ifs
    · constructor <;> push_cast <;> omega
    · obtain ⟨h1, h2⟩ := ih (k0 + 1)
      constructor <;> push_cast <;> omega

theorem floor_scale_lt (d : Double) (h : d.exponent < 2047) (k : Int)
    (hk2 : d.toRat < (10 : ℚ) ^ (k + 1)) (p : Nat) :
    (scale10 (Double.magnitude d).1 (Double.magnitude d).2 (k - p + 1)).1 /
      (scale10 (Double.magnitude d).1 (Double.magnitude d).2 (k - p + 1)).2 < 10 ^ p := by
  obtain ⟨hp, hr⟩ := scale10_ratio (Double.magnitude d).1 (Double.magnitude d).2 (k - p + 1)
    (magnitude_parts d h).2
  change _ = d.toRat / _ at hr
  generalize (scale10 (Double.magnitude d).1 (Double.magnitude d).2 (k - p + 1)).1 = a at *
  generalize (scale10 (Double.magnitude d).1 (Double.magnitude d).2 (k - p + 1)).2 = b at *
  have h1 : ((a / b : ℕ) : ℚ) ≤ (a : ℚ) / b := Nat.cast_div_le
  have h10 : (0 : ℚ) < (10 : ℚ) ^ (k - p + 1) := by positivity
  have h2 : d.toRat / (10 : ℚ) ^ (k - p + 1) < (10 : ℚ) ^ p := by
    rw [div_lt_iff₀ h10, ← zpow_natCast, ← zpow_add₀ (by norm_num)]
    have e : (p : Int) + (k - p + 1) = k + 1 := by ring
    rw [e]
    exact hk2
  have h3 : ((a / b : ℕ) : ℚ) < ((10 ^ p : ℕ) : ℚ) := by
    push_cast
    rw [hr] at h1
    exact lt_of_le_of_lt h1 h2
  exact_mod_cast h3

set_option maxRecDepth 8192 in
theorem shortestDecimal_range (d : Double) (h : d.exponent < 2047) (k : Int)
    (hk2 : d.toRat < (10 : ℚ) ^ (k + 1)) : ∀ (n p : Nat),
    (shortestDecimal d k n p).1 ≤ 10 ^ (p + n) ∧
    k - ((p + n : Nat) : Int) + 1 ≤ (shortestDecimal d k n p).2 ∧
    (shortestDecimal d k n p).2 ≤ k - p + 1 := by
  intro n
  induction n with
  | zero =>
    intro p
    unfold shortestDecimal
    have := floor_scale_lt d h k hk2 p
    refine ⟨?_, ?_, ?_⟩
    · simp only [Nat.add_zero]
      omega
    · simp
    · simp
  | succ n ih =>
    intro p
    have hlo := floor_scale_lt d h k hk2 p
    have hpow : 10 ^ p ≤ 10 ^ (p + (n + 1)) := Nat.pow_le_pow_right (by decide) (by omega)
    unfold shortestDecimal
    simp only
    have hs : k - ((p + (n + 1) : Nat) : Int) + 1 ≤ k - p + 1 := by
      push_cast
      omega
    split_ifs
    · exact ⟨by omega, hs, le_refl _⟩
    · exact ⟨by omega, hs, le_refl _⟩
    · exact ⟨by omega, hs, le_refl _⟩
    · exact ⟨by omega, hs, le_refl _⟩
    · obtain ⟨h1, h2, h3⟩ := ih (p + 1)
      have e : p + 1 + n = p + (n + 1) := by omega
      rw [e] at h1 h2
      refine ⟨h1, h2, ?_⟩
      push_cast at h3
      omega

theorem stripZeros_range : ∀ (n g : Nat) (s : Int),
    (stripZeros n (g, s)).1 ≤ g ∧ s ≤ (stripZeros n (g, s)).2 ∧
    (stripZeros n (g, s)).2 ≤ s + n := by
  intro n
  induction n with
  | zero =>
    intro g s
    simp [stripZeros]
  | succ n ih =>
    intro g s
    unfold stripZeros
    by_cases hc : g ≠ 0 ∧ g % 10 = 0
    · rw [if_pos hc]
      obtain ⟨h1, h2, h3⟩ := ih (g / 10) (s + 1)
      refine ⟨le_trans h1 (Nat.div_le_self _ _), by omega, ?_⟩
      push_cast
      omega
    · rw [if_neg hc]
      refine ⟨le_refl _, le_refl _, ?_⟩
      push_cast
      omega

theorem decimalDigits_length : ∀ (fuel n : Nat), (decimalDigits fuel n).length ≤ fuel := by
  intro fuel
  induction fuel with
  | zero => intro n; simp [decimalDigits]
  | succ fuel ih =>
    intro n
    unfold decimalDigits
    split_ifs
    · simp
    · have := ih (n / 10)
      simp only [List.length_append, List.length_singleton]
      omega

/-- The conversion of a decimal that rounds to a double that is not zero is that double. -/
theorem decimalToDouble_rounds (d : Double) (len m : Nat) (e : Int)
    (h : roundsTo d m e = true) (hm : m ≠ 0) (hz : d.isZero = false) :
    decimalToDouble d.sign len m e = .ok len d := by
  have hr := round_of_roundsTo d m e h
  unfold scale10 at hr
  unfold decimalToDouble
  rw [if_neg hm]
  by_cases he : 0 ≤ e
  · rw [if_pos he]
    by_cases he0 : e = 0
    · subst he0
      simp only [neg_zero, le_refl, if_true, Int.toNat_zero, pow_zero, mul_one] at hr ⊢
      rw [hr]
      simp only [hz, Bool.false_eq_true, if_false]
    · have hn : ¬ (0 ≤ -e) := by omega
      rw [if_neg hn] at hr
      simp only [neg_neg] at hr
      rw [hr]
      simp only [hz, Bool.false_eq_true, if_false]
  · rw [if_neg he]
    have hn : 0 ≤ -e := by omega
    rw [if_pos hn] at hr
    simp only [one_mul] at hr
    rw [hr]
    simp only [hz, Bool.false_eq_true, if_false]

theorem decimal_spec (d : Double) (h : d.exponent < 2047) (hf : d.fraction < 2 ^ 52)
    (hz : d.isZero = false) :
    roundsTo d d.decimal.1 d.decimal.2 = true ∧ d.decimal.1 ≠ 0 ∧ d.decimal.1 < 10 ^ 800 ∧
    -400 ≤ d.decimal.2 ∧ d.decimal.2 ≤ 400 := by
  obtain ⟨hk1, hk2⟩ := decimalK_spec d h hf hz
  have hr := shortestDecimal_rounds d h hf hz d.decimalK hk1 17 1 rfl (by decide)
  obtain ⟨b1, b2, b3⟩ := shortestDecimal_range d h d.decimalK hk2 17 1
  obtain ⟨k1, k2⟩ := decimalExponent_range (Double.magnitude d).1 (Double.magnitude d).2 700 (-340)
  change _ ≤ d.decimalK at k1
  change d.decimalK ≤ _ at k2
  have hne : (shortestDecimal d d.decimalK 17 1).1 ≠ 0 := by
    intro h0
    rw [h0, roundsTo_zero d _ hz] at hr
    exact absurd hr (by decide)
  obtain ⟨s1, s2⟩ := stripZeros_rounds d 20 _ _ hr hne
  obtain ⟨r1, r2, r3⟩ := stripZeros_range 20 (shortestDecimal d d.decimalK 17 1).1
    (shortestDecimal d d.decimalK 17 1).2
  have e : d.decimal = stripZeros 20 ((shortestDecimal d d.decimalK 17 1).1,
      (shortestDecimal d d.decimalK 17 1).2) := by
    unfold Double.decimal
    rw [Prod.mk.eta]
  rw [e]
  generalize stripZeros 20 ((shortestDecimal d d.decimalK 17 1).1,
      (shortestDecimal d d.decimalK 17 1).2) = x at *
  generalize shortestDecimal d d.decimalK 17 1 = y at *
  refine ⟨s1, s2, ?_, ?_, ?_⟩
  · have hp : ∀ a b : Nat, a < b → 10 ^ a < 10 ^ b :=
      fun a b hab => Nat.pow_lt_pow_right (by omega) hab
    exact lt_of_le_of_lt (le_trans r1 b1) (hp _ _ (by omega))
  · push_cast at b2 k2
    omega
  · push_cast at r3 b3 k2
    omega

theorem takeWhile_digits_stop (ds s : Bytes) (hd : ∀ d ∈ ds, isDecimalDigit d = true)
    (hs : ∀ b, s.head? = some b → isDecimalDigit b = false) :
    (ds ++ s).takeWhile isDecimalDigit = ds ∧ (ds ++ s).dropWhile isDecimalDigit = s := by
  induction ds with
  | nil =>
    cases s with
    | nil => simp
    | cons b s =>
      have := hs b rfl
      simp [List.takeWhile_cons, List.dropWhile_cons, this]
  | cons d ds ih =>
    have h1 := hd d (List.mem_cons_self _ _)
    have h2 := ih (fun x hx => hd x (List.mem_cons_of_mem _ hx))
    simp [List.takeWhile_cons, List.dropWhile_cons, h1, h2]

theorem exponentText_head (eneg : Bool) (es s : Bytes) (hs : InertEnd s) :
    ∀ b, (exponentText eneg es ++ s).head? = some b →
      isDecimalDigit b = false ∧ b.val ≠ 46 := by
  intro b hb
  unfold exponentText at hb
  by_cases he : es = []
  · rw [if_pos he, List.nil_append] at hb
    exact ⟨(hs b hb).1, (hs b hb).2.1⟩
  · rw [if_neg he] at hb
    simp only [List.cons_append, List.head?_cons, Option.some.injEq] at hb
    subst hb
    decide

theorem fractionText_head (fp : Bytes) (eneg : Bool) (es s : Bytes) (hs : InertEnd s) :
    ∀ b, (fractionText fp ++ (exponentText eneg es ++ s)).head? = some b →
      isDecimalDigit b = false := by
  intro b hb
  unfold fractionText at hb
  by_cases hf : fp = []
  · rw [if_pos hf, List.nil_append] at hb
    exact (exponentText_head eneg es s hs b hb).1
  · rw [if_neg hf] at hb
    simp only [List.cons_append, List.head?_cons, Option.some.injEq] at hb
    subst hb
    decide

theorem exponentValue_nil (eneg : Bool) : exponentValue eneg [] = 0 := by
  cases eneg <;> simp [exponentValue, digitsValue]

theorem scanExponent_text (eneg : Bool) (es : Bytes) (hd : ∀ d ∈ es, isDecimalDigit d = true) :
    scanExponent (exponentText eneg es) =
      ((exponentText eneg es).length, exponentValue eneg es) := by
  by_cases he : es = []
  · subst he
    rw [exponentValue_nil]
    simp [exponentText, scanExponent]
  · have ht := (takeWhile_digits_stop es [] hd (fun _ h => by simp at h)).1
    rw [List.append_nil] at ht
    cases eneg with
    | false =>
      simp [exponentText, he, scanExponent, ht, exponentValue]
      omega
    | true =>
      simp [exponentText, he, scanExponent, ht, exponentValue]
      omega

/-- The conversion `from_chars` of a decimal literal. -/
theorem from_chars_double_decimalLiteral (neg : Bool) (ip fp : Bytes) (eneg : Bool)
    (es : Bytes) (hne : ip ≠ []) (hd : ∀ d ∈ ip, isDecimalDigit d = true)
    (hfd : ∀ d ∈ fp, isDecimalDigit d = true) (hed : ∀ d ∈ es, isDecimalDigit d = true) :
    from_chars_double (decimalLiteral neg ip fp eneg es) =
      decimalToDouble neg (decimalLiteral neg ip fp eneg es).length (digitsValue (ip ++ fp))
        (exponentValue eneg es - (fp.length : Int)) := by
  have hE := exponentText_head eneg es [] inertEnd_nil
  have hF := fractionText_head fp eneg es [] inertEnd_nil
  simp only [List.append_nil] at hE hF
  have ht := takeWhile_digits_stop ip _ hd hF
  have hsc := scanExponent_text eneg es hed
  have hbody : (if neg = true
      then (decimalLiteral neg ip fp eneg es).tail else decimalLiteral neg ip fp eneg es)
      = ip ++ (fractionText fp ++ exponentText eneg es) ∧
      decide ((decimalLiteral neg ip fp eneg es).head? = some 45) = neg := by
    cases ip with
    | nil => exact absurd rfl hne
    | cons d ds =>
      have h1 := (isDecimalDigit_iff d).mp (hd d (List.mem_cons_self _ _))
      have h45 : ¬ d = 45 := fun e => by subst e; simp at h1
      cases neg with
      | false => simp [decimalLiteral, intLiteral, h45]
      | true => simp [decimalLiteral, intLiteral]
  unfold from_chars_double
  simp only [hbody.2, hbody.1, ht.1, List.drop_left]
  by_cases hf : fp = []
  · subst hf
    have hp : ¬ ((fractionText [] ++ exponentText eneg es).head? = some 46) := by
      intro h
      exact (hE 46 (by simpa [fractionText] using h)).2 rfl
    have e0 : fractionText [] ++ exponentText eneg es = exponentText eneg es := by
      simp [fractionText]
    rw [e0] at hp
    simp only [e0, hp, decide_False, Bool.false_eq_true, if_false, hne, false_and, hsc,
      List.append_nil, List.length_nil]
    cases neg <;> simp [decimalLiteral, intLiteral, fractionText]
    congr 1
    omega
  · have hp : (fractionText fp ++ exponentText eneg es).head? = some 46 := by
      simp [fractionText, hf]
    have e1 : (fractionText fp ++ exponentText eneg es).tail = fp ++ exponentText eneg es := by
      simp [fractionText, hf]
    have ht2 := takeWhile_digits_stop fp _ hfd (fun b hb => (hE b hb).1)
    simp only [hp, decide_True, if_true, e1, ht2.1, List.drop_left, hne, false_and, if_false,
      hsc]
    cases neg <;> simp [decimalLiteral, intLiteral, fractionText, hf] <;> congr 1 <;> omega

theorem parseNumberInteger_stop (p : Nat) (ds s : Bytes) (iss : List ParsingIssue)
    (hne : ds ≠ []) (hd : ∀ d ∈ ds, isDecimalDigit d = true)
    (hz : ds.head? = some 48 → ds = [48])
    (hs : ∀ b, s.head? = some b → isDecimalDigit b = false) :
    parseNumberInteger ⟨⟨p, ds ++ s⟩, iss⟩ = some (true, ⟨⟨p + ds.length, s⟩, iss⟩) := by
  cases ds with
  | nil => exact absurd rfl hne
  | cons d ds =>
    have h1 := (isDecimalDigit_iff d).mp (hd d (List.mem_cons_self _ _))
    by_cases h0 : d.val = 48
    · have hd0 : d = 48 := Fin.ext h0
      subst hd0
      have := hz rfl
      simp only [List.cons.injEq, true_and] at this
      subst this
      simp [parseNumberInteger, advance, Ptr.next]
    · have h2 := takeWhile_digits_stop ds s (fun x hx => hd x (List.mem_cons_of_mem _ hx)) hs
      have h3 : 49 ≤ d.val ∧ d.val ≤ 57 := by omega
      simp only [parseNumberInteger, List.cons_append, h0, if_false, h3, and_self, if_true,
        skipDigits, advance, Ptr.next, List.tail_cons, skipDigitsFrom_eq, h2.1, h2.2,
        List.length_cons]
      congr 4
      omega

theorem detectDigits_digits (p : Nat) (ds s : Bytes) (iss : List ParsingIssue)
    (hne : ds ≠ []) (hd : ∀ d ∈ ds, isDecimalDigit d = true)
    (hs : ∀ b, s.head? = some b → isDecimalDigit b = false) :
    detectDigits ⟨⟨p, ds ++ s⟩, iss⟩ = some (true, ⟨⟨p + ds.length, s⟩, iss⟩) := by
  cases ds with
  | nil => exact absurd rfl hne
  | cons d ds =>
    have h1 := hd d (List.mem_cons_self _ _)
    have h2 := takeWhile_digits_stop ds s (fun x hx => hd x (List.mem_cons_of_mem _ hx)) hs
    simp only [detectDigits, List.cons_append, h1, Bool.not_true, Bool.false_eq_true, if_false,
      skipDigits, advance, Ptr.next, List.tail_cons, skipDigitsFrom_eq, h2.1, h2.2,
      List.length_cons]
    congr 4
    omega

theorem parseNumberFraction_text (p : Nat) (fp s : Bytes) (iss : List ParsingIssue)
    (hfd : ∀ d ∈ fp, isDecimalDigit d = true)
    (hs : ∀ b, s.head? = some b → isDecimalDigit b = false ∧ b.val ≠ 46) :
    parseNumberFraction ⟨⟨p, fractionText fp ++ s⟩, iss⟩ =
      some (true, decide (fp ≠ []), ⟨⟨p + (fractionText fp).length, s⟩, iss⟩) := by
  cases fp with
  | nil =>
    simp only [fractionText, if_true, List.nil_append, List.length_nil, Nat.add_zero, ne_eq,
      not_true_eq_false, decide_False]
    exact parseNumberFraction_stop _ (fun b hb => (hs b hb).2)
  | cons d ds =>
    have h := detectDigits_digits (p + 1) (d :: ds) s iss (by simp) hfd
      (fun b hb => (hs b hb).1)
    simp only [List.cons_append] at h
    simp only [fractionText, List.cons_ne_nil, if_false, List.cons_append, parseNumberFraction,
      Byte.val_lit, Nat.reduceMod, if_true, advanceAndDetectEndOfInput, detectEndOfInput,
      advance, Ptr.next, isEmpty, List.tail_cons, List.isEmpty_cons, Bool.false_eq_true, h,
      ne_eq, not_false_eq_true, decide_True, List.length_cons]
    congr 5
    omega

theorem parseNumberExponent_text (p : Nat) (eneg : Bool) (es s : Bytes)
    (iss : List ParsingIssue) (hed : ∀ d ∈ es, isDecimalDigit d = true) (hs : InertEnd s) :
    parseNumberExponent ⟨⟨p, exponentText eneg es ++ s⟩, iss⟩ =
      some (true, decide (es ≠ []), ⟨⟨p + (exponentText eneg es).length, s⟩, iss⟩) := by
  cases es with
  | nil =>
    simp only [exponentText, if_true, List.nil_append, List.length_nil, Nat.add_zero, ne_eq,
      not_true_eq_false, decide_False]
    exact parseNumberExponent_inert _ _ _ hs
  | cons d ds =>
    have h := detectDigits_digits (p + 1 + 1) (d :: ds) s iss (by simp) hed
      (fun b hb => (hs b hb).1)
    simp only [List.cons_append] at h
    have h101 : ((101 : Byte).val ||| 0x20 = 101) := by decide
    cases eneg with
    | false =>
      simp only [exponentText, List.cons_ne_nil, if_false, List.cons_append,
        parseNumberExponent, h101, if_true, advanceAndDetectEndOfInput, detectEndOfInput,
        advance, Ptr.next, isEmpty, List.tail_cons, List.isEmpty_cons, Bool.false_eq_true,
        Byte.val_lit, Nat.reduceMod, true_or, h, ne_eq, not_false_eq_true, decide_True,
        List.length_cons]
      have e : p + 1 + 1 + (ds.length + 1) = p + (ds.length + 1 + 1 + 1) := by omega
      rw [if_pos (by decide), e]
    | true =>
      simp only [exponentText, List.cons_ne_nil, if_false, List.cons_append,
        parseNumberExponent, h101, if_true, advanceAndDetectEndOfInput, detectEndOfInput,
        advance, Ptr.next, isEmpty, List.tail_cons, List.isEmpty_cons, Bool.false_eq_true,
        Byte.val_lit, Nat.reduceMod, or_true, h, ne_eq, not_false_eq_true, decide_True,
        List.length_cons]
      have e : p + 1 + 1 + (ds.length + 1) = p + (ds.length + 1 + 1 + 1) := by omega
      rw [if_pos (by decide), e]

/-- The member `parseNumber` after the sign, on the parts of a decimal literal. -/
theorem parseNumberBody_decimal (begin : Ptr) (isNegative : Nat) (v : Value) (p : Nat)
    (ip fp : Bytes) (eneg : Bool) (es s : Bytes) (iss : List ParsingIssue)
    (hne : ip ≠ []) (hd : ∀ d ∈ ip, isDecimalDigit d = true)
    (hz : ip.head? = some 48 → ip = [48])
    (hfd : ∀ d ∈ fp, isDecimalDigit d = true) (hed : ∀ d ∈ es, isDecimalDigit d = true)
    (hs : InertEnd s) :
    parseNumberBody begin isNegative v
        ⟨⟨p, ip ++ (fractionText fp ++ (exponentText eneg es ++ s))⟩, iss⟩ =
      some (parseNumberConvert begin isNegative (decide (fp ≠ []) || decide (es ≠ [])) v
        ⟨⟨p + ip.length + (fractionText fp).length + (exponentText eneg es).length, s⟩,
          iss⟩) := by
  unfold parseNumberBody
  rw [parseNumberInteger_stop p ip _ iss hne hd hz (fractionText_head fp eneg es s hs)]
  simp only [parseNumberFraction_text _ fp _ iss hfd (exponentText_head eneg es s hs),
    parseNumberExponent_text _ eneg es s iss hed hs]

/-- The member `parseNumber` on a decimal literal: the whole literal is passed to the
conversion. -/
theorem parseNumber_decimalLiteral (neg : Bool) (v : Value) (p : Nat)
    (ip fp : Bytes) (eneg : Bool) (es s : Bytes) (iss : List ParsingIssue)
    (hne : ip ≠ []) (hd : ∀ d ∈ ip, isDecimalDigit d = true)
    (hz : ip.head? = some 48 → ip = [48])
    (hfd : ∀ d ∈ fp, isDecimalDigit d = true) (hed : ∀ d ∈ es, isDecimalDigit d = true)
    (hs : InertEnd s) :
    parseNumber v ⟨⟨p, decimalLiteral neg ip fp eneg es ++ s⟩, iss⟩ =
      some (parseNumberConvert ⟨p, decimalLiteral neg ip fp eneg es ++ s⟩
        (if neg then 1 else 0) (decide (fp ≠ []) || decide (es ≠ [])) v
        ⟨⟨p + (decimalLiteral neg ip fp eneg es).length, s⟩, iss⟩) := by
  cases neg with
  | false =>
    cases ip with
    | nil => exact absurd rfl hne
    | cons d ds =>
      have h1 := (isDecimalDigit_iff d).mp (hd d (List.mem_cons_self _ _))
      have h45 : ¬ d.val = 45 := by omega
      have := parseNumberBody_decimal ⟨p, d :: ds ++ (fractionText fp ++
        (exponentText eneg es ++ s))⟩ 0 v p (d :: ds) fp eneg es s iss hne hd hz hfd hed hs
      simp only [decimalLiteral, intLiteral, Bool.false_eq_true, if_false, List.nil_append,
        List.cons_append, List.append_assoc, parseNumber, h45, ne_eq, not_true_eq_false,
        List.length_cons, List.length_append]
      simp only [List.cons_append, List.length_cons] at this
      rw [this]
      congr 4
      omega
  | true =>
    cases ip with
    | nil => exact absurd rfl hne
    | cons d ds =>
      have := parseNumberBody_decimal ⟨p, 45 :: (d :: ds ++ (fractionText fp ++
        (exponentText eneg es ++ s)))⟩ 1 v (p + 1) (d :: ds) fp eneg es s iss hne hd hz hfd
        hed hs
      simp only [decimalLiteral, intLiteral, if_true, List.cons_append, List.nil_append,
        List.append_assoc, parseNumber,
        advanceAndDetectEndOfInput, detectEndOfInput, advance, Ptr.next, isEmpty,
        List.tail_cons, List.isEmpty_cons, Bool.false_eq_true, if_false, Byte.val_lit,
        List.length_cons, List.length_append]
      simp only [List.cons_append, List.length_cons] at this
      simp only [Nat.reduceMod, if_true, ne_eq, one_ne_zero, not_false_eq_true]
      rw [this, if_neg Bool.false_ne_true]
      congr 4
      omega

theorem digitsValue_zeros (n : Nat) (ds : Bytes) :
    digitsValue (List.replicate n 48 ++ ds) = digitsValue ds := by
  induction n with
  | zero => simp
  | succ n ih =>
    rw [List.replicate_succ, List.cons_append, digitsValue_cons, ih]
    simp

theorem mem_replicate_digit (n : Nat) : ∀ d ∈ List.replicate n (48 : Byte),
    isDecimalDigit d = true := by
  intro d hd
  rw [List.eq_of_mem_replicate hd]
  decide

/-- The text in fixed notation: digits, then nothing when the decimal has no fraction, and a
point and the digits of the fraction otherwise. -/
theorem fixedNotation_shape (num den g : Nat) (s : Int) (hg : g ≠ 0) (hg2 : g < 10 ^ 800)
    (hN : num / den < 10 ^ 800) :
    ∃ ip fp, fixedNotation num den g s = ip ++ fractionText fp ∧ ip ≠ [] ∧
      (∀ d ∈ ip, isDecimalDigit d = true) ∧ (ip.head? = some 48 → ip = [48]) ∧
      (∀ d ∈ fp, isDecimalDigit d = true) ∧
      ((fp = [] ∧ ip = decimalDigits 800 (num / den)) ∨
        (fp ≠ [] ∧ digitsValue (ip ++ fp) = g ∧ -(fp.length : Int) = s)) := by
  obtain ⟨h1, h2, h3, h4⟩ := decimalDigits_spec 799 g hg2
  obtain ⟨n1, n2, n3, n4⟩ := decimalDigits_spec 799 (num / den) hN
  have hhead : (decimalDigits 800 g).head? ≠ some 48 := by
    intro hh
    rw [h3 hh] at h4
    exact hg h4.symm
  unfold fixedNotation
  simp only
  by_cases hs : 0 ≤ s
  · rw [if_pos hs]
    exact ⟨_, [], by simp [fractionText], n1, n2, n3, by simp, Or.inl ⟨rfl, rfl⟩⟩
  · rw [if_neg hs]
    have hj : 1 ≤ (-s).toNat := by omega
    have hjs : ((-s).toNat : Int) = -s := Int.toNat_of_nonneg (by omega)
    generalize (-s).toNat = j at hj hjs ⊢
    generalize decimalDigits 800 g = ds at h1 h2 h3 h4 hhead ⊢
    have hL : 0 < ds.length := List.length_pos.mpr h1
    by_cases hc : j < ds.length
    · rw [if_pos hc]
      have hdrop : ds.drop (ds.length - j) ≠ [] := by
        intro h0
        have := congrArg List.length h0
        simp only [List.length_drop, List.length_nil] at this
        omega
      have htake : ds.take (ds.length - j) ≠ [] := by
        intro h0
        have := congrArg List.length h0
        simp only [List.length_take, List.length_nil] at this
        omega
      refine ⟨ds.take (ds.length - j), ds.drop (ds.length - j), ?_, htake,
        fun d hd => h2 d (List.mem_of_mem_take hd), ?_,
        fun d hd => h2 d (List.mem_of_mem_drop hd), Or.inr ⟨hdrop, ?_, ?_⟩⟩
      · simp [fractionText, hdrop]
      · intro hh
        exfalso
        apply hhead
        cases ds with
        | nil => exact absurd rfl h1
        | cons x xs =>
          have : (x :: xs).length - j = (xs.length - j) + 1 := by
            simp only [List.length_cons] at hc ⊢
            omega
          rw [this, List.take_succ_cons] at hh
          simpa using hh
      · rw [List.take_append_drop, h4]
      · simp only [List.length_drop]
        omega
    · rw [if_neg hc]
      refine ⟨[48], List.replicate (j - ds.length) 48 ++ ds, ?_, by simp,
        mem_replicate_digit 1, fun _ => rfl, ?_, Or.inr ⟨by simp [h1], ?_, ?_⟩⟩
      · simp [fractionText, h1]
      · intro d hd
        rcases List.mem_append.mp hd with hd | hd
        · exact mem_replicate_digit _ d hd
        · exact h2 d hd
      · rw [List.singleton_append, digitsValue_cons, digitsValue_zeros, h4]
        simp
      · simp only [List.length_append, List.length_replicate]
        push_cast
        omega

/-- The text in scientific notation: a digit, the fraction, the exponent. -/
theorem scientificNotation_shape (g : Nat) (s : Int) (hg2 : g < 10 ^ 800)
    (hs1 : -400 ≤ s) (hs2 : s ≤ 400) :
    ∃ ip fp eneg es, scientificNotation g s = ip ++ (fractionText fp ++ exponentText eneg es) ∧
      ip ≠ [] ∧ (∀ d ∈ ip, isDecimalDigit d = true) ∧ (ip.head? = some 48 → ip = [48]) ∧
      (∀ d ∈ fp, isDecimalDigit d = true) ∧ (∀ d ∈ es, isDecimalDigit d = true) ∧
      es ≠ [] ∧ digitsValue (ip ++ fp) = g ∧
      exponentValue eneg es - (fp.length : Int) = s := by
  obtain ⟨h1, h2, h3, h4⟩ := decimalDigits_spec 799 g hg2
  have hlen := decimalDigits_length 800 g
  unfold scientificNotation
  simp only
  generalize decimalDigits 800 g = ds at h1 h2 h3 h4 hlen ⊢
  have hL : 0 < ds.length := List.length_pos.mpr h1
  have he : (s + (ds.length : Int) - 1).natAbs < 10 ^ 20 := by
    have : (s + (ds.length : Int) - 1).natAbs < 2000 := by omega
    exact lt_of_lt_of_le this (by norm_num)
  obtain ⟨e1, e2, e3, e4⟩ := decimalDigits_spec 19 _ he
  generalize hes : decimalDigits 20 (s + (ds.length : Int) - 1).natAbs = es at e1 e2 e3 e4 ⊢
  refine ⟨ds.take 1, ds.drop 1, decide (s + (ds.length : Int) - 1 < 0),
    if es.length < 2 then 48 :: es else es, ?_, ?_, fun d hd => h2 d (List.mem_of_mem_take hd),
    ?_, fun d hd => h2 d (List.mem_of_mem_drop hd), ?_, ?_, ?_, ?_⟩
  · have hne : (if es.length < 2 then 48 :: es else es) ≠ [] := by
      split_ifs
      · simp
      · exact e1
    have hf : fractionText (ds.drop 1) = if ds.length > 1 then 46 :: ds.drop 1 else [] := by
      unfold fractionText
      by_cases hc : ds.length > 1
      · have : ds.drop 1 ≠ [] := by
          intro h0
          have := congrArg List.length h0
          simp only [List.length_drop, List.length_nil] at this
          omega
        rw [if_neg this, if_pos hc]
      · have : ds.drop 1 = [] := by
          apply List.eq_nil_of_length_eq_zero
          simp only [List.length_drop]
          omega
        rw [if_pos this, if_neg hc]
    rw [hf]
    simp only [exponentText, hne, if_false, decide_eq_true_eq, List.append_assoc,
      List.cons_append, List.nil_append]
  · intro h0
    have := congrArg List.length h0
    simp only [List.length_take, List.length_nil] at this
    omega
  · intro hh
    cases ds with
    | nil => exact absurd rfl h1
    | cons x xs =>
      simp only [List.take_succ_cons, List.take_zero, List.head?_cons, Option.some.injEq] at hh ⊢
      rw [hh]
  · intro d hd
    split_ifs at hd
    · rcases List.mem_cons.mp hd with hd | hd
      · rw [hd]
        decide
      · exact e2 d hd
    · exact e2 d hd
  · split_ifs
    · simp
    · exact e1
  · rw [List.take_append_drop, h4]
  · have hv : digitsValue (if es.length < 2 then 48 :: es else es) =
        (s + (ds.length : Int) - 1).natAbs := by
      split_ifs
      · rw [digitsValue_cons, e4]
        simp
      · exact e4
    unfold exponentValue
    rw [hv]
    simp only [List.length_drop, decide_eq_true_eq]
    split_ifs <;> omega

theorem decimalLiteral_head (neg : Bool) (ip fp : Bytes) (eneg : Bool) (es : Bytes)
    (hne : ip ≠ []) (hd : ∀ d ∈ ip, isDecimalDigit d = true) :
    ∃ b rest, decimalLiteral neg ip fp eneg es = b :: rest ∧
      (b.val = 45 ∨ isDecimalDigit b = true) := by
  cases neg with
  | true => exact ⟨45, _, rfl, Or.inl rfl⟩
  | false =>
    cases ip with
    | nil => exact absurd rfl hne
    | cons d ds => exact ⟨d, _, rfl, Or.inr (hd d (List.mem_cons_self _ _))⟩

/-- The function `impl::parse` on a decimal literal is the conversion of the literal. -/
theorem implParse_decimalLiteral (neg : Bool) (ip fp : Bytes) (eneg : Bool) (es : Bytes)
    (o : ParsingOptions) (hne : ip ≠ []) (hd : ∀ d ∈ ip, isDecimalDigit d = true)
    (hz : ip.head? = some 48 → ip = [48])
    (hfd : ∀ d ∈ fp, isDecimalDigit d = true) (hed : ∀ d ∈ es, isDecimalDigit d = true) :
    impl.parse (decimalLiteral neg ip fp eneg es) o =
      some { value := (parseNumberConvert ⟨0, decimalLiteral neg ip fp eneg es⟩
                (if neg then 1 else 0) (decide (fp ≠ []) || decide (es ≠ []))
                .null ⟨⟨0 + (decimalLiteral neg ip fp eneg es).length, []⟩, []⟩).2.1
             status := if (parseNumberConvert ⟨0, decimalLiteral neg ip fp eneg es⟩
                (if neg then 1 else 0) (decide (fp ≠ []) || decide (es ≠ []))
                .null ⟨⟨0 + (decimalLiteral neg ip fp eneg es).length, []⟩, []⟩).1
                then .Success else .Failure
             parsedSize := (parseNumberConvert ⟨0, decimalLiteral neg ip fp eneg es⟩
                (if neg then 1 else 0) (decide (fp ≠ []) || decide (es ≠ []))
                .null ⟨⟨0 + (decimalLiteral neg ip fp eneg es).length, []⟩, []⟩).2.2.parsedSize
             issues := (parseNumberConvert ⟨0, decimalLiteral neg ip fp eneg es⟩
                (if neg then 1 else 0) (decide (fp ≠ []) || decide (es ≠ []))
                .null ⟨⟨0 + (decimalLiteral neg ip fp eneg es).length, []⟩, []⟩).2.2.issues } := by
  obtain ⟨b, rest, hb, hb2⟩ := decimalLiteral_head neg ip fp eneg es hne hd
  have hnw : isWhitespaceB b = false := by
    have h : 45 ≤ b.val ∧ b.val ≤ 57 := by
      rcases hb2 with hb | hb
      · omega
      · have := (isDecimalDigit_iff b).mp hb
        omega
    simp only [isWhitespaceB, decide_eq_false_iff_not]
    omega
  have hrun := parseNumber_decimalLiteral neg .null 0 ip fp eneg es [] [] hne hd hz hfd hed
    inertEnd_nil
  rw [List.append_nil] at hrun
  unfold impl.parse ParserImpl.parse
  have hskip : detectEndOfInputAfterSkippingWhitespaces
      ⟨⟨0, decimalLiteral neg ip fp eneg es⟩, []⟩
      = (false, ⟨⟨0, decimalLiteral neg ip fp eneg es⟩, []⟩) := by
    simp [detectEndOfInputAfterSkippingWhitespaces, skipWhitespaces, skipWhitespacesFrom_eq,
      hb, List.dropWhile_cons, List.takeWhile_cons, hnw]
  simp only [hskip, Bool.false_eq_true, if_false]
  rw [parseImpl_number o _ .null _ b rest hb hb2, hrun]

/-- A decimal literal with a fraction or an exponent whose conversion is a double is parsed as
that double. -/
theorem parse_decimalText (neg : Bool) (ip fp : Bytes) (eneg : Bool) (es : Bytes)
    (o : ParsingOptions) (hne : ip ≠ []) (hd : ∀ d ∈ ip, isDecimalDigit d = true)
    (hz : ip.head? = some 48 → ip = [48])
    (hfd : ∀ d ∈ fp, isDecimalDigit d = true) (hed : ∀ d ∈ es, isDecimalDigit d = true)
    (hdec : fp ≠ [] ∨ es ≠ []) (d : Double)
    (hval : decimalToDouble neg (decimalLiteral neg ip fp eneg es).length
      (digitsValue (ip ++ fp)) (exponentValue eneg es - (fp.length : Int)) =
        .ok (decimalLiteral neg ip fp eneg es).length d) :
    parse (decimalLiteral neg ip fp eneg es) o .StopAfterValueEnds = some
      { value := .double d, status := .Success,
        parsedSize := (decimalLiteral neg ip fp eneg es).length, issues := [] } := by
  have hi := implParse_decimalLiteral neg ip fp eneg es o hne hd hz hfd hed
  have hdec2 : (decide (fp ≠ []) || decide (es ≠ [])) = true := by
    rcases hdec with h | h <;> simp [h]
  have hrange : Ptr.range ⟨0, decimalLiteral neg ip fp eneg es⟩
      ⟨0 + (decimalLiteral neg ip fp eneg es).length, []⟩ = decimalLiteral neg ip fp eneg es := by
    simp [Ptr.range]
  have hc : parseNumberConvert ⟨0, decimalLiteral neg ip fp eneg es⟩
      (if neg then 1 else 0) (decide (fp ≠ []) || decide (es ≠ [])) .null
      ⟨⟨0 + (decimalLiteral neg ip fp eneg es).length, []⟩, []⟩ =
      (true, .double d, ⟨⟨0 + (decimalLiteral neg ip fp eneg es).length, []⟩, []⟩) := by
    rw [hdec2]
    unfold parseNumberConvert
    simp only [Bool.not_true, Bool.false_eq_true, false_and, if_false, hrange,
      from_chars_double_decimalLiteral neg ip fp eneg es hne hd hfd hed, hval]
  rw [hc] at hi
  rw [parse_stop_eq, hi]
  simp only [if_true, parsedSize, Nat.zero_add]

theorem to_chars_double_eq (d : Double) (h : d.exponent < 2047) (hz : d.isZero = false) :
    to_chars_double d = (if d.sign then [45] else []) ++
      (if (fixedNotation (Double.magnitude d).1 (Double.magnitude d).2 d.decimal.1
            d.decimal.2).length ≤ (scientificNotation d.decimal.1 d.decimal.2).length
        then fixedNotation (Double.magnitude d).1 (Double.magnitude d).2 d.decimal.1 d.decimal.2
        else scientificNotation d.decimal.1 d.decimal.2) := by
  have h1 : ¬ d.exponent ≥ 2047 := by omega
  unfold to_chars_double Double.decimal Double.decimalK
  simp only [h1, if_false, hz, Bool.false_eq_true]

theorem magnitude_lt (d : Double) (h : d.exponent < 2047) (hf : d.fraction < 2 ^ 52)
    (hz : d.isZero = false) : (Double.magnitude d).1 / (Double.magnitude d).2 < 10 ^ 800 := by
  have h1 := (toRat_bounds d h hf hz).2
  have h2 : (((Double.magnitude d).1 / (Double.magnitude d).2 : ℕ) : ℚ) ≤ d.toRat :=
    Nat.cast_div_le
  have h3 : (10 : ℚ) ^ ((-340 : Int) + (700 : ℕ)) ≤ ((10 ^ 800 : ℕ) : ℚ) := by
    have e : (10 : ℚ) ^ ((-340 : Int) + (700 : ℕ)) = 10 ^ 360 := by norm_num
    rw [e]
    push_cast
    exact pow_le_pow_right₀ (by norm_num) (by norm_num)
  have h4 : (((Double.magnitude d).1 / (Double.magnitude d).2 : ℕ) : ℚ) < ((10 ^ 800 : ℕ) : ℚ) :=
    lt_of_le_of_lt h2 (lt_of_lt_of_le h1 h3)
  exact_mod_cast h4

theorem decimalLiteral_int (neg : Bool) (ip : Bytes) (eneg : Bool) :
    decimalLiteral neg ip [] eneg [] = intLiteral neg ip := by
  simp [decimalLiteral, fractionText, exponentText]

/-- The shape of the text that `to_chars` writes for a finite double that is not zero: a
decimal literal, either the digits of the whole part of the double or the digits and the
exponent of the decimal that `to_chars` finds. -/
theorem to_chars_double_shape (d : Double) (h : d.exponent < 2047) (hf : d.fraction < 2 ^ 52)
    (hz : d.isZero = false) :
    ∃ ip fp eneg es, to_chars_double d = decimalLiteral d.sign ip fp eneg es ∧ ip ≠ [] ∧
      (∀ x ∈ ip, isDecimalDigit x = true) ∧ (ip.head? = some 48 → ip = [48]) ∧
      (∀ x ∈ fp, isDecimalDigit x = true) ∧ (∀ x ∈ es, isDecimalDigit x = true) ∧
      ((fp = [] ∧ es = [] ∧
          ip = decimalDigits 800 ((Double.magnitude d).1 / (Double.magnitude d).2)) ∨
        ((fp ≠ [] ∨ es ≠ []) ∧ digitsValue (ip ++ fp) = d.decimal.1 ∧
          exponentValue eneg es - (fp.length : Int) = d.decimal.2)) := by
  obtain ⟨c1, c2, c3, c4, c5⟩ := decimal_spec d h hf hz
  rw [to_chars_double_eq d h hz]
  by_cases hc : (fixedNotation (Double.magnitude d).1 (Double.magnitude d).2 d.decimal.1
      d.decimal.2).length ≤ (scientificNotation d.decimal.1 d.decimal.2).length
  · rw [if_pos hc]
    obtain ⟨ip, fp, e, i1, i2, i3, i4, i5⟩ := fixedNotation_shape (Double.magnitude d).1
      (Double.magnitude d).2 d.decimal.1 d.decimal.2 c2 c3 (magnitude_lt d h hf hz)
    refine ⟨ip, fp, false, [], ?_, i1, i2, i3, i4, by simp, ?_⟩
    · rw [e]
      simp [decimalLiteral, intLiteral, exponentText]
    · rcases i5 with ⟨j1, j2⟩ | ⟨j1, j2, j3⟩
      · exact Or.inl ⟨j1, rfl, j2⟩
      · refine Or.inr ⟨Or.inl j1, j2, ?_⟩
        rw [exponentValue_nil, ← j3]
        omega
  · rw [if_neg hc]
    obtain ⟨ip, fp, eneg, es, e, i1, i2, i3, i4, i5, i6, i7, i8⟩ :=
      scientificNotation_shape d.decimal.1 d.decimal.2 c3 c4 c5
    refine ⟨ip, fp, eneg, es, ?_, i1, i2, i3, i4, i5, Or.inr ⟨Or.inr i6, i7, i8⟩⟩
    rw [e]
    simp [decimalLiteral, intLiteral]

theorem magnitude_whole (d : Double) (hf : d.fraction < 2 ^ 52)
    (hN : 2 ^ 53 ≤ (Double.magnitude d).1 / (Double.magnitude d).2) :
    (Double.magnitude d).2 = 1 := by
  unfold Double.magnitude at hN ⊢
  by_cases h0 : d.exponent = 0
  · exfalso
    rw [if_pos h0] at hN
    simp only at hN
    have : d.fraction / 2 ^ 1074 ≤ d.fraction := Nat.div_le_self _ _
    have h53 : (2 : Nat) ^ 52 < 2 ^ 53 := by norm_num
    omega
  · rw [if_neg h0] at hN ⊢
    by_cases h1 : d.exponent ≥ 1075
    · rw [if_pos h1]
    · exfalso
      rw [if_neg h1] at hN
      simp only at hN
      have : (2 ^ 52 + d.fraction) / 2 ^ (1075 - d.exponent) ≤ 2 ^ 52 + d.fraction :=
        Nat.div_le_self _ _
      have h53 : (2 : Nat) ^ 53 = 2 ^ 52 + 2 ^ 52 := by norm_num
      omega

theorem readAsInteger_zero (d : Double) (h : d.exponent < 2047) (hz : d.isZero = true) :
    d.readAsInteger = true := by
  have h1 : ¬ d.exponent ≥ 2047 := by omega
  have ht : to_chars_double d = (if d.sign then [45] else []) ++ [48] := by
    unfold to_chars_double
    simp only [h1, if_false, hz, if_true]
  unfold Double.readAsInteger
  rw [ht]
  cases d.sign <;> decide

/-- The text that `to_chars` writes for a double that is kept is parsed as that double. -/
theorem parse_to_chars_double (d : Double) (hk : d.kept = true) (o : ParsingOptions) :
    parse (to_chars_double d) o .StopAfterValueEnds = some
      { value := .double d, status := .Success, parsedSize := (to_chars_double d).length,
        issues := [] } := by
  unfold Double.kept at hk
  simp only [Bool.and_eq_true, decide_eq_true_eq, Bool.not_eq_true'] at hk
  obtain ⟨⟨h, hf⟩, hr⟩ := hk
  have hz : d.isZero = false := by
    cases hzz : d.isZero with
    | false => rfl
    | true =>
      rw [readAsInteger_zero d h hzz] at hr
      exact absurd hr (by decide)
  obtain ⟨ip, fp, eneg, es, e, i1, i2, i3, i4, i5, i6⟩ := to_chars_double_shape d h hf hz
  rcases i6 with ⟨j1, j2, j3⟩ | ⟨j1, j2, j3⟩
  · subst j1
    subst j2
    rw [decimalLiteral_int] at e
    have hbody : (intLiteral d.sign ip).drop (if d.sign then 1 else 0) = ip := by
      cases d.sign <;> simp [intLiteral]
    have hall : ip.all isDecimalDigit = true := by
      rw [List.all_eq_true]
      exact i2
    unfold Double.readAsInteger at hr
    simp only [e, hbody, hall, Bool.true_and, Bool.or_eq_false_iff, decide_eq_false_iff_not,
      Bool.and_eq_false_imp, decide_eq_true_eq] at hr
    have htest := intLiteral_test d.sign ip [] i1 i2 i3
    rw [List.append_nil] at htest
    have hno : ¬(-9223372036854775808 ≤ intLiteralValue d.sign ip ∧
        intLiteralValue d.sign ip ≤ 9223372036854775807) := by
      intro hx
      rcases htest.mpr hx with h1 | ⟨h1, h2⟩
      · exact hr.1 h1
      · have := hr.2 h1
        rw [h2] at this
        exact absurd this (by decide)
    have hv : digitsValue ip = (Double.magnitude d).1 / (Double.magnitude d).2 := by
      rw [j3]
      exact (decimalDigits_spec 799 _ (magnitude_lt d h hf hz)).2.2.2
    have hN : 2 ^ 53 ≤ (Double.magnitude d).1 / (Double.magnitude d).2 := by
      rw [← hv]
      by_contra hlt
      apply hno
      have h53 : (2 : Nat) ^ 53 = 9007199254740992 := by norm_num
      unfold intLiteralValue
      split_ifs <;> omega
    have hden := magnitude_whole d hf hN
    have hround : Double.round d.sign (digitsValue ip) 1 = some d := by
      have := round_magnitude d h hf hz
      rw [hden] at this
      rw [hv, hden, Nat.div_one]
      exact this
    have hi := implParse_intLiteral d.sign ip o i1 i2 i3
    have hc := (parseNumberConvert_intLiteral d.sign .null 0 ip [] [] i1 i2 i3).2 hno
    rw [List.append_nil, hround] at hc
    simp only at hc
    rw [hc] at hi
    rw [parse_stop_eq, e, hi]
    simp only [if_true, parsedSize, Nat.zero_add]
  · obtain ⟨c1, c2, -, -, -⟩ := decimal_spec d h hf hz
    rw [e]
    refine parse_decimalText d.sign ip fp eneg es o i1 i2 i3 i4 i5 j1 d ?_
    rw [j2, j3]
    exact decimalToDouble_rounds d _ _ _ c1 c2 hz

theorem to_chars_double_head (d : Double) (hk : d.kept = true) :
    ∀ b, (to_chars_double d).head? = some b → ¬ isWhitespace b := by
  unfold Double.kept at hk
  simp only [Bool.and_eq_true, decide_eq_true_eq, Bool.not_eq_true'] at hk
  obtain ⟨⟨h, hf⟩, hr⟩ := hk
  have hz : d.isZero = false := by
    cases hzz : d.isZero with
    | false => rfl
    | true =>
      rw [readAsInteger_zero d h hzz] at hr
      exact absurd hr (by decide)
  obtain ⟨ip, fp, eneg, es, e, i1, i2, -⟩ := to_chars_double_shape d h hf hz
  obtain ⟨c, rest, e2, hc⟩ := decimalLiteral_head d.sign ip fp eneg es i1 i2
  intro b hb
  rw [e, e2] at hb
  simp only [List.head?_cons, Option.some.injEq] at hb
  subst hb
  unfold isWhitespace
  rcases hc with hc | hc
  · omega
  · have := (isDecimalDigit_iff c).mp hc
    omega

theorem doublesKeptArray_mem (a : List Value) (h : Value.doublesKeptArray a = true) :
    ∀ x ∈ a, x.doublesKept = true := by
  induction a with
  | nil => intro x hx; cases hx
  | cons y t ih =>
    rw [Value.doublesKeptArray, Bool.and_eq_true] at h
    intro x hx
    rcases List.mem_cons.mp hx with rfl | hx
    · exact h.1
    · exact ih h.2 x hx

theorem doublesKeptObject_mem (o : List (Bytes × Value))
    (h : Value.doublesKeptObject o = true) : ∀ x ∈ o, x.2.doublesKept = true := by
  induction o with
  | nil => intro x hx; cases hx
  | cons y t ih =>
    obtain ⟨k, v⟩ := y
    rw [Value.doublesKeptObject, Bool.and_eq_true] at h
    intro x hx
    rcases List.mem_cons.mp hx with rfl | hx
    · exact h.1
    · exact ih h.2 x hx

theorem text_head_kept (v : Value) (h : v.doublesKept = true) :
    ∀ b, v.text.head? = some b → ¬ isWhitespace b := by
  intro b hb
  cases v with
  | null => cases hb; decide
  | boolean c => cases c <;> cases hb <;> decide
  | int64 i =>
    rw [Value.text, to_chars_int64_eq] at hb
    obtain ⟨h1, h2, -, -⟩ := decimalDigits_spec 19 i.val.natAbs (natAbs_int64_lt i)
    obtain ⟨c, rest, e, hc⟩ := intLiteral_head (decide (i.val < 0)) _ h1 h2
    rw [e] at hb
    simp only [List.head?_cons, Option.some.injEq] at hb
    subst hb
    unfold isWhitespace
    rcases hc with hc | hc
    · omega
    · have := (isDecimalDigit_iff c).mp hc
      omega
  | double d =>
    rw [Value.doublesKept] at h
    rw [Value.text] at hb
    exact to_chars_double_head d h b hb
  | string s => cases hb; decide
  | array a =>
    cases a with
    | nil => cases hb; decide
    | cons x xs =>
      rw [Value.text, Value.textArray] at hb
      cases hb
      decide
  | object o =>
    cases o with
    | nil => cases hb; decide
    | cons e ms =>
      obtain ⟨k, x⟩ := e
      rw [Value.text, Value.textObject] at hb
      cases hb
      decide

/-- The text that the serializer writes for a value whose `Double`s are kept is parsed, with
the default options, as that value. -/
theorem parse_text_kept : ∀ (n : Nat) (v : Value), v.height ≤ n → v.doublesKept = true →
    v.keysDistinct = true →
    parse v.text {} .StopAfterValueEnds = some
      { value := v, status := .Success, parsedSize := v.text.length, issues := [] } := by
  intro n
  induction n with
  | zero =>
    intro v h
    have := height_pos v
    omega
  | succ n ih =>
    intro v hh hnd hkd
    cases v with
    | null => rw [Value.text]; decide!
    | boolean b => cases b <;> rw [Value.text] <;> decide!
    | int64 i => rw [Value.text]; exact parse_to_chars_int64 i {}
    | double d =>
      rw [Value.doublesKept] at hnd
      rw [Value.text]
      exact parse_to_chars_double d hnd {}
    | string s => rw [Value.text]; exact parse_stringText s
    | array a =>
      cases a with
      | nil => rw [Value.text, Value.textArray]; decide!
      | cons x xs =>
        rw [Value.height] at hh
        rw [Value.doublesKept] at hnd
        rw [Value.keysDistinct] at hkd
        have hall : ∀ y ∈ x :: xs, parse y.text {} .StopAfterValueEnds = some
            { value := y, status := .Success, parsedSize := y.text.length, issues := [] } ∧
            y.doublesKept = true := by
          intro y hy
          have h1 := height_le_heightArray _ y hy
          have h2 := doublesKeptArray_mem _ hnd y hy
          exact ⟨ih y (by omega) h2 (keysDistinctArray_mem _ hkd y hy), h2⟩
        have hwf : ∀ el ∈ elementOf x :: xs.map elementOf, el.WellFormed {} := by
          intro el hel
          rw [← List.map_cons] at hel
          obtain ⟨y, hy, rfl⟩ := List.mem_map.mp hel
          exact ⟨by simp [elementOf], by simp [elementOf], text_head_kept y (hall y hy).2, [],
            (hall y hy).1⟩
        have h := implParse_arrayText {} (elementOf x) (xs.map elementOf) hwf
        have hi : elementsIssues {} 1 (elementOf x :: xs.map elementOf) = [] := by
          rw [← List.map_cons]
          exact elementsIssues_nil {} (x :: xs)
            (fun y hy => parsedIssues_of_parse _ _ _ (hall y hy).1) 1
        have hv : (elementOf x :: xs.map elementOf).map (fun y => y.value) = x :: xs := by
          simp [elementOf, Function.comp_def]
        rw [arrayText_text, hi, hv] at h
        rw [parse_stop_eq, h]
    | object o =>
      cases o with
      | nil => rw [Value.text, Value.textObject]; decide!
      | cons e ms =>
        rw [Value.height] at hh
        rw [Value.doublesKept] at hnd
        rw [Value.keysDistinct, Bool.and_eq_true, decide_eq_true_eq] at hkd
        have hall : ∀ y ∈ e :: ms, parse y.2.text {} .StopAfterValueEnds = some
            { value := y.2, status := .Success, parsedSize := y.2.text.length, issues := [] } ∧
            y.2.doublesKept = true := by
          intro y hy
          have h1 := height_le_heightObject _ y hy
          have h2 := doublesKeptObject_mem _ hnd y hy
          exact ⟨ih y.2 (by omega) h2 (keysDistinctObject_mem _ hkd.2 y hy), h2⟩
        have hwf : ∀ m ∈ memberOf e :: ms.map memberOf, m.WellFormed {} := by
          intro m hm
          rw [← List.map_cons] at hm
          obtain ⟨y, hy, rfl⟩ := List.mem_map.mp hm
          exact ⟨by simp [memberOf], by simp [memberOf], by simp [memberOf],
            by simp [memberOf], rfl, text_head_kept y.2 (hall y hy).2,
            ⟨[], parse_stringText y.1⟩, ⟨[], (hall y hy).1⟩⟩
        have hkeys : ((memberOf e :: ms.map memberOf).map (fun y => y.key)) =
            (e :: ms).map (fun y => y.1) := by
          simp [memberOf, Function.comp_def]
        have h := implParse_objectText_issues {} (memberOf e) (ms.map memberOf) hwf
          (fun _ => by rw [hkeys]; exact hkd.1)
        have hi : membersIssues {} 1 [] (memberOf e :: ms.map memberOf) = [] := by
          rw [← List.map_cons]
          exact membersIssues_nil {} (e :: ms)
            (fun y _ => parsedIssues_of_parse _ _ _ (parse_stringText y.1))
            (fun y hy => parsedIssues_of_parse _ _ _ (hall y hy).1) [] 1 hkd.1
            (fun _ _ => List.not_mem_nil _)
        have hv : (memberOf e :: ms.map memberOf).foldl insertMember [] = e :: ms := by
          rw [← List.map_cons, foldl_insertMember_new (e :: ms) [] hkd.1 (fun _ _ => rfl)]
          rfl
        rw [objectText_text, hi, hv] at h
        rw [parse_stop_eq, h]

theorem double_eq_self (d : Double) (h : d.exponent < 2047) : Double.eq d d = true := by
  have hn : d.isNaN = false := by
    unfold Double.isNaN
    have : (d.exponent == 2047) = false := by
      rw [beq_eq_false_iff_ne]
      omega
    rw [this]
    rfl
  unfold Double.eq
  simp [hn]

/-- A value whose `Double`s are kept is equal to itself under `operator==`. -/
theorem eq_self_kept : ∀ (n : Nat) (v : Value), v.height ≤ n → v.doublesKept = true →
    v.keysDistinct = true → Value.eq v v = true := by
  intro n
  induction n with
  | zero =>
    intro v h
    have := height_pos v
    omega
  | succ n ih =>
    intro v hh hnd hkd
    cases v with
    | null => rw [Value.eq]
    | boolean b => rw [Value.eq]; simp
    | int64 i => rw [Value.eq]; simp
    | double d =>
      rw [Value.doublesKept] at hnd
      unfold Double.kept at hnd
      simp only [Bool.and_eq_true, decide_eq_true_eq] at hnd
      rw [Value.eq]
      exact double_eq_self d hnd.1.1
    | string s => rw [Value.eq]; simp
    | array a =>
      rw [Value.height] at hh
      rw [Value.doublesKept] at hnd
      rw [Value.keysDistinct] at hkd
      rw [Value.eq]
      exact eqArray_self a (fun y hy => by
        have h1 := height_le_heightArray _ y hy
        exact ih y (by omega) (doublesKeptArray_mem _ hnd y hy)
          (keysDistinctArray_mem _ hkd y hy))
    | object o =>
      rw [Value.height] at hh
      rw [Value.doublesKept] at hnd
      rw [Value.keysDistinct, Bool.and_eq_true, decide_eq_true_eq] at hkd
      rw [Value.eq, eqObject_sub o o (fun y hy => by
        have h1 := height_le_heightObject _ y hy
        exact ⟨find_of_mem o hkd.1 y hy,
          ih y.2 (by omega) (doublesKeptObject_mem _ hnd y hy)
            (keysDistinctObject_mem _ hkd.2 y hy)⟩)]
      simp

theorem parse_nonfinite : ∀ (s z : Bool) (mode : ParsingMode),
    (parse ((if s then [45] else []) ++ (if z then bytes "inf" else bytes "nan")) {} mode).map
      (fun r => r.value) = some .null := by
  intro s z mode
  cases s <;> cases z <;> cases mode <;> decide!

theorem parse_zero_text : ∀ (s : Bool) (mode : ParsingMode),
    (parse ((if s then [45] else []) ++ [48]) {} mode).map (fun r => r.value) =
      some (.int64 ⟨0, by decide⟩) := by
  intro s mode
  cases s <;> cases mode <;> decide!

theorem eq_null_double (d : Double) : Value.eq .null (.double d) = false := by
  rw [Value.eq]
  all_goals simp

theorem eq_int64_double (i : Int64) (d : Double) : Value.eq (.int64 i) (.double d) = false := by
  rw [Value.eq]
  all_goals simp

/-- The value that comes back for a `Double` that is not kept is not equal to it: the text of
a double that is not finite is not parsed, and a text that is read as an integer comes back
as an `Int64`. -/
theorem parse_not_kept (d : Double) (hf : d.fraction < 2 ^ 52) (hk : d.kept = false)
    (mode : ParsingMode) (r : ParsingResult)
    (h : parse (to_chars_double d) {} mode = some r) :
    Value.eq r.value (.double d) = false := by
  by_cases hfin : d.exponent < 2047
  · have hr : d.readAsInteger = true := by
      unfold Double.kept at hk
      simp only [hfin, hf, decide_True, Bool.true_and, Bool.not_eq_false'] at hk
      exact hk
    cases hz : d.isZero with
    | true =>
      have ht : to_chars_double d = (if d.sign then [45] else []) ++ [48] := by
        have h1 : ¬ d.exponent ≥ 2047 := by omega
        unfold to_chars_double
        simp only [h1, if_false, hz, if_true]
      have := parse_zero_text d.sign mode
      rw [← ht, h] at this
      simp only [Option.map_some', Option.some.injEq] at this
      rw [this]
      exact eq_int64_double _ d
    | false =>
      obtain ⟨ip, fp, eneg, es, e, i1, i2, i3, i4, i5, -⟩ := to_chars_double_shape d hfin hf hz
      have hbody : (decimalLiteral d.sign ip fp eneg es).drop (if d.sign then 1 else 0) =
          ip ++ (fractionText fp ++ exponentText eneg es) := by
        cases d.sign <;> simp [decimalLiteral, intLiteral]
      unfold Double.readAsInteger at hr
      simp only [e, hbody, Bool.and_eq_true, List.all_eq_true] at hr
      obtain ⟨hall, htest⟩ := hr
      have hfp : fp = [] := by
        by_contra hne
        have := hall 46 (by simp [fractionText, hne])
        exact absurd this (by decide)
      have hes : es = [] := by
        by_contra hne
        have := hall 101 (by simp [exponentText, hne])
        exact absurd this (by decide)
      subst hfp
      subst hes
      rw [decimalLiteral_int] at e
      have e0 : ip ++ (fractionText [] ++ exponentText eneg []) = ip := by
        simp [fractionText, exponentText]
      rw [e0] at htest
      have hrange := (intLiteral_test d.sign ip [] i1 i2 i3).mp (by
        rw [List.append_nil]
        simp only [Bool.or_eq_true, decide_eq_true_eq, Bool.and_eq_true] at htest
        exact htest)
      have hi := implParse_intLiteral d.sign ip {} i1 i2 i3
      have hc := (parseNumberConvert_intLiteral d.sign .null 0 ip [] [] i1 i2 i3).1 hrange
      rw [List.append_nil] at hc
      rw [hc] at hi
      have hp := parse_of_implParse_all _ {} mode _ hi
        (by simp only [parsedSize, Nat.zero_add]) (by simp)
      rw [e, hp] at h
      obtain rfl := Option.some.inj h
      exact eq_int64_double _ d
  · have ht : to_chars_double d = (if d.sign then [45] else []) ++
        (if decide (d.fraction = 0) then bytes "inf" else bytes "nan") := by
      have h1 : d.exponent ≥ 2047 := by omega
      unfold to_chars_double
      simp only [h1, if_true, decide_eq_true_eq]
    have := parse_nonfinite d.sign (decide (d.fraction = 0)) mode
    rw [← ht, h] at this
    simp only [Option.map_some', Option.some.injEq] at this
    rw [this]
    exact eq_null_double d

/-- C1, amended: for every value tree in which each `Double` is finite and is written by
`to_chars` as text that `parseNumber` does not read as an integer (the text has a fraction or an
exponent, or it has more digits than an `int64_t` of its sign holds), the keys of each `Object`
differing pairwise as in a map and the strings and keys being any bytes, `serializeToString`
with the default options returns a text, and `parse` with the default options, in both modes,
returns for that text `Success` with no issue, `parsedSize` the length of the text and the
value `v` itself, which is equal to `v` under `operator==`.  No other `Double` comes back: for a
`Double` that is not finite, or whose text is read as an integer (`1.0` is written as `1`, the
zeros as `0` and `-0`), the value that `parse` returns for its text is not equal to it. -/
theorem parse_serializeToString (v : Value) (hdk : v.doublesKept = true)
    (hkd : v.keysDistinct = true) (mode : ParsingMode) :
    (∃ text, serializeToString v = some (.ok text) ∧
      parse text {} mode = some
        { value := v, status := .Success, parsedSize := text.length, issues := [] } ∧
      Value.eq v v = true) ∧
    (∀ d : Double, d.fraction < 2 ^ 52 → d.kept = false →
      ∃ text, serializeToString (.double d) = some (.ok text) ∧
        ∀ r, parse text {} mode = some r → Value.eq r.value (.double d) = false) := by
  constructor
  · refine ⟨v.text, serializeToString_default v, ?_,
      eq_self_kept v.height v (Nat.le_refl _) hdk hkd⟩
    have h := parse_text_kept v.height v (Nat.le_refl _) hdk hkd
    rw [parse_stop_eq] at h
    exact parse_of_implParse_all _ {} mode _ h rfl (by simp)
  · intro d hf hk
    refine ⟨to_chars_double d, ?_, fun r hr => parse_not_kept d hf hk mode r hr⟩
    have := serializeToString_default (.double d)
    rw [Value.text] at this
    exact this

/-- C1, amended, at the value `{"k":[1.5,-12,1e+22,9223372036854775808,"a\"b\n",true,null,{}]}`
with the `Double`s `1.5`, `1e22` and `2^63`. -/
theorem parse_serializeToString_witness :
    (Value.object [([107], .array [.double ⟨false, 1023, 2251799813685248⟩,
        .int64 ⟨-12, by decide⟩, .double ⟨false, 1096, 264771954660754⟩,
        .double ⟨false, 1086, 0⟩,
        .string [97, 34, 98, 10], .boolean true, .null, .object []])]).doublesKept = true ∧
    (Value.object [([107], .array [.double ⟨false, 1023, 2251799813685248⟩,
        .int64 ⟨-12, by decide⟩, .double ⟨false, 1096, 264771954660754⟩,
        .double ⟨false, 1086, 0⟩,
        .string [97, 34, 98, 10], .boolean true, .null, .object []])]).keysDistinct = true ∧
    ∃ text, serializeToString (.object [([107], .array [
        .double ⟨false, 1023, 2251799813685248⟩,
        .int64 ⟨-12, by decide⟩, .double ⟨false, 1096, 264771954660754⟩,
        .double ⟨false, 1086, 0⟩,
        .string [97, 34, 98, 10], .boolean true, .null, .object []])]) = some (.ok text) ∧
      parse text {} .VerifyTrailingWhitespace = some
        { value := .object [([107], .array [.double ⟨false, 1023, 2251799813685248⟩,
            .int64 ⟨-12, by decide⟩, .double ⟨false, 1096, 264771954660754⟩,
            .double ⟨false, 1086, 0⟩,
            .string [97, 34, 98, 10], .boolean true, .null, .object []])]
          status := .Success, parsedSize := text.length, issues := [] } ∧
      Value.eq (.object [([107], .array [.double ⟨false, 1023, 2251799813685248⟩,
          .int64 ⟨-12, by decide⟩, .double ⟨false, 1096, 264771954660754⟩,
          .double ⟨false, 1086, 0⟩,
          .string [97, 34, 98, 10], .boolean true, .null, .object []])])
        (.object [([107], .array [.double ⟨false, 1023, 2251799813685248⟩,
          .int64 ⟨-12, by decide⟩, .double ⟨false, 1096, 264771954660754⟩,
          .double ⟨false, 1086, 0⟩,
          .string [97, 34, 98, 10], .boolean true, .null, .object []])]) = true :=
  ⟨by decide!, by decide!,
    (parse_serializeToString _ (by decide!) (by decide!) .VerifyTrailingWhitespace).1⟩

end minjson
